import Mathlib

/-!
# Pseudo-Boolean canonicalization and the SAT solver of or-tools

A shallow embedding of `src/trunk/src/sat/pb_constraint.cc` and of the problem
construction, propagation, backtracking, conflict analysis, conflict
minimization and `Solve` entry points of `src/trunk/src/sat/sat_solver.cc`, with
the classes they call.  Two smaller pieces of the repository are embedded in the
same namespace: the class `MergingPartition` of
`src/trunk/src/algorithms/dynamic_partition.h` and the domain intersection
`FzDomain::IntersectWith` of `src/trunk/src/flatzinc2/model.cc`.

Conventions of the embedding.

* `Coefficient` is a C++ `int64`.  It is embedded as an `Int`; the places where
  the machine computes modulo `2^64` (unary minus, addition, subtraction) go
  through `wrap64`, and the range of a value is stated with `IsInt64`.
* `std::vector` is a `List`; a function that writes through pointers returns the
  written values, and a C++ `false` result that leaves the outputs unspecified is
  `none`.
* A method of a class takes the object and returns the new object next to its
  C++ result.  A `SatClause*` is the position of the clause in the list
  `clause_heap_`, a `ResolutionNode*` the number of the node in the arena of
  `UnsatProof`, and a pointer to a linear constraint its position in
  `PbConstraints::constraints_`.
* A method of `SatSolver` that can abort on a `CHECK`, or that loops, returns an
  `Except Abort`; its loops are bounded by a `fuel` argument, and
  `Abort.OUT_OF_FUEL` is never a result of the source.
* The headers `sat_base.h`, `pb_constraint.h`, `unsat_proof.h`, `sat_solver.h` and
  the files `clause.cc` and `symmetry.cc` are not among the sources.  What the
  embedded functions need from them is modelled from the specification of the
  repository, in definitions whose description starts with "Modelled from the
  spec".
* The scratch vectors of the conflict analysis (`is_marked_`, `is_independent_`,
  `same_reason_identifier_`, `dfs_stack_`, `variable_to_process_`,
  `min_trail_index_per_level_`) are not fields of the embedded `SatSolver`: a
  function that reads or writes one of them takes its value and returns the new
  one.
* Logging and timing statistics are not embedded.  The clock, the memory meter,
  the restart policy, the branching heuristic and the parts of the conflict loop
  that rest on code that is not among the sources are the fields of the
  `SolveEnvironment` that `Solve` takes.
* The activity of a clause, a `double` that the embedded code only compares, is
  a rational number.
* Some statements are about what happens during a call rather than about its
  result: the scans of `ComputeFirstUIPConflict` and the calls of propagators
  made by `Propagate`.  For these the function has a second version, whose name
  ends in `Traced`, which is the same code returning in addition the list of
  the events; a theorem relates its result to the one of the function.
* Examples used as witnesses are built by running the embedded entry points on
  a new solver.
-/

namespace operations_research.sat

/-! ## Machine integers -/

/-- Modelled from the spec: the constant `kint64min` of `base/integral_types.h`,
which is not among the sources: the least `int64`. -/
def kint64min : Int := -9223372036854775808

/-- Modelled from the spec: the constant `kint64max` of `base/integral_types.h`,
which is not among the sources: the greatest `int64`. -/
def kint64max : Int := 9223372036854775807

/-- Range of a 64-bit signed integer. -/
def IsInt64 (x : Int) : Prop := kint64min ≤ x ∧ x ≤ kint64max

instance (x : Int) : Decidable (IsInt64 x) := by
  unfold IsInt64; exact inferInstance

/-- Two's complement reduction of an unbounded integer to the `int64` range. -/
def wrap64 (x : Int) : Int := (x + 9223372036854775808) % 18446744073709551616 - 9223372036854775808

/-- Unary minus of a `Coefficient`, `-c` in the source.  It is exact except at
`kint64min`, where the machine result is `kint64min` again. -/
def neg64 (c : Int) : Int := wrap64 (-c)

/-- Binary minus of two `Coefficient`s, `a - b` in the source. -/
def sub64 (a b : Int) : Int := wrap64 (a - b)

/-- Modelled from the spec: `SafeAddInto(a, &b)` of `util/saturated_arithmetic.h`,
which is not among the sources.  The spec calls it "overflow-checked addition":
when `a + b` fits in an `int64` it stores the sum in `b` and returns true
(`some (a + b)`), otherwise it returns false and leaves `b` alone (`none`). -/
def SafeAddInto (a b : Int) : Option Int :=
  if IsInt64 (a + b) then some (a + b) else none

/-! ## Literals and terms -/

/-- Modelled from the spec: `Literal` of `sat/sat_base.h`, which is not among the
sources.  A literal is a variable with a polarity, stored as its dense index in
`0..2V-1`: `2 * variable` for the positive literal and `2 * variable + 1` for the
negative one. -/
structure Literal where
  index : Nat
deriving DecidableEq, Repr

/-- Modelled from the spec: `Literal::Index()` of `sat/sat_base.h`, the dense index
of a literal. -/
def Literal.Index (l : Literal) : Nat := l.index

/-- Modelled from the spec: `Literal::Variable()` of `sat/sat_base.h`, the variable
of a literal. -/
def Literal.Variable (l : Literal) : Nat := l.index / 2

/-- Modelled from the spec: `Literal::IsPositive()` of `sat/sat_base.h`, the
polarity of a literal. -/
def Literal.IsPositive (l : Literal) : Bool := l.index % 2 == 0

/-- Modelled from the spec: `Literal::Negated()` of `sat/sat_base.h`, the opposite
literal: same variable, other polarity. -/
def Literal.Negated (l : Literal) : Literal :=
  if l.index % 2 = 0 then ⟨l.index + 1⟩ else ⟨l.index - 1⟩

/-- Modelled from the spec: the struct `LiteralWithCoeff` of `sat/pb_constraint.h`,
which is not among the sources: one term `coefficient * literal`, with the two
fields `pb_constraint.cc` reads. -/
structure LiteralWithCoeff where
  literal : Literal
  coefficient : Int
deriving DecidableEq, Repr

/-- A total Boolean assignment, by variable. -/
abbrev Assignment := Nat → Bool

/-- Value in `{0, 1}` of a literal under an assignment. -/
def literalValue (a : Assignment) (l : Literal) : Int :=
  if a l.Variable = l.IsPositive then 1 else 0

/-- Value of a linear expression `sum coefficient_i * literal_i` in unbounded
integers. -/
def expressionValue (a : Assignment) (cst : List LiteralWithCoeff) : Int :=
  (cst.map (fun t => t.coefficient * literalValue a t.literal)).sum

/-- Sum of the coefficients of a term list, in unbounded integers. -/
def coefficientSum (cst : List LiteralWithCoeff) : Int :=
  (cst.map (fun t => t.coefficient)).sum

/-! ## `pb_constraint.cc`: comparators and sorting -/

/-- The comparator `LiteralComparator`. -/
def LiteralComparator (a b : LiteralWithCoeff) : Bool :=
  decide (a.literal.Index < b.literal.Index)

/-- The comparator `CoeffComparator`. -/
def CoeffComparator (a b : LiteralWithCoeff) : Bool :=
  if a.coefficient = b.coefficient then decide (a.literal.Index < b.literal.Index)
  else decide (a.coefficient < b.coefficient)

/-- The order a comparator `comp` leaves after `std::sort`: `a` may stand before
`b` when `comp b a` is false. -/
def NotAfter (comp : LiteralWithCoeff → LiteralWithCoeff → Bool)
    (a b : LiteralWithCoeff) : Prop := comp b a = false

instance (comp : LiteralWithCoeff → LiteralWithCoeff → Bool) :
    DecidableRel (NotAfter comp) := fun a b => by
  unfold NotAfter; exact inferInstance

/-- The call `std::sort(begin, end, comp)`: a permutation of the input in which no
element stands after one it compares less than.  C++ leaves the relative order
of equivalent elements open; this embedding keeps their input order. -/
def stdSort (comp : LiteralWithCoeff → LiteralWithCoeff → Bool)
    (l : List LiteralWithCoeff) : List LiteralWithCoeff :=
  l.insertionSort (NotAfter comp)

/-! ## `pb_constraint.cc`: canonical form of a linear expression -/

/-- State of the first loop of `ComputeBooleanLinearExpressionCanonicalForm`.
In the source the loop rewrites `cst` in place: `(*cst)[0 .. index)` holds the
terms kept so far and `representative` points at the last of them.  Here
`kept` is `(*cst)[0 .. index)` without the term `representative` points at,
`representative` is that term (`none` for `nullptr`), and `bound_shift` is
`*bound_shift`. -/
structure MergeState where
  kept : List LiteralWithCoeff
  representative : Option LiteralWithCoeff
  bound_shift : Int
deriving DecidableEq, Repr

/-- The terms `(*cst)[0 .. index)` after the first loop and the `--index` that
follows it: the representative is dropped when its coefficient is zero. -/
def MergeState.terms (st : MergeState) : List LiteralWithCoeff :=
  match st.representative with
  | none => st.kept
  | some rep => if rep.coefficient = 0 then st.kept else st.kept ++ [rep]

/-- One iteration of the first loop, for the term `current`; `none` is the
`return false` of a failed `SafeAddInto`. -/
def mergeStep (st : MergeState) (current : LiteralWithCoeff) : Option MergeState :=
  if current.coefficient = 0 then some st
  else
    match st.representative with
    | none => some { st with representative := some current }
    | some rep =>
      if current.literal.Variable = rep.literal.Variable then
        if current.literal = rep.literal then
          match SafeAddInto current.coefficient rep.coefficient with
          | none => none
          | some c => some { st with representative := some { rep with coefficient := c } }
        else
          match SafeAddInto (neg64 current.coefficient) rep.coefficient with
          | none => none
          | some c =>
            match SafeAddInto (neg64 current.coefficient) st.bound_shift with
            | none => none
            | some s =>
              some { st with representative := some { rep with coefficient := c },
                             bound_shift := s }
      else
        some { kept := if rep.coefficient = 0 then st.kept else st.kept ++ [rep],
               representative := some current,
               bound_shift := st.bound_shift }

/-- The first loop over the terms sorted by literal. -/
def mergeLoop : List LiteralWithCoeff → MergeState → Option MergeState
  | [], st => some st
  | current :: rest, st =>
    match mergeStep st current with
    | none => none
    | some st1 => mergeLoop rest st1

/-- The second loop: every negative term `-c x` becomes `c (not x)` and `c` is
added to the bound shift; every coefficient is added to `max_value`.  The
result is the rewritten list with the final `bound_shift` and `max_value`. -/
def positiveLoop : List LiteralWithCoeff → Int → Int →
    Option (List LiteralWithCoeff × Int × Int)
  | [], bound_shift, max_value => some ([], bound_shift, max_value)
  | current :: rest, bound_shift, max_value =>
    if current.coefficient < 0 then
      match SafeAddInto (neg64 current.coefficient) bound_shift with
      | none => none
      | some s =>
        match SafeAddInto (neg64 current.coefficient) max_value with
        | none => none
        | some m =>
          match positiveLoop rest s m with
          | none => none
          | some (out, s1, m1) =>
            some (⟨current.literal.Negated, neg64 current.coefficient⟩ :: out, s1, m1)
    else
      match SafeAddInto current.coefficient max_value with
      | none => none
      | some m =>
        match positiveLoop rest bound_shift m with
        | none => none
        | some (out, s1, m1) => some (current :: out, s1, m1)

/-- The body of `ComputeBooleanLinearExpressionCanonicalForm` after the first
`std::sort`, on the list `sorted` that this sort produced. -/
def canonicalFormOfSorted (sorted : List LiteralWithCoeff) :
    Option (List LiteralWithCoeff × Int × Int) :=
  match mergeLoop sorted ⟨[], none, 0⟩ with
  | none => none
  | some st =>
    match positiveLoop st.terms st.bound_shift 0 with
    | none => none
    | some (out, bound_shift, max_value) =>
      some (stdSort CoeffComparator out, bound_shift, max_value)

/-- The function `ComputeBooleanLinearExpressionCanonicalForm`: `none` when it
returns false, `some (cst, bound_shift, max_value)` with the three outputs when
it returns true. -/
def ComputeBooleanLinearExpressionCanonicalForm (cst : List LiteralWithCoeff) :
    Option (List LiteralWithCoeff × Int × Int) :=
  canonicalFormOfSorted (stdSort LiteralComparator cst)

/-- The function `BooleanLinearExpressionIsCanonical`, its loop started with
`previous`. -/
def isCanonicalFrom : Int → List LiteralWithCoeff → Bool
  | _, [] => true
  | previous, term :: rest =>
    if term.coefficient < previous then false else isCanonicalFrom term.coefficient rest

/-- The function `BooleanLinearExpressionIsCanonical`. -/
def BooleanLinearExpressionIsCanonical (cst : List LiteralWithCoeff) : Bool :=
  isCanonicalFrom 1 cst

/-- The function `SimplifyCanonicalBooleanLinearConstraint`; `*rhs` is not
changed by it. -/
def SimplifyCanonicalBooleanLinearConstraint (cst : List LiteralWithCoeff) (rhs : Int) :
    List LiteralWithCoeff :=
  cst.map (fun x => if x.coefficient > rhs then { x with coefficient := rhs + 1 } else x)

/-! ## `pb_constraint.cc`: right-hand sides -/

/-- The function `ComputeCanonicalRhs`. -/
def ComputeCanonicalRhs (upper_bound bound_shift max_value : Int) : Int :=
  match SafeAddInto bound_shift upper_bound with
  | none => if bound_shift > 0 then max_value else -1
  | some rhs => if rhs < 0 then -1 else min max_value rhs

/-- The function `ComputeNegatedCanonicalRhs`. -/
def ComputeNegatedCanonicalRhs (lower_bound bound_shift max_value : Int) : Int :=
  match SafeAddInto bound_shift lower_bound with
  | none => if bound_shift > 0 then -1 else max_value
  | some shifted_lb =>
    if shifted_lb ≤ 0 then max_value else sub64 max_value shifted_lb

/-! ## The trail (`sat/sat_base.h`, not among the sources) -/

/-- Modelled from the spec: the type `ResolutionNode*` of `sat/unsat_proof.h`, which
is not among the sources: `none` is `nullptr`, `some n` is the node number `n` of
the resolution DAG kept by `UnsatProof`. -/
abbrev ResolutionNodePointer := Option Nat

/-- Modelled from the spec: `AssignmentInfo::type` with the payload each type
carries, of `sat/sat_base.h`, which is not among the sources.  The spec lists the
tags SEARCH_DECISION, CLAUSE_PROPAGATION, BINARY_PROPAGATION, PB_PROPAGATION,
SYMMETRY_PROPAGATION, SAME_REASON_AS, CACHED_REASON and UNIT_REASON and asks for
"a closed sum type"; the payloads are the fields `sat_solver.cc` reads
(`resolution_node`, `sat_clause`, `literal`, `source_trail_index`,
`pb_constraint`, `symmetry_index`, `reference_var`).  A `SatClause*` is the
position of the clause in the clause heap, a constraint pointer the position of
the constraint in `PbConstraints::constraints_`. -/
inductive AssignmentInfo where
  | SEARCH_DECISION
  | UNIT_REASON (resolution_node : ResolutionNodePointer)
  | CLAUSE_PROPAGATION (sat_clause : Nat)
  | BINARY_PROPAGATION (literal : Literal)
  | PB_PROPAGATION (source_trail_index : Nat) (pb_constraint : Nat)
  | SYMMETRY_PROPAGATION (source_trail_index : Nat) (symmetry_index : Nat)
  | SAME_REASON_AS (reference_var : Nat)
  | CACHED_REASON (reason : List Literal)
deriving DecidableEq, Repr

/-- Modelled from the spec: one entry of the `Trail` of `sat/sat_base.h`, which is
not among the sources: the assigned literal, the decision level at which it
was enqueued and the reason of the assignment. -/
structure TrailEntry where
  literal : Literal
  level : Nat
  info : AssignmentInfo
deriving DecidableEq, Repr

/-- Modelled from the spec: the class `Trail` of `sat/sat_base.h`, which is not
among the sources: "an append-only (until backtracked) ordered log of literal
assignments, each tagged with the reason/type of assignment and decision
level".  The variable assignment `Assignment()` is read off the entries. -/
structure Trail where
  entries : List TrailEntry
  current_decision_level : Nat
  failing_clause : List Literal
  failing_resolution_node : ResolutionNodePointer
  need_fixed_literals_in_reason : Bool
  num_enqueues : Nat
deriving DecidableEq, Repr

/-- Modelled from the spec: the `Trail` of `sat/sat_base.h` as its constructor
leaves it, for a newly constructed solver. -/
def Trail.empty : Trail :=
  { entries := [], current_decision_level := 0, failing_clause := [],
    failing_resolution_node := none, need_fixed_literals_in_reason := false,
    num_enqueues := 0 }

/-- Modelled from the spec: `Trail::Index()` of `sat/sat_base.h`, the current
length of the trail. -/
def Trail.Index (t : Trail) : Nat := t.entries.length

/-- Modelled from the spec: the operator `trail[i]` of `sat/sat_base.h`, the literal
at trail index `i`. -/
def Trail.get (t : Trail) (i : Nat) : Literal :=
  match t.entries.get? i with
  | some e => e.literal
  | none => ⟨0⟩

/-- Modelled from the spec: the test `Assignment().IsLiteralTrue(literal)` of
`sat/sat_base.h`. -/
def Trail.IsLiteralTrue (t : Trail) (l : Literal) : Bool :=
  t.entries.any (fun e => e.literal = l)

/-- Modelled from the spec: the test `Assignment().IsLiteralFalse(literal)` of
`sat/sat_base.h`. -/
def Trail.IsLiteralFalse (t : Trail) (l : Literal) : Bool :=
  t.entries.any (fun e => e.literal = l.Negated)

/-- Modelled from the spec: the test `Assignment().IsVariableAssigned(var)` of
`sat/sat_base.h`. -/
def Trail.IsVariableAssigned (t : Trail) (var : Nat) : Bool :=
  t.entries.any (fun e => e.literal.Variable = var)

/-- Modelled from the spec: `Info(var).trail_index` of `sat/sat_base.h`, the trail
index of the entry that assigns `var`;
the length of the trail when `var` is not assigned. -/
def Trail.trailIndexOf (t : Trail) (var : Nat) : Nat :=
  t.entries.findIdx (fun e => e.literal.Variable = var)

/-- Modelled from the spec: `Info(var)` of `sat/sat_base.h`, carried by the entry
that assigns `var`. -/
def Trail.entryOf (t : Trail) (var : Nat) : Option TrailEntry :=
  t.entries.find? (fun e => e.literal.Variable = var)

/-- Modelled from the spec: `Info(var).level` of `sat/sat_base.h`, the decision
level of an assigned variable. -/
def Trail.levelOf (t : Trail) (var : Nat) : Nat :=
  match t.entryOf var with
  | some e => e.level
  | none => 0

/-- Modelled from the spec: `Trail::Enqueue` of `sat/sat_base.h`, with the reason
given: "appends with current
decision level and given reason metadata". -/
def Trail.Enqueue (t : Trail) (l : Literal) (info : AssignmentInfo) : Trail :=
  { t with entries := t.entries ++ [⟨l, t.current_decision_level, info⟩],
           num_enqueues := t.num_enqueues + 1 }

/-- Modelled from the spec: `Trail::EnqueueWithUnitReason(literal, node)` of
`sat/sat_base.h`. -/
def Trail.EnqueueWithUnitReason (t : Trail) (l : Literal)
    (node : ResolutionNodePointer) : Trail :=
  t.Enqueue l (AssignmentInfo.UNIT_REASON node)

/-- Modelled from the spec: `Trail::Dequeue()` of `sat/sat_base.h`: "pop and return
the last entry". -/
def Trail.Dequeue (t : Trail) : Trail :=
  { t with entries := t.entries.dropLast }

/-- Modelled from the spec: `Trail::SetDecisionLevel(level)` of `sat/sat_base.h`. -/
def Trail.SetDecisionLevel (t : Trail) (level : Nat) : Trail :=
  { t with current_decision_level := level }

/-- Modelled from the spec: `Trail::SetFailingClause(clause)` of `sat/sat_base.h`. -/
def Trail.SetFailingClause (t : Trail) (clause : List Literal) : Trail :=
  { t with failing_clause := clause }

/-- Modelled from the spec: `Trail::SetFailingResolutionNode(node)` of
`sat/sat_base.h`. -/
def Trail.SetFailingResolutionNode (t : Trail) (node : ResolutionNodePointer) : Trail :=
  { t with failing_resolution_node := node }

/-! ## Resolution nodes (`sat/unsat_proof.h`, not among the sources) -/

/-- Modelled from the spec: one `ResolutionNode` of `sat/unsat_proof.h`, which is
not among the sources: its parents, the index of the problem
constraint it stands for (root nodes only) and whether it is still locked. -/
structure ResolutionNode where
  parents : List Nat
  constraint_index : Option Nat
  locked : Bool
deriving DecidableEq, Repr

/-- Modelled from the spec: the class `UnsatProof` of `sat/unsat_proof.h`, which is
not among the sources: the "arena of resolution nodes indexed by handle", each
node "locked until explicitly unlocked". -/
structure UnsatProof where
  nodes : List ResolutionNode
deriving DecidableEq, Repr

/-- Modelled from the spec: `UnsatProof::CreateNewRootNode(index)` of
`sat/unsat_proof.h`: a new locked node without
parents; the result is its pointer and the new arena. -/
def UnsatProof.CreateNewRootNode (p : UnsatProof) (index : Nat) :
    ResolutionNodePointer × UnsatProof :=
  (some p.nodes.length, { nodes := p.nodes ++ [⟨[], some index, true⟩] })

/-- Modelled from the spec: `UnsatProof::CreateNewResolutionNode(parents)` of
`sat/unsat_proof.h`. -/
def UnsatProof.CreateNewResolutionNode (p : UnsatProof) (parents : List Nat) :
    ResolutionNodePointer × UnsatProof :=
  (some p.nodes.length, { nodes := p.nodes ++ [⟨parents, none, true⟩] })

/-- Modelled from the spec: `UnsatProof::UnlockNode(node)` of `sat/unsat_proof.h`,
for a non-null `node`. -/
def UnsatProof.UnlockNode (p : UnsatProof) (node : Nat) : UnsatProof :=
  { nodes := p.nodes.modify (fun n => { n with locked := false }) node }

/-! ## Binary implication graph (`clause.h`; its methods are in `clause.cc`, not
among the sources) -/

/-- The class `BinaryImplicationGraph`: `implications_` is kept as the list of
the arcs `(a, b)`, meaning that `b` is in the list `implications_[a.Index()]`, in
the order in which they were added. -/
structure BinaryImplicationGraph where
  implications_ : List (Literal × Literal)
  num_implications_ : Nat
  num_propagations_ : Nat
deriving DecidableEq, Repr

/-- The list `implications_[l.Index()]`. -/
def BinaryImplicationGraph.impliedBy (g : BinaryImplicationGraph) (l : Literal) :
    List Literal :=
  (g.implications_.filter (fun arc => arc.1 = l)).map (fun arc => arc.2)

/-- The method `NumberOfImplications()`. -/
def BinaryImplicationGraph.NumberOfImplications (g : BinaryImplicationGraph) : Nat :=
  g.num_implications_

/-- Modelled from the spec: `BinaryImplicationGraph::AddBinaryClause(a, b)` of
`clause.cc`, which is not among the sources: it "records not a => b and
not b => a". -/
def BinaryImplicationGraph.AddBinaryClause (g : BinaryImplicationGraph) (a b : Literal) :
    BinaryImplicationGraph :=
  { g with implications_ := g.implications_ ++ [(a.Negated, b), (b.Negated, a)],
           num_implications_ := g.num_implications_ + 2 }

/-- Modelled from the spec: the walk of `BinaryImplicationGraph::PropagateOnTrue` of
`clause.cc` over the literals implied by `true_literal`. -/
def propagateImplied (true_literal : Literal) : List Literal → Trail → Bool × Trail
  | [], trail => (true, trail)
  | l :: rest, trail =>
    if trail.IsLiteralTrue l then propagateImplied true_literal rest trail
    else if trail.IsLiteralFalse l then
      (false, trail.SetFailingClause [true_literal.Negated, l])
    else
      propagateImplied true_literal rest
        (trail.Enqueue l (AssignmentInfo.BINARY_PROPAGATION true_literal.Negated))

/-- Modelled from the spec: `BinaryImplicationGraph::PropagateOnTrue(true_literal,
trail)` of `clause.cc`, which is not among the sources: it "walks the adjacency
list of `true_literal` and enqueues all not-yet-false implied literals, failing
(and recording a 2-literal failing clause) on the first literal already
false".  Implied literals that are already true are passed over. -/
def BinaryImplicationGraph.PropagateOnTrue (g : BinaryImplicationGraph)
    (true_literal : Literal) (trail : Trail) : Bool × Trail :=
  propagateImplied true_literal (g.impliedBy true_literal) trail

/-! ## Clauses and watchers (`clause.h`; the methods are in `clause.cc`, not among
the sources) -/

/-- The class `SatClause`.  The activity, a `double` that the embedded code only
compares (in `ClauseOrdering`), is a rational number here. -/
structure SatClause where
  literals_ : List Literal
  is_learned_ : Bool
  is_attached_ : Bool
  lbd_ : Int
  resolution_node_ : ResolutionNodePointer
  activity_ : Rat
deriving DecidableEq, Repr

/-- The enum `SatClause::ClauseType`. -/
inductive ClauseType where
  | PROBLEM_CLAUSE
  | LEARNED_CLAUSE
deriving DecidableEq, Repr

/-- Modelled from the spec: `SatClause::Create(literals, type, node)` of
`clause.cc`, which is not among the sources: a clause is "a fixed-size array of
literals plus metadata (learned flag, activity, LBD, attached flag,
resolution-node pointer)". -/
def SatClause.Create (literals : List Literal) (type : ClauseType)
    (node : ResolutionNodePointer) : SatClause :=
  { literals_ := literals, is_learned_ := decide (type = ClauseType.LEARNED_CLAUSE),
    is_attached_ := false, lbd_ := 0, resolution_node_ := node, activity_ := 0 }

/-- The method `SatClause::Size()`. -/
def SatClause.Size (c : SatClause) : Nat := c.literals_.length

/-- The method `SatClause::FirstLiteral()`. -/
def SatClause.FirstLiteral (c : SatClause) : Literal := c.literals_.getD 0 ⟨0⟩

/-- The method `SatClause::SecondLiteral()`. -/
def SatClause.SecondLiteral (c : SatClause) : Literal := c.literals_.getD 1 ⟨0⟩

/-- The method `SatClause::PropagationReason()`: the clause without its first
literal. -/
def SatClause.PropagationReason (c : SatClause) : List Literal := c.literals_.drop 1

/-- The `SatClause` objects, which the source allocates one by one on the C++
heap; a `SatClause*` is the position of the clause in this list. -/
abbrev ClauseHeap := List SatClause

/-- The struct `LiteralWatchers::Watcher`, with the literal whose list
`watchers_on_false_[literal]` it is in. -/
structure Watcher where
  watched : Literal
  clause : Nat
  blocking_literal : Literal
deriving DecidableEq, Repr

/-- The class `LiteralWatchers`.  The per-variable statistics, used by the
branching heuristic only, are left out. -/
structure LiteralWatchers where
  watchers_on_false_ : List Watcher
  is_clean_ : Bool
  num_inspected_clauses_ : Nat
  num_watched_clauses_ : Nat
deriving DecidableEq, Repr

/-- Modelled from the spec: `LiteralWatchers::AttachOnFalse(literal,
blocking_literal, clause)` of `clause.cc`, which is not among the sources;
`clause.h` declares it: "registers that this clause must be inspected
when `literal` becomes false". -/
def LiteralWatchers.AttachOnFalse (w : LiteralWatchers) (literal blocking_literal : Literal)
    (clause : Nat) : LiteralWatchers :=
  { w with watchers_on_false_ := w.watchers_on_false_ ++ [⟨literal, clause, blocking_literal⟩] }

/-- Modelled from the spec: `LiteralWatchers::AttachAndPropagate(clause, trail)` of
`clause.cc`, which is not among the sources.  It "picks the two (ideally)
non-false literals as watches; if the clause has at most one non-false literal,
it enqueues that literal as a forced unit propagation (or signals failure if
none are non-false)"; by `clause.h` the lone non-false literal is propagated
"if it is not already assigned".  The non-false literals are moved to the front
of the clause, in their order; the first two literals are then watched. -/
def LiteralWatchers.AttachAndPropagate (w : LiteralWatchers) (heap : ClauseHeap)
    (clause : Nat) (trail : Trail) : Bool × LiteralWatchers × ClauseHeap × Trail :=
  match heap.get? clause with
  | none => (false, w, heap, trail)
  | some c =>
    let non_false := c.literals_.filter (fun l => !trail.IsLiteralFalse l)
    let all_false := c.literals_.filter (fun l => trail.IsLiteralFalse l)
    match non_false with
    | [] => (false, w, heap, trail)
    | first :: others =>
      let literals := first :: (others ++ all_false)
      let second := literals.getD 1 ⟨0⟩
      let trail1 :=
        if others.isEmpty && !trail.IsLiteralTrue first then
          trail.Enqueue first (AssignmentInfo.CLAUSE_PROPAGATION clause)
        else trail
      let w1 := (w.AttachOnFalse first second clause).AttachOnFalse second first clause
      (true, { w1 with num_watched_clauses_ := w1.num_watched_clauses_ + 1 },
        heap.set clause { c with literals_ := literals, is_attached_ := true }, trail1)

/-- Modelled from the spec: the inspection of one watcher of `false_literal` by
`LiteralWatchers::PropagateOnFalse` of `clause.cc`.  The
result tells whether no conflict was found. -/
def inspectWatcher (false_literal : Literal) (watcher : Watcher)
    (w : LiteralWatchers) (heap : ClauseHeap) (trail : Trail) :
    Bool × LiteralWatchers × ClauseHeap × Trail :=
  if trail.IsLiteralTrue watcher.blocking_literal then (true, w, heap, trail)
  else
    match heap.get? watcher.clause with
    | none => (true, w, heap, trail)
    | some c =>
      let other :=
        if c.FirstLiteral = false_literal then c.SecondLiteral else c.FirstLiteral
      let tail := c.literals_.drop 2
      match tail.find? (fun l => !trail.IsLiteralFalse l) with
      | some replacement =>
        let literals := other :: replacement :: (tail.erase replacement ++ [false_literal])
        let w1 : LiteralWatchers :=
          { w with watchers_on_false_ := w.watchers_on_false_.erase watcher }
        (true, w1.AttachOnFalse replacement other watcher.clause,
          heap.set watcher.clause { c with literals_ := literals }, trail)
      | none =>
        let heap1 := heap.set watcher.clause
          { c with literals_ := other :: false_literal :: tail }
        if trail.IsLiteralFalse other then
          (false, w, heap1, trail.SetFailingClause (other :: false_literal :: tail))
        else if trail.IsLiteralTrue other then (true, w, heap1, trail)
        else
          (true, w, heap1,
            trail.Enqueue other (AssignmentInfo.CLAUSE_PROPAGATION watcher.clause))

/-- Modelled from the spec: the loop of `LiteralWatchers::PropagateOnFalse` of
`clause.cc` over the watchers of `false_literal`. -/
def inspectWatchers (false_literal : Literal) : List Watcher → LiteralWatchers →
    ClauseHeap → Trail → Bool × LiteralWatchers × ClauseHeap × Trail
  | [], w, heap, trail => (true, w, heap, trail)
  | watcher :: rest, w, heap, trail =>
    match inspectWatcher false_literal watcher w heap trail with
    | (false, w1, heap1, trail1) => (false, w1, heap1, trail1)
    | (true, w1, heap1, trail1) => inspectWatchers false_literal rest w1 heap1 trail1

/-- Modelled from the spec: `LiteralWatchers::PropagateOnFalse(false_literal,
trail)` of `clause.cc`, which is not among the sources: "for each watcher, if
the blocking literal is true, skip; else scan the clause for a new non-false
literal to watch, or propagate/detect conflict if none exists besides the other
watch"; on a conflict "the conflicting clause becomes the trail's failing
clause". -/
def LiteralWatchers.PropagateOnFalse (w : LiteralWatchers) (heap : ClauseHeap)
    (false_literal : Literal) (trail : Trail) :
    Bool × LiteralWatchers × ClauseHeap × Trail :=
  inspectWatchers false_literal
    (w.watchers_on_false_.filter (fun x => x.watched = false_literal))
    { w with num_inspected_clauses_ := w.num_inspected_clauses_ +
        (w.watchers_on_false_.filter (fun x => x.watched = false_literal)).length }
    heap trail

/-! ## Symmetry propagator (`symmetry.h`; the methods are in `symmetry.cc`, not
among the sources) -/

/-- The class `SymmetryPropagator`.  A permutation of `permutations_` is kept as
the list of the pairs (literal, image) of its support; the per-permutation
trails, which only make the search for the first non-symmetric literal
incremental, are left out. -/
structure SymmetryPropagator where
  propagation_trail_index_ : Nat
  permutations_ : List (List (Literal × Literal))
  conflict_permutation_index_ : Nat
  conflict_source_reason_ : Literal
  conflict_literal_ : Literal
deriving DecidableEq, Repr

/-- Modelled from the spec: `SparsePermutation` of `algorithms/sparse_permutation.h`,
which is not among the sources: the image of a literal by a permutation kept as
the list of the pairs (literal, image) of its support. -/
def permutationImage (permutation : List (Literal × Literal)) (l : Literal) : Literal :=
  match permutation.find? (fun pair => pair.1 = l) with
  | some pair => pair.2
  | none => l

/-- Modelled from the spec: `SymmetryPropagator::Permute(index, input, output)` of
`symmetry.cc`, which is not among the sources; `symmetry.h` declares it: "permutes a list of literals from input into output using the
permutation with given index". -/
def SymmetryPropagator.Permute (sp : SymmetryPropagator) (index : Nat)
    (input : List Literal) : List Literal :=
  input.map (permutationImage (sp.permutations_.getD index []))

/-- Modelled from the spec: `SymmetryPropagator::PropagationNeeded()` of
`symmetry.cc`, which is not among the sources; `symmetry.h` declares it: true "if some literals enqueued on the trail haven't been
processed by this class". -/
def SymmetryPropagator.PropagationNeeded (sp : SymmetryPropagator) (trail : Trail) : Bool :=
  decide (sp.propagation_trail_index_ < trail.Index)

/-- Modelled from the spec: the search of `SymmetryPropagator::PropagateNext` of
`symmetry.cc` in one permutation: the first non-symmetric literal among the entries of trail
index at most `propagation_trail_index_`: the earliest one whose image is not
true, with its trail index and its image. -/
def firstNonSymmetric (trail : Trail) (upto : Nat) (permutation : List (Literal × Literal)) :
    Option (Nat × Literal) :=
  ((List.range (upto + 1)).find?
      (fun i => decide (i < trail.Index) &&
        !trail.IsLiteralTrue (permutationImage permutation (trail.get i)))).map
    (fun i => (i, permutationImage permutation (trail.get i)))

/-- Modelled from the spec: the search of `SymmetryPropagator::PropagateNext` of
`symmetry.cc` through the permutations, from the one of
index `index` on: the first permutation that has a non-symmetric literal, with
the trail index of that literal and its image. -/
def findNonSymmetric (trail : Trail) (upto : Nat) :
    Nat → List (List (Literal × Literal)) → Option (Nat × Nat × Literal)
  | _, [] => none
  | index, permutation :: rest =>
    match firstNonSymmetric trail upto permutation with
    | some (i, image) => some (index, i, image)
    | none => findNonSymmetric trail upto (index + 1) rest

/-- Modelled from the spec: `SymmetryPropagator::PropagateNext()` of
`symmetry.cc`, which is not among the sources.  It "finds, for some permutation,
the earliest trail literal that is assigned true but whose image is not" and
"either (a) propagates the image to true if unassigned ... or (b) signals
conflict if the image is already false"; when every permutation is symmetric on
the processed part of the trail the literal at `propagation_trail_index_` is
done and the cursor moves on. -/
def SymmetryPropagator.PropagateNext (sp : SymmetryPropagator) (trail : Trail) :
    Bool × SymmetryPropagator × Trail :=
  match findNonSymmetric trail sp.propagation_trail_index_ 0 sp.permutations_ with
  | none => (true, { sp with propagation_trail_index_ := sp.propagation_trail_index_ + 1 }, trail)
  | some (p, i, image) =>
    if trail.IsLiteralFalse image then
      (false, { sp with conflict_permutation_index_ := p,
                        conflict_source_reason_ := trail.get i,
                        conflict_literal_ := image }, trail)
    else
      (true, sp, trail.Enqueue image (AssignmentInfo.SYMMETRY_PROPAGATION i p))

/-- Modelled from the spec: `SymmetryPropagator::VariableAtTheSourceOfLastConflict()`
of `symmetry.cc`, which is not among the sources: the variable of the literal
whose image could not be made true. -/
def SymmetryPropagator.VariableAtTheSourceOfLastConflict (sp : SymmetryPropagator) : Nat :=
  sp.conflict_source_reason_.Variable

/-- Modelled from the spec: `SymmetryPropagator::LastConflict(initial_reason)` of
`symmetry.cc`, which is not among the sources: the clause of the last conflict,
made of the image by the conflicting permutation of the reason of the source
literal and of the image that is false. -/
def SymmetryPropagator.LastConflict (sp : SymmetryPropagator)
    (initial_reason : List Literal) : List Literal :=
  sp.Permute sp.conflict_permutation_index_ initial_reason ++ [sp.conflict_literal_]

/-- Modelled from the spec: `SymmetryPropagator::Untrail(trail_index)` of
`symmetry.cc`, which is not among the sources: "backtracks to the state where
all the literals with trail index greater or equal to the given one are assumed
to be unassigned". -/
def SymmetryPropagator.Untrail (sp : SymmetryPropagator) (trail_index : Nat) :
    SymmetryPropagator :=
  { sp with propagation_trail_index_ := min sp.propagation_trail_index_ trail_index }

/-! ## `pb_constraint.cc`: the constraint store of `CanonicalBooleanLinearProblem` -/

/-- Modelled from the spec: the class `CanonicalBooleanLinearProblem` of
`sat/pb_constraint.h`, which is not among the sources, with the two members
`pb_constraint.cc` writes: the stored constraints and their
right-hand sides. -/
structure CanonicalBooleanLinearProblem where
  constraints_ : List (List LiteralWithCoeff)
  rhs_ : List Int
deriving DecidableEq, Repr

/-- The method `CanonicalBooleanLinearProblem::AddConstraint(cst, max_value, rhs)`. -/
def CanonicalBooleanLinearProblem.AddConstraint (p : CanonicalBooleanLinearProblem)
    (cst : List LiteralWithCoeff) (max_value rhs : Int) :
    Bool × CanonicalBooleanLinearProblem :=
  if rhs < 0 then (false, p)
  else if rhs ≥ max_value then (true, p)
  else
    (true, { constraints_ := p.constraints_ ++ [SimplifyCanonicalBooleanLinearConstraint cst rhs],
             rhs_ := p.rhs_ ++ [rhs] })

/-- The method `CanonicalBooleanLinearProblem::AddLinearConstraint`. -/
def CanonicalBooleanLinearProblem.AddLinearConstraint (p : CanonicalBooleanLinearProblem)
    (use_lower_bound : Bool) (lower_bound : Int) (use_upper_bound : Bool) (upper_bound : Int)
    (cst : List LiteralWithCoeff) : Bool × CanonicalBooleanLinearProblem :=
  match ComputeBooleanLinearExpressionCanonicalForm cst with
  | none => (false, p)
  | some (cst1, bound_shift, max_value) =>
    let (ok1, p1) :=
      if use_upper_bound then
        p.AddConstraint cst1 max_value (ComputeCanonicalRhs upper_bound bound_shift max_value)
      else (true, p)
    if !ok1 then (false, p1)
    else if use_lower_bound then
      p1.AddConstraint (cst1.map (fun t => { t with literal := t.literal.Negated })) max_value
        (ComputeNegatedCanonicalRhs lower_bound bound_shift max_value)
    else (true, p1)

/-! ## `pb_constraint.cc`: `UpperBoundedLinearConstraint` -/

/-- Binary plus of two `Coefficient`s, `a + b` in the source. -/
def add64 (a b : Int) : Int := wrap64 (a + b)

/-- Modelled from the spec: the class `UpperBoundedLinearConstraint` of
`sat/pb_constraint.h`, which is not among the sources, with the data members
`pb_constraint.cc` uses. -/
structure UpperBoundedLinearConstraint where
  literals_ : List Literal
  coeffs_ : List Int
  starts_ : List Nat
  rhs_ : Int
  index_ : Int
  already_propagated_end_ : Nat
  node_ : ResolutionNodePointer
deriving DecidableEq, Repr

/-- The constructor `UpperBoundedLinearConstraint(cst, node)`; the fields the
constructor leaves uninitialised are zero. -/
def UpperBoundedLinearConstraint.Create (cst : List LiteralWithCoeff)
    (node : ResolutionNodePointer) : UpperBoundedLinearConstraint :=
  let c := cst.foldl
    (fun (c : UpperBoundedLinearConstraint) term =>
      if term.coefficient = 0 then c
      else
        let c1 :=
          if c.coeffs_.isEmpty || decide (some term.coefficient ≠ c.coeffs_.getLast?) then
            { c with coeffs_ := c.coeffs_ ++ [term.coefficient],
                     starts_ := c.starts_ ++ [c.literals_.length] }
          else c
        { c1 with literals_ := c1.literals_ ++ [term.literal] })
    { literals_ := [], coeffs_ := [], starts_ := [], rhs_ := 0, index_ := 0,
      already_propagated_end_ := 0, node_ := node }
  { c with starts_ := c.starts_ ++ [c.literals_.length] }

/-- The loop of `HasIdenticalTerms`, at the positions `literal_index` and
`coeff_index`. -/
def hasIdenticalTermsLoop (c : UpperBoundedLinearConstraint) :
    List LiteralWithCoeff → Nat → Nat → Bool
  | [], _, _ => true
  | term :: rest, literal_index, coeff_index =>
    if c.literals_.getD literal_index ⟨0⟩ ≠ term.literal then false
    else if c.coeffs_.getD coeff_index 0 ≠ term.coefficient then false
    else
      hasIdenticalTermsLoop c rest (literal_index + 1)
        (if literal_index + 1 = c.starts_.getD (coeff_index + 1) 0 then coeff_index + 1
         else coeff_index)

/-- The method `UpperBoundedLinearConstraint::HasIdenticalTerms(cst)`. -/
def UpperBoundedLinearConstraint.HasIdenticalTerms (c : UpperBoundedLinearConstraint)
    (cst : List LiteralWithCoeff) : Bool :=
  if cst.length ≠ c.literals_.length then false else hasIdenticalTermsLoop c cst 0 0

/-- Modelled from the spec: `UpperBoundedLinearConstraint::Rhs()` of
`sat/pb_constraint.h`, which is not among the sources. -/
def UpperBoundedLinearConstraint.Rhs (c : UpperBoundedLinearConstraint) : Int := c.rhs_

/-- The coefficient `coeffs_[index_]` at the cursor. -/
def UpperBoundedLinearConstraint.coeffAtIndex (c : UpperBoundedLinearConstraint) : Int :=
  c.coeffs_.getD c.index_.toNat 0

/-- Modelled from the spec: `UpperBoundedLinearConstraint::GetCurrentRhsFromSlack` of
`sat/pb_constraint.h`, which is not among the sources.  The slack of a constraint
is negative exactly when "propagation/conflict must occur": it is the current
rhs (rhs minus the coefficients of the true literals) minus the coefficient at
the cursor `index_`, the largest coefficient not yet propagated, and the
current rhs itself when the cursor is below every group. -/
def UpperBoundedLinearConstraint.GetCurrentRhsFromSlack (c : UpperBoundedLinearConstraint)
    (slack : Int) : Int :=
  if c.index_ < 0 then slack else add64 c.coeffAtIndex slack

/-- Modelled from the spec: `UpperBoundedLinearConstraint::Update(current_rhs, slack)`
of `sat/pb_constraint.h`, which is not among the sources: the inverse of
`GetCurrentRhsFromSlack`; the literals of the groups above the cursor are the
ones already propagated. -/
def UpperBoundedLinearConstraint.Update (c : UpperBoundedLinearConstraint)
    (current_rhs : Int) : UpperBoundedLinearConstraint × Int :=
  ({ c with already_propagated_end_ := c.starts_.getD (c.index_ + 1).toNat 0 },
    if c.index_ < 0 then current_rhs else sub64 current_rhs c.coeffAtIndex)

/-- The loop `while (index_ >= 0 && coeffs_[index_] > current_rhs) --index_;`, on
`n = index_ + 1`. -/
def lowerIndexLoop (coeffs : List Int) (current_rhs : Int) : Nat → Nat
  | 0 => 0
  | n + 1 =>
    if coeffs.getD n 0 > current_rhs then lowerIndexLoop coeffs current_rhs n else n + 1

/-- The loop `while (index_ + 1 < coeffs_.size() && coeffs_[index_ + 1] <=
current_rhs) ++index_;`, on `n = index_ + 1`, with the number of groups left as
fuel. -/
def raiseIndexLoop (coeffs : List Int) (current_rhs : Int) : Nat → Nat → Nat
  | 0, n => n
  | fuel + 1, n =>
    if n < coeffs.length ∧ coeffs.getD n 0 ≤ current_rhs then
      raiseIndexLoop coeffs current_rhs fuel (n + 1)
    else n

/-- State of the first loop of `FillReason`, which runs from the last literal
down to the first. -/
structure FillReasonState where
  reason : List Literal
  current_rhs : Int
  propagated_variable_coefficient : Int
  coeff_index : Int
  last_i : Nat
  last_coeff_index : Int
deriving DecidableEq, Repr

/-- The first loop of `FillReason`: `n` is the number of literals still to visit,
the literal visited is `literals_[n - 1]`. -/
def fillReasonCollect (c : UpperBoundedLinearConstraint) (trail : Trail)
    (source_trail_index propagated_variable : Nat) (include_level_zero : Bool) :
    Nat → FillReasonState → FillReasonState
  | 0, st => st
  | i + 1, st =>
    let literal := c.literals_.getD i ⟨0⟩
    let coeff := c.coeffs_.getD st.coeff_index.toNat 0
    let st1 : FillReasonState :=
      if literal.Variable = propagated_variable then
        { st with propagated_variable_coefficient := coeff }
      else if trail.IsLiteralTrue literal &&
          decide (trail.trailIndexOf literal.Variable ≤ source_trail_index) then
        let st2 : FillReasonState :=
          if include_level_zero || decide (trail.levelOf literal.Variable ≠ 0) then
            { st with reason := st.reason ++ [literal.Negated], last_i := i,
                      last_coeff_index := st.coeff_index }
          else st
        { st2 with current_rhs := sub64 st2.current_rhs coeff }
      else st
    let st3 : FillReasonState :=
      if i = c.starts_.getD st1.coeff_index.toNat 0 then
        { st1 with coeff_index := st1.coeff_index - 1 }
      else st1
    fillReasonCollect c trail source_trail_index propagated_variable include_level_zero i st3

/-- The second loop of `FillReason`, which drops literals of small coefficient
from the back of the reason: `fuel` is the number of literals still to visit,
`i` the position visited. -/
def fillReasonTrim (c : UpperBoundedLinearConstraint) :
    Nat → Nat → Nat → Int → List Literal → List Literal
  | 0, _, _, _, reason => reason
  | fuel + 1, i, coeff_index, limit, reason =>
    let literal := c.literals_.getD i ⟨0⟩
    let coeff_index1 :=
      if i = c.starts_.getD (coeff_index + 1) 0 then coeff_index + 1 else coeff_index
    if i = c.starts_.getD (coeff_index + 1) 0 ∧ c.coeffs_.getD coeff_index1 0 ≥ limit then
      reason
    else if some literal.Negated ≠ reason.getLast? then
      fillReasonTrim c fuel (i + 1) coeff_index1 limit reason
    else
      let limit1 := sub64 limit (c.coeffs_.getD coeff_index1 0)
      if c.coeffs_.getD coeff_index1 0 ≥ limit1 then reason.dropLast
      else fillReasonTrim c fuel (i + 1) coeff_index1 limit1 reason.dropLast

/-- The method `UpperBoundedLinearConstraint::FillReason`; the result is
`*reason`. -/
def UpperBoundedLinearConstraint.FillReason (c : UpperBoundedLinearConstraint)
    (trail : Trail) (source_trail_index propagated_variable : Nat) : List Literal :=
  if c.rhs_ = 1 then [(trail.get source_trail_index).Negated]
  else
    let st := fillReasonCollect c trail source_trail_index propagated_variable
      trail.need_fixed_literals_in_reason c.literals_.length
      { reason := [], current_rhs := c.rhs_, propagated_variable_coefficient := 0,
        coeff_index := (c.coeffs_.length : Int) - 1, last_i := 0, last_coeff_index := 0 }
    if st.reason.length ≤ 1 ∨ c.coeffs_.length = 1 then st.reason
    else
      let limit := sub64 st.propagated_variable_coefficient st.current_rhs
      if c.coeffs_.getD st.last_coeff_index.toNat 0 ≥ limit then st.reason
      else
        fillReasonTrim c (c.literals_.length - st.last_i) st.last_i
          st.last_coeff_index.toNat limit st.reason

/-- Result of the scan of `Propagate` over the literals to propagate: the trail,
the first propagated variable if any, and the conflict if one was met. -/
structure PropagateScan where
  trail : Trail
  first_propagated_variable : Option Nat
  conflict : Option (List Literal)
deriving DecidableEq, Repr

/-- The `for` loop of `UpperBoundedLinearConstraint::Propagate` over the
positions `i, i + 1, ...` of `literals_`, `count` of them; `self` is the
position of the constraint in the store, which stands for `this`. -/
def propagateScan (c : UpperBoundedLinearConstraint) (self trail_index : Nat) :
    Nat → Nat → PropagateScan → PropagateScan
  | 0, _, st => st
  | count + 1, i, st =>
    let literal := c.literals_.getD i ⟨0⟩
    if st.trail.IsLiteralFalse literal then propagateScan c self trail_index count (i + 1) st
    else if st.trail.IsLiteralTrue literal then
      if st.trail.trailIndexOf literal.Variable > trail_index then
        { st with
          conflict := Option.some
            (c.FillReason st.trail trail_index literal.Variable ++ [literal.Negated]) }
      else propagateScan c self trail_index count (i + 1) st
    else
      match st.first_propagated_variable with
      | none =>
        propagateScan c self trail_index count (i + 1)
          { st with trail := (st.trail.Enqueue literal.Negated
                      (AssignmentInfo.PB_PROPAGATION trail_index self)),
                    first_propagated_variable := some literal.Variable }
      | some first =>
        propagateScan c self trail_index count (i + 1)
          { st with trail := (st.trail.Enqueue literal.Negated
                      (AssignmentInfo.SAME_REASON_AS first)) }

/-- The method `UpperBoundedLinearConstraint::Propagate(trail_index, slack, trail,
conflict)`.  The result is the returned Boolean, the constraint, `*slack`, the
trail and `*conflict` (`none` when it is not written). -/
def UpperBoundedLinearConstraint.Propagate (c : UpperBoundedLinearConstraint)
    (self trail_index : Nat) (slack : Int) (trail : Trail) :
    Bool × UpperBoundedLinearConstraint × Int × Trail × Option (List Literal) :=
  let current_rhs := c.GetCurrentRhsFromSlack slack
  let c1 := { c with index_ :=
    (lowerIndexLoop c.coeffs_ current_rhs (c.index_ + 1).toNat : Int) - 1 }
  let start := c1.starts_.getD (c1.index_ + 1).toNat 0
  let scan := propagateScan c1 self trail_index (c1.already_propagated_end_ - start) start
    { trail := trail, first_propagated_variable := none, conflict := none }
  let (c2, slack1) := c1.Update current_rhs
  match scan.conflict with
  | some conflict => (false, c2, slack1, scan.trail, some conflict)
  | none => (decide (slack1 ≥ 0), c2, slack1, scan.trail, none)

/-- The first loop of `InitializeRhs`, which subtracts from `current_rhs` the
coefficients of the literals true at a trail index below `trail_index`. -/
def currentRhsLoop (c : UpperBoundedLinearConstraint) (trail : Trail) (trail_index : Nat) :
    List Literal → Nat → Nat → Int → Int
  | [], _, _, current_rhs => current_rhs
  | literal :: rest, literal_index, coeff_index, current_rhs =>
    currentRhsLoop c trail trail_index rest (literal_index + 1)
      (if literal_index + 1 = c.starts_.getD (coeff_index + 1) 0 then coeff_index + 1
       else coeff_index)
      (if trail.IsLiteralTrue literal &&
          decide (trail.trailIndexOf literal.Variable < trail_index) then
        sub64 current_rhs (c.coeffs_.getD coeff_index 0)
       else current_rhs)

/-- The method `UpperBoundedLinearConstraint::InitializeRhs(rhs, trail_index, slack,
trail, conflict)`, with the same results as `Propagate`. -/
def UpperBoundedLinearConstraint.InitializeRhs (c : UpperBoundedLinearConstraint)
    (self : Nat) (rhs : Int) (trail_index : Nat) (trail : Trail) :
    Bool × UpperBoundedLinearConstraint × Int × Trail × Option (List Literal) :=
  let current_rhs := currentRhsLoop c trail trail_index c.literals_ 0 0 rhs
  let c1 := { c with rhs_ := rhs, index_ := (c.coeffs_.length : Int) - 1,
                     already_propagated_end_ := c.literals_.length }
  let (c2, slack) := c1.Update current_rhs
  if slack < 0 then c2.Propagate self trail_index slack trail
  else (true, c2, slack, trail, none)

/-- The method `UpperBoundedLinearConstraint::Untrail(slack)`; the result is the
constraint and `*slack`. -/
def UpperBoundedLinearConstraint.Untrail (c : UpperBoundedLinearConstraint) (slack : Int) :
    UpperBoundedLinearConstraint × Int :=
  let current_rhs := c.GetCurrentRhsFromSlack slack
  let c1 := { c with index_ :=
    (raiseIndexLoop c.coeffs_ current_rhs c.coeffs_.length (c.index_ + 1).toNat : Int) - 1 }
  c1.Update current_rhs

/-! ## `pb_constraint.cc`: `PbConstraints` -/

/-- Modelled from the spec: the struct `ConstraintIndexWithCoeff` of
`sat/pb_constraint.h`, which is not among the sources: an entry of a
list `to_update_[literal]`. -/
structure ConstraintIndexWithCoeff where
  need_untrail_inspection : Bool
  index : Nat
  coefficient : Int
deriving DecidableEq, Repr

/-- Modelled from the spec: the class `PbConstraints` of `sat/pb_constraint.h`, which
is not among the sources, with the data members `pb_constraint.cc` uses.  The
table `to_update_` is kept as the list of its
entries, each with the literal whose list `to_update_[literal.Index()]` it is
in, in the order in which they were added. -/
structure PbConstraints where
  constraints_ : List UpperBoundedLinearConstraint
  slacks_ : List Int
  to_update_ : List (Literal × ConstraintIndexWithCoeff)
  propagation_trail_index_ : Nat
  conflict_scratchpad_ : List Literal
  num_constraint_lookups_ : Nat
  num_slack_updates_ : Nat
deriving DecidableEq, Repr

/-- Modelled from the spec: `PbConstraints::NumberOfConstraints()` of
`sat/pb_constraint.h`, which is not among the sources. -/
def PbConstraints.NumberOfConstraints (pb : PbConstraints) : Nat := pb.constraints_.length

/-- Modelled from the spec: `PbConstraints::PropagationNeeded()` of
`sat/pb_constraint.h`, which is not among the sources: each propagator tracks
"its own consumption cursor"; propagation is needed while the cursor is below
the length of the trail. -/
def PbConstraints.PropagationNeeded (pb : PbConstraints) (trail : Trail) : Bool :=
  decide (pb.propagation_trail_index_ < trail.Index)

/-- The call `constraints_.back().InitializeRhs(rhs, propagation_trail_index_,
&slacks_.back(), trail_, &conflict_scratchpad_)` of `AddConstraint`, with the
store and the trail updated by it. -/
def PbConstraints.lastInitializeRhs (pb : PbConstraints) (rhs : Int) (trail : Trail) :
    Bool × PbConstraints × Trail :=
  match pb.constraints_.getLast? with
  | none => (true, pb, trail)
  | some c =>
    let self := pb.constraints_.length - 1
    match c.InitializeRhs self rhs pb.propagation_trail_index_ trail with
    | (ok, c1, slack, trail1, conflict) =>
      (ok, { pb with constraints_ := pb.constraints_.set self c1,
                     slacks_ := pb.slacks_.set (pb.slacks_.length - 1) slack,
                     conflict_scratchpad_ := conflict.getD pb.conflict_scratchpad_ }, trail1)

/-- The second half of `PbConstraints::AddConstraint`, which stores a new
constraint. -/
def PbConstraints.addNewConstraint (pb : PbConstraints) (cst : List LiteralWithCoeff)
    (rhs : Int) (node : ResolutionNodePointer) (trail : Trail) :
    Bool × PbConstraints × Trail :=
  let cst_index := pb.constraints_.length
  let pb1 := { pb with
    constraints_ := pb.constraints_ ++ [UpperBoundedLinearConstraint.Create cst node],
    slacks_ := pb.slacks_ ++ [0] }
  match pb1.lastInitializeRhs rhs trail with
  | (false, pb2, trail2) => (false, pb2, trail2)
  | (true, pb2, trail2) =>
    (true, { pb2 with to_update_ := (pb2.to_update_ ++
        cst.map (fun term => (term.literal, ⟨false, cst_index, term.coefficient⟩))) }, trail2)

/-- The method `PbConstraints::AddConstraint(cst, rhs, node)`; the trail is the one
`trail_` points to. -/
def PbConstraints.AddConstraint (pb : PbConstraints) (cst : List LiteralWithCoeff)
    (rhs : Int) (node : ResolutionNodePointer) (trail : Trail) :
    Bool × PbConstraints × Trail :=
  match pb.constraints_.getLast? with
  | some last =>
    if last.HasIdenticalTerms cst then
      if rhs < last.Rhs then
        let pb1 := { pb with constraints_ :=
          (pb.constraints_.set (pb.constraints_.length - 1) { last with node_ := node }) }
        pb1.lastInitializeRhs rhs trail
      else (true, pb, trail)
    else pb.addNewConstraint cst rhs node trail
  | none => pb.addNewConstraint cst rhs node trail

/-- What the loop of `PropagateNext` updates besides the entries of
`to_update_`. -/
structure PropagateNextState where
  constraints_ : List UpperBoundedLinearConstraint
  slacks_ : List Int
  trail : Trail
  conflict_scratchpad_ : List Literal
  num_constraint_lookups_ : Nat
  conflict : Bool
deriving DecidableEq, Repr

/-- The loop of `PbConstraints::PropagateNext` over the entries of
`to_update_[true_literal.Index()]`; the entries of the other literals are
passed over. -/
def propagateNextLoop (true_literal : Literal) (order : Nat) :
    List (Literal × ConstraintIndexWithCoeff) → PropagateNextState →
    List (Literal × ConstraintIndexWithCoeff) × PropagateNextState
  | [], st => ([], st)
  | (l, update) :: rest, st =>
    if l ≠ true_literal then
      match propagateNextLoop true_literal order rest st with
      | (rest1, st1) => ((l, update) :: rest1, st1)
    else
      let slack := sub64 (st.slacks_.getD update.index 0) update.coefficient
      let st1 := { st with slacks_ := st.slacks_.set update.index slack }
      if slack < 0 ∧ st.conflict = false then
        match (st1.constraints_.getD update.index
            (UpperBoundedLinearConstraint.Create [] none)).Propagate
            update.index order slack st1.trail with
        | (ok, c1, slack1, trail1, conflict) =>
          let scratchpad := conflict.getD st1.conflict_scratchpad_
          let st2 : PropagateNextState :=
            { constraints_ := st1.constraints_.set update.index c1,
              slacks_ := st1.slacks_.set update.index slack1,
              trail :=
                (if ok then trail1
                 else (trail1.SetFailingClause scratchpad).SetFailingResolutionNode c1.node_),
              conflict_scratchpad_ := scratchpad,
              num_constraint_lookups_ := st1.num_constraint_lookups_ + 1,
              conflict := !ok }
          match propagateNextLoop true_literal order rest st2 with
          | (rest1, st3) => ((l, { update with need_untrail_inspection := true }) :: rest1, st3)
      else
        match propagateNextLoop true_literal order rest st1 with
        | (rest1, st2) => ((l, update) :: rest1, st2)

/-- The method `PbConstraints::PropagateNext()`. -/
def PbConstraints.PropagateNext (pb : PbConstraints) (trail : Trail) :
    Bool × PbConstraints × Trail :=
  let order := pb.propagation_trail_index_
  let true_literal := trail.get pb.propagation_trail_index_
  match propagateNextLoop true_literal order pb.to_update_
      { constraints_ := pb.constraints_, slacks_ := pb.slacks_, trail := trail,
        conflict_scratchpad_ := pb.conflict_scratchpad_,
        num_constraint_lookups_ := pb.num_constraint_lookups_, conflict := false } with
  | (to_update, st) =>
    (!st.conflict,
      { constraints_ := st.constraints_, slacks_ := st.slacks_, to_update_ := to_update,
        propagation_trail_index_ := pb.propagation_trail_index_ + 1,
        conflict_scratchpad_ := st.conflict_scratchpad_,
        num_constraint_lookups_ := st.num_constraint_lookups_,
        num_slack_updates_ := (pb.num_slack_updates_ +
          (pb.to_update_.filter (fun e => e.1 = true_literal)).length) },
      st.trail)

/-- The inner loop of `PbConstraints::Untrail` for one literal: the slacks are
restored and the constraints inspected by `Propagate` are collected in
`to_untrail`, each once. -/
def untrailLiteral (literal : Literal) :
    List (Literal × ConstraintIndexWithCoeff) → List Int → List Nat →
    List (Literal × ConstraintIndexWithCoeff) × List Int × List Nat
  | [], slacks, to_untrail => ([], slacks, to_untrail)
  | (l, update) :: rest, slacks, to_untrail =>
    if l ≠ literal then
      match untrailLiteral literal rest slacks to_untrail with
      | (rest1, slacks1, to_untrail1) => ((l, update) :: rest1, slacks1, to_untrail1)
    else
      let slacks1 := slacks.set update.index
        (add64 (slacks.getD update.index 0) update.coefficient)
      if update.need_untrail_inspection then
        match untrailLiteral literal rest slacks1
            (if update.index ∈ to_untrail then to_untrail else to_untrail ++ [update.index]) with
        | (rest1, slacks2, to_untrail1) =>
          ((l, { update with need_untrail_inspection := false }) :: rest1, slacks2, to_untrail1)
      else
        match untrailLiteral literal rest slacks1 to_untrail with
        | (rest1, slacks2, to_untrail1) => ((l, update) :: rest1, slacks2, to_untrail1)

/-- The `while` loop of `PbConstraints::Untrail`: `count` is
`propagation_trail_index_ - trail_index`. -/
def untrailLoop (trail : Trail) : Nat → PbConstraints → List Nat → PbConstraints × List Nat
  | 0, pb, to_untrail => (pb, to_untrail)
  | count + 1, pb, to_untrail =>
    let index := pb.propagation_trail_index_ - 1
    match untrailLiteral (trail.get index) pb.to_update_ pb.slacks_ to_untrail with
    | (to_update, slacks, to_untrail1) =>
      untrailLoop trail count
        { pb with propagation_trail_index_ := index, to_update_ := to_update, slacks_ := slacks }
        to_untrail1

/-- The method `PbConstraints::Untrail(trail_index)`. -/
def PbConstraints.Untrail (pb : PbConstraints) (trail : Trail) (trail_index : Nat) :
    PbConstraints :=
  match untrailLoop trail (pb.propagation_trail_index_ - trail_index) pb [] with
  | (pb1, to_untrail) =>
    to_untrail.foldl
      (fun (p : PbConstraints) cst_index =>
        match (p.constraints_.getD cst_index
            (UpperBoundedLinearConstraint.Create [] none)).Untrail (p.slacks_.getD cst_index 0) with
        | (c, slack) =>
          { p with constraints_ := p.constraints_.set cst_index c,
                   slacks_ := p.slacks_.set cst_index slack })
      pb1

/-- Modelled from the spec: `PbConstraints::ReasonFor(var, reason)` of
`sat/pb_constraint.h`, which is not among the sources: the reason of a variable
propagated by a constraint is the one `FillReason` builds for the trail index
that triggered the propagation. -/
def PbConstraints.ReasonFor (pb : PbConstraints) (trail : Trail) (var : Nat) : List Literal :=
  match trail.entryOf var with
  | some ⟨_, _, AssignmentInfo.PB_PROPAGATION source_trail_index pb_constraint⟩ =>
    (pb.constraints_.getD pb_constraint (UpperBoundedLinearConstraint.Create [] none)).FillReason
      trail source_trail_index var
  | _ => []

/-! ## `sat_solver.cc`: the solver state -/

/-- How a call of the embedding can fail to return: a `CHECK` of the source
aborts the program, or the fuel given to a loop of the embedding ran out. -/
inductive Abort where
  | CHECK_FAILED
  | OUT_OF_FUEL
deriving DecidableEq, Repr

/-- Modelled from the spec: the protocol buffer `SatParameters` of
`sat/sat_parameters.proto`, which is not among the sources, with the fields the
embedded functions read. -/
structure SatParameters where
  unsat_proof : Bool
  treat_binary_clauses_separately : Bool
  max_number_of_conflicts : Int
deriving DecidableEq, Repr

/-- Modelled from the spec: the struct `SatSolver::Decision` of `sat/sat_solver.h`,
which is not among the sources: the trail index and the literal of a
decision. -/
structure Decision where
  trail_index : Nat
  literal : Literal
deriving DecidableEq, Repr

/-- Modelled from the spec: the struct `SatSolver::Counters` of `sat/sat_solver.h`,
which is not among the sources, with the counters `sat_solver.cc` writes. -/
structure Counters where
  num_branches : Int
  num_failures : Int
  num_literals_learned : Int
deriving DecidableEq, Repr

/-- Modelled from the spec: the enum `SatSolver::Status` of `sat/sat_solver.h`,
which is not among the sources, with the four values `Solve` returns. -/
inductive Status where
  | ASSUMPTIONS_UNSAT
  | MODEL_UNSAT
  | MODEL_SAT
  | LIMIT_REACHED
deriving DecidableEq, Repr

/-- Modelled from the spec: the class `SatSolver` of `sat/sat_solver.h`, which is
not among the sources, with the data members that the embedded functions use.
`clause_heap_` holds the `SatClause` objects that `problem_clauses_` and
`learned_clauses_` point to.  The branching heuristic (activities, priority
queue, random generator, restart counters) and the statistics are not
embedded. -/
structure SatSolver where
  num_variables_ : Nat
  num_constraints_ : Nat
  clause_heap_ : ClauseHeap
  problem_clauses_ : List Nat
  learned_clauses_ : List Nat
  binary_implication_graph_ : BinaryImplicationGraph
  watched_clauses_ : LiteralWatchers
  pb_constraints_ : PbConstraints
  symmetry_propagator_ : SymmetryPropagator
  trail_ : Trail
  assumption_level_ : Nat
  current_decision_level_ : Nat
  decisions_ : List Decision
  propagation_trail_index_ : Nat
  binary_propagation_trail_index_ : Nat
  num_processed_fixed_variables_ : Nat
  counters_ : Counters
  is_model_unsat_ : Bool
  parameters_ : SatParameters
  unsat_proof_ : UnsatProof
  to_unlock_ : List Nat
  is_relevant_for_core_computation_ : Bool
  num_learned_clause_before_cleanup_ : Int
  target_number_of_learned_clauses_ : Int
deriving DecidableEq, Repr

/-- The constructor `SatSolver::SatSolver()` followed by `SetParameters(parameters)`. -/
def SatSolver.Create (parameters : SatParameters) : SatSolver :=
  { num_variables_ := 0, num_constraints_ := 0, clause_heap_ := [], problem_clauses_ := [],
    learned_clauses_ := [],
    binary_implication_graph_ := ⟨[], 0, 0⟩,
    watched_clauses_ := ⟨[], true, 0, 0⟩,
    pb_constraints_ := ⟨[], [], [], 0, [], 0, 0⟩,
    symmetry_propagator_ := ⟨0, [], 0, ⟨0⟩, ⟨0⟩⟩,
    trail_ := { Trail.empty with need_fixed_literals_in_reason := parameters.unsat_proof },
    assumption_level_ := 0, current_decision_level_ := 0, decisions_ := [],
    propagation_trail_index_ := 0, binary_propagation_trail_index_ := 0,
    num_processed_fixed_variables_ := 0, counters_ := ⟨0, 0, 0⟩, is_model_unsat_ := false,
    parameters_ := parameters, unsat_proof_ := ⟨[]⟩, to_unlock_ := [],
    is_relevant_for_core_computation_ := true,
    num_learned_clause_before_cleanup_ := 0, target_number_of_learned_clauses_ := 0 }

/-- The method `SatSolver::SetNumVariables(num_variables)`; the `CHECK_GE` aborts
when the number of variables would decrease.  The containers of the
propagators are not dense here and need no resizing. -/
def SatSolver.SetNumVariables (s : SatSolver) (num_variables : Nat) :
    Except Abort SatSolver :=
  if num_variables < s.num_variables_ then Except.error Abort.CHECK_FAILED
  else
    Except.ok { s with
      num_variables_ := num_variables,
      decisions_ := (s.decisions_.take num_variables ++
        List.replicate (num_variables - s.decisions_.length) ⟨0, ⟨0⟩⟩) }

/-- Modelled from the spec: `SatSolver::CurrentDecisionLevel()` of
`sat/sat_solver.h`, which is not among the sources. -/
def SatSolver.CurrentDecisionLevel (s : SatSolver) : Nat := s.current_decision_level_

/-- Modelled from the spec: `SatSolver::num_failures()` of `sat/sat_solver.h`, which
is not among the sources. -/
def SatSolver.num_failures (s : SatSolver) : Int := s.counters_.num_failures

/-- The method `SatSolver::ModelUnsat()`. -/
def SatSolver.ModelUnsat (s : SatSolver) : Bool × SatSolver :=
  (false, { s with is_model_unsat_ := true })

/-- The method `SatSolver::CreateRootResolutionNode()`. -/
def SatSolver.CreateRootResolutionNode (s : SatSolver) : ResolutionNodePointer × SatSolver :=
  if s.parameters_.unsat_proof && s.is_relevant_for_core_computation_ then
    match s.unsat_proof_.CreateNewRootNode s.num_constraints_ with
    | (node, proof) => (node, { s with unsat_proof_ := proof })
  else (none, s)

/-- The statement `if (node != nullptr) unsat_proof_.UnlockNode(node);`. -/
def SatSolver.unlockIfNotNull (s : SatSolver) (node : ResolutionNodePointer) : SatSolver :=
  match node with
  | none => s
  | some n => { s with unsat_proof_ := s.unsat_proof_.UnlockNode n }

/-- The method `SatSolver::Reason(var)`.  The recursion of the source, through
SAME_REASON_AS and SYMMETRY_PROPAGATION, is bounded here by `fuel`; the length
of the trail is enough since each step goes to an earlier trail entry. -/
def SatSolver.Reason (s : SatSolver) : Nat → Nat → List Literal
  | 0, _ => []
  | fuel + 1, var =>
    match s.trail_.entryOf var with
    | none => []
    | some entry =>
      match entry.info with
      | AssignmentInfo.SEARCH_DECISION => []
      | AssignmentInfo.UNIT_REASON _ => []
      | AssignmentInfo.CLAUSE_PROPAGATION sat_clause =>
        match s.clause_heap_.get? sat_clause with
        | some c => c.PropagationReason
        | none => []
      | AssignmentInfo.BINARY_PROPAGATION literal => [literal]
      | AssignmentInfo.PB_PROPAGATION _ _ => s.pb_constraints_.ReasonFor s.trail_ var
      | AssignmentInfo.SYMMETRY_PROPAGATION source_trail_index symmetry_index =>
        s.symmetry_propagator_.Permute symmetry_index
          (s.Reason fuel (s.trail_.get source_trail_index).Variable)
      | AssignmentInfo.SAME_REASON_AS reference_var => s.Reason fuel reference_var
      | AssignmentInfo.CACHED_REASON reason => reason

/-! ## `sat_solver.cc`: propagation -/

/-- The loop of `SatSolver::Propagate` over the binary clauses:
`while (binary_propagation_trail_index_ < trail_.Index())`.  The result is
`false` when `PropagateOnTrue` failed. -/
def propagateBinaryLoop : Nat → SatSolver → Except Abort (Bool × SatSolver)
  | 0, _ => Except.error Abort.OUT_OF_FUEL
  | fuel + 1, s =>
    if s.binary_propagation_trail_index_ < s.trail_.Index then
      let literal := s.trail_.get s.binary_propagation_trail_index_
      match s.binary_implication_graph_.PropagateOnTrue literal s.trail_ with
      | (ok, trail) =>
        let s1 := { s with
          binary_propagation_trail_index_ := s.binary_propagation_trail_index_ + 1,
          trail_ := trail }
        if ok then propagateBinaryLoop fuel s1 else Except.ok (false, s1)
    else Except.ok (true, s)

/-- The loop of `SatSolver::Propagate` over the non-binary clauses:
`while (trail_.Index() == old_index && propagation_trail_index_ < old_index)`. -/
def propagateClausesLoop (old_index : Nat) : Nat → SatSolver → Except Abort (Bool × SatSolver)
  | 0, _ => Except.error Abort.OUT_OF_FUEL
  | fuel + 1, s =>
    if s.trail_.Index = old_index ∧ s.propagation_trail_index_ < old_index then
      let literal := s.trail_.get s.propagation_trail_index_
      match s.watched_clauses_.PropagateOnFalse s.clause_heap_ literal.Negated s.trail_ with
      | (ok, watchers, heap, trail) =>
        let s1 := { s with
          propagation_trail_index_ := s.propagation_trail_index_ + 1,
          watched_clauses_ := watchers, clause_heap_ := heap, trail_ := trail }
        if ok then propagateClausesLoop old_index fuel s1 else Except.ok (false, s1)
    else Except.ok (true, s)

/-- The loop of `SatSolver::Propagate` over the symmetries:
`while (trail_.Index() == old_index && symmetry_propagator_.PropagationNeeded())`. -/
def propagateSymmetryLoop (old_index : Nat) : Nat → SatSolver → Except Abort (Bool × SatSolver)
  | 0, _ => Except.error Abort.OUT_OF_FUEL
  | fuel + 1, s =>
    if s.trail_.Index = old_index ∧ s.symmetry_propagator_.PropagationNeeded s.trail_ then
      match s.symmetry_propagator_.PropagateNext s.trail_ with
      | (ok, sp, trail) =>
        let s1 := { s with symmetry_propagator_ := sp, trail_ := trail }
        if ok then propagateSymmetryLoop old_index fuel s1
        else
          Except.ok (false, { s1 with trail_ := (s1.trail_.SetFailingClause
            (sp.LastConflict (s1.Reason s1.trail_.Index sp.VariableAtTheSourceOfLastConflict))) })
    else Except.ok (true, s)

/-- The loop of `SatSolver::Propagate` over the linear constraints:
`while (trail_.Index() == old_index && pb_constraints_.PropagationNeeded())`. -/
def propagatePbLoop (old_index : Nat) : Nat → SatSolver → Except Abort (Bool × SatSolver)
  | 0, _ => Except.error Abort.OUT_OF_FUEL
  | fuel + 1, s =>
    if s.trail_.Index = old_index ∧ s.pb_constraints_.PropagationNeeded s.trail_ then
      match s.pb_constraints_.PropagateNext s.trail_ with
      | (ok, pb, trail) =>
        let s1 := { s with pb_constraints_ := pb, trail_ := trail }
        if ok then propagatePbLoop old_index fuel s1 else Except.ok (false, s1)
    else Except.ok (true, s)

/-- The method `SatSolver::Propagate()`.  Each loop of the source, the outer
`while (true)` included, may run `fuel` times. -/
def SatSolver.Propagate : Nat → SatSolver → Except Abort (Bool × SatSolver)
  | 0, _ => Except.error Abort.OUT_OF_FUEL
  | fuel + 1, s =>
    match (if s.binary_implication_graph_.NumberOfImplications ≠ 0 then
            propagateBinaryLoop (fuel + 1) s else Except.ok (true, s)) with
    | Except.error e => Except.error e
    | Except.ok (false, s1) => Except.ok (false, s1)
    | Except.ok (true, s1) =>
      let old_index := s1.trail_.Index
      match propagateClausesLoop old_index (fuel + 1) s1 with
      | Except.error e => Except.error e
      | Except.ok (false, s2) => Except.ok (false, s2)
      | Except.ok (true, s2) =>
        if s2.trail_.Index > old_index then SatSolver.Propagate fuel s2
        else
          match propagateSymmetryLoop old_index (fuel + 1) s2 with
          | Except.error e => Except.error e
          | Except.ok (false, s3) => Except.ok (false, s3)
          | Except.ok (true, s3) =>
            if s3.trail_.Index > old_index then SatSolver.Propagate fuel s3
            else
              match propagatePbLoop old_index (fuel + 1) s3 with
              | Except.error e => Except.error e
              | Except.ok (false, s4) => Except.ok (false, s4)
              | Except.ok (true, s4) =>
                if s4.trail_.Index > old_index then SatSolver.Propagate fuel s4
                else Except.ok (true, s4)

/-! ## `sat_solver.cc`: problem construction -/

/-- The method `SatSolver::AddUnitClause(true_literal)`. -/
def SatSolver.AddUnitClause (fuel : Nat) (s : SatSolver) (true_literal : Literal) :
    Except Abort (Bool × SatSolver) :=
  if s.CurrentDecisionLevel ≠ 0 then Except.error Abort.CHECK_FAILED
  else if s.trail_.IsLiteralFalse true_literal then Except.ok (false, s)
  else if s.trail_.IsLiteralTrue true_literal then Except.ok (true, s)
  else
    match s.CreateRootResolutionNode with
    | (node, s1) =>
      let s2 := { s1 with trail_ := s1.trail_.EnqueueWithUnitReason true_literal node,
                          num_constraints_ := s1.num_constraints_ + 1 }
      match s2.Propagate fuel with
      | Except.error e => Except.error e
      | Except.ok (false, s3) => Except.ok s3.ModelUnsat
      | Except.ok (true, s3) => Except.ok (true, s3)

/-- The method `SatSolver::AddProblemClauseInternal(literals, node)`. -/
def SatSolver.AddProblemClauseInternal (s : SatSolver) (literals : List Literal)
    (node : ResolutionNodePointer) : Except Abort (Bool × SatSolver) :=
  if s.CurrentDecisionLevel ≠ 0 then Except.error Abort.CHECK_FAILED
  else
    match literals with
    | [] => Except.error Abort.CHECK_FAILED
    | [literal] =>
      if s.trail_.IsLiteralFalse literal then Except.ok (false, s.unlockIfNotNull node)
      else if s.trail_.IsLiteralTrue literal then Except.ok (true, s.unlockIfNotNull node)
      else Except.ok (true, { s with trail_ := s.trail_.EnqueueWithUnitReason literal node })
    | _ =>
      let clause := SatClause.Create literals ClauseType.PROBLEM_CLAUSE node
      if s.parameters_.treat_binary_clauses_separately && clause.Size == 2 then
        Except.ok (true, { s with binary_implication_graph_ :=
          (s.binary_implication_graph_.AddBinaryClause clause.FirstLiteral clause.SecondLiteral) })
      else
        let pointer := s.clause_heap_.length
        match s.watched_clauses_.AttachAndPropagate (s.clause_heap_ ++ [clause]) pointer
            s.trail_ with
        | (false, _, _, _) => Except.ok s.ModelUnsat
        | (true, watchers, heap, trail) =>
          Except.ok (true, { s with watched_clauses_ := watchers, clause_heap_ := heap,
                                    trail_ := trail,
                                    problem_clauses_ := (s.problem_clauses_ ++ [pointer]) })

/-- The method `SatSolver::AddLinearConstraintInternal(cst, rhs, max_value)`.  The
`DCHECK` that `cst` is canonical is not part of an optimised build and is not
embedded. -/
def SatSolver.AddLinearConstraintInternal (s : SatSolver) (cst : List LiteralWithCoeff)
    (rhs max_value : Int) : Except Abort (Bool × SatSolver) :=
  if rhs < 0 then Except.ok s.ModelUnsat
  else if rhs ≥ max_value then Except.ok (true, s)
  else
    match s.CreateRootResolutionNode with
    | (node, s1) =>
      if sub64 max_value (cst.getD 0 ⟨⟨0⟩, 0⟩).coefficient ≤ rhs then
        s1.AddProblemClauseInternal (cst.map (fun term => term.literal.Negated)) node
      else
        let s2 :=
          match node with
          | some n => { s1 with to_unlock_ := s1.to_unlock_ ++ [n] }
          | none => s1
        match s2.pb_constraints_.AddConstraint cst rhs node s2.trail_ with
        | (ok, pb, trail) => Except.ok (ok, { s2 with pb_constraints_ := pb, trail_ := trail })

/-- The first block of `SatSolver::AddLinearConstraint`, which removes the
assigned literals from the constraint: the terms kept and
`fixed_variable_shift`, or `none` when the `CHECK` on `SafeAddInto` fails. -/
def removeAssignedLiterals (trail : Trail) :
    List LiteralWithCoeff → Int → Option (List LiteralWithCoeff × Int)
  | [], fixed_variable_shift => some ([], fixed_variable_shift)
  | term :: rest, fixed_variable_shift =>
    if trail.IsLiteralFalse term.literal then
      removeAssignedLiterals trail rest fixed_variable_shift
    else if trail.IsLiteralTrue term.literal then
      match SafeAddInto (neg64 term.coefficient) fixed_variable_shift with
      | none => none
      | some shift => removeAssignedLiterals trail rest shift
    else
      match removeAssignedLiterals trail rest fixed_variable_shift with
      | none => none
      | some (kept, shift) => some (term :: kept, shift)

/-- The method `SatSolver::AddLinearConstraint(use_lower_bound, lower_bound,
use_upper_bound, upper_bound, cst)`. -/
def SatSolver.AddLinearConstraint (fuel : Nat) (s : SatSolver) (use_lower_bound : Bool)
    (lower_bound : Int) (use_upper_bound : Bool) (upper_bound : Int)
    (cst : List LiteralWithCoeff) : Except Abort (Bool × SatSolver) :=
  if s.CurrentDecisionLevel ≠ 0 then Except.error Abort.CHECK_FAILED
  else
    match (if !s.parameters_.unsat_proof then removeAssignedLiterals s.trail_ cst 0
           else some (cst, 0)) with
    | none => Except.error Abort.CHECK_FAILED
    | some (cst1, fixed_variable_shift) =>
      match ComputeBooleanLinearExpressionCanonicalForm cst1 with
      | none => Except.error Abort.CHECK_FAILED
      | some (cst2, bound_shift0, max_value) =>
        match SafeAddInto fixed_variable_shift bound_shift0 with
        | none => Except.error Abort.CHECK_FAILED
        | some bound_shift =>
          match (if use_upper_bound then
                  s.AddLinearConstraintInternal cst2
                    (ComputeCanonicalRhs upper_bound bound_shift max_value) max_value
                 else Except.ok (true, s)) with
          | Except.error e => Except.error e
          | Except.ok (false, s1) => Except.ok s1.ModelUnsat
          | Except.ok (true, s1) =>
            match (if use_lower_bound then
                    s1.AddLinearConstraintInternal
                      (cst2.map (fun t => { t with literal := t.literal.Negated }))
                      (ComputeNegatedCanonicalRhs lower_bound bound_shift max_value) max_value
                   else Except.ok (true, s1)) with
            | Except.error e => Except.error e
            | Except.ok (false, s2) => Except.ok s2.ModelUnsat
            | Except.ok (true, s2) =>
              match ({ s2 with num_constraints_ := s2.num_constraints_ + 1 }).Propagate fuel with
              | Except.error e => Except.error e
              | Except.ok (false, s3) => Except.ok s3.ModelUnsat
              | Except.ok (true, s3) => Except.ok (true, s3)

/-- The method `SatSolver::AddProblemClause(literals)`. -/
def SatSolver.AddProblemClause (fuel : Nat) (s : SatSolver) (literals : List Literal) :
    Except Abort (Bool × SatSolver) :=
  s.AddLinearConstraint fuel true 1 false 0 (literals.map (fun lit => ⟨lit, 1⟩))

/-! ## `sat_solver.cc`: decisions and backtracking -/

/-- The method `SatSolver::NewDecision(literal)`. -/
def SatSolver.NewDecision (s : SatSolver) (literal : Literal) : SatSolver :=
  { s with
    counters_ := { s.counters_ with num_branches := s.counters_.num_branches + 1 },
    decisions_ := s.decisions_.set s.current_decision_level_ ⟨s.trail_.Index, literal⟩,
    current_decision_level_ := s.current_decision_level_ + 1,
    trail_ := (s.trail_.SetDecisionLevel (s.current_decision_level_ + 1)).Enqueue literal
      AssignmentInfo.SEARCH_DECISION }

/-- The loop `while (trail_.Index() > target_trail_index) trail_.Dequeue()` of
`SatSolver::Untrail`: `count` entries are popped. -/
def dequeueLoop : Nat → Trail → Trail
  | 0, trail => trail
  | count + 1, trail => dequeueLoop count trail.Dequeue

/-- The method `SatSolver::Untrail(target_trail_index)`. -/
def SatSolver.Untrail (s : SatSolver) (target_trail_index : Nat) : SatSolver :=
  { s with
    pb_constraints_ := s.pb_constraints_.Untrail s.trail_ target_trail_index,
    symmetry_propagator_ := s.symmetry_propagator_.Untrail target_trail_index,
    trail_ := dequeueLoop (s.trail_.Index - target_trail_index) s.trail_,
    propagation_trail_index_ := target_trail_index,
    binary_propagation_trail_index_ := target_trail_index }

/-- The loop of `SatSolver::Backtrack` that lowers `current_decision_level_` to
`target_level`: `count` levels are undone; the result is the new level and
`target_trail_index`. -/
def backtrackLevels (decisions : List Decision) : Nat → Nat → Nat → Nat × Nat
  | 0, level, target_trail_index => (level, target_trail_index)
  | count + 1, level, _ =>
    backtrackLevels decisions count (level - 1) (decisions.getD (level - 1) ⟨0, ⟨0⟩⟩).trail_index

/-- The method `SatSolver::Backtrack(target_level)`. -/
def SatSolver.Backtrack (s : SatSolver) (target_level : Nat) : SatSolver :=
  if s.CurrentDecisionLevel = target_level then s
  else
    match backtrackLevels s.decisions_ (s.current_decision_level_ - target_level)
        s.current_decision_level_ 0 with
    | (level, target_trail_index) =>
      let s1 := { s with
        counters_ := { s.counters_ with num_failures := s.counters_.num_failures + 1 },
        current_decision_level_ := level }
      let s2 := s1.Untrail target_trail_index
      { s2 with trail_ := s2.trail_.SetDecisionLevel target_level }

/-- The method `SatSolver::TreatCurrentDecisionsAsAssumption()`. -/
def SatSolver.TreatCurrentDecisionsAsAssumption (s : SatSolver) : SatSolver :=
  { s with assumption_level_ := s.CurrentDecisionLevel }

/-- A solver state in which no propagator has anything to propagate with: no
binary implication, no watcher, no symmetry and no linear constraint update
list.  This is the state of the propagators of a newly constructed solver. -/
def SatSolver.HasNoConstraint (s : SatSolver) : Prop :=
  s.binary_implication_graph_.num_implications_ = 0 ∧
  s.watched_clauses_.watchers_on_false_ = [] ∧
  s.symmetry_propagator_.permutations_ = [] ∧
  s.pb_constraints_.to_update_ = []

/-- The state that `Propagate` leaves when nothing is propagated: the cursors of
the clause, symmetry and linear constraint propagators are at the end of the
trail. -/
def SatSolver.caughtUp (s : SatSolver) : SatSolver :=
  { s with
    propagation_trail_index_ := s.trail_.Index,
    symmetry_propagator_ :=
      { s.symmetry_propagator_ with propagation_trail_index_ := s.trail_.Index },
    pb_constraints_ := { s.pb_constraints_ with propagation_trail_index_ := s.trail_.Index } }

/-- The method `SatSolver::SetParameters(parameters)`; the reset of the random
generator and of the restart counters, which are not embedded, is left out. -/
def SatSolver.SetParameters (s : SatSolver) (parameters : SatParameters) : SatSolver :=
  { s with parameters_ := parameters,
           trail_ := { s.trail_ with need_fixed_literals_in_reason := parameters.unsat_proof } }

/-! ## `sat_solver.cc`: conflict analysis -/

/-- Modelled from the spec: `SatSolver::DecisionLevel(var)` of `sat/sat_solver.h`,
which is not among the sources: the decision level `trail_.Info(var).level` at
which `var` was assigned. -/
def SatSolver.DecisionLevel (s : SatSolver) (var : Nat) : Nat := s.trail_.levelOf var

/-- Modelled from the spec: the class `SparseBitset` of `util/bitset.h`, which is
not among the sources, used for `is_marked_` and `is_independent_`: "marking
visited variables once".  `bitset_` lists the positions that are set and
`to_clear_` the positions set at least once since the last `ClearAndResize`, in
the order in which they were first set. -/
structure SparseBitset where
  bitset_ : List Nat
  to_clear_ : List Nat
deriving DecidableEq, Repr

/-- Modelled from the spec: `SparseBitset::ClearAndResize(size)` of
`util/bitset.h`: no position is set. -/
def SparseBitset.ClearAndResize : SparseBitset := ⟨[], []⟩

/-- Modelled from the spec: the test `bitset[index]` of `util/bitset.h`. -/
def SparseBitset.get (b : SparseBitset) (index : Nat) : Bool := b.bitset_.contains index

/-- Modelled from the spec: `SparseBitset::Set(index)` of `util/bitset.h`; a
position that is already set is not recorded again. -/
def SparseBitset.Set (b : SparseBitset) (index : Nat) : SparseBitset :=
  if b.get index then b else ⟨b.bitset_ ++ [index], b.to_clear_ ++ [index]⟩

/-- Modelled from the spec: `SparseBitset::PositionsSetAtLeastOnce()` of
`util/bitset.h`. -/
def SparseBitset.PositionsSetAtLeastOnce (b : SparseBitset) : List Nat := b.to_clear_

/-- Modelled from the spec: `Trail::ReferenceVarWithSameReason(var)` of
`sat/sat_base.h`, which is not among the sources: the variable whose reason `var`
shares when `var` was enqueued with the "same reason as" alias, and `var`
itself otherwise. -/
def Trail.ReferenceVarWithSameReason (t : Trail) (var : Nat) : Nat :=
  match t.entryOf var with
  | some entry =>
    match entry.info with
    | AssignmentInfo.SAME_REASON_AS reference_var => reference_var
    | _ => var
  | none => var

/-- Modelled from the spec: the class `VariablesWithSameReasonIdentifier` of
`sat/sat_solver.h`, which is not among the sources, behind
`same_reason_identifier_`.  The source describes its use: "if we already
encountered the same reason, we can just skip this literal".  An entry
`(position, var)` of `first_variable_` records that `var` was the first variable
asked about among those whose reason is that of the variable `position`. -/
structure VariablesWithSameReasonIdentifier where
  first_variable_ : List (Nat × Nat)
deriving DecidableEq, Repr

/-- Modelled from the spec: `VariablesWithSameReasonIdentifier::Clear()` of
`sat/sat_solver.h`, called before each conflict analysis. -/
def VariablesWithSameReasonIdentifier.Clear : VariablesWithSameReasonIdentifier := ⟨[]⟩

/-- Modelled from the spec: the entry of `first_variable_` at `position`, when
one was recorded since the last `Clear()`. -/
def VariablesWithSameReasonIdentifier.seen (id : VariablesWithSameReasonIdentifier)
    (position : Nat) : Option Nat :=
  (id.first_variable_.find? (fun entry => entry.1 = position)).map (fun entry => entry.2)

/-- Modelled from the spec:
`VariablesWithSameReasonIdentifier::FirstVariableWithSameReason(var)` of
`sat/sat_solver.h`, which is not among the sources: the first variable with the
same reason as `var` on which the function was called since the last `Clear()`,
and `var` itself when there is none; the call is recorded. -/
def VariablesWithSameReasonIdentifier.FirstVariableWithSameReason
    (id : VariablesWithSameReasonIdentifier) (trail : Trail) (var : Nat) :
    Nat × VariablesWithSameReasonIdentifier :=
  match id.seen var with
  | some first => (first, id)
  | none =>
    let reference_var := trail.ReferenceVarWithSameReason var
    if reference_var = var then (var, id)
    else
      match id.seen reference_var with
      | some first => (first, id)
      | none => (var, ⟨id.first_variable_ ++ [(reference_var, var)]⟩)

/-- What `ComputeFirstUIPConflict` computes: the two output vectors, the marks
it leaves in `is_marked_`, and the state of `same_reason_identifier_`; with
them, the two counters of its main loop. -/
structure FirstUIPState where
  is_marked_ : SparseBitset
  conflict : List Literal
  reason_used_to_infer_the_conflict : List Literal
  same_reason_identifier_ : VariablesWithSameReasonIdentifier
  trail_index : Int
  num_literal_at_highest_level_that_needs_to_be_processed : Int
deriving DecidableEq, Repr

/-- The loop `for (const Literal literal : clause_to_expand)` of
`ComputeFirstUIPConflict`, over the literals still to visit. -/
def expandClause (trail : Trail) (highest_level : Nat) :
    List Literal → FirstUIPState → FirstUIPState
  | [], st => st
  | literal :: rest, st =>
    let var := literal.Variable
    if st.is_marked_.get var then expandClause trail highest_level rest st
    else
      let st1 := { st with is_marked_ := st.is_marked_.Set var }
      let level := trail.levelOf var
      if level = highest_level then
        expandClause trail highest_level rest
          { st1 with num_literal_at_highest_level_that_needs_to_be_processed :=
              st1.num_literal_at_highest_level_that_needs_to_be_processed + 1 }
      else if level > 0 then
        expandClause trail highest_level rest { st1 with conflict := st1.conflict ++ [literal] }
      else
        expandClause trail highest_level rest
          { st1 with reason_used_to_infer_the_conflict :=
              st1.reason_used_to_infer_the_conflict ++ [literal] }

/-- The loop `while (!is_marked_[trail_[trail_index].Variable()]) --trail_index;`
of `ComputeFirstUIPConflict`, from the index `trail_index` down: the index at
which it stops, or `none` when it runs below index 0, where the source reads
outside of the trail. -/
def nextMarkedIndex (trail : Trail) (is_marked : SparseBitset) : Nat → Option Nat
  | 0 => if is_marked.get (trail.get 0).Variable then some 0 else none
  | trail_index + 1 =>
    if is_marked.get (trail.get (trail_index + 1)).Variable then some (trail_index + 1)
    else nextMarkedIndex trail is_marked trail_index

/-- The statement `std::swap(conflict->back(), conflict->front())`. -/
def swapBackFront : List Literal → List Literal
  | [] => []
  | [a] => [a]
  | a :: b :: rest => (b :: rest).getLast (by simp) :: ((b :: rest).dropLast ++ [a])

/-- The loop `while (true)` of `ComputeFirstUIPConflict`; `reason` is
`Reason(var)`.  A scan that leaves the trail is reported as a failed check (the
source has `DCHECK_GE(trail_index, 0)` there). -/
def firstUIPLoop (trail : Trail) (reason : Nat → List Literal) (highest_level : Nat) :
    Nat → List Literal → FirstUIPState → Except Abort FirstUIPState
  | 0, _, _ => Except.error Abort.OUT_OF_FUEL
  | fuel + 1, clause_to_expand, st =>
    let st1 := expandClause trail highest_level clause_to_expand st
    if st1.trail_index < 0 then Except.error Abort.CHECK_FAILED
    else
      match nextMarkedIndex trail st1.is_marked_ st1.trail_index.toNat with
      | none => Except.error Abort.CHECK_FAILED
      | some trail_index =>
        if st1.num_literal_at_highest_level_that_needs_to_be_processed = 1 then
          Except.ok { st1 with
            trail_index := trail_index,
            conflict := swapBackFront (st1.conflict ++ [(trail.get trail_index).Negated]) }
        else
          let literal := trail.get trail_index
          match st1.same_reason_identifier_.FirstVariableWithSameReason trail literal.Variable with
          | (first, same_reason_identifier) =>
            firstUIPLoop trail reason highest_level fuel
              (if first ≠ literal.Variable then [] else reason literal.Variable)
              { st1 with
                reason_used_to_infer_the_conflict :=
                  st1.reason_used_to_infer_the_conflict ++ [literal],
                same_reason_identifier_ := same_reason_identifier,
                num_literal_at_highest_level_that_needs_to_be_processed :=
                  st1.num_literal_at_highest_level_that_needs_to_be_processed - 1,
                trail_index := (trail_index : Int) - 1 }

/-- The first loop of `ComputeFirstUIPConflict`: the highest trail index that
appears in the failing clause, and `-1` for an empty clause. -/
def highestTrailIndex (trail : Trail) (failing_clause : List Literal) : Int :=
  failing_clause.foldl
    (fun trail_index literal => max trail_index (trail.trailIndexOf literal.Variable : Int)) (-1)

/-- The body of `ComputeFirstUIPConflict` over the trail and the function
`Reason(var)`. -/
def computeFirstUIPConflict (trail : Trail) (reason : Nat → List Literal) (fuel : Nat)
    (same_reason_identifier : VariablesWithSameReasonIdentifier)
    (failing_clause : List Literal) : Except Abort FirstUIPState :=
  let st : FirstUIPState :=
    { is_marked_ := SparseBitset.ClearAndResize, conflict := [],
      reason_used_to_infer_the_conflict := [],
      same_reason_identifier_ := same_reason_identifier,
      trail_index := highestTrailIndex trail failing_clause,
      num_literal_at_highest_level_that_needs_to_be_processed := 0 }
  if st.trail_index = -1 then Except.ok st
  else
    let highest_level := trail.levelOf (trail.get st.trail_index.toNat).Variable
    if highest_level = 0 then Except.ok st
    else firstUIPLoop trail reason highest_level fuel failing_clause st

/-- The method `SatSolver::ComputeFirstUIPConflict(failing_clause, conflict,
reason_used_to_infer_the_conflict)`; `same_reason_identifier` is the state of
`same_reason_identifier_` at the call, and the result carries the marks left in
`is_marked_`. -/
def SatSolver.ComputeFirstUIPConflict (s : SatSolver) (fuel : Nat)
    (same_reason_identifier : VariablesWithSameReasonIdentifier)
    (failing_clause : List Literal) : Except Abort FirstUIPState :=
  computeFirstUIPConflict s.trail_ (s.Reason s.trail_.Index) fuel same_reason_identifier
    failing_clause

/-- The method `SatSolver::IsConflictValid(literals)`. -/
def SatSolver.IsConflictValid (s : SatSolver) (literals : List Literal) : Bool :=
  match literals with
  | [] => false
  | first :: rest =>
    let highest_level := s.DecisionLevel first.Variable
    rest.all (fun literal =>
      let level := s.DecisionLevel literal.Variable
      !(decide (level ≤ 0) || decide (level ≥ highest_level)))

/-- The method `SatSolver::ComputeBacktrackLevel(literals)`: the loop runs over
the literals after the first one. -/
def SatSolver.ComputeBacktrackLevel (s : SatSolver) (literals : List Literal) : Nat :=
  (literals.drop 1).foldl
    (fun backtrack_level literal => max backtrack_level (s.DecisionLevel literal.Variable)) 0

/-- The test of `MinimizeConflictSimple` on the literal of variable `var`: the
value of `can_be_removed` after the body of the loop. -/
def SatSolver.canBeRemoved (s : SatSolver) (is_marked : SparseBitset) (var : Nat) : Bool :=
  if s.DecisionLevel var ≠ s.CurrentDecisionLevel then
    let reason := s.Reason s.trail_.Index var
    if reason ≠ [] then
      reason.all (fun literal =>
        decide (s.DecisionLevel literal.Variable = 0) || is_marked.get literal.Variable)
    else false
  else false

/-- The method `SatSolver::MinimizeConflictSimple(conflict)`, for a non-empty
conflict; `is_marked` is `is_marked_` as `ComputeFirstUIPConflict` left it.  The
loop copies the literals that stay towards the front and the vector is cut
after them. -/
def SatSolver.MinimizeConflictSimple (s : SatSolver) (is_marked : SparseBitset)
    (conflict : List Literal) : List Literal :=
  conflict.take 1 ++
    (conflict.drop 1).filter (fun literal => !s.canBeRemoved is_marked literal.Variable)

/-- The marks that `MinimizeConflictRecursively` and
`CanBeInferedFromConflictVariables` read and write. -/
structure MinimizationState where
  is_marked_ : SparseBitset
  is_independent_ : SparseBitset
  same_reason_identifier_ : VariablesWithSameReasonIdentifier
deriving DecidableEq, Repr

/-- The vector `min_trail_index_per_level_` after the loop of
`MinimizeConflictRecursively` that fills it, as a function of the level: the
smallest trail index of a marked variable of that level, and
`std::numeric_limits<int>::max()` when there is none. -/
def minTrailIndexPerLevel (trail : Trail) : List Nat → Nat → Int
  | [], _ => 2147483647
  | var :: rest, level =>
    if trail.levelOf var = level then
      min (minTrailIndexPerLevel trail rest level) (trail.trailIndexOf var)
    else minTrailIndexPerLevel trail rest level

/-- The first loop of `CanBeInferedFromConflictVariables`, over the reason of the
variable asked about.  The first component is false when the loop leaves the
function with `return false`; the last one is `variable_to_process_`. -/
def expandRootReason (trail : Trail) (min_trail_index_per_level : Nat → Int) :
    List Literal → MinimizationState → List Nat → Bool × MinimizationState × List Nat
  | [], st, variable_to_process => (true, st, variable_to_process)
  | literal :: rest, st, variable_to_process =>
    let var := literal.Variable
    if st.is_marked_.get var then
      expandRootReason trail min_trail_index_per_level rest st variable_to_process
    else
      let level := trail.levelOf var
      if level = 0 then
        expandRootReason trail min_trail_index_per_level rest
          { st with is_marked_ := st.is_marked_.Set var } variable_to_process
      else if (trail.trailIndexOf var : Int) ≤ min_trail_index_per_level level ∨
          st.is_independent_.get var = true then (false, st, variable_to_process)
      else
        expandRootReason trail min_trail_index_per_level rest st (variable_to_process ++ [var])

/-- The loop of `CanBeInferedFromConflictVariables` that expands the reason of
`current_var` inside the search.  The result is `abort_early` and
`variable_to_process_`. -/
def expandReason (trail : Trail) (min_trail_index_per_level : Nat → Int)
    (st : MinimizationState) : List Literal → List Nat → Bool × List Nat
  | [], variable_to_process => (false, variable_to_process)
  | literal :: rest, variable_to_process =>
    let var := literal.Variable
    let level := trail.levelOf var
    if level = 0 ∨ st.is_marked_.get var = true then
      expandReason trail min_trail_index_per_level st rest variable_to_process
    else if (trail.trailIndexOf var : Int) ≤ min_trail_index_per_level level ∨
        st.is_independent_.get var = true then (true, variable_to_process)
    else expandReason trail min_trail_index_per_level st rest (variable_to_process ++ [var])

/-- The loop `while (!variable_to_process_.empty())` of
`CanBeInferedFromConflictVariables`; the result is the marks and `dfs_stack_`
when the loop is left. -/
def dfsLoop (trail : Trail) (reason : Nat → List Literal)
    (min_trail_index_per_level : Nat → Int) :
    Nat → MinimizationState → List Nat → List Nat →
      Except Abort (MinimizationState × List Nat)
  | 0, _, _, _ => Except.error Abort.OUT_OF_FUEL
  | fuel + 1, st, dfs_stack, variable_to_process =>
    match variable_to_process.getLast? with
    | none => Except.ok (st, dfs_stack)
    | some current_var =>
      if dfs_stack.getLast? = some current_var then
        dfsLoop trail reason min_trail_index_per_level fuel
          (if dfs_stack.length > 1 then { st with is_marked_ := st.is_marked_.Set current_var }
           else st)
          dfs_stack.dropLast variable_to_process.dropLast
      else if st.is_marked_.get current_var then
        dfsLoop trail reason min_trail_index_per_level fuel st dfs_stack
          variable_to_process.dropLast
      else
        match st.same_reason_identifier_.FirstVariableWithSameReason trail current_var with
        | (v, same_reason_identifier) =>
          let st1 := { st with same_reason_identifier_ := same_reason_identifier }
          if v ≠ current_var then
            if st1.is_independent_.get v then Except.ok (st1, dfs_stack)
            else
              dfsLoop trail reason min_trail_index_per_level fuel st1 dfs_stack
                variable_to_process.dropLast
          else
            match expandReason trail min_trail_index_per_level st1 (reason current_var)
                variable_to_process with
            | (true, _) => Except.ok (st1, dfs_stack ++ [current_var])
            | (false, variable_to_process1) =>
              dfsLoop trail reason min_trail_index_per_level fuel st1
                (dfs_stack ++ [current_var]) variable_to_process1

/-- The body of `CanBeInferedFromConflictVariables(variable)`, whose argument is `variable_` here, over the trail and
the function `Reason(var)`. -/
def canBeInferedFromConflictVariables (trail : Trail) (reason : Nat → List Literal)
    (min_trail_index_per_level : Nat → Int) (fuel : Nat) (st : MinimizationState)
    (variable_ : Nat) : Except Abort (Bool × MinimizationState) :=
  match st.same_reason_identifier_.FirstVariableWithSameReason trail variable_ with
  | (v, same_reason_identifier) =>
    let st0 := { st with same_reason_identifier_ := same_reason_identifier }
    if v ≠ variable_ then Except.ok (!st0.is_independent_.get v, st0)
    else
      match expandRootReason trail min_trail_index_per_level (reason variable_) st0
          [variable_] with
      | (false, st1, _) => Except.ok (false, st1)
      | (true, st1, variable_to_process) =>
        match dfsLoop trail reason min_trail_index_per_level fuel st1 [variable_]
            variable_to_process with
        | Except.error e => Except.error e
        | Except.ok (st2, dfs_stack) =>
          Except.ok (dfs_stack.isEmpty,
            { st2 with is_independent_ :=
                dfs_stack.foldl (fun b var => b.Set var) st2.is_independent_ })

/-- The loop of `MinimizeConflictRecursively` over the literals of the conflict
after the first one; the result is the literals that stay. -/
def minimizeRecursivelyLoop (trail : Trail) (reason : Nat → List Literal)
    (min_trail_index_per_level : Nat → Int) (fuel : Nat) :
    List Literal → MinimizationState → Except Abort (List Literal × MinimizationState)
  | [], st => Except.ok ([], st)
  | literal :: rest, st =>
    let var := literal.Variable
    if (trail.trailIndexOf var : Int) ≤ min_trail_index_per_level (trail.levelOf var) then
      match minimizeRecursivelyLoop trail reason min_trail_index_per_level fuel rest
          { st with is_independent_ := st.is_independent_.Set var } with
      | Except.error e => Except.error e
      | Except.ok (kept, st1) => Except.ok (literal :: kept, st1)
    else
      match canBeInferedFromConflictVariables trail reason min_trail_index_per_level fuel st
          var with
      | Except.error e => Except.error e
      | Except.ok (true, st1) =>
        minimizeRecursivelyLoop trail reason min_trail_index_per_level fuel rest st1
      | Except.ok (false, st1) =>
        match minimizeRecursivelyLoop trail reason min_trail_index_per_level fuel rest
            { st1 with is_independent_ := st1.is_independent_.Set var } with
        | Except.error e => Except.error e
        | Except.ok (kept, st2) => Except.ok (literal :: kept, st2)

/-- The body of `MinimizeConflictRecursively(conflict)` over the trail and the
function `Reason(var)`, for a non-empty conflict. -/
def minimizeConflictRecursively (trail : Trail) (reason : Nat → List Literal) (fuel : Nat)
    (is_marked : SparseBitset) (same_reason_identifier : VariablesWithSameReasonIdentifier)
    (conflict : List Literal) : Except Abort (List Literal × MinimizationState) :=
  match minimizeRecursivelyLoop trail reason
      (minTrailIndexPerLevel trail is_marked.PositionsSetAtLeastOnce) fuel (conflict.drop 1)
      ⟨is_marked, SparseBitset.ClearAndResize, same_reason_identifier⟩ with
  | Except.error e => Except.error e
  | Except.ok (kept, st) => Except.ok (conflict.take 1 ++ kept, st)

/-- The method `SatSolver::MinimizeConflictRecursively(conflict)`; `is_marked` and
`same_reason_identifier` are `is_marked_` and `same_reason_identifier_` as
`ComputeFirstUIPConflict` left them, and the result carries the marks left in
`is_marked_` and `is_independent_`. -/
def SatSolver.MinimizeConflictRecursively (s : SatSolver) (fuel : Nat)
    (is_marked : SparseBitset) (same_reason_identifier : VariablesWithSameReasonIdentifier)
    (conflict : List Literal) : Except Abort (List Literal × MinimizationState) :=
  minimizeConflictRecursively s.trail_ (s.Reason s.trail_.Index) fuel is_marked
    same_reason_identifier conflict

/-! ## `sat_solver.cc`: the search -/

/-- Modelled from the spec: the constant `kUnsatTrailIndex` of `sat/sat_solver.h`,
which is not among the sources: the value that
`EnqueueDecisionAndBackjumpOnConflict` returns when the model is found UNSAT;
`Solve()` tests the result against `-1`. -/
def kUnsatTrailIndex : Int := -1

/-- The method `SatSolver::ResolutionNodeForAssignment(var)`; the `CHECK`s and the
`LOG(FATAL)` abort.  The source follows SAME_REASON_AS by a recursive call, "only
one recursion level"; the calls are bounded here by the first argument. -/
def SatSolver.ResolutionNodeForAssignment (s : SatSolver) :
    Nat → Nat → Except Abort ResolutionNodePointer
  | 0, _ => Except.error Abort.OUT_OF_FUEL
  | fuel + 1, var =>
    match s.trail_.entryOf var with
    | none => Except.error Abort.CHECK_FAILED
    | some entry =>
      match entry.info with
      | AssignmentInfo.CLAUSE_PROPAGATION sat_clause =>
        match s.clause_heap_.get? sat_clause with
        | some c => Except.ok c.resolution_node_
        | none => Except.error Abort.CHECK_FAILED
      | AssignmentInfo.UNIT_REASON resolution_node => Except.ok resolution_node
      | AssignmentInfo.PB_PROPAGATION _ pb_constraint =>
        match s.pb_constraints_.constraints_.get? pb_constraint with
        | some c => Except.ok c.node_
        | none => Except.error Abort.CHECK_FAILED
      | AssignmentInfo.SAME_REASON_AS reference_var =>
        s.ResolutionNodeForAssignment fuel reference_var
      | AssignmentInfo.CACHED_REASON _ => Except.error Abort.CHECK_FAILED
      | AssignmentInfo.SEARCH_DECISION => Except.error Abort.CHECK_FAILED
      | AssignmentInfo.BINARY_PROPAGATION _ => Except.error Abort.CHECK_FAILED
      | AssignmentInfo.SYMMETRY_PROPAGATION _ _ => Except.error Abort.CHECK_FAILED

/-- The loop of `CreateResolutionNode` that collects in `tmp_parents_` the
non-null nodes of the literals of `reason_used_to_infer_the_conflict`. -/
def SatSolver.collectParents (s : SatSolver) :
    List Literal → List Nat → Except Abort (List Nat)
  | [], tmp_parents => Except.ok tmp_parents
  | literal :: rest, tmp_parents =>
    match s.ResolutionNodeForAssignment s.trail_.Index literal.Variable with
    | Except.error e => Except.error e
    | Except.ok none => s.collectParents rest tmp_parents
    | Except.ok (some node) => s.collectParents rest (tmp_parents ++ [node])

/-- The method `SatSolver::CreateResolutionNode(failing_clause_resolution_node,
reason_used_to_infer_the_conflict)`. -/
def SatSolver.CreateResolutionNode (s : SatSolver)
    (failing_clause_resolution_node : ResolutionNodePointer)
    (reason_used_to_infer_the_conflict : List Literal) :
    Except Abort (ResolutionNodePointer × SatSolver) :=
  match s.collectParents reason_used_to_infer_the_conflict
      (match failing_clause_resolution_node with
       | some node => [node]
       | none => []) with
  | Except.error e => Except.error e
  | Except.ok tmp_parents =>
    if tmp_parents = [] then Except.ok (none, s)
    else
      match s.unsat_proof_.CreateNewResolutionNode tmp_parents with
      | (node, proof) => Except.ok (node, { s with unsat_proof_ := proof })

/-- What the search reads from outside the embedded state, and the parts of it
that are taken as parameters.  The clock and the memory meter are asked at each
iteration of the loop of `Solve()`.  `should_restart` is `ShouldRestart()` and
`next_branch` is the literal that `Solve()` decides on, `NextBranch()` negated
where its objective weight is not zero; both depend on the restart counters,
the activities and the random generator, which are not embedded, and are
functions of the iteration.  The other three are parts of
`EnqueueDecisionAndBackjumpOnConflict` that rest on `clause.cc` or on the
activities: `process_newly_fixed_variables` is
`ProcessNewlyFixedVariableResolutionNodes()` followed by
`ProcessNewlyFixedVariables()`; `minimize_conflict` is lines 376 to 412 of
`sat_solver.cc`, which minimize `learned_conflict_` with the binary
implication graph and with `MinimizeConflict`, and returns the new
`learned_conflict_` and `reason_used_to_infer_the_conflict_`;
`add_learned_clause` is `AddLearnedClauseAndEnqueueUnitPropagation`, asked at
the given iteration for the conflict of the given number. -/
structure SolveEnvironment where
  time_limit_reached : Nat → Bool
  memory_limit_reached : Nat → Bool
  should_restart : Nat → Bool
  next_branch : Nat → SatSolver → Literal
  process_newly_fixed_variables : SatSolver → Except Abort SatSolver
  minimize_conflict : SatSolver → FirstUIPState → List Literal × List Literal
  add_learned_clause :
    Nat → Nat → SatSolver → List Literal → ResolutionNodePointer → Except Abort SatSolver

/-- The loop `while (!Propagate())` of `EnqueueDecisionAndBackjumpOnConflict`, at
its conflict number `conflict_number`, with the current value of
`first_propagation_index`.  The calls it makes get the fuel `inner_fuel`.  The
updates of the activities and of the restart counter, which are not embedded,
are left out. -/
def backjumpLoop (env : SolveEnvironment) (inner_fuel iteration : Nat) :
    Nat → Nat → Int → SatSolver → Except Abort (Int × SatSolver)
  | 0, _, _, _ => Except.error Abort.OUT_OF_FUEL
  | fuel + 1, conflict_number, first_propagation_index, s =>
    match s.Propagate inner_fuel with
    | Except.error e => Except.error e
    | Except.ok (true, s1) => Except.ok (first_propagation_index, s1)
    | Except.ok (false, s1) =>
      match s1.ComputeFirstUIPConflict inner_fuel VariablesWithSameReasonIdentifier.Clear
          s1.trail_.failing_clause with
      | Except.error e => Except.error e
      | Except.ok analysis =>
        if analysis.conflict = [] then
          Except.ok (kUnsatTrailIndex, { s1 with is_model_unsat_ := true })
        else
          match env.minimize_conflict s1 analysis with
          | (learned_conflict, reason_used_to_infer_the_conflict) =>
            match (if s1.parameters_.unsat_proof then
                    s1.CreateResolutionNode s1.trail_.failing_resolution_node
                      reason_used_to_infer_the_conflict
                   else Except.ok (none, s1)) with
            | Except.error e => Except.error e
            | Except.ok (node, s2) =>
              let s3 := { s2 with counters_ := { s2.counters_ with
                num_literals_learned :=
                  s2.counters_.num_literals_learned + learned_conflict.length } }
              let s4 := s3.Backtrack (s3.ComputeBacktrackLevel learned_conflict)
              match env.add_learned_clause iteration conflict_number s4 learned_conflict
                  node with
              | Except.error e => Except.error e
              | Except.ok s5 =>
                backjumpLoop env inner_fuel iteration fuel (conflict_number + 1)
                  s4.trail_.Index s5

/-- The method `SatSolver::EnqueueDecisionAndBackjumpOnConflict(true_literal)`,
called at iteration `iteration` of the search; every loop may run `fuel`
times. -/
def SatSolver.EnqueueDecisionAndBackjumpOnConflict (env : SolveEnvironment)
    (fuel iteration : Nat) (s : SatSolver) (true_literal : Literal) :
    Except Abort (Int × SatSolver) :=
  if s.propagation_trail_index_ ≠ s.trail_.Index then Except.error Abort.CHECK_FAILED
  else
    match (if s.CurrentDecisionLevel = 0 ∧ s.num_processed_fixed_variables_ < s.trail_.Index
           then env.process_newly_fixed_variables s else Except.ok s) with
    | Except.error e => Except.error e
    | Except.ok s1 =>
      backjumpLoop env fuel iteration fuel 0 s1.trail_.Index (s1.NewDecision true_literal)

/-- The conversion of an `int64` to the 32-bit `int` of the platform. -/
def wrap32 (x : Int) : Int := (x + 2147483648) % 4294967296 - 2147483648

/-- The function `NextMultipleOf(value, interval)`, for a non-zero `interval`: the
division rounds towards zero, the arithmetic is that of `int64` and the result
is converted to the return type `int`. -/
def NextMultipleOf (value interval : Int) : Int :=
  wrap32 (wrap64 (interval * wrap64 (1 + Int.tdiv value interval)))

/-- The statement `if (ShouldRestart() && CurrentDecisionLevel() >
assumption_level_) Backtrack(assumption_level_);` of the search loop of
`SatSolver::Solve()`, at iteration `iteration`. -/
def SatSolver.restartIfNeeded (s : SatSolver) (env : SolveEnvironment) (iteration : Nat) :
    SatSolver :=
  if env.should_restart iteration = true ∧ s.CurrentDecisionLevel > s.assumption_level_
  then s.Backtrack s.assumption_level_ else s

/-- The search loop `for (;;)` of `SatSolver::Solve()`: `iteration` counts the
iterations done.  The calls it makes get the fuel that the loop itself has. -/
def solveLoop (env : SolveEnvironment) (kFailureLimit : Int) :
    Nat → Nat → Int → SatSolver → Except Abort (Status × SatSolver)
  | 0, _, _, _ => Except.error Abort.OUT_OF_FUEL
  | fuel + 1, iteration, next_memory_check, s =>
    if env.time_limit_reached iteration then Except.ok (Status.LIMIT_REACHED, s)
    else if s.num_failures ≥ kFailureLimit then Except.ok (Status.LIMIT_REACHED, s)
    else if s.counters_.num_failures ≥ next_memory_check ∧
        env.memory_limit_reached iteration then Except.ok (Status.LIMIT_REACHED, s)
    else if s.trail_.Index = s.num_variables_ then Except.ok (Status.MODEL_SAT, s)
    else
      let s0 := s.restartIfNeeded env iteration
      match s0.EnqueueDecisionAndBackjumpOnConflict env (fuel + 1) iteration
          (env.next_branch iteration s0) with
      | Except.error e => Except.error e
      | Except.ok (first_propagation_index, s1) =>
        if first_propagation_index = -1 then Except.ok (Status.MODEL_UNSAT, s1)
        else if s1.CurrentDecisionLevel < s1.assumption_level_ then
          Except.ok (Status.ASSUMPTIONS_UNSAT, s1)
        else
          solveLoop env kFailureLimit fuel (iteration + 1)
            (if s.counters_.num_failures ≥ next_memory_check then
              NextMultipleOf s.num_failures 10000 else next_memory_check) s1

/-- The method `SatSolver::Solve()`. -/
def SatSolver.Solve (env : SolveEnvironment) (fuel : Nat) (s : SatSolver) :
    Except Abort (Status × SatSolver) :=
  if s.is_model_unsat_ then Except.ok (Status.MODEL_UNSAT, s)
  else
    let s1 := { s with assumption_level_ := min s.assumption_level_ s.CurrentDecisionLevel }
    solveLoop env
      (if s1.parameters_.max_number_of_conflicts = kint64max then kint64max
       else add64 s1.counters_.num_failures s1.parameters_.max_number_of_conflicts)
      fuel 0 (NextMultipleOf s1.num_failures 10000) s1

/-- The operations of the embedded `SatSolver` that change its state. -/
inductive Operation where
  | SetNumVariables (num_variables : Nat)
  | SetParameters (parameters : SatParameters)
  | ModelUnsat
  | AddUnitClause (true_literal : Literal)
  | AddProblemClause (literals : List Literal)
  | AddLinearConstraint (use_lower_bound : Bool) (lower_bound : Int) (use_upper_bound : Bool)
      (upper_bound : Int) (cst : List LiteralWithCoeff)
  | Propagate
  | NewDecision (literal : Literal)
  | Backtrack (target_level : Nat)
  | TreatCurrentDecisionsAsAssumption
  | Solve

/-- The state after an operation, when the operation returns. -/
def SatSolver.run (env : SolveEnvironment) (fuel : Nat) (s : SatSolver) :
    Operation → Except Abort SatSolver
  | Operation.SetNumVariables num_variables => s.SetNumVariables num_variables
  | Operation.SetParameters parameters => Except.ok (s.SetParameters parameters)
  | Operation.ModelUnsat => Except.ok s.ModelUnsat.2
  | Operation.AddUnitClause true_literal =>
    (s.AddUnitClause fuel true_literal).map (fun r => r.2)
  | Operation.AddProblemClause literals =>
    (s.AddProblemClause fuel literals).map (fun r => r.2)
  | Operation.AddLinearConstraint use_lower_bound lower_bound use_upper_bound upper_bound cst =>
    (s.AddLinearConstraint fuel use_lower_bound lower_bound use_upper_bound upper_bound
      cst).map (fun r => r.2)
  | Operation.Propagate => (s.Propagate fuel).map (fun r => r.2)
  | Operation.NewDecision literal => Except.ok (s.NewDecision literal)
  | Operation.Backtrack target_level => Except.ok (s.Backtrack target_level)
  | Operation.TreatCurrentDecisionsAsAssumption =>
    Except.ok s.TreatCurrentDecisionsAsAssumption
  | Operation.Solve => (s.Solve env fuel).map (fun r => r.2)

/-- A state at a conflict, used to run the conflict analysis on: the decisions
`x0` (level 1) and `x1` (level 2), then `x2` and `x3` propagated at level 2 by
the binary clauses `not x1 or x2` and `not x1 or x3`.  The clause
`not x2 or not x3 or not x0`, the list `[⟨5⟩, ⟨7⟩, ⟨1⟩]`, is false there. -/
def conflictExample : SatSolver :=
  { SatSolver.Create ⟨false, true, kint64max⟩ with
    num_variables_ := 4,
    current_decision_level_ := 2,
    decisions_ := [⟨0, ⟨0⟩⟩, ⟨1, ⟨2⟩⟩, ⟨0, ⟨0⟩⟩, ⟨0, ⟨0⟩⟩],
    trail_ :=
      { Trail.empty with
        entries :=
          [⟨⟨0⟩, 1, AssignmentInfo.SEARCH_DECISION⟩, ⟨⟨2⟩, 2, AssignmentInfo.SEARCH_DECISION⟩,
            ⟨⟨4⟩, 2, AssignmentInfo.BINARY_PROPAGATION ⟨3⟩⟩,
            ⟨⟨6⟩, 2, AssignmentInfo.BINARY_PROPAGATION ⟨3⟩⟩],
        current_decision_level := 2,
        num_enqueues := 4 } }

/-- A state at a conflict with an aliased reason: the decision `x0` at level 1,
`x1` propagated by the binary clause `not x0 or x1`, and `x2` enqueued with the
same reason as `x1`.  The clause `not x1 or not x2`, the list `[⟨3⟩, ⟨5⟩]`, is
false there. -/
def sameReasonExample : SatSolver :=
  { SatSolver.Create ⟨false, true, kint64max⟩ with
    num_variables_ := 3,
    current_decision_level_ := 1,
    decisions_ := [⟨0, ⟨0⟩⟩, ⟨0, ⟨0⟩⟩, ⟨0, ⟨0⟩⟩],
    trail_ :=
      { Trail.empty with
        entries :=
          [⟨⟨0⟩, 1, AssignmentInfo.SEARCH_DECISION⟩,
            ⟨⟨2⟩, 1, AssignmentInfo.BINARY_PROPAGATION ⟨1⟩⟩,
            ⟨⟨4⟩, 1, AssignmentInfo.SAME_REASON_AS 1⟩],
        current_decision_level := 1,
        num_enqueues := 3 } }

/-- A state at a conflict whose first UIP conflict has a redundant literal: the
decision `x0` at level 1 and `x1` propagated from it by the binary clause
`not x0 or x1`, then the decision `x2` at level 2 and `x3` propagated from it.
The clause `not x3 or not x1 or not x0`, the list `[⟨7⟩, ⟨3⟩, ⟨1⟩]`, is false
there. -/
def minimizationExample : SatSolver :=
  { SatSolver.Create ⟨false, true, kint64max⟩ with
    num_variables_ := 4,
    current_decision_level_ := 2,
    decisions_ := [⟨0, ⟨0⟩⟩, ⟨2, ⟨4⟩⟩, ⟨0, ⟨0⟩⟩, ⟨0, ⟨0⟩⟩],
    trail_ :=
      { Trail.empty with
        entries :=
          [⟨⟨0⟩, 1, AssignmentInfo.SEARCH_DECISION⟩,
            ⟨⟨2⟩, 1, AssignmentInfo.BINARY_PROPAGATION ⟨1⟩⟩,
            ⟨⟨4⟩, 2, AssignmentInfo.SEARCH_DECISION⟩,
            ⟨⟨6⟩, 2, AssignmentInfo.BINARY_PROPAGATION ⟨5⟩⟩],
        current_decision_level := 2,
        num_enqueues := 4 } }

/-- A state at a conflict whose first UIP conflict has a literal that only the
recursive minimization removes: the decision `x0` at level 1, `x1` propagated
from it by `not x0 or x1` and `x2` from `x1` by `not x1 or x2`, then the
decision `x3` at level 2 and `x4` propagated from it.  The clause
`not x4 or not x2 or not x0`, the list `[⟨9⟩, ⟨5⟩, ⟨1⟩]`, is false there. -/
def recursiveMinimizationExample : SatSolver :=
  { SatSolver.Create ⟨false, true, kint64max⟩ with
    num_variables_ := 5,
    current_decision_level_ := 2,
    decisions_ := [⟨0, ⟨0⟩⟩, ⟨3, ⟨6⟩⟩, ⟨0, ⟨0⟩⟩, ⟨0, ⟨0⟩⟩, ⟨0, ⟨0⟩⟩],
    trail_ :=
      { Trail.empty with
        entries :=
          [⟨⟨0⟩, 1, AssignmentInfo.SEARCH_DECISION⟩,
            ⟨⟨2⟩, 1, AssignmentInfo.BINARY_PROPAGATION ⟨1⟩⟩,
            ⟨⟨4⟩, 1, AssignmentInfo.BINARY_PROPAGATION ⟨3⟩⟩,
            ⟨⟨6⟩, 2, AssignmentInfo.SEARCH_DECISION⟩,
            ⟨⟨8⟩, 2, AssignmentInfo.BINARY_PROPAGATION ⟨7⟩⟩],
        current_decision_level := 2,
        num_enqueues := 5 } }

/-- Two decisions `x0` and `x2` on a new solver with three variables, the first
of which is an assumption (`assumption_level_ = 1`). -/
def restartExample : SatSolver :=
  { ((({ (SatSolver.Create ⟨false, true, kint64max⟩) with
          num_variables_ := 3,
          decisions_ := List.replicate 3 ⟨0, ⟨0⟩⟩ }).NewDecision ⟨0⟩).NewDecision ⟨2⟩) with
    assumption_level_ := 1 }

/-- An environment of `Solve` in which `ShouldRestart()` always holds, no limit is
ever reached, the next branch is `x0` and the other hooks do nothing. -/
def restartEnvironment : SolveEnvironment :=
  { time_limit_reached := fun _ => false,
    memory_limit_reached := fun _ => false,
    should_restart := fun _ => true,
    next_branch := fun _ _ => ⟨0⟩,
    process_newly_fixed_variables := fun s => Except.ok s,
    minimize_conflict := fun _ st => (st.conflict, st.reason_used_to_infer_the_conflict),
    add_learned_clause := fun _ _ s _ _ => Except.ok s }

/-- Modelled from the spec: the enum `SatParameters::ConflictMinimizationAlgorithm`
of `sat/sat_parameters.proto`, which is not among the sources, with the four
values that `MinimizeConflict` switches on. -/
inductive ConflictMinimizationAlgorithm where
  | NONE
  | SIMPLE
  | RECURSIVE
  | EXPERIMENTAL
deriving DecidableEq, Repr

/-- Modelled from the spec: `SparseBitset::Clear(index)` of `util/bitset.h`: the
position is no longer set; it stays among the positions set at least once. -/
def SparseBitset.Clear (b : SparseBitset) (index : Nat) : SparseBitset :=
  ⟨b.bitset_.filter (fun i => i != index), b.to_clear_⟩

/-- The struct `WeightedVariable` of `sat_solver.cc`. -/
structure WeightedVariable where
  var : Nat
  weight : Int
deriving DecidableEq, Repr

/-- The comparator `VariableWithLargerWeightFirst`. -/
def VariableWithLargerWeightFirst (wv1 wv2 : WeightedVariable) : Bool :=
  decide (wv1.weight > wv2.weight) ||
    (decide (wv1.weight = wv2.weight) && decide (wv1.var < wv2.var))

/-- The call `std::sort(variables_sorted_by_level.begin(),
variables_sorted_by_level.end(), VariableWithLargerWeightFirst())`: a
permutation of the input in which no element stands after one it compares less
than. -/
def sortWeightedVariables (l : List WeightedVariable) : List WeightedVariable :=
  l.insertionSort (fun a b => VariableWithLargerWeightFirst b a = false)

/-- The loop `for (const Literal reason_literal : reason)` of
`MinimizeConflictExperimental`: the result is `not_contained_literals`; the loop
is left as soon as the vector has more than one element. -/
def notContainedLiterals (trail : Trail) (is_marked : SparseBitset) :
    List Literal → List Literal → List Literal
  | [], not_contained_literals => not_contained_literals
  | reason_literal :: rest, not_contained_literals =>
    if trail.levelOf reason_literal.Variable = 0 then
      notContainedLiterals trail is_marked rest not_contained_literals
    else if is_marked.get reason_literal.Variable = false then
      if (not_contained_literals ++ [reason_literal]).length > 1 then
        not_contained_literals ++ [reason_literal]
      else
        notContainedLiterals trail is_marked rest (not_contained_literals ++ [reason_literal])
    else notContainedLiterals trail is_marked rest not_contained_literals

/-- What the second loop of `MinimizeConflictExperimental` reads and writes:
`is_marked_`, the conflict and the vector `to_remove`. -/
structure ExperimentalState where
  is_marked_ : SparseBitset
  conflict : List Literal
  to_remove : List Nat
deriving DecidableEq, Repr

/-- The loop `for (WeightedVariable weighted_var : variables_sorted_by_level)` of
`MinimizeConflictExperimental`, over the trail and the function `Reason(var)`. -/
def experimentalLoop (trail : Trail) (reason : Nat → List Literal) :
    List WeightedVariable → ExperimentalState → ExperimentalState
  | [], st => st
  | weighted_var :: rest, st =>
    if reason weighted_var.var = [] then experimentalLoop trail reason rest st
    else
      match notContainedLiterals trail st.is_marked_ (reason weighted_var.var) [] with
      | [] =>
        experimentalLoop trail reason rest
          { st with to_remove := st.to_remove ++ [weighted_var.var] }
      | [front] =>
        experimentalLoop trail reason rest
          ⟨st.is_marked_.Set front.Variable, st.conflict ++ [front],
            st.to_remove ++ [weighted_var.var]⟩
      | _ :: _ :: _ => experimentalLoop trail reason rest st

/-- The body of `MinimizeConflictExperimental(conflict)` over the trail, the
function `Reason(var)` and the current decision level; the result is the
conflict and `is_marked_`. -/
def minimizeConflictExperimental (trail : Trail) (reason : Nat → List Literal)
    (current_level : Nat) (conflict : List Literal) : List Literal × SparseBitset :=
  let is_marked :=
    conflict.foldl (fun b literal => b.Set literal.Variable) SparseBitset.ClearAndResize
  let variables_sorted_by_level := sortWeightedVariables
    ((conflict.filter (fun literal => decide (trail.levelOf literal.Variable < current_level))).map
      (fun literal => ⟨literal.Variable, trail.levelOf literal.Variable⟩))
  let st := experimentalLoop trail reason variables_sorted_by_level ⟨is_marked, conflict, []⟩
  let is_marked1 := st.to_remove.foldl (fun b var => b.Clear var) st.is_marked_
  (st.conflict.filter (fun literal => is_marked1.get literal.Variable), is_marked1)

/-- The method `SatSolver::MinimizeConflictExperimental(conflict)`; the result
carries the marks left in `is_marked_`. -/
def SatSolver.MinimizeConflictExperimental (s : SatSolver) (conflict : List Literal) :
    List Literal × SparseBitset :=
  minimizeConflictExperimental s.trail_ (s.Reason s.trail_.Index) s.CurrentDecisionLevel
    conflict

/-- The `switch` of `SatSolver::MinimizeConflict` for an algorithm other than
`NONE`: the minimized conflict and the marks. -/
def SatSolver.minimizeWith (s : SatSolver) (fuel : Nat)
    (minimization_algorithm : ConflictMinimizationAlgorithm) (st : MinimizationState)
    (conflict : List Literal) : Except Abort (List Literal × MinimizationState) :=
  match minimization_algorithm with
  | ConflictMinimizationAlgorithm.NONE => Except.ok (conflict, st)
  | ConflictMinimizationAlgorithm.SIMPLE =>
    Except.ok (s.MinimizeConflictSimple st.is_marked_ conflict, st)
  | ConflictMinimizationAlgorithm.RECURSIVE =>
    s.MinimizeConflictRecursively fuel st.is_marked_ st.same_reason_identifier_ conflict
  | ConflictMinimizationAlgorithm.EXPERIMENTAL =>
    Except.ok ((s.MinimizeConflictExperimental conflict).1,
      { st with is_marked_ := (s.MinimizeConflictExperimental conflict).2 })

/-- The method `SatSolver::MinimizeConflict(conflict,
reason_used_to_infer_the_conflict)`.  The algorithm
`parameters_.minimization_algorithm()`, a field of `SatParameters` that is not
embedded, is the argument `minimization_algorithm`; `st` holds `is_marked_`,
`is_independent_` and `same_reason_identifier_` as the conflict analysis left
them.  The `CHECK_EQ` aborts when a proof is asked for with an algorithm that
is not `RECURSIVE`.  The counters `num_minimizations` and
`num_literals_removed`, which are not embedded, are left out. -/
def SatSolver.MinimizeConflict (s : SatSolver) (fuel : Nat)
    (minimization_algorithm : ConflictMinimizationAlgorithm) (st : MinimizationState)
    (conflict reason_used_to_infer_the_conflict : List Literal) :
    Except Abort (List Literal × List Literal × MinimizationState) :=
  if minimization_algorithm = ConflictMinimizationAlgorithm.NONE then
    Except.ok (conflict, reason_used_to_infer_the_conflict, st)
  else
    match s.minimizeWith fuel minimization_algorithm st conflict with
    | Except.error e => Except.error e
    | Except.ok (conflict1, st1) =>
      if s.parameters_.unsat_proof = true then
        if minimization_algorithm ≠ ConflictMinimizationAlgorithm.RECURSIVE then
          Except.error Abort.CHECK_FAILED
        else
          Except.ok (conflict1,
            reason_used_to_infer_the_conflict ++
              (st1.is_marked_.PositionsSetAtLeastOnce.filter (fun var =>
                decide (s.DecisionLevel var ≠ s.CurrentDecisionLevel) &&
                  !st1.is_independent_.get var)).map (fun var => ⟨2 * var⟩),
            st1)
      else Except.ok (conflict1, reason_used_to_infer_the_conflict, st1)

/-- A state at decision level 3: the decision `x0` at level 1, the decision `x1`
at level 2 and `x2` propagated from it by the binary clause `not x1 or x2`, then
the decision `x3` at level 3.  The list `[⟨5⟩, ⟨1⟩]`, `not x2 or not x0`, is false
there and its first literal is of level 2. -/
def experimentalExample : SatSolver :=
  { SatSolver.Create ⟨false, true, kint64max⟩ with
    num_variables_ := 4,
    current_decision_level_ := 3,
    decisions_ := [⟨0, ⟨0⟩⟩, ⟨1, ⟨2⟩⟩, ⟨3, ⟨6⟩⟩, ⟨0, ⟨0⟩⟩],
    trail_ :=
      { Trail.empty with
        entries :=
          [⟨⟨0⟩, 1, AssignmentInfo.SEARCH_DECISION⟩,
            ⟨⟨2⟩, 2, AssignmentInfo.SEARCH_DECISION⟩,
            ⟨⟨4⟩, 2, AssignmentInfo.BINARY_PROPAGATION ⟨3⟩⟩,
            ⟨⟨6⟩, 3, AssignmentInfo.SEARCH_DECISION⟩],
        current_decision_level := 3,
        num_enqueues := 4 } }

/-! ## `sat_solver.cc`: clean-up of the learned clauses -/

/-- The method `SatClause::Activity()`. -/
def SatClause.Activity (c : SatClause) : Rat := c.activity_

/-- The method `SatClause::Lbd()`. -/
def SatClause.Lbd (c : SatClause) : Int := c.lbd_

/-- The object that the `SatClause*` of position `clause` points to; a position
outside the heap reads as an empty clause. -/
def clauseAt (heap : ClauseHeap) (clause : Nat) : SatClause :=
  heap.getD clause ⟨[], false, false, 0, none, 0⟩

/-- The function `ClauseOrdering(a, b)`. -/
def ClauseOrdering (a b : SatClause) : Bool :=
  if a.Lbd = b.Lbd then decide (a.Activity > b.Activity) else decide (a.Lbd < b.Lbd)

/-- The call `std::sort(clause_to_keep_end, learned_clauses_.end(),
ClauseOrdering)` on clause pointers: a permutation of the input in which no
element stands after one it compares less than. -/
def sortClauses (heap : ClauseHeap) (l : List Nat) : List Nat :=
  l.insertionSort (fun a b => ClauseOrdering (clauseAt heap b) (clauseAt heap a) = false)

/-- Modelled from the spec: `LiteralWatchers::LazyDetach(clause)` of `clause.cc`,
which is not among the sources: it "marks a clause to be physically removed
from watch lists on the next `CleanUpWatchers()` sweep"; the mark is
`SatClause::LazyDetach()` of `clause.h`, `is_attached_ = false`. -/
def LiteralWatchers.LazyDetach (w : LiteralWatchers) (heap : ClauseHeap) (clause : Nat) :
    LiteralWatchers × ClauseHeap :=
  ({ w with is_clean_ := false, num_watched_clauses_ := w.num_watched_clauses_ - 1 },
    match heap.get? clause with
    | some c => heap.set clause { c with is_attached_ := false }
    | none => heap)

/-- Modelled from the spec: `LiteralWatchers::CleanUpWatchers()` of `clause.cc`,
which is not among the sources: the sweep that removes from the watch lists
the watchers of the clauses that are no longer attached. -/
def LiteralWatchers.CleanUpWatchers (w : LiteralWatchers) (heap : ClauseHeap) :
    LiteralWatchers :=
  { w with
    watchers_on_false_ :=
      w.watchers_on_false_.filter (fun watcher => (clauseAt heap watcher.clause).is_attached_),
    is_clean_ := true }

/-- The method `SatSolver::InitLearnedClauseLimit()`.  The parameter
`clause_cleanup_increment` of `SatParameters`, which is not embedded, is an
argument, and so is `before_cleanup`, the value of
`target_number_of_learned_clauses_ / parameters_.clause_cleanup_ratio() -
num_learned_clauses` as a function of the target and of the number of learned
clauses.  The sum is taken in unbounded integers. -/
def SatSolver.InitLearnedClauseLimit (s : SatSolver) (clause_cleanup_increment : Int)
    (before_cleanup : Int → Int → Int) : SatSolver :=
  { s with
    target_number_of_learned_clauses_ :=
      (s.learned_clauses_.length : Int) + clause_cleanup_increment,
    num_learned_clause_before_cleanup_ :=
      before_cleanup ((s.learned_clauses_.length : Int) + clause_cleanup_increment)
        (s.learned_clauses_.length : Int) }

/-- The first loop of `CompressLearnedClausesIfNeeded` over the clauses to delete:
each one is detached lazily and its resolution node, if any, is unlocked. -/
def detachClauses : List Nat → SatSolver → SatSolver
  | [], s => s
  | clause :: rest, s =>
    detachClauses rest
      ({ s with
          watched_clauses_ := (s.watched_clauses_.LazyDetach s.clause_heap_ clause).1,
          clause_heap_ := (s.watched_clauses_.LazyDetach s.clause_heap_ clause).2
        }.unlockIfNotNull (clauseAt s.clause_heap_ clause).resolution_node_)

/-- The method `SatSolver::CompressLearnedClausesIfNeeded()`.  The member function
`ClauseShouldBeKept` of `sat/sat_solver.h`, which is not among the sources, is
an argument, a test on clause pointers.  `std::partition` leaves the order
inside the two groups open; this embedding keeps the input order.  The counter
`num_literals_forgotten`, which is not embedded, is left out, and the objects
deleted stay in the heap. -/
def SatSolver.CompressLearnedClausesIfNeeded (s : SatSolver)
    (ClauseShouldBeKept : Nat → Bool) (clause_cleanup_increment : Int)
    (before_cleanup : Int → Int → Int) : SatSolver :=
  if s.num_learned_clause_before_cleanup_ > 0 then s
  else if s.learned_clauses_.length = 0 then
    s.InitLearnedClauseLimit clause_cleanup_increment before_cleanup
  else
    let clause_to_keep := s.learned_clauses_.filter ClauseShouldBeKept
    let learned_clauses := clause_to_keep ++
      sortClauses s.clause_heap_
        (s.learned_clauses_.filter (fun clause => !ClauseShouldBeKept clause))
    let num_learned_clauses : Int := learned_clauses.length
    let first_clause_to_delete : Int :=
      max (clause_to_keep.length : Int)
        (min num_learned_clauses s.target_number_of_learned_clauses_)
    let s1 := detachClauses (learned_clauses.drop first_clause_to_delete.toNat) s
    let s2 := { s1 with
      watched_clauses_ := s1.watched_clauses_.CleanUpWatchers s1.clause_heap_,
      learned_clauses_ := learned_clauses.take first_clause_to_delete.toNat }
    s2.InitLearnedClauseLimit clause_cleanup_increment before_cleanup

/-- A state with four learned clauses of three literals: the clause 0 has LBD 5,
the clauses 1 and 3 have LBD 3 and activities 1 and 2, the clause 2 has LBD 2;
the target number of learned clauses is 2 and a clean-up is due. -/
def cleanupExample : SatSolver :=
  { SatSolver.Create ⟨false, true, kint64max⟩ with
    num_variables_ := 3,
    clause_heap_ :=
      [⟨[⟨0⟩, ⟨2⟩, ⟨4⟩], true, true, 5, none, 0⟩, ⟨[⟨1⟩, ⟨2⟩, ⟨4⟩], true, true, 3, none, 1⟩,
        ⟨[⟨0⟩, ⟨3⟩, ⟨4⟩], true, true, 2, none, 0⟩, ⟨[⟨0⟩, ⟨2⟩, ⟨5⟩], true, true, 3, none, 2⟩],
    learned_clauses_ := [0, 1, 2, 3],
    target_number_of_learned_clauses_ := 2 }

/-- The constraint `x1 + 3 x0 <= 3` as `AddConstraint` stores it: the literals
`[x1, x0]` in two groups of coefficients 1 and 3, the cursor on the last
group. -/
def pbExampleConstraint : UpperBoundedLinearConstraint :=
  ⟨[⟨2⟩, ⟨0⟩], [1, 3], [0, 1, 2], 3, 1, 2, none⟩

/-- The store that holds `pbExampleConstraint` alone, with the slack 0 and the
cursor of the store at the start of the trail. -/
def pbExample : PbConstraints :=
  ⟨[pbExampleConstraint], [0], [(⟨2⟩, ⟨false, 0, 1⟩), (⟨0⟩, ⟨false, 0, 3⟩)], 0, [], 0, 0⟩

/-- The trail with the decision `x0` at level 1. -/
def pbExampleTrail : Trail :=
  (Trail.empty.SetDecisionLevel 1).Enqueue ⟨0⟩ AssignmentInfo.SEARCH_DECISION

/-- The store that holds `x0 + x2 <= 1` and `x1 + 3 x0 <= 3`, as two calls of
`AddConstraint` on the empty store and the empty trail leave it. -/
def pbConflictExample : PbConstraints :=
  ⟨[⟨[⟨0⟩, ⟨4⟩], [1], [0, 2], 1, 0, 2, none⟩, ⟨[⟨2⟩, ⟨0⟩], [1, 3], [0, 1, 2], 3, 1, 2, none⟩],
    [0, 0],
    [(⟨0⟩, ⟨false, 0, 1⟩), (⟨4⟩, ⟨false, 0, 1⟩), (⟨2⟩, ⟨false, 1, 1⟩), (⟨0⟩, ⟨false, 1, 3⟩)],
    0, [], 0, 0⟩

/-- The trail `x0, x1, x2` of three literals enqueued at level 0. -/
def pbConflictTrail : Trail :=
  ((Trail.empty.Enqueue ⟨0⟩ (AssignmentInfo.UNIT_REASON none)).Enqueue ⟨2⟩
    (AssignmentInfo.UNIT_REASON none)).Enqueue ⟨4⟩ (AssignmentInfo.UNIT_REASON none)

/-- The constraint `x0 + 3 x1 + 3 x2 <= 4` as the store holds it after the
decisions `x0` and `x1`: the cursor is below every group. -/
def reasonExampleConstraint : UpperBoundedLinearConstraint :=
  ⟨[⟨0⟩, ⟨2⟩, ⟨4⟩], [1, 3], [0, 1, 3], 4, -1, 0, none⟩

/-- The trail with the decision `x0` at level 1, the decision `x1` at level 2 and
the negation of `x2` that the constraint `reasonExampleConstraint` propagates
for the trail index 1. -/
def reasonExampleTrail : Trail :=
  ((((Trail.empty.SetDecisionLevel 1).Enqueue ⟨0⟩ AssignmentInfo.SEARCH_DECISION
    ).SetDecisionLevel 2).Enqueue ⟨2⟩ AssignmentInfo.SEARCH_DECISION).Enqueue ⟨5⟩
    (AssignmentInfo.PB_PROPAGATION 1 0)

/-- The constraint `x0 + 2 x1 <= 2` is added to the empty store on the empty
trail, `x0` is enqueued at level 0 and `PropagateNext` is called. -/
def emptyReasonExample : Bool × PbConstraints × Trail :=
  ((⟨[], [], [], 0, [], 0, 0⟩ : PbConstraints).AddConstraint [⟨⟨0⟩, 1⟩, ⟨⟨2⟩, 2⟩] 2 none
    Trail.empty).2.1.PropagateNext (Trail.empty.Enqueue ⟨0⟩ (AssignmentInfo.UNIT_REASON none))

/-- The literal `x0` is enqueued at level 0 and `PropagateNext` is called on the
empty store, then the constraint `x0 + x1 <= 1` is added. -/
def sourceReasonExample : Bool × PbConstraints × Trail :=
  ((⟨[], [], [], 0, [], 0, 0⟩ : PbConstraints).PropagateNext
    (Trail.empty.Enqueue ⟨0⟩ (AssignmentInfo.UNIT_REASON none))).2.1.AddConstraint
    [⟨⟨0⟩, 1⟩, ⟨⟨2⟩, 1⟩] 1 none (Trail.empty.Enqueue ⟨0⟩ (AssignmentInfo.UNIT_REASON none))

/-! ## `sat_solver.cc`: `ComputeLbd` -/

/-- Modelled from the spec: `SparseBitset::NumberOfSetCallsWithDifferentArguments()`
of `util/bitset.h`, which is not among the sources: the number of positions set
since the last `ClearAndResize`. -/
def SparseBitset.NumberOfSetCallsWithDifferentArguments (b : SparseBitset) : Nat :=
  b.to_clear_.length

/-- The loop of `ComputeLbd` over the literals of the conflict; `size` is the
size given to `is_level_marked_`, and reading the bit of a level that is not
below it has no result. -/
def computeLbdLoop (s : SatSolver) (size : Nat) :
    List Literal → SparseBitset → Option SparseBitset
  | [], is_level_marked => some is_level_marked
  | literal :: rest, is_level_marked =>
    let level := s.DecisionLevel literal.Variable
    if level > 0 then
      if size ≤ level then none
      else if !is_level_marked.get level then
        computeLbdLoop s size rest (is_level_marked.Set level)
      else computeLbdLoop s size rest is_level_marked
    else computeLbdLoop s size rest is_level_marked

/-- The method `SatSolver::ComputeLbd(conflict)`; there is no result on the empty
list, whose first literal the source reads. -/
def SatSolver.ComputeLbd (s : SatSolver) (conflict : List Literal) : Option Nat :=
  match conflict with
  | [] => none
  | first :: _ =>
    match computeLbdLoop s (s.DecisionLevel first.Variable + 1) conflict
        SparseBitset.ClearAndResize with
    | none => none
    | some is_level_marked => some is_level_marked.NumberOfSetCallsWithDifferentArguments

/-- The constraint `x0 + 2 x1 + 2 x2 <= 2` as `AddConstraint` stores it: two
groups of coefficients 1 and 2, the cursor on the last group. -/
def sharedReasonConstraint : UpperBoundedLinearConstraint :=
  ⟨[⟨0⟩, ⟨2⟩, ⟨4⟩], [1, 2], [0, 1, 3], 2, 1, 3, none⟩

/-- The constraint `x0 + 2 x1 + 2 x2 <= 2` is added to the empty store on the
empty trail, `x0` is enqueued at level 0 and `PropagateNext` is called. -/
def sharedReasonExample : Bool × PbConstraints × Trail :=
  ((⟨[], [], [], 0, [], 0, 0⟩ : PbConstraints).AddConstraint
    [⟨⟨0⟩, 1⟩, ⟨⟨2⟩, 2⟩, ⟨⟨4⟩, 2⟩] 2 none Trail.empty).2.1.PropagateNext
    (Trail.empty.Enqueue ⟨0⟩ (AssignmentInfo.UNIT_REASON none))

/-- The literal `x0` is enqueued at level 0 and `PropagateNext` is called on the
empty store, then the constraint `x0 + x1 + x2 <= 1` is added. -/
def sharedSourceExample : Bool × PbConstraints × Trail :=
  ((⟨[], [], [], 0, [], 0, 0⟩ : PbConstraints).PropagateNext
    (Trail.empty.Enqueue ⟨0⟩ (AssignmentInfo.UNIT_REASON none))).2.1.AddConstraint
    [⟨⟨0⟩, 1⟩, ⟨⟨2⟩, 1⟩, ⟨⟨4⟩, 1⟩] 1 none
    (Trail.empty.Enqueue ⟨0⟩ (AssignmentInfo.UNIT_REASON none))

/-! ## `sat_solver.cc`: the scans of `ComputeFirstUIPConflict` -/

/-- The loop `while (true)` of `ComputeFirstUIPConflict` as `firstUIPLoop`, with
its result and, for every turn, the state in which the scan
`while (!is_marked_[trail_[trail_index].Variable()])` starts: the marks and
`trail_index`. -/
def firstUIPLoopTraced (trail : Trail) (reason : Nat → List Literal) (highest_level : Nat) :
    Nat → List Literal → FirstUIPState →
      Except Abort (FirstUIPState × List (SparseBitset × Int))
  | 0, _, _ => Except.error Abort.OUT_OF_FUEL
  | fuel + 1, clause_to_expand, st =>
    let st1 := expandClause trail highest_level clause_to_expand st
    if st1.trail_index < 0 then Except.error Abort.CHECK_FAILED
    else
      match nextMarkedIndex trail st1.is_marked_ st1.trail_index.toNat with
      | none => Except.error Abort.CHECK_FAILED
      | some trail_index =>
        if st1.num_literal_at_highest_level_that_needs_to_be_processed = 1 then
          Except.ok ({ st1 with
            trail_index := trail_index,
            conflict := swapBackFront (st1.conflict ++ [(trail.get trail_index).Negated]) },
            [(st1.is_marked_, st1.trail_index)])
        else
          let literal := trail.get trail_index
          match st1.same_reason_identifier_.FirstVariableWithSameReason trail literal.Variable with
          | (first, same_reason_identifier) =>
            match firstUIPLoopTraced trail reason highest_level fuel
              (if first ≠ literal.Variable then [] else reason literal.Variable)
              { st1 with
                reason_used_to_infer_the_conflict :=
                  st1.reason_used_to_infer_the_conflict ++ [literal],
                same_reason_identifier_ := same_reason_identifier,
                num_literal_at_highest_level_that_needs_to_be_processed :=
                  st1.num_literal_at_highest_level_that_needs_to_be_processed - 1,
                trail_index := (trail_index : Int) - 1 } with
            | Except.ok (r, scans) => Except.ok (r, (st1.is_marked_, st1.trail_index) :: scans)
            | Except.error e => Except.error e

/-- The body of `ComputeFirstUIPConflict` as `computeFirstUIPConflict`, with the
states in which its scans start; there is no scan when the function returns
before its main loop. -/
def computeFirstUIPConflictTraced (trail : Trail) (reason : Nat → List Literal) (fuel : Nat)
    (same_reason_identifier : VariablesWithSameReasonIdentifier)
    (failing_clause : List Literal) :
    Except Abort (FirstUIPState × List (SparseBitset × Int)) :=
  let st : FirstUIPState :=
    { is_marked_ := SparseBitset.ClearAndResize, conflict := [],
      reason_used_to_infer_the_conflict := [],
      same_reason_identifier_ := same_reason_identifier,
      trail_index := highestTrailIndex trail failing_clause,
      num_literal_at_highest_level_that_needs_to_be_processed := 0 }
  if st.trail_index = -1 then Except.ok (st, [])
  else
    let highest_level := trail.levelOf (trail.get st.trail_index.toNat).Variable
    if highest_level = 0 then Except.ok (st, [])
    else firstUIPLoopTraced trail reason highest_level fuel failing_clause st

/-! ## `flatzinc2/model.cc`: `FzDomain` -/

/-- Modelled from the spec: the struct `FzDomain` of `flatzinc2/model.h`, which is
not among the sources, with the two data members `model.cc` uses: an interval
holds its two bounds in `values`, or nothing when it is all of `int64`; a list
holds its values. -/
structure FzDomain where
  is_interval : Bool
  values : List Int
deriving DecidableEq, Repr

/-- The function `FzDomain::IntegerList(values)`. -/
def FzDomain.IntegerList (values : List Int) : FzDomain :=
  { is_interval := false, values := values }

/-- The function `FzDomain::AllInt64()`. -/
def FzDomain.AllInt64 : FzDomain :=
  { is_interval := true, values := [] }

/-- The function `FzDomain::Singleton(value)`. -/
def FzDomain.Singleton (value : Int) : FzDomain :=
  { is_interval := false, values := [value] }

/-- The function `FzDomain::Interval(included_min, included_max)`. -/
def FzDomain.Interval (included_min included_max : Int) : FzDomain :=
  { is_interval := true, values := [included_min, included_max] }

/-- The method `FzDomain::ReduceDomain(imin, imax)`. -/
def FzDomain.ReduceDomain (d : FzDomain) (imin imax : Int) : FzDomain :=
  if d.is_interval then
    if d.values.isEmpty then { d with values := [imin, imax] }
    else
      let values1 := d.values.set 0 (max (d.values.getD 0 0) imin)
      { d with values := values1.set 1 (min (values1.getD 1 0) imax) }
  else
    { d with values := d.values.filter (fun val => decide (val ≥ imin) && decide (val ≤ imax)) }

/-- The end of `FzDomain::IntersectWith`, after the comment "now deal with the
intersection of two lists of values". -/
def FzDomain.intersectValues (d other : FzDomain) : FzDomain :=
  { d with values := d.values.filter (fun val => other.values.contains val) }

/-- The method `FzDomain::IntersectWith(other)`; the result is the domain
afterwards. -/
def FzDomain.IntersectWith (d other : FzDomain) : FzDomain :=
  if other.is_interval then
    if !other.values.isEmpty then
      d.ReduceDomain (other.values.getD 0 0) (other.values.getD 1 0)
    else if d.is_interval then
      let d1 := { d with is_interval := false }
      if d1.values.isEmpty then { d1 with values := other.values }
      else
        let imin := d1.values.getD 0 0
        let imax := d1.values.getD 1 0
        ({ d1 with values := other.values } : FzDomain).ReduceDomain imin imax
    else d.intersectValues other
  else d.intersectValues other

/-- The method `FzDomain::Contains(value)`. -/
def FzDomain.Contains (d : FzDomain) (value : Int) : Bool :=
  if d.is_interval then
    if d.values.isEmpty then true
    else decide (value ≥ d.values.getD 0 0) && decide (value ≤ d.values.getD 1 0)
  else d.values.contains value

/-! ## `algorithms/dynamic_partition.h`: `MergingPartition` -/

/-- The data members of the class `MergingPartition`. -/
structure MergingPartition where
  parent_ : List Nat
  part_size_ : List Nat
  tmp_part_bit_ : List Bool
deriving DecidableEq, Repr

/-- The method `MergingPartition::NumNodes()`. -/
def MergingPartition.NumNodes (m : MergingPartition) : Nat := m.parent_.length

/-- The loop `while (true)` of `GetRoot`, from the node `child`; a read outside
of `parent_` is reported as a failed check. -/
def getRootLoop (parent_ : List Nat) : Nat → Nat → Except Abort Nat
  | 0, _ => Except.error Abort.OUT_OF_FUEL
  | fuel + 1, child =>
    match parent_[child]? with
    | none => Except.error Abort.CHECK_FAILED
    | some parent =>
      if parent = child then Except.ok child else getRootLoop parent_ fuel parent

/-- The method `MergingPartition::GetRoot(node)`, with its `DCHECK`s. -/
def MergingPartition.GetRoot (m : MergingPartition) (fuel node : Nat) : Except Abort Nat :=
  if node ≥ m.NumNodes then Except.error Abort.CHECK_FAILED
  else getRootLoop m.parent_ fuel node

/-- The loop `while (true)` of `SetParentAlongPathToRoot`, from the node `child`;
the result is `parent_` afterwards. -/
def setParentLoop (parent : Nat) : Nat → List Nat → Nat → Except Abort (List Nat)
  | 0, _, _ => Except.error Abort.OUT_OF_FUEL
  | fuel + 1, parent_, child =>
    match parent_[child]? with
    | none => Except.error Abort.CHECK_FAILED
    | some old_parent =>
      let parent_1 := parent_.set child parent
      if old_parent = child then Except.ok parent_1
      else setParentLoop parent fuel parent_1 old_parent

/-- The method `MergingPartition::SetParentAlongPathToRoot(node, parent)`, with
its `DCHECK`s. -/
def MergingPartition.SetParentAlongPathToRoot (m : MergingPartition) (fuel node parent : Nat) :
    Except Abort MergingPartition :=
  if node ≥ m.NumNodes ∨ parent ≥ m.NumNodes then Except.error Abort.CHECK_FAILED
  else
    match setParentLoop parent fuel m.parent_ node with
    | Except.ok parent_1 => Except.ok { m with parent_ := parent_1 }
    | Except.error e => Except.error e

/-- The partition of four nodes with the parents `0, 0, 1, 3`: the tree
`2 -> 1 -> 0` and the root 3. -/
def partitionExample : MergingPartition :=
  ⟨[0, 0, 1, 3], [3, 1, 1, 1], []⟩

/-- The last statements of `SatSolver::AddLinearConstraint`:
`++num_constraints_; if (!Propagate()) return ModelUnsat(); return true;`. -/
def SatSolver.finishAddLinearConstraint (s : SatSolver) (fuel : Nat) :
    Except Abort (Bool × SatSolver) :=
  match ({ s with num_constraints_ := s.num_constraints_ + 1 }).Propagate fuel with
  | Except.error e => Except.error e
  | Except.ok (false, s3) => Except.ok s3.ModelUnsat
  | Except.ok (true, s3) => Except.ok (true, s3)

/-- A new solver with four variables on which `AddUnitClause(x0)` was called. -/
def unitClauseExample : Except Abort (Bool × SatSolver) :=
  match (SatSolver.Create ⟨false, false, 0⟩).SetNumVariables 4 with
  | Except.error e => Except.error e
  | Except.ok s0 => s0.AddUnitClause 20 ⟨0⟩

/-- The solver of `unitClauseExample`. -/
def unitClauseSolver : SatSolver :=
  match unitClauseExample with
  | Except.ok (_, s) => s
  | Except.error _ => SatSolver.Create ⟨false, false, 0⟩

/-- A new solver with four variables on which `x1 + x2 + x3 >= 2`, then
`x0 + x1 + x2 <= 1`, then the unit clause `x0` were added. -/
def failedUnitExample : Except Abort (Bool × SatSolver) :=
  match (SatSolver.Create ⟨false, false, 0⟩).SetNumVariables 4 with
  | Except.error e => Except.error e
  | Except.ok s0 =>
    match s0.AddLinearConstraint 20 true 2 false 0 [⟨⟨2⟩, 1⟩, ⟨⟨4⟩, 1⟩, ⟨⟨6⟩, 1⟩] with
    | Except.error e => Except.error e
    | Except.ok (_, s1) =>
      match s1.AddLinearConstraint 20 false 0 true 1 [⟨⟨0⟩, 1⟩, ⟨⟨2⟩, 1⟩, ⟨⟨4⟩, 1⟩] with
      | Except.error e => Except.error e
      | Except.ok (_, s2) => s2.AddUnitClause 20 ⟨0⟩

/-- The solver of `failedUnitExample`. -/
def failedUnitSolver : SatSolver :=
  match failedUnitExample with
  | Except.ok (_, s) => s
  | Except.error _ => SatSolver.Create ⟨false, false, 0⟩

/-- A new solver with four variables. -/
def newSolverExample : SatSolver :=
  match (SatSolver.Create ⟨false, false, 0⟩).SetNumVariables 4 with
  | Except.ok s => s
  | Except.error _ => SatSolver.Create ⟨false, false, 0⟩

/-- The solver `newSolverExample` after `x1 + x2 + x3 >= 2` was added. -/
def lowerBoundSolver : SatSolver :=
  match newSolverExample.AddLinearConstraint 20 true 2 false 0
      [⟨⟨2⟩, 1⟩, ⟨⟨4⟩, 1⟩, ⟨⟨6⟩, 1⟩] with
  | Except.ok (_, s) => s
  | Except.error _ => newSolverExample

/-- The solver `lowerBoundSolver` after `x0 + x1 + x2 <= 1` was added. -/
def atMostOneSolver : SatSolver :=
  match lowerBoundSolver.AddLinearConstraint 20 false 0 true 1
      [⟨⟨0⟩, 1⟩, ⟨⟨2⟩, 1⟩, ⟨⟨4⟩, 1⟩] with
  | Except.ok (_, s) => s
  | Except.error _ => lowerBoundSolver

/-! ## `sat_solver.cc`: the calls of the propagators by `Propagate` -/

/-- The four propagators that `SatSolver::Propagate` calls:
`BinaryImplicationGraph::PropagateOnTrue`, `LiteralWatchers::PropagateOnFalse`,
`SymmetryPropagator::PropagateNext` and `PbConstraints::PropagateNext`. -/
inductive Propagator where
  | BINARY_CLAUSES
  | CLAUSES
  | SYMMETRY
  | LINEAR_CONSTRAINTS
deriving DecidableEq, Repr

/-- The loop `propagateBinaryLoop` of `Propagate`, with the list of the calls of
propagators made so far, each with its result. -/
def propagateBinaryLoopTraced :
    Nat → SatSolver → List (Propagator × Bool) →
      Except Abort (Bool × SatSolver × List (Propagator × Bool))
  | 0, _, _ => Except.error Abort.OUT_OF_FUEL
  | fuel + 1, s, calls =>
    if s.binary_propagation_trail_index_ < s.trail_.Index then
      let literal := s.trail_.get s.binary_propagation_trail_index_
      match s.binary_implication_graph_.PropagateOnTrue literal s.trail_ with
      | (ok, trail) =>
        let s1 := { s with
          binary_propagation_trail_index_ := s.binary_propagation_trail_index_ + 1,
          trail_ := trail }
        if ok then propagateBinaryLoopTraced fuel s1 (calls ++ [(Propagator.BINARY_CLAUSES, ok)])
        else Except.ok (false, s1, calls ++ [(Propagator.BINARY_CLAUSES, ok)])
    else Except.ok (true, s, calls)

/-- The loop `propagateClausesLoop` of `Propagate`, with the list of the calls
of propagators. -/
def propagateClausesLoopTraced (old_index : Nat) :
    Nat → SatSolver → List (Propagator × Bool) →
      Except Abort (Bool × SatSolver × List (Propagator × Bool))
  | 0, _, _ => Except.error Abort.OUT_OF_FUEL
  | fuel + 1, s, calls =>
    if s.trail_.Index = old_index ∧ s.propagation_trail_index_ < old_index then
      let literal := s.trail_.get s.propagation_trail_index_
      match s.watched_clauses_.PropagateOnFalse s.clause_heap_ literal.Negated s.trail_ with
      | (ok, watchers, heap, trail) =>
        let s1 := { s with
          propagation_trail_index_ := s.propagation_trail_index_ + 1,
          watched_clauses_ := watchers, clause_heap_ := heap, trail_ := trail }
        if ok then
          propagateClausesLoopTraced old_index fuel s1 (calls ++ [(Propagator.CLAUSES, ok)])
        else Except.ok (false, s1, calls ++ [(Propagator.CLAUSES, ok)])
    else Except.ok (true, s, calls)

/-- The loop `propagateSymmetryLoop` of `Propagate`, with the list of the calls
of propagators. -/
def propagateSymmetryLoopTraced (old_index : Nat) :
    Nat → SatSolver → List (Propagator × Bool) →
      Except Abort (Bool × SatSolver × List (Propagator × Bool))
  | 0, _, _ => Except.error Abort.OUT_OF_FUEL
  | fuel + 1, s, calls =>
    if s.trail_.Index = old_index ∧ s.symmetry_propagator_.PropagationNeeded s.trail_ then
      match s.symmetry_propagator_.PropagateNext s.trail_ with
      | (ok, sp, trail) =>
        let s1 := { s with symmetry_propagator_ := sp, trail_ := trail }
        if ok then
          propagateSymmetryLoopTraced old_index fuel s1 (calls ++ [(Propagator.SYMMETRY, ok)])
        else
          Except.ok (false, { s1 with trail_ := (s1.trail_.SetFailingClause
            (sp.LastConflict (s1.Reason s1.trail_.Index sp.VariableAtTheSourceOfLastConflict))) },
            calls ++ [(Propagator.SYMMETRY, ok)])
    else Except.ok (true, s, calls)

/-- The loop `propagatePbLoop` of `Propagate`, with the list of the calls of
propagators. -/
def propagatePbLoopTraced (old_index : Nat) :
    Nat → SatSolver → List (Propagator × Bool) →
      Except Abort (Bool × SatSolver × List (Propagator × Bool))
  | 0, _, _ => Except.error Abort.OUT_OF_FUEL
  | fuel + 1, s, calls =>
    if s.trail_.Index = old_index ∧ s.pb_constraints_.PropagationNeeded s.trail_ then
      match s.pb_constraints_.PropagateNext s.trail_ with
      | (ok, pb, trail) =>
        let s1 := { s with pb_constraints_ := pb, trail_ := trail }
        if ok then
          propagatePbLoopTraced old_index fuel s1 (calls ++ [(Propagator.LINEAR_CONSTRAINTS, ok)])
        else Except.ok (false, s1, calls ++ [(Propagator.LINEAR_CONSTRAINTS, ok)])
    else Except.ok (true, s, calls)

/-- The method `SatSolver::Propagate()` as `SatSolver.Propagate`, with the list
of the calls of propagators it makes, in order, each with its result. -/
def SatSolver.PropagateTraced :
    Nat → SatSolver → List (Propagator × Bool) →
      Except Abort (Bool × SatSolver × List (Propagator × Bool))
  | 0, _, _ => Except.error Abort.OUT_OF_FUEL
  | fuel + 1, s, calls =>
    match (if s.binary_implication_graph_.NumberOfImplications ≠ 0 then
            propagateBinaryLoopTraced (fuel + 1) s calls else Except.ok (true, s, calls)) with
    | Except.error e => Except.error e
    | Except.ok (false, s1, calls1) => Except.ok (false, s1, calls1)
    | Except.ok (true, s1, calls1) =>
      let old_index := s1.trail_.Index
      match propagateClausesLoopTraced old_index (fuel + 1) s1 calls1 with
      | Except.error e => Except.error e
      | Except.ok (false, s2, calls2) => Except.ok (false, s2, calls2)
      | Except.ok (true, s2, calls2) =>
        if s2.trail_.Index > old_index then SatSolver.PropagateTraced fuel s2 calls2
        else
          match propagateSymmetryLoopTraced old_index (fuel + 1) s2 calls2 with
          | Except.error e => Except.error e
          | Except.ok (false, s3, calls3) => Except.ok (false, s3, calls3)
          | Except.ok (true, s3, calls3) =>
            if s3.trail_.Index > old_index then SatSolver.PropagateTraced fuel s3 calls3
            else
              match propagatePbLoopTraced old_index (fuel + 1) s3 calls3 with
              | Except.error e => Except.error e
              | Except.ok (false, s4, calls4) => Except.ok (false, s4, calls4)
              | Except.ok (true, s4, calls4) =>
                if s4.trail_.Index > old_index then SatSolver.PropagateTraced fuel s4 calls4
                else Except.ok (true, s4, calls4)

/-- The solver `atMostOneSolver` (four variables, `x1 + x2 + x3 >= 2` and
`x0 + x1 + x2 <= 1`) with the literal `x3` enqueued and not yet propagated. -/
def pendingUnitExample : SatSolver :=
  { atMostOneSolver with trail_ := atMostOneSolver.trail_.EnqueueWithUnitReason ⟨6⟩ none }

/-- The constraint `x0 + 2 x1 + 4 x2 + 5 x3 <= 6` as the store holds it after the
decision `x2`, which made it enqueue `not x3`: the cursor is at the group of
the coefficient 2 and `already_propagated_end_` is the position of `x2`. -/
def forcedExampleConstraint : UpperBoundedLinearConstraint :=
  ⟨[⟨0⟩, ⟨2⟩, ⟨4⟩, ⟨6⟩], [1, 2, 4, 5], [0, 1, 2, 3, 4], 6, 1, 2, none⟩

/-- The trail with the decision `x2` and the propagated `not x3` at level 1, and the
decision `x0` at level 2. -/
def forcedExampleTrail : Trail :=
  ((((Trail.empty.SetDecisionLevel 1).Enqueue ⟨4⟩ AssignmentInfo.SEARCH_DECISION).Enqueue ⟨7⟩
    (AssignmentInfo.PB_PROPAGATION 0 0)).SetDecisionLevel 2).Enqueue ⟨0⟩
    AssignmentInfo.SEARCH_DECISION

/-- The constraint `x0 + 4 x1 + 5 x2 <= 5` as the store holds it after the decision
`x1`, which made it enqueue `not x2`: the cursor is at the group of the
coefficient 1 and `already_propagated_end_` is the position of `x1`. -/
def unvisitedExampleConstraint : UpperBoundedLinearConstraint :=
  ⟨[⟨0⟩, ⟨2⟩, ⟨4⟩], [1, 4, 5], [0, 1, 2, 3], 5, 0, 1, none⟩

/-- The store that holds `unvisitedExampleConstraint` alone, after `PropagateNext`
for the decision `x1`. -/
def unvisitedExample : PbConstraints :=
  ⟨[unvisitedExampleConstraint], [0],
    [(⟨0⟩, ⟨false, 0, 1⟩), (⟨2⟩, ⟨true, 0, 4⟩), (⟨4⟩, ⟨false, 0, 5⟩)], 1, [], 1, 1⟩

/-- The trail with the decision `x1` at level 1. -/
def unvisitedExampleStart : Trail :=
  (Trail.empty.SetDecisionLevel 1).Enqueue ⟨2⟩ AssignmentInfo.SEARCH_DECISION

/-- The trail `unvisitedExampleStart` after `not x2`, which the constraint had
enqueued, has been removed from it and `x0` enqueued: `x1, x0`. -/
def unvisitedExampleTrail : Trail :=
  ((unvisitedExampleStart.Enqueue ⟨5⟩ (AssignmentInfo.PB_PROPAGATION 0 0)).Dequeue).Enqueue ⟨0⟩
    AssignmentInfo.SEARCH_DECISION

/-! ## Invariants used in the proofs -/

/-- Invariant of the first loop of the canonicalization on input sorted by
literal: the kept terms have strictly increasing variables, all below the
variable of the representative, no zero coefficient, and every coefficient is
in the `int64` range. -/
structure MergeInv (st : MergeState) : Prop where
  kept_sorted : (st.kept.map (fun t => t.literal.Variable)).Pairwise (· < ·)
  kept_lt : ∀ r, st.representative = some r →
    ∀ t ∈ st.kept, t.literal.Variable < r.literal.Variable
  kept_nil : st.representative = none → st.kept = []
  kept_ne : ∀ t ∈ st.kept, t.coefficient ≠ 0
  kept_range : ∀ t ∈ st.kept, IsInt64 t.coefficient
  rep_range : ∀ r, st.representative = some r → IsInt64 r.coefficient

/-- The index of the first trail entry of decision level `level`, and the length
of the trail when there is none. -/
def Trail.firstIndexOfLevel (t : Trail) (level : Nat) : Nat :=
  t.entries.findIdx (fun e => decide (e.level = level))

/-- The shape of the trail and of `decisions_` in the states of a search: the
trail and the solver agree on the decision level; the levels of the trail
entries do not decrease along the trail and are at most the current level; no
variable is on the trail twice; and for every level `k + 1` up to the current
one, `decisions_[k].trail_index` is the index of the first trail entry of that
level, which is at least `k`. -/
structure TrailInvariant (s : SatSolver) : Prop where
  trail_level : s.trail_.current_decision_level = s.current_decision_level_
  sorted : s.trail_.entries.Pairwise (fun a b => a.level ≤ b.level)
  levels_le : ∀ e ∈ s.trail_.entries, e.level ≤ s.current_decision_level_
  nodup : (s.trail_.entries.map (fun e => e.literal.Variable)).Nodup
  decisions : ∀ k, k < s.current_decision_level_ →
    (s.decisions_.getD k ⟨0, ⟨0⟩⟩).trail_index = s.trail_.firstIndexOfLevel (k + 1) ∧
    s.trail_.firstIndexOfLevel (k + 1) < s.trail_.Index ∧
    k ≤ s.trail_.firstIndexOfLevel (k + 1)

/-- One step of a search on the trail: a unit clause is added, a decision is
taken on an unassigned variable of the problem, a propagator enqueues an
unassigned literal of the problem with some reason, or the solver backtracks
to a level that is not above the current one. -/
inductive SearchStep : SatSolver → SatSolver → Prop where
  | addUnitClause (s s1 : SatSolver) (fuel : Nat) (true_literal : Literal) (result : Bool) :
      true_literal.Variable < s.num_variables_ →
      s.AddUnitClause fuel true_literal = Except.ok (result, s1) → SearchStep s s1
  | newDecision (s : SatSolver) (literal : Literal) :
      literal.Variable < s.num_variables_ →
      s.trail_.IsVariableAssigned literal.Variable = false →
      SearchStep s (s.NewDecision literal)
  | enqueue (s : SatSolver) (literal : Literal) (info : AssignmentInfo) :
      literal.Variable < s.num_variables_ →
      s.trail_.IsVariableAssigned literal.Variable = false →
      SearchStep s { s with trail_ := s.trail_.Enqueue literal info }
  | backtrack (s : SatSolver) (target_level : Nat) :
      target_level ≤ s.CurrentDecisionLevel → SearchStep s (s.Backtrack target_level)

/-- The states that a search reaches from a new solver with its variables
declared. -/
inductive Reachable : SatSolver → Prop where
  | init (parameters : SatParameters) (num_variables : Nat) (s : SatSolver) :
      (SatSolver.Create parameters).SetNumVariables num_variables = Except.ok s → Reachable s
  | step (s s1 : SatSolver) : Reachable s → SearchStep s s1 → Reachable s1

/-- What the proofs carry along a search besides `TrailInvariant`: the variables
of the trail are variables of the problem, `decisions_` has one slot per
variable, and no constraint was added. -/
structure SearchInvariant (s : SatSolver) : Prop where
  trail : TrailInvariant s
  bounded : ∀ e ∈ s.trail_.entries, e.literal.Variable < s.num_variables_
  slots : s.decisions_.length = s.num_variables_
  empty : s.HasNoConstraint

/-- What `Propagate` leaves as it is in a state without constraints: the trail,
the decisions, the level, the number of variables, and the absence of
constraints. -/
def SatSolver.searchFrame (s : SatSolver) :
    Trail × List Decision × Nat × Nat × Nat × List Watcher ×
      List (List (Literal × Literal)) × List (Literal × ConstraintIndexWithCoeff) :=
  (s.trail_, s.decisions_, s.current_decision_level_, s.num_variables_,
    s.binary_implication_graph_.num_implications_, s.watched_clauses_.watchers_on_false_,
    s.symmetry_propagator_.permutations_, s.pb_constraints_.to_update_)

/-- A state at a conflict, as `ComputeFirstUIPConflict` finds it: the decision
levels do not decrease along the trail, no variable is on the trail twice,
every literal of the failing clause is false, and the reason of every trail
literal is made of false literals of smaller trail index (the reason of a
decision is empty). -/
structure ConflictState (trail : Trail) (reason : Nat → List Literal)
    (failing_clause : List Literal) : Prop where
  sorted : trail.entries.Pairwise (fun a b => a.level ≤ b.level)
  nodup : (trail.entries.map (fun e => e.literal.Variable)).Nodup
  failing_false : ∀ literal ∈ failing_clause, trail.IsLiteralFalse literal = true
  reason_false : ∀ e ∈ trail.entries, ∀ literal ∈ reason e.literal.Variable,
    trail.IsLiteralFalse literal = true ∧
    trail.trailIndexOf literal.Variable < trail.trailIndexOf e.literal.Variable

/-- The number of trail entries of index below `bound` that are of level `level`
and whose variable is marked. -/
def markedAtLevel (trail : Trail) (is_marked : SparseBitset) (level : Nat) : Nat → Nat
  | 0 => 0
  | bound + 1 =>
    markedAtLevel trail is_marked level bound +
      (match trail.entries[bound]? with
       | some e =>
         if e.level = level ∧ is_marked.get e.literal.Variable = true then 1 else 0
       | none => 0)

/-- What the main loop of `ComputeFirstUIPConflict` keeps true, for the highest
level `level` and with the trail entries of index below `bound` still to
process, all of level at most `level`: the marked variables are assigned at a
level that is at most `level`;
the counter is the number of marked entries of level `level` below the bound;
the literals put in the conflict are false, of a level between 0 and `level`,
and they are the false literals of the marked variables of such a level. -/
structure FirstUIPInvariant (trail : Trail) (level : Nat) (st : FirstUIPState)
    (bound : Nat) : Prop where
  bound_le : bound ≤ trail.Index
  below : ∀ (i : Nat) (e : TrailEntry), i < bound → trail.entries[i]? = some e →
    e.level ≤ level
  marked_assigned : ∀ var, st.is_marked_.get var = true →
    trail.trailIndexOf var < trail.Index ∧ trail.levelOf var ≤ level
  count : st.num_literal_at_highest_level_that_needs_to_be_processed =
    (markedAtLevel trail st.is_marked_ level bound : Int)
  conflict_false : ∀ literal ∈ st.conflict,
    trail.IsLiteralFalse literal = true ∧ 0 < trail.levelOf literal.Variable ∧
    trail.levelOf literal.Variable < level ∧ st.is_marked_.get literal.Variable = true
  lower_marked : ∀ var, st.is_marked_.get var = true → 0 < trail.levelOf var →
    trail.levelOf var < level → ∃ literal ∈ st.conflict, literal.Variable = var

/-- What `ComputeFirstUIPConflict` returns when the highest level `level` of the
failing clause is not 0: the conflict starts with the negation of a trail
literal of level `level`, its other literals are false literals of a level
strictly between 0 and `level`, and they are the false literals of the marked
variables of such a level; every marked variable is assigned, at a level that
is at most `level`. -/
structure FirstUIPResult (trail : Trail) (level : Nat) (r : FirstUIPState) : Prop where
  shape : ∃ (j : Nat) (e : TrailEntry) (rest : List Literal),
    trail.entries[j]? = some e ∧ e.level = level ∧
    r.conflict = e.literal.Negated :: rest ∧
    r.is_marked_.get e.literal.Variable = true ∧
    (∀ literal ∈ rest, trail.IsLiteralFalse literal = true ∧
      0 < trail.levelOf literal.Variable ∧ trail.levelOf literal.Variable < level ∧
      r.is_marked_.get literal.Variable = true) ∧
    (∀ var, r.is_marked_.get var = true → 0 < trail.levelOf var →
      trail.levelOf var < level → ∃ literal ∈ rest, literal.Variable = var)
  marked_assigned : ∀ var, r.is_marked_.get var = true →
    trail.trailIndexOf var < trail.Index ∧ trail.levelOf var ≤ level

/-- The literal is true in the total assignment `a`. -/
def literalHolds (a : Assignment) (l : Literal) : Bool := a l.Variable == l.IsPositive

/-- The clause is satisfied by the total assignment `a`: one of its literals is
true. -/
def clauseHolds (a : Assignment) (clause : List Literal) : Bool :=
  clause.any (fun l => literalHolds a l)

/-- What the conflict analysis keeps true of `same_reason_identifier_`: a recorded
pair `(position, var)` is made of two variables with the same reason, and every
literal of that reason is marked or is in the clause about to be expanded. -/
def SameReasonInvariant (reason : Nat → List Literal) (st : FirstUIPState)
    (clause : List Literal) : Prop :=
  ∀ position var, (position, var) ∈ st.same_reason_identifier_.first_variable_ →
    reason var = reason position ∧
    ∀ literal ∈ reason var, st.is_marked_.get literal.Variable = true ∨ literal ∈ clause

/-- A bound on the number of turns of the search of
`CanBeInferedFromConflictVariables` below one variable: `2` for the variable and
the weights of the variables of its reason, to the depth `depth`. -/
def reasonWeight (reason : Nat → List Literal) : Nat → Nat → Nat
  | 0, _ => 1
  | depth + 1, var =>
    2 + ((reason var).map (fun l => reasonWeight reason depth l.Variable)).sum

/-- Fuel that is enough for every call of `CanBeInferedFromConflictVariables` on
the trail. -/
def minimizationFuel (trail : Trail) (reason : Nat → List Literal) : Nat :=
  (trail.entries.map (fun e => reasonWeight reason trail.Index e.literal.Variable)).sum + 1

/-- The variable `var`, if it is assigned at a level below `level`, has its trail
literal true in the assignment `a` as soon as `a` makes false the literals of
`rest` whose trail index is at most that of `var`. -/
def Implied (trail : Trail) (level : Nat) (rest : List Literal) (a : Assignment)
    (var : Nat) : Prop :=
  trail.trailIndexOf var < trail.Index → trail.levelOf var < level →
  (∀ c ∈ rest, trail.trailIndexOf c.Variable ≤ trail.trailIndexOf var →
    literalHolds a c = false) →
  literalHolds a (trail.get (trail.trailIndexOf var)) = true

/-- The variable `var` is assigned below the level `level` by an entry of the
trail that is not a search decision. -/
def Expandable (trail : Trail) (level : Nat) (var : Nat) : Prop :=
  ∃ e ∈ trail.entries, e.literal.Variable = var ∧
    e.info ≠ AssignmentInfo.SEARCH_DECISION ∧ e.level < level

/-- The setting of the minimization of a first UIP conflict `first :: rest` of
level `level`, and of an assignment `a` to test it on: the trail is that of a
state at a conflict, an aliased reason is the reason of the reference
variable, a search decision is not above the bound of its level in
`min_trail_index_per_level_`, the literals of `rest` are false at a level
strictly between 0 and `level`, and `a` satisfies the clause of every trail
literal that is not a search decision and makes the trail literals of level 0
true. -/
structure MinimizationContext (trail : Trail) (reason : Nat → List Literal) (level : Nat)
    (min_trail_index_per_level : Nat → Int) (rest : List Literal) (a : Assignment) :
    Prop where
  sorted : trail.entries.Pairwise (fun a b => a.level ≤ b.level)
  nodup : (trail.entries.map (fun e => e.literal.Variable)).Nodup
  reason_false : ∀ e ∈ trail.entries, ∀ literal ∈ reason e.literal.Variable,
    trail.IsLiteralFalse literal = true ∧
    trail.trailIndexOf literal.Variable < trail.trailIndexOf e.literal.Variable
  same : ∀ e ∈ trail.entries,
    reason (trail.ReferenceVarWithSameReason e.literal.Variable) = reason e.literal.Variable
  prune : ∀ e ∈ trail.entries, 0 < e.level → e.info = AssignmentInfo.SEARCH_DECISION →
    (trail.trailIndexOf e.literal.Variable : Int) ≤ min_trail_index_per_level e.level
  rest_false : ∀ c ∈ rest, trail.IsLiteralFalse c = true ∧
    0 < trail.levelOf c.Variable ∧ trail.levelOf c.Variable < level
  reason_holds : ∀ e ∈ trail.entries, e.info ≠ AssignmentInfo.SEARCH_DECISION →
    clauseHolds a (e.literal :: reason e.literal.Variable) = true
  level0 : ∀ e ∈ trail.entries, e.level = 0 → literalHolds a e.literal = true

/-- The stack `dfs_stack_` of a list of frames of the search, the last frame
opened first: a frame is a variable being expanded and the variables of its
reason that are still to process. -/
def stackOf : List (Nat × List Nat) → List Nat
  | [] => []
  | frame :: below => stackOf below ++ [frame.1]

/-- The vector `variable_to_process_` of a list of frames of the search. -/
def toProcessOf : List (Nat × List Nat) → List Nat
  | [] => []
  | frame :: below => toProcessOf below ++ frame.1 :: frame.2

/-- The weight of a variable that waits in `variable_to_process_`. -/
def potential (trail : Trail) (reason : Nat → List Literal) (var : Nat) : Nat :=
  reasonWeight reason (trail.trailIndexOf var + 1) var

/-- The number of turns that the search can still take from a list of frames. -/
def framesMeasure (trail : Trail) (reason : Nat → List Literal) :
    List (Nat × List Nat) → Nat
  | [] => 0
  | frame :: below =>
    framesMeasure trail reason below + 1 + (frame.2.map (potential trail reason)).sum

/-- What the search keeps true of its frames: the variable of a frame is not a
search decision, the variables that wait in it are variables of its reason
that are not search decisions, and every variable of the reason is implied,
waits in the frame, or is the variable `hole` of the frame opened from it. -/
def FramesOK (trail : Trail) (reason : Nat → List Literal) (level : Nat)
    (rest : List Literal) (a : Assignment) : List (Nat × List Nat) → Option Nat → Prop
  | [], _ => True
  | frame :: below, hole =>
    Expandable trail level frame.1 ∧
    (∀ c ∈ frame.2, (∃ l ∈ reason frame.1, l.Variable = c) ∧ Expandable trail level c) ∧
    (∀ h, hole = some h → ∃ l ∈ reason frame.1, l.Variable = h) ∧
    (∀ l ∈ reason frame.1, Implied trail level rest a l.Variable ∨ l.Variable ∈ frame.2 ∨
      hole = some l.Variable) ∧
    FramesOK trail reason level rest a below (some frame.1)

/-- Every marked variable is implied. -/
def MarksImplied (trail : Trail) (level : Nat) (rest : List Literal) (a : Assignment)
    (is_marked : SparseBitset) : Prop :=
  ∀ var, is_marked.get var = true → Implied trail level rest a var

/-- What the minimization keeps true of `same_reason_identifier_`: a recorded pair
is made of two variables with the same reason, and when the recorded variable
is not independent and not among `excluded` (the variables being expanded),
the variables of its reason are implied. -/
def RecordsImplied (trail : Trail) (reason : Nat → List Literal) (level : Nat)
    (rest : List Literal) (a : Assignment) (st : MinimizationState)
    (excluded : List Nat) : Prop :=
  ∀ position var, (position, var) ∈ st.same_reason_identifier_.first_variable_ →
    reason var = reason position ∧
    (st.is_independent_.get var = false → var ∉ excluded →
      ∀ l ∈ reason var, Implied trail level rest a l.Variable)

/-- The total assignment that the trail defines on the assigned variables (an
unassigned variable is false). -/
def trailAssignment (trail : Trail) : Assignment :=
  fun var => trail.IsLiteralTrue ⟨2 * var⟩

/-- What the second loop of `MinimizeConflictExperimental` keeps true, for a
conflict that starts with `first`, of level `level`: the conflict still starts
with `first` and its other literals are of a level strictly between 0 and
`level`; the marked variables are those of the conflict; no variable is in the
conflict twice; and the variable of `first` is not to be removed. -/
def ExperimentalInvariant (trail : Trail) (first : Literal) (level : Nat)
    (st : ExperimentalState) : Prop :=
  (∃ tail, st.conflict = first :: tail ∧
    ∀ c ∈ tail, 0 < trail.levelOf c.Variable ∧ trail.levelOf c.Variable < level) ∧
  (∀ v, st.is_marked_.get v = true ↔ v ∈ st.conflict.map (fun c => c.Variable)) ∧
  (st.conflict.map (fun c => c.Variable)).Nodup ∧
  first.Variable ∉ st.to_remove

/-- The setting of `MinimizeConflict` with the algorithm `RECURSIVE`, as the
search calls it: an aliased reason is the reason of the reference variable, a
search decision is the first entry of its level, the trail index fits an
`int`, and a pair recorded in `same_reason_identifier_` is made of two variables
with the same reason. -/
structure RecursiveSetting (s : SatSolver) (st : MinimizationState) : Prop where
  same : ∀ e ∈ s.trail_.entries,
    s.Reason s.trail_.Index (s.trail_.ReferenceVarWithSameReason e.literal.Variable) =
      s.Reason s.trail_.Index e.literal.Variable
  decisions_first : ∀ e ∈ s.trail_.entries, e.info = AssignmentInfo.SEARCH_DECISION →
    ∀ e2 ∈ s.trail_.entries, e2.level = e.level →
      s.trail_.trailIndexOf e.literal.Variable ≤ s.trail_.trailIndexOf e2.literal.Variable
  index_int : s.trail_.Index ≤ 2147483647
  records : ∀ p ∈ st.same_reason_identifier_.first_variable_,
    s.Reason s.trail_.Index p.2 = s.Reason s.trail_.Index p.1

/-- The terms of a constraint, as the loops of `InitializeRhs` and
`HasIdenticalTerms` read them from `literals_`, `coeffs_` and `starts_`: the
literals in their order, each with the coefficient of its group. -/
def termsLoop (c : UpperBoundedLinearConstraint) :
    List Literal → Nat → Nat → List LiteralWithCoeff
  | [], _, _ => []
  | literal :: rest, literal_index, coeff_index =>
    ⟨literal, c.coeffs_.getD coeff_index 0⟩ ::
      termsLoop c rest (literal_index + 1)
        (if literal_index + 1 = c.starts_.getD (coeff_index + 1) 0 then coeff_index + 1
         else coeff_index)

/-- The terms of a constraint. -/
def UpperBoundedLinearConstraint.terms (c : UpperBoundedLinearConstraint) :
    List LiteralWithCoeff :=
  termsLoop c c.literals_ 0 0

/-- The literal is true with a trail index below `bound`. -/
def Trail.trueBelow (trail : Trail) (bound : Nat) (literal : Literal) : Bool :=
  trail.IsLiteralTrue literal && decide (trail.trailIndexOf literal.Variable < bound)

/-- The sum of the coefficients of the terms whose literal is true with a trail
index below `bound`, in unbounded integers. -/
def trueSum (trail : Trail) (bound : Nat) (terms : List LiteralWithCoeff) : Int :=
  ((terms.filter (fun term => trail.trueBelow bound term.literal)).map
    (fun term => term.coefficient)).sum

/-- The current right hand side of a constraint recomputed from scratch: `rhs_`
minus the coefficients of the literals true with a trail index below `bound`,
in unbounded integers. -/
def UpperBoundedLinearConstraint.currentRhs (c : UpperBoundedLinearConstraint)
    (trail : Trail) (bound : Nat) : Int :=
  c.rhs_ - trueSum trail bound c.terms

/-- The position `i` of `literals_` is in the group `j`, whose coefficient is
`coeffs_[j]`. -/
def UpperBoundedLinearConstraint.InGroup (c : UpperBoundedLinearConstraint) (i j : Nat) :
    Prop :=
  j < c.coeffs_.length ∧ c.starts_.getD j 0 ≤ i ∧ i < c.starts_.getD (j + 1) 0

/-- The shape of the vectors of a constraint built from a canonical list of
terms: `starts_` has one entry more than `coeffs_`, it starts at 0, increases
strictly and ends at the number of literals; the coefficients are positive and
increase strictly. -/
structure UpperBoundedLinearConstraint.WellFormed (c : UpperBoundedLinearConstraint) :
    Prop where
  starts_length : c.starts_.length = c.coeffs_.length + 1
  starts_zero : c.starts_.getD 0 0 = 0
  starts_last : c.starts_.getD c.coeffs_.length 0 = c.literals_.length
  starts_increasing : ∀ j, j < c.coeffs_.length →
    c.starts_.getD j 0 < c.starts_.getD (j + 1) 0
  coeffs_increasing : ∀ j, j < c.coeffs_.length - 1 →
    c.coeffs_.getD j 0 < c.coeffs_.getD (j + 1) 0
  coeffs_positive : ∀ j, j < c.coeffs_.length → 0 < c.coeffs_.getD j 0

/-- The entries of `to_update_` that point to the constraint of index `k`, as
terms: each with the literal whose list it is in and its coefficient. -/
def updatesOf (to_update : List (Literal × ConstraintIndexWithCoeff)) (k : Nat) :
    List LiteralWithCoeff :=
  (to_update.filter (fun e => decide (e.2.index = k))).map (fun e => ⟨e.1, e.2.coefficient⟩)

/-- The sum of the coefficients of the terms of literal `literal`. -/
def literalSum (literal : Literal) (terms : List LiteralWithCoeff) : Int :=
  ((terms.filter (fun term => decide (term.literal = literal))).map
    (fun term => term.coefficient)).sum

/-- What the store of linear constraints keeps true with a trail: no variable is
on the trail twice, the cursor of the store is at most the length of the
trail, there is one slack per constraint, the entries of `to_update_` of every
constraint are its terms, the constraints are well formed, and the current
right hand side that the slack of a constraint stands for is `rhs_` minus the
coefficients of the literals true at a trail index below the cursor, as a
64-bit integer. -/
structure SlackInvariant (trail : Trail) (pb : PbConstraints) : Prop where
  nodup : (trail.entries.map (fun e => e.literal.Variable)).Nodup
  index_le : pb.propagation_trail_index_ ≤ trail.Index
  slacks_length : pb.slacks_.length = pb.constraints_.length
  updates_range : ∀ e ∈ pb.to_update_, e.2.index < pb.constraints_.length
  updates : ∀ (k : Nat) (c : UpperBoundedLinearConstraint), pb.constraints_[k]? = some c →
    updatesOf pb.to_update_ k = c.terms
  well_formed : ∀ c ∈ pb.constraints_, c.WellFormed
  slack : ∀ (k : Nat) (c : UpperBoundedLinearConstraint), pb.constraints_[k]? = some c →
    c.GetCurrentRhsFromSlack (pb.slacks_.getD k 0) =
      wrap64 (c.currentRhs trail pb.propagation_trail_index_)

/-- A list of terms as `AddConstraint` expects it: not empty, with positive
coefficients in non-decreasing order. -/
def CanonicalTerms (cst : List LiteralWithCoeff) : Prop :=
  cst ≠ [] ∧ (∀ term ∈ cst, 0 < term.coefficient) ∧
  cst.Pairwise (fun a b => a.coefficient ≤ b.coefficient)

/-- One step of the use of a store of linear constraints with its trail: a
constraint in canonical form with a 64-bit right hand side is added and
`AddConstraint` returns true; `PropagateNext` is called when propagation is
needed; `Untrail` is called; the owner of the trail enqueues a literal of an
unassigned variable, or removes the last literal when the cursor of the store
is below the length of the trail. -/
inductive PbStep : Trail × PbConstraints → Trail × PbConstraints → Prop where
  | addConstraint (trail : Trail) (pb : PbConstraints) (cst : List LiteralWithCoeff)
      (rhs : Int) (node : ResolutionNodePointer) (pb1 : PbConstraints) (trail1 : Trail) :
      CanonicalTerms cst → IsInt64 rhs →
      pb.AddConstraint cst rhs node trail = (true, pb1, trail1) →
      PbStep (trail, pb) (trail1, pb1)
  | propagateNext (trail : Trail) (pb : PbConstraints) :
      pb.PropagationNeeded trail = true →
      PbStep (trail, pb) ((pb.PropagateNext trail).2.2, (pb.PropagateNext trail).2.1)
  | untrail (trail : Trail) (pb : PbConstraints) (trail_index : Nat) :
      PbStep (trail, pb) (trail, pb.Untrail trail trail_index)
  | enqueue (trail : Trail) (pb : PbConstraints) (literal : Literal) (info : AssignmentInfo) :
      trail.IsVariableAssigned literal.Variable = false →
      PbStep (trail, pb) (trail.Enqueue literal info, pb)
  | dequeue (trail : Trail) (pb : PbConstraints) :
      pb.propagation_trail_index_ < trail.Index →
      PbStep (trail, pb) (trail.Dequeue, pb)

/-- The stores of linear constraints, with their trail, that are reached from the
empty store on an empty trail. -/
inductive PbReachable : Trail × PbConstraints → Prop where
  | init (trail : Trail) : trail.entries = [] →
      PbReachable (trail, ⟨[], [], [], 0, [], 0, 0⟩)
  | step (a b : Trail × PbConstraints) : PbReachable a → PbStep a b → PbReachable b

/-- The part of a constraint that `Propagate`, `InitializeRhs` with the same right
hand side and `Untrail` keep: the literals, the coefficients, the starts of
the groups and the right hand side. -/
def constraintFrame (c : UpperBoundedLinearConstraint) :
    List Literal × List Int × List Nat × Int :=
  (c.literals_, c.coeffs_, c.starts_, c.rhs_)

/-- What the loop of `PropagateNext` keeps true, with the entries `pending` of
`to_update_` still to visit and the cursor of the store moved to `bound`: the
slack of a constraint stands for the current right hand side at `bound` plus
the coefficients of the entries of the true literal still to visit. -/
def PendingInvariant (true_literal : Literal) (bound : Nat)
    (pending : List (Literal × ConstraintIndexWithCoeff)) (st : PropagateNextState) : Prop :=
  (st.trail.entries.map (fun e => e.literal.Variable)).Nodup ∧
  bound ≤ st.trail.Index ∧
  st.slacks_.length = st.constraints_.length ∧
  (∀ e ∈ pending, e.2.index < st.constraints_.length) ∧
  ∀ (k : Nat) (c : UpperBoundedLinearConstraint), st.constraints_[k]? = some c →
    c.GetCurrentRhsFromSlack (st.slacks_.getD k 0) =
      wrap64 (c.currentRhs st.trail bound + literalSum true_literal (updatesOf pending k))

/-- What the loop of the constructor of a constraint keeps true after the terms
`p`, with the last entry of `starts_` that the constructor adds at the end: the
literals are those of `p`, the vectors are well formed, and every term of `p`
has the coefficient of the group of its position. -/
structure CreateInvariant (c : UpperBoundedLinearConstraint) (p : List LiteralWithCoeff) :
    Prop where
  literals : c.literals_ = p.map (fun term => term.literal)
  lengths : c.starts_.length = c.coeffs_.length
  last : c.coeffs_.getLast? = p.getLast?.map (fun term => term.coefficient)
  well_formed :
    UpperBoundedLinearConstraint.WellFormed
      { c with starts_ := c.starts_ ++ [c.literals_.length] }
  groups : ∀ (i : Nat) (term : LiteralWithCoeff), p[i]? = some term →
    ∃ j, UpperBoundedLinearConstraint.InGroup
        { c with starts_ := c.starts_ ++ [c.literals_.length] } i j ∧
      c.coeffs_.getD j 0 = term.coefficient

/-- The cursor `index_` of a constraint is settled for a current right hand side:
it is on the last group whose coefficient is at most the current right hand
side, and below every group when there is none. -/
def UpperBoundedLinearConstraint.CursorSettled (c : UpperBoundedLinearConstraint)
    (current_rhs : Int) : Prop :=
  -1 ≤ c.index_ ∧ c.index_ < c.coeffs_.length ∧
  (0 ≤ c.index_ → c.coeffs_.getD c.index_.toNat 0 ≤ current_rhs) ∧
  (c.index_ + 1 < c.coeffs_.length → current_rhs < c.coeffs_.getD (c.index_ + 1).toNat 0)

/-- A store of linear constraints with no propagation pending: the cursor of
every constraint is settled for its current right hand side, the entries of
`to_update_` flagged for inspection are those of literals true below the
cursor of the store, and the slacks are 64-bit values. -/
structure Settled (trail : Trail) (pb : PbConstraints) : Prop where
  cursors : ∀ (k : Nat) (c : UpperBoundedLinearConstraint), pb.constraints_[k]? = some c →
    c.CursorSettled (c.GetCurrentRhsFromSlack (pb.slacks_.getD k 0))
  flags : ∀ e ∈ pb.to_update_, e.2.need_untrail_inspection = true →
    trail.trueBelow pb.propagation_trail_index_ e.1 = true
  slack_range : ∀ s ∈ pb.slacks_, IsInt64 s

/-- Any number of calls of `PropagateNext`, each made when propagation is needed,
whatever they return. -/
inductive PropagateNextCalls : Trail × PbConstraints → Trail × PbConstraints → Prop where
  | refl (a : Trail × PbConstraints) : PropagateNextCalls a a
  | step (a : Trail × PbConstraints) (trail : Trail) (pb : PbConstraints) :
      PropagateNextCalls a (trail, pb) → pb.PropagationNeeded trail = true →
      PropagateNextCalls a ((pb.PropagateNext trail).2.2, (pb.PropagateNext trail).2.1)

/-- The literal is on the trail at an index from `low` on and below `high`. -/
def Trail.Active (trail : Trail) (low high : Nat) (literal : Literal) : Prop :=
  ∃ j, low ≤ j ∧ j < high ∧ trail.get j = literal

/-- Two lists of entries of `to_update_` that differ by the flags only, where the
entries at the same place are related by `p`. -/
def EntriesAgree (p : Literal × ConstraintIndexWithCoeff → Literal × ConstraintIndexWithCoeff →
    Prop) (entries0 entries : List (Literal × ConstraintIndexWithCoeff)) : Prop :=
  List.Forall₂ (fun a b => b.1 = a.1 ∧ b.2.index = a.2.index ∧
    b.2.coefficient = a.2.coefficient ∧ p a b) entries0 entries

/-- What relates a store to the store `pb0` it comes from by calls of
`PropagateNext` and by turns of the loop of `Untrail` that has collected
`to_untrail`: the flags differ on the literals of the trail from the cursor of
`pb0` on only, and a cursor `index_` is at most the one of `pb0`, and equal
to it unless the constraint is flagged for inspection or in `to_untrail`. -/
structure CursorsSince (pb0 : PbConstraints) (trail : Trail) (pb : PbConstraints)
    (to_untrail : List Nat) : Prop where
  index_ge : pb0.propagation_trail_index_ ≤ pb.propagation_trail_index_
  entries : EntriesAgree (fun a b => b.2.need_untrail_inspection ≠ a.2.need_untrail_inspection →
    trail.Active pb0.propagation_trail_index_ pb.propagation_trail_index_ a.1)
    pb0.to_update_ pb.to_update_
  frames : pb.constraints_.map constraintFrame = pb0.constraints_.map constraintFrame
  cursors : ∀ (k : Nat) (c0 c : UpperBoundedLinearConstraint),
    pb0.constraints_[k]? = some c0 → pb.constraints_[k]? = some c →
    -1 ≤ c.index_ ∧ c.index_ ≤ c0.index_ ∧
    (c.index_ ≠ c0.index_ → k ∈ to_untrail ∨
      ∃ e ∈ pb.to_update_, e.2.index = k ∧ e.2.need_untrail_inspection = true ∧
        trail.Active pb0.propagation_trail_index_ pb.propagation_trail_index_ e.1)
  slack_range : ∀ s ∈ pb.slacks_, IsInt64 s

/-- The reason the first loop of `FillReason` has built when it has visited the
positions from `i` on: the negations of the literals of the terms that
satisfy `p`, the last position first. -/
def reasonFrom (p : LiteralWithCoeff → Bool) (terms : List LiteralWithCoeff) (i : Nat) :
    List Literal :=
  (((terms.drop i).filter p).reverse).map (fun term => term.literal.Negated)

/-- The sum of the coefficients of the terms before the position `i` that satisfy
`p`. -/
def coefficientsBefore (p : LiteralWithCoeff → Bool) (terms : List LiteralWithCoeff)
    (i : Nat) : Int :=
  (((terms.take i).filter p).map (fun term => term.coefficient)).sum

/-- The sum of the coefficients of the terms that satisfy `p`. -/
def coefficientsOf (p : LiteralWithCoeff → Bool) (terms : List LiteralWithCoeff) : Int :=
  ((terms.filter p).map (fun term => term.coefficient)).sum

/-- The test of the first loop of `FillReason` on a term: its variable is not the
propagated one and its literal is true with a trail index that is at most the
source trail index. -/
def trueAtSource (trail : Trail) (source_trail_index propagated_variable : Nat)
    (term : LiteralWithCoeff) : Bool :=
  decide (term.literal.Variable ≠ propagated_variable) &&
    (trail.IsLiteralTrue term.literal &&
      decide (trail.trailIndexOf term.literal.Variable ≤ source_trail_index))

/-- The test of the first loop of `FillReason` that puts the negation of the
literal of a term in the reason. -/
def inReason (trail : Trail) (source_trail_index propagated_variable : Nat)
    (include_level_zero : Bool) (term : LiteralWithCoeff) : Bool :=
  trueAtSource trail source_trail_index propagated_variable term &&
    (include_level_zero || decide (trail.levelOf term.literal.Variable ≠ 0))

/-- Invariant of the first loop of `FillReason` when `n` positions are left to
visit. -/
structure CollectInvariant (c : UpperBoundedLinearConstraint) (trail : Trail)
    (source_trail_index propagated_variable : Nat) (include_level_zero : Bool) (n : Nat)
    (st : FillReasonState) : Prop where
  reason : st.reason = reasonFrom
    (inReason trail source_trail_index propagated_variable include_level_zero) c.terms n
  current_rhs : st.current_rhs = wrap64 (c.rhs_ - coefficientsOf
    (trueAtSource trail source_trail_index propagated_variable) (c.terms.drop n))
  coeff_index : 0 < n → ∃ j : Nat, c.InGroup (n - 1) j ∧ st.coeff_index = j
  coefficient : ∀ (q : Nat) (t : LiteralWithCoeff), n ≤ q → c.terms[q]? = some t →
    t.literal.Variable = propagated_variable →
    st.propagated_variable_coefficient = t.coefficient
  last : st.reason ≠ [] → n ≤ st.last_i ∧
    (∃ (j : Nat) (t : LiteralWithCoeff), c.InGroup st.last_i j ∧ st.last_coeff_index = j ∧
      c.terms[st.last_i]? = some t ∧
      inReason trail source_trail_index propagated_variable include_level_zero t = true) ∧
    ∀ (q : Nat) (t : LiteralWithCoeff), n ≤ q → q < st.last_i → c.terms[q]? = some t →
      inReason trail source_trail_index propagated_variable include_level_zero t = false

/-- What the main loop of `ComputeFirstUIPConflict` keeps true of its two output
lists, for the highest level `level` and with the trail entries of index below
`bound` still to process: neither holds a variable twice; every variable of the
conflict is marked and of a level that is neither 0 nor `level`; every variable
of the reason used is marked and either of level 0 or of level `level` with a
trail index that is not below `bound`. -/
structure DisjointInvariant (trail : Trail) (level : Nat) (st : FirstUIPState)
    (bound : Nat) : Prop where
  conflict_nodup : (st.conflict.map (fun l => l.Variable)).Nodup
  reason_nodup : (st.reason_used_to_infer_the_conflict.map (fun l => l.Variable)).Nodup
  conflict_level : ∀ l ∈ st.conflict, st.is_marked_.get l.Variable = true ∧
    trail.levelOf l.Variable ≠ 0 ∧ trail.levelOf l.Variable ≠ level
  reason_level : ∀ l ∈ st.reason_used_to_infer_the_conflict,
    st.is_marked_.get l.Variable = true ∧
    (trail.levelOf l.Variable = 0 ∨
      (trail.levelOf l.Variable = level ∧ bound ≤ trail.trailIndexOf l.Variable))

/-- The parent of a node, as the loops read it. -/
def MergingPartition.parentOf (m : MergingPartition) (child : Nat) : Nat :=
  m.parent_.getD child 0

/-- The array `parent_` is a forest: every parent is a node, and following the
parents from any node reaches a node that is its own parent. -/
def MergingPartition.IsForest (m : MergingPartition) : Prop :=
  ∀ node, node < m.NumNodes →
    m.parentOf node < m.NumNodes ∧
    ∃ k, m.parentOf (m.parentOf^[k] node) = m.parentOf^[k] node

/-- The sum of the absolute values of the coefficients of a term list. -/
def absSum (l : List LiteralWithCoeff) : Int :=
  (l.map (fun t => |t.coefficient|)).sum

/-- An assignment under which every literal of a list without a literal and
its negation is false: a variable is true when the list holds its negative
literal. -/
def falsifying (lits : List Literal) : Assignment :=
  fun v => decide (∃ x ∈ lits, x.Variable = v ∧ x.IsPositive = false)

/-- Nothing is left to propagate: the cursor of every propagator is at the end
of the trail (the one of the binary clauses when there are some). -/
def SatSolver.PropagationDone (s : SatSolver) : Prop :=
  (s.binary_implication_graph_.NumberOfImplications = 0 ∨
    s.trail_.Index ≤ s.binary_propagation_trail_index_) ∧
  s.trail_.Index ≤ s.propagation_trail_index_ ∧
  s.symmetry_propagator_.PropagationNeeded s.trail_ = false ∧
  s.pb_constraints_.PropagationNeeded s.trail_ = false

/-- The calls of propagators made by a run that returned `b`: no call failed
when `b` is true, and when `b` is false the last call failed and no other. -/
def FailsAtTheEnd (b : Bool) (calls : List (Propagator × Bool)) : Prop :=
  (b = true → ∀ c ∈ calls, c.2 = true) ∧
  (b = false → ∃ (init : List (Propagator × Bool)) (p : Propagator),
    calls = init ++ [(p, false)] ∧ ∀ c ∈ init, c.2 = true)

/-- The trail holds no variable twice and only variables below `n`. -/
def Trail.Within (t : Trail) (n : Nat) : Prop :=
  (t.entries.map (fun e => e.literal.Variable)).Nodup ∧
  ∀ e ∈ t.entries, e.literal.Variable < n

/-- What the propagators rely on: the trail holds no variable twice, the
literals of the trail, of the implications, of the clauses, of the images of
the symmetries and of the linear constraints are literals of variables of the
solver, and the cursors of the clauses and of the binary clauses are not beyond
the end of the trail. -/
structure SatSolver.PropagationInvariant (s : SatSolver) : Prop where
  trail : s.trail_.Within s.num_variables_
  binary : ∀ arc ∈ s.binary_implication_graph_.implications_,
    arc.2.Variable < s.num_variables_
  clauses : ∀ c ∈ s.clause_heap_, ∀ l ∈ c.literals_, l.Variable < s.num_variables_
  symmetry : ∀ p ∈ s.symmetry_propagator_.permutations_, ∀ pair ∈ p,
    pair.2.Variable < s.num_variables_
  linear : ∀ c ∈ s.pb_constraints_.constraints_, ∀ l ∈ c.literals_,
    l.Variable < s.num_variables_
  clause_cursor : s.propagation_trail_index_ ≤ s.trail_.Index
  binary_cursor : s.binary_propagation_trail_index_ ≤ s.trail_.Index

/-- The fixpoint of the propagation: the cursor of the clauses is at the end of
the trail, neither the symmetry propagator nor the linear constraints need a
propagation, and the cursor of the binary clauses is at the end of the trail
when there are binary clauses. -/
def SatSolver.PropagationFixpoint (s : SatSolver) : Prop :=
  s.propagation_trail_index_ = s.trail_.Index ∧
  s.symmetry_propagator_.PropagationNeeded s.trail_ = false ∧
  s.pb_constraints_.PropagationNeeded s.trail_ = false ∧
  (s.binary_implication_graph_.NumberOfImplications ≠ 0 →
    s.binary_propagation_trail_index_ = s.trail_.Index)

/-- What the search keeps between its steps: the shape of the trail and of the
decisions, the invariant of the propagators, and one slot of `decisions_` per
variable. -/
structure SolverInvariant (s : SatSolver) : Prop where
  trail : TrailInvariant s
  propagation : s.PropagationInvariant
  slots : s.decisions_.length = s.num_variables_

/-- A branching rule for the examples: the positive literal of the first variable
of the problem that is not assigned (of the variable 0 when all are). -/
def SatSolver.firstUnassigned (s : SatSolver) : Literal :=
  match (List.range s.num_variables_).find? (fun v => !s.trail_.IsVariableAssigned v) with
  | some v => ⟨2 * v⟩
  | none => ⟨0⟩

/-- Modelled from the spec: `BinaryImplicationGraph::AddBinaryConflict(a, b, trail)`
of `clause.cc`, which is not among the sources; `clause.h` declares it: "Same as
AddBinaryClause() but enqueues a possible unit propagation": when one of the two
literals is false the other one is enqueued, with the false one as its
reason. -/
def BinaryImplicationGraph.AddBinaryConflict (g : BinaryImplicationGraph) (a b : Literal)
    (trail : Trail) : BinaryImplicationGraph × Trail :=
  (g.AddBinaryClause a b,
    if trail.IsLiteralFalse a then trail.Enqueue b (AssignmentInfo.BINARY_PROPAGATION a)
    else if trail.IsLiteralFalse b then trail.Enqueue a (AssignmentInfo.BINARY_PROPAGATION b)
    else trail)

/-- The method `SatSolver::AddLearnedClauseAndEnqueueUnitPropagation(literals,
node)`; the `CHECK`s abort.  `ClauseShouldBeKept`, `clause_cleanup_increment` and
`before_cleanup` are the arguments of `CompressLearnedClausesIfNeeded`, and `lbd`
is the value of `parameters_.use_lbd() ? ComputeLbd(*clause) : 0`, which reads a
parameter that is not embedded.  The new clause object takes the next position
of the heap.  `BumpClauseActivity`, which rests on the activity increment, is
not embedded. -/
def SatSolver.AddLearnedClauseAndEnqueueUnitPropagation (s : SatSolver)
    (ClauseShouldBeKept : Nat → Bool) (clause_cleanup_increment : Int)
    (before_cleanup : Int → Int → Int) (lbd : Int)
    (literals : List Literal) (node : ResolutionNodePointer) : Except Abort SatSolver :=
  if literals.length = 1 then
    if s.CurrentDecisionLevel ≠ 0 then Except.error Abort.CHECK_FAILED
    else
      Except.ok { s with trail_ := s.trail_.EnqueueWithUnitReason (literals.getD 0 ⟨0⟩) node }
  else if s.parameters_.treat_binary_clauses_separately && literals.length == 2 then
    match s.binary_implication_graph_.AddBinaryConflict (literals.getD 0 ⟨0⟩)
        (literals.getD 1 ⟨0⟩) s.trail_ with
    | (graph, trail) =>
      Except.ok { s with binary_implication_graph_ := graph, trail_ := trail }
  else
    let pointer := s.clause_heap_.length
    let clause := SatClause.Create literals ClauseType.LEARNED_CLAUSE node
    let s1 := ({ s with clause_heap_ := s.clause_heap_ ++ [clause] } :
      SatSolver).CompressLearnedClausesIfNeeded ClauseShouldBeKept clause_cleanup_increment
      before_cleanup
    let s2 := { s1 with
      num_learned_clause_before_cleanup_ := s1.num_learned_clause_before_cleanup_ - 1,
      learned_clauses_ := s1.learned_clauses_ ++ [pointer] }
    match s2.watched_clauses_.AttachAndPropagate
        (s2.clause_heap_.set pointer { clauseAt s2.clause_heap_ pointer with lbd_ := lbd })
        pointer s2.trail_ with
    | (false, _, _, _) => Except.error Abort.CHECK_FAILED
    | (true, watchers, heap, trail) =>
      Except.ok { s2 with watched_clauses_ := watchers, clause_heap_ := heap, trail_ := trail }

/-- A run of decisions without conflict: each literal, of a variable of the
problem that is not assigned, is decided on by `NewDecision`, and `Propagate()`,
called next, returns true.  There is no result when a literal is of an assigned
variable or when a call of `Propagate()` returns false or does not return. -/
def SatSolver.enqueueDecisions (fuel : Nat) : List Literal → SatSolver → Option SatSolver
  | [], s => some s
  | literal :: rest, s =>
    if literal.Variable < s.num_variables_ ∧
        s.trail_.IsVariableAssigned literal.Variable = false then
      match (s.NewDecision literal).Propagate fuel with
      | Except.ok (true, s1) => SatSolver.enqueueDecisions fuel rest s1
      | _ => none
    else none

/-- An environment of the search that learns: no limit is reached, no restart is
asked, the conflict is not minimized, and the learned clause is added by
`AddLearnedClauseAndEnqueueUnitPropagation`, without clean-up and with the LBD
0. -/
def learningEnvironment : SolveEnvironment :=
  ⟨fun _ => false, fun _ => false, fun _ => false, fun _ s => s.firstUnassigned,
    fun s => Except.ok s,
    fun _ analysis => (analysis.conflict, analysis.reason_used_to_infer_the_conflict),
    fun _ _ s literals node =>
      s.AddLearnedClauseAndEnqueueUnitPropagation (fun _ => true) 100 (fun a b => a - b) 0
        literals node⟩

/-- The state after `AddLinearConstraint` with the upper bound `upper_bound`, and
the state itself when the call does not return. -/
def SatSolver.withUpperBound (s : SatSolver) (upper_bound : Int)
    (cst : List LiteralWithCoeff) : SatSolver :=
  match s.AddLinearConstraint 20 false 0 true upper_bound cst with
  | Except.ok (_, s1) => s1
  | Except.error _ => s

/-- The state after `AddProblemClause`, and the state itself when the call does
not return. -/
def SatSolver.withClause (s : SatSolver) (literals : List Literal) : SatSolver :=
  match s.AddProblemClause 20 literals with
  | Except.ok (_, s1) => s1
  | Except.error _ => s

/-- A problem on the six variables `x0, ..., x5`, with binary clauses kept as
clauses: `x0 + x1 + x2 <= 1`, `x0 + x3 + x4 + x5 <= 2` and the clause
`x4 or x5`. -/
def learningProblem : SatSolver :=
  match (SatSolver.Create ⟨false, false, kint64max⟩).SetNumVariables 6 with
  | Except.ok s =>
    ((s.withUpperBound 1 [⟨⟨0⟩, 1⟩, ⟨⟨2⟩, 1⟩, ⟨⟨4⟩, 1⟩]).withUpperBound 2
      [⟨⟨0⟩, 1⟩, ⟨⟨6⟩, 1⟩, ⟨⟨8⟩, 1⟩, ⟨⟨10⟩, 1⟩]).withClause [⟨8⟩, ⟨10⟩]
  | Except.error _ => SatSolver.Create ⟨false, false, kint64max⟩

/-- The state of `learningProblem` after the decision `x0`, taken by
`EnqueueDecisionAndBackjumpOnConflict`. -/
def learningFirst : SatSolver :=
  match learningProblem.EnqueueDecisionAndBackjumpOnConflict learningEnvironment 30 0 ⟨0⟩ with
  | Except.ok (_, s) => s
  | Except.error _ => learningProblem

/-- The state of `learningFirst` after the decision `x3`, taken by
`EnqueueDecisionAndBackjumpOnConflict`: the decision leads to a conflict, the
clause `not x3 or not x0` is learned and the search is back at the level 1. -/
def learningSecond : SatSolver :=
  match learningFirst.EnqueueDecisionAndBackjumpOnConflict learningEnvironment 30 1 ⟨6⟩ with
  | Except.ok (_, s) => s
  | Except.error _ => learningFirst

/-- The state of `learningSecond` after `Backtrack(0)` and the decision `x0`
again. -/
def learningReplayed : SatSolver :=
  match (learningSecond.Backtrack 0).enqueueDecisions 30 [⟨0⟩] with
  | some s => s
  | none => learningSecond

/-- A problem on the six variables `x0, ..., x5`, with binary clauses in the
implication graph: the clauses `not x0 or x1` and `not x1 or not x2 or x3`, and
`x3 + x4 + x5 <= 1`. -/
def replayProblem : SatSolver :=
  match (SatSolver.Create ⟨false, true, kint64max⟩).SetNumVariables 6 with
  | Except.ok s =>
    ((s.withClause [⟨1⟩, ⟨2⟩]).withClause [⟨3⟩, ⟨5⟩, ⟨6⟩]).withUpperBound 1
      [⟨⟨6⟩, 1⟩, ⟨⟨8⟩, 1⟩, ⟨⟨10⟩, 1⟩]
  | Except.error _ => SatSolver.Create ⟨false, true, kint64max⟩

/-- The state of `replayProblem` after the decisions `x0` and `x2`. -/
def replayRun : SatSolver :=
  match replayProblem.enqueueDecisions 30 [⟨0⟩, ⟨4⟩] with
  | some s => s
  | none => replayProblem

/-- The state of `replayRun` after `Backtrack(0)` and the decisions `x0` and `x2`
again. -/
def replayRunAgain : SatSolver :=
  match (replayRun.Backtrack 0).enqueueDecisions 30 [⟨0⟩, ⟨4⟩] with
  | some s => s
  | none => replayRun

/-! ### What the proof of the replay carries -/

/-- Two trails with the same entries and the same decision level. -/
def TrailSim (t t1 : Trail) : Prop :=
  t1.entries = t.entries ∧ t1.current_decision_level = t.current_decision_level

theorem SafeAddInto_eq_some {a b r : Int} (h : SafeAddInto a b = some r) :
    r = a + b ∧ IsInt64 (a + b) := by
  unfold SafeAddInto at h
  split at h
  · rename_i hr
    exact ⟨by simpa using h.symm, hr⟩
  · simp at h

theorem SafeAddInto_eq_none {a b : Int} (h : SafeAddInto a b = none) :
    ¬ IsInt64 (a + b) := by
  unfold SafeAddInto at h
  split at h
  · simp at h
  · assumption

theorem wrap64_of_IsInt64 {x : Int} (h : IsInt64 x) : wrap64 x = x := by
  unfold IsInt64 kint64min kint64max at h
  unfold wrap64
  omega

/-- C5 (`ComputeCanonicalRhs`).  For 64-bit `upper_bound`, `bound_shift` and
`max_value >= 0`: a value `v` of the canonical expression, `0 <= v <= max_value`,
is at most the returned rhs iff `v <= upper_bound + bound_shift` in unbounded
integers; the result is `-1` exactly when no such `v` exists; it never exceeds
`max_value`; a positive overflow of the sum gives `max_value` and a negative
one gives `-1`. -/
theorem ComputeCanonicalRhs_spec (upper_bound bound_shift max_value : Int)
    (hub : IsInt64 upper_bound) (hs : IsInt64 bound_shift) (hm : IsInt64 max_value)
    (hm0 : 0 ≤ max_value) :
    (∀ v : Int, 0 ≤ v → v ≤ max_value →
      (v ≤ ComputeCanonicalRhs upper_bound bound_shift max_value ↔
        v ≤ upper_bound + bound_shift)) ∧
    (ComputeCanonicalRhs upper_bound bound_shift max_value = -1 ↔
      ¬ ∃ v : Int, 0 ≤ v ∧ v ≤ max_value ∧ v ≤ upper_bound + bound_shift) ∧
    ComputeCanonicalRhs upper_bound bound_shift max_value ≤ max_value ∧
    (kint64max < upper_bound + bound_shift →
      ComputeCanonicalRhs upper_bound bound_shift max_value = max_value) ∧
    (upper_bound + bound_shift < kint64min →
      ComputeCanonicalRhs upper_bound bound_shift max_value = -1) := by
  have key : ∀ v : Int, 0 ≤ v → v ≤ max_value →
      (v ≤ ComputeCanonicalRhs upper_bound bound_shift max_value ↔
        v ≤ upper_bound + bound_shift) := by
    intro v hv0 hv
    unfold ComputeCanonicalRhs
    unfold IsInt64 kint64min kint64max at hub hs hm
    split
    · rename_i hnone
      have := SafeAddInto_eq_none hnone
      unfold IsInt64 kint64min kint64max at this
      split <;> omega
    · rename_i rhs hsome
      obtain ⟨hr, hin⟩ := SafeAddInto_eq_some hsome
      unfold IsInt64 kint64min kint64max at hin
      split <;> omega
  have hle : ComputeCanonicalRhs upper_bound bound_shift max_value ≤ max_value := by
    unfold ComputeCanonicalRhs
    split
    · split <;> omega
    · split <;> omega
  have hge : -1 ≤ ComputeCanonicalRhs upper_bound bound_shift max_value := by
    unfold ComputeCanonicalRhs
    split
    · split <;> omega
    · split <;> omega
  refine ⟨key, ?_, hle, ?_, ?_⟩
  · constructor
    · rintro h ⟨v, hv0, hv, hvle⟩
      have := (key v hv0 hv).2 hvle
      omega
    · intro h
      by_contra hne
      apply h
      refine ⟨0, le_refl 0, hm0, ?_⟩
      have := (key 0 (le_refl 0) hm0).1 (by omega)
      exact this
  · intro hov
    unfold ComputeCanonicalRhs
    unfold IsInt64 kint64min kint64max at hub hs hm
    unfold kint64max at hov
    split
    · split <;> omega
    · rename_i rhs hsome
      obtain ⟨hr, hin⟩ := SafeAddInto_eq_some hsome
      unfold IsInt64 kint64min kint64max at hin
      omega
  · intro hov
    unfold ComputeCanonicalRhs
    unfold IsInt64 kint64min kint64max at hub hs hm
    unfold kint64min at hov
    split
    · split <;> omega
    · rename_i rhs hsome
      obtain ⟨hr, hin⟩ := SafeAddInto_eq_some hsome
      unfold IsInt64 kint64min kint64max at hin
      omega

/-- Witness of `ComputeCanonicalRhs_spec`: the bound `x <= 3` shifted by `2` on an
expression of maximum `4`. -/
theorem ComputeCanonicalRhs_spec_witness :
    (∀ v : Int, 0 ≤ v → v ≤ 4 → (v ≤ ComputeCanonicalRhs 3 2 4 ↔ v ≤ 3 + 2)) ∧
    (ComputeCanonicalRhs 3 2 4 = -1 ↔ ¬ ∃ v : Int, 0 ≤ v ∧ v ≤ 4 ∧ v ≤ 3 + 2) ∧
    ComputeCanonicalRhs 3 2 4 ≤ 4 ∧
    (kint64max < 3 + 2 → ComputeCanonicalRhs 3 2 4 = 4) ∧
    (3 + 2 < kint64min → ComputeCanonicalRhs 3 2 4 = -1) :=
  ComputeCanonicalRhs_spec 3 2 4 (by decide) (by decide) (by decide) (by decide)

/-- C6 (`ComputeNegatedCanonicalRhs`).  For 64-bit `lower_bound`, `bound_shift`
and `max_value >= 0`: for a value `v` of the canonical expression,
`0 <= v <= max_value`, the negated expression `max_value - v` is at most the
returned rhs iff `v >= lower_bound + bound_shift` in unbounded integers; and
where the source computes `max_value - shifted_lb` the difference fits in an
`int64`, so the returned value is the exact difference. -/
theorem ComputeNegatedCanonicalRhs_spec (lower_bound bound_shift max_value : Int)
    (hlb : IsInt64 lower_bound) (hs : IsInt64 bound_shift) (hm : IsInt64 max_value)
    (hm0 : 0 ≤ max_value) :
    (∀ v : Int, 0 ≤ v → v ≤ max_value →
      (max_value - v ≤ ComputeNegatedCanonicalRhs lower_bound bound_shift max_value ↔
        lower_bound + bound_shift ≤ v)) ∧
    (∀ shifted_lb : Int, SafeAddInto bound_shift lower_bound = some shifted_lb →
      0 < shifted_lb →
      IsInt64 (max_value - shifted_lb) ∧
      ComputeNegatedCanonicalRhs lower_bound bound_shift max_value =
        max_value - shifted_lb) := by
  have exact : ∀ shifted_lb : Int, SafeAddInto bound_shift lower_bound = some shifted_lb →
      0 < shifted_lb →
      IsInt64 (max_value - shifted_lb) ∧
      ComputeNegatedCanonicalRhs lower_bound bound_shift max_value =
        max_value - shifted_lb := by
    intro slb hsome hpos
    obtain ⟨hr, hin⟩ := SafeAddInto_eq_some hsome
    have hrange : IsInt64 (max_value - slb) := by
      unfold IsInt64 kint64min kint64max at *
      omega
    refine ⟨hrange, ?_⟩
    unfold ComputeNegatedCanonicalRhs
    rw [hsome]
    simp only
    rw [if_neg (by omega)]
    exact wrap64_of_IsInt64 hrange
  refine ⟨?_, exact⟩
  intro v hv0 hv
  cases hsafe : SafeAddInto bound_shift lower_bound with
  | none =>
    have := SafeAddInto_eq_none hsafe
    unfold ComputeNegatedCanonicalRhs
    rw [hsafe]
    simp only
    unfold IsInt64 kint64min kint64max at *
    split <;> omega
  | some slb =>
    obtain ⟨hr, hin⟩ := SafeAddInto_eq_some hsafe
    by_cases hpos : 0 < slb
    · rw [(exact slb hsafe hpos).2]
      omega
    · unfold ComputeNegatedCanonicalRhs
      rw [hsafe]
      simp only
      rw [if_pos (by omega)]
      omega

/-- Witness of `ComputeNegatedCanonicalRhs_spec`: the clause bound `x >= 1` on an
expression of maximum `1`. -/
theorem ComputeNegatedCanonicalRhs_spec_witness :
    (∀ v : Int, 0 ≤ v → v ≤ 1 →
      (1 - v ≤ ComputeNegatedCanonicalRhs 1 0 1 ↔ 1 + 0 ≤ v)) ∧
    (∀ shifted_lb : Int, SafeAddInto 0 1 = some shifted_lb → 0 < shifted_lb →
      IsInt64 (1 - shifted_lb) ∧ ComputeNegatedCanonicalRhs 1 0 1 = 1 - shifted_lb) :=
  ComputeNegatedCanonicalRhs_spec 1 0 1 (by decide) (by decide) (by decide) (by decide)

theorem Literal.Variable_Negated (l : Literal) : l.Negated.Variable = l.Variable := by
  unfold Literal.Negated Literal.Variable
  split <;> simp <;> omega

theorem neg64_of_ne_min {c : Int} (h : IsInt64 c) (hne : c ≠ kint64min) : neg64 c = -c := by
  unfold neg64
  apply wrap64_of_IsInt64
  unfold IsInt64 kint64min kint64max at *
  omega

theorem neg64_min : neg64 kint64min = kint64min := by decide

theorem MergeInv.init : MergeInv ⟨[], none, 0⟩ where
  kept_sorted := by simp
  kept_lt := by simp
  kept_nil := by simp
  kept_ne := by simp
  kept_range := by simp
  rep_range := by simp

theorem mergeStep_inv {st st1 : MergeState} {current : LiteralWithCoeff}
    (hinv : MergeInv st)
    (hle : ∀ r, st.representative = some r → r.literal.index ≤ current.literal.index)
    (hrange : IsInt64 current.coefficient)
    (h : mergeStep st current = some st1) :
    MergeInv st1 ∧
      ∀ r, st1.representative = some r → r.literal.index ≤ current.literal.index := by
  unfold mergeStep at h
  split at h
  · cases h; exact ⟨hinv, hle⟩
  · split at h
    · rename_i hnone
      cases h
      have hk := hinv.kept_nil hnone
      refine ⟨⟨?_, ?_, ?_, ?_, ?_, ?_⟩, ?_⟩ <;> simp [hk, hrange]
    · rename_i rep hrep
      split at h
      · rename_i hvar
        split at h
        · split at h
          · simp at h
          · rename_i c hc
            cases h
            obtain ⟨-, hcr⟩ := SafeAddInto_eq_some hc
            refine ⟨⟨hinv.kept_sorted, ?_, ?_, hinv.kept_ne, hinv.kept_range, ?_⟩, ?_⟩
            · intro r hr t ht
              simp at hr; subst hr
              exact hinv.kept_lt rep hrep t ht
            · simp
            · intro r hr
              simp at hr; subst hr
              obtain ⟨hceq, hcr⟩ := SafeAddInto_eq_some hc
              simpa [hceq] using hcr
            · intro r hr
              simp at hr; subst hr
              exact hle rep hrep
        · split at h
          · simp at h
          · rename_i c hc
            split at h
            · simp at h
            · rename_i s hs
              cases h
              refine ⟨⟨hinv.kept_sorted, ?_, ?_, hinv.kept_ne, hinv.kept_range, ?_⟩, ?_⟩
              · intro r hr t ht
                simp at hr; subst hr
                exact hinv.kept_lt rep hrep t ht
              · simp
              · intro r hr
                simp at hr; subst hr
                obtain ⟨hceq, hcr⟩ := SafeAddInto_eq_some hc
                simpa [hceq] using hcr
              · intro r hr
                simp at hr; subst hr
                exact hle rep hrep
      · rename_i hvar
        cases h
        have hidx := hle rep hrep
        have hlt : rep.literal.Variable < current.literal.Variable := by
          unfold Literal.Variable at hvar ⊢
          omega
        refine ⟨⟨?_, ?_, ?_, ?_, ?_, ?_⟩, ?_⟩
        · show (List.map (fun t => t.literal.Variable)
            (if rep.coefficient = 0 then st.kept else st.kept ++ [rep])).Pairwise (· < ·)
          split
          · exact hinv.kept_sorted
          · rw [List.map_append, List.pairwise_append]
            refine ⟨hinv.kept_sorted, by simp, ?_⟩
            intro a ha b hb
            simp at hb; subst hb
            obtain ⟨t, ht, rfl⟩ := List.mem_map.1 ha
            exact hinv.kept_lt rep hrep t ht
        · intro r hr t ht
          simp at hr; subst hr
          have ht2 : t ∈ (if rep.coefficient = 0 then st.kept else st.kept ++ [rep]) := ht
          split at ht2
          · exact lt_trans (hinv.kept_lt rep hrep t ht2) hlt
          · rcases List.mem_append.1 ht2 with h1 | h1
            · exact lt_trans (hinv.kept_lt rep hrep t h1) hlt
            · simp at h1; rw [h1]; exact hlt
        · simp
        · intro t ht
          have ht2 : t ∈ (if rep.coefficient = 0 then st.kept else st.kept ++ [rep]) := ht
          split at ht2
          · exact hinv.kept_ne t ht2
          · rename_i hne
            rcases List.mem_append.1 ht2 with h1 | h1
            · exact hinv.kept_ne t h1
            · simp at h1; rw [h1]; exact hne
        · intro t ht
          have ht2 : t ∈ (if rep.coefficient = 0 then st.kept else st.kept ++ [rep]) := ht
          split at ht2
          · exact hinv.kept_range t ht2
          · rcases List.mem_append.1 ht2 with h1 | h1
            · exact hinv.kept_range t h1
            · simp at h1; rw [h1]; exact hinv.rep_range rep hrep
        · intro r hr
          simp at hr; subst hr
          exact hrange
        · intro r hr
          simp at hr; subst hr
          exact le_refl _

theorem mergeLoop_inv : ∀ (l : List LiteralWithCoeff) (st st1 : MergeState),
    MergeInv st →
    l.Sorted (NotAfter LiteralComparator) →
    (∀ r, st.representative = some r → ∀ c ∈ l, r.literal.index ≤ c.literal.index) →
    (∀ c ∈ l, IsInt64 c.coefficient) →
    mergeLoop l st = some st1 → MergeInv st1
  | [], st, st1, hinv, _, _, _, h => by
    simp [mergeLoop] at h; subst h; exact hinv
  | current :: rest, st, st1, hinv, hs, hle, hrange, h => by
    unfold mergeLoop at h
    split at h
    · simp at h
    · rename_i st2 hstep
      obtain ⟨hall, hs2⟩ := List.sorted_cons.1 hs
      obtain ⟨hinv2, hle2⟩ := mergeStep_inv hinv
        (fun r hr => hle r hr current (List.mem_cons_self _ _))
        (hrange current (List.mem_cons_self _ _)) hstep
      refine mergeLoop_inv rest st2 st1 hinv2 hs2 ?_
        (fun c hc => hrange c (List.mem_cons_of_mem _ hc)) h
      intro r hr c hc
      have h1 := hle2 r hr
      have h2 := hall c hc
      simp [NotAfter, LiteralComparator, Literal.Index] at h2
      omega

theorem MergeInv.terms_facts {st : MergeState} (hinv : MergeInv st) :
    (st.terms.map (fun t => t.literal.Variable)).Pairwise (· < ·) ∧
    (∀ t ∈ st.terms, t.coefficient ≠ 0) ∧ (∀ t ∈ st.terms, IsInt64 t.coefficient) := by
  unfold MergeState.terms
  split
  · exact ⟨hinv.kept_sorted, hinv.kept_ne, hinv.kept_range⟩
  · rename_i rep hrep
    split
    · exact ⟨hinv.kept_sorted, hinv.kept_ne, hinv.kept_range⟩
    · rename_i hne
      refine ⟨?_, ?_, ?_⟩
      · rw [List.map_append, List.pairwise_append]
        refine ⟨hinv.kept_sorted, by simp, ?_⟩
        intro a ha b hb
        simp at hb; subst hb
        obtain ⟨t, ht, rfl⟩ := List.mem_map.1 ha
        exact hinv.kept_lt rep hrep t ht
      · intro t ht
        rcases List.mem_append.1 ht with h1 | h1
        · exact hinv.kept_ne t h1
        · simp at h1; rw [h1]; exact hne
      · intro t ht
        rcases List.mem_append.1 ht with h1 | h1
        · exact hinv.kept_range t h1
        · simp at h1; rw [h1]; exact hinv.rep_range rep hrep

theorem positiveLoop_facts : ∀ (l : List LiteralWithCoeff) (s m : Int)
    (out : List LiteralWithCoeff) (s1 m1 : Int),
    positiveLoop l s m = some (out, s1, m1) →
    out.map (fun t => t.literal.Variable) = l.map (fun t => t.literal.Variable) ∧
    m1 = m + coefficientSum out ∧
    ((∀ t ∈ l, t.coefficient ≠ 0 ∧ IsInt64 t.coefficient ∧ t.coefficient ≠ kint64min) →
      ∀ t ∈ out, 0 < t.coefficient)
  | [], s, m, out, s1, m1, h => by
    simp [positiveLoop] at h
    obtain ⟨rfl, -, rfl⟩ := h
    simp [coefficientSum]
  | current :: rest, s, m, out, s1, m1, h => by
    unfold positiveLoop at h
    split at h
    · rename_i hneg
      split at h
      · simp at h
      · rename_i s2 hs2
        split at h
        · simp at h
        · rename_i m2 hm2
          split at h
          · simp at h
          · rename_i out2 s3 m3 hrec
            simp only [Option.some.injEq, Prod.mk.injEq] at h
            obtain ⟨rfl, rfl, rfl⟩ := h
            obtain ⟨hv, hm, hp⟩ := positiveLoop_facts rest s2 m2 out2 _ _ hrec
            obtain ⟨hm2eq, -⟩ := SafeAddInto_eq_some hm2
            refine ⟨?_, ?_, ?_⟩
            · simp [hv, Literal.Variable_Negated]
            · rw [hm, hm2eq]
              simp [coefficientSum]
              ring
            · intro hall t ht
              rcases List.mem_cons.1 ht with h1 | h1
              · subst h1
                obtain ⟨-, hr, hmin⟩ := hall current (List.mem_cons_self _ _)
                show 0 < neg64 current.coefficient
                rw [neg64_of_ne_min hr hmin]
                omega
              · exact hp (fun t ht => hall t (List.mem_cons_of_mem _ ht)) t h1
    · rename_i hneg
      split at h
      · simp at h
      · rename_i m2 hm2
        split at h
        · simp at h
        · rename_i out2 s3 m3 hrec
          simp only [Option.some.injEq, Prod.mk.injEq] at h
          obtain ⟨rfl, rfl, rfl⟩ := h
          obtain ⟨hv, hm, hp⟩ := positiveLoop_facts rest s m2 out2 _ _ hrec
          obtain ⟨hm2eq, -⟩ := SafeAddInto_eq_some hm2
          refine ⟨?_, ?_, ?_⟩
          · simp [hv]
          · rw [hm, hm2eq]
            simp [coefficientSum]
            ring
          · intro hall t ht
            rcases List.mem_cons.1 ht with h1 | h1
            · subst h1
              obtain ⟨hne, -, -⟩ := hall t (List.mem_cons_self _ _)
              omega
            · exact hp (fun t ht => hall t (List.mem_cons_of_mem _ ht)) t h1

theorem NotAfter_LiteralComparator_total (a b : LiteralWithCoeff) :
    NotAfter LiteralComparator a b ∨ NotAfter LiteralComparator b a := by
  simp [NotAfter, LiteralComparator]
  omega

theorem NotAfter_LiteralComparator_trans (a b c : LiteralWithCoeff)
    (h1 : NotAfter LiteralComparator a b) (h2 : NotAfter LiteralComparator b c) :
    NotAfter LiteralComparator a c := by
  simp [NotAfter, LiteralComparator] at *
  omega

theorem NotAfter_CoeffComparator_iff (a b : LiteralWithCoeff) :
    NotAfter CoeffComparator a b ↔
      a.coefficient < b.coefficient ∨
      (a.coefficient = b.coefficient ∧ a.literal.index ≤ b.literal.index) := by
  unfold NotAfter CoeffComparator Literal.Index
  split
  · rename_i h
    simp
    omega
  · rename_i h
    simp
    omega

theorem NotAfter_CoeffComparator_total (a b : LiteralWithCoeff) :
    NotAfter CoeffComparator a b ∨ NotAfter CoeffComparator b a := by
  simp only [NotAfter_CoeffComparator_iff]
  omega

theorem NotAfter_CoeffComparator_trans (a b c : LiteralWithCoeff)
    (h1 : NotAfter CoeffComparator a b) (h2 : NotAfter CoeffComparator b c) :
    NotAfter CoeffComparator a c := by
  simp only [NotAfter_CoeffComparator_iff] at *
  omega

theorem NotAfter_CoeffComparator_antisymm (a b : LiteralWithCoeff)
    (h1 : NotAfter CoeffComparator a b) (h2 : NotAfter CoeffComparator b a) : a = b := by
  simp only [NotAfter_CoeffComparator_iff] at *
  obtain ⟨⟨ia⟩, ca⟩ := a
  obtain ⟨⟨ib⟩, cb⟩ := b
  simp at *
  omega

theorem stdSort_perm (comp : LiteralWithCoeff → LiteralWithCoeff → Bool)
    (l : List LiteralWithCoeff) : (stdSort comp l).Perm l :=
  List.perm_insertionSort _ l

theorem stdSort_LiteralComparator_sorted (l : List LiteralWithCoeff) :
    (stdSort LiteralComparator l).Sorted (NotAfter LiteralComparator) := by
  haveI : IsTotal LiteralWithCoeff (NotAfter LiteralComparator) :=
    ⟨NotAfter_LiteralComparator_total⟩
  haveI : IsTrans LiteralWithCoeff (NotAfter LiteralComparator) :=
    ⟨NotAfter_LiteralComparator_trans⟩
  exact List.sorted_insertionSort _ l

theorem stdSort_CoeffComparator_sorted (l : List LiteralWithCoeff) :
    (stdSort CoeffComparator l).Sorted (NotAfter CoeffComparator) := by
  haveI : IsTotal LiteralWithCoeff (NotAfter CoeffComparator) :=
    ⟨NotAfter_CoeffComparator_total⟩
  haveI : IsTrans LiteralWithCoeff (NotAfter CoeffComparator) :=
    ⟨NotAfter_CoeffComparator_trans⟩
  exact List.sorted_insertionSort _ l

theorem coefficientSum_perm {l1 l2 : List LiteralWithCoeff} (h : l1.Perm l2) :
    coefficientSum l1 = coefficientSum l2 := by
  unfold coefficientSum
  exact (h.map _).sum_eq

theorem isCanonicalFrom_of_sorted : ∀ (l : List LiteralWithCoeff) (previous : Int),
    l.Sorted (fun a b => a.coefficient ≤ b.coefficient) →
    (∀ t ∈ l, previous ≤ t.coefficient) → isCanonicalFrom previous l = true
  | [], _, _, _ => by simp [isCanonicalFrom]
  | t :: rest, previous, hs, hall => by
    obtain ⟨h1, h2⟩ := List.sorted_cons.1 hs
    unfold isCanonicalFrom
    have := hall t (List.mem_cons_self _ _)
    rw [if_neg (by omega)]
    exact isCanonicalFrom_of_sorted rest t.coefficient h2 h1

/-- C2 (`ComputeBooleanLinearExpressionCanonicalForm`, output shape).  When the
function returns true on 64-bit coefficients and no overflow goes unnoticed,
that is no coefficient merged by the first loop is `kint64min` (the one value
whose unary minus in the second loop wraps; every addition is checked by
`SafeAddInto`), the output has at most one term per variable, every coefficient
is strictly positive, the terms are sorted by non-decreasing coefficient,
`BooleanLinearExpressionIsCanonical` holds on it, and `max_value` is the sum of
the output coefficients. -/
theorem canonicalForm_output_is_canonical (cst out : List LiteralWithCoeff)
    (bound_shift max_value : Int)
    (hrange : ∀ t ∈ cst, IsInt64 t.coefficient)
    (h : ComputeBooleanLinearExpressionCanonicalForm cst = some (out, bound_shift, max_value))
    (hexact : ∀ st, mergeLoop (stdSort LiteralComparator cst) ⟨[], none, 0⟩ = some st →
      ∀ t ∈ st.terms, t.coefficient ≠ kint64min) :
    (out.map (fun t => t.literal.Variable)).Nodup ∧
    (∀ t ∈ out, 0 < t.coefficient) ∧
    out.Sorted (fun a b => a.coefficient ≤ b.coefficient) ∧
    BooleanLinearExpressionIsCanonical out = true ∧
    max_value = coefficientSum out := by
  unfold ComputeBooleanLinearExpressionCanonicalForm canonicalFormOfSorted at h
  split at h
  · simp at h
  · rename_i st hst
    split at h
    · simp at h
    · rename_i out1 s1 m1 hpos
      simp only [Option.some.injEq, Prod.mk.injEq] at h
      obtain ⟨rfl, rfl, rfl⟩ := h
      have hinv : MergeInv st :=
        mergeLoop_inv _ _ _ MergeInv.init (stdSort_LiteralComparator_sorted cst)
          (by simp)
          (fun c hc => hrange c ((stdSort_perm _ cst).mem_iff.1 hc)) hst
      obtain ⟨hvars, hne, hrng⟩ := hinv.terms_facts
      obtain ⟨hv, hm, hp⟩ := positiveLoop_facts _ _ _ _ _ _ hpos
      have hperm := stdSort_perm CoeffComparator out1
      have hpos1 : ∀ t ∈ out1, 0 < t.coefficient :=
        hp (fun t ht => ⟨hne t ht, hrng t ht, hexact st hst t ht⟩)
      have hposout : ∀ t ∈ stdSort CoeffComparator out1, 0 < t.coefficient :=
        fun t ht => hpos1 t (hperm.mem_iff.1 ht)
      have hsorted : (stdSort CoeffComparator out1).Sorted
          (fun a b => a.coefficient ≤ b.coefficient) := by
        refine (stdSort_CoeffComparator_sorted out1).imp ?_
        intro a b hab
        rw [NotAfter_CoeffComparator_iff] at hab
        omega
      refine ⟨?_, hposout, hsorted, ?_, ?_⟩
      · rw [(hperm.map _).nodup_iff, hv]
        exact hvars.imp (fun hab => Nat.ne_of_lt hab)
      · exact isCanonicalFrom_of_sorted _ 1 hsorted (fun t ht => by
          have := hposout t ht
          omega)
      · rw [hm, coefficientSum_perm hperm]
        simp

/-- Witness of `canonicalForm_output_is_canonical`: `3 x0 + 5 (not x0) - 2 x2 + 2 x0
+ x4 + (not x4) + x5`. -/
theorem canonicalForm_output_is_canonical_witness :
    (([⟨⟨5⟩, 2⟩, ⟨⟨10⟩, 3⟩] : List LiteralWithCoeff).map
        (fun t => t.literal.Variable)).Nodup ∧
    (∀ t ∈ ([⟨⟨5⟩, 2⟩, ⟨⟨10⟩, 3⟩] : List LiteralWithCoeff), 0 < t.coefficient) ∧
    ([⟨⟨5⟩, 2⟩, ⟨⟨10⟩, 3⟩] : List LiteralWithCoeff).Sorted
      (fun a b => a.coefficient ≤ b.coefficient) ∧
    BooleanLinearExpressionIsCanonical [⟨⟨5⟩, 2⟩, ⟨⟨10⟩, 3⟩] = true ∧
    (5 : Int) = coefficientSum [⟨⟨5⟩, 2⟩, ⟨⟨10⟩, 3⟩] :=
  canonicalForm_output_is_canonical
    [⟨⟨0⟩, 3⟩, ⟨⟨1⟩, 5⟩, ⟨⟨4⟩, -2⟩, ⟨⟨0⟩, 2⟩, ⟨⟨7⟩, 0⟩, ⟨⟨9⟩, 1⟩, ⟨⟨8⟩, 1⟩, ⟨⟨10⟩, 3⟩]
    [⟨⟨5⟩, 2⟩, ⟨⟨10⟩, 3⟩] (-4) 5 (by decide) (by decide) (by decide)

theorem mergeLoop_of_distinct : ∀ (l : List LiteralWithCoeff) (st : MergeState),
    (∀ c ∈ l, c.coefficient ≠ 0) →
    (l.map (fun t => t.literal.Variable)).Nodup →
    (∀ r, st.representative = some r →
      r.coefficient ≠ 0 ∧ ∀ c ∈ l, c.literal.Variable ≠ r.literal.Variable) →
    ∃ st1, mergeLoop l st = some st1 ∧ st1.terms = st.terms ++ l ∧
      st1.bound_shift = st.bound_shift
  | [], st, _, _, _ => ⟨st, by simp [mergeLoop]⟩
  | current :: rest, st, hne, hnodup, hrep => by
    have hc := hne current (List.mem_cons_self _ _)
    rw [List.map_cons, List.nodup_cons] at hnodup
    obtain ⟨hnotin, hnodup2⟩ := hnodup
    have hrest : ∀ c ∈ rest, c.literal.Variable ≠ current.literal.Variable := by
      intro c hcm heq
      exact hnotin (List.mem_map.2 ⟨c, hcm, heq⟩)
    cases hr : st.representative with
    | none =>
      have hstep : mergeStep st current = some { st with representative := some current } := by
        unfold mergeStep
        rw [if_neg hc, hr]
      obtain ⟨st1, h1, h2, h3⟩ := mergeLoop_of_distinct rest
        { st with representative := some current }
        (fun c hcm => hne c (List.mem_cons_of_mem _ hcm)) hnodup2
        (by
          intro r hr2
          simp at hr2; subst hr2
          exact ⟨hc, hrest⟩)
      refine ⟨st1, ?_, ?_, h3⟩
      · unfold mergeLoop
        rw [hstep]
        exact h1
      · rw [h2]
        simp [MergeState.terms, hr, hc]
    | some rep =>
      obtain ⟨hrne, hrvar⟩ := hrep rep hr
      have hvar := hrvar current (List.mem_cons_self _ _)
      have hstep : mergeStep st current =
          some { kept := st.kept ++ [rep], representative := some current,
                 bound_shift := st.bound_shift } := by
        unfold mergeStep
        rw [if_neg hc, hr]
        simp only
        rw [if_neg hvar, if_neg hrne]
      obtain ⟨st1, h1, h2, h3⟩ := mergeLoop_of_distinct rest
        { kept := st.kept ++ [rep], representative := some current,
          bound_shift := st.bound_shift }
        (fun c hcm => hne c (List.mem_cons_of_mem _ hcm)) hnodup2
        (by
          intro r hr2
          simp at hr2; subst hr2
          exact ⟨hc, hrest⟩)
      refine ⟨st1, ?_, ?_, h3⟩
      · unfold mergeLoop
        rw [hstep]
        exact h1
      · rw [h2]
        simp [MergeState.terms, hr, hc, hrne]

theorem coefficientSum_nonneg : ∀ (l : List LiteralWithCoeff),
    (∀ t ∈ l, 0 < t.coefficient) → 0 ≤ coefficientSum l
  | [], _ => by simp [coefficientSum]
  | t :: rest, h => by
    have h1 := h t (List.mem_cons_self _ _)
    have h2 := coefficientSum_nonneg rest (fun t ht => h t (List.mem_cons_of_mem _ ht))
    simp [coefficientSum] at *
    omega

theorem positiveLoop_of_positive : ∀ (l : List LiteralWithCoeff) (s m : Int),
    (∀ t ∈ l, 0 < t.coefficient) → 0 ≤ m → m + coefficientSum l ≤ kint64max →
    positiveLoop l s m = some (l, s, m + coefficientSum l)
  | [], s, m, _, _, _ => by simp [positiveLoop, coefficientSum]
  | t :: rest, s, m, hpos, hm, hsum => by
    have h1 := hpos t (List.mem_cons_self _ _)
    have hrest : ∀ t ∈ rest, 0 < t.coefficient :=
      fun t ht => hpos t (List.mem_cons_of_mem _ ht)
    have h2 := coefficientSum_nonneg rest hrest
    have hcs : coefficientSum (t :: rest) = t.coefficient + coefficientSum rest := by
      simp [coefficientSum]
    rw [hcs] at hsum
    have hsafe : SafeAddInto t.coefficient m = some (t.coefficient + m) := by
      unfold SafeAddInto
      rw [if_pos]
      unfold IsInt64 kint64min kint64max at *
      omega
    unfold positiveLoop
    rw [if_neg (by omega), hsafe]
    simp only
    rw [positiveLoop_of_positive rest s (t.coefficient + m) hrest (by omega) (by omega)]
    simp only [hcs]
    congr 3
    ring

/-- C3, as the code has it (`ComputeBooleanLinearExpressionCanonicalForm` on
canonical input).  A term list with at most one term per variable, positive
coefficients, sorted the way `CoeffComparator` sorts (by coefficient, terms of
equal coefficient by literal index) and whose coefficients sum to at most
`kint64max` is returned unchanged, with `bound_shift = 0` and `max_value` the
sum of the coefficients. -/
theorem canonicalForm_of_canonical (cst : List LiteralWithCoeff)
    (hvars : (cst.map (fun t => t.literal.Variable)).Nodup)
    (hpos : ∀ t ∈ cst, 0 < t.coefficient)
    (hsorted : cst.Sorted (NotAfter CoeffComparator))
    (hsum : coefficientSum cst ≤ kint64max) :
    ComputeBooleanLinearExpressionCanonicalForm cst = some (cst, 0, coefficientSum cst) := by
  have hperm := stdSort_perm LiteralComparator cst
  obtain ⟨st1, h1, h2, h3⟩ := mergeLoop_of_distinct (stdSort LiteralComparator cst)
    ⟨[], none, 0⟩
    (fun c hc => by
      have := hpos c (hperm.mem_iff.1 hc)
      omega)
    (((hperm.map _).nodup_iff).2 hvars)
    (by simp)
  have hterms : st1.terms = stdSort LiteralComparator cst := by
    rw [h2]; simp [MergeState.terms]
  have hshift : st1.bound_shift = 0 := h3
  have hloop := positiveLoop_of_positive (stdSort LiteralComparator cst) 0 0
    (fun t ht => hpos t (hperm.mem_iff.1 ht)) (le_refl 0)
    (by rw [coefficientSum_perm hperm]; omega)
  have hfinal : stdSort CoeffComparator (stdSort LiteralComparator cst) = cst := by
    haveI : IsAntisymm LiteralWithCoeff (NotAfter CoeffComparator) :=
      ⟨NotAfter_CoeffComparator_antisymm⟩
    exact List.eq_of_perm_of_sorted ((stdSort_perm CoeffComparator _).trans hperm)
      (stdSort_CoeffComparator_sorted _) hsorted
  unfold ComputeBooleanLinearExpressionCanonicalForm canonicalFormOfSorted
  rw [h1]
  simp only
  rw [hterms, hshift, hloop]
  simp only
  rw [hfinal, coefficientSum_perm hperm]
  simp

/-- Witness of `canonicalForm_of_canonical`: `x0 + x1 + 2 (not x2)`. -/
theorem canonicalForm_of_canonical_witness :
    ComputeBooleanLinearExpressionCanonicalForm [⟨⟨0⟩, 1⟩, ⟨⟨2⟩, 1⟩, ⟨⟨5⟩, 2⟩] =
      some ([⟨⟨0⟩, 1⟩, ⟨⟨2⟩, 1⟩, ⟨⟨5⟩, 2⟩], 0,
        coefficientSum [⟨⟨0⟩, 1⟩, ⟨⟨2⟩, 1⟩, ⟨⟨5⟩, 2⟩]) :=
  canonicalForm_of_canonical [⟨⟨0⟩, 1⟩, ⟨⟨2⟩, 1⟩, ⟨⟨5⟩, 2⟩]
    (by decide) (by decide) (by decide) (by decide)

/-- C3, counterexample to the claim as written.  Both lists have one term per
variable, positive coefficients and are sorted ascending by coefficient.  The
first, `x1 + x0`, is returned reordered as `x0 + x1`; on the second,
`kint64max x0 + kint64max x1`, the function returns false because `max_value`
overflows. -/
theorem canonicalForm_of_canonical_counterexample :
    ((([⟨⟨2⟩, 1⟩, ⟨⟨0⟩, 1⟩] : List LiteralWithCoeff).map
        (fun t => t.literal.Variable)).Nodup ∧
      (∀ t ∈ ([⟨⟨2⟩, 1⟩, ⟨⟨0⟩, 1⟩] : List LiteralWithCoeff), 0 < t.coefficient) ∧
      ([⟨⟨2⟩, 1⟩, ⟨⟨0⟩, 1⟩] : List LiteralWithCoeff).Sorted
        (fun a b => a.coefficient ≤ b.coefficient) ∧
      ComputeBooleanLinearExpressionCanonicalForm [⟨⟨2⟩, 1⟩, ⟨⟨0⟩, 1⟩] =
        some ([⟨⟨0⟩, 1⟩, ⟨⟨2⟩, 1⟩], 0, 2) ∧
      ([⟨⟨0⟩, 1⟩, ⟨⟨2⟩, 1⟩] : List LiteralWithCoeff) ≠ [⟨⟨2⟩, 1⟩, ⟨⟨0⟩, 1⟩]) ∧
    ((([⟨⟨0⟩, kint64max⟩, ⟨⟨2⟩, kint64max⟩] : List LiteralWithCoeff).map
        (fun t => t.literal.Variable)).Nodup ∧
      (∀ t ∈ ([⟨⟨0⟩, kint64max⟩, ⟨⟨2⟩, kint64max⟩] : List LiteralWithCoeff),
        0 < t.coefficient) ∧
      ([⟨⟨0⟩, kint64max⟩, ⟨⟨2⟩, kint64max⟩] : List LiteralWithCoeff).Sorted
        (fun a b => a.coefficient ≤ b.coefficient) ∧
      ComputeBooleanLinearExpressionCanonicalForm
        [⟨⟨0⟩, kint64max⟩, ⟨⟨2⟩, kint64max⟩] = none) := by
  decide

/-- C1, the code at the failing input.  On the single term `kint64min * x0` the
function returns true with the term `kint64min * (not x0)` and
`bound_shift = kint64min`; under the assignment `x0 = true` the input
expression is worth `kint64min` while the output expression minus the bound
shift is worth `2^63`. -/
theorem canonicalForm_value_at_int64min :
    ComputeBooleanLinearExpressionCanonicalForm [⟨⟨0⟩, kint64min⟩] =
      some ([⟨⟨1⟩, kint64min⟩], kint64min, kint64min) ∧
    expressionValue (fun _ => true) [⟨⟨0⟩, kint64min⟩] = kint64min ∧
    expressionValue (fun _ => true) [⟨⟨1⟩, kint64min⟩] - kint64min =
      9223372036854775808 := by
  decide

/-- C4, the code at the failing input.  On the 64-bit input `-2^62 * x0 - 2^62 * x0`
no `SafeAddInto` fails and the function returns true, but the merged coefficient
`kint64min` is negated by an unchecked unary minus: the output coefficient and
`max_value` are `kint64min`, both negative, where unbounded arithmetic gives
`2^63`. -/
theorem canonicalForm_wraps_at_int64min :
    IsInt64 (-4611686018427387904) ∧
    ComputeBooleanLinearExpressionCanonicalForm
        [⟨⟨0⟩, -4611686018427387904⟩, ⟨⟨0⟩, -4611686018427387904⟩] =
      some ([⟨⟨1⟩, kint64min⟩], kint64min, kint64min) ∧
    kint64min < 0 := by
  decide

theorem Literal.Negated_ne (l : Literal) : l.Negated ≠ l := by
  obtain ⟨i⟩ := l
  unfold Literal.Negated
  by_cases h : i % 2 = 0
  · simp [h]
  · simp [h]
    omega

theorem Literal.Negated_Negated (l : Literal) : l.Negated.Negated = l := by
  obtain ⟨i⟩ := l
  unfold Literal.Negated
  by_cases h : i % 2 = 0
  · have h2 : ¬ (i + 1) % 2 = 0 := by omega
    simp [h, h2]
  · have h2 : (i - 1) % 2 = 0 := by omega
    simp [h, h2]
    omega

theorem IsInt64_one : IsInt64 1 := by decide

theorem canonicalForm_single (l : Literal) :
    ComputeBooleanLinearExpressionCanonicalForm [⟨l, 1⟩] = some ([⟨l, 1⟩], 0, 1) := by
  simp [ComputeBooleanLinearExpressionCanonicalForm, canonicalFormOfSorted, stdSort,
    mergeLoop, mergeStep, MergeState.terms, positiveLoop, SafeAddInto, IsInt64_one]

theorem canonicalForm_nil :
    ComputeBooleanLinearExpressionCanonicalForm [] = some ([], 0, 0) := by
  decide

theorem PropagateOnFalse_of_no_watcher (w : LiteralWatchers) (heap : ClauseHeap)
    (l : Literal) (trail : Trail) (hw : w.watchers_on_false_ = []) :
    w.PropagateOnFalse heap l trail = (true, w, heap, trail) := by
  obtain ⟨wl, a, b, c⟩ := w
  simp at hw
  subst hw
  simp [LiteralWatchers.PropagateOnFalse, inspectWatchers]

theorem propagateClausesLoop_of_no_watcher : ∀ (k fuel : Nat) (s : SatSolver),
    s.watched_clauses_.watchers_on_false_ = [] →
    s.propagation_trail_index_ + k = s.trail_.Index → k < fuel →
    propagateClausesLoop s.trail_.Index fuel s =
      Except.ok (true, { s with propagation_trail_index_ := s.trail_.Index })
  | _, 0, _, _, _, hf => absurd hf (Nat.not_lt_zero _)
  | 0, fuel + 1, s, _, hk, _ => by
    have h : s.propagation_trail_index_ = s.trail_.Index := by omega
    unfold propagateClausesLoop
    rw [if_neg (by omega)]
    conv_rhs => rw [← h]
  | k + 1, fuel + 1, s, hw, hk, hf => by
    unfold propagateClausesLoop
    rw [if_pos ⟨rfl, by omega⟩]
    simp only [PropagateOnFalse_of_no_watcher _ _ _ _ hw]
    have := propagateClausesLoop_of_no_watcher k fuel
      { s with propagation_trail_index_ := s.propagation_trail_index_ + 1 } hw
      (by simp; omega) (by omega)
    simpa using this

theorem symmetry_PropagateNext_of_no_permutation (sp : SymmetryPropagator) (trail : Trail)
    (h : sp.permutations_ = []) :
    sp.PropagateNext trail =
      (true, { sp with propagation_trail_index_ := sp.propagation_trail_index_ + 1 }, trail) := by
  simp [SymmetryPropagator.PropagateNext, h, findNonSymmetric]

theorem propagateSymmetryLoop_of_no_permutation : ∀ (k fuel : Nat) (s : SatSolver),
    s.symmetry_propagator_.permutations_ = [] →
    s.symmetry_propagator_.propagation_trail_index_ + k = s.trail_.Index → k < fuel →
    propagateSymmetryLoop s.trail_.Index fuel s =
      Except.ok (true, { s with symmetry_propagator_ :=
        { s.symmetry_propagator_ with propagation_trail_index_ := s.trail_.Index } })
  | _, 0, _, _, _, hf => absurd hf (Nat.not_lt_zero _)
  | 0, fuel + 1, s, _, hk, _ => by
    have h : s.symmetry_propagator_.propagation_trail_index_ = s.trail_.Index := by omega
    unfold propagateSymmetryLoop
    rw [if_neg (by simp [SymmetryPropagator.PropagationNeeded]; omega)]
    conv_rhs => rw [← h]
  | k + 1, fuel + 1, s, hp, hk, hf => by
    unfold propagateSymmetryLoop
    rw [if_pos ⟨rfl, by simp [SymmetryPropagator.PropagationNeeded]; omega⟩]
    simp only [symmetry_PropagateNext_of_no_permutation _ _ hp]
    have := propagateSymmetryLoop_of_no_permutation k fuel
      { s with symmetry_propagator_ := { s.symmetry_propagator_ with
          propagation_trail_index_ := s.symmetry_propagator_.propagation_trail_index_ + 1 } }
      hp (by simp; omega) (by omega)
    simpa using this

theorem pb_PropagateNext_of_no_update (pb : PbConstraints) (trail : Trail)
    (h : pb.to_update_ = []) :
    pb.PropagateNext trail =
      (true, { pb with propagation_trail_index_ := pb.propagation_trail_index_ + 1 }, trail) := by
  obtain ⟨a, b, c, d, e, f, g⟩ := pb
  simp at h
  subst h
  simp [PbConstraints.PropagateNext, propagateNextLoop]

theorem propagatePbLoop_of_no_update : ∀ (k fuel : Nat) (s : SatSolver),
    s.pb_constraints_.to_update_ = [] →
    s.pb_constraints_.propagation_trail_index_ + k = s.trail_.Index → k < fuel →
    propagatePbLoop s.trail_.Index fuel s =
      Except.ok (true, { s with pb_constraints_ :=
        { s.pb_constraints_ with propagation_trail_index_ := s.trail_.Index } })
  | _, 0, _, _, _, hf => absurd hf (Nat.not_lt_zero _)
  | 0, fuel + 1, s, _, hk, _ => by
    have h : s.pb_constraints_.propagation_trail_index_ = s.trail_.Index := by omega
    unfold propagatePbLoop
    rw [if_neg (by simp [PbConstraints.PropagationNeeded]; omega)]
    conv_rhs => rw [← h]
  | k + 1, fuel + 1, s, hp, hk, hf => by
    unfold propagatePbLoop
    rw [if_pos ⟨rfl, by simp [PbConstraints.PropagationNeeded]; omega⟩]
    simp only [pb_PropagateNext_of_no_update _ _ hp]
    have := propagatePbLoop_of_no_update k fuel
      { s with pb_constraints_ := { s.pb_constraints_ with
          propagation_trail_index_ := s.pb_constraints_.propagation_trail_index_ + 1 } }
      hp (by simp; omega) (by omega)
    simpa using this

/-- On a state without constraints `Propagate` returns true as soon as the fuel
exceeds the number of trail entries still to process; it only moves the
cursors to the end of the trail. -/
theorem Propagate_of_no_constraint (fuel : Nat) (s : SatSolver) (h : s.HasNoConstraint)
    (h1 : s.propagation_trail_index_ ≤ s.trail_.Index)
    (h2 : s.symmetry_propagator_.propagation_trail_index_ ≤ s.trail_.Index)
    (h3 : s.pb_constraints_.propagation_trail_index_ ≤ s.trail_.Index)
    (hfuel : s.trail_.Index < fuel) :
    s.Propagate fuel = Except.ok (true, s.caughtUp) := by
  obtain ⟨hb, hw, hs, hp⟩ := h
  cases fuel with
  | zero => omega
  | succ fuel =>
    unfold SatSolver.Propagate
    simp only [BinaryImplicationGraph.NumberOfImplications, hb, ne_eq, not_true_eq_false,
      if_false]
    rw [propagateClausesLoop_of_no_watcher (s.trail_.Index - s.propagation_trail_index_)
      (fuel + 1) s hw (by omega) (by omega)]
    simp only [gt_iff_lt, lt_self_iff_false, if_false]
    have e2 := propagateSymmetryLoop_of_no_permutation
      (s.trail_.Index - s.symmetry_propagator_.propagation_trail_index_) (fuel + 1)
      { s with propagation_trail_index_ := s.trail_.Index } hs (by simp; omega) (by omega)
    simp only at e2
    rw [e2]
    simp only [gt_iff_lt, lt_self_iff_false, if_false]
    have e3 := propagatePbLoop_of_no_update
      (s.trail_.Index - s.pb_constraints_.propagation_trail_index_) (fuel + 1)
      { s with propagation_trail_index_ := s.trail_.Index,
               symmetry_propagator_ := { s.symmetry_propagator_ with
                 propagation_trail_index_ := s.trail_.Index } }
      hp (by simp; omega) (by omega)
    simp only at e3
    rw [e3]
    simp [SatSolver.caughtUp]

theorem CreateRootResolutionNode_frame (s : SatSolver) :
    s.CreateRootResolutionNode.2.trail_ = s.trail_ ∧
    s.CreateRootResolutionNode.2.current_decision_level_ = s.current_decision_level_ ∧
    s.CreateRootResolutionNode.2.is_model_unsat_ = s.is_model_unsat_ ∧
    s.CreateRootResolutionNode.2.propagation_trail_index_ = s.propagation_trail_index_ ∧
    s.CreateRootResolutionNode.2.symmetry_propagator_ = s.symmetry_propagator_ ∧
    s.CreateRootResolutionNode.2.pb_constraints_ = s.pb_constraints_ ∧
    s.CreateRootResolutionNode.2.watched_clauses_ = s.watched_clauses_ ∧
    s.CreateRootResolutionNode.2.binary_implication_graph_ = s.binary_implication_graph_ := by
  unfold SatSolver.CreateRootResolutionNode
  split <;> simp

/-- Adding through `AddProblemClause` a unit clause whose literal is already
false at level 0 returns false and marks the model unsatisfiable, with
`unsat_proof` on or off. -/
theorem AddProblemClause_false_literal (fuel : Nat) (s : SatSolver) (l : Literal)
    (hlevel : s.current_decision_level_ = 0) (hfalse : s.trail_.IsLiteralFalse l = true) :
    ∃ s1, s.AddProblemClause fuel [l] = Except.ok (false, s1) ∧ s1.is_model_unsat_ = true := by
  have hr0 : ComputeNegatedCanonicalRhs 1 0 0 = -1 := by decide
  have hr1 : ComputeNegatedCanonicalRhs 1 0 1 = 0 := by decide
  have hadd : SafeAddInto 0 0 = some 0 := by decide
  have hsub : sub64 1 1 = 0 := by decide
  unfold SatSolver.AddProblemClause SatSolver.AddLinearConstraint
  simp only [SatSolver.CurrentDecisionLevel, hlevel, ne_eq, not_true_eq_false, if_false,
    List.map_cons, List.map_nil]
  cases hproof : s.parameters_.unsat_proof with
  | false =>
    simp [removeAssignedLiterals, hfalse, canonicalForm_nil, hadd, hr0,
      SatSolver.AddLinearConstraintInternal, SatSolver.ModelUnsat]
  | true =>
    obtain ⟨ht, hl, -⟩ := CreateRootResolutionNode_frame s
    simp [canonicalForm_single, hadd, hr1, SatSolver.AddLinearConstraintInternal, hsub,
      SatSolver.AddProblemClauseInternal, SatSolver.CurrentDecisionLevel, hl, hlevel, ht,
      Literal.Negated_Negated, hfalse, SatSolver.ModelUnsat]

theorem Trail.IsLiteralTrue_Enqueue (t : Trail) (l : Literal) (info : AssignmentInfo) :
    (t.Enqueue l info).IsLiteralTrue l = true := by
  simp [Trail.Enqueue, Trail.IsLiteralTrue]

theorem Trail.Index_Enqueue (t : Trail) (l : Literal) (info : AssignmentInfo) :
    (t.Enqueue l info).Index = t.Index + 1 := by
  simp [Trail.Enqueue, Trail.Index]

/-- Adding through `AddProblemClause` a unit clause whose literal is unassigned,
at level 0 on a solver without constraints: the call returns true as soon as the
fuel exceeds the length of the trail by two, the literal is true afterwards, and
the level and the model-unsat flag are unchanged. -/
theorem AddProblemClause_unassigned_literal (fuel : Nat) (s : SatSolver) (l : Literal)
    (hlevel : s.current_decision_level_ = 0) (hnc : s.HasNoConstraint)
    (h1 : s.propagation_trail_index_ ≤ s.trail_.Index)
    (h2 : s.symmetry_propagator_.propagation_trail_index_ ≤ s.trail_.Index)
    (h3 : s.pb_constraints_.propagation_trail_index_ ≤ s.trail_.Index)
    (hfuel : s.trail_.Index + 1 < fuel)
    (hfalse : s.trail_.IsLiteralFalse l = false) (htrue : s.trail_.IsLiteralTrue l = false) :
    ∃ s1, s.AddProblemClause fuel [l] = Except.ok (true, s1) ∧
      s1.current_decision_level_ = 0 ∧ s1.trail_.IsLiteralTrue l = true ∧
      s1.is_model_unsat_ = s.is_model_unsat_ := by
  have hr1 : ComputeNegatedCanonicalRhs 1 0 1 = 0 := by decide
  have hadd : SafeAddInto 0 0 = some 0 := by decide
  have hsub : sub64 1 1 = 0 := by decide
  obtain ⟨ht, hl, hu, hc1, hc2, hc3, hw, hb⟩ := CreateRootResolutionNode_frame s
  obtain ⟨nb, nw, ns, np⟩ := hnc
  have hremove : (if (!s.parameters_.unsat_proof) = true then
      removeAssignedLiterals s.trail_ [⟨l, 1⟩] 0 else some ([⟨l, 1⟩], 0)) =
      some ([⟨l, 1⟩], 0) := by
    split
    · simp [removeAssignedLiterals, hfalse, htrue]
    · rfl
  have hprop := Propagate_of_no_constraint fuel
    { s.CreateRootResolutionNode.2 with
      trail_ := (s.CreateRootResolutionNode.2.trail_.EnqueueWithUnitReason l
        s.CreateRootResolutionNode.1),
      num_constraints_ := s.CreateRootResolutionNode.2.num_constraints_ + 1 }
    (by simp [SatSolver.HasNoConstraint, hb, hw, hc2, hc3, nb, nw, ns, np])
    (by simp [Trail.EnqueueWithUnitReason, Trail.Index_Enqueue, hc1, ht]; omega)
    (by simp [Trail.EnqueueWithUnitReason, Trail.Index_Enqueue, hc2, ht]; omega)
    (by simp [Trail.EnqueueWithUnitReason, Trail.Index_Enqueue, hc3, ht]; omega)
    (by simp [Trail.EnqueueWithUnitReason, Trail.Index_Enqueue, ht]; omega)
  refine ⟨SatSolver.caughtUp { s.CreateRootResolutionNode.2 with
      trail_ := (s.CreateRootResolutionNode.2.trail_.EnqueueWithUnitReason l
        s.CreateRootResolutionNode.1),
      num_constraints_ := s.CreateRootResolutionNode.2.num_constraints_ + 1 }, ?_, ?_⟩
  · unfold SatSolver.AddProblemClause SatSolver.AddLinearConstraint
    simp only [SatSolver.CurrentDecisionLevel, hlevel, ne_eq, not_true_eq_false, if_false,
      List.map_cons, List.map_nil, hremove]
    simp [canonicalForm_single, hadd, hr1, SatSolver.AddLinearConstraintInternal, hsub,
      SatSolver.AddProblemClauseInternal, SatSolver.CurrentDecisionLevel, hl, hlevel, ht,
      Literal.Negated_Negated, hfalse, htrue]
    simp only [hl, hlevel, ht] at hprop
    rw [hprop]
  · simp [SatSolver.caughtUp, hl, hlevel, hu, Trail.EnqueueWithUnitReason,
      Trail.IsLiteralTrue_Enqueue]

theorem propagateBinaryLoop_flag : ∀ (fuel : Nat) (s s1 : SatSolver) (r : Bool),
    propagateBinaryLoop fuel s = Except.ok (r, s1) → s1.is_model_unsat_ = s.is_model_unsat_
  | 0, _, _, _, h => by simp [propagateBinaryLoop] at h
  | fuel + 1, s, s1, r, h => by
    unfold propagateBinaryLoop at h
    split at h
    · dsimp only at h
      split at h
      · have := propagateBinaryLoop_flag fuel _ s1 r h
        simpa using this
      · simp only [Except.ok.injEq, Prod.mk.injEq] at h
        obtain ⟨-, rfl⟩ := h
        rfl
    · simp only [Except.ok.injEq, Prod.mk.injEq] at h
      obtain ⟨-, rfl⟩ := h
      rfl

theorem propagateClausesLoop_flag (old_index : Nat) : ∀ (fuel : Nat) (s s1 : SatSolver)
    (r : Bool),
    propagateClausesLoop old_index fuel s = Except.ok (r, s1) →
    s1.is_model_unsat_ = s.is_model_unsat_
  | 0, _, _, _, h => by simp [propagateClausesLoop] at h
  | fuel + 1, s, s1, r, h => by
    unfold propagateClausesLoop at h
    split at h
    · dsimp only at h
      split at h
      · have := propagateClausesLoop_flag old_index fuel _ s1 r h
        simpa using this
      · simp only [Except.ok.injEq, Prod.mk.injEq] at h
        obtain ⟨-, rfl⟩ := h
        rfl
    · simp only [Except.ok.injEq, Prod.mk.injEq] at h
      obtain ⟨-, rfl⟩ := h
      rfl

theorem propagateSymmetryLoop_flag (old_index : Nat) : ∀ (fuel : Nat) (s s1 : SatSolver)
    (r : Bool),
    propagateSymmetryLoop old_index fuel s = Except.ok (r, s1) →
    s1.is_model_unsat_ = s.is_model_unsat_
  | 0, _, _, _, h => by simp [propagateSymmetryLoop] at h
  | fuel + 1, s, s1, r, h => by
    unfold propagateSymmetryLoop at h
    split at h
    · split at h
      rename_i ok sp trail hp
      split at h
      · have := propagateSymmetryLoop_flag old_index fuel _ s1 r h
        simpa using this
      · simp only [Except.ok.injEq, Prod.mk.injEq] at h
        obtain ⟨-, rfl⟩ := h
        rfl
    · simp only [Except.ok.injEq, Prod.mk.injEq] at h
      obtain ⟨-, rfl⟩ := h
      rfl

theorem propagatePbLoop_flag (old_index : Nat) : ∀ (fuel : Nat) (s s1 : SatSolver)
    (r : Bool),
    propagatePbLoop old_index fuel s = Except.ok (r, s1) →
    s1.is_model_unsat_ = s.is_model_unsat_
  | 0, _, _, _, h => by simp [propagatePbLoop] at h
  | fuel + 1, s, s1, r, h => by
    unfold propagatePbLoop at h
    split at h
    · split at h
      rename_i ok pb trail hp
      split at h
      · have := propagatePbLoop_flag old_index fuel _ s1 r h
        simpa using this
      · simp only [Except.ok.injEq, Prod.mk.injEq] at h
        obtain ⟨-, rfl⟩ := h
        rfl
    · simp only [Except.ok.injEq, Prod.mk.injEq] at h
      obtain ⟨-, rfl⟩ := h
      rfl

/-- The method `Propagate` does not write the model-unsat flag. -/
theorem Propagate_flag : ∀ (fuel : Nat) (s s1 : SatSolver) (r : Bool),
    s.Propagate fuel = Except.ok (r, s1) → s1.is_model_unsat_ = s.is_model_unsat_
  | 0, _, _, _, h => by simp [SatSolver.Propagate] at h
  | fuel + 1, s, s1, r, h => by
    unfold SatSolver.Propagate at h
    have hbin : ∀ (rb : Bool) (sb : SatSolver),
        (if s.binary_implication_graph_.NumberOfImplications ≠ 0 then
          propagateBinaryLoop (fuel + 1) s else Except.ok (true, s)) = Except.ok (rb, sb) →
        sb.is_model_unsat_ = s.is_model_unsat_ := by
      intro rb sb hb
      split at hb
      · exact propagateBinaryLoop_flag _ _ _ _ hb
      · simp only [Except.ok.injEq, Prod.mk.injEq] at hb
        obtain ⟨-, rfl⟩ := hb
        rfl
    split at h
    · simp at h
    · rename_i sb hb
      simp only [Except.ok.injEq, Prod.mk.injEq] at h
      obtain ⟨-, rfl⟩ := h
      exact hbin _ _ hb
    · rename_i sb hb
      have e1 := hbin _ _ hb
      dsimp only at h
      split at h
      · simp at h
      · rename_i sc hc
        simp only [Except.ok.injEq, Prod.mk.injEq] at h
        obtain ⟨-, rfl⟩ := h
        exact (propagateClausesLoop_flag _ _ _ _ _ hc).trans e1
      · rename_i sc hc
        have e2 := (propagateClausesLoop_flag _ _ _ _ _ hc).trans e1
        split at h
        · exact (Propagate_flag fuel _ _ _ h).trans e2
        · split at h
          · simp at h
          · rename_i sd hd
            simp only [Except.ok.injEq, Prod.mk.injEq] at h
            obtain ⟨-, rfl⟩ := h
            exact (propagateSymmetryLoop_flag _ _ _ _ _ hd).trans e2
          · rename_i sd hd
            have e3 := (propagateSymmetryLoop_flag _ _ _ _ _ hd).trans e2
            split at h
            · exact (Propagate_flag fuel _ _ _ h).trans e3
            · split at h
              · simp at h
              · rename_i se he
                simp only [Except.ok.injEq, Prod.mk.injEq] at h
                obtain ⟨-, rfl⟩ := h
                exact (propagatePbLoop_flag _ _ _ _ _ he).trans e3
              · rename_i se he
                have e4 := (propagatePbLoop_flag _ _ _ _ _ he).trans e3
                split at h
                · exact (Propagate_flag fuel _ _ _ h).trans e4
                · simp only [Except.ok.injEq, Prod.mk.injEq] at h
                  obtain ⟨-, rfl⟩ := h
                  exact e4

theorem unlockIfNotNull_flag (s : SatSolver) (node : ResolutionNodePointer) :
    (s.unlockIfNotNull node).is_model_unsat_ = s.is_model_unsat_ := by
  unfold SatSolver.unlockIfNotNull
  split <;> rfl

theorem AddProblemClauseInternal_flag (s s1 : SatSolver) (literals : List Literal)
    (node : ResolutionNodePointer) (r : Bool)
    (h : s.AddProblemClauseInternal literals node = Except.ok (r, s1))
    (hflag : s.is_model_unsat_ = true) : s1.is_model_unsat_ = true := by
  unfold SatSolver.AddProblemClauseInternal at h
  split at h
  · simp at h
  · split at h
    · simp at h
    · split at h
      · simp only [Except.ok.injEq, Prod.mk.injEq] at h
        obtain ⟨-, rfl⟩ := h
        rw [unlockIfNotNull_flag]; exact hflag
      · split at h
        · simp only [Except.ok.injEq, Prod.mk.injEq] at h
          obtain ⟨-, rfl⟩ := h
          rw [unlockIfNotNull_flag]; exact hflag
        · simp only [Except.ok.injEq, Prod.mk.injEq] at h
          obtain ⟨-, rfl⟩ := h
          exact hflag
    · dsimp only at h
      split at h
      · simp only [Except.ok.injEq, Prod.mk.injEq] at h
        obtain ⟨-, rfl⟩ := h
        exact hflag
      · split at h
        · simp only [SatSolver.ModelUnsat, Except.ok.injEq, Prod.mk.injEq] at h
          obtain ⟨-, rfl⟩ := h
          rfl
        · simp only [Except.ok.injEq, Prod.mk.injEq] at h
          obtain ⟨-, rfl⟩ := h
          exact hflag

theorem AddLinearConstraintInternal_flag (s s1 : SatSolver) (cst : List LiteralWithCoeff)
    (rhs max_value : Int) (r : Bool)
    (h : s.AddLinearConstraintInternal cst rhs max_value = Except.ok (r, s1))
    (hflag : s.is_model_unsat_ = true) : s1.is_model_unsat_ = true := by
  unfold SatSolver.AddLinearConstraintInternal at h
  split at h
  · simp only [SatSolver.ModelUnsat, Except.ok.injEq, Prod.mk.injEq] at h
    obtain ⟨-, rfl⟩ := h
    rfl
  · split at h
    · simp only [Except.ok.injEq, Prod.mk.injEq] at h
      obtain ⟨-, rfl⟩ := h
      exact hflag
    · have hc := (CreateRootResolutionNode_frame s).2.2.1
      generalize s.CreateRootResolutionNode = created at h hc
      obtain ⟨node, sc⟩ := created
      dsimp only at h hc
      split at h
      · exact AddProblemClauseInternal_flag _ _ _ _ _ h (hc.trans hflag)
      · split at h <;>
        · simp only [Except.ok.injEq, Prod.mk.injEq] at h
          obtain ⟨-, rfl⟩ := h
          exact hc.trans hflag

theorem optional_AddLinearConstraintInternal_flag (s s1 : SatSolver) (b : Bool)
    (cst : List LiteralWithCoeff) (rhs max_value : Int) (r : Bool)
    (h : (if b = true then s.AddLinearConstraintInternal cst rhs max_value
          else Except.ok (true, s)) = Except.ok (r, s1))
    (hflag : s.is_model_unsat_ = true) : s1.is_model_unsat_ = true := by
  split at h
  · exact AddLinearConstraintInternal_flag _ _ _ _ _ _ h hflag
  · simp only [Except.ok.injEq, Prod.mk.injEq] at h
    obtain ⟨-, rfl⟩ := h
    exact hflag

theorem AddLinearConstraint_flag (fuel : Nat) (s s1 : SatSolver) (use_lower_bound : Bool)
    (lower_bound : Int) (use_upper_bound : Bool) (upper_bound : Int)
    (cst : List LiteralWithCoeff) (r : Bool)
    (h : s.AddLinearConstraint fuel use_lower_bound lower_bound use_upper_bound upper_bound cst =
      Except.ok (r, s1))
    (hflag : s.is_model_unsat_ = true) : s1.is_model_unsat_ = true := by
  unfold SatSolver.AddLinearConstraint at h
  split at h
  · simp at h
  · split at h
    · simp at h
    · split at h
      · simp at h
      · split at h
        · simp at h
        · split at h
          · simp at h
          · simp only [SatSolver.ModelUnsat, Except.ok.injEq, Prod.mk.injEq] at h
            obtain ⟨-, rfl⟩ := h
            rfl
          · rename_i su hu
            have hsu := optional_AddLinearConstraintInternal_flag _ _ _ _ _ _ _ hu hflag
            split at h
            · simp at h
            · simp only [SatSolver.ModelUnsat, Except.ok.injEq, Prod.mk.injEq] at h
              obtain ⟨-, rfl⟩ := h
              rfl
            · rename_i sl hl
              have hsl := optional_AddLinearConstraintInternal_flag _ _ _ _ _ _ _ hl hsu
              split at h
              · simp at h
              · simp only [SatSolver.ModelUnsat, Except.ok.injEq, Prod.mk.injEq] at h
                obtain ⟨-, rfl⟩ := h
                rfl
              · rename_i sp hp
                simp only [Except.ok.injEq, Prod.mk.injEq] at h
                obtain ⟨-, rfl⟩ := h
                exact (Propagate_flag _ _ _ _ hp).trans hsl

theorem AddUnitClause_flag (fuel : Nat) (s s1 : SatSolver) (l : Literal) (r : Bool)
    (h : s.AddUnitClause fuel l = Except.ok (r, s1))
    (hflag : s.is_model_unsat_ = true) : s1.is_model_unsat_ = true := by
  unfold SatSolver.AddUnitClause at h
  split at h
  · simp at h
  · split at h
    · simp only [Except.ok.injEq, Prod.mk.injEq] at h
      obtain ⟨-, rfl⟩ := h
      exact hflag
    · split at h
      · simp only [Except.ok.injEq, Prod.mk.injEq] at h
        obtain ⟨-, rfl⟩ := h
        exact hflag
      · have hc := (CreateRootResolutionNode_frame s).2.2.1
        generalize s.CreateRootResolutionNode = created at h hc
        obtain ⟨node, sc⟩ := created
        dsimp only at h hc
        split at h
        · simp at h
        · simp only [SatSolver.ModelUnsat, Except.ok.injEq, Prod.mk.injEq] at h
          obtain ⟨-, rfl⟩ := h
          rfl
        · rename_i sp hp
          simp only [Except.ok.injEq, Prod.mk.injEq] at h
          obtain ⟨-, rfl⟩ := h
          exact (Propagate_flag _ _ _ _ hp).trans (hc.trans hflag)

/-- C7 (`CanonicalBooleanLinearProblem::AddConstraint` and
`SatSolver::AddLinearConstraintInternal` on trivial constraints).  For a
constraint of positive coefficients with `max_value` their sum: when `rhs < 0`
both functions return false, the first leaving its store as it is and the second
setting the model-unsat flag and nothing else; when `rhs >= max_value` both
return true and the whole state is unchanged, so no constraint is stored. -/
theorem AddConstraint_trivial_cases (p : CanonicalBooleanLinearProblem) (s : SatSolver)
    (cst : List LiteralWithCoeff) (max_value rhs : Int)
    (hpos : ∀ t ∈ cst, 0 < t.coefficient) (hmax : max_value = coefficientSum cst) :
    (rhs < 0 →
      p.AddConstraint cst max_value rhs = (false, p) ∧
      s.AddLinearConstraintInternal cst rhs max_value =
        Except.ok (false, { s with is_model_unsat_ := true })) ∧
    (rhs ≥ max_value →
      p.AddConstraint cst max_value rhs = (true, p) ∧
      s.AddLinearConstraintInternal cst rhs max_value = Except.ok (true, s)) := by
  have hnonneg : 0 ≤ max_value := hmax ▸ coefficientSum_nonneg cst hpos
  constructor
  · intro hneg
    simp [CanonicalBooleanLinearProblem.AddConstraint, SatSolver.AddLinearConstraintInternal,
      SatSolver.ModelUnsat, hneg]
  · intro hge
    have hneg : ¬ rhs < 0 := by omega
    simp [CanonicalBooleanLinearProblem.AddConstraint, SatSolver.AddLinearConstraintInternal,
      hneg, hge]

/-- Witness of `AddConstraint_trivial_cases`: the constraint `x0 + 2 x1` on an empty
problem and a new solver. -/
theorem AddConstraint_trivial_cases_witness :
    ((-1 : Int) < 0 →
      (⟨[], []⟩ : CanonicalBooleanLinearProblem).AddConstraint
          [⟨⟨0⟩, 1⟩, ⟨⟨2⟩, 2⟩] 3 (-1) = (false, ⟨[], []⟩) ∧
      (SatSolver.Create ⟨false, true, kint64max⟩).AddLinearConstraintInternal
          [⟨⟨0⟩, 1⟩, ⟨⟨2⟩, 2⟩] (-1) 3 =
        Except.ok (false, { SatSolver.Create ⟨false, true, kint64max⟩ with
          is_model_unsat_ := true })) ∧
    ((-1 : Int) ≥ 3 →
      (⟨[], []⟩ : CanonicalBooleanLinearProblem).AddConstraint
          [⟨⟨0⟩, 1⟩, ⟨⟨2⟩, 2⟩] 3 (-1) = (true, ⟨[], []⟩) ∧
      (SatSolver.Create ⟨false, true, kint64max⟩).AddLinearConstraintInternal
          [⟨⟨0⟩, 1⟩, ⟨⟨2⟩, 2⟩] (-1) 3 =
        Except.ok (true, SatSolver.Create ⟨false, true, kint64max⟩)) :=
  AddConstraint_trivial_cases ⟨[], []⟩ (SatSolver.Create ⟨false, true, kint64max⟩)
    [⟨⟨0⟩, 1⟩, ⟨⟨2⟩, 2⟩] 3 (-1) (by decide) (by decide)

/-- C8 (unit clauses `x` and `not x` through `AddProblemClause`).  On a newly
constructed solver with `n` variables, whatever its parameters (`unsat_proof` on
or off), for a variable `x < n`: `AddProblemClause({x})` returns true, the
following `AddProblemClause({not x})` returns false and leaves the model-unsat
flag set, so that every `Solve()` afterwards answers MODEL_UNSAT at once.  Fuel
`2` is enough for the propagation loops. -/
theorem AddProblemClause_x_then_not_x (parameters : SatParameters) (n x fuel : Nat)
    (hx : x < n) (hfuel : 2 ≤ fuel) :
    ∃ s0 s1 s2 : SatSolver,
      (SatSolver.Create parameters).SetNumVariables n = Except.ok s0 ∧
      s0.CurrentDecisionLevel = 0 ∧
      s0.trail_.IsVariableAssigned x = false ∧
      s0.AddProblemClause fuel [⟨2 * x⟩] = Except.ok (true, s1) ∧
      s1.AddProblemClause fuel [(⟨2 * x⟩ : Literal).Negated] = Except.ok (false, s2) ∧
      s2.is_model_unsat_ = true ∧
      ∀ (env : SolveEnvironment) (fuel1 : Nat),
        s2.Solve env fuel1 = Except.ok (Status.MODEL_UNSAT, s2) := by
  have hx0 : x < n := hx
  have hs0 : (SatSolver.Create parameters).SetNumVariables n =
      Except.ok { SatSolver.Create parameters with
        num_variables_ := n,
        decisions_ := List.replicate n ⟨0, ⟨0⟩⟩ } := by
    simp [SatSolver.SetNumVariables, SatSolver.Create]
  obtain ⟨s1, h1, hl1, ht1, -⟩ := AddProblemClause_unassigned_literal fuel
    { SatSolver.Create parameters with
      num_variables_ := n, decisions_ := List.replicate n ⟨0, ⟨0⟩⟩ } ⟨2 * x⟩
    rfl (by simp [SatSolver.HasNoConstraint, SatSolver.Create])
    (by simp [SatSolver.Create]) (by simp [SatSolver.Create]) (by simp [SatSolver.Create])
    (by simp [SatSolver.Create, Trail.empty, Trail.Index]; omega)
    (by simp [SatSolver.Create, Trail.empty, Trail.IsLiteralFalse])
    (by simp [SatSolver.Create, Trail.empty, Trail.IsLiteralTrue])
  obtain ⟨s2, h2, hf2⟩ := AddProblemClause_false_literal fuel s1 (⟨2 * x⟩ : Literal).Negated hl1
    (by simpa [Trail.IsLiteralFalse, Trail.IsLiteralTrue, Literal.Negated_Negated] using ht1)
  refine ⟨_, s1, s2, hs0, rfl, ?_, h1, h2, hf2, ?_⟩
  · simp [SatSolver.Create, Trail.empty, Trail.IsVariableAssigned]
  · intro env fuel1
    simp [SatSolver.Solve, hf2]

/-- Witness of `AddProblemClause_x_then_not_x`: variable 1 of a solver with three
variables, proof logging on. -/
theorem AddProblemClause_x_then_not_x_witness :
    ∃ s0 s1 s2 : SatSolver,
      (SatSolver.Create ⟨true, true, kint64max⟩).SetNumVariables 3 = Except.ok s0 ∧
      s0.CurrentDecisionLevel = 0 ∧
      s0.trail_.IsVariableAssigned 1 = false ∧
      s0.AddProblemClause 2 [⟨2 * 1⟩] = Except.ok (true, s1) ∧
      s1.AddProblemClause 2 [(⟨2 * 1⟩ : Literal).Negated] = Except.ok (false, s2) ∧
      s2.is_model_unsat_ = true ∧
      ∀ (env : SolveEnvironment) (fuel1 : Nat),
        s2.Solve env fuel1 = Except.ok (Status.MODEL_UNSAT, s2) :=
  AddProblemClause_x_then_not_x ⟨true, true, kint64max⟩ 3 1 2 (by decide) (by decide)

/-- C9, the code at the failing input.  On a new solver with one variable,
`AddUnitClause(x0)` returns true; `AddUnitClause(not x0)` then returns false but
leaves the state as it is, the model-unsat flag still false; a `Solve()` whose
limits are not reached then finds the trail full and answers MODEL_SAT. -/
theorem AddUnitClause_false_literal_not_marked :
    ∃ s0 s1 : SatSolver,
      (SatSolver.Create ⟨false, true, kint64max⟩).SetNumVariables 1 = Except.ok s0 ∧
      s0.AddUnitClause 2 ⟨0⟩ = Except.ok (true, s1) ∧
      s1.trail_.IsLiteralFalse ⟨1⟩ = true ∧
      s1.AddUnitClause 2 ⟨1⟩ = Except.ok (false, s1) ∧
      s1.is_model_unsat_ = false ∧
      ∀ (should_restart : Nat → Bool) (next_branch : Nat → SatSolver → Literal)
        (process_newly_fixed_variables : SatSolver → Except Abort SatSolver)
        (minimize_conflict : SatSolver → FirstUIPState → List Literal × List Literal)
        (add_learned_clause : Nat → Nat → SatSolver → List Literal → ResolutionNodePointer →
          Except Abort SatSolver),
        s1.Solve ⟨fun _ => false, fun _ => false, should_restart, next_branch,
            process_newly_fixed_variables, minimize_conflict, add_learned_clause⟩ 1 =
          Except.ok (Status.MODEL_SAT, s1) := by
  refine ⟨_, _, rfl, rfl, ?_, ?_, ?_, ?_⟩
  · decide
  · rfl
  · rfl
  · intro should_restart next_branch process_newly_fixed_variables minimize_conflict
      add_learned_clause
    rfl

/-- C10 (the model-unsat flag is terminal).  Once `is_model_unsat_` is set, `Solve()`
returns MODEL_UNSAT at once, without using any fuel and whatever the clock, the
memory meter and the search step are, and leaves the whole solver state (trail,
decision level, counters) unchanged; and none of the solver operations listed
in `Operation`, run by `SatSolver.run`, clears the flag when it returns. -/
theorem model_unsat_is_terminal (s : SatSolver) (hflag : s.is_model_unsat_ = true) :
    (∀ (env : SolveEnvironment) (fuel : Nat),
      s.Solve env fuel = Except.ok (Status.MODEL_UNSAT, s)) ∧
    (∀ (env : SolveEnvironment) (fuel : Nat) (op : Operation) (s1 : SatSolver),
      s.run env fuel op = Except.ok s1 → s1.is_model_unsat_ = true) := by
  constructor
  · intro env fuel
    simp [SatSolver.Solve, hflag]
  · intro env fuel op s1 h
    cases op with
    | SetNumVariables num_variables =>
      simp only [SatSolver.run, SatSolver.SetNumVariables] at h
      split at h
      · simp at h
      · simp only [Except.ok.injEq] at h
        subst h
        exact hflag
    | SetParameters parameters =>
      simp only [SatSolver.run, SatSolver.SetParameters, Except.ok.injEq] at h
      subst h
      exact hflag
    | ModelUnsat =>
      simp only [SatSolver.run, SatSolver.ModelUnsat, Except.ok.injEq] at h
      subst h
      rfl
    | AddUnitClause true_literal =>
      simp only [SatSolver.run] at h
      cases hr : s.AddUnitClause fuel true_literal with
      | error e => simp [hr, Except.map] at h
      | ok res =>
        obtain ⟨r, s2⟩ := res
        simp only [hr, Except.map, Except.ok.injEq] at h
        subst h
        exact AddUnitClause_flag _ _ _ _ _ hr hflag
    | AddProblemClause literals =>
      simp only [SatSolver.run] at h
      cases hr : s.AddProblemClause fuel literals with
      | error e => simp [hr, Except.map] at h
      | ok res =>
        obtain ⟨r, s2⟩ := res
        simp only [hr, Except.map, Except.ok.injEq] at h
        subst h
        exact AddLinearConstraint_flag _ _ _ _ _ _ _ _ _ hr hflag
    | AddLinearConstraint use_lower_bound lower_bound use_upper_bound upper_bound cst =>
      simp only [SatSolver.run] at h
      cases hr : s.AddLinearConstraint fuel use_lower_bound lower_bound use_upper_bound
          upper_bound cst with
      | error e => simp [hr, Except.map] at h
      | ok res =>
        obtain ⟨r, s2⟩ := res
        simp only [hr, Except.map, Except.ok.injEq] at h
        subst h
        exact AddLinearConstraint_flag _ _ _ _ _ _ _ _ _ hr hflag
    | Propagate =>
      simp only [SatSolver.run] at h
      cases hr : s.Propagate fuel with
      | error e => simp [hr, Except.map] at h
      | ok res =>
        obtain ⟨r, s2⟩ := res
        simp only [hr, Except.map, Except.ok.injEq] at h
        subst h
        exact (Propagate_flag _ _ _ _ hr).trans hflag
    | NewDecision literal =>
      simp only [SatSolver.run, SatSolver.NewDecision, Except.ok.injEq] at h
      subst h
      exact hflag
    | Backtrack target_level =>
      simp only [SatSolver.run, Except.ok.injEq] at h
      subst h
      unfold SatSolver.Backtrack
      split
      · exact hflag
      · exact hflag
    | TreatCurrentDecisionsAsAssumption =>
      simp only [SatSolver.run, SatSolver.TreatCurrentDecisionsAsAssumption,
        Except.ok.injEq] at h
      subst h
      exact hflag
    | Solve =>
      simp only [SatSolver.run, SatSolver.Solve, hflag, if_true, Except.map,
        Except.ok.injEq] at h
      subst h
      exact hflag

/-- Witness of `model_unsat_is_terminal`: a new solver on which `ModelUnsat()` was
called. -/
theorem model_unsat_is_terminal_witness :
    (∀ (env : SolveEnvironment) (fuel : Nat),
      (SatSolver.Create ⟨false, true, kint64max⟩).ModelUnsat.2.Solve env fuel =
        Except.ok (Status.MODEL_UNSAT, (SatSolver.Create ⟨false, true, kint64max⟩).ModelUnsat.2)) ∧
    (∀ (env : SolveEnvironment) (fuel : Nat) (op : Operation) (s1 : SatSolver),
      (SatSolver.Create ⟨false, true, kint64max⟩).ModelUnsat.2.run env fuel op = Except.ok s1 →
      s1.is_model_unsat_ = true) :=
  model_unsat_is_terminal (SatSolver.Create ⟨false, true, kint64max⟩).ModelUnsat.2 rfl

theorem literalValue_complement (a : Assignment) (l1 l2 : Literal)
    (hvar : l1.Variable = l2.Variable) (hne : l1 ≠ l2) :
    literalValue a l1 = 1 - literalValue a l2 := by
  obtain ⟨i⟩ := l1
  obtain ⟨j⟩ := l2
  have hij : i ≠ j := fun h => hne (by rw [h])
  unfold Literal.Variable at hvar
  simp only at hvar
  have hpar : (i % 2 = 0) ↔ ¬ (j % 2 = 0) := by omega
  unfold literalValue Literal.Variable Literal.IsPositive
  simp only [hvar]
  by_cases hj : j % 2 = 0
  · have hi : ¬ i % 2 = 0 := fun h => (hpar.1 h) hj
    cases hb : a (j / 2) <;> simp [hj, hi]
  · have hi : i % 2 = 0 := hpar.2 hj
    cases hb : a (j / 2) <;> simp [hj, hi]

theorem literalValue_Negated (a : Assignment) (l : Literal) :
    literalValue a l.Negated = 1 - literalValue a l :=
  literalValue_complement a l.Negated l (Literal.Variable_Negated l) (Literal.Negated_ne l)

/-- The value that the first loop of the canonicalization keeps: the value of the
terms kept and of the representative, minus the bound shift. -/
theorem expressionValue_terms (a : Assignment) (st : MergeState) :
    expressionValue a st.terms =
      expressionValue a st.kept +
        (match st.representative with
          | none => 0
          | some rep => rep.coefficient * literalValue a rep.literal) := by
  unfold MergeState.terms
  split
  · simp
  · rename_i rep hrep
    split
    · rename_i h0
      simp [h0]
    · simp [expressionValue]

theorem mergeStep_value (a : Assignment) {st st1 : MergeState} {current : LiteralWithCoeff}
    (hrange : IsInt64 current.coefficient) (hmin : current.coefficient ≠ kint64min)
    (h : mergeStep st current = some st1) :
    expressionValue a st1.terms - st1.bound_shift =
      expressionValue a st.terms - st.bound_shift +
        current.coefficient * literalValue a current.literal := by
  rw [expressionValue_terms, expressionValue_terms]
  unfold mergeStep at h
  split at h
  · rename_i h0
    cases h
    simp [h0]
  · split at h
    · rename_i hnone
      cases h
      simp [hnone]
      ring
    · rename_i rep hrep
      split at h
      · rename_i hvar
        split at h
        · rename_i hlit
          split at h
          · simp at h
          · rename_i c hc
            cases h
            obtain ⟨hceq, -⟩ := SafeAddInto_eq_some hc
            simp only [hrep, hceq, hlit]
            ring
        · rename_i hlit
          split at h
          · simp at h
          · rename_i c hc
            split at h
            · simp at h
            · rename_i s hs
              cases h
              obtain ⟨hceq, -⟩ := SafeAddInto_eq_some hc
              obtain ⟨hseq, -⟩ := SafeAddInto_eq_some hs
              simp only [hrep, hceq, hseq, neg64_of_ne_min hrange hmin,
                literalValue_complement a current.literal rep.literal hvar hlit]
              ring
      · cases h
        simp only [hrep]
        split
        · rename_i h0
          simp [h0]
          ring
        · simp [expressionValue]
          ring

theorem mergeLoop_value (a : Assignment) : ∀ (l : List LiteralWithCoeff) (st st1 : MergeState),
    (∀ c ∈ l, IsInt64 c.coefficient ∧ c.coefficient ≠ kint64min) →
    mergeLoop l st = some st1 →
    expressionValue a st1.terms - st1.bound_shift =
      expressionValue a st.terms - st.bound_shift + expressionValue a l
  | [], st, st1, _, h => by
    simp [mergeLoop] at h
    subst h
    simp [expressionValue]
  | current :: rest, st, st1, hall, h => by
    unfold mergeLoop at h
    split at h
    · simp at h
    · rename_i st2 hstep
      obtain ⟨hr, hm⟩ := hall current (List.mem_cons_self _ _)
      rw [mergeLoop_value a rest st2 st1 (fun c hc => hall c (List.mem_cons_of_mem _ hc)) h,
        mergeStep_value a hr hm hstep]
      simp [expressionValue]
      ring

theorem positiveLoop_value (a : Assignment) : ∀ (l : List LiteralWithCoeff) (s m : Int)
    (out : List LiteralWithCoeff) (s1 m1 : Int),
    (∀ t ∈ l, IsInt64 t.coefficient ∧ t.coefficient ≠ kint64min) →
    positiveLoop l s m = some (out, s1, m1) →
    expressionValue a out - s1 = expressionValue a l - s
  | [], s, m, out, s1, m1, _, h => by
    simp [positiveLoop] at h
    obtain ⟨rfl, rfl, -⟩ := h
    rfl
  | current :: rest, s, m, out, s1, m1, hall, h => by
    obtain ⟨hr, hm⟩ := hall current (List.mem_cons_self _ _)
    have hrest : ∀ t ∈ rest, IsInt64 t.coefficient ∧ t.coefficient ≠ kint64min :=
      fun t ht => hall t (List.mem_cons_of_mem _ ht)
    unfold positiveLoop at h
    split at h
    · split at h
      · simp at h
      · rename_i s2 hs2
        split at h
        · simp at h
        · rename_i m2 hm2
          split at h
          · simp at h
          · rename_i out2 s3 m3 hrec
            simp only [Option.some.injEq, Prod.mk.injEq] at h
            obtain ⟨rfl, rfl, rfl⟩ := h
            have ih := positiveLoop_value a rest s2 m2 out2 _ _ hrest hrec
            obtain ⟨hs2eq, -⟩ := SafeAddInto_eq_some hs2
            rw [hs2eq, neg64_of_ne_min hr hm] at ih
            simp only [expressionValue, List.map_cons, List.sum_cons,
              neg64_of_ne_min hr hm, literalValue_Negated] at ih ⊢
            linarith
    · split at h
      · simp at h
      · rename_i m2 hm2
        split at h
        · simp at h
        · rename_i out2 s3 m3 hrec
          simp only [Option.some.injEq, Prod.mk.injEq] at h
          obtain ⟨rfl, rfl, rfl⟩ := h
          have ih := positiveLoop_value a rest s m2 out2 _ _ hrest hrec
          simp only [expressionValue, List.map_cons, List.sum_cons] at ih ⊢
          linarith

theorem expressionValue_perm (a : Assignment) {l1 l2 : List LiteralWithCoeff}
    (h : l1.Perm l2) : expressionValue a l1 = expressionValue a l2 := by
  unfold expressionValue
  exact (h.map _).sum_eq

/-- The property of C1 where the code computes it: when the function returns
true on 64-bit coefficients and no unary minus wraps (no input coefficient and
no coefficient merged by the first loop is `kint64min`), the input expression is
worth, under every assignment, the output expression minus `bound_shift`. -/
theorem canonicalForm_value_of_exact (cst out : List LiteralWithCoeff)
    (bound_shift max_value : Int)
    (hrange : ∀ t ∈ cst, IsInt64 t.coefficient ∧ t.coefficient ≠ kint64min)
    (h : ComputeBooleanLinearExpressionCanonicalForm cst = some (out, bound_shift, max_value))
    (hexact : ∀ st, mergeLoop (stdSort LiteralComparator cst) ⟨[], none, 0⟩ = some st →
      ∀ t ∈ st.terms, t.coefficient ≠ kint64min)
    (a : Assignment) :
    expressionValue a cst = expressionValue a out - bound_shift := by
  unfold ComputeBooleanLinearExpressionCanonicalForm canonicalFormOfSorted at h
  split at h
  · simp at h
  · rename_i st hst
    split at h
    · simp at h
    · rename_i out1 s1 m1 hpos
      simp only [Option.some.injEq, Prod.mk.injEq] at h
      obtain ⟨rfl, rfl, rfl⟩ := h
      have hperm := stdSort_perm LiteralComparator cst
      have hsorted_range : ∀ c ∈ stdSort LiteralComparator cst,
          IsInt64 c.coefficient ∧ c.coefficient ≠ kint64min :=
        fun c hc => hrange c (hperm.mem_iff.1 hc)
      have hinv : MergeInv st :=
        mergeLoop_inv _ _ _ MergeInv.init (stdSort_LiteralComparator_sorted cst)
          (by simp) (fun c hc => (hsorted_range c hc).1) hst
      have hmerge := mergeLoop_value a _ _ _ hsorted_range hst
      have hloop := positiveLoop_value a _ _ _ _ _ _
        (fun t ht => ⟨hinv.terms_facts.2.2 t ht, hexact st hst t ht⟩) hpos
      rw [expressionValue_perm a (stdSort_perm CoeffComparator out1), hloop, hmerge,
        expressionValue_perm a hperm]
      simp [MergeState.terms, expressionValue]

/-- Witness of `canonicalForm_value_of_exact`: `3 x0 + 5 (not x0) - 2 x2` under the
assignment that makes every variable true. -/
theorem canonicalForm_value_of_exact_witness :
    expressionValue (fun _ => true) [⟨⟨0⟩, 3⟩, ⟨⟨1⟩, 5⟩, ⟨⟨4⟩, -2⟩] =
      expressionValue (fun _ => true) [⟨⟨1⟩, 2⟩, ⟨⟨5⟩, 2⟩] - (-1) :=
  canonicalForm_value_of_exact [⟨⟨0⟩, 3⟩, ⟨⟨1⟩, 5⟩, ⟨⟨4⟩, -2⟩] [⟨⟨1⟩, 2⟩, ⟨⟨5⟩, 2⟩] (-1) 4
    (by decide) (by decide) (by decide) (fun _ => true)

theorem foldl_max_level_ge (f : Literal → Nat) : ∀ (l : List Literal) (acc : Nat),
    acc ≤ l.foldl (fun b x => max b (f x)) acc ∧
    ∀ x ∈ l, f x ≤ l.foldl (fun b x => max b (f x)) acc
  | [], acc => by simp
  | y :: rest, acc => by
    obtain ⟨h1, h2⟩ := foldl_max_level_ge f rest (max acc (f y))
    refine ⟨le_trans (le_max_left _ _) h1, ?_⟩
    intro x hx
    rcases List.mem_cons.1 hx with rfl | hx
    · exact le_trans (le_max_right _ _) h1
    · exact h2 x hx

theorem foldl_max_level_attained (f : Literal → Nat) : ∀ (l : List Literal) (acc : Nat),
    l.foldl (fun b x => max b (f x)) acc = acc ∨
    ∃ x ∈ l, f x = l.foldl (fun b x => max b (f x)) acc
  | [], acc => by simp
  | y :: rest, acc => by
    rcases foldl_max_level_attained f rest (max acc (f y)) with h | ⟨x, hx, h⟩
    · rcases le_total acc (f y) with hle | hle
      · right
        refine ⟨y, List.mem_cons_self _ _, ?_⟩
        simp only [List.foldl_cons]
        rw [h, max_eq_right hle]
      · left
        simp only [List.foldl_cons]
        rw [h, max_eq_left hle]
    · right
      exact ⟨x, List.mem_cons_of_mem _ hx, h⟩

/-- C18 (backtrack level).  For a clause that satisfies `IsConflictValid`,
`ComputeBacktrackLevel` returns an upper bound of the decision levels of the
literals after the first one; when there is such a literal the bound is the
level of one of them and is strictly lower than the level of the first
literal; for a clause of size 1 it returns 0, which is strictly lower than the
level of the first literal as soon as that level is not 0. -/
theorem ComputeBacktrackLevel_spec (s : SatSolver) (first : Literal) (rest : List Literal)
    (hvalid : s.IsConflictValid (first :: rest) = true) :
    (∀ literal ∈ rest,
      s.DecisionLevel literal.Variable ≤ s.ComputeBacktrackLevel (first :: rest)) ∧
    (rest ≠ [] →
      (∃ literal ∈ rest,
        s.DecisionLevel literal.Variable = s.ComputeBacktrackLevel (first :: rest)) ∧
      s.ComputeBacktrackLevel (first :: rest) < s.DecisionLevel first.Variable) ∧
    (rest = [] → s.ComputeBacktrackLevel (first :: rest) = 0) ∧
    (0 < s.DecisionLevel first.Variable →
      s.ComputeBacktrackLevel (first :: rest) < s.DecisionLevel first.Variable) := by
  have hall : ∀ literal ∈ rest, 0 < s.DecisionLevel literal.Variable ∧
      s.DecisionLevel literal.Variable < s.DecisionLevel first.Variable := by
    intro literal hl
    simp only [SatSolver.IsConflictValid, List.all_eq_true] at hvalid
    have := hvalid literal hl
    simp at this
    omega
  have hge := foldl_max_level_ge (fun l => s.DecisionLevel l.Variable) rest 0
  have hatt := foldl_max_level_attained (fun l => s.DecisionLevel l.Variable) rest 0
  have hdef : s.ComputeBacktrackLevel (first :: rest) =
      rest.foldl (fun b x => max b (s.DecisionLevel x.Variable)) 0 := by
    simp [SatSolver.ComputeBacktrackLevel]
  rw [hdef]
  have hne : rest ≠ [] →
      (∃ literal ∈ rest, s.DecisionLevel literal.Variable =
        rest.foldl (fun b x => max b (s.DecisionLevel x.Variable)) 0) := by
    intro hne
    rcases hatt with h0 | h
    · obtain ⟨x, hx⟩ := List.exists_mem_of_ne_nil rest hne
      have h1 := hge.2 x hx
      have h2 := (hall x hx).1
      simp only at h1
      omega
    · exact h
  refine ⟨hge.2, ?_, ?_, ?_⟩
  · intro hrest
    refine ⟨hne hrest, ?_⟩
    obtain ⟨x, hx, hxe⟩ := hne hrest
    rw [← hxe]
    exact (hall x hx).2
  · intro hrest
    subst hrest
    rfl
  · intro hpos
    by_cases hrest : rest = []
    · subst hrest
      simpa using hpos
    · obtain ⟨x, hx, hxe⟩ := hne hrest
      rw [← hxe]
      exact (hall x hx).2

/-- A state with three decisions and the clause `not x2, not x0, not x1`, whose
backtrack level is 2. -/
theorem ComputeBacktrackLevel_spec_witness :
    (∃ literal ∈ [(⟨1⟩ : Literal), ⟨3⟩],
      (((((SatSolver.Create ⟨false, true, kint64max⟩).NewDecision ⟨0⟩).NewDecision
        ⟨2⟩).NewDecision ⟨4⟩).DecisionLevel literal.Variable =
      ((((SatSolver.Create ⟨false, true, kint64max⟩).NewDecision ⟨0⟩).NewDecision
        ⟨2⟩).NewDecision ⟨4⟩).ComputeBacktrackLevel [⟨5⟩, ⟨1⟩, ⟨3⟩])) ∧
    ((((SatSolver.Create ⟨false, true, kint64max⟩).NewDecision ⟨0⟩).NewDecision
        ⟨2⟩).NewDecision ⟨4⟩).ComputeBacktrackLevel [⟨5⟩, ⟨1⟩, ⟨3⟩] = 2 :=
  ⟨((ComputeBacktrackLevel_spec
      ((((SatSolver.Create ⟨false, true, kint64max⟩).NewDecision ⟨0⟩).NewDecision
        ⟨2⟩).NewDecision ⟨4⟩) ⟨5⟩ [⟨1⟩, ⟨3⟩] (by decide)).2.1 (by decide)).1, by decide⟩

theorem add64_of_IsInt64 (a b : Int) (h : IsInt64 (a + b)) : add64 a b = a + b := by
  unfold add64
  exact wrap64_of_IsInt64 h

/-- C12 (conflict limit).  In a call of `Solve()` on a model that is not UNSAT, whose
count of failures at the call is not negative: at every iteration of the loop
where the failures since the call have reached `max_number_of_conflicts` the
loop returns LIMIT_REACHED with the state as it is; and with
`max_number_of_conflicts = 0` the call returns LIMIT_REACHED at its first
iteration, with the trail, the decision level, the decisions and the counters
of the state at the call, only `assumption_level_` being lowered to the current
decision level as in every call. -/
theorem Solve_conflict_limit (env : SolveEnvironment) (s : SatSolver) (fuel : Nat)
    (hunsat : s.is_model_unsat_ = false)
    (hn : 0 ≤ s.counters_.num_failures)
    (hmax : IsInt64 s.parameters_.max_number_of_conflicts) :
    (∀ (iteration : Nat) (next_memory_check : Int) (s1 : SatSolver),
      IsInt64 s1.counters_.num_failures →
      s1.num_failures - s.num_failures ≥ s.parameters_.max_number_of_conflicts →
      solveLoop env
        (if s.parameters_.max_number_of_conflicts = kint64max then kint64max
         else add64 s.counters_.num_failures s.parameters_.max_number_of_conflicts)
        (fuel + 1) iteration next_memory_check s1 = Except.ok (Status.LIMIT_REACHED, s1)) ∧
    (s.parameters_.max_number_of_conflicts = 0 → IsInt64 s.counters_.num_failures →
      s.Solve env (fuel + 1) = Except.ok (Status.LIMIT_REACHED,
        { s with assumption_level_ := min s.assumption_level_ s.CurrentDecisionLevel })) := by
  have hloop : ∀ (iteration : Nat) (next_memory_check : Int) (s1 : SatSolver),
      IsInt64 s1.counters_.num_failures →
      s1.num_failures - s.num_failures ≥ s.parameters_.max_number_of_conflicts →
      solveLoop env
        (if s.parameters_.max_number_of_conflicts = kint64max then kint64max
         else add64 s.counters_.num_failures s.parameters_.max_number_of_conflicts)
        (fuel + 1) iteration next_memory_check s1 = Except.ok (Status.LIMIT_REACHED, s1) := by
    intro iteration next_memory_check s1 h1 hreach
    unfold solveLoop
    by_cases ht : env.time_limit_reached iteration = true
    · rw [if_pos ht]
    · rw [if_neg ht]
      have hlim : s1.num_failures ≥
          (if s.parameters_.max_number_of_conflicts = kint64max then kint64max
           else add64 s.counters_.num_failures s.parameters_.max_number_of_conflicts) := by
        unfold SatSolver.num_failures at hreach ⊢
        unfold IsInt64 at h1 hmax
        split
        · rename_i hk
          rw [hk] at hreach
          omega
        · rw [add64_of_IsInt64]
          · omega
          · unfold IsInt64
            unfold kint64min kint64max at *
            omega
      rw [if_pos hlim]
  refine ⟨hloop, ?_⟩
  intro h0 hint
  unfold SatSolver.Solve
  rw [hunsat]
  simp only [Bool.false_eq_true, if_false]
  exact hloop 0 _ _ hint (by simp [SatSolver.num_failures, h0])

/-- A new solver with two variables and `max_number_of_conflicts = 0`:
`Solve()` returns LIMIT_REACHED at once. -/
theorem Solve_conflict_limit_witness :
    ({ SatSolver.Create ⟨false, true, 0⟩ with num_variables_ := 2 }).Solve
        ⟨fun _ => false, fun _ => false, fun _ => false, fun _ _ => ⟨0⟩, fun s => Except.ok s,
          fun _ analysis => (analysis.conflict, analysis.reason_used_to_infer_the_conflict),
          fun _ _ s _ _ => Except.ok s⟩ 1 =
      Except.ok (Status.LIMIT_REACHED,
        { SatSolver.Create ⟨false, true, 0⟩ with num_variables_ := 2 }) :=
  (Solve_conflict_limit
    ⟨fun _ => false, fun _ => false, fun _ => false, fun _ _ => ⟨0⟩, fun s => Except.ok s,
      fun _ analysis => (analysis.conflict, analysis.reason_used_to_infer_the_conflict),
      fun _ _ s _ _ => Except.ok s⟩
    { SatSolver.Create ⟨false, true, 0⟩ with num_variables_ := 2 } 0
    rfl (by decide) (by decide)).2 rfl (by decide)

theorem take_findIdx_eq_filter (m : Nat) : ∀ (l : List TrailEntry),
    l.Pairwise (fun a b => a.level ≤ b.level) →
    l.findIdx (fun e => decide (e.level = m)) < l.length →
    l.take (l.findIdx (fun e => decide (e.level = m))) =
      l.filter (fun e => decide (e.level < m))
  | [], _, h => by simp at h
  | e :: rest, hs, h => by
    rw [List.pairwise_cons] at hs
    obtain ⟨he, hrest⟩ := hs
    rw [List.findIdx_cons] at h ⊢
    by_cases hm : e.level = m
    · simp only [hm, decide_True, cond_true, List.take_zero]
      symm
      rw [List.filter_eq_nil_iff]
      intro a ha
      rcases List.mem_cons.1 ha with rfl | ha
      · simp [hm]
      · have := he a ha
        simp
        omega
    · simp only [hm, decide_False, cond_false] at h ⊢
      have h1 : rest.findIdx (fun e => decide (e.level = m)) < rest.length := by
        simpa using h
      obtain ⟨x, hx, hxm⟩ := List.findIdx_lt_length.1 h1
      have hxm1 : x.level = m := by simpa using hxm
      have hlt : e.level < m := by
        have := he x hx
        omega
      rw [List.take_succ_cons, take_findIdx_eq_filter m rest hrest h1]
      simp [hlt]

theorem dequeueLoop_eq : ∀ (k : Nat) (t : Trail),
    dequeueLoop k t = { t with entries := t.entries.take (t.entries.length - k) }
  | 0, t => by simp [dequeueLoop]
  | k + 1, t => by
    rw [dequeueLoop, dequeueLoop_eq k]
    simp only [Trail.Dequeue, List.dropLast_eq_take, List.take_take, List.length_take]
    congr 2
    omega

theorem backtrackLevels_eq (d : List Decision) : ∀ (count level t : Nat),
    count ≤ level → 0 < count →
    backtrackLevels d count level t =
      (level - count, (d.getD (level - count) ⟨0, ⟨0⟩⟩).trail_index)
  | 0, _, _, _, h => by omega
  | count + 1, level, t, hle, _ => by
    rw [backtrackLevels]
    rcases Nat.eq_zero_or_pos count with h0 | hpos
    · subst h0
      simp [backtrackLevels]
    · rw [backtrackLevels_eq d count (level - 1) _ (by omega) hpos]
      have : level - 1 - count = level - (count + 1) := by omega
      rw [this]

/-- The state that `Backtrack` leaves when it goes to a level below the current
one, in a state with `TrailInvariant`. -/
theorem Backtrack_eq (s : SatSolver) (h : TrailInvariant s) (target_level : Nat)
    (hlt : target_level < s.CurrentDecisionLevel) :
    s.Backtrack target_level =
      { s with
        counters_ := { s.counters_ with num_failures := s.counters_.num_failures + 1 },
        current_decision_level_ := target_level,
        pb_constraints_ :=
          s.pb_constraints_.Untrail s.trail_ (s.trail_.firstIndexOfLevel (target_level + 1)),
        symmetry_propagator_ :=
          s.symmetry_propagator_.Untrail (s.trail_.firstIndexOfLevel (target_level + 1)),
        trail_ := { s.trail_ with
          entries := s.trail_.entries.take (s.trail_.firstIndexOfLevel (target_level + 1)),
          current_decision_level := target_level },
        propagation_trail_index_ := s.trail_.firstIndexOfLevel (target_level + 1),
        binary_propagation_trail_index_ := s.trail_.firstIndexOfLevel (target_level + 1) } := by
  unfold SatSolver.CurrentDecisionLevel at hlt
  obtain ⟨hd, hidx, -⟩ := h.decisions target_level hlt
  unfold SatSolver.Backtrack
  rw [if_neg (by unfold SatSolver.CurrentDecisionLevel; omega)]
  rw [backtrackLevels_eq s.decisions_ _ _ _ (by omega) (by omega)]
  have h1 : s.current_decision_level_ - (s.current_decision_level_ - target_level) =
      target_level := by omega
  rw [h1, hd]
  simp only [SatSolver.Untrail, dequeueLoop_eq, Trail.SetDecisionLevel, Trail.Index]
  unfold Trail.Index at hidx
  have h2 : s.trail_.entries.length -
      (s.trail_.entries.length - s.trail_.firstIndexOfLevel (target_level + 1)) =
      s.trail_.firstIndexOfLevel (target_level + 1) := by omega
  rw [h2]

theorem findIdx_level_append_of_lt (l : List TrailEntry) (x : TrailEntry) (level : Nat)
    (h : l.findIdx (fun e => decide (e.level = level)) < l.length) :
    (l ++ [x]).findIdx (fun e => decide (e.level = level)) =
      l.findIdx (fun e => decide (e.level = level)) := by
  simp only [List.findIdx_append]
  rw [if_pos h]

theorem findIdx_level_append_new (l : List TrailEntry) (x : TrailEntry)
    (h : ∀ e ∈ l, e.level ≠ x.level) :
    (l ++ [x]).findIdx (fun e => decide (e.level = x.level)) = l.length := by
  simp only [List.findIdx_append]
  have h1 : l.findIdx (fun e => decide (e.level = x.level)) = l.length := by
    apply List.findIdx_eq_length_of_false
    intro e he
    simpa using h e he
  rw [h1, if_neg (by omega)]
  simp [List.findIdx_cons]

theorem not_mem_of_unassigned (t : Trail) (var : Nat)
    (h : t.IsVariableAssigned var = false) :
    var ∉ t.entries.map (fun e => e.literal.Variable) := by
  unfold Trail.IsVariableAssigned at h
  rw [List.any_eq_false] at h
  intro hmem
  obtain ⟨e, he, hv⟩ := List.mem_map.1 hmem
  exact h e he (by simpa using hv)

/-- An enqueue of an unassigned literal at the current level keeps the trail
well formed. -/
theorem TrailInvariant_enqueue (s : SatSolver) (h : TrailInvariant s) (literal : Literal)
    (info : AssignmentInfo) (hun : s.trail_.IsVariableAssigned literal.Variable = false) :
    TrailInvariant { s with trail_ := s.trail_.Enqueue literal info } where
  trail_level := by simpa [Trail.Enqueue] using h.trail_level
  sorted := by
    simp only [Trail.Enqueue]
    rw [List.pairwise_append]
    refine ⟨h.sorted, by simp, ?_⟩
    intro a ha b hb
    simp only [List.mem_singleton] at hb
    subst hb
    simp only
    rw [h.trail_level]
    exact h.levels_le a ha
  levels_le := by
    intro e he
    simp only [Trail.Enqueue, List.mem_append, List.mem_singleton] at he
    rcases he with he | rfl
    · exact h.levels_le e he
    · simp [h.trail_level]
  nodup := by
    simp only [Trail.Enqueue, List.map_append, List.map_cons, List.map_nil]
    rw [List.nodup_append]
    refine ⟨h.nodup, by simp, ?_⟩
    intro a ha hb
    simp only [List.mem_singleton] at hb
    subst hb
    exact not_mem_of_unassigned _ _ hun ha
  decisions := by
    intro k hk
    obtain ⟨h1, h2, h3⟩ := h.decisions k hk
    simp only [Trail.Enqueue, Trail.Index, Trail.firstIndexOfLevel, List.length_append,
      List.length_singleton] at *
    rw [findIdx_level_append_of_lt _ _ _ h2]
    exact ⟨h1, by omega, h3⟩

theorem level_le_length (s : SatSolver) (h : TrailInvariant s) :
    s.current_decision_level_ ≤ s.trail_.Index := by
  rcases Nat.eq_zero_or_pos s.current_decision_level_ with h0 | hpos
  · omega
  · obtain ⟨-, h2, h3⟩ := h.decisions (s.current_decision_level_ - 1) (by omega)
    omega

theorem length_lt_of_unassigned (l : List Nat) (n v : Nat) (hnodup : l.Nodup)
    (hb : ∀ x ∈ l, x < n) (hv : v < n) (hnot : v ∉ l) : l.length < n := by
  have h1 : (v :: l).Nodup := List.nodup_cons.2 ⟨hnot, hnodup⟩
  have h2 : (v :: l).toFinset ⊆ Finset.range n := by
    intro x hx
    simp only [List.toFinset_cons, Finset.mem_insert, List.mem_toFinset] at hx
    rcases hx with rfl | hx
    · simpa using hv
    · simpa using hb x hx
  have h3 := Finset.card_le_card h2
  rw [List.toFinset_card_of_nodup h1] at h3
  simp at h3
  omega

/-- A decision on an unassigned variable keeps the trail well formed, when
`decisions_` has a slot for the new level. -/
theorem TrailInvariant_NewDecision (s : SatSolver) (h : TrailInvariant s) (literal : Literal)
    (hun : s.trail_.IsVariableAssigned literal.Variable = false)
    (hslot : s.current_decision_level_ < s.decisions_.length) :
    TrailInvariant (s.NewDecision literal) where
  trail_level := by simp [SatSolver.NewDecision, Trail.Enqueue, Trail.SetDecisionLevel]
  sorted := by
    simp only [SatSolver.NewDecision, Trail.Enqueue, Trail.SetDecisionLevel]
    rw [List.pairwise_append]
    refine ⟨h.sorted, by simp, ?_⟩
    intro a ha b hb
    simp only [List.mem_singleton] at hb
    subst hb
    have := h.levels_le a ha
    simp only
    omega
  levels_le := by
    intro e he
    simp only [SatSolver.NewDecision, Trail.Enqueue, Trail.SetDecisionLevel,
      List.mem_append, List.mem_singleton] at he ⊢
    rcases he with he | rfl
    · have := h.levels_le e he
      omega
    · simp
  nodup := by
    simp only [SatSolver.NewDecision, Trail.Enqueue, Trail.SetDecisionLevel,
      List.map_append, List.map_cons, List.map_nil]
    rw [List.nodup_append]
    refine ⟨h.nodup, by simp, ?_⟩
    intro a ha hb
    simp only [List.mem_singleton] at hb
    subst hb
    exact not_mem_of_unassigned _ _ hun ha
  decisions := by
    intro k hk
    have hlen := level_le_length s h
    simp only [SatSolver.NewDecision, Trail.Enqueue, Trail.SetDecisionLevel, Trail.Index,
      Trail.firstIndexOfLevel, List.length_append, List.length_singleton] at hk hlen ⊢
    rcases Nat.lt_or_ge k s.current_decision_level_ with hlt | hge
    · obtain ⟨h1, h2, h3⟩ := h.decisions k hlt
      simp only [Trail.Index, Trail.firstIndexOfLevel] at h1 h2 h3
      rw [findIdx_level_append_of_lt _ _ _ h2]
      refine ⟨?_, by omega, h3⟩
      rw [← h1]
      simp only [List.getD_eq_getElem?_getD]
      rw [List.getElem?_set_ne (by omega)]
    · have hk' : k = s.current_decision_level_ := by omega
      subst hk'
      have hnew := findIdx_level_append_new s.trail_.entries
        ⟨literal, s.current_decision_level_ + 1, AssignmentInfo.SEARCH_DECISION⟩
        (by
          intro e he
          have := h.levels_le e he
          simp only
          omega)
      simp only at hnew
      rw [hnew]
      refine ⟨?_, by omega, hlen⟩
      simp only [List.getD_eq_getElem?_getD]
      rw [List.getElem?_set_self hslot]
      rfl

theorem HasNoConstraint_of_searchFrame (s s1 : SatSolver) (h : s.HasNoConstraint)
    (hf : s1.searchFrame = s.searchFrame) : s1.HasNoConstraint := by
  simp only [SatSolver.searchFrame, Prod.mk.injEq] at hf
  obtain ⟨-, -, -, -, h5, h6, h7, h8⟩ := hf
  obtain ⟨a, b, c, d⟩ := h
  exact ⟨h5.trans a, h6.trans b, h7.trans c, h8.trans d⟩

theorem propagateClausesLoop_frame (old_index : Nat) : ∀ (fuel : Nat) (s s1 : SatSolver)
    (r : Bool), s.HasNoConstraint →
    propagateClausesLoop old_index fuel s = Except.ok (r, s1) →
    s1.searchFrame = s.searchFrame
  | 0, _, _, _, _, h => by simp [propagateClausesLoop] at h
  | fuel + 1, s, s1, r, hn, h => by
    unfold propagateClausesLoop at h
    split at h
    · dsimp only at h
      rw [PropagateOnFalse_of_no_watcher _ _ _ _ hn.2.1] at h
      simp only [if_true] at h
      refine (propagateClausesLoop_frame old_index fuel _ s1 r ?_ h).trans rfl
      exact ⟨hn.1, hn.2.1, hn.2.2.1, hn.2.2.2⟩
    · simp only [Except.ok.injEq, Prod.mk.injEq] at h
      obtain ⟨-, rfl⟩ := h
      rfl

theorem propagateSymmetryLoop_frame (old_index : Nat) : ∀ (fuel : Nat) (s s1 : SatSolver)
    (r : Bool), s.HasNoConstraint →
    propagateSymmetryLoop old_index fuel s = Except.ok (r, s1) →
    s1.searchFrame = s.searchFrame
  | 0, _, _, _, _, h => by simp [propagateSymmetryLoop] at h
  | fuel + 1, s, s1, r, hn, h => by
    unfold propagateSymmetryLoop at h
    split at h
    · rw [symmetry_PropagateNext_of_no_permutation _ _ hn.2.2.1] at h
      simp only [if_true] at h
      refine (propagateSymmetryLoop_frame old_index fuel _ s1 r ?_ h).trans rfl
      exact ⟨hn.1, hn.2.1, hn.2.2.1, hn.2.2.2⟩
    · simp only [Except.ok.injEq, Prod.mk.injEq] at h
      obtain ⟨-, rfl⟩ := h
      rfl

theorem propagatePbLoop_frame (old_index : Nat) : ∀ (fuel : Nat) (s s1 : SatSolver)
    (r : Bool), s.HasNoConstraint →
    propagatePbLoop old_index fuel s = Except.ok (r, s1) →
    s1.searchFrame = s.searchFrame
  | 0, _, _, _, _, h => by simp [propagatePbLoop] at h
  | fuel + 1, s, s1, r, hn, h => by
    unfold propagatePbLoop at h
    split at h
    · rw [pb_PropagateNext_of_no_update _ _ hn.2.2.2] at h
      simp only [if_true] at h
      refine (propagatePbLoop_frame old_index fuel _ s1 r ?_ h).trans rfl
      exact ⟨hn.1, hn.2.1, hn.2.2.1, hn.2.2.2⟩
    · simp only [Except.ok.injEq, Prod.mk.injEq] at h
      obtain ⟨-, rfl⟩ := h
      rfl

/-- In a state without constraints `Propagate` leaves the trail and the decisions
as they are, whatever its fuel. -/
theorem Propagate_frame : ∀ (fuel : Nat) (s s1 : SatSolver) (r : Bool),
    s.HasNoConstraint → s.Propagate fuel = Except.ok (r, s1) →
    s1.searchFrame = s.searchFrame
  | 0, _, _, _, _, h => by simp [SatSolver.Propagate] at h
  | fuel + 1, s, s1, r, hn, h => by
    unfold SatSolver.Propagate at h
    have hb : s.binary_implication_graph_.NumberOfImplications = 0 := hn.1
    rw [if_neg (by simp [hb])] at h
    dsimp only at h
    split at h
    · simp at h
    · rename_i sc hc
      simp only [Except.ok.injEq, Prod.mk.injEq] at h
      obtain ⟨-, rfl⟩ := h
      exact propagateClausesLoop_frame _ _ _ _ _ hn hc
    · rename_i sc hc
      have e2 := propagateClausesLoop_frame _ _ _ _ _ hn hc
      have n2 := HasNoConstraint_of_searchFrame _ _ hn e2
      split at h
      · exact (Propagate_frame fuel _ _ _ n2 h).trans e2
      · split at h
        · simp at h
        · rename_i sd hd
          simp only [Except.ok.injEq, Prod.mk.injEq] at h
          obtain ⟨-, rfl⟩ := h
          exact (propagateSymmetryLoop_frame _ _ _ _ _ n2 hd).trans e2
        · rename_i sd hd
          have e3 := (propagateSymmetryLoop_frame _ _ _ _ _ n2 hd).trans e2
          have n3 := HasNoConstraint_of_searchFrame _ _ hn e3
          split at h
          · exact (Propagate_frame fuel _ _ _ n3 h).trans e3
          · split at h
            · simp at h
            · rename_i se he
              simp only [Except.ok.injEq, Prod.mk.injEq] at h
              obtain ⟨-, rfl⟩ := h
              exact (propagatePbLoop_frame _ _ _ _ _ n3 he).trans e3
            · rename_i se he
              have e4 := (propagatePbLoop_frame _ _ _ _ _ n3 he).trans e3
              have n4 := HasNoConstraint_of_searchFrame _ _ hn e4
              split at h
              · exact (Propagate_frame fuel _ _ _ n4 h).trans e4
              · simp only [Except.ok.injEq, Prod.mk.injEq] at h
                obtain ⟨-, rfl⟩ := h
                exact e4

theorem untrailLiteral_nil (literal : Literal) (slacks : List Int) (to_untrail : List Nat) :
    untrailLiteral literal [] slacks to_untrail = ([], slacks, to_untrail) := by
  simp [untrailLiteral]

theorem untrailLoop_of_no_update (trail : Trail) : ∀ (count : Nat) (pb : PbConstraints)
    (to_untrail : List Nat), pb.to_update_ = [] →
    (untrailLoop trail count pb to_untrail).2 = to_untrail ∧
    (untrailLoop trail count pb to_untrail).1.to_update_ = []
  | 0, pb, to_untrail, h => by simp [untrailLoop, h]
  | count + 1, pb, to_untrail, h => by
    unfold untrailLoop
    simp only [h, untrailLiteral_nil]
    exact untrailLoop_of_no_update trail count _ to_untrail rfl

theorem pb_Untrail_of_no_update (pb : PbConstraints) (trail : Trail) (trail_index : Nat)
    (h : pb.to_update_ = []) : (pb.Untrail trail trail_index).to_update_ = [] := by
  unfold PbConstraints.Untrail
  obtain ⟨h1, h2⟩ := untrailLoop_of_no_update trail
    (pb.propagation_trail_index_ - trail_index) pb [] h
  generalize untrailLoop trail (pb.propagation_trail_index_ - trail_index) pb [] = r at h1 h2
  obtain ⟨pb1, tu⟩ := r
  simp only at h1 h2
  subst h1
  simpa using h2

/-- A backtrack to a level that is not above the current one keeps the trail
well formed. -/
theorem TrailInvariant_Backtrack (s : SatSolver) (h : TrailInvariant s) (target_level : Nat)
    (hle : target_level ≤ s.CurrentDecisionLevel) : TrailInvariant (s.Backtrack target_level) := by
  rcases Nat.eq_or_lt_of_le hle with heq | hlt
  · unfold SatSolver.Backtrack
    rw [if_pos heq.symm]
    exact h
  · rw [Backtrack_eq s h target_level hlt]
    unfold SatSolver.CurrentDecisionLevel at hlt
    obtain ⟨hd1, hd2, hd3⟩ := h.decisions target_level hlt
    have hfilter := take_findIdx_eq_filter (target_level + 1) s.trail_.entries h.sorted hd2
    simp only [Trail.firstIndexOfLevel, Trail.Index] at hd2 hd3 hfilter
    refine ⟨rfl, ?_, ?_, ?_, ?_⟩
    · exact List.Pairwise.sublist (List.take_sublist _ _) h.sorted
    · intro e he
      simp only [Trail.firstIndexOfLevel] at he
      rw [hfilter] at he
      have := (List.mem_filter.1 he).2
      simp at this
      show e.level ≤ target_level
      omega
    · exact List.Nodup.sublist (List.Sublist.map _ (List.take_sublist _ _)) h.nodup
    · intro k hk
      simp only at hk
      obtain ⟨h1, h2, h3⟩ := h.decisions k (by omega)
      simp only [Trail.firstIndexOfLevel, Trail.Index, List.findIdx_take, List.length_take] at *
      obtain ⟨x, hx, hxl⟩ := List.findIdx_lt_length.1 h2
      have hxl1 : x.level = k + 1 := by simpa using hxl
      have hmem : x ∈ s.trail_.entries.take
          (s.trail_.entries.findIdx (fun e => decide (e.level = target_level + 1))) := by
        rw [hfilter]
        exact List.mem_filter.2 ⟨hx, by simp; omega⟩
      have hlt2 : (s.trail_.entries.take (s.trail_.entries.findIdx
          (fun e => decide (e.level = target_level + 1)))).findIdx
          (fun e => decide (e.level = k + 1)) <
          (s.trail_.entries.take (s.trail_.entries.findIdx
            (fun e => decide (e.level = target_level + 1)))).length :=
        List.findIdx_lt_length.2 ⟨x, hmem, by simpa using hxl1⟩
      simp only [List.findIdx_take, List.length_take] at hlt2
      omega

theorem length_le_of_bounded (l : List Nat) (n : Nat) (hnodup : l.Nodup)
    (hb : ∀ x ∈ l, x < n) : l.length ≤ n := by
  have h2 : l.toFinset ⊆ Finset.range n := by
    intro x hx
    simp only [List.mem_toFinset] at hx
    simpa using hb x hx
  have h3 := Finset.card_le_card h2
  rw [List.toFinset_card_of_nodup hnodup] at h3
  simpa using h3

theorem SearchInvariant_init (parameters : SatParameters) (num_variables : Nat) (s : SatSolver)
    (h : (SatSolver.Create parameters).SetNumVariables num_variables = Except.ok s) :
    SearchInvariant s := by
  unfold SatSolver.SetNumVariables at h
  rw [if_neg (by simp [SatSolver.Create])] at h
  simp only [Except.ok.injEq] at h
  subst h
  refine ⟨⟨rfl, ?_, ?_, ?_, ?_⟩, ?_, ?_, ?_⟩
  · simp [SatSolver.Create, Trail.empty]
  · simp [SatSolver.Create, Trail.empty]
  · simp [SatSolver.Create, Trail.empty]
  · intro k hk
    simp [SatSolver.Create] at hk
  · simp [SatSolver.Create, Trail.empty]
  · simp [SatSolver.Create]
  · simp [SatSolver.HasNoConstraint, SatSolver.Create]

theorem SearchInvariant_enqueue (s : SatSolver) (h : SearchInvariant s) (literal : Literal)
    (info : AssignmentInfo) (hb : literal.Variable < s.num_variables_)
    (hun : s.trail_.IsVariableAssigned literal.Variable = false) :
    SearchInvariant { s with trail_ := s.trail_.Enqueue literal info } := by
  refine ⟨TrailInvariant_enqueue s h.trail literal info hun, ?_, h.slots, h.empty⟩
  intro e he
  simp only [Trail.Enqueue, List.mem_append, List.mem_singleton] at he
  rcases he with he | rfl
  · exact h.bounded e he
  · exact hb

theorem SearchInvariant_NewDecision (s : SatSolver) (h : SearchInvariant s) (literal : Literal)
    (hb : literal.Variable < s.num_variables_)
    (hun : s.trail_.IsVariableAssigned literal.Variable = false) :
    SearchInvariant (s.NewDecision literal) := by
  have hlen : s.trail_.Index < s.num_variables_ := by
    have := length_lt_of_unassigned (s.trail_.entries.map (fun e => e.literal.Variable))
      s.num_variables_ literal.Variable h.trail.nodup
      (by
        intro x hx
        obtain ⟨e, he, rfl⟩ := List.mem_map.1 hx
        exact h.bounded e he)
      hb (not_mem_of_unassigned _ _ hun)
    simpa [Trail.Index] using this
  have hslot : s.current_decision_level_ < s.decisions_.length := by
    have := level_le_length s h.trail
    rw [h.slots]
    omega
  refine ⟨TrailInvariant_NewDecision s h.trail literal hun hslot, ?_, ?_, h.empty⟩
  · intro e he
    simp only [SatSolver.NewDecision, Trail.Enqueue, Trail.SetDecisionLevel, List.mem_append,
      List.mem_singleton] at he
    rcases he with he | rfl
    · exact h.bounded e he
    · exact hb
  · simp [SatSolver.NewDecision, h.slots]

theorem SearchInvariant_Backtrack (s : SatSolver) (h : SearchInvariant s) (target_level : Nat)
    (hle : target_level ≤ s.CurrentDecisionLevel) :
    SearchInvariant (s.Backtrack target_level) := by
  refine ⟨TrailInvariant_Backtrack s h.trail target_level hle, ?_, ?_, ?_⟩
  · rcases Nat.eq_or_lt_of_le hle with heq | hlt
    · unfold SatSolver.Backtrack
      rw [if_pos heq.symm]
      exact h.bounded
    · rw [Backtrack_eq s h.trail target_level hlt]
      intro e he
      exact h.bounded e (List.mem_of_mem_take he)
  · rcases Nat.eq_or_lt_of_le hle with heq | hlt
    · unfold SatSolver.Backtrack
      rw [if_pos heq.symm]
      exact h.slots
    · rw [Backtrack_eq s h.trail target_level hlt]
      exact h.slots
  · rcases Nat.eq_or_lt_of_le hle with heq | hlt
    · unfold SatSolver.Backtrack
      rw [if_pos heq.symm]
      exact h.empty
    · rw [Backtrack_eq s h.trail target_level hlt]
      obtain ⟨a, b, c, d⟩ := h.empty
      exact ⟨a, b, c, pb_Untrail_of_no_update _ _ _ d⟩

theorem SearchInvariant_of_searchFrame (s s1 : SatSolver) (h : SearchInvariant s)
    (hf : s1.searchFrame = s.searchFrame) : SearchInvariant s1 := by
  have hn := HasNoConstraint_of_searchFrame s s1 h.empty hf
  simp only [SatSolver.searchFrame, Prod.mk.injEq] at hf
  obtain ⟨h1, h2, h3, h4, -⟩ := hf
  obtain ⟨⟨a, b, c, d, e⟩, f, g, -⟩ := h
  refine ⟨⟨?_, ?_, ?_, ?_, ?_⟩, ?_, ?_, hn⟩
  · rw [h1, h3]; exact a
  · rw [h1]; exact b
  · rw [h1, h3]; exact c
  · rw [h1]; exact d
  · rw [h1, h2, h3]; exact e
  · rw [h1, h4]; exact f
  · rw [h2, h4]; exact g

theorem Literal.eq_or_eq_Negated_of_Variable_eq (a b : Literal)
    (h : a.Variable = b.Variable) : a = b ∨ a = b.Negated := by
  obtain ⟨i⟩ := a
  obtain ⟨j⟩ := b
  simp only [Literal.Variable] at h
  unfold Literal.Negated
  by_cases hj : j % 2 = 0
  · simp only [hj, if_true, Literal.mk.injEq]
    omega
  · simp only [hj, if_false, Literal.mk.injEq]
    omega

theorem unassigned_of_not_true_not_false (t : Trail) (l : Literal)
    (hf : ¬ t.IsLiteralFalse l = true) (ht : ¬ t.IsLiteralTrue l = true) :
    t.IsVariableAssigned l.Variable = false := by
  unfold Trail.IsVariableAssigned
  rw [List.any_eq_false]
  intro e he hv
  simp only [decide_eq_true_eq] at hv
  rcases Literal.eq_or_eq_Negated_of_Variable_eq _ _ hv with h1 | h1
  · apply ht
    unfold Trail.IsLiteralTrue
    rw [List.any_eq_true]
    exact ⟨e, he, by simpa using h1⟩
  · apply hf
    unfold Trail.IsLiteralFalse
    rw [List.any_eq_true]
    exact ⟨e, he, by simpa using h1⟩

theorem CreateRootResolutionNode_searchFrame (s : SatSolver) :
    s.CreateRootResolutionNode.2.searchFrame = s.searchFrame := by
  unfold SatSolver.CreateRootResolutionNode
  split <;> rfl

theorem SearchInvariant_AddUnitClause (s s1 : SatSolver) (h : SearchInvariant s) (fuel : Nat)
    (true_literal : Literal) (result : Bool)
    (hb : true_literal.Variable < s.num_variables_)
    (hrun : s.AddUnitClause fuel true_literal = Except.ok (result, s1)) :
    SearchInvariant s1 := by
  unfold SatSolver.AddUnitClause at hrun
  split at hrun
  · simp at hrun
  · split at hrun
    · simp only [Except.ok.injEq, Prod.mk.injEq] at hrun
      obtain ⟨-, rfl⟩ := hrun
      exact h
    · split at hrun
      · simp only [Except.ok.injEq, Prod.mk.injEq] at hrun
        obtain ⟨-, rfl⟩ := hrun
        exact h
      · rename_i hnf hnt
        have hun := unassigned_of_not_true_not_false _ _ hnf hnt
        have hcr := CreateRootResolutionNode_searchFrame s
        generalize s.CreateRootResolutionNode = cr at hrun hcr
        obtain ⟨node, sa⟩ := cr
        simp only at hrun hcr
        have inv_a : SearchInvariant sa := SearchInvariant_of_searchFrame s sa h hcr
        simp only [SatSolver.searchFrame, Prod.mk.injEq] at hcr
        obtain ⟨e1, -, -, e4, -⟩ := hcr
        have inv2 := SearchInvariant_enqueue sa inv_a true_literal
          (AssignmentInfo.UNIT_REASON node) (by rw [e4]; exact hb) (by rw [e1]; exact hun)
        split at hrun
        · simp at hrun
        · rename_i s3 hp
          simp only [SatSolver.ModelUnsat, Except.ok.injEq, Prod.mk.injEq] at hrun
          obtain ⟨-, rfl⟩ := hrun
          refine (fun hf => ?_) (Propagate_frame _ _ _ _ ?_ hp)
          · exact SearchInvariant_of_searchFrame _ _ inv2 (hf.trans rfl)
          · exact inv2.empty
        · rename_i s3 hp
          simp only [Except.ok.injEq, Prod.mk.injEq] at hrun
          obtain ⟨-, rfl⟩ := hrun
          refine (fun hf => ?_) (Propagate_frame _ _ _ _ ?_ hp)
          · exact SearchInvariant_of_searchFrame _ _ inv2 (hf.trans rfl)
          · exact inv2.empty

theorem SearchInvariant_of_Reachable (s : SatSolver) (h : Reachable s) : SearchInvariant s := by
  induction h with
  | init parameters num_variables s hs => exact SearchInvariant_init parameters num_variables s hs
  | step s s1 _ hstep ih =>
    cases hstep with
    | addUnitClause _ fuel true_literal result hb hrun =>
      exact SearchInvariant_AddUnitClause s s1 ih fuel true_literal result hb hrun
    | newDecision literal hb hun => exact SearchInvariant_NewDecision s ih literal hb hun
    | enqueue literal info hb hun => exact SearchInvariant_enqueue s ih literal info hb hun
    | backtrack target_level hle => exact SearchInvariant_Backtrack s ih target_level hle

/-- C14 (trail and decisions in the states of a search).  In every state reached
from a new solver with its variables declared, by `AddUnitClause`, by
`NewDecision` on an unassigned variable, by enqueues of unassigned literals and
by `Backtrack` to a level that is not above the current one: the decision
levels of the trail entries do not decrease along the trail, no variable is on
the trail twice, and for every `k` below the current level `decisions_[k]`
exists and its `trail_index` is the index of the first trail entry of level
`k + 1`, which is on the trail; and `NewDecision` raises the level by exactly
one. -/
theorem Reachable_trail_invariant (s : SatSolver) (h : Reachable s) :
    s.trail_.entries.Pairwise (fun a b => a.level ≤ b.level) ∧
    (s.trail_.entries.map (fun e => e.literal.Variable)).Nodup ∧
    (∀ k, k < s.CurrentDecisionLevel →
      k < s.decisions_.length ∧
      (s.decisions_.getD k ⟨0, ⟨0⟩⟩).trail_index = s.trail_.firstIndexOfLevel (k + 1) ∧
      s.trail_.firstIndexOfLevel (k + 1) < s.trail_.Index) ∧
    (∀ literal : Literal,
      (s.NewDecision literal).CurrentDecisionLevel = s.CurrentDecisionLevel + 1) := by
  have inv := SearchInvariant_of_Reachable s h
  refine ⟨inv.trail.sorted, inv.trail.nodup, ?_, fun _ => rfl⟩
  intro k hk
  obtain ⟨h1, h2, -⟩ := inv.trail.decisions k hk
  refine ⟨?_, h1, h2⟩
  have hlen := level_le_length s inv.trail
  have hle := length_le_of_bounded (s.trail_.entries.map (fun e => e.literal.Variable))
    s.num_variables_ inv.trail.nodup
    (by
      intro x hx
      obtain ⟨e, he, rfl⟩ := List.mem_map.1 hx
      exact inv.bounded e he)
  rw [inv.slots]
  simp only [List.length_map] at hle
  unfold SatSolver.CurrentDecisionLevel at hk
  unfold Trail.Index at hlen
  omega

/-- A new solver with three variables, the decision `x0`, the enqueue of `not x1`,
the decision `x2`: the trail has no variable twice. -/
theorem Reachable_trail_invariant_witness :
    (([⟨⟨0⟩, 1, AssignmentInfo.SEARCH_DECISION⟩,
       ⟨⟨3⟩, 1, AssignmentInfo.BINARY_PROPAGATION ⟨1⟩⟩,
       ⟨⟨4⟩, 2, AssignmentInfo.SEARCH_DECISION⟩] : List TrailEntry).map
      (fun e => e.literal.Variable)).Nodup :=
  (Reachable_trail_invariant _
    (Reachable.step _ _
      (Reachable.step _ _
        (Reachable.step _ _
          (Reachable.init ⟨false, true, kint64max⟩ 3 _ rfl)
          (SearchStep.newDecision _ ⟨0⟩ (by decide) (by decide)))
        (SearchStep.enqueue _ ⟨3⟩ (AssignmentInfo.BINARY_PROPAGATION ⟨1⟩) (by decide)
          (by decide)))
      (SearchStep.newDecision _ ⟨4⟩ (by decide) (by decide)))).2.1

/-- The loop of `EnqueueDecisionAndBackjumpOnConflict` is left in two ways only:
with `kUnsatTrailIndex`, or with the state in which `Propagate()` has just
returned true. -/
theorem backjumpLoop_result (env : SolveEnvironment) (inner_fuel iteration : Nat) :
    ∀ (fuel conflict_number : Nat) (first_propagation_index : Int) (s s1 : SatSolver)
      (index : Int),
    backjumpLoop env inner_fuel iteration fuel conflict_number first_propagation_index s =
      Except.ok (index, s1) →
    index = -1 ∨ ∃ s0 : SatSolver, s0.Propagate inner_fuel = Except.ok (true, s1)
  | 0, _, _, _, _, _, h => by simp [backjumpLoop] at h
  | fuel + 1, conflict_number, first_propagation_index, s, s1, index, h => by
    unfold backjumpLoop at h
    split at h
    · simp at h
    · rename_i sp hp
      simp only [Except.ok.injEq, Prod.mk.injEq] at h
      obtain ⟨-, rfl⟩ := h
      exact Or.inr ⟨s, hp⟩
    · rename_i sp hp
      split at h
      · simp at h
      · rename_i analysis ha
        split at h
        · simp only [Except.ok.injEq, Prod.mk.injEq] at h
          exact Or.inl (by rw [← h.1]; rfl)
        · split at h
          rename_i learned_conflict reason_used hm
          split at h
          · simp at h
          · rename_i node s2 hc
            dsimp only at h
            split at h
            · simp at h
            · rename_i s5 hl
              exact backjumpLoop_result env inner_fuel iteration fuel _ _ _ _ _ h

theorem EnqueueDecisionAndBackjumpOnConflict_result (env : SolveEnvironment)
    (fuel iteration : Nat) (s s1 : SatSolver) (true_literal : Literal) (index : Int)
    (h : s.EnqueueDecisionAndBackjumpOnConflict env fuel iteration true_literal =
      Except.ok (index, s1)) :
    index = -1 ∨ ∃ s0 : SatSolver, s0.Propagate fuel = Except.ok (true, s1) := by
  unfold SatSolver.EnqueueDecisionAndBackjumpOnConflict at h
  split at h
  · simp at h
  · split at h
    · simp at h
    · exact backjumpLoop_result env fuel iteration _ _ _ _ _ _ h

theorem findIdx_of_getElem? : ∀ (l : List TrailEntry) (i : Nat) (e : TrailEntry),
    (l.map (fun e => e.literal.Variable)).Nodup → l[i]? = some e →
    l.findIdx (fun x => decide (x.literal.Variable = e.literal.Variable)) = i
  | [], _, _, _, h => by simp at h
  | x :: rest, 0, e, _, h => by
    simp only [List.getElem?_cons_zero, Option.some.injEq] at h
    subst h
    simp [List.findIdx_cons]
  | x :: rest, i + 1, e, hn, h => by
    simp only [List.getElem?_cons_succ] at h
    simp only [List.map_cons, List.nodup_cons] at hn
    have hmem : e ∈ rest := List.mem_iff_getElem?.2 ⟨i, h⟩
    have hne : x.literal.Variable ≠ e.literal.Variable := by
      intro heq
      exact hn.1 (List.mem_map.2 ⟨e, hmem, heq.symm⟩)
    rw [List.findIdx_cons]
    simp only [hne, decide_False, cond_false]
    rw [findIdx_of_getElem? rest i e hn.2 h]

theorem find?_of_getElem? : ∀ (l : List TrailEntry) (i : Nat) (e : TrailEntry),
    (l.map (fun e => e.literal.Variable)).Nodup → l[i]? = some e →
    l.find? (fun x => decide (x.literal.Variable = e.literal.Variable)) = some e
  | [], _, _, _, h => by simp at h
  | x :: rest, 0, e, _, h => by
    simp only [List.getElem?_cons_zero, Option.some.injEq] at h
    subst h
    simp [List.find?_cons]
  | x :: rest, i + 1, e, hn, h => by
    simp only [List.getElem?_cons_succ] at h
    simp only [List.map_cons, List.nodup_cons] at hn
    have hmem : e ∈ rest := List.mem_iff_getElem?.2 ⟨i, h⟩
    have hne : x.literal.Variable ≠ e.literal.Variable := by
      intro heq
      exact hn.1 (List.mem_map.2 ⟨e, hmem, heq.symm⟩)
    rw [List.find?_cons]
    simp only [hne, decide_False]
    exact find?_of_getElem? rest i e hn.2 h

theorem Trail.trailIndexOf_of_getElem? (t : Trail)
    (hn : (t.entries.map (fun e => e.literal.Variable)).Nodup) (i : Nat) (e : TrailEntry)
    (h : t.entries[i]? = some e) : t.trailIndexOf e.literal.Variable = i :=
  findIdx_of_getElem? t.entries i e hn h

theorem Trail.levelOf_of_getElem? (t : Trail)
    (hn : (t.entries.map (fun e => e.literal.Variable)).Nodup) (i : Nat) (e : TrailEntry)
    (h : t.entries[i]? = some e) : t.levelOf e.literal.Variable = e.level := by
  unfold Trail.levelOf Trail.entryOf
  rw [find?_of_getElem? t.entries i e hn h]

theorem Trail.get_of_getElem? (t : Trail) (i : Nat) (e : TrailEntry)
    (h : t.entries[i]? = some e) : t.get i = e.literal := by
  unfold Trail.get
  simp [h]

theorem Trail.getElem?_trailIndexOf (t : Trail) (var : Nat)
    (h : t.trailIndexOf var < t.Index) :
    ∃ e, t.entries[t.trailIndexOf var]? = some e ∧ e.literal.Variable = var := by
  unfold Trail.trailIndexOf Trail.Index at *
  refine ⟨t.entries[t.entries.findIdx (fun e => decide (e.literal.Variable = var))], ?_, ?_⟩
  · exact List.getElem?_eq_getElem h
  · have := List.findIdx_getElem (w := h)
    simpa using this

theorem Trail.assigned_of_IsLiteralFalse (t : Trail) (literal : Literal)
    (h : t.IsLiteralFalse literal = true) :
    ∃ (i : Nat) (e : TrailEntry), t.entries[i]? = some e ∧ e.literal = literal.Negated ∧
      e.literal.Variable = literal.Variable := by
  unfold Trail.IsLiteralFalse at h
  rw [List.any_eq_true] at h
  obtain ⟨e, he, heq⟩ := h
  have heq1 : e.literal = literal.Negated := by simpa using heq
  obtain ⟨i, hi⟩ := List.mem_iff_getElem?.1 he
  exact ⟨i, e, hi, heq1, by rw [heq1, Literal.Variable_Negated]⟩

theorem Trail.level_le_of_le (t : Trail)
    (hs : t.entries.Pairwise (fun a b => a.level ≤ b.level)) (i j : Nat) (a b : TrailEntry)
    (hi : t.entries[i]? = some a) (hj : t.entries[j]? = some b) (hij : i ≤ j) :
    a.level ≤ b.level := by
  rcases Nat.eq_or_lt_of_le hij with heq | hlt
  · subst heq
    rw [hi] at hj
    simp only [Option.some.injEq] at hj
    subst hj
    exact le_refl _
  · obtain ⟨h1, rfl⟩ := List.getElem?_eq_some.1 hi
    obtain ⟨h2, rfl⟩ := List.getElem?_eq_some.1 hj
    exact List.pairwise_iff_getElem.1 hs i j h1 h2 hlt

/-! ### Marks -/

theorem SparseBitset.get_ClearAndResize (var : Nat) :
    SparseBitset.ClearAndResize.get var = false := by
  simp [SparseBitset.ClearAndResize, SparseBitset.get]

theorem SparseBitset.get_Set (b : SparseBitset) (index var : Nat) :
    (b.Set index).get var = (b.get var || decide (var = index)) := by
  unfold SparseBitset.Set
  by_cases h : b.get index = true
  · rw [if_pos h]
    by_cases hv : var = index
    · subst hv
      simp [h]
    · simp [hv]
  · rw [if_neg h]
    simp only [SparseBitset.get, List.contains_eq_any_beq, List.any_append, List.any_cons,
      List.any_nil, Bool.or_false]
    congr 1

/-! ### Counting the marked entries of the highest level -/

theorem markedAtLevel_ClearAndResize (trail : Trail) (level : Nat) :
    ∀ bound, markedAtLevel trail SparseBitset.ClearAndResize level bound = 0
  | 0 => rfl
  | bound + 1 => by
    rw [markedAtLevel, markedAtLevel_ClearAndResize trail level bound]
    split
    · simp [SparseBitset.get_ClearAndResize]
    · rfl

theorem markedAtLevel_Set (trail : Trail)
    (hn : (trail.entries.map (fun e => e.literal.Variable)).Nodup) (m : SparseBitset)
    (level var : Nat) (hv : m.get var = false) (i : Nat) (e : TrailEntry)
    (hi : trail.entries[i]? = some e) (hev : e.literal.Variable = var) :
    ∀ bound, markedAtLevel trail (m.Set var) level bound =
      markedAtLevel trail m level bound + (if i < bound ∧ e.level = level then 1 else 0)
  | 0 => by simp [markedAtLevel]
  | bound + 1 => by
    rw [markedAtLevel, markedAtLevel, markedAtLevel_Set trail hn m level var hv i e hi hev bound]
    rcases hx : trail.entries[bound]? with _ | x
    · simp only
      have hlen : trail.entries.length ≤ bound := by simpa using hx
      have hil : i < trail.entries.length := (List.getElem?_eq_some.1 hi).1
      have h1 : i < bound := by omega
      have h2 : i < bound + 1 := by omega
      simp [h1, h2]
    · simp only [SparseBitset.get_Set]
      by_cases hb : bound = i
      · subst hb
        rw [hi] at hx
        simp only [Option.some.injEq] at hx
        subst hx
        subst hev
        simp [hv]
      · have hxv : x.literal.Variable ≠ var := by
          intro heq
          have h1 := trail.trailIndexOf_of_getElem? hn bound x hx
          have h2 := trail.trailIndexOf_of_getElem? hn i e hi
          rw [heq] at h1
          rw [hev] at h2
          omega
        have h3 : (i < bound + 1) = (i < bound) := by
          apply propext
          omega
        simp only [hxv, decide_False, Bool.or_false, h3]
        omega

theorem markedAtLevel_pos (trail : Trail) (m : SparseBitset) (level : Nat) :
    ∀ bound, 0 < markedAtLevel trail m level bound →
    ∃ (k : Nat) (e : TrailEntry), k < bound ∧ trail.entries[k]? = some e ∧ e.level = level ∧
      m.get e.literal.Variable = true
  | 0, h => by simp [markedAtLevel] at h
  | bound + 1, h => by
    rw [markedAtLevel] at h
    rcases Nat.eq_zero_or_pos (markedAtLevel trail m level bound) with h0 | hpos
    · rw [h0] at h
      rcases hx : trail.entries[bound]? with _ | x
      · simp [hx] at h
      · simp only [hx] at h
        by_cases hc : x.level = level ∧ m.get x.literal.Variable = true
        · exact ⟨bound, x, by omega, hx, hc.1, hc.2⟩
        · simp [hc] at h
    · obtain ⟨k, e, hk, he, h1, h2⟩ := markedAtLevel_pos trail m level bound hpos
      exact ⟨k, e, by omega, he, h1, h2⟩

theorem markedAtLevel_of_mem (trail : Trail) (m : SparseBitset) (level : Nat) (k : Nat)
    (e : TrailEntry) (he : trail.entries[k]? = some e) (hl : e.level = level)
    (hm : m.get e.literal.Variable = true) :
    ∀ bound, k < bound → 0 < markedAtLevel trail m level bound
  | 0, h => by omega
  | bound + 1, h => by
    rw [markedAtLevel]
    rcases Nat.eq_or_lt_of_le (Nat.lt_succ_iff.1 h) with heq | hlt
    · subst heq
      simp [he, hl, hm]
    · have := markedAtLevel_of_mem trail m level k e he hl hm bound hlt
      omega

theorem markedAtLevel_succ_of_marked (trail : Trail) (m : SparseBitset) (level : Nat)
    (j : Nat) (e : TrailEntry) (he : trail.entries[j]? = some e) (hl : e.level = level)
    (hm : m.get e.literal.Variable = true) :
    markedAtLevel trail m level (j + 1) = markedAtLevel trail m level j + 1 := by
  rw [markedAtLevel]
  simp [he, hl, hm]

theorem markedAtLevel_eq_of_unmarked (trail : Trail) (m : SparseBitset) (level : Nat)
    (j : Nat) : ∀ bound, j ≤ bound →
    (∀ (k : Nat) (e : TrailEntry), j ≤ k → k < bound → trail.entries[k]? = some e →
      m.get e.literal.Variable = false) →
    markedAtLevel trail m level bound = markedAtLevel trail m level j
  | 0, h, _ => by
    have : j = 0 := by omega
    subst this
    rfl
  | bound + 1, h, hun => by
    rcases Nat.eq_or_lt_of_le h with heq | hlt
    · subst heq
      rfl
    · rw [markedAtLevel, markedAtLevel_eq_of_unmarked trail m level j bound (by omega)
        (fun k e h1 h2 h3 => hun k e h1 (by omega) h3)]
      rcases hx : trail.entries[bound]? with _ | x
      · rfl
      · have := hun bound x (by omega) (by omega) hx
        simp [this]

/-! ### The scan for the next marked literal -/

theorem nextMarkedIndex_spec (trail : Trail) (m : SparseBitset) : ∀ i : Nat,
    (nextMarkedIndex trail m i = none ∧
      ∀ k, k ≤ i → m.get (trail.get k).Variable = false) ∨
    ∃ j, j ≤ i ∧ nextMarkedIndex trail m i = some j ∧
      m.get (trail.get j).Variable = true ∧
      ∀ k, j < k → k ≤ i → m.get (trail.get k).Variable = false
  | 0 => by
    unfold nextMarkedIndex
    by_cases h : m.get (trail.get 0).Variable = true
    · right
      exact ⟨0, le_refl _, by simp [h], h, fun k h1 h2 => by omega⟩
    · left
      refine ⟨by simp [h], ?_⟩
      intro k hk
      have : k = 0 := by omega
      subst this
      simpa using h
  | i + 1 => by
    unfold nextMarkedIndex
    by_cases h : m.get (trail.get (i + 1)).Variable = true
    · right
      exact ⟨i + 1, le_refl _, by simp [h], h, fun k h1 h2 => by omega⟩
    · have hf : m.get (trail.get (i + 1)).Variable = false := by simpa using h
      rcases nextMarkedIndex_spec trail m i with ⟨h1, h2⟩ | ⟨j, hj, h1, h2, h3⟩
      · left
        refine ⟨by simp [h, h1], ?_⟩
        intro k hk
        rcases Nat.eq_or_lt_of_le hk with heq | hlt
        · rw [heq]; exact hf
        · exact h2 k (by omega)
      · right
        refine ⟨j, by omega, by simp [h, h1], h2, ?_⟩
        intro k hk1 hk2
        rcases Nat.eq_or_lt_of_le hk2 with heq | hlt
        · rw [heq]; exact hf
        · exact h3 k hk1 (by omega)

/-- Marking the variable of a false literal of index below the bound keeps the
invariant of the main loop of `ComputeFirstUIPConflict`, the counter or the
conflict being updated as `expandClause` does. -/
theorem FirstUIPInvariant_mark (trail : Trail)
    (hn : (trail.entries.map (fun e => e.literal.Variable)).Nodup) (level bound : Nat)
    (st : FirstUIPState) (h : FirstUIPInvariant trail level st bound) (literal : Literal)
    (hfalse : trail.IsLiteralFalse literal = true)
    (hidx : trail.trailIndexOf literal.Variable < bound)
    (hm : st.is_marked_.get literal.Variable = false) (st1 : FirstUIPState)
    (hmarks : st1.is_marked_ = st.is_marked_.Set literal.Variable)
    (hnum : st1.num_literal_at_highest_level_that_needs_to_be_processed =
      st.num_literal_at_highest_level_that_needs_to_be_processed +
        (if trail.levelOf literal.Variable = level then 1 else 0))
    (hconflict : st1.conflict = st.conflict ++
      (if trail.levelOf literal.Variable ≠ level ∧ 0 < trail.levelOf literal.Variable
       then [literal] else [])) :
    FirstUIPInvariant trail level st1 bound := by
  obtain ⟨i, e, hi, hel, hev⟩ := trail.assigned_of_IsLiteralFalse literal hfalse
  have hti := trail.trailIndexOf_of_getElem? hn i e hi
  have hlv := trail.levelOf_of_getElem? hn i e hi
  rw [hev] at hti hlv
  have hilen : i < trail.Index := (List.getElem?_eq_some.1 hi).1
  have hib : i < bound := by omega
  have hle : e.level ≤ level := h.below i e hib hi
  refine ⟨h.bound_le, h.below, ?_, ?_, ?_, ?_⟩
  · intro var hvar
    rw [hmarks, SparseBitset.get_Set] at hvar
    simp only [Bool.or_eq_true, decide_eq_true_eq] at hvar
    rcases hvar with hvar | rfl
    · exact h.marked_assigned var hvar
    · exact ⟨by omega, by omega⟩
  · rw [hnum, hmarks, markedAtLevel_Set trail hn _ level _ hm i e hi hev bound, h.count, hlv]
    by_cases hl : e.level = level
    · simp [hl, hib]
    · simp [hl]
  · intro lit hlit
    rw [hconflict, List.mem_append] at hlit
    rw [hmarks, SparseBitset.get_Set]
    rcases hlit with hlit | hlit
    · obtain ⟨a, b, c, d⟩ := h.conflict_false lit hlit
      exact ⟨a, b, c, by simp [d]⟩
    · split at hlit
      · rename_i hc
        simp only [List.mem_singleton] at hlit
        subst hlit
        exact ⟨hfalse, hc.2, by omega, by simp⟩
      · simp at hlit
  · intro var hvar hpos hlt
    rw [hmarks, SparseBitset.get_Set] at hvar
    simp only [Bool.or_eq_true, decide_eq_true_eq] at hvar
    rw [hconflict]
    rcases hvar with hvar | rfl
    · obtain ⟨lit, hlit, hv⟩ := h.lower_marked var hvar hpos hlt
      exact ⟨lit, List.mem_append_left _ hlit, hv⟩
    · refine ⟨literal, List.mem_append_right _ ?_, rfl⟩
      rw [if_pos ⟨by omega, hpos⟩]
      simp

theorem expandClause_invariant (trail : Trail)
    (hn : (trail.entries.map (fun e => e.literal.Variable)).Nodup) (level bound : Nat) :
    ∀ (clause : List Literal) (st : FirstUIPState),
    FirstUIPInvariant trail level st bound →
    (∀ literal ∈ clause, trail.IsLiteralFalse literal = true ∧
      trail.trailIndexOf literal.Variable < bound) →
    FirstUIPInvariant trail level (expandClause trail level clause st) bound ∧
    (∀ var, st.is_marked_.get var = true →
      (expandClause trail level clause st).is_marked_.get var = true) ∧
    (∀ literal ∈ clause,
      (expandClause trail level clause st).is_marked_.get literal.Variable = true) ∧
    (∃ extra, (expandClause trail level clause st).conflict = st.conflict ++ extra) ∧
    (∃ extra, (expandClause trail level clause st).reason_used_to_infer_the_conflict =
      st.reason_used_to_infer_the_conflict ++ extra ∧
      ∀ literal ∈ extra, trail.IsLiteralFalse literal = true) ∧
    (expandClause trail level clause st).same_reason_identifier_ =
      st.same_reason_identifier_ ∧
    (expandClause trail level clause st).trail_index = st.trail_index
  | [], st, h, _ => by
    unfold expandClause
    exact ⟨h, fun _ hv => hv, by simp, ⟨[], by simp⟩, ⟨[], by simp⟩, rfl, rfl⟩
  | literal :: rest, st, h, hc => by
    have hrest : ∀ l ∈ rest, trail.IsLiteralFalse l = true ∧
        trail.trailIndexOf l.Variable < bound :=
      fun l hl => hc l (List.mem_cons_of_mem _ hl)
    obtain ⟨hfalse, hidx⟩ := hc literal (List.mem_cons_self _ _)
    unfold expandClause
    by_cases hm : st.is_marked_.get literal.Variable = true
    · simp only [hm, if_true]
      obtain ⟨a, b, c, d, e, f, g⟩ := expandClause_invariant trail hn level bound rest st h hrest
      refine ⟨a, b, ?_, d, e, f, g⟩
      intro l hl
      rcases List.mem_cons.1 hl with rfl | hl
      · exact b _ hm
      · exact c l hl
    · have hmf : st.is_marked_.get literal.Variable = false := by simpa using hm
      simp only [hm, if_false]
      have key : ∀ st1 : FirstUIPState,
          st1.is_marked_ = st.is_marked_.Set literal.Variable →
          st1.num_literal_at_highest_level_that_needs_to_be_processed =
            st.num_literal_at_highest_level_that_needs_to_be_processed +
              (if trail.levelOf literal.Variable = level then 1 else 0) →
          st1.conflict = st.conflict ++
            (if trail.levelOf literal.Variable ≠ level ∧ 0 < trail.levelOf literal.Variable
             then [literal] else []) →
          (∃ extra, st1.reason_used_to_infer_the_conflict =
            st.reason_used_to_infer_the_conflict ++ extra ∧
            ∀ l ∈ extra, trail.IsLiteralFalse l = true) →
          st1.same_reason_identifier_ = st.same_reason_identifier_ →
          st1.trail_index = st.trail_index →
          FirstUIPInvariant trail level (expandClause trail level rest st1) bound ∧
          (∀ var, st.is_marked_.get var = true →
            (expandClause trail level rest st1).is_marked_.get var = true) ∧
          (∀ l ∈ literal :: rest,
            (expandClause trail level rest st1).is_marked_.get l.Variable = true) ∧
          (∃ extra, (expandClause trail level rest st1).conflict = st.conflict ++ extra) ∧
          (∃ extra, (expandClause trail level rest st1).reason_used_to_infer_the_conflict =
            st.reason_used_to_infer_the_conflict ++ extra ∧
            ∀ l ∈ extra, trail.IsLiteralFalse l = true) ∧
          (expandClause trail level rest st1).same_reason_identifier_ =
            st.same_reason_identifier_ ∧
          (expandClause trail level rest st1).trail_index = st.trail_index := by
        intro st1 h1 h2 h3 h4 h5 h6
        have inv1 := FirstUIPInvariant_mark trail hn level bound st h literal hfalse hidx hmf
          st1 h1 h2 h3
        obtain ⟨a, b, c, d, e, f, g⟩ :=
          expandClause_invariant trail hn level bound rest st1 inv1 hrest
        have hmono : ∀ var, st.is_marked_.get var = true → st1.is_marked_.get var = true := by
          intro var hv
          rw [h1, SparseBitset.get_Set]
          simp [hv]
        refine ⟨a, fun var hv => b var (hmono var hv), ?_, ?_, ?_, f.trans h5, g.trans h6⟩
        · intro l hl
          rcases List.mem_cons.1 hl with rfl | hl
          · apply b
            rw [h1, SparseBitset.get_Set]
            simp
          · exact c l hl
        · obtain ⟨x, hx⟩ := d
          rw [hx, h3, List.append_assoc]
          exact ⟨_, rfl⟩
        · obtain ⟨x, hx, hxf⟩ := e
          obtain ⟨y, hy, hyf⟩ := h4
          rw [hx, hy, List.append_assoc]
          refine ⟨_, rfl, ?_⟩
          intro l hl
          rcases List.mem_append.1 hl with hl | hl
          · exact hyf l hl
          · exact hxf l hl
      by_cases hl : trail.levelOf literal.Variable = level
      · simp only [hl, if_true]
        exact key _ rfl (by simp [hl]) (by simp [hl]) ⟨[], by simp⟩ rfl rfl
      · simp only [hl, if_false]
        by_cases hp : trail.levelOf literal.Variable > 0
        · simp only [hp, if_true]
          exact key _ rfl (by simp [hl]) (by simp [hl, hp]) ⟨[], by simp⟩ rfl rfl
        · simp only [hp, if_false]
          refine key _ rfl (by simp [hl]) (by simp [hl]; omega) ⟨[literal], rfl, ?_⟩ rfl rfl
          intro l hl2
          simp only [List.mem_singleton] at hl2
          subst hl2
          exact hfalse

theorem swapBackFront_append_singleton (conflict : List Literal) (uip : Literal) :
    ∃ rest, swapBackFront (conflict ++ [uip]) = uip :: rest ∧
      ∀ literal, literal ∈ rest ↔ literal ∈ conflict := by
  cases conflict with
  | nil => exact ⟨[], rfl, by simp⟩
  | cons a c =>
    have h : ∃ b r, c ++ [uip] = b :: r := by
      cases c with
      | nil => exact ⟨uip, [], rfl⟩
      | cons b r => exact ⟨b, r ++ [uip], rfl⟩
    obtain ⟨b, r, hbr⟩ := h
    refine ⟨c ++ [a], ?_, ?_⟩
    · show swapBackFront (a :: (c ++ [uip])) = uip :: (c ++ [a])
      have h1 : swapBackFront (a :: (c ++ [uip])) =
          (c ++ [uip]).getLast (by simp) :: ((c ++ [uip]).dropLast ++ [a]) := by
        simp only [hbr]
        rfl
      rw [h1]
      simp
    · intro literal
      simp only [List.mem_append, List.mem_singleton, List.mem_cons]
      tauto

/-- After the expansion of a clause, a marked entry of the highest level is left
to process when the counter was positive or the clause has a literal of that
level. -/
theorem expandClause_markedAtLevel_pos (trail : Trail)
    (hn : (trail.entries.map (fun e => e.literal.Variable)).Nodup) (level bound : Nat)
    (clause : List Literal) (st : FirstUIPState)
    (hinv : FirstUIPInvariant trail level st bound)
    (hclause : ∀ literal ∈ clause, trail.IsLiteralFalse literal = true ∧
      trail.trailIndexOf literal.Variable < bound)
    (hsome : 1 ≤ st.num_literal_at_highest_level_that_needs_to_be_processed ∨
      ∃ literal ∈ clause, trail.levelOf literal.Variable = level) :
    0 < markedAtLevel trail (expandClause trail level clause st).is_marked_ level bound := by
  obtain ⟨-, hmono, hcl, -⟩ :=
    expandClause_invariant trail hn level bound clause st hinv hclause
  rcases hsome with h1 | ⟨literal, hl, hlv⟩
  · have h2 := hinv.count
    have h3 : 0 < markedAtLevel trail st.is_marked_ level bound := by omega
    obtain ⟨k, e, hk, he, hel, hem⟩ := markedAtLevel_pos trail _ level bound h3
    exact markedAtLevel_of_mem trail _ level k e he hel (hmono _ hem) bound hk
  · obtain ⟨hfalse, hidx⟩ := hclause literal hl
    obtain ⟨i, e, hi, -, hev⟩ := trail.assigned_of_IsLiteralFalse literal hfalse
    have h1 := trail.trailIndexOf_of_getElem? hn i e hi
    have h2 := trail.levelOf_of_getElem? hn i e hi
    rw [hev] at h1 h2
    refine markedAtLevel_of_mem trail _ level i e hi (by omega) ?_ bound (by omega)
    rw [hev]
    exact hcl literal hl

/-- One turn of the main loop of `ComputeFirstUIPConflict`, from the state `st1`
that the expansion of the clause leaves: the scan stops on a marked entry `ej`
of the highest level, at an index `j` below the bound, and the loop returns
when the counter is 1 and goes on below `j` otherwise. -/
theorem firstUIPLoop_step (trail : Trail) (reason : Nat → List Literal) (level : Nat)
    (hs : trail.entries.Pairwise (fun a b => a.level ≤ b.level))
    (fuel : Nat) (clause : List Literal) (st st1 : FirstUIPState) (bound : Nat)
    (hst1 : expandClause trail level clause st = st1)
    (inv1 : FirstUIPInvariant trail level st1 bound)
    (hti1 : st1.trail_index = (bound : Int) - 1)
    (hpos : 0 < markedAtLevel trail st1.is_marked_ level bound) :
    ∃ (j : Nat) (ej : TrailEntry), j < bound ∧ trail.entries[j]? = some ej ∧
      ej.level = level ∧ st1.is_marked_.get ej.literal.Variable = true ∧
      (∀ (k : Nat) (e : TrailEntry), j < k → k < bound → trail.entries[k]? = some e →
        st1.is_marked_.get e.literal.Variable = false) ∧
      markedAtLevel trail st1.is_marked_ level bound =
        markedAtLevel trail st1.is_marked_ level j + 1 ∧
      firstUIPLoop trail reason level (fuel + 1) clause st =
        if st1.num_literal_at_highest_level_that_needs_to_be_processed = 1 then
          Except.ok { st1 with
            trail_index := j,
            conflict := swapBackFront (st1.conflict ++ [ej.literal.Negated]) }
        else
          firstUIPLoop trail reason level fuel
            (if (st1.same_reason_identifier_.FirstVariableWithSameReason trail
                ej.literal.Variable).1 ≠ ej.literal.Variable then []
              else reason ej.literal.Variable)
            { st1 with
              reason_used_to_infer_the_conflict :=
                st1.reason_used_to_infer_the_conflict ++ [ej.literal],
              same_reason_identifier_ :=
                (st1.same_reason_identifier_.FirstVariableWithSameReason trail
                  ej.literal.Variable).2,
              num_literal_at_highest_level_that_needs_to_be_processed :=
                st1.num_literal_at_highest_level_that_needs_to_be_processed - 1,
              trail_index := (j : Int) - 1 } := by
  have hscan := nextMarkedIndex_spec trail st1.is_marked_ (bound - 1)
  obtain ⟨k, ek, hk, hek, hekl, hekm⟩ := markedAtLevel_pos trail _ level bound hpos
  have hgetk := trail.get_of_getElem? k ek hek
  rcases hscan with ⟨-, hnone⟩ | ⟨j, hj, hjs, hjm, hju⟩
  · have := hnone k (by omega)
    rw [hgetk, hekm] at this
    simp at this
  · have hjlen : j < trail.entries.length := by
      have := inv1.bound_le
      unfold Trail.Index at this
      omega
    have hej : trail.entries[j]? = some trail.entries[j] := List.getElem?_eq_getElem hjlen
    generalize trail.entries[j] = ej at hej
    have hgetj := trail.get_of_getElem? j ej hej
    rw [hgetj] at hjm
    have hkj : k ≤ j := by
      by_contra hc
      have := hju k (by omega) (by omega)
      rw [hgetk, hekm] at this
      simp at this
    have hejl : ej.level = level := by
      have h1 := trail.level_le_of_le hs k j ek ej hek hej hkj
      have h2 := inv1.below j ej (by omega) hej
      omega
    have hun : ∀ (k2 : Nat) (e2 : TrailEntry), j < k2 → k2 < bound →
        trail.entries[k2]? = some e2 → st1.is_marked_.get e2.literal.Variable = false := by
      intro k2 e2 h1 h2 h3
      have := hju k2 (by omega) (by omega)
      rw [trail.get_of_getElem? k2 e2 h3] at this
      exact this
    have hcnt : markedAtLevel trail st1.is_marked_ level bound =
        markedAtLevel trail st1.is_marked_ level j + 1 := by
      rw [markedAtLevel_eq_of_unmarked trail _ level (j + 1) bound (by omega),
        markedAtLevel_succ_of_marked trail _ level j ej hej hejl hjm]
      intro k2 e2 h1 h2 h3
      exact hun k2 e2 (by omega) h2 h3
    refine ⟨j, ej, by omega, hej, hejl, hjm, hun, hcnt, ?_⟩
    have htonat : st1.trail_index.toNat = bound - 1 := by omega
    rw [firstUIPLoop]
    dsimp only
    rw [hst1, if_neg (by omega), htonat, hjs]
    dsimp only
    rw [hgetj]

/-- The main loop of `ComputeFirstUIPConflict` returns, with a first UIP conflict,
when its fuel is at least the number of trail entries still to process. -/
theorem firstUIPLoop_spec (trail : Trail) (reason : Nat → List Literal) (level : Nat)
    (hs : trail.entries.Pairwise (fun a b => a.level ≤ b.level))
    (hn : (trail.entries.map (fun e => e.literal.Variable)).Nodup)
    (hreason : ∀ e ∈ trail.entries, ∀ literal ∈ reason e.literal.Variable,
      trail.IsLiteralFalse literal = true ∧
      trail.trailIndexOf literal.Variable < trail.trailIndexOf e.literal.Variable) :
    ∀ (fuel : Nat) (clause : List Literal) (st : FirstUIPState) (bound : Nat),
    FirstUIPInvariant trail level st bound →
    st.trail_index = (bound : Int) - 1 → 0 < bound →
    (∀ literal ∈ clause, trail.IsLiteralFalse literal = true ∧
      trail.trailIndexOf literal.Variable < bound) →
    (1 ≤ st.num_literal_at_highest_level_that_needs_to_be_processed ∨
      ∃ literal ∈ clause, trail.levelOf literal.Variable = level) →
    bound ≤ fuel →
    ∃ r, firstUIPLoop trail reason level fuel clause st = Except.ok r ∧
      FirstUIPResult trail level r
  | 0, _, _, bound, _, _, hb, _, _, hf => by omega
  | fuel + 1, clause, st, bound, hinv, hti, hb, hclause, hsome, hf => by
    have hpos := expandClause_markedAtLevel_pos trail hn level bound clause st hinv hclause hsome
    obtain ⟨inv1, -, -, -, -, -, hti1⟩ :=
      expandClause_invariant trail hn level bound clause st hinv hclause
    obtain ⟨j, ej, hjb, hej, hejl, hjm, -, hcnt, hloop⟩ :=
      firstUIPLoop_step trail reason level hs fuel clause st _ bound rfl inv1
        (hti1.trans hti) hpos
    rw [hloop]
    generalize expandClause trail level clause st = st1 at inv1 hjm hcnt hpos
    have hnum := inv1.count
    by_cases hone : st1.num_literal_at_highest_level_that_needs_to_be_processed = 1
    · rw [if_pos hone]
      refine ⟨_, rfl, ?_, inv1.marked_assigned⟩
      obtain ⟨rest, hrest, hmem⟩ :=
        swapBackFront_append_singleton st1.conflict ej.literal.Negated
      refine ⟨j, ej, rest, hej, hejl, hrest, hjm, ?_, ?_⟩
      · intro literal hl
        exact inv1.conflict_false literal ((hmem literal).1 hl)
      · intro var hv h1 h2
        obtain ⟨literal, hl, hlv⟩ := inv1.lower_marked var hv h1 h2
        exact ⟨literal, (hmem literal).2 hl, hlv⟩
    · rw [if_neg hone]
      have hjpos : 0 < markedAtLevel trail st1.is_marked_ level j := by omega
      have hj0 : 0 < j := by
        rcases Nat.eq_zero_or_pos j with h0 | h0
        · rw [h0] at hjpos
          simp [markedAtLevel] at hjpos
        · exact h0
      apply firstUIPLoop_spec trail reason level hs hn hreason fuel _ _ j
      · refine ⟨by unfold Trail.Index; have := inv1.bound_le; unfold Trail.Index at this; omega,
          ?_, inv1.marked_assigned, ?_, inv1.conflict_false, inv1.lower_marked⟩
        · intro i e hi he
          exact inv1.below i e (by omega) he
        · simp only
          omega
      · rfl
      · exact hj0
      · intro literal hl
        split at hl
        · simp at hl
        · have hmemj : ej ∈ trail.entries := List.mem_iff_getElem?.2 ⟨j, hej⟩
          obtain ⟨h1, h2⟩ := hreason ej hmemj literal hl
          rw [trail.trailIndexOf_of_getElem? hn j ej hej] at h2
          exact ⟨h1, h2⟩
      · left
        simp only
        omega
      · omega

theorem foldl_max_int_ge (f : Literal → Nat) : ∀ (l : List Literal) (acc : Int),
    acc ≤ l.foldl (fun b x => max b (f x : Int)) acc ∧
    ∀ x ∈ l, (f x : Int) ≤ l.foldl (fun b x => max b (f x : Int)) acc
  | [], acc => by simp
  | y :: rest, acc => by
    obtain ⟨h1, h2⟩ := foldl_max_int_ge f rest (max acc (f y : Int))
    refine ⟨le_trans (le_max_left _ _) h1, ?_⟩
    intro x hx
    rcases List.mem_cons.1 hx with rfl | hx
    · exact le_trans (le_max_right _ _) h1
    · exact h2 x hx

theorem foldl_max_int_attained (f : Literal → Nat) : ∀ (l : List Literal) (acc : Int),
    l.foldl (fun b x => max b (f x : Int)) acc = acc ∨
    ∃ x ∈ l, (f x : Int) = l.foldl (fun b x => max b (f x : Int)) acc
  | [], acc => by simp
  | y :: rest, acc => by
    rcases foldl_max_int_attained f rest (max acc (f y : Int)) with h | ⟨x, hx, h⟩
    · rcases le_total acc (f y : Int) with hle | hle
      · right
        refine ⟨y, List.mem_cons_self _ _, ?_⟩
        simp only [List.foldl_cons]
        rw [h, max_eq_right hle]
      · left
        simp only [List.foldl_cons]
        rw [h, max_eq_left hle]
    · right
      exact ⟨x, List.mem_cons_of_mem _ hx, h⟩

/-- The first loop of `ComputeFirstUIPConflict` finds the highest trail index of
the failing clause. -/
theorem highestTrailIndex_spec (trail : Trail) (clause : List Literal) :
    (clause = [] ∧ highestTrailIndex trail clause = -1) ∨
    ∃ i0 : Nat, highestTrailIndex trail clause = (i0 : Int) ∧
      (∃ literal ∈ clause, trail.trailIndexOf literal.Variable = i0) ∧
      ∀ literal ∈ clause, trail.trailIndexOf literal.Variable ≤ i0 := by
  unfold highestTrailIndex
  cases clause with
  | nil => left; exact ⟨rfl, rfl⟩
  | cons y rest =>
    right
    have hge := foldl_max_int_ge (fun l => trail.trailIndexOf l.Variable) (y :: rest) (-1)
    rcases foldl_max_int_attained (fun l => trail.trailIndexOf l.Variable) (y :: rest) (-1)
      with h | ⟨x, hx, h⟩
    · have := hge.2 y (List.mem_cons_self _ _)
      rw [h] at this
      omega
    · refine ⟨trail.trailIndexOf x.Variable, h.symm, ⟨x, hx, rfl⟩, ?_⟩
      intro literal hl
      have := hge.2 literal hl
      rw [← h] at this
      exact_mod_cast this

/-- The analysis of a conflict returns: with an empty conflict when the failing
clause is empty or at level 0, and with a first UIP conflict for the highest
level of the failing clause otherwise. -/
theorem computeFirstUIPConflict_spec (trail : Trail) (reason : Nat → List Literal)
    (fuel : Nat) (same : VariablesWithSameReasonIdentifier) (failing_clause : List Literal)
    (hc : ConflictState trail reason failing_clause) (hfuel : trail.Index ≤ fuel) :
    ∃ r, computeFirstUIPConflict trail reason fuel same failing_clause = Except.ok r ∧
      ((failing_clause = [] ∨ ∀ literal ∈ failing_clause, trail.levelOf literal.Variable = 0) →
        r.conflict = []) ∧
      ((∃ literal ∈ failing_clause, 0 < trail.levelOf literal.Variable) →
        ∃ level, 0 < level ∧ (∀ literal ∈ failing_clause, trail.levelOf literal.Variable ≤ level) ∧
          (∃ literal ∈ failing_clause, trail.levelOf literal.Variable = level) ∧
          FirstUIPResult trail level r) := by
  obtain ⟨hs, hn, hfalse, hreason⟩ := hc
  unfold computeFirstUIPConflict
  dsimp only
  rcases highestTrailIndex_spec trail failing_clause with ⟨hnil, hidx⟩ | ⟨i0, hidx, ⟨l0, hl0, hl0i⟩, hmax⟩
  · rw [if_pos hidx]
    refine ⟨_, rfl, fun _ => rfl, ?_⟩
    rintro ⟨literal, hl, -⟩
    rw [hnil] at hl
    simp at hl
  · rw [hidx, if_neg (by omega)]
    have hto : ((i0 : Int)).toNat = i0 := by omega
    rw [hto]
    -- the entry at the highest index
    obtain ⟨j0, e0, hj0, -, he0v⟩ := trail.assigned_of_IsLiteralFalse l0 (hfalse l0 hl0)
    have hj0i : j0 = i0 := by
      have := trail.trailIndexOf_of_getElem? hn j0 e0 hj0
      rw [he0v, hl0i] at this
      exact this.symm
    subst hj0i
    have hlev0 : trail.levelOf l0.Variable = e0.level := by
      rw [← he0v]
      exact trail.levelOf_of_getElem? hn j0 e0 hj0
    have hH : trail.levelOf (trail.get j0).Variable = e0.level := by
      rw [trail.get_of_getElem? j0 e0 hj0]
      exact trail.levelOf_of_getElem? hn j0 e0 hj0
    rw [hH]
    have hlen : j0 < trail.entries.length := by
      rcases Nat.lt_or_ge j0 trail.entries.length with h | h
      · exact h
      · rw [List.getElem?_eq_none h] at hj0
        simp at hj0
    have hle : ∀ literal ∈ failing_clause, trail.levelOf literal.Variable ≤ e0.level := by
      intro literal hl
      obtain ⟨j, e, hj, -, hev⟩ := trail.assigned_of_IsLiteralFalse literal (hfalse literal hl)
      have h1 := trail.trailIndexOf_of_getElem? hn j e hj
      have h2 := trail.levelOf_of_getElem? hn j e hj
      rw [hev] at h1 h2
      rw [h2]
      have := hmax literal hl
      exact trail.level_le_of_le hs j j0 e e0 hj hj0 (by omega)
    by_cases hz : e0.level = 0
    · rw [if_pos hz]
      refine ⟨_, rfl, fun _ => rfl, ?_⟩
      rintro ⟨literal, hl, hpos⟩
      have := hle literal hl
      omega
    · rw [if_neg hz]
      obtain ⟨r, hr, hres⟩ := firstUIPLoop_spec trail reason e0.level hs hn hreason fuel
        failing_clause ⟨SparseBitset.ClearAndResize, [], [], same, (j0 : Int), 0⟩ (j0 + 1)
        ⟨by unfold Trail.Index; omega,
          fun i e hi he => trail.level_le_of_le hs i j0 e e0 he hj0 (by omega),
          fun var hv => by simp [SparseBitset.get_ClearAndResize] at hv,
          by simp [markedAtLevel_ClearAndResize],
          fun literal hl => by simp at hl,
          fun var hv => by simp [SparseBitset.get_ClearAndResize] at hv⟩
        (by simp)
        (by omega)
        (fun literal hl => ⟨hfalse literal hl, by have := hmax literal hl; omega⟩)
        (Or.inr ⟨l0, hl0, hlev0⟩)
        (by unfold Trail.Index at hfuel; omega)
      refine ⟨r, hr, ?_, fun _ => ⟨e0.level, by omega, hle, ⟨l0, hl0, hlev0⟩, hres⟩⟩
      rintro (hnil | hall)
      · rw [hnil] at hl0
        simp at hl0
      · have := hall l0 hl0
        omega

theorem Trail.IsLiteralFalse_Negated_of_getElem? (t : Trail) (i : Nat) (e : TrailEntry)
    (h : t.entries[i]? = some e) : t.IsLiteralFalse e.literal.Negated = true := by
  unfold Trail.IsLiteralFalse
  rw [List.any_eq_true]
  exact ⟨e, List.mem_iff_getElem?.2 ⟨i, h⟩, by simp [Literal.Negated_Negated]⟩

theorem Trail.IsLiteralTrue_of_getElem? (t : Trail) (i : Nat) (e : TrailEntry)
    (h : t.entries[i]? = some e) : t.IsLiteralTrue e.literal = true := by
  unfold Trail.IsLiteralTrue
  rw [List.any_eq_true]
  exact ⟨e, List.mem_iff_getElem?.2 ⟨i, h⟩, by simp⟩

/-- On a trail that holds no variable twice, a false literal is not true. -/
theorem Trail.not_true_of_false (t : Trail)
    (hn : (t.entries.map (fun e => e.literal.Variable)).Nodup) (literal : Literal)
    (h : t.IsLiteralFalse literal = true) : t.IsLiteralTrue literal = false := by
  obtain ⟨i, e, hi, hel, hev⟩ := t.assigned_of_IsLiteralFalse literal h
  by_contra hc
  have ht : t.IsLiteralTrue literal = true := by simpa using hc
  unfold Trail.IsLiteralTrue at ht
  rw [List.any_eq_true] at ht
  obtain ⟨e2, he2, heq⟩ := ht
  have heq2 : e2.literal = literal := by simpa using heq
  obtain ⟨i2, hi2⟩ := List.mem_iff_getElem?.1 he2
  have h1 := t.trailIndexOf_of_getElem? hn i e hi
  have h2 := t.trailIndexOf_of_getElem? hn i2 e2 hi2
  rw [hev] at h1
  rw [heq2] at h2
  have : i = i2 := by omega
  subst this
  rw [hi] at hi2
  simp only [Option.some.injEq] at hi2
  subst hi2
  rw [heq2] at hel
  exact Literal.Negated_ne literal hel.symm

/-- C15 (first UIP).  In a state at a conflict (the levels do not decrease along
the trail, no variable is on it twice, every literal of the failing clause is
false, and every reason is made of false literals of smaller trail index),
`ComputeFirstUIPConflict` returns, given fuel for the length of the trail.  When
the failing clause has a literal of a level above 0, the conflict it returns
is not empty, its first literal is the negation of a trail literal whose level
is the highest level of the failing clause, every other literal has a level
strictly below that of the first one and strictly above 0, and
`IsConflictValid` holds of it.  The conflict is empty exactly when the failing
clause is empty or all its literals are at level 0. -/
theorem ComputeFirstUIPConflict_first_uip (s : SatSolver) (fuel : Nat)
    (same : VariablesWithSameReasonIdentifier) (failing_clause : List Literal)
    (hc : ConflictState s.trail_ (s.Reason s.trail_.Index) failing_clause)
    (hfuel : s.trail_.Index ≤ fuel) :
    ∃ r, s.ComputeFirstUIPConflict fuel same failing_clause = Except.ok r ∧
      ((∃ literal ∈ failing_clause, 0 < s.DecisionLevel literal.Variable) →
        ∃ (first : Literal) (rest : List Literal), r.conflict = first :: rest ∧
          (∃ e ∈ s.trail_.entries, first = e.literal.Negated) ∧
          (∀ literal ∈ failing_clause,
            s.DecisionLevel literal.Variable ≤ s.DecisionLevel first.Variable) ∧
          (∃ literal ∈ failing_clause,
            s.DecisionLevel literal.Variable = s.DecisionLevel first.Variable) ∧
          (∀ literal ∈ rest, 0 < s.DecisionLevel literal.Variable ∧
            s.DecisionLevel literal.Variable < s.DecisionLevel first.Variable) ∧
          s.IsConflictValid r.conflict = true) ∧
      (r.conflict = [] ↔
        (failing_clause = [] ∨
          ∀ literal ∈ failing_clause, s.DecisionLevel literal.Variable = 0)) := by
  obtain ⟨r, hr, hempty, hfull⟩ :=
    computeFirstUIPConflict_spec s.trail_ (s.Reason s.trail_.Index) fuel same failing_clause
      hc hfuel
  have hshape : (∃ literal ∈ failing_clause, 0 < s.DecisionLevel literal.Variable) →
      ∃ (first : Literal) (rest : List Literal), r.conflict = first :: rest ∧
        (∃ e ∈ s.trail_.entries, first = e.literal.Negated) ∧
        (∀ literal ∈ failing_clause,
          s.DecisionLevel literal.Variable ≤ s.DecisionLevel first.Variable) ∧
        (∃ literal ∈ failing_clause,
          s.DecisionLevel literal.Variable = s.DecisionLevel first.Variable) ∧
        (∀ literal ∈ rest, 0 < s.DecisionLevel literal.Variable ∧
          s.DecisionLevel literal.Variable < s.DecisionLevel first.Variable) ∧
        s.IsConflictValid r.conflict = true := by
    intro hpos
    obtain ⟨level, -, hle, hat, ⟨⟨j, e, rest, hj, hel, hconf, -, hrest, -⟩, -⟩⟩ := hfull hpos
    have hfirst : s.DecisionLevel e.literal.Negated.Variable = level := by
      unfold SatSolver.DecisionLevel
      rw [Literal.Variable_Negated, s.trail_.levelOf_of_getElem? hc.nodup j e hj, hel]
    refine ⟨e.literal.Negated, rest, hconf, ⟨e, List.mem_iff_getElem?.2 ⟨j, hj⟩, rfl⟩, ?_, ?_, ?_,
      ?_⟩
    · rw [hfirst]
      exact hle
    · rw [hfirst]
      exact hat
    · rw [hfirst]
      intro literal hl
      exact ⟨(hrest literal hl).2.1, (hrest literal hl).2.2.1⟩
    · rw [hconf]
      unfold SatSolver.IsConflictValid
      rw [List.all_eq_true]
      intro literal hl
      have h1 := (hrest literal hl).2.1
      have h2 := (hrest literal hl).2.2.1
      rw [hfirst]
      unfold SatSolver.DecisionLevel
      simp only [Bool.not_eq_true', Bool.or_eq_false_iff, decide_eq_false_iff_not]
      omega
  refine ⟨r, hr, hshape, ⟨?_, hempty⟩⟩
  intro hnil
  by_cases hpos : ∃ literal ∈ failing_clause, 0 < s.DecisionLevel literal.Variable
  · obtain ⟨first, rest, hconf, -⟩ := hshape hpos
    rw [hnil] at hconf
    simp at hconf
  · right
    intro literal hl
    by_contra hne
    exact hpos ⟨literal, hl, Nat.pos_of_ne_zero hne⟩

/-- C16 (learned literals are false).  In a state at a conflict,
`ComputeFirstUIPConflict` returns, given fuel for the length of the trail, and
every literal of the conflict it returns is false in the assignment of the
trail, and so is not true there. -/
theorem ComputeFirstUIPConflict_literals_false (s : SatSolver) (fuel : Nat)
    (same : VariablesWithSameReasonIdentifier) (failing_clause : List Literal)
    (hc : ConflictState s.trail_ (s.Reason s.trail_.Index) failing_clause)
    (hfuel : s.trail_.Index ≤ fuel) :
    ∃ r, s.ComputeFirstUIPConflict fuel same failing_clause = Except.ok r ∧
      ∀ literal ∈ r.conflict, s.trail_.IsLiteralFalse literal = true ∧
        s.trail_.IsLiteralTrue literal = false := by
  obtain ⟨r, hr, hempty, hfull⟩ :=
    computeFirstUIPConflict_spec s.trail_ (s.Reason s.trail_.Index) fuel same failing_clause
      hc hfuel
  refine ⟨r, hr, ?_⟩
  have hfalse : ∀ literal ∈ r.conflict, s.trail_.IsLiteralFalse literal = true := by
    by_cases hpos : ∃ literal ∈ failing_clause, 0 < s.trail_.levelOf literal.Variable
    · obtain ⟨level, -, -, -, ⟨⟨j, e, rest, hj, -, hconf, -, hrest, -⟩, -⟩⟩ := hfull hpos
      intro literal hl
      rw [hconf] at hl
      rcases List.mem_cons.1 hl with rfl | hl
      · exact s.trail_.IsLiteralFalse_Negated_of_getElem? j e hj
      · exact (hrest literal hl).1
    · have hall : ∀ literal ∈ failing_clause, s.trail_.levelOf literal.Variable = 0 := by
        intro literal hl
        by_contra hne
        exact hpos ⟨literal, hl, Nat.pos_of_ne_zero hne⟩
      rw [hempty (Or.inr hall)]
      simp
  intro literal hl
  exact ⟨hfalse literal hl, s.trail_.not_true_of_false hc.nodup literal (hfalse literal hl)⟩

/-- The analysis of the conflict `not x2 or not x3 or not x0` at level 2, where
`x2` and `x3` follow from the decision `x1`, returns `[not x1, not x0]`. -/
theorem ComputeFirstUIPConflict_first_uip_witness :
    ∃ r, conflictExample.ComputeFirstUIPConflict 4 VariablesWithSameReasonIdentifier.Clear
        [⟨5⟩, ⟨7⟩, ⟨1⟩] = Except.ok r ∧
      r.conflict = [⟨3⟩, ⟨1⟩] ∧ conflictExample.IsConflictValid r.conflict = true := by
  obtain ⟨r, hr, h, -⟩ := ComputeFirstUIPConflict_first_uip conflictExample 4
    VariablesWithSameReasonIdentifier.Clear [⟨5⟩, ⟨7⟩, ⟨1⟩]
    ⟨by decide, by decide, by decide, by decide⟩ (by decide)
  obtain ⟨first, rest, -, -, -, -, -, hvalid⟩ := h ⟨⟨5⟩, by decide, by decide⟩
  refine ⟨r, hr, ?_, hvalid⟩
  have hd : (conflictExample.ComputeFirstUIPConflict 4 VariablesWithSameReasonIdentifier.Clear
      [⟨5⟩, ⟨7⟩, ⟨1⟩]).map (fun r => r.conflict) = Except.ok [⟨3⟩, ⟨1⟩] := rfl
  rw [hr] at hd
  simpa [Except.map] using hd

/-- On the conflict `not x2 or not x3 or not x0` at level 2, every literal of the
conflict that the analysis returns is false on the trail. -/
theorem ComputeFirstUIPConflict_literals_false_witness :
    ∃ r, conflictExample.ComputeFirstUIPConflict 4 VariablesWithSameReasonIdentifier.Clear
        [⟨5⟩, ⟨7⟩, ⟨1⟩] = Except.ok r ∧
      ∀ literal ∈ r.conflict, conflictExample.trail_.IsLiteralFalse literal = true ∧
        conflictExample.trail_.IsLiteralTrue literal = false :=
  ComputeFirstUIPConflict_literals_false conflictExample 4
    VariablesWithSameReasonIdentifier.Clear [⟨5⟩, ⟨7⟩, ⟨1⟩]
    ⟨by decide, by decide, by decide, by decide⟩ (by decide)

theorem literalHolds_Negated (a : Assignment) (l : Literal) :
    literalHolds a l.Negated = !literalHolds a l := by
  obtain ⟨i⟩ := l
  unfold literalHolds Literal.Negated Literal.Variable Literal.IsPositive
  by_cases h : i % 2 = 0
  · have h1 : (i + 1) / 2 = i / 2 := by omega
    have h2 : ¬ (i + 1) % 2 = 0 := by omega
    cases hb : a (i / 2) <;> simp [h, h1, h2, hb]
  · have h1 : (i - 1) / 2 = i / 2 := by omega
    have h2 : (i - 1) % 2 = 0 := by omega
    cases hb : a (i / 2) <;> simp [h, h1, h2, hb]

theorem clauseHolds_iff (a : Assignment) (clause : List Literal) :
    clauseHolds a clause = true ↔ ∃ l ∈ clause, literalHolds a l = true := by
  unfold clauseHolds
  rw [List.any_eq_true]

theorem VariablesWithSameReasonIdentifier.mem_of_seen
    (id : VariablesWithSameReasonIdentifier) (position first : Nat)
    (h : id.seen position = some first) : (position, first) ∈ id.first_variable_ := by
  unfold VariablesWithSameReasonIdentifier.seen at h
  rcases hf : id.first_variable_.find? (fun entry => decide (entry.1 = position)) with _ | x
  · rw [hf] at h
    simp at h
  · rw [hf] at h
    simp only [Option.map_some', Option.some.injEq] at h
    have h1 := List.find?_some hf
    have h2 := List.mem_of_find?_eq_some hf
    simp only [decide_eq_true_eq] at h1
    have : x = (position, first) := by
      rw [← h1, ← h]
    rw [← this]
    exact h2

/-- The answer of `FirstVariableWithSameReason(var)`: the variable itself, and
then the call may be recorded under the reference variable; or another
variable, recorded before under `var` or under its reference variable. -/
theorem VariablesWithSameReasonIdentifier.FirstVariableWithSameReason_spec
    (id : VariablesWithSameReasonIdentifier) (trail : Trail) (var : Nat) :
    ((id.FirstVariableWithSameReason trail var).2 = id ∨
      ((id.FirstVariableWithSameReason trail var).1 = var ∧
        (id.FirstVariableWithSameReason trail var).2.first_variable_ =
          id.first_variable_ ++ [(trail.ReferenceVarWithSameReason var, var)])) ∧
    ((id.FirstVariableWithSameReason trail var).1 ≠ var →
      (var, (id.FirstVariableWithSameReason trail var).1) ∈ id.first_variable_ ∨
      (trail.ReferenceVarWithSameReason var, (id.FirstVariableWithSameReason trail var).1) ∈
        id.first_variable_) := by
  unfold VariablesWithSameReasonIdentifier.FirstVariableWithSameReason
  rcases h1 : id.seen var with _ | first
  · dsimp only
    by_cases href : trail.ReferenceVarWithSameReason var = var
    · rw [if_pos href]
      exact ⟨Or.inl rfl, fun h => absurd rfl h⟩
    · rw [if_neg href]
      rcases h2 : id.seen (trail.ReferenceVarWithSameReason var) with _ | first
      · exact ⟨Or.inr ⟨rfl, rfl⟩, fun h => absurd rfl h⟩
      · exact ⟨Or.inl rfl, fun _ => Or.inr (id.mem_of_seen _ _ h2)⟩
  · exact ⟨Or.inl rfl, fun _ => Or.inl (id.mem_of_seen _ _ h1)⟩

theorem expandClause_reason_used_subset (trail : Trail) (level : Nat) :
    ∀ (clause : List Literal) (st : FirstUIPState),
    ∀ t ∈ st.reason_used_to_infer_the_conflict,
      t ∈ (expandClause trail level clause st).reason_used_to_infer_the_conflict
  | [], st => by
    unfold expandClause
    exact fun t ht => ht
  | literal :: rest, st => by
    intro t ht
    unfold expandClause
    dsimp only
    split
    · exact expandClause_reason_used_subset trail level rest st t ht
    · split
      · exact expandClause_reason_used_subset trail level rest _ t ht
      · split
        · exact expandClause_reason_used_subset trail level rest _ t ht
        · exact expandClause_reason_used_subset trail level rest _ t
            (List.mem_append_left _ ht)

theorem firstUIPLoop_reason_used_subset (trail : Trail) (reason : Nat → List Literal)
    (level : Nat) : ∀ (fuel : Nat) (clause : List Literal) (st r : FirstUIPState),
    firstUIPLoop trail reason level fuel clause st = Except.ok r →
    ∀ t ∈ st.reason_used_to_infer_the_conflict, t ∈ r.reason_used_to_infer_the_conflict
  | 0, _, _, _, h => by simp [firstUIPLoop] at h
  | fuel + 1, clause, st, r, h => by
    intro t ht
    have ht1 := expandClause_reason_used_subset trail level clause st t ht
    unfold firstUIPLoop at h
    dsimp only at h
    generalize expandClause trail level clause st = st1 at h ht1
    split at h
    · simp at h
    · split at h
      · simp at h
      · split at h
        · simp only [Except.ok.injEq] at h
          rw [← h]
          exact ht1
        · exact firstUIPLoop_reason_used_subset trail reason level fuel _ _ r h t
            (List.mem_append_left _ ht1)

/-- Two literals that are both false on a trail without a repeated variable, and
have the same variable, are equal. -/
theorem Trail.eq_of_false_of_Variable_eq (t : Trail)
    (hn : (t.entries.map (fun e => e.literal.Variable)).Nodup) (l1 l2 : Literal)
    (h1 : t.IsLiteralFalse l1 = true) (h2 : t.IsLiteralFalse l2 = true)
    (hv : l1.Variable = l2.Variable) : l1 = l2 := by
  obtain ⟨i1, e1, hi1, hel1, hev1⟩ := t.assigned_of_IsLiteralFalse l1 h1
  obtain ⟨i2, e2, hi2, hel2, hev2⟩ := t.assigned_of_IsLiteralFalse l2 h2
  have k1 := t.trailIndexOf_of_getElem? hn i1 e1 hi1
  have k2 := t.trailIndexOf_of_getElem? hn i2 e2 hi2
  rw [hev1, hv] at k1
  rw [hev2] at k2
  have : i1 = i2 := by omega
  subst this
  rw [hi1] at hi2
  simp only [Option.some.injEq] at hi2
  subst hi2
  have : l1.Negated = l2.Negated := by rw [← hel1, ← hel2]
  have := congrArg Literal.Negated this
  rwa [Literal.Negated_Negated, Literal.Negated_Negated] at this

/-- A marked literal of an expanded clause that is true in an assignment where
the trail literals of level 0 are true: it is in the conflict, or it is the
negation of a marked entry of the highest level that is still to process. -/
theorem FirstUIPInvariant.holds_of_marked (trail : Trail) (level : Nat) (st : FirstUIPState)
    (bound : Nat) (a : Assignment)
    (hn : (trail.entries.map (fun e => e.literal.Variable)).Nodup)
    (hinv : FirstUIPInvariant trail level st bound)
    (h0 : ∀ e ∈ trail.entries, e.level = 0 → literalHolds a e.literal = true)
    (l : Literal) (hfalse : trail.IsLiteralFalse l = true)
    (hidx : trail.trailIndexOf l.Variable < bound)
    (hm : st.is_marked_.get l.Variable = true) (ha : literalHolds a l = true) :
    (∃ l2 ∈ st.conflict, literalHolds a l2 = true) ∨
    ∃ (i : Nat) (e : TrailEntry), i < bound ∧ trail.entries[i]? = some e ∧ e.level = level ∧
      st.is_marked_.get e.literal.Variable = true ∧ literalHolds a e.literal = false := by
  obtain ⟨i, e, hi, hel, hev⟩ := trail.assigned_of_IsLiteralFalse l hfalse
  have k1 := trail.trailIndexOf_of_getElem? hn i e hi
  have k2 := trail.levelOf_of_getElem? hn i e hi
  rw [hev] at k1 k2
  have hae : literalHolds a e.literal = false := by
    rw [hel, literalHolds_Negated, ha]
    rfl
  have hlev := (hinv.marked_assigned l.Variable hm).2
  rcases Nat.eq_zero_or_pos e.level with hz | hpos
  · have := h0 e (List.mem_iff_getElem?.2 ⟨i, hi⟩) hz
    rw [hae] at this
    simp at this
  · rcases Nat.eq_or_lt_of_le hlev with heq | hlt
    · right
      refine ⟨i, e, by omega, hi, by omega, ?_, hae⟩
      rw [hev]
      exact hm
    · left
      obtain ⟨l2, hl2, hv2⟩ := hinv.lower_marked l.Variable hm (by omega) hlt
      have := trail.eq_of_false_of_Variable_eq hn l2 l (hinv.conflict_false l2 hl2).1 hfalse hv2
      rw [this] at hl2
      exact ⟨l, hl2, ha⟩

/-- The main loop of `ComputeFirstUIPConflict` is sound: an assignment that
satisfies the clause being expanded or the clause resolved so far, the clause
of every trail literal the analysis used, and the trail literals of level 0,
satisfies the conflict that the loop returns. -/
theorem firstUIPLoop_sound (trail : Trail) (reason : Nat → List Literal) (level : Nat)
    (a : Assignment)
    (hs : trail.entries.Pairwise (fun a b => a.level ≤ b.level))
    (hn : (trail.entries.map (fun e => e.literal.Variable)).Nodup)
    (hreason : ∀ e ∈ trail.entries, ∀ literal ∈ reason e.literal.Variable,
      trail.IsLiteralFalse literal = true ∧
      trail.trailIndexOf literal.Variable < trail.trailIndexOf e.literal.Variable)
    (hsame : ∀ e ∈ trail.entries,
      reason (trail.ReferenceVarWithSameReason e.literal.Variable) = reason e.literal.Variable)
    (h0 : ∀ e ∈ trail.entries, e.level = 0 → literalHolds a e.literal = true) :
    ∀ (fuel : Nat) (clause : List Literal) (st : FirstUIPState) (bound : Nat)
      (r : FirstUIPState),
    FirstUIPInvariant trail level st bound →
    st.trail_index = (bound : Int) - 1 → 0 < bound →
    (∀ literal ∈ clause, trail.IsLiteralFalse literal = true ∧
      trail.trailIndexOf literal.Variable < bound) →
    (1 ≤ st.num_literal_at_highest_level_that_needs_to_be_processed ∨
      ∃ literal ∈ clause, trail.levelOf literal.Variable = level) →
    SameReasonInvariant reason st clause →
    firstUIPLoop trail reason level fuel clause st = Except.ok r →
    (∀ t ∈ r.reason_used_to_infer_the_conflict, trail.IsLiteralTrue t = true →
      clauseHolds a (t :: reason t.Variable) = true) →
    ((∃ l ∈ st.conflict, literalHolds a l = true) ∨
      (∃ (i : Nat) (e : TrailEntry), i < bound ∧ trail.entries[i]? = some e ∧
        e.level = level ∧ st.is_marked_.get e.literal.Variable = true ∧
        literalHolds a e.literal = false) ∨
      ∃ l ∈ clause, literalHolds a l = true) →
    clauseHolds a r.conflict = true
  | 0, _, _, _, _, _, _, _, _, _, _, hr, _, _ => by simp [firstUIPLoop] at hr
  | fuel + 1, clause, st, bound, r, hinv, hti, hb, hclause, hsome, hsi, hr, hused, hsem => by
    have hpos := expandClause_markedAtLevel_pos trail hn level bound clause st hinv hclause hsome
    obtain ⟨inv1, hmono, hcl, ⟨extra, hextra⟩, -, hsame1, hti1⟩ :=
      expandClause_invariant trail hn level bound clause st hinv hclause
    obtain ⟨j, ej, hjb, hej, hejl, hjm, hun, hcnt, hloop⟩ :=
      firstUIPLoop_step trail reason level hs fuel clause st _ bound rfl inv1
        (hti1.trans hti) hpos
    rw [hloop] at hr
    generalize expandClause trail level clause st = st1 at *
    have hnum := inv1.count
    have hmemj : ej ∈ trail.entries := List.mem_iff_getElem?.2 ⟨j, hej⟩
    have hidxj := trail.trailIndexOf_of_getElem? hn j ej hej
    -- the clause resolved so far holds after the expansion
    have hsem1 : (∃ l ∈ st1.conflict, literalHolds a l = true) ∨
        ∃ (i : Nat) (e : TrailEntry), i < bound ∧ trail.entries[i]? = some e ∧
          e.level = level ∧ st1.is_marked_.get e.literal.Variable = true ∧
          literalHolds a e.literal = false := by
      rcases hsem with ⟨l, hl, hla⟩ | ⟨i, e, hi, he, hel, hem, hea⟩ | ⟨l, hl, hla⟩
      · left
        refine ⟨l, ?_, hla⟩
        rw [hextra]
        exact List.mem_append_left _ hl
      · right
        exact ⟨i, e, hi, he, hel, hmono _ hem, hea⟩
      · exact FirstUIPInvariant.holds_of_marked trail level st1 bound a hn inv1 h0 l
          (hclause l hl).1 (hclause l hl).2 (hcl l hl) hla
    -- the recorded reasons are marked after the expansion
    have hsi1 : ∀ position var,
        (position, var) ∈ st1.same_reason_identifier_.first_variable_ →
        reason var = reason position ∧
        ∀ literal ∈ reason var, st1.is_marked_.get literal.Variable = true := by
      intro position var hpv
      rw [hsame1] at hpv
      obtain ⟨h1, h2⟩ := hsi position var hpv
      refine ⟨h1, fun literal hl => ?_⟩
      rcases h2 literal hl with h | h
      · exact hmono _ h
      · exact hcl literal h
    -- the entries between the index found and the bound are not marked
    have hsem2 : (∃ l ∈ st1.conflict, literalHolds a l = true) ∨
        (literalHolds a ej.literal = false) ∨
        ∃ (i : Nat) (e : TrailEntry), i < j ∧ trail.entries[i]? = some e ∧
          e.level = level ∧ st1.is_marked_.get e.literal.Variable = true ∧
          literalHolds a e.literal = false := by
      rcases hsem1 with h | ⟨i, e, hi, he, hel, hem, hea⟩
      · exact Or.inl h
      · rcases Nat.lt_trichotomy i j with hlt | heq | hgt
        · exact Or.inr (Or.inr ⟨i, e, hlt, he, hel, hem, hea⟩)
        · subst heq
          rw [hej] at he
          simp only [Option.some.injEq] at he
          subst he
          exact Or.inr (Or.inl hea)
        · have := hun i e hgt hi he
          rw [hem] at this
          simp at this
    by_cases hone : st1.num_literal_at_highest_level_that_needs_to_be_processed = 1
    · rw [if_pos hone] at hr
      simp only [Except.ok.injEq] at hr
      rw [← hr]
      obtain ⟨rest, hrest, hmem⟩ :=
        swapBackFront_append_singleton st1.conflict ej.literal.Negated
      simp only
      rw [hrest, clauseHolds_iff]
      rcases hsem2 with ⟨l, hl, hla⟩ | hea | ⟨i, e, hi, he, hel, hem, hea⟩
      · exact ⟨l, List.mem_cons_of_mem _ ((hmem l).2 hl), hla⟩
      · refine ⟨ej.literal.Negated, List.mem_cons_self _ _, ?_⟩
        rw [literalHolds_Negated, hea]
        rfl
      · have := markedAtLevel_of_mem trail _ level i e he hel hem j hi
        omega
    · rw [if_neg hone] at hr
      have hjpos : 0 < markedAtLevel trail st1.is_marked_ level j := by omega
      have hj0 : 0 < j := by
        rcases Nat.eq_zero_or_pos j with h0 | h0
        · rw [h0] at hjpos
          simp [markedAtLevel] at hjpos
        · exact h0
      have hspec := st1.same_reason_identifier_.FirstVariableWithSameReason_spec trail
        ej.literal.Variable
      have hreasonj : ∀ literal ∈ reason ej.literal.Variable,
          trail.IsLiteralFalse literal = true ∧ trail.trailIndexOf literal.Variable < j := by
        intro literal hl
        obtain ⟨h1, h2⟩ := hreason ej hmemj literal hl
        rw [hidxj] at h2
        exact ⟨h1, h2⟩
      have htrue : trail.IsLiteralTrue ej.literal = true :=
        trail.IsLiteralTrue_of_getElem? j ej hej
      have hinv2 : FirstUIPInvariant trail level
          { st1 with
            reason_used_to_infer_the_conflict :=
              st1.reason_used_to_infer_the_conflict ++ [ej.literal],
            same_reason_identifier_ :=
              (st1.same_reason_identifier_.FirstVariableWithSameReason trail
                ej.literal.Variable).2,
            num_literal_at_highest_level_that_needs_to_be_processed :=
              st1.num_literal_at_highest_level_that_needs_to_be_processed - 1,
            trail_index := (j : Int) - 1 } j := by
        refine ⟨by have := inv1.bound_le; omega, ?_, inv1.marked_assigned, ?_,
          inv1.conflict_false, inv1.lower_marked⟩
        · intro i e hi he
          exact inv1.below i e (by omega) he
        · simp only
          omega
      -- the clause of the entry at index j holds
      have hclausej := hused ej.literal
        (firstUIPLoop_reason_used_subset trail reason level fuel _ _ r hr ej.literal
          (List.mem_append_right _ (List.mem_singleton_self _))) htrue
      rw [clauseHolds_iff] at hclausej
      apply firstUIPLoop_sound trail reason level a hs hn hreason hsame h0 fuel _ _ j r hinv2 rfl
        hj0 ?_ ?_ ?_ hr hused ?_
      · intro literal hl
        split at hl
        · simp at hl
        · exact hreasonj literal hl
      · left
        simp only
        omega
      · -- the invariant of the recorded reasons
        intro position var hpv
        simp only at hpv
        rcases hspec.1 with heq | ⟨hfirst, happ⟩
        · rw [heq] at hpv
          obtain ⟨h1, h2⟩ := hsi1 position var hpv
          exact ⟨h1, fun literal hl => Or.inl (h2 literal hl)⟩
        · rw [happ] at hpv
          rcases List.mem_append.1 hpv with h | h
          · obtain ⟨h1, h2⟩ := hsi1 position var h
            exact ⟨h1, fun literal hl => Or.inl (h2 literal hl)⟩
          · simp only [List.mem_singleton, Prod.mk.injEq] at h
            obtain ⟨hp, hv⟩ := h
            subst hp hv
            refine ⟨(hsame ej hmemj).symm, fun literal hl => Or.inr ?_⟩
            rw [if_neg (by simpa using hfirst)]
            exact hl
      · -- the clause resolved so far
        rcases hsem2 with h | hea | ⟨i, e, hi, he, hel, hem, hea⟩
        · exact Or.inl h
        · -- the entry at index j is false in the assignment: its reason holds
          obtain ⟨l, hl, hla⟩ := hclausej
          rcases List.mem_cons.1 hl with rfl | hl
          · rw [hea] at hla
            simp at hla
          · by_cases hskip : (st1.same_reason_identifier_.FirstVariableWithSameReason trail
                ej.literal.Variable).1 ≠ ej.literal.Variable
            · -- the reason was expanded before, for a variable with the same reason
              have hmarked : st1.is_marked_.get l.Variable = true := by
                rcases hspec.2 hskip with hin | hin
                · obtain ⟨h1, h2⟩ := hsi1 _ _ hin
                  rw [← h1] at hl
                  exact h2 l hl
                · obtain ⟨h1, h2⟩ := hsi1 _ _ hin
                  rw [← hsame ej hmemj, ← h1] at hl
                  exact h2 l hl
              have hj2 := FirstUIPInvariant.holds_of_marked trail level _ j a hn hinv2 h0 l
                (hreasonj l hl).1 (hreasonj l hl).2 hmarked hla
              rcases hj2 with h | h
              · exact Or.inl h
              · exact Or.inr (Or.inl h)
            · right
              right
              rw [if_neg hskip]
              exact ⟨l, hl, hla⟩
        · exact Or.inr (Or.inl ⟨i, e, hi, he, hel, hem, hea⟩)

/-- The conflict analysis is sound: an assignment that satisfies the failing
clause, the clause of every trail literal the analysis used, and the trail
literals of level 0, satisfies the conflict that is returned. -/
theorem computeFirstUIPConflict_sound (trail : Trail) (reason : Nat → List Literal)
    (fuel : Nat) (failing_clause : List Literal) (a : Assignment) (r : FirstUIPState)
    (hc : ConflictState trail reason failing_clause)
    (hsame : ∀ e ∈ trail.entries,
      reason (trail.ReferenceVarWithSameReason e.literal.Variable) = reason e.literal.Variable)
    (hr : computeFirstUIPConflict trail reason fuel VariablesWithSameReasonIdentifier.Clear
      failing_clause = Except.ok r)
    (hfailing : clauseHolds a failing_clause = true)
    (hused : ∀ t ∈ r.reason_used_to_infer_the_conflict, trail.IsLiteralTrue t = true →
      clauseHolds a (t :: reason t.Variable) = true)
    (h0 : ∀ e ∈ trail.entries, e.level = 0 → literalHolds a e.literal = true) :
    clauseHolds a r.conflict = true := by
  obtain ⟨hs, hn, hfalse, hreason⟩ := hc
  unfold computeFirstUIPConflict at hr
  dsimp only at hr
  rw [clauseHolds_iff] at hfailing
  obtain ⟨lt, hlt, hlta⟩ := hfailing
  rcases highestTrailIndex_spec trail failing_clause with
    ⟨hnil, -⟩ | ⟨i0, hidx, ⟨l0, hl0, hl0i⟩, hmax⟩
  · rw [hnil] at hlt
    simp at hlt
  · rw [hidx, if_neg (by omega)] at hr
    have hto : ((i0 : Int)).toNat = i0 := by omega
    rw [hto] at hr
    obtain ⟨j0, e0, hj0, -, he0v⟩ := trail.assigned_of_IsLiteralFalse l0 (hfalse l0 hl0)
    have hj0i : j0 = i0 := by
      have := trail.trailIndexOf_of_getElem? hn j0 e0 hj0
      rw [he0v, hl0i] at this
      exact this.symm
    subst hj0i
    have hlev0 : trail.levelOf l0.Variable = e0.level := by
      rw [← he0v]
      exact trail.levelOf_of_getElem? hn j0 e0 hj0
    have hH : trail.levelOf (trail.get j0).Variable = e0.level := by
      rw [trail.get_of_getElem? j0 e0 hj0]
      exact trail.levelOf_of_getElem? hn j0 e0 hj0
    rw [hH] at hr
    have hlen : j0 < trail.entries.length := by
      rcases Nat.lt_or_ge j0 trail.entries.length with h | h
      · exact h
      · rw [List.getElem?_eq_none h] at hj0
        simp at hj0
    by_cases hz : e0.level = 0
    · -- the failing clause is at level 0: no such assignment satisfies it
      exfalso
      obtain ⟨j, e, hj, hel, hev⟩ := trail.assigned_of_IsLiteralFalse lt (hfalse lt hlt)
      have h1 := trail.trailIndexOf_of_getElem? hn j e hj
      rw [hev] at h1
      have h2 := hmax lt hlt
      have h3 := trail.level_le_of_le hs j j0 e e0 hj hj0 (by omega)
      have h4 := h0 e (List.mem_iff_getElem?.2 ⟨j, hj⟩) (by omega)
      rw [hel, literalHolds_Negated, hlta] at h4
      simp at h4
    · rw [if_neg hz] at hr
      refine firstUIPLoop_sound trail reason e0.level a hs hn hreason hsame h0 fuel
        failing_clause ⟨SparseBitset.ClearAndResize, [], [],
          VariablesWithSameReasonIdentifier.Clear, (j0 : Int), 0⟩ (j0 + 1) r
        ⟨by unfold Trail.Index; omega,
          fun i e hi he => trail.level_le_of_le hs i j0 e e0 he hj0 (by omega),
          fun var hv => by simp [SparseBitset.get_ClearAndResize] at hv,
          by simp [markedAtLevel_ClearAndResize],
          fun literal hl => by simp at hl,
          fun var hv => by simp [SparseBitset.get_ClearAndResize] at hv⟩
        (by simp)
        (by omega)
        (fun literal hl => ⟨hfalse literal hl, by have := hmax literal hl; omega⟩)
        (Or.inr ⟨l0, hl0, hlev0⟩)
        (fun position var hpv => by
          simp [VariablesWithSameReasonIdentifier.Clear] at hpv)
        hr hused (Or.inr (Or.inr ⟨lt, hlt, hlta⟩))

/-- C17 (the learned clause is a consequence).  In a state at a conflict where a
variable enqueued with the "same reason as" alias has the reason of its
reference variable, `ComputeFirstUIPConflict`, called as the solver calls it
(on a cleared `same_reason_identifier_`), returns, given fuel for the length of
the trail; and every total assignment that satisfies the failing clause,
satisfies the clause made of `t` and `Reason(t)` for every trail literal `t`
that the analysis recorded as used, and makes every trail literal of level 0
true, satisfies the conflict that is returned. -/
theorem ComputeFirstUIPConflict_consequence (s : SatSolver) (fuel : Nat)
    (failing_clause : List Literal)
    (hc : ConflictState s.trail_ (s.Reason s.trail_.Index) failing_clause)
    (hsame : ∀ e ∈ s.trail_.entries,
      s.Reason s.trail_.Index (s.trail_.ReferenceVarWithSameReason e.literal.Variable) =
        s.Reason s.trail_.Index e.literal.Variable)
    (hfuel : s.trail_.Index ≤ fuel) :
    ∃ r, s.ComputeFirstUIPConflict fuel VariablesWithSameReasonIdentifier.Clear
        failing_clause = Except.ok r ∧
      ∀ a : Assignment, clauseHolds a failing_clause = true →
        (∀ t ∈ r.reason_used_to_infer_the_conflict, s.trail_.IsLiteralTrue t = true →
          clauseHolds a (t :: s.Reason s.trail_.Index t.Variable) = true) →
        (∀ e ∈ s.trail_.entries, e.level = 0 → literalHolds a e.literal = true) →
        clauseHolds a r.conflict = true := by
  obtain ⟨r, hr, -⟩ :=
    computeFirstUIPConflict_spec s.trail_ (s.Reason s.trail_.Index) fuel
      VariablesWithSameReasonIdentifier.Clear failing_clause hc hfuel
  exact ⟨r, hr, fun a hfailing hused h0 =>
    computeFirstUIPConflict_sound s.trail_ (s.Reason s.trail_.Index) fuel failing_clause a r
      hc hsame hr hfailing hused h0⟩

/-- On the conflict `not x1 or not x2`, where `x2` has the reason of `x1`, the
analysis skips the reason of `x1` and returns `[not x0]`, a consequence of the
clauses it used. -/
theorem ComputeFirstUIPConflict_consequence_witness :
    ∃ r, sameReasonExample.ComputeFirstUIPConflict 3 VariablesWithSameReasonIdentifier.Clear
        [⟨3⟩, ⟨5⟩] = Except.ok r ∧
      ∀ a : Assignment, clauseHolds a [⟨3⟩, ⟨5⟩] = true →
        (∀ t ∈ r.reason_used_to_infer_the_conflict,
          sameReasonExample.trail_.IsLiteralTrue t = true →
          clauseHolds a (t :: sameReasonExample.Reason sameReasonExample.trail_.Index
            t.Variable) = true) →
        (∀ e ∈ sameReasonExample.trail_.entries, e.level = 0 →
          literalHolds a e.literal = true) →
        clauseHolds a r.conflict = true :=
  ComputeFirstUIPConflict_consequence sameReasonExample 3 [⟨3⟩, ⟨5⟩]
    ⟨by decide, by decide, by decide, by decide⟩ (by decide) (by decide)

/-- The level of a literal of a reason is at most the level of the literal it is
the reason of. -/
theorem ConflictState.reason_level_le {trail : Trail} {reason : Nat → List Literal}
    {failing_clause : List Literal} (hc : ConflictState trail reason failing_clause)
    (literal : Literal) (hfalse : trail.IsLiteralFalse literal = true)
    (l : Literal) (hl : l ∈ reason literal.Variable) :
    trail.IsLiteralFalse l = true ∧ trail.levelOf l.Variable ≤ trail.levelOf literal.Variable := by
  obtain ⟨i, e, hi, -, hev⟩ := trail.assigned_of_IsLiteralFalse literal hfalse
  have hmem : e ∈ trail.entries := List.mem_iff_getElem?.2 ⟨i, hi⟩
  rw [← hev] at hl
  obtain ⟨h1, h2⟩ := hc.reason_false e hmem l hl
  obtain ⟨i2, e2, hi2, -, hev2⟩ := trail.assigned_of_IsLiteralFalse l h1
  have k1 := trail.trailIndexOf_of_getElem? hc.nodup i e hi
  have k2 := trail.trailIndexOf_of_getElem? hc.nodup i2 e2 hi2
  have k3 := trail.levelOf_of_getElem? hc.nodup i e hi
  have k4 := trail.levelOf_of_getElem? hc.nodup i2 e2 hi2
  rw [hev2] at k2 k4
  rw [hev] at k3
  rw [k3, k4]
  exact ⟨h1, trail.level_le_of_le hc.sorted i2 i e2 e hi2 hi (by omega)⟩

/-- C19 (simple minimization).  In a state at a conflict whose trail levels are
at most the current decision level and whose failing clause has a literal of a
level above 0, `ComputeFirstUIPConflict` returns a conflict `first :: rest`, and
`MinimizeConflictSimple`, called on it with the marks that the analysis left,
returns `first` followed by the literals of `rest` that it keeps, in their
order: a sub-list of the conflict.  It drops a literal of `rest` exactly when
the reason of that literal is not empty and every literal of the reason is at
level 0 or has the variable of a literal of the conflict. -/
theorem MinimizeConflictSimple_spec (s : SatSolver) (fuel : Nat)
    (same : VariablesWithSameReasonIdentifier) (failing_clause : List Literal)
    (hc : ConflictState s.trail_ (s.Reason s.trail_.Index) failing_clause)
    (hlevels : ∀ e ∈ s.trail_.entries, e.level ≤ s.CurrentDecisionLevel)
    (hpos : ∃ literal ∈ failing_clause, 0 < s.DecisionLevel literal.Variable)
    (hfuel : s.trail_.Index ≤ fuel) :
    ∃ r, s.ComputeFirstUIPConflict fuel same failing_clause = Except.ok r ∧
      ∃ (first : Literal) (rest : List Literal) (keep : Literal → Bool),
        r.conflict = first :: rest ∧
        s.MinimizeConflictSimple r.is_marked_ r.conflict = first :: rest.filter keep ∧
        (s.MinimizeConflictSimple r.is_marked_ r.conflict).Sublist r.conflict ∧
        ∀ literal ∈ rest, (keep literal = false ↔
          (s.Reason s.trail_.Index literal.Variable ≠ [] ∧
            ∀ l ∈ s.Reason s.trail_.Index literal.Variable,
              s.DecisionLevel l.Variable = 0 ∨ ∃ c ∈ r.conflict, c.Variable = l.Variable)) := by
  obtain ⟨r, hr, -, hfull⟩ :=
    computeFirstUIPConflict_spec s.trail_ (s.Reason s.trail_.Index) fuel same failing_clause
      hc hfuel
  obtain ⟨level, hlpos, -, -, ⟨⟨j, e, rest, hj, hel, hconf, hem, hrest, hlower⟩, hassigned⟩⟩ :=
    hfull hpos
  have heq : s.MinimizeConflictSimple r.is_marked_ r.conflict =
      e.literal.Negated ::
        rest.filter (fun literal => !s.canBeRemoved r.is_marked_ literal.Variable) := by
    unfold SatSolver.MinimizeConflictSimple
    rw [hconf]
    rfl
  refine ⟨r, hr, e.literal.Negated, rest,
    fun literal => !s.canBeRemoved r.is_marked_ literal.Variable, hconf, heq, ?_, ?_⟩
  · rw [heq, hconf]
    exact List.Sublist.cons₂ _ (List.filter_sublist _)
  · intro literal hl
    obtain ⟨hfalse, h0, hlt, hm⟩ := hrest literal hl
    have hcur : s.DecisionLevel literal.Variable ≠ s.CurrentDecisionLevel := by
      have := hlevels e (List.mem_iff_getElem?.2 ⟨j, hj⟩)
      unfold SatSolver.DecisionLevel
      omega
    have hefirst : s.trail_.levelOf e.literal.Negated.Variable = level := by
      rw [Literal.Variable_Negated, s.trail_.levelOf_of_getElem? hc.nodup j e hj, hel]
    -- a literal of the reason is marked exactly when its variable is in the conflict
    have hiff : ∀ l ∈ s.Reason s.trail_.Index literal.Variable,
        ((s.DecisionLevel l.Variable = 0 ∨ r.is_marked_.get l.Variable = true) ↔
          (s.DecisionLevel l.Variable = 0 ∨ ∃ c ∈ r.conflict, c.Variable = l.Variable)) := by
      intro l hlr
      obtain ⟨-, hle⟩ := hc.reason_level_le literal hfalse l hlr
      unfold SatSolver.DecisionLevel
      constructor
      · rintro (hz | hmark)
        · exact Or.inl hz
        · rcases Nat.eq_zero_or_pos (s.trail_.levelOf l.Variable) with hz | hp
          · exact Or.inl hz
          · right
            obtain ⟨c, hcr, hcv⟩ := hlower l.Variable hmark hp (by omega)
            exact ⟨c, by rw [hconf]; exact List.mem_cons_of_mem _ hcr, hcv⟩
      · rintro (hz | ⟨c, hcm, hcv⟩)
        · exact Or.inl hz
        · right
          rw [hconf] at hcm
          rcases List.mem_cons.1 hcm with rfl | hcr
          · rw [← hcv, hefirst] at hle
            omega
          · rw [← hcv]
            exact (hrest c hcr).2.2.2
    simp only [Bool.not_eq_false']
    unfold SatSolver.canBeRemoved
    rw [if_pos hcur]
    dsimp only
    by_cases hempty : s.Reason s.trail_.Index literal.Variable = []
    · simp [hempty]
    · rw [if_pos hempty, List.all_eq_true]
      constructor
      · intro h
        refine ⟨hempty, fun l hlr => (hiff l hlr).1 ?_⟩
        have := h l hlr
        simpa using this
      · rintro ⟨-, h⟩ l hlr
        have := (hiff l hlr).2 (h l hlr)
        simpa using this

/-- On the conflict `not x3 or not x1 or not x0`, the analysis returns
`[not x3, not x0, not x1]` and the simple minimization drops `not x1`, whose
reason is `not x0`. -/
theorem MinimizeConflictSimple_spec_witness :
    ∃ r, minimizationExample.ComputeFirstUIPConflict 4 VariablesWithSameReasonIdentifier.Clear
        [⟨7⟩, ⟨3⟩, ⟨1⟩] = Except.ok r ∧
      r.conflict = [⟨7⟩, ⟨1⟩, ⟨3⟩] ∧
      minimizationExample.MinimizeConflictSimple r.is_marked_ r.conflict = [⟨7⟩, ⟨1⟩] ∧
      (minimizationExample.MinimizeConflictSimple r.is_marked_ r.conflict).Sublist
        r.conflict := by
  obtain ⟨r, hr, first, rest, keep, -, -, hsub, -⟩ :=
    MinimizeConflictSimple_spec minimizationExample 4 VariablesWithSameReasonIdentifier.Clear
      [⟨7⟩, ⟨3⟩, ⟨1⟩] ⟨by decide, by decide, by decide, by decide⟩ (by decide)
      ⟨⟨7⟩, by decide, by decide⟩ (by decide)
  have hd : (minimizationExample.ComputeFirstUIPConflict 4
      VariablesWithSameReasonIdentifier.Clear [⟨7⟩, ⟨3⟩, ⟨1⟩]).map (fun r => (r.conflict,
        minimizationExample.MinimizeConflictSimple r.is_marked_ r.conflict)) =
      Except.ok ([⟨7⟩, ⟨1⟩, ⟨3⟩], [⟨7⟩, ⟨1⟩]) := rfl
  rw [hr] at hd
  simp only [Except.map, Except.ok.injEq, Prod.mk.injEq] at hd
  exact ⟨r, hr, hd.1, hd.2, hsub⟩

theorem reasonWeight_pos (reason : Nat → List Literal) (depth var : Nat) :
    0 < reasonWeight reason depth var := by
  cases depth with
  | zero => simp [reasonWeight]
  | succ k =>
    rw [reasonWeight]
    omega

theorem reasonWeight_mono_succ (reason : Nat → List Literal) :
    ∀ (depth var : Nat), reasonWeight reason depth var ≤ reasonWeight reason (depth + 1) var
  | 0, var => by
    rw [reasonWeight, reasonWeight]
    omega
  | depth + 1, var => by
    rw [reasonWeight, reasonWeight]
    have : ((reason var).map (fun l => reasonWeight reason depth l.Variable)).sum ≤
        ((reason var).map (fun l => reasonWeight reason (depth + 1) l.Variable)).sum := by
      apply List.sum_le_sum
      intro l _
      exact reasonWeight_mono_succ reason depth l.Variable
    omega

theorem reasonWeight_mono (reason : Nat → List Literal) (var : Nat) {d1 d2 : Nat}
    (h : d1 ≤ d2) : reasonWeight reason d1 var ≤ reasonWeight reason d2 var := by
  induction h with
  | refl => exact le_refl _
  | step _ ih => exact le_trans ih (reasonWeight_mono_succ reason _ var)

/-- A literal of `rest` is implied. -/
theorem Implied_of_rest {trail : Trail} {reason : Nat → List Literal} {level : Nat}
    {mtl : Nat → Int} {rest : List Literal} {a : Assignment}
    (ctx : MinimizationContext trail reason level mtl rest a) (c : Literal) (hc : c ∈ rest) :
    Implied trail level rest a c.Variable := by
  intro _ _ h
  have hf := h c hc (le_refl _)
  obtain ⟨i, e, hi, hel, hev⟩ := trail.assigned_of_IsLiteralFalse c (ctx.rest_false c hc).1
  have k1 := trail.trailIndexOf_of_getElem? ctx.nodup i e hi
  rw [hev] at k1
  rw [k1, trail.get_of_getElem? i e hi, hel, literalHolds_Negated, hf]
  rfl

/-- A variable assigned at level 0 is implied. -/
theorem Implied_of_level0 {trail : Trail} {reason : Nat → List Literal} {level : Nat}
    {mtl : Nat → Int} {rest : List Literal} {a : Assignment}
    (ctx : MinimizationContext trail reason level mtl rest a) (var : Nat)
    (h0 : trail.levelOf var = 0) : Implied trail level rest a var := by
  intro hassigned _ _
  obtain ⟨e, he, hev⟩ := trail.getElem?_trailIndexOf var hassigned
  have k := trail.levelOf_of_getElem? ctx.nodup _ e he
  rw [hev, h0] at k
  rw [trail.get_of_getElem? _ e he]
  exact ctx.level0 e (List.mem_iff_getElem?.2 ⟨_, he⟩) k.symm

/-- The trail literal of a variable that is not a search decision is true in the
assignment as soon as the variables of its reason are implied and the
assignment makes false the literals of `rest` of a smaller trail index. -/
theorem holds_of_reason {trail : Trail} {reason : Nat → List Literal} {level : Nat}
    {mtl : Nat → Int} {rest : List Literal} {a : Assignment}
    (ctx : MinimizationContext trail reason level mtl rest a) (var : Nat)
    (hexp : Expandable trail level var)
    (hreason : ∀ l ∈ reason var, Implied trail level rest a l.Variable)
    (hrest : ∀ c ∈ rest, trail.trailIndexOf c.Variable < trail.trailIndexOf var →
      literalHolds a c = false) :
    literalHolds a (trail.get (trail.trailIndexOf var)) = true := by
  obtain ⟨e, he, hev, hinfo, hel⟩ := hexp
  obtain ⟨i, hi⟩ := List.mem_iff_getElem?.1 he
  have k1 := trail.trailIndexOf_of_getElem? ctx.nodup i e hi
  rw [hev] at k1
  rw [k1, trail.get_of_getElem? i e hi]
  have hclause := ctx.reason_holds e he hinfo
  rw [clauseHolds_iff] at hclause
  obtain ⟨l, hl, hla⟩ := hclause
  rcases List.mem_cons.1 hl with rfl | hl
  · exact hla
  · exfalso
    obtain ⟨hfalse, hidx⟩ := ctx.reason_false e he l hl
    rw [hev] at hl hidx
    obtain ⟨i2, e2, hi2, hel2, hev2⟩ := trail.assigned_of_IsLiteralFalse l hfalse
    have k2 := trail.trailIndexOf_of_getElem? ctx.nodup i2 e2 hi2
    have k3 := trail.levelOf_of_getElem? ctx.nodup i2 e2 hi2
    rw [hev2] at k2 k3
    have hlen : i2 < trail.entries.length := by
      rcases Nat.lt_or_ge i2 trail.entries.length with h | h
      · exact h
      · rw [List.getElem?_eq_none h] at hi2
        simp at hi2
    have hle := trail.level_le_of_le ctx.sorted i2 i e2 e hi2 hi (by omega)
    have := hreason l hl (by rw [k2]; exact hlen) (by omega)
      (fun c hc hci => hrest c hc (by omega))
    rw [k2, trail.get_of_getElem? i2 e2 hi2, hel2, literalHolds_Negated, hla] at this
    simp at this

/-- A variable that is not a search decision is implied when the variables of
its reason are. -/
theorem Implied_of_reason {trail : Trail} {reason : Nat → List Literal} {level : Nat}
    {mtl : Nat → Int} {rest : List Literal} {a : Assignment}
    (ctx : MinimizationContext trail reason level mtl rest a) (var : Nat)
    (hexp : Expandable trail level var)
    (hreason : ∀ l ∈ reason var, Implied trail level rest a l.Variable) :
    Implied trail level rest a var :=
  fun _ _ hrest =>
    holds_of_reason ctx var hexp hreason (fun c hc hlt => hrest c hc (Nat.le_of_lt hlt))

/-- A variable of the reason of an expandable variable that is above the bound
of its level is expandable, and its potential is below that of the variable. -/
theorem Expandable_of_reason {trail : Trail} {reason : Nat → List Literal} {level : Nat}
    {mtl : Nat → Int} {rest : List Literal} {a : Assignment}
    (ctx : MinimizationContext trail reason level mtl rest a) (parent : Nat)
    (hparent : Expandable trail level parent) (l : Literal) (hl : l ∈ reason parent) :
    trail.trailIndexOf l.Variable < trail.Index ∧
    trail.trailIndexOf l.Variable < trail.trailIndexOf parent ∧
    trail.levelOf l.Variable < level ∧
    (0 < trail.levelOf l.Variable →
      ¬ (trail.trailIndexOf l.Variable : Int) ≤ mtl (trail.levelOf l.Variable) →
      Expandable trail level l.Variable) := by
  obtain ⟨e, he, hev, hinfo, hel⟩ := hparent
  obtain ⟨i, hi⟩ := List.mem_iff_getElem?.1 he
  have k1 := trail.trailIndexOf_of_getElem? ctx.nodup i e hi
  rw [hev] at k1
  rw [← hev] at hl
  obtain ⟨hfalse, hidx⟩ := ctx.reason_false e he l hl
  rw [hev] at hidx
  obtain ⟨i2, e2, hi2, hel2, hev2⟩ := trail.assigned_of_IsLiteralFalse l hfalse
  have k2 := trail.trailIndexOf_of_getElem? ctx.nodup i2 e2 hi2
  have k3 := trail.levelOf_of_getElem? ctx.nodup i2 e2 hi2
  rw [hev2] at k2 k3
  have hlen : i2 < trail.entries.length := by
    rcases Nat.lt_or_ge i2 trail.entries.length with h | h
    · exact h
    · rw [List.getElem?_eq_none h] at hi2
      simp at hi2
  have hle := trail.level_le_of_le ctx.sorted i2 i e2 e hi2 hi (by omega)
  have hmem2 : e2 ∈ trail.entries := List.mem_iff_getElem?.2 ⟨i2, hi2⟩
  refine ⟨by rw [k2]; exact hlen, hidx, by omega, ?_⟩
  intro hpos hnot
  refine ⟨e2, hmem2, hev2, ?_, by omega⟩
  intro hdec
  have := ctx.prune e2 hmem2 (by omega) hdec
  rw [hev2, ← k3] at this
  exact hnot this

theorem potential_le_of_reason {trail : Trail} {reason : Nat → List Literal} {level : Nat}
    {mtl : Nat → Int} {rest : List Literal} {a : Assignment}
    (ctx : MinimizationContext trail reason level mtl rest a) (parent : Nat)
    (hparent : Expandable trail level parent) (l : Literal) (hl : l ∈ reason parent) :
    potential trail reason l.Variable ≤
      reasonWeight reason (trail.trailIndexOf parent) l.Variable := by
  have h := (Expandable_of_reason ctx parent hparent l hl).2.1
  unfold potential
  exact reasonWeight_mono reason l.Variable (by omega)

/-- The loop that expands the reason of `current_var` inside the search: it
aborts, or it pushes variables of the reason that are not search decisions,
and the other variables of the reason are implied. -/
theorem expandReason_spec {trail : Trail} {reason : Nat → List Literal} {level : Nat}
    {mtl : Nat → Int} {rest : List Literal} {a : Assignment}
    (ctx : MinimizationContext trail reason level mtl rest a) (st : MinimizationState)
    (hm : MarksImplied trail level rest a st.is_marked_) (parent : Nat)
    (hparent : Expandable trail level parent) :
    ∀ (literals : List Literal) (vtp : List Nat), (∀ l ∈ literals, l ∈ reason parent) →
    (expandReason trail mtl st literals vtp).1 = true ∨
    ∃ cs, expandReason trail mtl st literals vtp = (false, vtp ++ cs) ∧
      (∀ c ∈ cs, (∃ l ∈ literals, l.Variable = c) ∧ Expandable trail level c) ∧
      (∀ l ∈ literals, Implied trail level rest a l.Variable ∨ l.Variable ∈ cs) ∧
      (cs.map (potential trail reason)).sum ≤
        (literals.map (fun l => reasonWeight reason (trail.trailIndexOf parent)
          l.Variable)).sum
  | [], vtp, _ => by
    right
    exact ⟨[], by simp [expandReason], by simp, by simp, by simp⟩
  | l :: literals, vtp, hsub => by
    have hl : l ∈ reason parent := hsub l (List.mem_cons_self _ _)
    have hsub2 : ∀ x ∈ literals, x ∈ reason parent :=
      fun x hx => hsub x (List.mem_cons_of_mem _ hx)
    obtain ⟨hassigned, hidx, hlev, hexp⟩ := Expandable_of_reason ctx parent hparent l hl
    unfold expandReason
    dsimp only
    by_cases h1 : trail.levelOf l.Variable = 0 ∨ st.is_marked_.get l.Variable = true
    · rw [if_pos h1]
      have himp : Implied trail level rest a l.Variable := by
        rcases h1 with h0 | hmark
        · exact Implied_of_level0 ctx l.Variable h0
        · exact hm l.Variable hmark
      rcases expandReason_spec ctx st hm parent hparent literals vtp hsub2 with h | h
      · exact Or.inl h
      · right
        obtain ⟨cs, heq, hcs, himpl, hsum⟩ := h
        refine ⟨cs, heq, ?_, ?_, ?_⟩
        · intro c hc
          obtain ⟨⟨x, hx, hxc⟩, hce⟩ := hcs c hc
          exact ⟨⟨x, List.mem_cons_of_mem _ hx, hxc⟩, hce⟩
        · intro x hx
          rcases List.mem_cons.1 hx with rfl | hx
          · exact Or.inl himp
          · exact himpl x hx
        · simp only [List.map_cons, List.sum_cons]
          omega
    · rw [if_neg h1]
      by_cases h2 : (trail.trailIndexOf l.Variable : Int) ≤ mtl (trail.levelOf l.Variable) ∨
          st.is_independent_.get l.Variable = true
      · rw [if_pos h2]
        exact Or.inl rfl
      · rw [if_neg h2]
        have hlexp : Expandable trail level l.Variable :=
          hexp (by omega) (fun h => h2 (Or.inl h))
        rcases expandReason_spec ctx st hm parent hparent literals (vtp ++ [l.Variable]) hsub2
          with h | h
        · exact Or.inl h
        · right
          obtain ⟨cs, heq, hcs, himpl, hsum⟩ := h
          refine ⟨l.Variable :: cs, by rw [heq]; simp, ?_, ?_, ?_⟩
          · intro c hc
            rcases List.mem_cons.1 hc with rfl | hc
            · exact ⟨⟨l, List.mem_cons_self _ _, rfl⟩, hlexp⟩
            · obtain ⟨⟨x, hx, hxc⟩, hce⟩ := hcs c hc
              exact ⟨⟨x, List.mem_cons_of_mem _ hx, hxc⟩, hce⟩
          · intro x hx
            rcases List.mem_cons.1 hx with rfl | hx
            · exact Or.inr (List.mem_cons_self _ _)
            · rcases himpl x hx with h | h
              · exact Or.inl h
              · exact Or.inr (List.mem_cons_of_mem _ h)
          · have := potential_le_of_reason ctx parent hparent l hl
            simp only [List.map_cons, List.sum_cons]
            omega

theorem MarksImplied_Set {trail : Trail} {level : Nat} {rest : List Literal} {a : Assignment}
    (m : SparseBitset) (var : Nat) (hm : MarksImplied trail level rest a m)
    (hv : Implied trail level rest a var) : MarksImplied trail level rest a (m.Set var) := by
  intro x hx
  rw [SparseBitset.get_Set] at hx
  rcases Bool.or_eq_true_iff.1 hx with h | h
  · exact hm x h
  · have : x = var := by simpa using h
    rw [this]
    exact hv

/-- The first loop of `CanBeInferedFromConflictVariables`, over the reason of the
variable asked about: it leaves the function, or it pushes variables of the
reason that are not search decisions, and the other variables of the reason
are implied; it marks only variables of level 0. -/
theorem expandRootReason_spec {trail : Trail} {reason : Nat → List Literal} {level : Nat}
    {mtl : Nat → Int} {rest : List Literal} {a : Assignment}
    (ctx : MinimizationContext trail reason level mtl rest a) (parent : Nat)
    (hparent : Expandable trail level parent) :
    ∀ (literals : List Literal) (st : MinimizationState) (vtp : List Nat),
    MarksImplied trail level rest a st.is_marked_ →
    (∀ l ∈ literals, l ∈ reason parent) →
    MarksImplied trail level rest a (expandRootReason trail mtl literals st vtp).2.1.is_marked_ ∧
    (expandRootReason trail mtl literals st vtp).2.1.is_independent_ = st.is_independent_ ∧
    (expandRootReason trail mtl literals st vtp).2.1.same_reason_identifier_ =
      st.same_reason_identifier_ ∧
    ((expandRootReason trail mtl literals st vtp).1 = true →
      ∃ cs, (expandRootReason trail mtl literals st vtp).2.2 = vtp ++ cs ∧
        (∀ c ∈ cs, (∃ l ∈ literals, l.Variable = c) ∧ Expandable trail level c) ∧
        (∀ l ∈ literals, Implied trail level rest a l.Variable ∨ l.Variable ∈ cs) ∧
        (cs.map (potential trail reason)).sum ≤
          (literals.map (fun l => reasonWeight reason (trail.trailIndexOf parent)
            l.Variable)).sum)
  | [], st, vtp, hm, _ => by
    unfold expandRootReason
    exact ⟨hm, rfl, rfl, fun _ => ⟨[], by simp, by simp, by simp, by simp⟩⟩
  | l :: literals, st, vtp, hm, hsub => by
    have hl : l ∈ reason parent := hsub l (List.mem_cons_self _ _)
    have hsub2 : ∀ x ∈ literals, x ∈ reason parent :=
      fun x hx => hsub x (List.mem_cons_of_mem _ hx)
    obtain ⟨hassigned, hidx, hlev, hexp⟩ := Expandable_of_reason ctx parent hparent l hl
    unfold expandRootReason
    dsimp only
    by_cases h1 : st.is_marked_.get l.Variable = true
    · rw [if_pos h1]
      obtain ⟨k1, k2, k3, k4⟩ := expandRootReason_spec ctx parent hparent literals st vtp hm hsub2
      refine ⟨k1, k2, k3, fun hres => ?_⟩
      obtain ⟨cs, heq, hcs, himpl, hsum⟩ := k4 hres
      refine ⟨cs, heq, ?_, ?_, ?_⟩
      · intro c hc
        obtain ⟨⟨x, hx, hxc⟩, hce⟩ := hcs c hc
        exact ⟨⟨x, List.mem_cons_of_mem _ hx, hxc⟩, hce⟩
      · intro x hx
        rcases List.mem_cons.1 hx with rfl | hx
        · exact Or.inl (hm _ h1)
        · exact himpl x hx
      · simp only [List.map_cons, List.sum_cons]
        omega
    · rw [if_neg h1]
      by_cases h0 : trail.levelOf l.Variable = 0
      · rw [if_pos h0]
        have himp := Implied_of_level0 ctx l.Variable h0
        obtain ⟨k1, k2, k3, k4⟩ := expandRootReason_spec ctx parent hparent literals
          { st with is_marked_ := st.is_marked_.Set l.Variable } vtp
          (MarksImplied_Set _ _ hm himp) hsub2
        refine ⟨k1, k2, k3, fun hres => ?_⟩
        obtain ⟨cs, heq, hcs, himpl, hsum⟩ := k4 hres
        refine ⟨cs, heq, ?_, ?_, ?_⟩
        · intro c hc
          obtain ⟨⟨x, hx, hxc⟩, hce⟩ := hcs c hc
          exact ⟨⟨x, List.mem_cons_of_mem _ hx, hxc⟩, hce⟩
        · intro x hx
          rcases List.mem_cons.1 hx with rfl | hx
          · exact Or.inl himp
          · exact himpl x hx
        · simp only [List.map_cons, List.sum_cons]
          omega
      · rw [if_neg h0]
        by_cases h2 : (trail.trailIndexOf l.Variable : Int) ≤ mtl (trail.levelOf l.Variable) ∨
            st.is_independent_.get l.Variable = true
        · rw [if_pos h2]
          exact ⟨hm, rfl, rfl, fun hres => by simp at hres⟩
        · rw [if_neg h2]
          have hlexp : Expandable trail level l.Variable :=
            hexp (by omega) (fun h => h2 (Or.inl h))
          obtain ⟨k1, k2, k3, k4⟩ := expandRootReason_spec ctx parent hparent literals st
            (vtp ++ [l.Variable]) hm hsub2
          refine ⟨k1, k2, k3, fun hres => ?_⟩
          obtain ⟨cs, heq, hcs, himpl, hsum⟩ := k4 hres
          refine ⟨l.Variable :: cs, by rw [heq]; simp, ?_, ?_, ?_⟩
          · intro c hc
            rcases List.mem_cons.1 hc with rfl | hc
            · exact ⟨⟨l, List.mem_cons_self _ _, rfl⟩, hlexp⟩
            · obtain ⟨⟨x, hx, hxc⟩, hce⟩ := hcs c hc
              exact ⟨⟨x, List.mem_cons_of_mem _ hx, hxc⟩, hce⟩
          · intro x hx
            rcases List.mem_cons.1 hx with rfl | hx
            · exact Or.inr (List.mem_cons_self _ _)
            · rcases himpl x hx with h | h
              · exact Or.inl h
              · exact Or.inr (List.mem_cons_of_mem _ h)
          · have := potential_le_of_reason ctx parent hparent l hl
            simp only [List.map_cons, List.sum_cons]
            omega

/-- The trail index of a variable of the stack of the search is at least that
of the variables that the top frame still holds: a variable of the stack has a
literal in its reason whose trail index is at least that of such a variable. -/
theorem FramesOK_reason_index {trail : Trail} {reason : Nat → List Literal} {level : Nat}
    {mtl : Nat → Int} {rest : List Literal} {a : Assignment}
    (ctx : MinimizationContext trail reason level mtl rest a) :
    ∀ (frames : List (Nat × List Nat)) (hole : Option Nat) (x : Nat),
    FramesOK trail reason level rest a frames hole →
    (∀ frame ∈ frames.head?, ∃ l ∈ reason frame.1, l.Variable = x) →
    ∀ v ∈ stackOf frames, ∃ l ∈ reason v,
      trail.trailIndexOf x ≤ trail.trailIndexOf l.Variable
  | [], _, _, _, _ => by simp [stackOf]
  | frame :: below, hole, x, hok, htop => by
    obtain ⟨hexp, hcs, hhole, himpl, hbelow⟩ := hok
    obtain ⟨l, hl, hlx⟩ := htop frame (by simp)
    intro v hv
    unfold stackOf at hv
    rcases List.mem_append.1 hv with hv | hv
    · have hx := (Expandable_of_reason ctx frame.1 hexp l hl).2.1
      rw [hlx] at hx
      have hchild : ∀ f ∈ below.head?, ∃ l ∈ reason f.1, l.Variable = frame.1 := by
        intro f hf
        cases below with
        | nil => simp at hf
        | cons f2 below2 =>
          simp only [List.head?_cons, Option.mem_def, Option.some.injEq] at hf
          subst hf
          exact hbelow.2.2.1 frame.1 rfl
      obtain ⟨l2, hl2, hle⟩ := FramesOK_reason_index ctx below (some frame.1) frame.1 hbelow
        hchild v hv
      exact ⟨l2, hl2, by omega⟩
    · simp only [List.mem_singleton] at hv
      subst hv
      exact ⟨l, hl, by rw [hlx]⟩

theorem stackOf_ne_nil (frame : Nat × List Nat) (below : List (Nat × List Nat)) :
    stackOf (frame :: below) ≠ [] := by
  simp [stackOf]

theorem stackOf_length (frames : List (Nat × List Nat)) :
    (stackOf frames).length = frames.length := by
  induction frames with
  | nil => rfl
  | cons f below ih => simp [stackOf, ih]

theorem toProcessOf_top_nil (d : Nat) (below : List (Nat × List Nat)) :
    toProcessOf ((d, []) :: below) = toProcessOf below ++ [d] := rfl

theorem toProcessOf_top_concat (d : Nat) (cs0 : List Nat) (c : Nat)
    (below : List (Nat × List Nat)) :
    toProcessOf ((d, cs0 ++ [c]) :: below) = toProcessOf ((d, cs0) :: below) ++ [c] := by
  simp [toProcessOf]

theorem toProcessOf_push (d : Nat) (cs0 : List Nat) (c : Nat) (cs : List Nat)
    (below : List (Nat × List Nat)) :
    toProcessOf ((c, cs) :: (d, cs0) :: below) =
      toProcessOf ((d, cs0) :: below) ++ [c] ++ cs := by
  simp [toProcessOf]

/-- The turn of the search that closes the variable on top of the stack. -/
theorem dfsLoop_finish (trail : Trail) (reason : Nat → List Literal) (mtl : Nat → Int)
    (fuel : Nat) (st : MinimizationState) (ds vs : List Nat) (d : Nat) :
    dfsLoop trail reason mtl (fuel + 1) st (ds ++ [d]) (vs ++ [d]) =
      dfsLoop trail reason mtl fuel
        (if ds ≠ [] then { st with is_marked_ := st.is_marked_.Set d } else st) ds vs := by
  rw [dfsLoop]
  simp only [List.getLast?_concat, if_true, List.dropLast_concat]
  by_cases h : ds = []
  · subst h
    simp
  · have : (ds ++ [d]).length > 1 := by
      have := List.length_pos.2 h
      simp
      omega
    rw [if_pos this, if_pos h]

/-- The turn of the search on a variable that waits on top of
`variable_to_process_`. -/
theorem dfsLoop_pending (trail : Trail) (reason : Nat → List Literal) (mtl : Nat → Int)
    (fuel : Nat) (st : MinimizationState) (ds vs : List Nat) (d c : Nat) (hcd : c ≠ d) :
    dfsLoop trail reason mtl (fuel + 1) st (ds ++ [d]) (vs ++ [c]) =
      if st.is_marked_.get c then dfsLoop trail reason mtl fuel st (ds ++ [d]) vs
      else
        if (st.same_reason_identifier_.FirstVariableWithSameReason trail c).1 ≠ c then
          if st.is_independent_.get
              (st.same_reason_identifier_.FirstVariableWithSameReason trail c).1 then
            Except.ok ({ st with same_reason_identifier_ :=
              (st.same_reason_identifier_.FirstVariableWithSameReason trail c).2 }, ds ++ [d])
          else
            dfsLoop trail reason mtl fuel { st with same_reason_identifier_ :=
              (st.same_reason_identifier_.FirstVariableWithSameReason trail c).2 } (ds ++ [d]) vs
        else
          if (expandReason trail mtl { st with same_reason_identifier_ :=
              (st.same_reason_identifier_.FirstVariableWithSameReason trail c).2 }
              (reason c) (vs ++ [c])).1 = true then
            Except.ok ({ st with same_reason_identifier_ :=
              (st.same_reason_identifier_.FirstVariableWithSameReason trail c).2 },
              ds ++ [d] ++ [c])
          else
            dfsLoop trail reason mtl fuel { st with same_reason_identifier_ :=
                (st.same_reason_identifier_.FirstVariableWithSameReason trail c).2 }
              (ds ++ [d] ++ [c])
              (expandReason trail mtl { st with same_reason_identifier_ :=
                (st.same_reason_identifier_.FirstVariableWithSameReason trail c).2 }
                (reason c) (vs ++ [c])).2 := by
  rw [dfsLoop]
  simp only [List.getLast?_concat, List.dropLast_concat, Option.some.injEq]
  rw [if_neg (fun h => hcd h.symm)]
  split
  · rfl
  · split
    · rfl
    · rcases hexp : expandReason trail mtl { st with same_reason_identifier_ :=
          (st.same_reason_identifier_.FirstVariableWithSameReason trail c).2 }
          (reason c) (vs ++ [c]) with ⟨b, vtp1⟩
      cases b <;> simp

theorem FramesOK_fill {trail : Trail} {reason : Nat → List Literal} {level : Nat}
    {rest : List Literal} {a : Assignment} :
    ∀ (frames : List (Nat × List Nat)) (d : Nat),
    FramesOK trail reason level rest a frames (some d) → Implied trail level rest a d →
    FramesOK trail reason level rest a frames none
  | [], _, _, _ => trivial
  | frame :: below, d, h, hd => by
    obtain ⟨h1, h2, -, h4, h5⟩ := h
    refine ⟨h1, h2, fun x hx => by simp at hx, fun l hl => ?_, h5⟩
    rcases h4 l hl with k | k | k
    · exact Or.inl k
    · exact Or.inr (Or.inl k)
    · left
      simp only [Option.some.injEq] at k
      rw [← k]
      exact hd

theorem potential_eq (trail : Trail) (reason : Nat → List Literal) (var : Nat) :
    potential trail reason var =
      2 + ((reason var).map (fun l => reasonWeight reason (trail.trailIndexOf var)
        l.Variable)).sum := by
  unfold potential
  rw [reasonWeight]

/-- The search of `CanBeInferedFromConflictVariables` returns when its fuel is
above the measure of its frames, and it keeps the marked variables and the
recorded reasons implied; when it returns with an empty stack, the variables
of the reason of the variable asked about are implied. -/
theorem dfsLoop_spec {trail : Trail} {reason : Nat → List Literal} {level : Nat}
    {mtl : Nat → Int} {rest : List Literal} {a : Assignment}
    (ctx : MinimizationContext trail reason level mtl rest a) (root : Nat) :
    ∀ (fuel : Nat) (frames : List (Nat × List Nat)) (st : MinimizationState),
    FramesOK trail reason level rest a frames none →
    (frames = [] → ∀ l ∈ reason root, Implied trail level rest a l.Variable) →
    (∀ d ∈ (stackOf frames).head?, d = root) →
    MarksImplied trail level rest a st.is_marked_ →
    RecordsImplied trail reason level rest a st (stackOf frames) →
    framesMeasure trail reason frames < fuel →
    ∃ st2 stack2, dfsLoop trail reason mtl fuel st (stackOf frames) (toProcessOf frames) =
        Except.ok (st2, stack2) ∧
      MarksImplied trail level rest a st2.is_marked_ ∧
      RecordsImplied trail reason level rest a st2 stack2 ∧
      st2.is_independent_ = st.is_independent_ ∧
      (stack2 = [] → ∀ l ∈ reason root, Implied trail level rest a l.Variable)
  | 0, _, _, _, _, _, _, _, hfuel => by omega
  | fuel + 1, [], st, _, hroot, _, hm, hrec, _ => by
    refine ⟨st, [], ?_, hm, hrec, rfl, fun _ => hroot rfl⟩
    simp [stackOf, toProcessOf, dfsLoop]
  | fuel + 1, (d, cs) :: below, st, hok, _, hhead, hm, hrec, hfuel => by
    obtain ⟨hexp, hcs, -, himpl, hbelow⟩ := hok
    simp only at hexp hcs himpl hbelow
    rcases List.eq_nil_or_concat cs with rfl | ⟨cs0, c, hconcat⟩
    · -- the variable on top of the stack is closed
      have hall : ∀ l ∈ reason d, Implied trail level rest a l.Variable := by
        intro l hl
        rcases himpl l hl with k | k | k
        · exact k
        · simp at k
        · simp at k
      have hd : Implied trail level rest a d := Implied_of_reason ctx d hexp hall
      have hbelow2 := FramesOK_fill below d hbelow hd
      have hdroot : below = [] → d = root := by
        intro hb
        subst hb
        exact hhead d (by simp [stackOf])
      have key : ∀ st1 : MinimizationState,
          st1.same_reason_identifier_ = st.same_reason_identifier_ →
          st1.is_independent_ = st.is_independent_ →
          MarksImplied trail level rest a st1.is_marked_ →
          ∃ st2 stack2, dfsLoop trail reason mtl fuel st1 (stackOf below) (toProcessOf below) =
              Except.ok (st2, stack2) ∧
            MarksImplied trail level rest a st2.is_marked_ ∧
            RecordsImplied trail reason level rest a st2 stack2 ∧
            st2.is_independent_ = st.is_independent_ ∧
            (stack2 = [] → ∀ l ∈ reason root, Implied trail level rest a l.Variable) := by
        intro st1 hs1 hi1 hm1
        obtain ⟨st2, stack2, hrun, k1, k2, k3, k4⟩ := dfsLoop_spec ctx root fuel below st1
          hbelow2
          (fun hb => by rw [← hdroot hb]; exact hall)
          (fun x hx => by
            apply hhead x
            cases below with
            | nil => simp [stackOf] at hx
            | cons f b2 =>
              have hne : stackOf (f :: b2) ≠ [] := stackOf_ne_nil f b2
              simp only [stackOf] at hx hne ⊢
              rw [List.head?_append_of_ne_nil _ hne]
              exact hx)
          hm1
          (fun position var hpv => by
            rw [hs1] at hpv
            obtain ⟨e1, e2⟩ := hrec position var hpv
            refine ⟨e1, fun hind hnot => ?_⟩
            rw [hi1] at hind
            by_cases hvd : var = d
            · rw [hvd]
              exact hall
            · apply e2 hind
              simp only [stackOf, List.mem_append, List.mem_singleton]
              rintro (h | h)
              · exact hnot h
              · exact hvd h)
          (by simp only [framesMeasure, List.map_nil, List.sum_nil] at hfuel; omega)
        exact ⟨st2, stack2, hrun, k1, k2, k3.trans hi1, k4⟩
      simp only [stackOf]
      rw [toProcessOf_top_nil, dfsLoop_finish]
      by_cases hne : stackOf below = []
      · rw [if_neg (by simpa using hne)]
        exact key st rfl rfl hm
      · rw [if_pos hne]
        exact key _ rfl rfl (MarksImplied_Set _ _ hm hd)
    · -- a variable waits on top of `variable_to_process_`
      rw [List.concat_eq_append] at hconcat
      subst hconcat
      obtain ⟨⟨lc, hlc, hlcv⟩, hcexp⟩ := hcs c (by simp)
      have hcd : c ≠ d := by
        have := (Expandable_of_reason ctx d hexp lc hlc).2.1
        rw [hlcv] at this
        intro h
        rw [h] at this
        omega
      have hcs0 : ∀ x ∈ cs0, (∃ l ∈ reason d, l.Variable = x) ∧ Expandable trail level x :=
        fun x hx => hcs x (by simp [hx])
      have hmeasure : framesMeasure trail reason ((d, cs0) :: below) +
          potential trail reason c = framesMeasure trail reason ((d, cs0 ++ [c]) :: below) := by
        simp only [framesMeasure, List.map_append, List.sum_append, List.map_cons, List.map_nil,
          List.sum_cons, List.sum_nil]
        omega
      have hcpos : 0 < potential trail reason c := reasonWeight_pos _ _ _
      -- the turn that drops the variable, once it is known to be implied
      have drop : ∀ st1 : MinimizationState, Implied trail level rest a c →
          st1.same_reason_identifier_ = st.same_reason_identifier_ →
          st1.is_independent_ = st.is_independent_ →
          MarksImplied trail level rest a st1.is_marked_ →
          ∃ st2 stack2, dfsLoop trail reason mtl fuel st1 (stackOf below ++ [d])
              (toProcessOf ((d, cs0) :: below)) = Except.ok (st2, stack2) ∧
            MarksImplied trail level rest a st2.is_marked_ ∧
            RecordsImplied trail reason level rest a st2 stack2 ∧
            st2.is_independent_ = st.is_independent_ ∧
            (stack2 = [] → ∀ l ∈ reason root, Implied trail level rest a l.Variable) := by
        intro st1 hc hs1 hi1 hm1
        obtain ⟨st2, stack2, hrun, k1, k2, k3, k4⟩ := dfsLoop_spec ctx root fuel
          ((d, cs0) :: below) st1
          ⟨hexp, hcs0, fun x hx => by simp at hx, fun l hl => by
            rcases himpl l hl with k | k | k
            · exact Or.inl k
            · rcases List.mem_append.1 k with k | k
              · exact Or.inr (Or.inl k)
              · simp only [List.mem_singleton] at k
                rw [k]
                exact Or.inl hc
            · simp at k, hbelow⟩
          (fun hb => by simp at hb)
          hhead hm1
          (fun position var hpv => by
            rw [hs1] at hpv
            obtain ⟨e1, e2⟩ := hrec position var hpv
            exact ⟨e1, fun hind hnot => e2 (by rw [← hi1]; exact hind) hnot⟩)
          (by omega)
        exact ⟨st2, stack2, hrun, k1, k2, k3.trans hi1, k4⟩
      simp only [stackOf]
      rw [toProcessOf_top_concat, dfsLoop_pending _ _ _ _ _ _ _ _ _ hcd]
      by_cases hmark : st.is_marked_.get c = true
      · rw [if_pos hmark]
        exact drop st (hm c hmark) rfl rfl hm
      · rw [if_neg hmark]
        have hspec := st.same_reason_identifier_.FirstVariableWithSameReason_spec trail c
        have hexpc : Expandable trail level c := hcexp
        obtain ⟨ec, hec, hecv, -, -⟩ := hcexp
        have hsamec := ctx.same ec hec
        rw [hecv] at hsamec
        by_cases hv : (st.same_reason_identifier_.FirstVariableWithSameReason trail c).1 ≠ c
        · rw [if_pos hv]
          have hsame2 : (st.same_reason_identifier_.FirstVariableWithSameReason trail c).2 =
              st.same_reason_identifier_ := by
            rcases hspec.1 with h | ⟨h, -⟩
            · exact h
            · exact absurd h hv
          rw [hsame2]
          by_cases hind : st.is_independent_.get
              (st.same_reason_identifier_.FirstVariableWithSameReason trail c).1 = true
          · rw [if_pos hind]
            refine ⟨_, _, rfl, hm, hrec, rfl, fun h => ?_⟩
            simp at h
          · rw [if_neg hind]
            refine drop _ ?_ rfl rfl hm
            -- the variable has the reason of a variable that is not independent
            generalize (st.same_reason_identifier_.FirstVariableWithSameReason trail c).1 = v
              at hv hind hspec
            have hpair : ∃ position, (position, v) ∈ st.same_reason_identifier_.first_variable_ ∧
                reason position = reason c := by
              rcases hspec.2 hv with h | h
              · exact ⟨c, h, rfl⟩
              · exact ⟨_, h, hsamec⟩
            obtain ⟨position, hpv, hpc⟩ := hpair
            obtain ⟨e1, e2⟩ := hrec position v hpv
            have hvc : reason v = reason c := e1.trans hpc
            have hnot : v ∉ stackOf ((d, cs0 ++ [c]) :: below) := by
              intro hin
              obtain ⟨l, hl, hle⟩ := FramesOK_reason_index ctx ((d, cs0 ++ [c]) :: below) none c
                ⟨hexp, hcs, fun x hx => by simp at hx, himpl, hbelow⟩
                (fun f hf => by
                  simp only [List.head?_cons, Option.mem_def, Option.some.injEq] at hf
                  subst hf
                  exact ⟨lc, hlc, hlcv⟩)
                v hin
              rw [hvc] at hl
              have := (Expandable_of_reason ctx c hexpc
                l hl).2.1
              omega
            have hall := e2 (by simpa using hind) hnot
            rw [hvc] at hall
            exact Implied_of_reason ctx c hexpc hall
        · rw [if_neg hv]
          have hvc : (st.same_reason_identifier_.FirstVariableWithSameReason trail c).1 = c := by
            by_contra h
            exact hv h
          -- the recorded reasons, with the new variable on the stack
          have hrec1 : RecordsImplied trail reason level rest a
              { st with same_reason_identifier_ :=
                (st.same_reason_identifier_.FirstVariableWithSameReason trail c).2 }
              (stackOf below ++ [d] ++ [c]) := by
            intro position var hpv
            simp only at hpv
            have hold : (position, var) ∈ st.same_reason_identifier_.first_variable_ →
                reason var = reason position ∧
                (st.is_independent_.get var = false → var ∉ stackOf below ++ [d] ++ [c] →
                  ∀ l ∈ reason var, Implied trail level rest a l.Variable) := by
              intro h
              obtain ⟨e1, e2⟩ := hrec position var h
              refine ⟨e1, fun hi hn => e2 hi ?_⟩
              intro hin
              apply hn
              simp only [stackOf] at hin
              exact List.mem_append_left _ hin
            rcases hspec.1 with h | ⟨-, h⟩
            · rw [h] at hpv
              exact hold hpv
            · rw [h] at hpv
              rcases List.mem_append.1 hpv with h2 | h2
              · exact hold h2
              · simp only [List.mem_singleton, Prod.mk.injEq] at h2
                obtain ⟨hp, hvar⟩ := h2
                subst hp hvar
                exact ⟨hsamec.symm, fun _ hn => absurd (by simp) hn⟩
          rcases expandReason_spec ctx
              { st with same_reason_identifier_ :=
                (st.same_reason_identifier_.FirstVariableWithSameReason trail c).2 }
              hm c hexpc (reason c) (toProcessOf ((d, cs0) :: below) ++ [c]) (fun l hl => hl)
            with habort | ⟨csn, heq, hcsn, himpln, hsum⟩
          · rw [if_pos habort]
            refine ⟨_, _, rfl, hm, hrec1, rfl, fun h => ?_⟩
            simp at h
          · rw [heq]
            simp only [Bool.false_eq_true, if_false]
            rw [← toProcessOf_push]
            obtain ⟨st2, stack2, hrun, k1, k2, k3, k4⟩ := dfsLoop_spec ctx root fuel
              ((c, csn) :: (d, cs0) :: below)
              { st with same_reason_identifier_ :=
                (st.same_reason_identifier_.FirstVariableWithSameReason trail c).2 }
              ⟨hexpc, hcsn, fun x hx => by simp at hx, fun l hl => by
                  rcases himpln l hl with k | k
                  · exact Or.inl k
                  · exact Or.inr (Or.inl k),
                hexp, hcs0, fun x hx => by
                  simp only [Option.some.injEq] at hx
                  rw [← hx]
                  exact ⟨lc, hlc, hlcv⟩,
                fun l hl => by
                  rcases himpl l hl with k | k | k
                  · exact Or.inl k
                  · rcases List.mem_append.1 k with k | k
                    · exact Or.inr (Or.inl k)
                    · simp only [List.mem_singleton] at k
                      exact Or.inr (Or.inr (by rw [k]))
                  · simp at k,
                hbelow⟩
              (fun hb => by simp at hb)
              (fun x hx => by
                apply hhead x
                have hne : stackOf ((d, cs0) :: below) ≠ [] := stackOf_ne_nil _ _
                simp only [stackOf] at hx hne ⊢
                rw [List.head?_append_of_ne_nil _ hne] at hx
                exact hx)
              hm hrec1
              (by
                have hp := potential_eq trail reason c
                simp only [framesMeasure] at hmeasure hfuel ⊢
                omega)
            exact ⟨st2, stack2, hrun, k1, k2, k3, k4⟩

theorem SparseBitset.get_foldl_Set : ∀ (l : List Nat) (b : SparseBitset) (v : Nat),
    (l.foldl (fun b var => b.Set var) b).get v = (b.get v || decide (v ∈ l))
  | [], b, v => by simp
  | x :: l, b, v => by
    simp only [List.foldl_cons, List.mem_cons]
    rw [SparseBitset.get_foldl_Set l (b.Set x) v, SparseBitset.get_Set]
    by_cases h1 : v = x <;> by_cases h2 : v ∈ l <;> simp [h1, h2]

theorem RecordsImplied_Set_independent {trail : Trail} {reason : Nat → List Literal}
    {level : Nat} {rest : List Literal} {a : Assignment} (st : MinimizationState)
    (var : Nat) (h : RecordsImplied trail reason level rest a st [var]) :
    RecordsImplied trail reason level rest a
      { st with is_independent_ := st.is_independent_.Set var } [] := by
  intro position v hpv
  obtain ⟨e1, e2⟩ := h position v hpv
  refine ⟨e1, fun hind _ => ?_⟩
  simp only [SparseBitset.get_Set, Bool.or_eq_false_iff, decide_eq_false_iff_not] at hind
  exact e2 hind.1 (by simpa using hind.2)

theorem RecordsImplied_mono {trail : Trail} {reason : Nat → List Literal}
    {level : Nat} {rest : List Literal} {a : Assignment} (st : MinimizationState)
    (excluded : List Nat) (h : RecordsImplied trail reason level rest a st []) :
    RecordsImplied trail reason level rest a st excluded := by
  intro position v hpv
  obtain ⟨e1, e2⟩ := h position v hpv
  exact ⟨e1, fun hind _ => e2 hind (by simp)⟩

/-- The function `CanBeInferedFromConflictVariables` returns on a variable that is
not a search decision, given fuel for the weight of the variable; it keeps the
marked variables and the recorded reasons implied, and when it answers true
the variables of the reason of the variable are implied. -/
theorem canBeInferedFromConflictVariables_spec {trail : Trail} {reason : Nat → List Literal}
    {level : Nat} {mtl : Nat → Int} {rest : List Literal} {a : Assignment}
    (ctx : MinimizationContext trail reason level mtl rest a) (fuel : Nat)
    (st : MinimizationState) (root : Nat)
    (hroot : Expandable trail level root)
    (hm : MarksImplied trail level rest a st.is_marked_)
    (hrec : RecordsImplied trail reason level rest a st [])
    (hfuel : potential trail reason root ≤ fuel) :
    ∃ result st2, canBeInferedFromConflictVariables trail reason mtl fuel st root =
        Except.ok (result, st2) ∧
      MarksImplied trail level rest a st2.is_marked_ ∧
      RecordsImplied trail reason level rest a st2 (if result then [] else [root]) ∧
      (result = true → ∀ l ∈ reason root, Implied trail level rest a l.Variable) := by
  have hspec := st.same_reason_identifier_.FirstVariableWithSameReason_spec trail root
  have hexp := hroot
  obtain ⟨er, her, herv, -, -⟩ := hroot
  have hsamer := ctx.same er her
  rw [herv] at hsamer
  unfold canBeInferedFromConflictVariables
  dsimp only
  by_cases hv : (st.same_reason_identifier_.FirstVariableWithSameReason trail root).1 ≠ root
  · rw [if_pos hv]
    have hsame2 : (st.same_reason_identifier_.FirstVariableWithSameReason trail root).2 =
        st.same_reason_identifier_ := by
      rcases hspec.1 with h | ⟨h, -⟩
      · exact h
      · exact absurd h hv
    rw [hsame2]
    refine ⟨_, _, rfl, hm, RecordsImplied_mono _ _ hrec, fun hres => ?_⟩
    generalize (st.same_reason_identifier_.FirstVariableWithSameReason trail root).1 = v
      at hv hres hspec
    have hpair : ∃ position, (position, v) ∈ st.same_reason_identifier_.first_variable_ ∧
        reason position = reason root := by
      rcases hspec.2 hv with h | h
      · exact ⟨root, h, rfl⟩
      · exact ⟨_, h, hsamer⟩
    obtain ⟨position, hpv, hpc⟩ := hpair
    obtain ⟨e1, e2⟩ := hrec position v hpv
    have hall := e2 (by simpa using hres) (by simp)
    rw [e1.trans hpc] at hall
    exact hall
  · rw [if_neg hv]
    -- the recorded reasons, with the variable asked about set apart
    have hrec0 : RecordsImplied trail reason level rest a
        { st with same_reason_identifier_ :=
          (st.same_reason_identifier_.FirstVariableWithSameReason trail root).2 } [root] := by
      intro position var hpv
      simp only at hpv
      have hold : (position, var) ∈ st.same_reason_identifier_.first_variable_ →
          reason var = reason position ∧
          (st.is_independent_.get var = false → var ∉ [root] →
            ∀ l ∈ reason var, Implied trail level rest a l.Variable) := by
        intro h
        obtain ⟨e1, e2⟩ := hrec position var h
        exact ⟨e1, fun hi _ => e2 hi (by simp)⟩
      rcases hspec.1 with h | ⟨-, h⟩
      · rw [h] at hpv
        exact hold hpv
      · rw [h] at hpv
        rcases List.mem_append.1 hpv with h2 | h2
        · exact hold h2
        · simp only [List.mem_singleton, Prod.mk.injEq] at h2
          obtain ⟨hp, hvar⟩ := h2
          subst hp hvar
          exact ⟨hsamer.symm, fun _ hn => absurd (by simp) hn⟩
    obtain ⟨k1, k2, k3, k4⟩ := expandRootReason_spec ctx root hexp (reason root)
      { st with same_reason_identifier_ :=
        (st.same_reason_identifier_.FirstVariableWithSameReason trail root).2 } [root]
      hm (fun l hl => hl)
    rcases hres : expandRootReason trail mtl (reason root)
      { st with same_reason_identifier_ :=
        (st.same_reason_identifier_.FirstVariableWithSameReason trail root).2 } [root]
      with ⟨b, st1, vtp⟩
    rw [hres] at k1 k2 k3 k4
    simp only at k1 k2 k3 k4
    have hrec1 : RecordsImplied trail reason level rest a st1 [root] := by
      intro position var hpv
      rw [k3] at hpv
      obtain ⟨e1, e2⟩ := hrec0 position var hpv
      exact ⟨e1, fun hi hn => e2 (by rw [← k2]; exact hi) hn⟩
    cases b with
    | false =>
      exact ⟨false, st1, rfl, k1, hrec1, fun h => by simp at h⟩
    | true =>
      obtain ⟨cs, hvtp, hcs, himpl, hsum⟩ := k4 rfl
      dsimp only
      subst hvtp
      have hp := potential_eq trail reason root
      obtain ⟨st2, stack2, hrun, j1, j2, j3, j4⟩ := dfsLoop_spec ctx root fuel [(root, cs)] st1
        ⟨hexp, hcs, fun x hx => by simp at hx, fun l hl => by
          rcases himpl l hl with k | k
          · exact Or.inl k
          · exact Or.inr (Or.inl k), trivial⟩
        (fun h => by simp at h)
        (fun d hd => by simpa [stackOf] using hd.symm)
        k1 hrec1
        (by simp only [framesMeasure]; omega)
      have hrun2 : dfsLoop trail reason mtl fuel st1 [root] ([root] ++ cs) =
          Except.ok (st2, stack2) := hrun
      rw [hrun2]
      refine ⟨_, _, rfl, j1, ?_, fun h => j4 (by simpa using h)⟩
      intro position var hpv
      obtain ⟨e1, e2⟩ := j2 position var hpv
      refine ⟨e1, fun hind _ => ?_⟩
      simp only [SparseBitset.get_foldl_Set, Bool.or_eq_false_iff, decide_eq_false_iff_not]
        at hind
      exact e2 hind.1 hind.2

/-- The loop of `MinimizeConflictRecursively` returns a sub-list of the literals
it is given, and a literal that it drops is false in the assignment as soon as
the literals of `rest` of a smaller trail index are. -/
theorem minimizeRecursivelyLoop_spec {trail : Trail} {reason : Nat → List Literal}
    {level : Nat} {mtl : Nat → Int} {rest : List Literal} {a : Assignment}
    (ctx : MinimizationContext trail reason level mtl rest a) (fuel : Nat)
    (hfuel : ∀ e ∈ trail.entries, potential trail reason e.literal.Variable ≤ fuel) :
    ∀ (literals : List Literal) (st : MinimizationState),
    (∀ c ∈ literals, c ∈ rest) →
    MarksImplied trail level rest a st.is_marked_ →
    RecordsImplied trail reason level rest a st [] →
    ∃ kept st2, minimizeRecursivelyLoop trail reason mtl fuel literals st =
        Except.ok (kept, st2) ∧
      kept.Sublist literals ∧
      ∀ c ∈ literals, c ∈ kept ∨
        ((∀ c2 ∈ rest, trail.trailIndexOf c2.Variable < trail.trailIndexOf c.Variable →
          literalHolds a c2 = false) → literalHolds a c = false)
  | [], st, _, _, _ => ⟨[], st, rfl, List.Sublist.refl _, by simp⟩
  | c :: literals, st, hsub, hm, hrec => by
    have hc : c ∈ rest := hsub c (List.mem_cons_self _ _)
    have hsub2 : ∀ x ∈ literals, x ∈ rest := fun x hx => hsub x (List.mem_cons_of_mem _ hx)
    -- the turn that keeps the literal
    have keep : ∀ st1 : MinimizationState,
        MarksImplied trail level rest a st1.is_marked_ →
        RecordsImplied trail reason level rest a st1 [c.Variable] →
        ∃ kept st2,
          (match minimizeRecursivelyLoop trail reason mtl fuel literals
              { st1 with is_independent_ := st1.is_independent_.Set c.Variable } with
            | Except.error e => Except.error e
            | Except.ok (kept, st2) => Except.ok (c :: kept, st2)) =
            Except.ok (kept, st2) ∧
          kept.Sublist (c :: literals) ∧
          ∀ x ∈ c :: literals, x ∈ kept ∨
            ((∀ c2 ∈ rest, trail.trailIndexOf c2.Variable < trail.trailIndexOf x.Variable →
              literalHolds a c2 = false) → literalHolds a x = false) := by
      intro st1 hm1 hrec1
      obtain ⟨kept, st2, hrun, hsl, hall⟩ := minimizeRecursivelyLoop_spec ctx fuel hfuel literals
        { st1 with is_independent_ := st1.is_independent_.Set c.Variable } hsub2 hm1
        (RecordsImplied_Set_independent st1 c.Variable hrec1)
      rw [hrun]
      refine ⟨c :: kept, st2, rfl, List.Sublist.cons₂ _ hsl, ?_⟩
      intro x hx
      rcases List.mem_cons.1 hx with rfl | hx
      · exact Or.inl (List.mem_cons_self _ _)
      · rcases hall x hx with h | h
        · exact Or.inl (List.mem_cons_of_mem _ h)
        · exact Or.inr h
    unfold minimizeRecursivelyLoop
    dsimp only
    by_cases hprune : (trail.trailIndexOf c.Variable : Int) ≤ mtl (trail.levelOf c.Variable)
    · rw [if_pos hprune]
      exact keep st hm (RecordsImplied_mono st _ hrec)
    · rw [if_neg hprune]
      obtain ⟨hfalse, hpos, hlt⟩ := ctx.rest_false c hc
      obtain ⟨i, e, hi, hel, hev⟩ := trail.assigned_of_IsLiteralFalse c hfalse
      have he : e ∈ trail.entries := List.mem_iff_getElem?.2 ⟨i, hi⟩
      have k1 := trail.trailIndexOf_of_getElem? ctx.nodup i e hi
      have k3 := trail.levelOf_of_getElem? ctx.nodup i e hi
      rw [hev] at k1 k3
      have hexp : Expandable trail level c.Variable := by
        refine ⟨e, he, hev, ?_, by omega⟩
        intro hdec
        have := ctx.prune e he (by omega) hdec
        rw [hev, ← k3] at this
        exact hprune this
      have hpot := hfuel e he
      rw [hev] at hpot
      obtain ⟨result, st1, hrun, j1, j2, j3⟩ :=
        canBeInferedFromConflictVariables_spec ctx fuel st c.Variable hexp hm hrec hpot
      rw [hrun]
      cases result with
      | false =>
        dsimp only
        exact keep st1 j1 j2
      | true =>
        dsimp only
        obtain ⟨kept, st2, hrun2, hsl, hall⟩ := minimizeRecursivelyLoop_spec ctx fuel hfuel
          literals st1 hsub2 j1 j2
        refine ⟨kept, st2, hrun2, List.Sublist.cons _ hsl, ?_⟩
        intro x hx
        rcases List.mem_cons.1 hx with rfl | hx
        · right
          intro hsmall
          have := holds_of_reason ctx x.Variable hexp (j3 rfl) hsmall
          rw [k1, trail.get_of_getElem? i e hi, hel, literalHolds_Negated] at this
          simpa using this
        · exact hall x hx

theorem minTrailIndexPerLevel_ge (trail : Trail) (x : Nat) (level : Nat)
    (hx : (x : Int) ≤ 2147483647) :
    ∀ vars : List Nat, (∀ var ∈ vars, trail.levelOf var = level → x ≤ trail.trailIndexOf var) →
    (x : Int) ≤ minTrailIndexPerLevel trail vars level
  | [], _ => by simpa [minTrailIndexPerLevel] using hx
  | var :: vars, h => by
    have ih := minTrailIndexPerLevel_ge trail x level hx vars
      (fun v hv => h v (List.mem_cons_of_mem _ hv))
    unfold minTrailIndexPerLevel
    split
    · rename_i hl
      have := h var (List.mem_cons_self _ _) hl
      omega
    · exact ih

theorem Trail.entry_of_levelOf_pos (t : Trail) (var : Nat) (h : 0 < t.levelOf var) :
    ∃ e ∈ t.entries, e.literal.Variable = var ∧ e.level = t.levelOf var := by
  unfold Trail.levelOf Trail.entryOf at *
  rcases hf : t.entries.find? (fun e => decide (e.literal.Variable = var)) with _ | e
  · rw [hf] at h
    simp at h
  · have h1 := List.find?_some hf
    have h2 := List.mem_of_find?_eq_some hf
    exact ⟨e, h2, by simpa using h1, by rw [hf]⟩

/-- The bound of a level in `min_trail_index_per_level_` is not below the trail
index of the search decision of the level, when a search decision is the first
entry of its level and the trail index fits an `int`. -/
theorem minTrailIndexPerLevel_prune (trail : Trail) (vars : List Nat)
    (hdec : ∀ e ∈ trail.entries, e.info = AssignmentInfo.SEARCH_DECISION →
      ∀ e2 ∈ trail.entries, e2.level = e.level →
        trail.trailIndexOf e.literal.Variable ≤ trail.trailIndexOf e2.literal.Variable)
    (hint : trail.Index ≤ 2147483647) :
    ∀ e ∈ trail.entries, 0 < e.level → e.info = AssignmentInfo.SEARCH_DECISION →
      (trail.trailIndexOf e.literal.Variable : Int) ≤
        minTrailIndexPerLevel trail vars e.level := by
  intro e he hpos hinfo
  apply minTrailIndexPerLevel_ge
  · have : trail.trailIndexOf e.literal.Variable ≤ trail.entries.length :=
      List.findIdx_le_length _
    unfold Trail.Index at hint
    omega
  · intro var _ hl
    obtain ⟨e2, he2, hev2, hel2⟩ := trail.entry_of_levelOf_pos var (by omega)
    have := hdec e he hinfo e2 he2 (by omega)
    rw [hev2] at this
    exact this

/-- The recursive minimization of a first UIP conflict `first :: rest` returns
`first` and a sub-list of `rest`, and an assignment of the setting that
satisfies the conflict satisfies the conflict it returns. -/
theorem minimizeConflictRecursively_spec {trail : Trail} {reason : Nat → List Literal}
    {level : Nat} {rest : List Literal} {a : Assignment} (is_marked : SparseBitset)
    (same : VariablesWithSameReasonIdentifier) (first : Literal)
    (ctx : MinimizationContext trail reason level
      (minTrailIndexPerLevel trail is_marked.PositionsSetAtLeastOnce) rest a)
    (fuel : Nat)
    (hfuel : ∀ e ∈ trail.entries, potential trail reason e.literal.Variable ≤ fuel)
    (hm : MarksImplied trail level rest a is_marked)
    (hrec : RecordsImplied trail reason level rest a
      ⟨is_marked, SparseBitset.ClearAndResize, same⟩ []) :
    ∃ kept st, minimizeConflictRecursively trail reason fuel is_marked same (first :: rest) =
        Except.ok (first :: kept, st) ∧
      kept.Sublist rest ∧
      (clauseHolds a (first :: rest) = true → clauseHolds a (first :: kept) = true) := by
  obtain ⟨kept, st, hrun, hsl, hall⟩ := minimizeRecursivelyLoop_spec ctx fuel hfuel rest
    ⟨is_marked, SparseBitset.ClearAndResize, same⟩ (fun c hc => hc) hm hrec
  refine ⟨kept, st, ?_, hsl, ?_⟩
  · unfold minimizeConflictRecursively
    simp only [List.drop_succ_cons, List.drop_zero]
    rw [hrun]
    rfl
  · intro hconf
    by_contra hout
    have hfalse : ∀ l ∈ first :: kept, literalHolds a l = false := by
      intro l hl
      by_contra hne
      apply hout
      rw [clauseHolds_iff]
      exact ⟨l, hl, by simpa using hne⟩
    have hrest : ∀ n, ∀ c ∈ rest, trail.trailIndexOf c.Variable = n →
        literalHolds a c = false := by
      intro n
      induction n using Nat.strong_induction_on with
      | _ n ih =>
        intro c hc hn
        rcases hall c hc with h | h
        · exact hfalse c (List.mem_cons_of_mem _ h)
        · apply h
          intro c2 hc2 hlt
          exact ih _ (by omega) c2 hc2 rfl
    rw [clauseHolds_iff] at hconf
    obtain ⟨l, hl, hla⟩ := hconf
    rcases List.mem_cons.1 hl with rfl | hl
    · rw [hfalse l (List.mem_cons_self _ _)] at hla
      simp at hla
    · rw [hrest _ l hl rfl] at hla
      simp at hla

/-- The trail literals are true in the assignment of the trail. -/
theorem trailAssignment_holds (trail : Trail)
    (hn : (trail.entries.map (fun e => e.literal.Variable)).Nodup) (e : TrailEntry)
    (he : e ∈ trail.entries) : literalHolds (trailAssignment trail) e.literal = true := by
  obtain ⟨i, hi⟩ := List.mem_iff_getElem?.1 he
  have htrue := trail.IsLiteralTrue_of_getElem? i e hi
  unfold literalHolds trailAssignment Literal.Variable Literal.IsPositive
  rcases hl : e.literal with ⟨k⟩
  rw [hl] at htrue
  simp only
  by_cases hk : k % 2 = 0
  · have : 2 * (k / 2) = k := by omega
    rw [this, htrue]
    simp [hk]
  · have h2 : 2 * (k / 2) = k - 1 := by omega
    have hneg : (⟨k - 1⟩ : Literal).Negated = ⟨k⟩ := by
      unfold Literal.Negated
      have : (k - 1) % 2 = 0 := by omega
      simp only [this, if_true, Literal.mk.injEq]
      omega
    have hfalse : trail.IsLiteralFalse ⟨k - 1⟩ = true := by
      unfold Trail.IsLiteralFalse
      rw [hneg]
      exact htrue
    rw [h2, trail.not_true_of_false hn _ hfalse]
    simp [hk]

/-- The main loop of `ComputeFirstUIPConflict` leaves in `same_reason_identifier_`
pairs of variables with the same reason, whose literals are all marked. -/
theorem firstUIPLoop_records (trail : Trail) (reason : Nat → List Literal) (level : Nat)
    (hs : trail.entries.Pairwise (fun a b => a.level ≤ b.level))
    (hn : (trail.entries.map (fun e => e.literal.Variable)).Nodup)
    (hreason : ∀ e ∈ trail.entries, ∀ literal ∈ reason e.literal.Variable,
      trail.IsLiteralFalse literal = true ∧
      trail.trailIndexOf literal.Variable < trail.trailIndexOf e.literal.Variable)
    (hsame : ∀ e ∈ trail.entries,
      reason (trail.ReferenceVarWithSameReason e.literal.Variable) = reason e.literal.Variable) :
    ∀ (fuel : Nat) (clause : List Literal) (st : FirstUIPState) (bound : Nat)
      (r : FirstUIPState),
    FirstUIPInvariant trail level st bound →
    st.trail_index = (bound : Int) - 1 → 0 < bound →
    (∀ literal ∈ clause, trail.IsLiteralFalse literal = true ∧
      trail.trailIndexOf literal.Variable < bound) →
    (1 ≤ st.num_literal_at_highest_level_that_needs_to_be_processed ∨
      ∃ literal ∈ clause, trail.levelOf literal.Variable = level) →
    SameReasonInvariant reason st clause →
    firstUIPLoop trail reason level fuel clause st = Except.ok r →
    SameReasonInvariant reason r []
  | 0, _, _, _, _, _, _, _, _, _, _, hr => by simp [firstUIPLoop] at hr
  | fuel + 1, clause, st, bound, r, hinv, hti, hb, hclause, hsome, hsi, hr => by
    have hpos := expandClause_markedAtLevel_pos trail hn level bound clause st hinv hclause hsome
    obtain ⟨inv1, hmono, hcl, -, -, hsame1, hti1⟩ :=
      expandClause_invariant trail hn level bound clause st hinv hclause
    obtain ⟨j, ej, hjb, hej, hejl, hjm, hun, hcnt, hloop⟩ :=
      firstUIPLoop_step trail reason level hs fuel clause st _ bound rfl inv1
        (hti1.trans hti) hpos
    rw [hloop] at hr
    generalize expandClause trail level clause st = st1 at *
    have hnum := inv1.count
    have hmemj : ej ∈ trail.entries := List.mem_iff_getElem?.2 ⟨j, hej⟩
    have hidxj := trail.trailIndexOf_of_getElem? hn j ej hej
    have hsi1 : ∀ position var,
        (position, var) ∈ st1.same_reason_identifier_.first_variable_ →
        reason var = reason position ∧
        ∀ literal ∈ reason var, st1.is_marked_.get literal.Variable = true := by
      intro position var hpv
      rw [hsame1] at hpv
      obtain ⟨h1, h2⟩ := hsi position var hpv
      refine ⟨h1, fun literal hl => ?_⟩
      rcases h2 literal hl with h | h
      · exact hmono _ h
      · exact hcl literal h
    by_cases hone : st1.num_literal_at_highest_level_that_needs_to_be_processed = 1
    · rw [if_pos hone] at hr
      simp only [Except.ok.injEq] at hr
      rw [← hr]
      intro position var hpv
      obtain ⟨h1, h2⟩ := hsi1 position var hpv
      exact ⟨h1, fun literal hl => Or.inl (h2 literal hl)⟩
    · rw [if_neg hone] at hr
      have hjpos : 0 < markedAtLevel trail st1.is_marked_ level j := by omega
      have hj0 : 0 < j := by
        rcases Nat.eq_zero_or_pos j with h0 | h0
        · rw [h0] at hjpos
          simp [markedAtLevel] at hjpos
        · exact h0
      have hspec := st1.same_reason_identifier_.FirstVariableWithSameReason_spec trail
        ej.literal.Variable
      refine firstUIPLoop_records trail reason level hs hn hreason hsame fuel _ _ j r ?_ rfl
        hj0 ?_ ?_ ?_ hr
      · refine ⟨by have := inv1.bound_le; omega, ?_, inv1.marked_assigned, ?_,
          inv1.conflict_false, inv1.lower_marked⟩
        · intro i e hi he
          exact inv1.below i e (by omega) he
        · simp only
          omega
      · intro literal hl
        split at hl
        · simp at hl
        · obtain ⟨h1, h2⟩ := hreason ej hmemj literal hl
          rw [hidxj] at h2
          exact ⟨h1, h2⟩
      · left
        simp only
        omega
      · intro position var hpv
        simp only at hpv
        rcases hspec.1 with heq | ⟨hfirst, happ⟩
        · rw [heq] at hpv
          obtain ⟨h1, h2⟩ := hsi1 position var hpv
          exact ⟨h1, fun literal hl => Or.inl (h2 literal hl)⟩
        · rw [happ] at hpv
          rcases List.mem_append.1 hpv with h | h
          · obtain ⟨h1, h2⟩ := hsi1 position var h
            exact ⟨h1, fun literal hl => Or.inl (h2 literal hl)⟩
          · simp only [List.mem_singleton, Prod.mk.injEq] at h
            obtain ⟨hp, hv⟩ := h
            subst hp hv
            refine ⟨(hsame ej hmemj).symm, fun literal hl => Or.inr ?_⟩
            rw [if_neg (by simpa using hfirst)]
            exact hl

/-- The conflict analysis, on a failing clause with a literal above level 0,
leaves in `same_reason_identifier_` pairs of variables with the same reason,
whose literals are all marked. -/
theorem computeFirstUIPConflict_records (trail : Trail) (reason : Nat → List Literal)
    (fuel : Nat) (failing_clause : List Literal) (r : FirstUIPState)
    (hc : ConflictState trail reason failing_clause)
    (hsame : ∀ e ∈ trail.entries,
      reason (trail.ReferenceVarWithSameReason e.literal.Variable) = reason e.literal.Variable)
    (hpos : ∃ literal ∈ failing_clause, 0 < trail.levelOf literal.Variable)
    (hr : computeFirstUIPConflict trail reason fuel VariablesWithSameReasonIdentifier.Clear
      failing_clause = Except.ok r) :
    SameReasonInvariant reason r [] := by
  obtain ⟨hs, hn, hfalse, hreason⟩ := hc
  unfold computeFirstUIPConflict at hr
  dsimp only at hr
  obtain ⟨lt, hlt, hltpos⟩ := hpos
  rcases highestTrailIndex_spec trail failing_clause with
    ⟨hnil, -⟩ | ⟨i0, hidx, ⟨l0, hl0, hl0i⟩, hmax⟩
  · rw [hnil] at hlt
    simp at hlt
  · rw [hidx, if_neg (by omega)] at hr
    have hto : ((i0 : Int)).toNat = i0 := by omega
    rw [hto] at hr
    obtain ⟨j0, e0, hj0, -, he0v⟩ := trail.assigned_of_IsLiteralFalse l0 (hfalse l0 hl0)
    have hj0i : j0 = i0 := by
      have := trail.trailIndexOf_of_getElem? hn j0 e0 hj0
      rw [he0v, hl0i] at this
      exact this.symm
    subst hj0i
    have hlev0 : trail.levelOf l0.Variable = e0.level := by
      rw [← he0v]
      exact trail.levelOf_of_getElem? hn j0 e0 hj0
    have hH : trail.levelOf (trail.get j0).Variable = e0.level := by
      rw [trail.get_of_getElem? j0 e0 hj0]
      exact trail.levelOf_of_getElem? hn j0 e0 hj0
    rw [hH] at hr
    have hlen : j0 < trail.entries.length := by
      rcases Nat.lt_or_ge j0 trail.entries.length with h | h
      · exact h
      · rw [List.getElem?_eq_none h] at hj0
        simp at hj0
    have hz : ¬ e0.level = 0 := by
      obtain ⟨j, e, hj, hel, hev⟩ := trail.assigned_of_IsLiteralFalse lt (hfalse lt hlt)
      have h1 := trail.trailIndexOf_of_getElem? hn j e hj
      have h2 := trail.levelOf_of_getElem? hn j e hj
      rw [hev] at h1 h2
      have h3 := hmax lt hlt
      have h4 := trail.level_le_of_le hs j j0 e e0 hj hj0 (by omega)
      omega
    rw [if_neg hz] at hr
    exact firstUIPLoop_records trail reason e0.level hs hn hreason hsame fuel
      failing_clause ⟨SparseBitset.ClearAndResize, [], [],
        VariablesWithSameReasonIdentifier.Clear, (j0 : Int), 0⟩ (j0 + 1) r
      ⟨by unfold Trail.Index; omega,
        fun i e hi he => trail.level_le_of_le hs i j0 e e0 he hj0 (by omega),
        fun var hv => by simp [SparseBitset.get_ClearAndResize] at hv,
        by simp [markedAtLevel_ClearAndResize],
        fun literal hl => by simp at hl,
        fun var hv => by simp [SparseBitset.get_ClearAndResize] at hv⟩
      (by simp)
      (by omega)
      (fun literal hl => ⟨hfalse literal hl, by have := hmax literal hl; omega⟩)
      (Or.inr ⟨l0, hl0, hlev0⟩)
      (fun position var hpv => by
        simp [VariablesWithSameReasonIdentifier.Clear] at hpv)
      hr

theorem potential_le_minimizationFuel (trail : Trail) (reason : Nat → List Literal)
    (hn : (trail.entries.map (fun e => e.literal.Variable)).Nodup) (e : TrailEntry)
    (he : e ∈ trail.entries) :
    potential trail reason e.literal.Variable ≤ minimizationFuel trail reason := by
  obtain ⟨i, hi⟩ := List.mem_iff_getElem?.1 he
  have k1 := trail.trailIndexOf_of_getElem? hn i e hi
  have hlen : i < trail.entries.length := by
    rcases Nat.lt_or_ge i trail.entries.length with h | h
    · exact h
    · rw [List.getElem?_eq_none h] at hi
      simp at hi
  have h1 : potential trail reason e.literal.Variable ≤
      reasonWeight reason trail.Index e.literal.Variable := by
    unfold potential
    apply reasonWeight_mono
    unfold Trail.Index
    omega
  have h2 : ∀ (l : List TrailEntry), e ∈ l →
      reasonWeight reason trail.Index e.literal.Variable ≤
        (l.map (fun e => reasonWeight reason trail.Index e.literal.Variable)).sum := by
    intro l
    induction l with
    | nil => simp
    | cons x l ih =>
      intro hx
      simp only [List.map_cons, List.sum_cons]
      rcases List.mem_cons.1 hx with rfl | hx
      · omega
      · have := ih hx
        omega
  have := h2 trail.entries he
  unfold minimizationFuel
  omega

/-- C20 (recursive minimization).  In a state at a conflict where an aliased
reason is the reason of the reference variable, a search decision is the first
entry of its level and the trail index fits an `int`, on a failing clause with
a literal above level 0: `ComputeFirstUIPConflict` returns a conflict, and
`MinimizeConflictRecursively`, called on it with the marks that the analysis
left and given fuel for the weight of the reasons, returns a sub-list of the
conflict with the same first literal; and every total assignment that
satisfies the conflict, the clause made of `t` and `Reason(t)` for every trail
literal `t` that is not a search decision, and the trail literals of level 0,
satisfies the list that is returned. -/
theorem MinimizeConflictRecursively_sound (s : SatSolver) (fuel fuel2 : Nat)
    (failing_clause : List Literal)
    (hc : ConflictState s.trail_ (s.Reason s.trail_.Index) failing_clause)
    (hsame : ∀ e ∈ s.trail_.entries,
      s.Reason s.trail_.Index (s.trail_.ReferenceVarWithSameReason e.literal.Variable) =
        s.Reason s.trail_.Index e.literal.Variable)
    (hdec : ∀ e ∈ s.trail_.entries, e.info = AssignmentInfo.SEARCH_DECISION →
      ∀ e2 ∈ s.trail_.entries, e2.level = e.level →
        s.trail_.trailIndexOf e.literal.Variable ≤ s.trail_.trailIndexOf e2.literal.Variable)
    (hint : s.trail_.Index ≤ 2147483647)
    (hpos : ∃ literal ∈ failing_clause, 0 < s.DecisionLevel literal.Variable)
    (hfuel : s.trail_.Index ≤ fuel)
    (hfuel2 : minimizationFuel s.trail_ (s.Reason s.trail_.Index) ≤ fuel2) :
    ∃ r, s.ComputeFirstUIPConflict fuel VariablesWithSameReasonIdentifier.Clear
        failing_clause = Except.ok r ∧
      ∃ (out : List Literal) (st : MinimizationState),
        s.MinimizeConflictRecursively fuel2 r.is_marked_ r.same_reason_identifier_ r.conflict =
          Except.ok (out, st) ∧
        out.Sublist r.conflict ∧ out.head? = r.conflict.head? ∧
        ∀ a : Assignment, clauseHolds a r.conflict = true →
          (∀ e ∈ s.trail_.entries, e.info ≠ AssignmentInfo.SEARCH_DECISION →
            clauseHolds a (e.literal :: s.Reason s.trail_.Index e.literal.Variable) = true) →
          (∀ e ∈ s.trail_.entries, e.level = 0 → literalHolds a e.literal = true) →
          clauseHolds a out = true := by
  obtain ⟨r, hr, -, hfull⟩ :=
    computeFirstUIPConflict_spec s.trail_ (s.Reason s.trail_.Index) fuel
      VariablesWithSameReasonIdentifier.Clear failing_clause hc hfuel
  obtain ⟨level, hlpos, -, -, ⟨⟨j, e, rest, hj, hel, hconf, hem, hrest, hlower⟩, hassigned⟩⟩ :=
    hfull hpos
  have hrecords := computeFirstUIPConflict_records s.trail_ (s.Reason s.trail_.Index) fuel
    failing_clause r hc hsame hpos hr
  have hpot : ∀ e ∈ s.trail_.entries,
      potential s.trail_ (s.Reason s.trail_.Index) e.literal.Variable ≤ fuel2 :=
    fun e he => le_trans (potential_le_minimizationFuel _ _ hc.nodup e he) hfuel2
  -- the minimization on an assignment of the setting
  have build : ∀ a : Assignment,
      (∀ e ∈ s.trail_.entries, e.info ≠ AssignmentInfo.SEARCH_DECISION →
        clauseHolds a (e.literal :: s.Reason s.trail_.Index e.literal.Variable) = true) →
      (∀ e ∈ s.trail_.entries, e.level = 0 → literalHolds a e.literal = true) →
      ∃ kept st, minimizeConflictRecursively s.trail_ (s.Reason s.trail_.Index) fuel2
          r.is_marked_ r.same_reason_identifier_ (e.literal.Negated :: rest) =
          Except.ok (e.literal.Negated :: kept, st) ∧
        kept.Sublist rest ∧
        (clauseHolds a (e.literal.Negated :: rest) = true →
          clauseHolds a (e.literal.Negated :: kept) = true) := by
    intro a h1 h2
    have ctx : MinimizationContext s.trail_ (s.Reason s.trail_.Index) level
        (minTrailIndexPerLevel s.trail_ r.is_marked_.PositionsSetAtLeastOnce) rest a :=
      ⟨hc.sorted, hc.nodup, hc.reason_false, hsame,
        minTrailIndexPerLevel_prune s.trail_ _ hdec hint,
        fun c hcr => ⟨(hrest c hcr).1, (hrest c hcr).2.1, (hrest c hcr).2.2.1⟩, h1, h2⟩
    have hm : MarksImplied s.trail_ level rest a r.is_marked_ := by
      intro var hvar
      rcases Nat.eq_zero_or_pos (s.trail_.levelOf var) with hz | hp
      · exact Implied_of_level0 ctx var hz
      · intro hassign hlev
        obtain ⟨c, hcr, hcv⟩ := hlower var hvar hp hlev
        rw [← hcv]
        rw [← hcv] at hassign hlev
        exact Implied_of_rest ctx c hcr hassign hlev
    have hrec : RecordsImplied s.trail_ (s.Reason s.trail_.Index) level rest a
        ⟨r.is_marked_, SparseBitset.ClearAndResize, r.same_reason_identifier_⟩ [] := by
      intro position var hpv
      obtain ⟨e1, e2⟩ := hrecords position var hpv
      refine ⟨e1, fun _ _ l hl => ?_⟩
      rcases e2 l hl with h | h
      · exact hm l.Variable h
      · simp at h
    exact minimizeConflictRecursively_spec r.is_marked_ r.same_reason_identifier_
      e.literal.Negated ctx fuel2 hpot hm hrec
  obtain ⟨kept0, st0, hrun0, hsl0, -⟩ := build (trailAssignment s.trail_)
    (fun e he _ => by
      rw [clauseHolds_iff]
      exact ⟨e.literal, List.mem_cons_self _ _, trailAssignment_holds s.trail_ hc.nodup e he⟩)
    (fun e he _ => trailAssignment_holds s.trail_ hc.nodup e he)
  refine ⟨r, hr, e.literal.Negated :: kept0, st0, ?_, ?_, ?_, ?_⟩
  · unfold SatSolver.MinimizeConflictRecursively
    rw [hconf]
    exact hrun0
  · rw [hconf]
    exact List.Sublist.cons₂ _ hsl0
  · rw [hconf]
    rfl
  · intro a ha h1 h2
    obtain ⟨kept, st, hrun, -, hsem⟩ := build a h1 h2
    rw [hrun0] at hrun
    simp only [Except.ok.injEq, Prod.mk.injEq, List.cons.injEq, true_and] at hrun
    rw [hrun.1]
    rw [hconf] at ha
    exact hsem ha

/-- On the conflict `not x4 or not x2 or not x0`, the analysis returns
`[not x4, not x0, not x2]` and the recursive minimization drops `not x2`, which
follows from `not x0` through the reasons of `x2` and `x1`. -/
theorem MinimizeConflictRecursively_sound_witness :
    ∃ r, recursiveMinimizationExample.ComputeFirstUIPConflict 5
        VariablesWithSameReasonIdentifier.Clear [⟨9⟩, ⟨5⟩, ⟨1⟩] = Except.ok r ∧
      ∃ (out : List Literal) (st : MinimizationState),
        recursiveMinimizationExample.MinimizeConflictRecursively 19 r.is_marked_
          r.same_reason_identifier_ r.conflict = Except.ok (out, st) ∧
        out.Sublist r.conflict ∧ out.head? = r.conflict.head? ∧
        ∀ a : Assignment, clauseHolds a r.conflict = true →
          (∀ e ∈ recursiveMinimizationExample.trail_.entries,
            e.info ≠ AssignmentInfo.SEARCH_DECISION →
            clauseHolds a (e.literal :: recursiveMinimizationExample.Reason
              recursiveMinimizationExample.trail_.Index e.literal.Variable) = true) →
          (∀ e ∈ recursiveMinimizationExample.trail_.entries, e.level = 0 →
            literalHolds a e.literal = true) →
          clauseHolds a out = true :=
  MinimizeConflictRecursively_sound recursiveMinimizationExample 5 19 [⟨9⟩, ⟨5⟩, ⟨1⟩]
    ⟨by decide, by decide, by decide, by decide⟩ (by decide) (by decide) (by decide)
    ⟨⟨9⟩, by decide, by decide⟩ (by decide) (by decide)

/-- C23 (restart).  In a state whose trail and decisions are well formed
(`TrailInvariant`), the restart statement of the search loop of `Solve` changes
the state only when `ShouldRestart()` holds and the current decision level is
above `assumption_level_`, and it is then `Backtrack(assumption_level_)`: the
new decision level is exactly `assumption_level_`; otherwise the state is
unchanged.  In both cases `assumption_level_` is unchanged, the decision level
does not go below the smaller of its old value and `assumption_level_`, the new
trail is a prefix of the old one, and the trail entries of level at most
`assumption_level_` are the same, in the same order. -/
theorem restartIfNeeded_spec (s : SatSolver) (h : TrailInvariant s) (env : SolveEnvironment)
    (iteration : Nat) :
    ((env.should_restart iteration = true ∧ s.CurrentDecisionLevel > s.assumption_level_) →
      s.restartIfNeeded env iteration = s.Backtrack s.assumption_level_ ∧
      (s.restartIfNeeded env iteration).CurrentDecisionLevel = s.assumption_level_ ∧
      (s.restartIfNeeded env iteration).trail_.entries =
        s.trail_.entries.filter (fun e => decide (e.level ≤ s.assumption_level_))) ∧
    (¬ (env.should_restart iteration = true ∧ s.CurrentDecisionLevel > s.assumption_level_) →
      s.restartIfNeeded env iteration = s) ∧
    (s.restartIfNeeded env iteration).assumption_level_ = s.assumption_level_ ∧
    min s.CurrentDecisionLevel s.assumption_level_ ≤
      (s.restartIfNeeded env iteration).CurrentDecisionLevel ∧
    (s.restartIfNeeded env iteration).trail_.entries <+: s.trail_.entries ∧
    (s.restartIfNeeded env iteration).trail_.entries.filter
        (fun e => decide (e.level ≤ s.assumption_level_)) =
      s.trail_.entries.filter (fun e => decide (e.level ≤ s.assumption_level_)) := by
  by_cases hc : env.should_restart iteration = true ∧
      s.CurrentDecisionLevel > s.assumption_level_
  · have hr : s.restartIfNeeded env iteration = s.Backtrack s.assumption_level_ := by
      unfold SatSolver.restartIfNeeded
      rw [if_pos hc]
    have hlt : s.assumption_level_ < s.CurrentDecisionLevel := hc.2
    obtain ⟨-, hd2, -⟩ := h.decisions s.assumption_level_ hlt
    have hfilter := take_findIdx_eq_filter (s.assumption_level_ + 1) s.trail_.entries h.sorted hd2
    have hentries : (s.Backtrack s.assumption_level_).trail_.entries =
        s.trail_.entries.filter (fun e => decide (e.level ≤ s.assumption_level_)) := by
      rw [Backtrack_eq s h s.assumption_level_ hlt]
      simp only
      unfold Trail.firstIndexOfLevel
      rw [hfilter]
      congr 1
      funext e
      simp [Nat.lt_succ_iff]
    have htake : (s.Backtrack s.assumption_level_).trail_.entries =
        s.trail_.entries.take (s.trail_.firstIndexOfLevel (s.assumption_level_ + 1)) := by
      rw [Backtrack_eq s h s.assumption_level_ hlt]
    have hlevel : (s.Backtrack s.assumption_level_).CurrentDecisionLevel =
        s.assumption_level_ := by
      rw [Backtrack_eq s h s.assumption_level_ hlt]
      rfl
    have hassume : (s.Backtrack s.assumption_level_).assumption_level_ =
        s.assumption_level_ := by
      rw [Backtrack_eq s h s.assumption_level_ hlt]
    refine ⟨fun _ => ⟨hr, ?_, ?_⟩, fun hn => absurd hc hn, ?_, ?_, ?_, ?_⟩
    · rw [hr, hlevel]
    · rw [hr, hentries]
    · rw [hr, hassume]
    · rw [hr, hlevel]
      exact Nat.min_le_right _ _
    · rw [hr, htake]
      exact List.take_prefix _ _
    · rw [hr, hentries, List.filter_filter]
      congr 1
      funext e
      simp
  · have hr : s.restartIfNeeded env iteration = s := by
      unfold SatSolver.restartIfNeeded
      rw [if_neg hc]
    refine ⟨fun hp => absurd hp hc, fun _ => hr, ?_, ?_, ?_, ?_⟩
    · rw [hr]
    · rw [hr]
      exact Nat.min_le_left _ _
    · rw [hr]
    · rw [hr]

/-- Two decisions with the first one an assumption, and a restart: the trail is
cut to the assumption. -/
theorem restartIfNeeded_spec_witness :
    (restartExample.restartIfNeeded restartEnvironment 0).CurrentDecisionLevel = 1 ∧
    (restartExample.restartIfNeeded restartEnvironment 0).trail_.entries =
      [⟨⟨0⟩, 1, AssignmentInfo.SEARCH_DECISION⟩] :=
  have h := (restartIfNeeded_spec restartExample
    ⟨by decide, by decide, by decide, by decide, by decide⟩ restartEnvironment 0).1
    ⟨rfl, by decide⟩
  ⟨h.2.1.trans (by decide), h.2.2.trans (by decide)⟩

/-! ### `MinimizeConflict` -/

theorem IsConflictValid_cons_iff (s : SatSolver) (first : Literal) (rest : List Literal) :
    s.IsConflictValid (first :: rest) = true ↔
      ∀ c ∈ rest, 0 < s.DecisionLevel c.Variable ∧
        s.DecisionLevel c.Variable < s.DecisionLevel first.Variable := by
  unfold SatSolver.IsConflictValid
  simp only [List.all_eq_true, Bool.not_eq_true', Bool.or_eq_false_iff,
    decide_eq_false_iff_not]
  constructor
  · intro h c hc
    have := h c hc
    omega
  · intro h c hc
    have := h c hc
    omega

theorem IsConflictValid_of_sublist (s : SatSolver) (first : Literal) (rest kept : List Literal)
    (h : s.IsConflictValid (first :: rest) = true) (hs : kept.Sublist rest) :
    s.IsConflictValid (first :: kept) = true := by
  rw [IsConflictValid_cons_iff] at *
  exact fun c hc => h c (hs.subset hc)

theorem SparseBitset.get_Clear (b : SparseBitset) (index var : Nat) :
    (b.Clear index).get var = (b.get var && !decide (var = index)) := by
  unfold SparseBitset.Clear SparseBitset.get
  simp only [List.contains_eq_any_beq, List.any_filter]
  rw [Bool.eq_iff_iff]
  simp only [List.any_eq_true, Bool.and_eq_true, bne_iff_ne, ne_eq, beq_iff_eq,
    Bool.not_eq_true', decide_eq_false_iff_not]
  constructor
  · rintro ⟨x, hx, h1, h2⟩
    subst h2
    exact ⟨⟨_, hx, rfl⟩, h1⟩
  · rintro ⟨⟨x, hx, h2⟩, h1⟩
    subst h2
    exact ⟨_, hx, h1, rfl⟩

theorem SparseBitset.get_foldl_Clear : ∀ (l : List Nat) (b : SparseBitset) (v : Nat),
    (l.foldl (fun b var => b.Clear var) b).get v = (b.get v && !decide (v ∈ l))
  | [], b, v => by simp
  | x :: l, b, v => by
    rw [List.foldl_cons, SparseBitset.get_foldl_Clear l (b.Clear x) v, SparseBitset.get_Clear]
    rw [Bool.eq_iff_iff]
    simp only [Bool.and_eq_true, Bool.not_eq_true', decide_eq_false_iff_not, List.mem_cons,
      not_or]
    tauto

/-- A literal that the scan of a reason returns was in the vector at the start,
or is a literal of the reason that is not of level 0 and whose variable is not
marked. -/
theorem notContainedLiterals_mem (trail : Trail) (is_marked : SparseBitset) :
    ∀ (reason acc : List Literal), ∀ x ∈ notContainedLiterals trail is_marked reason acc,
      x ∈ acc ∨ (x ∈ reason ∧ trail.levelOf x.Variable ≠ 0 ∧ is_marked.get x.Variable = false)
  | [], acc, x, hx => by
    unfold notContainedLiterals at hx
    exact Or.inl hx
  | l :: reason, acc, x, hx => by
    unfold notContainedLiterals at hx
    have lift : ∀ acc2, x ∈ notContainedLiterals trail is_marked reason acc2 →
        (x ∈ acc2 → x ∈ acc ∨
          (x ∈ l :: reason ∧ trail.levelOf x.Variable ≠ 0 ∧
            is_marked.get x.Variable = false)) →
        x ∈ acc ∨ (x ∈ l :: reason ∧ trail.levelOf x.Variable ≠ 0 ∧
          is_marked.get x.Variable = false) := by
      intro acc2 hx2 hacc
      rcases notContainedLiterals_mem trail is_marked reason acc2 x hx2 with h | ⟨h1, h2, h3⟩
      · exact hacc h
      · exact Or.inr ⟨List.mem_cons_of_mem _ h1, h2, h3⟩
    by_cases h0 : trail.levelOf l.Variable = 0
    · rw [if_pos h0] at hx
      exact lift acc hx Or.inl
    · rw [if_neg h0] at hx
      by_cases hm : is_marked.get l.Variable = false
      · rw [if_pos hm] at hx
        have hnew : x ∈ acc ++ [l] → x ∈ acc ∨
            (x ∈ l :: reason ∧ trail.levelOf x.Variable ≠ 0 ∧
              is_marked.get x.Variable = false) := by
          intro hmem
          rcases List.mem_append.1 hmem with h | h
          · exact Or.inl h
          · have : x = l := by simpa using h
            subst this
            exact Or.inr ⟨List.mem_cons_self _ _, h0, hm⟩
        split at hx
        · exact hnew hx
        · exact lift _ hx hnew
      · rw [if_neg hm] at hx
        exact lift acc hx Or.inl

/-- The level of a literal of the reason of a trail entry is at most the level
of the entry. -/
theorem ConflictState.reason_level_le_of_entry {trail : Trail} {reason : Nat → List Literal}
    {failing_clause : List Literal} (hc : ConflictState trail reason failing_clause)
    (e : TrailEntry) (he : e ∈ trail.entries) (l : Literal)
    (hl : l ∈ reason e.literal.Variable) :
    trail.levelOf l.Variable ≤ trail.levelOf e.literal.Variable := by
  have hfalse : trail.IsLiteralFalse e.literal.Negated = true := by
    unfold Trail.IsLiteralFalse
    rw [List.any_eq_true]
    exact ⟨e, he, by simp [Literal.Negated_Negated]⟩
  have := hc.reason_level_le e.literal.Negated hfalse l
    (by rw [Literal.Variable_Negated]; exact hl)
  rw [Literal.Variable_Negated] at this
  exact this.2

theorem experimentalLoop_spec {trail : Trail} {reason : Nat → List Literal}
    {failing_clause : List Literal} (hc : ConflictState trail reason failing_clause)
    (first : Literal) (level : Nat) :
    ∀ (vars : List WeightedVariable) (st : ExperimentalState),
    (∀ wv ∈ vars, wv.var ≠ first.Variable ∧ 0 < trail.levelOf wv.var ∧
      trail.levelOf wv.var < level) →
    ExperimentalInvariant trail first level st →
    ExperimentalInvariant trail first level (experimentalLoop trail reason vars st)
  | [], st, _, h => by
    unfold experimentalLoop
    exact h
  | wv :: vars, st, hv, h => by
    have hvars : ∀ w ∈ vars, w.var ≠ first.Variable ∧ 0 < trail.levelOf w.var ∧
        trail.levelOf w.var < level := fun w hw => hv w (List.mem_cons_of_mem _ hw)
    obtain ⟨hne, hpos, hlt⟩ := hv wv (List.mem_cons_self _ _)
    obtain ⟨⟨tail, hconf, htail⟩, hmarks, hnodup, hfirst⟩ := h
    unfold experimentalLoop
    by_cases hr : reason wv.var = []
    · rw [if_pos hr]
      exact experimentalLoop_spec hc first level vars st hvars
        ⟨⟨tail, hconf, htail⟩, hmarks, hnodup, hfirst⟩
    · rw [if_neg hr]
      rcases hres : notContainedLiterals trail st.is_marked_ (reason wv.var) [] with
        _ | ⟨front, _ | ⟨b, r⟩⟩
      · simp only
        apply experimentalLoop_spec hc first level vars _ hvars
        refine ⟨⟨tail, hconf, htail⟩, hmarks, hnodup, ?_⟩
        simp only [List.mem_append, List.mem_singleton, not_or]
        exact ⟨hfirst, fun h => hne h.symm⟩
      · simp only
        have hmem : front ∈ notContainedLiterals trail st.is_marked_ (reason wv.var) [] := by
          rw [hres]
          exact List.mem_singleton_self _
        rcases notContainedLiterals_mem trail st.is_marked_ _ _ front hmem with
          h | ⟨hin, hl0, hunmarked⟩
        · simp at h
        obtain ⟨e, he, hev, -⟩ := trail.entry_of_levelOf_pos wv.var hpos
        have hle := hc.reason_level_le_of_entry e he front (by rw [hev]; exact hin)
        rw [hev] at hle
        apply experimentalLoop_spec hc first level vars _ hvars
        refine ⟨⟨tail ++ [front], by simp [hconf], ?_⟩, ?_, ?_, ?_⟩
        · intro c hcm
          rcases List.mem_append.1 hcm with h | h
          · exact htail c h
          · have : c = front := by simpa using h
            subst this
            omega
        · intro v
          rw [SparseBitset.get_Set]
          simp only [Bool.or_eq_true, decide_eq_true_eq, List.map_append, List.map_cons,
            List.map_nil, List.mem_append, List.mem_singleton]
          rw [hmarks v]
        · simp only [List.map_append, List.map_cons, List.map_nil]
          rw [List.nodup_append]
          refine ⟨hnodup, List.nodup_singleton _, ?_⟩
          intro a ha hb
          have : a = front.Variable := by simpa using hb
          subst this
          have := (hmarks front.Variable).2 ha
          rw [hunmarked] at this
          exact Bool.noConfusion this
        · simp only [List.mem_append, List.mem_singleton, not_or]
          exact ⟨hfirst, fun h => hne h.symm⟩
      · simp only
        exact experimentalLoop_spec hc first level vars st hvars
          ⟨⟨tail, hconf, htail⟩, hmarks, hnodup, hfirst⟩

theorem sortWeightedVariables_mem (l : List WeightedVariable) (wv : WeightedVariable) :
    wv ∈ sortWeightedVariables l ↔ wv ∈ l := by
  unfold sortWeightedVariables
  exact (List.perm_insertionSort _ l).mem_iff

/-- The experimental minimization of a valid conflict that has no variable twice
and whose first literal is of the current decision level returns a conflict
with the same first literal, whose other literals are of a level strictly
between 0 and that level, and that has no variable twice. -/
theorem minimizeConflictExperimental_spec {trail : Trail} {reason : Nat → List Literal}
    {failing_clause : List Literal} (hc : ConflictState trail reason failing_clause)
    (current_level : Nat) (first : Literal) (rest : List Literal)
    (hfirst : trail.levelOf first.Variable = current_level)
    (hrest : ∀ c ∈ rest, 0 < trail.levelOf c.Variable ∧
      trail.levelOf c.Variable < current_level)
    (hnodup : ((first :: rest).map (fun c => c.Variable)).Nodup) :
    ∃ kept, (minimizeConflictExperimental trail reason current_level (first :: rest)).1 =
        first :: kept ∧
      (∀ c ∈ kept, 0 < trail.levelOf c.Variable ∧ trail.levelOf c.Variable < current_level) ∧
      ((first :: kept).map (fun c => c.Variable)).Nodup := by
  unfold minimizeConflictExperimental
  dsimp only
  generalize hvars : sortWeightedVariables
    (((first :: rest).filter
      (fun literal => decide (trail.levelOf literal.Variable < current_level))).map
      (fun literal => (⟨literal.Variable, trail.levelOf literal.Variable⟩ : WeightedVariable)))
    = vars
  have hv : ∀ wv ∈ vars, wv.var ≠ first.Variable ∧ 0 < trail.levelOf wv.var ∧
      trail.levelOf wv.var < current_level := by
    intro wv hwv
    rw [← hvars, sortWeightedVariables_mem] at hwv
    obtain ⟨c, hcm, rfl⟩ := List.mem_map.1 hwv
    obtain ⟨hcm1, hcl⟩ := List.mem_filter.1 hcm
    have hcl2 : trail.levelOf c.Variable < current_level := by simpa using hcl
    dsimp only
    rcases List.mem_cons.1 hcm1 with h | h
    · subst h
      omega
    · refine ⟨?_, (hrest c h).1, hcl2⟩
      intro heq
      rw [heq] at hcl2
      omega
  have hinit : ExperimentalInvariant trail first current_level
      ⟨(first :: rest).foldl (fun b literal => b.Set literal.Variable)
        SparseBitset.ClearAndResize, first :: rest, []⟩ := by
    refine ⟨⟨rest, rfl, hrest⟩, ?_, hnodup, by simp⟩
    intro v
    have := SparseBitset.get_foldl_Set ((first :: rest).map (fun c => c.Variable))
      SparseBitset.ClearAndResize v
    rw [List.foldl_map] at this
    rw [this, SparseBitset.get_ClearAndResize]
    simp
  obtain ⟨⟨tail, hconf, htail⟩, hmarks, hnd, hkeep⟩ :=
    experimentalLoop_spec hc first current_level vars _ hv hinit
  generalize experimentalLoop trail reason vars
    ⟨(first :: rest).foldl (fun b literal => b.Set literal.Variable)
      SparseBitset.ClearAndResize, first :: rest, []⟩ = st at hconf hmarks hnd hkeep
  rw [hconf]
  have hf : (st.to_remove.foldl (fun b var => b.Clear var) st.is_marked_).get
      first.Variable = true := by
    rw [SparseBitset.get_foldl_Clear, (hmarks first.Variable).2 (by simp [hconf])]
    simpa using hkeep
  rw [List.filter_cons_of_pos (by simpa using hf)]
  refine ⟨_, rfl, fun c hcm => htail c (List.mem_filter.1 hcm).1, ?_⟩
  rw [hconf] at hnd
  exact List.Nodup.sublist
    (List.Sublist.map _ (List.Sublist.cons₂ _ (List.filter_sublist _))) hnd


/-- The recursive minimization of a valid conflict whose literals are false, in
the setting of the search and given fuel for the weight of the reasons,
returns the first literal and a sub-list of the others. -/
theorem MinimizeConflictRecursively_sublist (s : SatSolver) (fuel : Nat)
    (st : MinimizationState) (first : Literal) (rest : List Literal)
    (hc : ConflictState s.trail_ (s.Reason s.trail_.Index) (first :: rest))
    (hset : RecursiveSetting s st)
    (hvalid : s.IsConflictValid (first :: rest) = true)
    (hfuel : minimizationFuel s.trail_ (s.Reason s.trail_.Index) ≤ fuel) :
    ∃ kept st2, s.MinimizeConflictRecursively fuel st.is_marked_ st.same_reason_identifier_
        (first :: rest) = Except.ok (first :: kept, st2) ∧ kept.Sublist rest := by
  rw [IsConflictValid_cons_iff] at hvalid
  have hhold : ∀ e ∈ s.trail_.entries,
      literalHolds (trailAssignment s.trail_) e.literal = true :=
    fun e he => trailAssignment_holds s.trail_ hc.nodup e he
  have ctx : MinimizationContext s.trail_ (s.Reason s.trail_.Index)
      (s.DecisionLevel first.Variable)
      (minTrailIndexPerLevel s.trail_ st.is_marked_.PositionsSetAtLeastOnce) rest
      (trailAssignment s.trail_) :=
    ⟨hc.sorted, hc.nodup, hc.reason_false, hset.same,
      minTrailIndexPerLevel_prune s.trail_ _ hset.decisions_first hset.index_int,
      fun c hcr => ⟨hc.failing_false c (List.mem_cons_of_mem _ hcr), (hvalid c hcr).1,
        (hvalid c hcr).2⟩,
      fun e he _ => by
        rw [clauseHolds_iff]
        exact ⟨e.literal, List.mem_cons_self _ _, hhold e he⟩,
      fun e he _ => hhold e he⟩
  have himp : ∀ var, Implied s.trail_ (s.DecisionLevel first.Variable) rest
      (trailAssignment s.trail_) var := by
    intro var hassign _ _
    obtain ⟨e, he, -⟩ := s.trail_.getElem?_trailIndexOf var hassign
    rw [s.trail_.get_of_getElem? _ e he]
    exact hhold e (List.mem_iff_getElem?.2 ⟨_, he⟩)
  have hm : MarksImplied s.trail_ (s.DecisionLevel first.Variable) rest
      (trailAssignment s.trail_) st.is_marked_ := fun var _ => himp var
  have hrec : RecordsImplied s.trail_ (s.Reason s.trail_.Index)
      (s.DecisionLevel first.Variable) rest (trailAssignment s.trail_)
      ⟨st.is_marked_, SparseBitset.ClearAndResize, st.same_reason_identifier_⟩ [] :=
    fun position var hpv =>
      ⟨hset.records (position, var) hpv, fun _ _ l _ => himp l.Variable⟩
  have hpot : ∀ e ∈ s.trail_.entries,
      potential s.trail_ (s.Reason s.trail_.Index) e.literal.Variable ≤ fuel :=
    fun e he => le_trans (potential_le_minimizationFuel _ _ hc.nodup e he) hfuel
  obtain ⟨kept, st2, hrun, hsl, -⟩ := minimizeConflictRecursively_spec st.is_marked_
    st.same_reason_identifier_ first ctx fuel hpot hm hrec
  exact ⟨kept, st2, hrun, hsl⟩

/-- C21 (minimization keeps the conflict valid).  In a state at a conflict (the
levels do not decrease along the trail, no variable is on it twice, the
literals of the conflict are false and the reasons are made of false literals
of smaller trail index), for an input conflict that satisfies
`IsConflictValid` and contains no variable twice: with no proof asked for, or
with the algorithm `NONE` or `RECURSIVE`, `MinimizeConflict` returns; the output
conflict satisfies `IsConflictValid`, has the same first literal and contains
no variable twice; and for `NONE` the conflict, the reasons used and the marks
are unchanged.  For `EXPERIMENTAL` the first literal of the input has to be of
the current decision level; for `RECURSIVE` the setting is the one of the
search (`RecursiveSetting`) and the fuel covers the weight of the reasons. -/
theorem MinimizeConflict_valid (s : SatSolver) (fuel : Nat)
    (minimization_algorithm : ConflictMinimizationAlgorithm) (st : MinimizationState)
    (conflict reason_used : List Literal)
    (hc : ConflictState s.trail_ (s.Reason s.trail_.Index) conflict)
    (hvalid : s.IsConflictValid conflict = true)
    (hnodup : (conflict.map (fun c => c.Variable)).Nodup)
    (hproof : s.parameters_.unsat_proof = true →
      minimization_algorithm = ConflictMinimizationAlgorithm.NONE ∨
      minimization_algorithm = ConflictMinimizationAlgorithm.RECURSIVE)
    (hexperimental : minimization_algorithm = ConflictMinimizationAlgorithm.EXPERIMENTAL →
      ∀ first ∈ conflict.head?, s.DecisionLevel first.Variable = s.CurrentDecisionLevel)
    (hrecursive : minimization_algorithm = ConflictMinimizationAlgorithm.RECURSIVE →
      RecursiveSetting s st ∧ minimizationFuel s.trail_ (s.Reason s.trail_.Index) ≤ fuel) :
    ∃ (out reason_used_out : List Literal) (st2 : MinimizationState),
      s.MinimizeConflict fuel minimization_algorithm st conflict reason_used =
        Except.ok (out, reason_used_out, st2) ∧
      s.IsConflictValid out = true ∧
      out.head? = conflict.head? ∧
      (out.map (fun c => c.Variable)).Nodup ∧
      (minimization_algorithm = ConflictMinimizationAlgorithm.NONE →
        out = conflict ∧ reason_used_out = reason_used ∧ st2 = st) := by
  rcases conflict with _ | ⟨first, rest⟩
  · simp [SatSolver.IsConflictValid] at hvalid
  -- what the switch returns
  have hswitch : minimization_algorithm ≠ ConflictMinimizationAlgorithm.NONE →
      ∃ kept st1, s.minimizeWith fuel minimization_algorithm st (first :: rest) =
        Except.ok (first :: kept, st1) ∧ s.IsConflictValid (first :: kept) = true ∧
        ((first :: kept).map (fun c => c.Variable)).Nodup := by
    intro hne
    cases minimization_algorithm with
    | NONE => exact absurd rfl hne
    | SIMPLE =>
      refine ⟨rest.filter (fun literal => !s.canBeRemoved st.is_marked_ literal.Variable), st,
        ?_, ?_, ?_⟩
      · simp [SatSolver.minimizeWith, SatSolver.MinimizeConflictSimple]
      · exact IsConflictValid_of_sublist s first rest _ hvalid (List.filter_sublist _)
      · exact List.Nodup.sublist
          (List.Sublist.map _ (List.Sublist.cons₂ _ (List.filter_sublist _))) hnodup
    | RECURSIVE =>
      obtain ⟨hset, hfuel⟩ := hrecursive rfl
      obtain ⟨kept, st2, hrun, hsl⟩ :=
        MinimizeConflictRecursively_sublist s fuel st first rest hc hset hvalid hfuel
      refine ⟨kept, st2, ?_, ?_, ?_⟩
      · simp only [SatSolver.minimizeWith]
        exact hrun
      · exact IsConflictValid_of_sublist s first rest _ hvalid hsl
      · exact List.Nodup.sublist (List.Sublist.map _ (List.Sublist.cons₂ _ hsl)) hnodup
    | EXPERIMENTAL =>
      have hfirst := hexperimental rfl first (by simp)
      have hv := (IsConflictValid_cons_iff s first rest).1 hvalid
      obtain ⟨kept, hrun, hkept, hnd⟩ := minimizeConflictExperimental_spec hc
        s.CurrentDecisionLevel first rest hfirst
        (fun c hcm => ⟨(hv c hcm).1, by
          have := (hv c hcm).2
          unfold SatSolver.DecisionLevel at this hfirst
          omega⟩) hnodup
      refine ⟨kept, { st with is_marked_ := (s.MinimizeConflictExperimental (first :: rest)).2 },
        ?_, ?_, hnd⟩
      · simp only [SatSolver.minimizeWith, SatSolver.MinimizeConflictExperimental]
        rw [hrun]
      · rw [IsConflictValid_cons_iff]
        intro c hcm
        have := hkept c hcm
        unfold SatSolver.DecisionLevel at *
        omega
  unfold SatSolver.MinimizeConflict
  by_cases hnone : minimization_algorithm = ConflictMinimizationAlgorithm.NONE
  · rw [if_pos hnone]
    exact ⟨first :: rest, reason_used, st, rfl, hvalid, rfl, hnodup, fun _ => ⟨rfl, rfl, rfl⟩⟩
  · rw [if_neg hnone]
    obtain ⟨kept, st1, hrun, hv, hnd⟩ := hswitch hnone
    rw [hrun]
    dsimp only
    by_cases hp : s.parameters_.unsat_proof = true
    · rw [if_pos hp]
      have hrec : minimization_algorithm = ConflictMinimizationAlgorithm.RECURSIVE := by
        rcases hproof hp with h | h
        · exact absurd h hnone
        · exact h
      rw [if_neg (by simpa using hrec)]
      exact ⟨_, _, _, rfl, hv, rfl, hnd, fun h => absurd h hnone⟩
    · rw [if_neg hp]
      exact ⟨_, _, _, rfl, hv, rfl, hnd, fun h => absurd h hnone⟩

/-- The recursive minimization of the first UIP conflict
`[not x4, not x0, not x2]` of `recursiveMinimizationExample`, with the marks of
the analysis: the output `[not x4, not x0]` is valid. -/
theorem MinimizeConflict_valid_witness :
    ∃ (out reason_used_out : List Literal) (st2 : MinimizationState),
      recursiveMinimizationExample.MinimizeConflict 19 ConflictMinimizationAlgorithm.RECURSIVE
          ⟨⟨[4, 2, 0], [4, 2, 0]⟩, SparseBitset.ClearAndResize,
            VariablesWithSameReasonIdentifier.Clear⟩ [⟨9⟩, ⟨1⟩, ⟨5⟩] [] =
        Except.ok (out, reason_used_out, st2) ∧
      recursiveMinimizationExample.IsConflictValid out = true ∧
      out.head? = ([⟨9⟩, ⟨1⟩, ⟨5⟩] : List Literal).head? ∧
      (out.map (fun c => c.Variable)).Nodup ∧
      (ConflictMinimizationAlgorithm.RECURSIVE = ConflictMinimizationAlgorithm.NONE →
        out = [⟨9⟩, ⟨1⟩, ⟨5⟩] ∧ reason_used_out = [] ∧
        st2 = ⟨⟨[4, 2, 0], [4, 2, 0]⟩, SparseBitset.ClearAndResize,
          VariablesWithSameReasonIdentifier.Clear⟩) :=
  MinimizeConflict_valid recursiveMinimizationExample 19
    ConflictMinimizationAlgorithm.RECURSIVE
    ⟨⟨[4, 2, 0], [4, 2, 0]⟩, SparseBitset.ClearAndResize,
      VariablesWithSameReasonIdentifier.Clear⟩ [⟨9⟩, ⟨1⟩, ⟨5⟩] []
    ⟨by decide, by decide, by decide, by decide⟩ (by decide) (by decide)
    (fun h => absurd h (by decide)) (fun h => absurd h (by decide))
    (fun _ => ⟨⟨by decide, by decide, by decide, by decide⟩, by decide⟩)

/-- C21, counterexamples.  `IsConflictValid` alone does not give the claim.
(1) The list `[not x3, not x0, not x0]` is valid in `minimizationExample` and the
algorithm `NONE` returns it unchanged, with a variable twice.  (2) In
`experimentalExample`, at level 3, the valid conflict `[not x2, not x0]` has a
first literal of level 2; the algorithm `EXPERIMENTAL` replaces `not x2` by the
literal `not x1` of its reason and returns `[not x0, not x1]`, which has another
first literal and is not valid.  (3) With `unsat_proof` set and the algorithm
`SIMPLE`, the `CHECK_EQ` of `MinimizeConflict` aborts. -/
theorem MinimizeConflict_valid_counterexample :
    (minimizationExample.IsConflictValid [⟨7⟩, ⟨1⟩, ⟨1⟩] = true ∧
      minimizationExample.MinimizeConflict 0 ConflictMinimizationAlgorithm.NONE
          ⟨SparseBitset.ClearAndResize, SparseBitset.ClearAndResize,
            VariablesWithSameReasonIdentifier.Clear⟩ [⟨7⟩, ⟨1⟩, ⟨1⟩] [] =
        Except.ok ([⟨7⟩, ⟨1⟩, ⟨1⟩], [], ⟨SparseBitset.ClearAndResize,
          SparseBitset.ClearAndResize, VariablesWithSameReasonIdentifier.Clear⟩) ∧
      ¬ (([⟨7⟩, ⟨1⟩, ⟨1⟩] : List Literal).map (fun c => c.Variable)).Nodup) ∧
    (experimentalExample.IsConflictValid [⟨5⟩, ⟨1⟩] = true ∧
      experimentalExample.MinimizeConflict 0 ConflictMinimizationAlgorithm.EXPERIMENTAL
          ⟨SparseBitset.ClearAndResize, SparseBitset.ClearAndResize,
            VariablesWithSameReasonIdentifier.Clear⟩ [⟨5⟩, ⟨1⟩] [] =
        Except.ok ([⟨1⟩, ⟨3⟩], [], ⟨⟨[0, 1], [2, 0, 1]⟩, SparseBitset.ClearAndResize,
          VariablesWithSameReasonIdentifier.Clear⟩) ∧
      experimentalExample.IsConflictValid [⟨1⟩, ⟨3⟩] = false) ∧
    (({ minimizationExample with parameters_ := ⟨true, true, kint64max⟩ } :
        SatSolver).IsConflictValid [⟨7⟩, ⟨1⟩] = true ∧
      ({ minimizationExample with parameters_ := ⟨true, true, kint64max⟩ } :
        SatSolver).MinimizeConflict 0 ConflictMinimizationAlgorithm.SIMPLE
          ⟨SparseBitset.ClearAndResize, SparseBitset.ClearAndResize,
            VariablesWithSameReasonIdentifier.Clear⟩ [⟨7⟩, ⟨1⟩] [] =
        Except.error Abort.CHECK_FAILED) :=
  ⟨⟨by decide, rfl, by decide⟩, ⟨by decide, rfl, by decide⟩, ⟨by decide, rfl⟩⟩

/-! ### Clean-up of the learned clauses -/

theorem ClauseOrdering_eq_false_iff (a b : SatClause) :
    ClauseOrdering b a = false ↔
      a.Lbd < b.Lbd ∨ (a.Lbd = b.Lbd ∧ b.Activity ≤ a.Activity) := by
  unfold ClauseOrdering
  by_cases h : b.Lbd = a.Lbd
  · rw [if_pos h]
    simp only [gt_iff_lt, decide_eq_false_iff_not, not_lt]
    constructor
    · intro h1
      exact Or.inr ⟨h.symm, h1⟩
    · rintro (h1 | ⟨-, h1⟩)
      · omega
      · exact h1
  · rw [if_neg h]
    simp only [decide_eq_false_iff_not, not_lt]
    constructor
    · intro h1
      left
      omega
    · rintro (h1 | ⟨h1, -⟩)
      · omega
      · exact absurd h1.symm h

/-- The sort of the clean-up leaves the clauses in the order of `ClauseOrdering`:
no clause stands after one it compares less than. -/
theorem sortClauses_sorted (heap : ClauseHeap) (l : List Nat) :
    (sortClauses heap l).Pairwise
      (fun a b => ClauseOrdering (clauseAt heap b) (clauseAt heap a) = false) := by
  haveI : IsTotal Nat
      (fun a b => ClauseOrdering (clauseAt heap b) (clauseAt heap a) = false) :=
    ⟨fun a b => by
      simp only [ClauseOrdering_eq_false_iff]
      rcases lt_trichotomy (clauseAt heap a).Lbd (clauseAt heap b).Lbd with h | h | h
      · exact Or.inl (Or.inl h)
      · rcases le_total (clauseAt heap a).Activity (clauseAt heap b).Activity with h1 | h1
        · exact Or.inr (Or.inr ⟨h.symm, h1⟩)
        · exact Or.inl (Or.inr ⟨h, h1⟩)
      · exact Or.inr (Or.inl h)⟩
  haveI : IsTrans Nat
      (fun a b => ClauseOrdering (clauseAt heap b) (clauseAt heap a) = false) :=
    ⟨fun a b c => by
      simp only [ClauseOrdering_eq_false_iff]
      rintro (h1 | ⟨h1, h2⟩) (h3 | ⟨h3, h4⟩)
      · left; omega
      · left; omega
      · left; omega
      · right; exact ⟨by omega, le_trans h4 h2⟩⟩
  exact List.sorted_insertionSort _ l

theorem sortClauses_perm (heap : ClauseHeap) (l : List Nat) : (sortClauses heap l).Perm l :=
  List.perm_insertionSort _ l

theorem unlockIfNotNull_learned (s : SatSolver) (node : ResolutionNodePointer) :
    (s.unlockIfNotNull node).learned_clauses_ = s.learned_clauses_ := by
  unfold SatSolver.unlockIfNotNull
  cases node <;> rfl

theorem detachClauses_learned : ∀ (l : List Nat) (s : SatSolver),
    (detachClauses l s).learned_clauses_ = s.learned_clauses_
  | [], s => rfl
  | clause :: rest, s => by
    rw [detachClauses, detachClauses_learned rest, unlockIfNotNull_learned]

theorem length_filter_add_length_filter_not (keep : Nat → Bool) (l : List Nat) :
    (l.filter keep).length + (l.filter (fun c => !keep c)).length = l.length := by
  induction l with
  | nil => rfl
  | cons x l ih =>
    simp only [List.filter_cons]
    cases keep x <;> simp <;> omega

/-- C24 (clean-up of the learned clauses).  When
`num_learned_clause_before_cleanup_` is positive `CompressLearnedClausesIfNeeded`
changes nothing.  Otherwise, on `n > 0` learned clauses of which `k` satisfy
`ClauseShouldBeKept`, exactly `max(k, min(n, target_number_of_learned_clauses_))`
clauses remain; the clauses that satisfy `ClauseShouldBeKept` all remain; and
the other clauses split into those retained and those deleted, so that no
deleted clause is before a retained one in `ClauseOrdering` (smaller LBD, or
same LBD and larger activity). -/
theorem CompressLearnedClausesIfNeeded_spec (s : SatSolver) (ClauseShouldBeKept : Nat → Bool)
    (clause_cleanup_increment : Int) (before_cleanup : Int → Int → Int) :
    (0 < s.num_learned_clause_before_cleanup_ →
      s.CompressLearnedClausesIfNeeded ClauseShouldBeKept clause_cleanup_increment
        before_cleanup = s) ∧
    (s.num_learned_clause_before_cleanup_ ≤ 0 → 0 < s.learned_clauses_.length →
      (((s.CompressLearnedClausesIfNeeded ClauseShouldBeKept clause_cleanup_increment
          before_cleanup).learned_clauses_.length : Nat) : Int) =
        max ((s.learned_clauses_.filter ClauseShouldBeKept).length : Int)
          (min (s.learned_clauses_.length : Int) s.target_number_of_learned_clauses_) ∧
      (s.CompressLearnedClausesIfNeeded ClauseShouldBeKept clause_cleanup_increment
          before_cleanup).learned_clauses_.filter ClauseShouldBeKept =
        s.learned_clauses_.filter ClauseShouldBeKept ∧
      ∃ retained deleted : List Nat,
        (s.CompressLearnedClausesIfNeeded ClauseShouldBeKept clause_cleanup_increment
          before_cleanup).learned_clauses_ =
          s.learned_clauses_.filter ClauseShouldBeKept ++ retained ∧
        (retained ++ deleted).Perm
          (s.learned_clauses_.filter (fun clause => !ClauseShouldBeKept clause)) ∧
        ∀ d ∈ deleted, ∀ r ∈ retained,
          ClauseOrdering (clauseAt s.clause_heap_ d) (clauseAt s.clause_heap_ r) = false) := by
  constructor
  · intro h
    unfold SatSolver.CompressLearnedClausesIfNeeded
    rw [if_pos h]
  · intro h hn
    have hsum := length_filter_add_length_filter_not ClauseShouldBeKept s.learned_clauses_
    have hlen := (sortClauses_perm s.clause_heap_
      (s.learned_clauses_.filter (fun clause => !ClauseShouldBeKept clause))).length_eq
    have hsorted := sortClauses_sorted s.clause_heap_
      (s.learned_clauses_.filter (fun clause => !ClauseShouldBeKept clause))
    have hperm := sortClauses_perm s.clause_heap_
      (s.learned_clauses_.filter (fun clause => !ClauseShouldBeKept clause))
    generalize hS : sortClauses s.clause_heap_
      (s.learned_clauses_.filter (fun clause => !ClauseShouldBeKept clause)) = S
      at hlen hsorted hperm
    generalize hK : s.learned_clauses_.filter ClauseShouldBeKept = K at hsum
    obtain ⟨M, hM⟩ : ∃ M : Nat, max (K.length : Int)
        (min ((K ++ S).length : Int) s.target_number_of_learned_clauses_) = (M : Int) :=
      ⟨(max (K.length : Int)
        (min ((K ++ S).length : Int) s.target_number_of_learned_clauses_)).toNat, by
        rw [Int.toNat_of_nonneg]
        exact le_trans (Int.natCast_nonneg _) (le_max_left _ _)⟩
    have hMK : K.length ≤ M := by
      have := le_max_left (K.length : Int)
        (min ((K ++ S).length : Int) s.target_number_of_learned_clauses_)
      omega
    have hMn : M ≤ K.length + S.length := by
      have h1 : max (K.length : Int)
          (min ((K ++ S).length : Int) s.target_number_of_learned_clauses_) ≤
          ((K ++ S).length : Int) :=
        max_le (by simp) (min_le_left _ _)
      rw [hM, List.length_append] at h1
      omega
    have hres : (s.CompressLearnedClausesIfNeeded ClauseShouldBeKept clause_cleanup_increment
        before_cleanup).learned_clauses_ = K ++ S.take (M - K.length) := by
      unfold SatSolver.CompressLearnedClausesIfNeeded
      rw [if_neg (by omega), if_neg (by omega)]
      simp only [SatSolver.InitLearnedClauseLimit, hK, hS, hM, Int.toNat_ofNat]
      rw [List.take_append_eq_append_take, List.take_of_length_le hMK]
    have hSk : ∀ c ∈ S, ClauseShouldBeKept c = false := by
      intro c hc
      have := (List.mem_filter.1 (hperm.mem_iff.1 hc)).2
      simpa using this
    refine ⟨?_, ?_, S.take (M - K.length), S.drop (M - K.length), hres, ?_, ?_⟩
    · rw [hres, List.length_append, List.length_take]
      have hn2 : ((K ++ S).length : Int) = (s.learned_clauses_.length : Int) := by
        rw [List.length_append]
        omega
      rw [hn2] at hM
      rw [hM]
      omega
    · rw [hres, List.filter_append]
      have h1 : K.filter ClauseShouldBeKept = K := by
        rw [← hK, List.filter_filter]
        simp
      have h2 : (S.take (M - K.length)).filter ClauseShouldBeKept = [] := by
        rw [List.filter_eq_nil_iff]
        intro c hc
        rw [hSk c (List.mem_of_mem_take hc)]
        exact Bool.false_ne_true
      rw [h1, h2, List.append_nil]
    · rw [List.take_append_drop]
      exact hperm
    · intro d hd r hr
      have hsplit := hsorted
      rw [← List.take_append_drop (M - K.length) S, List.pairwise_append] at hsplit
      exact hsplit.2.2 r hr d hd


/-- With the clause 0 to keep and a target of 2, the clean-up of the four clauses
of `cleanupExample` leaves two clauses. -/
theorem CompressLearnedClausesIfNeeded_spec_witness :
    (((cleanupExample.CompressLearnedClausesIfNeeded (fun clause => clause == 0) 1000
      (fun target n => target - n)).learned_clauses_.length : Nat) : Int) = 2 :=
  ((CompressLearnedClausesIfNeeded_spec cleanupExample (fun clause => clause == 0) 1000
    (fun target n => target - n)).2 (by decide) (by decide)).1.trans (by decide)

/-! ## Linear constraints: cursor and propagation -/

theorem wrap64_add_wrap64 (a b : Int) : wrap64 (wrap64 a + b) = wrap64 (a + b) := by
  unfold wrap64
  omega

theorem wrap64_sub_wrap64 (a b : Int) : wrap64 (wrap64 a - b) = wrap64 (a - b) := by
  unfold wrap64
  omega

theorem wrap64_add_wrap64_right (a b : Int) : wrap64 (a + wrap64 b) = wrap64 (a + b) := by
  unfold wrap64
  omega

theorem IsInt64_wrap64 (x : Int) : IsInt64 (wrap64 x) := by
  unfold IsInt64 wrap64 kint64min kint64max
  omega

theorem wrap64_wrap64 (x : Int) : wrap64 (wrap64 x) = wrap64 x := by
  unfold wrap64
  omega

theorem UpperBoundedLinearConstraint.WellFormed.starts_mono {c : UpperBoundedLinearConstraint} (h : c.WellFormed) :
    ∀ (j k : Nat), j ≤ k → k ≤ c.coeffs_.length →
      c.starts_.getD j 0 ≤ c.starts_.getD k 0 := by
  intro j k hjk
  induction k with
  | zero =>
    intro _
    have : j = 0 := by omega
    subst this
    exact le_refl _
  | succ k ih =>
    intro hk
    rcases Nat.eq_or_lt_of_le hjk with h1 | h1
    · subst h1
      exact le_refl _
    · have := ih (by omega) (by omega)
      have := h.starts_increasing k (by omega)
      omega

theorem UpperBoundedLinearConstraint.WellFormed.coeffs_mono {c : UpperBoundedLinearConstraint} (h : c.WellFormed) :
    ∀ (j k : Nat), j ≤ k → k < c.coeffs_.length →
      c.coeffs_.getD j 0 ≤ c.coeffs_.getD k 0 := by
  intro j k hjk
  induction k with
  | zero =>
    intro _
    have : j = 0 := by omega
    subst this
    exact le_refl _
  | succ k ih =>
    intro hk
    rcases Nat.eq_or_lt_of_le hjk with h1 | h1
    · subst h1
      exact le_refl _
    · have := ih (by omega) (by omega)
      have := h.coeffs_increasing k (by omega)
      omega

/-- A position of `literals_` is in a group. -/
theorem UpperBoundedLinearConstraint.WellFormed.exists_group {c : UpperBoundedLinearConstraint} (h : c.WellFormed)
    (i : Nat) (hi : i < c.literals_.length) : ∃ j, c.InGroup i j := by
  have key : ∀ k, k ≤ c.coeffs_.length → i < c.starts_.getD k 0 →
      ∃ j, c.InGroup i j := by
    intro k
    induction k with
    | zero =>
      intro _ hlt
      rw [h.starts_zero] at hlt
      omega
    | succ k ih =>
      intro hk hlt
      by_cases hle : c.starts_.getD k 0 ≤ i
      · exact ⟨k, by omega, hle, hlt⟩
      · exact ih (by omega) (by omega)
  exact key c.coeffs_.length (le_refl _) (by rw [h.starts_last]; exact hi)

theorem UpperBoundedLinearConstraint.WellFormed.group_unique {c : UpperBoundedLinearConstraint} (h : c.WellFormed)
    (i j k : Nat) (hj : c.InGroup i j) (hk : c.InGroup i k) : j = k := by
  obtain ⟨hj1, hj2, hj3⟩ := hj
  obtain ⟨hk1, hk2, hk3⟩ := hk
  by_contra hne
  rcases Nat.lt_or_gt_of_ne hne with hlt | hlt
  · have := h.starts_mono (j + 1) k (by omega) (by omega)
    omega
  · have := h.starts_mono (k + 1) j (by omega) (by omega)
    omega

/-- The loop that lowers the cursor stops at the first group, from the top, whose
coefficient is at most `current_rhs`. -/
theorem lowerIndexLoop_spec (coeffs : List Int) (current_rhs : Int) : ∀ n : Nat,
    lowerIndexLoop coeffs current_rhs n ≤ n ∧
    (∀ j, lowerIndexLoop coeffs current_rhs n ≤ j → j < n → coeffs.getD j 0 > current_rhs) ∧
    (0 < lowerIndexLoop coeffs current_rhs n →
      coeffs.getD (lowerIndexLoop coeffs current_rhs n - 1) 0 ≤ current_rhs)
  | 0 => by simp [lowerIndexLoop]
  | n + 1 => by
    unfold lowerIndexLoop
    by_cases hgt : coeffs.getD n 0 > current_rhs
    · rw [if_pos hgt]
      obtain ⟨h1, h2, h3⟩ := lowerIndexLoop_spec coeffs current_rhs n
      refine ⟨by omega, ?_, h3⟩
      intro j hj hjn
      rcases Nat.eq_or_lt_of_le (Nat.lt_succ_iff.1 hjn) with h | h
      · subst h
        exact hgt
      · exact h2 j hj h
    · rw [if_neg hgt]
      refine ⟨le_refl _, fun j hj hjn => by omega, fun _ => ?_⟩
      simp only [Nat.add_sub_cancel]
      omega

theorem Trail.trueBelow_eq_any (trail : Trail)
    (hn : (trail.entries.map (fun e => e.literal.Variable)).Nodup) (bound : Nat)
    (literal : Literal) :
    trail.trueBelow bound literal =
      (trail.entries.take bound).any (fun e => decide (e.literal = literal)) := by
  rw [Bool.eq_iff_iff]
  unfold Trail.trueBelow Trail.IsLiteralTrue
  simp only [Bool.and_eq_true, List.any_eq_true, decide_eq_true_eq]
  constructor
  · rintro ⟨⟨e, he, hel⟩, hlt⟩
    obtain ⟨i, hi⟩ := List.mem_iff_getElem?.1 he
    have hidx := trail.trailIndexOf_of_getElem? hn i e hi
    rw [hel] at hidx
    rw [hidx] at hlt
    refine ⟨e, ?_, hel⟩
    rw [List.mem_iff_getElem?]
    exact ⟨i, by rw [List.getElem?_take_of_lt hlt]; exact hi⟩
  · rintro ⟨e, he, hel⟩
    obtain ⟨i, hi⟩ := List.mem_iff_getElem?.1 he
    have hib : i < bound := by
      by_contra hnb
      rw [List.getElem?_take_eq_none (by omega)] at hi
      exact Option.noConfusion hi
    rw [List.getElem?_take_of_lt hib] at hi
    have hidx := trail.trailIndexOf_of_getElem? hn i e hi
    rw [hel] at hidx
    exact ⟨⟨e, List.mem_iff_getElem?.2 ⟨i, hi⟩, hel⟩, by omega⟩

/-- Entries added at the end of the trail do not change which literals are true
below a bound that is at most the length of the trail. -/
theorem Trail.trueBelow_of_append (trail trail1 : Trail) (new : List TrailEntry)
    (h : trail1.entries = trail.entries ++ new)
    (hn : (trail1.entries.map (fun e => e.literal.Variable)).Nodup) (bound : Nat)
    (hb : bound ≤ trail.Index) (literal : Literal) :
    trail1.trueBelow bound literal = trail.trueBelow bound literal := by
  have hn0 : (trail.entries.map (fun e => e.literal.Variable)).Nodup := by
    rw [h, List.map_append] at hn
    exact (List.nodup_append.1 hn).1
  rw [trail1.trueBelow_eq_any hn, trail.trueBelow_eq_any hn0, h,
    List.take_append_of_le_length hb]

theorem trueSum_of_append (trail trail1 : Trail) (new : List TrailEntry)
    (h : trail1.entries = trail.entries ++ new)
    (hn : (trail1.entries.map (fun e => e.literal.Variable)).Nodup) (bound : Nat)
    (hb : bound ≤ trail.Index) (terms : List LiteralWithCoeff) :
    trueSum trail1 bound terms = trueSum trail bound terms := by
  unfold trueSum
  congr 2
  apply List.filter_congr
  intro term _
  exact Trail.trueBelow_of_append trail trail1 new h hn bound hb term.literal

theorem Trail.IsLiteralFalse_of_append (trail trail1 : Trail) (new : List TrailEntry)
    (h : trail1.entries = trail.entries ++ new) (literal : Literal)
    (hf : trail.IsLiteralFalse literal = true) : trail1.IsLiteralFalse literal = true := by
  unfold Trail.IsLiteralFalse at *
  rw [h, List.any_append, hf]
  rfl

/-- A literal that is neither true nor false has an unassigned variable. -/
theorem Trail.unassigned_of_neither (trail : Trail) (literal : Literal)
    (h1 : trail.IsLiteralFalse literal = false) (h2 : trail.IsLiteralTrue literal = false) :
    literal.Variable ∉ trail.entries.map (fun e => e.literal.Variable) := by
  intro hmem
  obtain ⟨e, he, hv⟩ := List.mem_map.1 hmem
  rcases Literal.eq_or_eq_Negated_of_Variable_eq e.literal literal hv with h | h
  · have : trail.IsLiteralTrue literal = true := by
      unfold Trail.IsLiteralTrue
      rw [List.any_eq_true]
      exact ⟨e, he, by simpa using h⟩
    rw [h2] at this
    exact Bool.noConfusion this
  · have : trail.IsLiteralFalse literal = true := by
      unfold Trail.IsLiteralFalse
      rw [List.any_eq_true]
      exact ⟨e, he, by simpa using h⟩
    rw [h1] at this
    exact Bool.noConfusion this

/-- The scan of `Propagate`, when it meets no conflict and is called for a trail
index below the length of the trail: the trail grows by entries that are the
negations of literals of the positions scanned, of variables that were not
assigned; afterwards every literal of a position scanned is false, or was true
with a trail index that is at most `trail_index`. -/
theorem propagateScan_spec (c : UpperBoundedLinearConstraint) (self trail_index : Nat) :
    ∀ (count i : Nat) (st : PropagateScan),
    (st.trail.entries.map (fun e => e.literal.Variable)).Nodup →
    trail_index < st.trail.Index →
    (propagateScan c self trail_index count i st).conflict = none →
    st.conflict = none ∧
    ((propagateScan c self trail_index count i st).trail.entries.map
      (fun e => e.literal.Variable)).Nodup ∧
    ∃ new : List TrailEntry,
      (propagateScan c self trail_index count i st).trail.entries = st.trail.entries ++ new ∧
      (∀ e ∈ new, ∃ p, i ≤ p ∧ p < i + count ∧
        e.literal = (c.literals_.getD p ⟨0⟩).Negated ∧
        e.level = st.trail.current_decision_level) ∧
      (∀ p, i ≤ p → p < i + count →
        (propagateScan c self trail_index count i st).trail.IsLiteralFalse
            (c.literals_.getD p ⟨0⟩) = true ∨
        st.trail.trueBelow (trail_index + 1) (c.literals_.getD p ⟨0⟩) = true)
  | 0, i, st, hn, _, hres => by
    unfold propagateScan at hres ⊢
    exact ⟨hres, hn, [], by simp, by simp, fun p h1 h2 => by omega⟩
  | count + 1, i, st, hn, hlt, hres => by
    unfold propagateScan at hres ⊢
    dsimp only at hres ⊢
    -- a turn that keeps the state
    have same : (propagateScan c self trail_index count (i + 1) st).conflict = none →
        (st.trail.IsLiteralFalse (c.literals_.getD i ⟨0⟩) = true ∨
          st.trail.trueBelow (trail_index + 1) (c.literals_.getD i ⟨0⟩) = true) →
        st.conflict = none ∧
        ((propagateScan c self trail_index count (i + 1) st).trail.entries.map
          (fun e => e.literal.Variable)).Nodup ∧
        ∃ new : List TrailEntry,
          (propagateScan c self trail_index count (i + 1) st).trail.entries =
            st.trail.entries ++ new ∧
          (∀ e ∈ new, ∃ p, i ≤ p ∧ p < i + (count + 1) ∧
            e.literal = (c.literals_.getD p ⟨0⟩).Negated ∧
            e.level = st.trail.current_decision_level) ∧
          (∀ p, i ≤ p → p < i + (count + 1) →
            (propagateScan c self trail_index count (i + 1) st).trail.IsLiteralFalse
                (c.literals_.getD p ⟨0⟩) = true ∨
            st.trail.trueBelow (trail_index + 1) (c.literals_.getD p ⟨0⟩) = true) := by
      intro hres2 hcur
      obtain ⟨h0, hnd, new, hnew, hlits, hall⟩ :=
        propagateScan_spec c self trail_index count (i + 1) st hn hlt hres2
      refine ⟨h0, hnd, new, hnew, ?_, ?_⟩
      · intro e he
        obtain ⟨p, hp1, hp2, hp3⟩ := hlits e he
        exact ⟨p, by omega, by omega, hp3⟩
      · intro p hp1 hp2
        rcases Nat.eq_or_lt_of_le hp1 with h | h
        · subst h
          rcases hcur with hf | ht
          · exact Or.inl (Trail.IsLiteralFalse_of_append _ _ new hnew _ hf)
          · exact Or.inr ht
        · exact hall p (by omega) (by omega)
    by_cases hf : st.trail.IsLiteralFalse (c.literals_.getD i ⟨0⟩) = true
    · rw [if_pos hf] at hres ⊢
      exact same hres (Or.inl hf)
    · rw [if_neg hf] at hres ⊢
      by_cases ht : st.trail.IsLiteralTrue (c.literals_.getD i ⟨0⟩) = true
      · rw [if_pos ht] at hres ⊢
        by_cases hgt : st.trail.trailIndexOf (c.literals_.getD i ⟨0⟩).Variable > trail_index
        · rw [if_pos hgt] at hres
          simp at hres
        · rw [if_neg hgt] at hres ⊢
          refine same hres (Or.inr ?_)
          unfold Trail.trueBelow
          rw [ht]
          simp only [Bool.true_and, decide_eq_true_eq]
          omega
      · rw [if_neg ht] at hres ⊢
        have hun := st.trail.unassigned_of_neither (c.literals_.getD i ⟨0⟩)
          (by simpa using hf) (by simpa using ht)
        -- a turn that enqueues
        have enq : ∀ (info : AssignmentInfo) (first : Option Nat),
            (propagateScan c self trail_index count (i + 1)
              { st with trail := st.trail.Enqueue (c.literals_.getD i ⟨0⟩).Negated info,
                        first_propagated_variable := first }).conflict = none →
            st.conflict = none ∧
            ((propagateScan c self trail_index count (i + 1)
              { st with trail := st.trail.Enqueue (c.literals_.getD i ⟨0⟩).Negated info,
                        first_propagated_variable := first }).trail.entries.map
              (fun e => e.literal.Variable)).Nodup ∧
            ∃ new : List TrailEntry,
              (propagateScan c self trail_index count (i + 1)
                { st with trail := st.trail.Enqueue (c.literals_.getD i ⟨0⟩).Negated info,
                          first_propagated_variable := first }).trail.entries =
                st.trail.entries ++ new ∧
              (∀ e ∈ new, ∃ p, i ≤ p ∧ p < i + (count + 1) ∧
                e.literal = (c.literals_.getD p ⟨0⟩).Negated ∧
                e.level = st.trail.current_decision_level) ∧
              (∀ p, i ≤ p → p < i + (count + 1) →
                (propagateScan c self trail_index count (i + 1)
                  { st with trail := st.trail.Enqueue (c.literals_.getD i ⟨0⟩).Negated info,
                            first_propagated_variable := first }).trail.IsLiteralFalse
                    (c.literals_.getD p ⟨0⟩) = true ∨
                st.trail.trueBelow (trail_index + 1) (c.literals_.getD p ⟨0⟩) = true) := by
          intro info first hres2
          have hn1 : ((st.trail.Enqueue (c.literals_.getD i ⟨0⟩).Negated info).entries.map
              (fun e => e.literal.Variable)).Nodup := by
            simp only [Trail.Enqueue, List.map_append, List.map_cons, List.map_nil]
            rw [List.nodup_append]
            refine ⟨hn, List.nodup_singleton _, ?_⟩
            intro a ha hb
            have : a = (c.literals_.getD i ⟨0⟩).Negated.Variable := by simpa using hb
            rw [this, Literal.Variable_Negated] at ha
            exact hun ha
          have hlt1 : trail_index <
              (st.trail.Enqueue (c.literals_.getD i ⟨0⟩).Negated info).Index := by
            rw [Trail.Index_Enqueue]
            omega
          obtain ⟨h0, hnd, new, hnew, hlits, hall⟩ :=
            propagateScan_spec c self trail_index count (i + 1)
              { st with trail := st.trail.Enqueue (c.literals_.getD i ⟨0⟩).Negated info,
                        first_propagated_variable := first } hn1 hlt1 hres2
          have hent : (propagateScan c self trail_index count (i + 1)
              { st with trail := st.trail.Enqueue (c.literals_.getD i ⟨0⟩).Negated info,
                        first_propagated_variable := first }).trail.entries =
              st.trail.entries ++
                (⟨(c.literals_.getD i ⟨0⟩).Negated, st.trail.current_decision_level, info⟩ ::
                  new) := by
            rw [hnew]
            simp [Trail.Enqueue]
          refine ⟨h0, hnd, _, hent, ?_, ?_⟩
          · intro e he
            rcases List.mem_cons.1 he with h | h
            · subst h
              exact ⟨i, le_refl _, by omega, rfl, rfl⟩
            · obtain ⟨p, hp1, hp2, hp3, hp4⟩ := hlits e h
              exact ⟨p, by omega, by omega, hp3, by simpa [Trail.Enqueue] using hp4⟩
          · intro p hp1 hp2
            rcases Nat.eq_or_lt_of_le hp1 with h | h
            · subst h
              left
              unfold Trail.IsLiteralFalse
              rw [hent, List.any_append, List.any_cons]
              simp
            · rcases hall p (by omega) (by omega) with h3 | h3
              · exact Or.inl h3
              · right
                rw [← h3]
                exact (Trail.trueBelow_of_append st.trail
                  (st.trail.Enqueue (c.literals_.getD i ⟨0⟩).Negated info)
                  [⟨(c.literals_.getD i ⟨0⟩).Negated, st.trail.current_decision_level, info⟩]
                  (by simp [Trail.Enqueue]) hn1 (trail_index + 1) (by omega) _).symm
        cases hfirst : st.first_propagated_variable with
        | none =>
          rw [hfirst] at hres
          exact enq _ _ hres
        | some first =>
          rw [hfirst] at hres
          exact enq _ _ hres

theorem termsLoop_length (c : UpperBoundedLinearConstraint) : ∀ (rest : List Literal)
    (li ci : Nat), (termsLoop c rest li ci).length = rest.length
  | [], _, _ => rfl
  | _ :: rest, li, ci => by
    rw [termsLoop, List.length_cons, List.length_cons, termsLoop_length c rest]

theorem termsLoop_literals (c : UpperBoundedLinearConstraint) : ∀ (rest : List Literal)
    (li ci : Nat), (termsLoop c rest li ci).map (fun term => term.literal) = rest
  | [], _, _ => rfl
  | _ :: rest, li, ci => by
    rw [termsLoop, List.map_cons, termsLoop_literals c rest]

theorem UpperBoundedLinearConstraint.terms_literals (c : UpperBoundedLinearConstraint) :
    c.terms.map (fun term => term.literal) = c.literals_ :=
  termsLoop_literals c c.literals_ 0 0

/-- In a well formed constraint the loop that reads the terms gives every literal
the coefficient of its group. -/
theorem termsLoop_getElem? {c : UpperBoundedLinearConstraint} (h : c.WellFormed) :
    ∀ (rest : List Literal) (li ci : Nat), rest = c.literals_.drop li →
    (li < c.literals_.length → c.InGroup li ci) →
    ∀ (k : Nat) (term : LiteralWithCoeff), (termsLoop c rest li ci)[k]? = some term →
      ∃ j, c.InGroup (li + k) j ∧
        term = ⟨c.literals_.getD (li + k) ⟨0⟩, c.coeffs_.getD j 0⟩
  | [], _, _, _, _, k, term, hk => by simp [termsLoop] at hk
  | literal :: rest, li, ci, hrest, hg, k, term, hk => by
    have hli : li < c.literals_.length := by
      by_contra hge
      rw [List.drop_eq_nil_of_le (by omega)] at hrest
      exact List.noConfusion hrest
    have hlit : c.literals_.getD li ⟨0⟩ = literal := by
      have := congrArg (fun l => l.head?) hrest
      simp only [List.head?_cons, List.head?_drop] at this
      rw [List.getD_eq_getElem?_getD, ← this]
      rfl
    have hrest2 : rest = c.literals_.drop (li + 1) := by
      have := congrArg List.tail hrest
      simpa using this
    obtain ⟨g1, g2, g3⟩ := hg hli
    rw [termsLoop] at hk
    cases k with
    | zero =>
      simp only [List.getElem?_cons_zero, Option.some.injEq] at hk
      exact ⟨ci, ⟨g1, g2, g3⟩, by rw [← hk, Nat.add_zero, hlit]⟩
    | succ k =>
      rw [List.getElem?_cons_succ] at hk
      have hnext : li + 1 < c.literals_.length →
          c.InGroup (li + 1)
            (if li + 1 = c.starts_.getD (ci + 1) 0 then ci + 1 else ci) := by
        intro hlt
        by_cases heq : li + 1 = c.starts_.getD (ci + 1) 0
        · rw [if_pos heq]
          have hci : ci + 1 < c.coeffs_.length := by
            by_contra hge
            have : ci + 1 = c.coeffs_.length := by omega
            rw [this, h.starts_last] at heq
            omega
          exact ⟨hci, by omega, by
            have := h.starts_increasing (ci + 1) hci
            omega⟩
        · rw [if_neg heq]
          exact ⟨g1, by omega, by omega⟩
      obtain ⟨j, hj, hterm⟩ := termsLoop_getElem? h rest (li + 1) _ hrest2 hnext k term hk
      refine ⟨j, ?_, ?_⟩
      · have : li + (k + 1) = li + 1 + k := by omega
        rw [this]
        exact hj
      · have : li + (k + 1) = li + 1 + k := by omega
        rw [this]
        exact hterm

/-- The term at a position of a well formed constraint is the literal of the
position with the coefficient of its group. -/
theorem UpperBoundedLinearConstraint.WellFormed.terms_getElem?
    {c : UpperBoundedLinearConstraint} (h : c.WellFormed) (i : Nat) (term : LiteralWithCoeff)
    (hi : c.terms[i]? = some term) :
    ∃ j, c.InGroup i j ∧ term = ⟨c.literals_.getD i ⟨0⟩, c.coeffs_.getD j 0⟩ := by
  have := termsLoop_getElem? h c.literals_ 0 0 (by simp)
    (fun hlt => ⟨by
      by_contra hz
      have h0 : c.coeffs_.length = 0 := by omega
      have := h.starts_last
      rw [h0, h.starts_zero] at this
      omega, by rw [h.starts_zero], by
      by_contra hge
      have hlen : 0 < c.coeffs_.length := by
        by_contra hz
        have h0 : c.coeffs_.length = 0 := by omega
        have := h.starts_last
        rw [h0, h.starts_zero] at this
        omega
      have := h.starts_increasing 0 hlen
      rw [h.starts_zero] at this
      omega⟩) i term hi
  simpa using this

/-- The components of the result of `Propagate`: the trail is the one the scan
leaves, the constraint and the slack are the ones `Update` leaves, and the
result is true only if the scan met no conflict. -/
theorem Propagate_components (c : UpperBoundedLinearConstraint) (self trail_index : Nat)
    (slack : Int) (trail : Trail) :
    (c.Propagate self trail_index slack trail).2.2.2.1 =
      (propagateScan
        { c with index_ := (lowerIndexLoop c.coeffs_ (c.GetCurrentRhsFromSlack slack)
          (c.index_ + 1).toNat : Int) - 1 } self trail_index
        (c.already_propagated_end_ - c.starts_.getD
          ((lowerIndexLoop c.coeffs_ (c.GetCurrentRhsFromSlack slack)
            (c.index_ + 1).toNat : Int) - 1 + 1).toNat 0)
        (c.starts_.getD ((lowerIndexLoop c.coeffs_ (c.GetCurrentRhsFromSlack slack)
            (c.index_ + 1).toNat : Int) - 1 + 1).toNat 0)
        { trail := trail, first_propagated_variable := none, conflict := none }).trail ∧
    ((c.Propagate self trail_index slack trail).1 = true →
      (propagateScan
        { c with index_ := (lowerIndexLoop c.coeffs_ (c.GetCurrentRhsFromSlack slack)
          (c.index_ + 1).toNat : Int) - 1 } self trail_index
        (c.already_propagated_end_ - c.starts_.getD
          ((lowerIndexLoop c.coeffs_ (c.GetCurrentRhsFromSlack slack)
            (c.index_ + 1).toNat : Int) - 1 + 1).toNat 0)
        (c.starts_.getD ((lowerIndexLoop c.coeffs_ (c.GetCurrentRhsFromSlack slack)
            (c.index_ + 1).toNat : Int) - 1 + 1).toNat 0)
        { trail := trail, first_propagated_variable := none, conflict := none }).conflict =
        none) ∧
    (c.Propagate self trail_index slack trail).2.1 =
      (UpperBoundedLinearConstraint.Update
        { c with index_ := (lowerIndexLoop c.coeffs_ (c.GetCurrentRhsFromSlack slack)
          (c.index_ + 1).toNat : Int) - 1 } (c.GetCurrentRhsFromSlack slack)).1 ∧
    (c.Propagate self trail_index slack trail).2.2.1 =
      (UpperBoundedLinearConstraint.Update
        { c with index_ := (lowerIndexLoop c.coeffs_ (c.GetCurrentRhsFromSlack slack)
          (c.index_ + 1).toNat : Int) - 1 } (c.GetCurrentRhsFromSlack slack)).2 := by
  unfold UpperBoundedLinearConstraint.Propagate
  dsimp only
  split
  · rename_i conflict hc
    refine ⟨rfl, fun h => ?_, rfl, rfl⟩
    exact Bool.noConfusion h
  · rename_i hc
    exact ⟨rfl, fun _ => hc, rfl, rfl⟩

/-- C29 (propagation of a linear constraint).  For a well formed constraint whose
cursor is in range, with `already_propagated_end_` at the start of the group
above the cursor, called for a trail index `t` below the length of a trail
without a variable twice, with a slack that stands for the current right hand
side (`rhs_` minus the coefficients of the literals true at a trail index at
most `t`): when `Propagate` returns true, the trail has grown by new entries;
every literal of the constraint at a position below `already_propagated_end_`
whose coefficient is greater than the current right hand side is false on the
new trail, or is true at a trail index at most `t`; if the literals from
`already_propagated_end_` on, which the call does not visit, were false or true
at a trail index at most `t` at the call, then so is every literal of the
constraint whose coefficient is greater than the current right hand side, and
so are, on the new trail, the literals from the `already_propagated_end_` that
the call leaves on; and every entry added is the negation of a literal of the constraint that was not
assigned and whose coefficient is greater than the current right hand side. -/
theorem Propagate_forces (c : UpperBoundedLinearConstraint) (self trail_index : Nat)
    (slack : Int) (trail : Trail) (hwf : c.WellFormed)
    (hn : (trail.entries.map (fun e => e.literal.Variable)).Nodup)
    (hlt : trail_index < trail.Index)
    (hindex : -1 ≤ c.index_ ∧ c.index_ < c.coeffs_.length)
    (hend : c.already_propagated_end_ = c.starts_.getD (c.index_ + 1).toNat 0)
    (hcr : c.GetCurrentRhsFromSlack slack = c.currentRhs trail (trail_index + 1))
    (htrue : (c.Propagate self trail_index slack trail).1 = true) :
    ∃ new : List TrailEntry,
      (c.Propagate self trail_index slack trail).2.2.2.1.entries = trail.entries ++ new ∧
      (∀ (i : Nat) (term : LiteralWithCoeff), c.terms[i]? = some term →
        term.coefficient > c.currentRhs trail (trail_index + 1) →
        i < c.already_propagated_end_ →
        (c.Propagate self trail_index slack trail).2.2.2.1.IsLiteralFalse term.literal = true ∨
        trail.trueBelow (trail_index + 1) term.literal = true) ∧
      ((∀ p, p < c.literals_.length → c.already_propagated_end_ ≤ p →
          trail.IsLiteralFalse (c.literals_.getD p ⟨0⟩) = true ∨
          trail.trueBelow (trail_index + 1) (c.literals_.getD p ⟨0⟩) = true) →
        (∀ (i : Nat) (term : LiteralWithCoeff), c.terms[i]? = some term →
          term.coefficient > c.currentRhs trail (trail_index + 1) →
          (c.Propagate self trail_index slack trail).2.2.2.1.IsLiteralFalse term.literal =
            true ∨
          trail.trueBelow (trail_index + 1) term.literal = true) ∧
        (∀ p, p < (c.Propagate self trail_index slack trail).2.1.literals_.length →
          (c.Propagate self trail_index slack trail).2.1.already_propagated_end_ ≤ p →
          (c.Propagate self trail_index slack trail).2.2.2.1.IsLiteralFalse
            ((c.Propagate self trail_index slack trail).2.1.literals_.getD p ⟨0⟩) = true ∨
          (c.Propagate self trail_index slack trail).2.2.2.1.trueBelow (trail_index + 1)
            ((c.Propagate self trail_index slack trail).2.1.literals_.getD p ⟨0⟩) = true)) ∧
      (∀ e ∈ new, ∃ term ∈ c.terms, e.literal = term.literal.Negated ∧
        term.coefficient > c.currentRhs trail (trail_index + 1) ∧
        trail.IsVariableAssigned term.literal.Variable = false) := by
  -- the cursor before and after the loop that lowers it
  obtain ⟨n0, hn0⟩ : ∃ n0 : Nat, c.index_ + 1 = (n0 : Int) :=
    ⟨(c.index_ + 1).toNat, by rw [Int.toNat_of_nonneg (by omega)]⟩
  have hn0le : n0 ≤ c.coeffs_.length := by omega
  obtain ⟨hle, hgt, hstop⟩ := lowerIndexLoop_spec c.coeffs_
    (c.currentRhs trail (trail_index + 1)) n0
  generalize hn1 : lowerIndexLoop c.coeffs_ (c.currentRhs trail (trail_index + 1)) n0 = n1
    at hle hgt hstop
  have hstart : c.starts_.getD n1 0 ≤ c.starts_.getD n0 0 :=
    hwf.starts_mono n1 n0 hle hn0le
  have hape : c.already_propagated_end_ = c.starts_.getD n0 0 := by
    rw [hend, hn0, Int.toNat_ofNat]
  -- the call
  obtain ⟨htrail, hnoconf, hleft, -⟩ := Propagate_components c self trail_index slack trail
  rw [htrail, hleft]
  have hconf := hnoconf htrue
  simp only [UpperBoundedLinearConstraint.Update, hcr, hn0, Int.toNat_ofNat, hn1,
    Int.sub_add_cancel] at hconf ⊢
  have hspec := propagateScan_spec { c with index_ := (n1 : Int) - 1 } self trail_index
    (c.already_propagated_end_ - c.starts_.getD n1 0) (c.starts_.getD n1 0)
    { trail := trail, first_propagated_variable := none, conflict := none } hn hlt hconf
  generalize propagateScan
    { c with index_ := (n1 : Int) - 1 } self trail_index
    (c.already_propagated_end_ - c.starts_.getD n1 0) (c.starts_.getD n1 0)
    { trail := trail, first_propagated_variable := none, conflict := none } = scan
    at hspec ⊢
  obtain ⟨-, hnd, new, hnew, hlits, hall⟩ := hspec
  dsimp only at hnew hlits hall
  have hrange : c.starts_.getD n1 0 + (c.already_propagated_end_ - c.starts_.getD n1 0) =
      c.starts_.getD n0 0 := by omega
  rw [hrange] at hlits hall
  have hlen : c.terms.length = c.literals_.length := termsLoop_length c _ 0 0
  -- a term of a coefficient above the current right hand side is at a position
  -- from the new cursor on
  have hpos : ∀ (i : Nat) (term : LiteralWithCoeff), c.terms[i]? = some term →
      term.coefficient > c.currentRhs trail (trail_index + 1) →
      i < c.literals_.length ∧ c.starts_.getD n1 0 ≤ i ∧
      term.literal = c.literals_.getD i ⟨0⟩ := by
    intro i term hterm hcoef
    obtain ⟨j, ⟨hj1, hj2, hj3⟩, rfl⟩ := hwf.terms_getElem? i term hterm
    dsimp only at hcoef ⊢
    have hi : i < c.literals_.length := by
      rw [← hlen]
      exact (List.getElem?_eq_some.1 hterm).1
    have hjn : n1 ≤ j := by
      by_contra hlt2
      have h1 := hstop (by omega)
      have h2 := hwf.coeffs_mono j (n1 - 1) (by omega) (by omega)
      omega
    have hsi : c.starts_.getD n1 0 ≤ i := by
      have := hwf.starts_mono n1 j hjn (by omega)
      omega
    exact ⟨hi, hsi, rfl⟩
  refine ⟨new, hnew, ?_, ?_, ?_⟩
  · intro i term hterm hcoef hia
    obtain ⟨-, hsi, hl⟩ := hpos i term hterm hcoef
    rw [hl]
    exact hall i hsi (by omega)
  · intro habove
    have hboth : ∀ i, i < c.literals_.length → c.starts_.getD n1 0 ≤ i →
        scan.trail.IsLiteralFalse (c.literals_.getD i ⟨0⟩) = true ∨
        trail.trueBelow (trail_index + 1) (c.literals_.getD i ⟨0⟩) = true := by
      intro i hi hsi
      by_cases hia : i < c.starts_.getD n0 0
      · exact hall i hsi hia
      · rcases habove i hi (by omega) with h | h
        · exact Or.inl (Trail.IsLiteralFalse_of_append trail scan.trail new hnew _ h)
        · exact Or.inr h
    constructor
    · intro i term hterm hcoef
      obtain ⟨hi, hsi, hl⟩ := hpos i term hterm hcoef
      rw [hl]
      exact hboth i hi hsi
    · intro p hp hpe
      rcases hboth p hp hpe with h | h
      · exact Or.inl h
      · right
        rw [Trail.trueBelow_of_append trail scan.trail new hnew hnd (trail_index + 1)
          (by omega)]
        exact h
  · intro e he
    obtain ⟨p, hp1, hp2, hp3, -⟩ := hlits e he
    have hpn : p < c.literals_.length := by
      have := hwf.starts_mono n0 c.coeffs_.length hn0le (le_refl _)
      rw [hwf.starts_last] at this
      omega
    obtain ⟨j, hj1, hj2, hj3⟩ := hwf.exists_group p hpn
    have hjn : n1 ≤ j := by
      by_contra hlt2
      have := hwf.starts_mono (j + 1) n1 (by omega) (by omega)
      omega
    have hjn0 : j < n0 := by
      by_contra hge
      have := hwf.starts_mono n0 j (by omega) (by omega)
      omega
    obtain ⟨term, hterm⟩ : ∃ term, c.terms[p]? = some term := by
      rw [List.getElem?_eq_getElem (by rw [hlen]; exact hpn)]
      exact ⟨_, rfl⟩
    obtain ⟨j2, hg2, hterm2⟩ := hwf.terms_getElem? p term hterm
    have hjj := hwf.group_unique p j j2 ⟨hj1, hj2, hj3⟩ hg2
    subst hjj
    refine ⟨term, List.mem_iff_getElem?.2 ⟨p, hterm⟩, ?_, ?_, ?_⟩
    · rw [hterm2]
      exact hp3
    · rw [hterm2]
      exact hgt j hjn hjn0
    · rw [hterm2]
      dsimp only
      unfold Trail.IsVariableAssigned
      rw [List.any_eq_false]
      intro e2 he2 hv
      rw [hnew, List.map_append, List.nodup_append] at hnd
      have hv2 : e2.literal.Variable = (c.literals_.getD p ⟨0⟩).Variable := by simpa using hv
      exact hnd.2.2 (List.mem_map.2 ⟨e2, he2, rfl⟩)
        (List.mem_map.2 ⟨e, he, by rw [hp3, Literal.Variable_Negated, hv2]⟩)

/-- The constraint `x0 + 2 x1 + 4 x2 + 5 x3 <= 6` after the decision `x2`, the
propagated `not x3` and the decision `x0`: the call for the trail index 2 of
`x0` starts with `already_propagated_end_` at the position of `x2`; the
literals from there on are `x2`, true at the trail index 0, and `x3`, false;
the current right hand side is 1 and the call enqueues `not x1`. -/
theorem Propagate_forces_witness :
    (∀ p, p < forcedExampleConstraint.literals_.length →
      forcedExampleConstraint.already_propagated_end_ ≤ p →
      forcedExampleTrail.IsLiteralFalse (forcedExampleConstraint.literals_.getD p ⟨0⟩) = true ∨
      forcedExampleTrail.trueBelow (2 + 1) (forcedExampleConstraint.literals_.getD p ⟨0⟩) =
        true) ∧
    (forcedExampleConstraint.Propagate 0 2 (-1) forcedExampleTrail).2.2.2.1.entries =
      forcedExampleTrail.entries ++ [⟨⟨3⟩, 2, AssignmentInfo.PB_PROPAGATION 2 0⟩] ∧
    forcedExampleConstraint.currentRhs forcedExampleTrail (2 + 1) = 1 ∧
    ∃ new : List TrailEntry,
      (forcedExampleConstraint.Propagate 0 2 (-1) forcedExampleTrail).2.2.2.1.entries =
        forcedExampleTrail.entries ++ new ∧
      (∀ (i : Nat) (term : LiteralWithCoeff), forcedExampleConstraint.terms[i]? = some term →
        term.coefficient > forcedExampleConstraint.currentRhs forcedExampleTrail (2 + 1) →
        i < forcedExampleConstraint.already_propagated_end_ →
        (forcedExampleConstraint.Propagate 0 2 (-1) forcedExampleTrail).2.2.2.1.IsLiteralFalse
          term.literal = true ∨
        forcedExampleTrail.trueBelow (2 + 1) term.literal = true) ∧
      ((∀ p, p < forcedExampleConstraint.literals_.length →
          forcedExampleConstraint.already_propagated_end_ ≤ p →
          forcedExampleTrail.IsLiteralFalse (forcedExampleConstraint.literals_.getD p ⟨0⟩) =
            true ∨
          forcedExampleTrail.trueBelow (2 + 1)
            (forcedExampleConstraint.literals_.getD p ⟨0⟩) = true) →
        (∀ (i : Nat) (term : LiteralWithCoeff), forcedExampleConstraint.terms[i]? = some term →
          term.coefficient > forcedExampleConstraint.currentRhs forcedExampleTrail (2 + 1) →
          (forcedExampleConstraint.Propagate 0 2 (-1) forcedExampleTrail).2.2.2.1.IsLiteralFalse
            term.literal = true ∨
          forcedExampleTrail.trueBelow (2 + 1) term.literal = true) ∧
        (∀ p, p < (forcedExampleConstraint.Propagate 0 2 (-1)
            forcedExampleTrail).2.1.literals_.length →
          (forcedExampleConstraint.Propagate 0 2 (-1)
            forcedExampleTrail).2.1.already_propagated_end_ ≤ p →
          (forcedExampleConstraint.Propagate 0 2 (-1) forcedExampleTrail).2.2.2.1.IsLiteralFalse
            ((forcedExampleConstraint.Propagate 0 2 (-1)
              forcedExampleTrail).2.1.literals_.getD p ⟨0⟩) = true ∨
          (forcedExampleConstraint.Propagate 0 2 (-1) forcedExampleTrail).2.2.2.1.trueBelow
            (2 + 1)
            ((forcedExampleConstraint.Propagate 0 2 (-1)
              forcedExampleTrail).2.1.literals_.getD p ⟨0⟩) = true)) ∧
      (∀ e ∈ new, ∃ term ∈ forcedExampleConstraint.terms, e.literal = term.literal.Negated ∧
        term.coefficient > forcedExampleConstraint.currentRhs forcedExampleTrail (2 + 1) ∧
        forcedExampleTrail.IsVariableAssigned term.literal.Variable = false) :=
  ⟨by decide, by decide, by decide,
    Propagate_forces forcedExampleConstraint 0 2 (-1) forcedExampleTrail
      ⟨by decide, by decide, by decide, by decide, by decide, by decide⟩ (by decide) (by decide)
      (by decide) (by decide) (by decide) (by decide)⟩

/-- C29, counterexample.  First, the store `pbExample` is the one `AddConstraint`
builds for `x1 + 3 x0 <= 3`.  After the decision `x0`, `PropagateNext` calls
`Propagate` for the trail index 0 with the slack -3; the call returns true and
the current right hand side is `3 - 3 = 0`.  The literal `x0` has the
coefficient 3, greater than 0, and it is true on the trail, not false.
Second, `AddConstraint` builds a store for `x0 + 4 x1 + 5 x2 <= 5`; after the
decision `x1`, `PropagateNext` enqueues `not x2` and leaves the store
`unvisitedExample`; `not x2` is removed from the trail and `x0` enqueued; for
the trail index 1 of `x0`, `PropagateNext` calls `Propagate` with the slack -1,
the call returns true and the current right hand side is `5 - 4 - 1 = 0`.  The
literal `x2` has the coefficient 5, greater than 0, its position 2 is not
below `already_propagated_end_`, which is 1, and it is not assigned. -/
theorem Propagate_forces_counterexample :
    (PbConstraints.AddConstraint ⟨[], [], [], 0, [], 0, 0⟩ [⟨⟨2⟩, 1⟩, ⟨⟨0⟩, 3⟩] 3 none
      Trail.empty = (true, pbExample, Trail.empty) ∧
    (pbExample.PropagateNext pbExampleTrail).1 = true ∧
    (pbExample.PropagateNext pbExampleTrail).2.2 =
      (pbExampleConstraint.Propagate 0 0 (-3) pbExampleTrail).2.2.2.1 ∧
    (pbExampleConstraint.Propagate 0 0 (-3) pbExampleTrail).1 = true ∧
    pbExampleConstraint.currentRhs pbExampleTrail (0 + 1) = 0 ∧
    (⟨⟨0⟩, 3⟩ : LiteralWithCoeff) ∈ pbExampleConstraint.terms ∧
    (pbExampleConstraint.Propagate 0 0 (-3) pbExampleTrail).2.2.2.1.IsLiteralFalse ⟨0⟩ =
      false ∧
    (pbExampleConstraint.Propagate 0 0 (-3) pbExampleTrail).2.2.2.1.IsLiteralTrue ⟨0⟩ =
      true) ∧
    ((PbConstraints.AddConstraint ⟨[], [], [], 0, [], 0, 0⟩
        [⟨⟨0⟩, 1⟩, ⟨⟨2⟩, 4⟩, ⟨⟨4⟩, 5⟩] 5 none Trail.empty).1 = true ∧
    (PbConstraints.AddConstraint ⟨[], [], [], 0, [], 0, 0⟩
        [⟨⟨0⟩, 1⟩, ⟨⟨2⟩, 4⟩, ⟨⟨4⟩, 5⟩] 5 none Trail.empty).2.1.PropagateNext
      unvisitedExampleStart =
      (true, unvisitedExample,
        unvisitedExampleStart.Enqueue ⟨5⟩ (AssignmentInfo.PB_PROPAGATION 0 0)) ∧
    unvisitedExample.PropagationNeeded unvisitedExampleTrail = true ∧
    (unvisitedExample.PropagateNext unvisitedExampleTrail).1 = true ∧
    (unvisitedExample.PropagateNext unvisitedExampleTrail).2.2 =
      (unvisitedExampleConstraint.Propagate 0 1 (-1) unvisitedExampleTrail).2.2.2.1 ∧
    (unvisitedExampleConstraint.Propagate 0 1 (-1) unvisitedExampleTrail).1 = true ∧
    unvisitedExampleConstraint.currentRhs unvisitedExampleTrail (1 + 1) = 0 ∧
    unvisitedExampleConstraint.terms[2]? = some ⟨⟨4⟩, 5⟩ ∧
    unvisitedExampleConstraint.already_propagated_end_ = 1 ∧
    (unvisitedExampleConstraint.Propagate 0 1 (-1)
      unvisitedExampleTrail).2.2.2.1.IsVariableAssigned 2 = false) :=
  ⟨⟨by decide, by decide, by decide, by decide, by decide, by decide, by decide, by decide⟩,
    ⟨by decide, by decide, by decide, by decide, by decide, by decide, by decide, by decide,
      by decide, by decide⟩⟩

/-! ## Linear constraints: the slacks -/

theorem GetCurrentRhsFromSlack_wrap_add (c : UpperBoundedLinearConstraint) (s d : Int) :
    c.GetCurrentRhsFromSlack (wrap64 (s + d)) = wrap64 (c.GetCurrentRhsFromSlack s + d) := by
  unfold UpperBoundedLinearConstraint.GetCurrentRhsFromSlack add64
  split
  · rfl
  · unfold wrap64
    omega

/-- The slack after an addition stands for the current right hand side plus the
amount added. -/
theorem GetCurrentRhsFromSlack_add64 (c : UpperBoundedLinearConstraint) (s d X : Int)
    (h : c.GetCurrentRhsFromSlack s = wrap64 X) :
    c.GetCurrentRhsFromSlack (add64 s d) = wrap64 (X + d) := by
  unfold add64
  rw [GetCurrentRhsFromSlack_wrap_add, h, wrap64_add_wrap64]

theorem GetCurrentRhsFromSlack_sub64 (c : UpperBoundedLinearConstraint) (s d X : Int)
    (h : c.GetCurrentRhsFromSlack s = wrap64 X) :
    c.GetCurrentRhsFromSlack (sub64 s d) = wrap64 (X - d) := by
  unfold sub64
  have := GetCurrentRhsFromSlack_wrap_add c s (-d)
  rw [← Int.sub_eq_add_neg, ← Int.sub_eq_add_neg] at this
  rw [this, h, wrap64_sub_wrap64]

/-- The slack that `Update` computes stands for the current right hand side it is
given. -/
theorem Update_GetCurrentRhsFromSlack (c : UpperBoundedLinearConstraint) (current_rhs : Int)
    (h : IsInt64 current_rhs) :
    (c.Update current_rhs).1.GetCurrentRhsFromSlack (c.Update current_rhs).2 = current_rhs := by
  unfold UpperBoundedLinearConstraint.Update UpperBoundedLinearConstraint.GetCurrentRhsFromSlack
    UpperBoundedLinearConstraint.coeffAtIndex add64 sub64
  dsimp only
  split
  · rfl
  · rw [wrap64_add_wrap64_right]
    have : c.coeffs_.getD c.index_.toNat 0 + (current_rhs - c.coeffs_.getD c.index_.toNat 0) =
        current_rhs := by omega
    rw [this]
    exact wrap64_of_IsInt64 h

theorem termsLoop_congr (c c1 : UpperBoundedLinearConstraint) (h1 : c1.coeffs_ = c.coeffs_)
    (h2 : c1.starts_ = c.starts_) : ∀ (rest : List Literal) (li ci : Nat),
    termsLoop c1 rest li ci = termsLoop c rest li ci
  | [], _, _ => rfl
  | _ :: rest, li, ci => by
    rw [termsLoop, termsLoop, termsLoop_congr c c1 h1 h2 rest, h1, h2]

theorem terms_congr (c c1 : UpperBoundedLinearConstraint) (h0 : c1.literals_ = c.literals_)
    (h1 : c1.coeffs_ = c.coeffs_) (h2 : c1.starts_ = c.starts_) : c1.terms = c.terms := by
  unfold UpperBoundedLinearConstraint.terms
  rw [h0]
  exact termsLoop_congr c c1 h1 h2 _ 0 0

theorem WellFormed_congr (c c1 : UpperBoundedLinearConstraint) (h0 : c1.literals_ = c.literals_)
    (h1 : c1.coeffs_ = c.coeffs_) (h2 : c1.starts_ = c.starts_) (h : c.WellFormed) :
    c1.WellFormed := by
  obtain ⟨a1, a2, a3, a4, a5, a6⟩ := h
  constructor <;> simp only [h0, h1, h2] <;> assumption

theorem currentRhs_congr (c c1 : UpperBoundedLinearConstraint) (h0 : c1.literals_ = c.literals_)
    (h1 : c1.coeffs_ = c.coeffs_) (h2 : c1.starts_ = c.starts_) (h3 : c1.rhs_ = c.rhs_)
    (trail : Trail) (bound : Nat) : c1.currentRhs trail bound = c.currentRhs trail bound := by
  unfold UpperBoundedLinearConstraint.currentRhs
  rw [terms_congr c c1 h0 h1 h2, h3]

theorem IsInt64_GetCurrentRhsFromSlack (c : UpperBoundedLinearConstraint) (slack : Int)
    (h : IsInt64 slack) : IsInt64 (c.GetCurrentRhsFromSlack slack) := by
  unfold UpperBoundedLinearConstraint.GetCurrentRhsFromSlack add64
  split
  · exact h
  · exact IsInt64_wrap64 _

/-- The literals true below `bound + 1` are those true below `bound` and the
literal at the trail index `bound`. -/
theorem Trail.trueBelow_succ (trail : Trail)
    (hn : (trail.entries.map (fun e => e.literal.Variable)).Nodup) (bound : Nat)
    (hb : bound < trail.Index) (literal : Literal) :
    trail.trueBelow (bound + 1) literal =
      (trail.trueBelow bound literal || decide (literal = trail.get bound)) ∧
    ¬ (trail.trueBelow bound literal = true ∧ literal = trail.get bound) := by
  unfold Trail.Index at hb
  obtain ⟨e, he⟩ : ∃ e, trail.entries[bound]? = some e :=
    ⟨_, List.getElem?_eq_getElem hb⟩
  have hget : trail.get bound = e.literal := trail.get_of_getElem? bound e he
  have htake : trail.entries.take (bound + 1) = trail.entries.take bound ++ [e] := by
    rw [List.take_succ, he]
    rfl
  constructor
  · rw [trail.trueBelow_eq_any hn, trail.trueBelow_eq_any hn, htake, List.any_append, hget]
    simp [eq_comm]
  · rintro ⟨h1, h2⟩
    rw [trail.trueBelow_eq_any hn, List.any_eq_true] at h1
    obtain ⟨e2, he2, hel⟩ := h1
    obtain ⟨i, hi⟩ := List.mem_iff_getElem?.1 he2
    have hib : i < bound := by
      by_contra hnb
      rw [List.getElem?_take_eq_none (by omega)] at hi
      exact Option.noConfusion hi
    rw [List.getElem?_take_of_lt hib] at hi
    have k1 := trail.trailIndexOf_of_getElem? hn i e2 hi
    have k2 := trail.trailIndexOf_of_getElem? hn bound e he
    have : e2.literal = e.literal := by
      rw [← hget, ← h2]
      simpa using hel
    rw [this] at k1
    omega

/-- The sum of the coefficients of the true literals, when the bound moves past
one trail index. -/
theorem trueSum_succ (trail : Trail)
    (hn : (trail.entries.map (fun e => e.literal.Variable)).Nodup) (bound : Nat)
    (hb : bound < trail.Index) (terms : List LiteralWithCoeff) :
    trueSum trail (bound + 1) terms =
      trueSum trail bound terms + literalSum (trail.get bound) terms := by
  unfold trueSum literalSum
  induction terms with
  | nil => rfl
  | cons term terms ih =>
    obtain ⟨h1, h2⟩ := trail.trueBelow_succ hn bound hb term.literal
    simp only [List.filter_cons, h1]
    by_cases ha : trail.trueBelow bound term.literal = true
    · have hb2 : ¬ term.literal = trail.get bound := fun h => h2 ⟨ha, h⟩
      have hd : decide (term.literal = trail.get bound) = false := by simpa using hb2
      simp only [ha, Bool.true_or, if_true, hd, Bool.false_eq_true, if_false,
        List.map_cons, List.sum_cons, ih]
      omega
    · have ha2 : trail.trueBelow bound term.literal = false := by simpa using ha
      by_cases hb2 : term.literal = trail.get bound
      · have hd : decide (term.literal = trail.get bound) = true := by simpa using hb2
        simp only [ha2, hd, Bool.false_or, if_true, Bool.false_eq_true, if_false,
          List.map_cons, List.sum_cons, ih]
        omega
      · have hd : decide (term.literal = trail.get bound) = false := by simpa using hb2
        simp only [ha2, hd, Bool.false_or, Bool.false_eq_true, if_false, ih]

theorem currentRhs_succ (c : UpperBoundedLinearConstraint) (trail : Trail)
    (hn : (trail.entries.map (fun e => e.literal.Variable)).Nodup) (bound : Nat)
    (hb : bound < trail.Index) :
    c.currentRhs trail (bound + 1) =
      c.currentRhs trail bound - literalSum (trail.get bound) c.terms := by
  unfold UpperBoundedLinearConstraint.currentRhs
  rw [trueSum_succ trail hn bound hb]
  omega

theorem currentRhs_of_append (c : UpperBoundedLinearConstraint) (trail trail1 : Trail)
    (new : List TrailEntry) (h : trail1.entries = trail.entries ++ new)
    (hn : (trail1.entries.map (fun e => e.literal.Variable)).Nodup) (bound : Nat)
    (hb : bound ≤ trail.Index) :
    c.currentRhs trail1 bound = c.currentRhs trail bound := by
  unfold UpperBoundedLinearConstraint.currentRhs
  rw [trueSum_of_append trail trail1 new h hn bound hb]

/-- The scan of `Propagate` adds entries at the end of the trail, of variables
that were not assigned. -/
theorem propagateScan_trail (c : UpperBoundedLinearConstraint) (self trail_index : Nat) :
    ∀ (count i : Nat) (st : PropagateScan),
    (st.trail.entries.map (fun e => e.literal.Variable)).Nodup →
    ((propagateScan c self trail_index count i st).trail.entries.map
      (fun e => e.literal.Variable)).Nodup ∧
    ∃ new : List TrailEntry,
      (propagateScan c self trail_index count i st).trail.entries = st.trail.entries ++ new
  | 0, i, st, hn => by
    unfold propagateScan
    exact ⟨hn, [], by simp⟩
  | count + 1, i, st, hn => by
    unfold propagateScan
    dsimp only
    have enq : ∀ (info : AssignmentInfo) (first : Option Nat),
        st.trail.IsLiteralFalse (c.literals_.getD i ⟨0⟩) = false →
        st.trail.IsLiteralTrue (c.literals_.getD i ⟨0⟩) = false →
        ((propagateScan c self trail_index count (i + 1)
          { st with trail := st.trail.Enqueue (c.literals_.getD i ⟨0⟩).Negated info,
                    first_propagated_variable := first }).trail.entries.map
          (fun e => e.literal.Variable)).Nodup ∧
        ∃ new : List TrailEntry,
          (propagateScan c self trail_index count (i + 1)
            { st with trail := st.trail.Enqueue (c.literals_.getD i ⟨0⟩).Negated info,
                      first_propagated_variable := first }).trail.entries =
            st.trail.entries ++ new := by
      intro info first hf ht
      have hun := st.trail.unassigned_of_neither (c.literals_.getD i ⟨0⟩) hf ht
      have hn1 : ((st.trail.Enqueue (c.literals_.getD i ⟨0⟩).Negated info).entries.map
          (fun e => e.literal.Variable)).Nodup := by
        simp only [Trail.Enqueue, List.map_append, List.map_cons, List.map_nil]
        rw [List.nodup_append]
        refine ⟨hn, List.nodup_singleton _, ?_⟩
        intro a ha hb
        have : a = (c.literals_.getD i ⟨0⟩).Negated.Variable := by simpa using hb
        rw [this, Literal.Variable_Negated] at ha
        exact hun ha
      obtain ⟨hnd, new, hnew⟩ := propagateScan_trail c self trail_index count (i + 1)
        { st with trail := st.trail.Enqueue (c.literals_.getD i ⟨0⟩).Negated info,
                  first_propagated_variable := first } hn1
      refine ⟨hnd,
        ⟨(c.literals_.getD i ⟨0⟩).Negated, st.trail.current_decision_level, info⟩ :: new, ?_⟩
      rw [hnew]
      simp [Trail.Enqueue]
    by_cases hf : st.trail.IsLiteralFalse (c.literals_.getD i ⟨0⟩) = true
    · rw [if_pos hf]
      exact propagateScan_trail c self trail_index count (i + 1) st hn
    · rw [if_neg hf]
      by_cases ht : st.trail.IsLiteralTrue (c.literals_.getD i ⟨0⟩) = true
      · rw [if_pos ht]
        split
        · exact ⟨hn, [], by simp⟩
        · exact propagateScan_trail c self trail_index count (i + 1) st hn
      · rw [if_neg ht]
        cases st.first_propagated_variable with
        | none => exact enq _ _ (by simpa using hf) (by simpa using ht)
        | some first => exact enq _ _ (by simpa using hf) (by simpa using ht)

/-- What `Propagate` keeps: the terms and the right hand side of the constraint
and the current right hand side that the slack stands for; the trail grows at
its end by entries of variables that were not assigned. -/
theorem Propagate_preserves (c : UpperBoundedLinearConstraint) (self trail_index : Nat)
    (slack : Int) (trail : Trail)
    (hn : (trail.entries.map (fun e => e.literal.Variable)).Nodup)
    (hslack : IsInt64 slack) :
    (c.Propagate self trail_index slack trail).2.1.literals_ = c.literals_ ∧
    (c.Propagate self trail_index slack trail).2.1.coeffs_ = c.coeffs_ ∧
    (c.Propagate self trail_index slack trail).2.1.starts_ = c.starts_ ∧
    (c.Propagate self trail_index slack trail).2.1.rhs_ = c.rhs_ ∧
    (c.Propagate self trail_index slack trail).2.1.node_ = c.node_ ∧
    (c.Propagate self trail_index slack trail).2.1.GetCurrentRhsFromSlack
        (c.Propagate self trail_index slack trail).2.2.1 =
      c.GetCurrentRhsFromSlack slack ∧
    IsInt64 (c.Propagate self trail_index slack trail).2.2.1 ∧
    (((c.Propagate self trail_index slack trail).2.2.2.1).entries.map
      (fun e => e.literal.Variable)).Nodup ∧
    ∃ new : List TrailEntry,
      (c.Propagate self trail_index slack trail).2.2.2.1.entries = trail.entries ++ new := by
  obtain ⟨h1, -, h3, h4⟩ := Propagate_components c self trail_index slack trail
  have hcr := IsInt64_GetCurrentRhsFromSlack c slack hslack
  rw [h1, h3, h4]
  refine ⟨rfl, rfl, rfl, rfl, rfl, Update_GetCurrentRhsFromSlack _ _ hcr, ?_,
    propagateScan_trail _ self trail_index _ _ _ hn⟩
  unfold UpperBoundedLinearConstraint.Update
  dsimp only
  split
  · exact hcr
  · exact IsInt64_wrap64 _

/-- The first loop of `InitializeRhs` computes the right hand side minus the
coefficients of the literals true below the trail index, as a 64-bit integer. -/
theorem currentRhsLoop_spec (c : UpperBoundedLinearConstraint) (trail : Trail)
    (trail_index : Nat) : ∀ (rest : List Literal) (li ci : Nat) (acc : Int), IsInt64 acc →
    currentRhsLoop c trail trail_index rest li ci acc =
      wrap64 (acc - trueSum trail trail_index (termsLoop c rest li ci))
  | [], _, _, acc, h => by
    simp [currentRhsLoop, termsLoop, trueSum, wrap64_of_IsInt64 h]
  | literal :: rest, li, ci, acc, h => by
    rw [currentRhsLoop, termsLoop]
    unfold trueSum
    simp only [List.filter_cons]
    have hb : (trail.IsLiteralTrue literal &&
        decide (trail.trailIndexOf literal.Variable < trail_index)) =
        trail.trueBelow trail_index literal := rfl
    rw [hb]
    by_cases ht : trail.trueBelow trail_index literal = true
    · rw [if_pos ht, if_pos ht]
      rw [currentRhsLoop_spec c trail trail_index rest _ _ (sub64 acc (c.coeffs_.getD ci 0))
        (IsInt64_wrap64 _)]
      unfold sub64 trueSum
      rw [wrap64_sub_wrap64]
      simp only [List.map_cons, List.sum_cons]
      congr 1
      omega
    · rw [if_neg ht, if_neg ht]
      rw [currentRhsLoop_spec c trail trail_index rest _ _ _ h]
      rfl

/-- What `InitializeRhs` leaves: the terms of the constraint are kept, `rhs_` is
the right hand side given, the slack stands for the right hand side minus the
coefficients of the literals true below the trail index, and the trail grows
at its end by entries of variables that were not assigned. -/
theorem InitializeRhs_spec (c : UpperBoundedLinearConstraint) (self : Nat) (rhs : Int)
    (trail_index : Nat) (trail : Trail)
    (hn : (trail.entries.map (fun e => e.literal.Variable)).Nodup) (hrhs : IsInt64 rhs) :
    (c.InitializeRhs self rhs trail_index trail).2.1.literals_ = c.literals_ ∧
    (c.InitializeRhs self rhs trail_index trail).2.1.coeffs_ = c.coeffs_ ∧
    (c.InitializeRhs self rhs trail_index trail).2.1.starts_ = c.starts_ ∧
    (c.InitializeRhs self rhs trail_index trail).2.1.rhs_ = rhs ∧
    (c.InitializeRhs self rhs trail_index trail).2.1.GetCurrentRhsFromSlack
        (c.InitializeRhs self rhs trail_index trail).2.2.1 =
      wrap64 (rhs - trueSum trail trail_index c.terms) ∧
    IsInt64 (c.InitializeRhs self rhs trail_index trail).2.2.1 ∧
    (((c.InitializeRhs self rhs trail_index trail).2.2.2.1).entries.map
      (fun e => e.literal.Variable)).Nodup ∧
    ∃ new : List TrailEntry,
      (c.InitializeRhs self rhs trail_index trail).2.2.2.1.entries = trail.entries ++ new := by
  have hcr := currentRhsLoop_spec c trail trail_index c.literals_ 0 0 rhs hrhs
  have hcr2 : IsInt64 (currentRhsLoop c trail trail_index c.literals_ 0 0 rhs) := by
    rw [hcr]
    exact IsInt64_wrap64 _
  have hupd := Update_GetCurrentRhsFromSlack
    { c with rhs_ := rhs, index_ := (c.coeffs_.length : Int) - 1,
             already_propagated_end_ := c.literals_.length }
    (currentRhsLoop c trail trail_index c.literals_ 0 0 rhs) hcr2
  have hslack : IsInt64 (UpperBoundedLinearConstraint.Update
      { c with rhs_ := rhs, index_ := (c.coeffs_.length : Int) - 1,
               already_propagated_end_ := c.literals_.length }
      (currentRhsLoop c trail trail_index c.literals_ 0 0 rhs)).2 := by
    unfold UpperBoundedLinearConstraint.Update
    dsimp only
    split
    · exact hcr2
    · exact IsInt64_wrap64 _
  unfold UpperBoundedLinearConstraint.InitializeRhs
  dsimp only
  split
  · obtain ⟨p1, p2, p3, p4, -, p6, p7, p8, p9⟩ := Propagate_preserves
      (UpperBoundedLinearConstraint.Update
        { c with rhs_ := rhs, index_ := (c.coeffs_.length : Int) - 1,
                 already_propagated_end_ := c.literals_.length }
        (currentRhsLoop c trail trail_index c.literals_ 0 0 rhs)).1 self trail_index
      (UpperBoundedLinearConstraint.Update
        { c with rhs_ := rhs, index_ := (c.coeffs_.length : Int) - 1,
                 already_propagated_end_ := c.literals_.length }
        (currentRhsLoop c trail trail_index c.literals_ 0 0 rhs)).2 trail hn hslack
    refine ⟨p1, p2, p3, p4, ?_, p7, p8, p9⟩
    rw [p6, hupd, hcr]
    rfl
  · refine ⟨rfl, rfl, rfl, rfl, ?_, hslack, hn, [], by simp⟩
    rw [hupd, hcr]
    rfl

/-- What `Untrail` of a constraint keeps: the terms, the right hand side and the
current right hand side that the slack stands for. -/
theorem constraint_Untrail_spec (c : UpperBoundedLinearConstraint) (slack : Int)
    (hcr : IsInt64 (c.GetCurrentRhsFromSlack slack)) :
    (c.Untrail slack).1.literals_ = c.literals_ ∧
    (c.Untrail slack).1.coeffs_ = c.coeffs_ ∧
    (c.Untrail slack).1.starts_ = c.starts_ ∧
    (c.Untrail slack).1.rhs_ = c.rhs_ ∧
    (c.Untrail slack).1.GetCurrentRhsFromSlack (c.Untrail slack).2 =
      c.GetCurrentRhsFromSlack slack ∧
    IsInt64 (c.Untrail slack).2 := by
  unfold UpperBoundedLinearConstraint.Untrail
  dsimp only
  refine ⟨rfl, rfl, rfl, rfl, Update_GetCurrentRhsFromSlack _ _ hcr, ?_⟩
  unfold UpperBoundedLinearConstraint.Update
  dsimp only
  split
  · exact hcr
  · exact IsInt64_wrap64 _

theorem constraintFrame_eq {c c1 : UpperBoundedLinearConstraint}
    (h : constraintFrame c1 = constraintFrame c) :
    c1.literals_ = c.literals_ ∧ c1.coeffs_ = c.coeffs_ ∧ c1.starts_ = c.starts_ ∧
    c1.rhs_ = c.rhs_ := by
  unfold constraintFrame at h
  simp only [Prod.mk.injEq] at h
  exact h

theorem constraintFrame_terms {c c1 : UpperBoundedLinearConstraint}
    (h : constraintFrame c1 = constraintFrame c) : c1.terms = c.terms := by
  obtain ⟨h0, h1, h2, -⟩ := constraintFrame_eq h
  exact terms_congr c c1 h0 h1 h2

theorem constraintFrame_currentRhs {c c1 : UpperBoundedLinearConstraint}
    (h : constraintFrame c1 = constraintFrame c) (trail : Trail) (bound : Nat) :
    c1.currentRhs trail bound = c.currentRhs trail bound := by
  obtain ⟨h0, h1, h2, h3⟩ := constraintFrame_eq h
  exact currentRhs_congr c c1 h0 h1 h2 h3 trail bound

theorem constraintFrame_WellFormed {c c1 : UpperBoundedLinearConstraint}
    (h : constraintFrame c1 = constraintFrame c) (hw : c.WellFormed) : c1.WellFormed := by
  obtain ⟨h0, h1, h2, -⟩ := constraintFrame_eq h
  exact WellFormed_congr c c1 h0 h1 h2 hw

/-- A constraint of a list whose frames are those of another list has the frame
of the constraint at the same position. -/
theorem frames_getElem? {cs cs1 : List UpperBoundedLinearConstraint}
    (h : cs1.map constraintFrame = cs.map constraintFrame) (k : Nat)
    (c1 : UpperBoundedLinearConstraint) (hk : cs1[k]? = some c1) :
    ∃ c, cs[k]? = some c ∧ constraintFrame c1 = constraintFrame c := by
  have h1 : (cs1.map constraintFrame)[k]? = some (constraintFrame c1) := by
    rw [List.getElem?_map, hk]
    rfl
  rw [h, List.getElem?_map] at h1
  rcases hc : cs[k]? with _ | c
  · rw [hc] at h1
    exact Option.noConfusion h1
  · rw [hc] at h1
    exact ⟨c, rfl, by simpa using h1.symm⟩

theorem frames_length {cs cs1 : List UpperBoundedLinearConstraint}
    (h : cs1.map constraintFrame = cs.map constraintFrame) : cs1.length = cs.length := by
  have := congrArg List.length h
  simpa using this

theorem frames_set (cs : List UpperBoundedLinearConstraint) (k : Nat)
    (c c1 : UpperBoundedLinearConstraint) (hk : cs[k]? = some c)
    (h : constraintFrame c1 = constraintFrame c) :
    (cs.set k c1).map constraintFrame = cs.map constraintFrame := by
  apply List.ext_getElem?
  intro i
  rw [List.getElem?_map, List.getElem?_map, List.getElem?_set]
  by_cases hik : k = i
  · subst hik
    rw [if_pos rfl]
    have hlt : k < cs.length := (List.getElem?_eq_some.1 hk).1
    rw [if_pos hlt, hk]
    simp [h]
  · rw [if_neg hik]

theorem updatesOf_cons (e : Literal × ConstraintIndexWithCoeff)
    (rest : List (Literal × ConstraintIndexWithCoeff)) (k : Nat) :
    updatesOf (e :: rest) k =
      if e.2.index = k then ⟨e.1, e.2.coefficient⟩ :: updatesOf rest k else updatesOf rest k := by
  unfold updatesOf
  by_cases h : e.2.index = k
  · simp [List.filter_cons, h]
  · simp [List.filter_cons, h]

theorem literalSum_cons (literal : Literal) (term : LiteralWithCoeff)
    (terms : List LiteralWithCoeff) :
    literalSum literal (term :: terms) =
      (if term.literal = literal then term.coefficient else 0) + literalSum literal terms := by
  unfold literalSum
  by_cases h : term.literal = literal
  · simp [List.filter_cons, h]
  · simp [List.filter_cons, h]

theorem getD_set_self (l : List Int) (k : Nat) (x : Int) (h : k < l.length) :
    (l.set k x).getD k 0 = x := by
  rw [List.getD_eq_getElem?_getD, List.getElem?_set, if_pos rfl, if_pos h]
  rfl

theorem getD_set_ne (l : List Int) (i k : Nat) (x : Int) (h : i ≠ k) :
    (l.set i x).getD k 0 = l.getD k 0 := by
  rw [List.getD_eq_getElem?_getD, List.getD_eq_getElem?_getD, List.getElem?_set, if_neg h]

theorem getD_of_getElem? (cs : List UpperBoundedLinearConstraint) (k : Nat)
    (d c : UpperBoundedLinearConstraint) (h : cs[k]? = some c) : cs.getD k d = c := by
  rw [List.getD_eq_getElem?_getD, h]
  rfl

/-- The loop of `PropagateNext` visits every pending entry: at the end the slack
of every constraint stands for its current right hand side at the new cursor;
the frames of the constraints and the entries of `to_update_`, flags apart,
are kept, and the trail has grown at its end. -/
theorem propagateNextLoop_spec (true_literal : Literal) (order : Nat) :
    ∀ (pending : List (Literal × ConstraintIndexWithCoeff)) (st : PropagateNextState),
    PendingInvariant true_literal (order + 1) pending st →
    PendingInvariant true_literal (order + 1) []
      (propagateNextLoop true_literal order pending st).2 ∧
    (propagateNextLoop true_literal order pending st).2.constraints_.map constraintFrame =
      st.constraints_.map constraintFrame ∧
    (∃ new : List TrailEntry,
      (propagateNextLoop true_literal order pending st).2.trail.entries =
        st.trail.entries ++ new) ∧
    (∀ k, updatesOf (propagateNextLoop true_literal order pending st).1 k =
      updatesOf pending k) ∧
    (∀ e ∈ (propagateNextLoop true_literal order pending st).1,
      e.2.index < st.constraints_.length)
  | [], st, h => by
    unfold propagateNextLoop
    exact ⟨h, rfl, ⟨[], by simp⟩, fun _ => rfl, by simp⟩
  | (l, update) :: rest, st, h => by
    obtain ⟨hn, hb, hlen, hrange, hslack⟩ := h
    have hidx : update.index < st.constraints_.length := hrange _ (List.mem_cons_self _ _)
    have hrange2 : ∀ e ∈ rest, e.2.index < st.constraints_.length :=
      fun e he => hrange e (List.mem_cons_of_mem _ he)
    -- the recursive call on a state with the same frames
    have key : ∀ (st1 : PropagateNextState) (update1 : ConstraintIndexWithCoeff),
        update1.index = update.index → update1.coefficient = update.coefficient →
        PendingInvariant true_literal (order + 1) rest st1 →
        st1.constraints_.map constraintFrame = st.constraints_.map constraintFrame →
        (∃ new : List TrailEntry, st1.trail.entries = st.trail.entries ++ new) →
        PendingInvariant true_literal (order + 1) []
          ((l, update1) :: (propagateNextLoop true_literal order rest st1).1,
            (propagateNextLoop true_literal order rest st1).2).2 ∧
        ((l, update1) :: (propagateNextLoop true_literal order rest st1).1,
            (propagateNextLoop true_literal order rest st1).2).2.constraints_.map
              constraintFrame = st.constraints_.map constraintFrame ∧
        (∃ new : List TrailEntry,
          ((l, update1) :: (propagateNextLoop true_literal order rest st1).1,
            (propagateNextLoop true_literal order rest st1).2).2.trail.entries =
            st.trail.entries ++ new) ∧
        (∀ k, updatesOf ((l, update1) :: (propagateNextLoop true_literal order rest st1).1,
            (propagateNextLoop true_literal order rest st1).2).1 k =
          updatesOf ((l, update) :: rest) k) ∧
        (∀ e ∈ ((l, update1) :: (propagateNextLoop true_literal order rest st1).1,
            (propagateNextLoop true_literal order rest st1).2).1,
          e.2.index < st.constraints_.length) := by
      intro st1 update1 hi1 hc1 hinv hfr hext
      obtain ⟨r1, r2, ⟨new2, r3⟩, r4, r5⟩ := propagateNextLoop_spec true_literal order rest st1 hinv
      obtain ⟨new1, hnew1⟩ := hext
      refine ⟨r1, r2.trans hfr, ⟨new1 ++ new2, ?_⟩, ?_, ?_⟩
      · dsimp only
        rw [r3, hnew1, List.append_assoc]
      · intro k
        dsimp only
        rw [updatesOf_cons, updatesOf_cons, r4 k]
        dsimp only
        rw [hi1, hc1]
      · intro e he
        rcases List.mem_cons.1 he with h1 | h1
        · subst h1
          dsimp only
          omega
        · have := r5 e h1
          rw [frames_length hfr] at this
          exact this
    unfold propagateNextLoop
    by_cases hl : l ≠ true_literal
    · rw [if_pos hl]
      refine key st update rfl rfl ⟨hn, hb, hlen, hrange2, ?_⟩ rfl ⟨[], by simp⟩
      intro k c hk
      rw [hslack k c hk, updatesOf_cons]
      split
      · rw [literalSum_cons]
        dsimp only
        rw [if_neg hl, Int.zero_add]
      · rfl
    · rw [if_neg hl]
      have hl2 : l = true_literal := by
        by_contra hne
        exact hl hne
      dsimp only
      -- the state after the update of the slack
      have hinv1 : PendingInvariant true_literal (order + 1) rest
          { st with slacks_ := (st.slacks_.set update.index
            (sub64 (st.slacks_.getD update.index 0) update.coefficient)) } := by
        refine ⟨hn, hb, by simpa using hlen, hrange2, ?_⟩
        intro k c hk
        dsimp only at hk ⊢
        have h0 := hslack k c hk
        rw [updatesOf_cons] at h0
        by_cases hki : update.index = k
        · subst hki
          rw [if_pos rfl, literalSum_cons] at h0
          dsimp only at h0
          rw [if_pos hl2] at h0
          rw [getD_set_self _ _ _ (by omega)]
          rw [GetCurrentRhsFromSlack_sub64 c _ _ _ h0]
          congr 1
          omega
        · rw [if_neg hki] at h0
          rw [getD_set_ne _ _ _ _ hki]
          exact h0
      by_cases hcond : sub64 (st.slacks_.getD update.index 0) update.coefficient < 0 ∧
          st.conflict = false
      · rw [if_pos hcond]
        obtain ⟨c, hc⟩ : ∃ c, st.constraints_[update.index]? = some c :=
          ⟨_, List.getElem?_eq_getElem hidx⟩
        rw [getD_of_getElem? _ _ _ c hc]
        obtain ⟨p1, p2, p3, p4, -, p6, -, p8, new, p9⟩ := Propagate_preserves c update.index
          order (sub64 (st.slacks_.getD update.index 0) update.coefficient) st.trail hn
          (IsInt64_wrap64 _)
        generalize c.Propagate update.index order
          (sub64 (st.slacks_.getD update.index 0) update.coefficient) st.trail = r
          at p1 p2 p3 p4 p6 p8 p9
        obtain ⟨ok, c1, slack1, trail1, conflict⟩ := r
        dsimp only at p1 p2 p3 p4 p6 p8 p9 ⊢
        have hframe : constraintFrame c1 = constraintFrame c := by
          unfold constraintFrame
          rw [p1, p2, p3, p4]
        have htrail : (if ok = true then trail1
            else (trail1.SetFailingClause (conflict.getD st.conflict_scratchpad_)
              ).SetFailingResolutionNode c1.node_).entries = trail1.entries := by
          split <;> rfl
        refine key _ { update with need_untrail_inspection := true } rfl rfl ?_ ?_ ?_
        · refine ⟨?_, ?_, ?_, ?_, ?_⟩
          · dsimp only
            rw [htrail]
            exact p8
          · dsimp only
            unfold Trail.Index at hb ⊢
            rw [htrail, p9, List.length_append]
            omega
          · simpa using hlen
          · intro e he
            have := hrange2 e he
            simpa using this
          · intro k c2 hk
            dsimp only at hk ⊢
            have hstable : ∀ c3 : UpperBoundedLinearConstraint,
                c3.currentRhs (if ok = true then trail1
                  else (trail1.SetFailingClause (conflict.getD st.conflict_scratchpad_)
                    ).SetFailingResolutionNode c1.node_) (order + 1) =
                c3.currentRhs st.trail (order + 1) := by
              intro c3
              exact currentRhs_of_append c3 st.trail _ new (by rw [htrail, p9])
                (by rw [htrail]; exact p8) (order + 1) hb
            rw [hstable]
            by_cases hki : update.index = k
            · subst hki
              rw [List.getElem?_set, if_pos rfl, if_pos hidx] at hk
              have hc2 : c2 = c1 := by simpa using hk.symm
              subst hc2
              rw [getD_set_self _ _ _ (by simpa using (by omega : update.index < st.slacks_.length))]
              rw [p6]
              have := hinv1.2.2.2.2 update.index c hc
              dsimp only at this
              rw [getD_set_self _ _ _ (by omega)] at this
              rw [this, constraintFrame_currentRhs hframe]
            · rw [List.getElem?_set, if_neg hki] at hk
              rw [getD_set_ne _ _ _ _ hki]
              exact hinv1.2.2.2.2 k c2 hk
        · dsimp only
          exact frames_set _ _ c c1 hc hframe
        · exact ⟨new, by dsimp only; rw [htrail, p9]⟩
      · rw [if_neg hcond]
        exact key _ update rfl rfl hinv1 rfl ⟨[], by simp⟩

theorem literalSum_nil (literal : Literal) : literalSum literal [] = 0 := rfl

theorem updatesOf_nil (k : Nat) : updatesOf [] k = [] := rfl

/-- The invariant of the store is kept by `PropagateNext`. -/
theorem SlackInvariant_PropagateNext (trail : Trail) (pb : PbConstraints)
    (h : SlackInvariant trail pb) (hneed : pb.PropagationNeeded trail = true) :
    SlackInvariant (pb.PropagateNext trail).2.2 (pb.PropagateNext trail).2.1 := by
  have hlt : pb.propagation_trail_index_ < trail.Index := by
    simpa [PbConstraints.PropagationNeeded] using hneed
  have hinit : PendingInvariant (trail.get pb.propagation_trail_index_)
      (pb.propagation_trail_index_ + 1) pb.to_update_
      { constraints_ := pb.constraints_, slacks_ := pb.slacks_, trail := trail,
        conflict_scratchpad_ := pb.conflict_scratchpad_,
        num_constraint_lookups_ := pb.num_constraint_lookups_, conflict := false } := by
    refine ⟨h.nodup, hlt, h.slacks_length, h.updates_range, ?_⟩
    intro k c hk
    dsimp only at hk ⊢
    rw [h.slack k c hk, h.updates k c hk,
      currentRhs_succ c trail h.nodup _ hlt]
    congr 1
    omega
  obtain ⟨⟨r1, r2, r3, -, r5⟩, r6, -, r8, r9⟩ := propagateNextLoop_spec
    (trail.get pb.propagation_trail_index_) pb.propagation_trail_index_ pb.to_update_ _ hinit
  unfold PbConstraints.PropagateNext
  dsimp only
  generalize propagateNextLoop (trail.get pb.propagation_trail_index_)
    pb.propagation_trail_index_ pb.to_update_
    { constraints_ := pb.constraints_, slacks_ := pb.slacks_, trail := trail,
      conflict_scratchpad_ := pb.conflict_scratchpad_,
      num_constraint_lookups_ := pb.num_constraint_lookups_, conflict := false } = r
    at r1 r2 r3 r5 r6 r8 r9
  obtain ⟨to_update, st⟩ := r
  dsimp only at r1 r2 r3 r5 r6 r8 r9 ⊢
  refine ⟨r1, r2, r3, ?_, ?_, ?_, ?_⟩
  · intro e he
    rw [frames_length r6]
    exact r9 e he
  · intro k c1 hk
    obtain ⟨c, hc, hf⟩ := frames_getElem? r6 k c1 hk
    rw [r8 k, h.updates k c hc, constraintFrame_terms hf]
  · intro c1 hc1
    obtain ⟨k, hk⟩ := List.mem_iff_getElem?.1 hc1
    obtain ⟨c, hc, hf⟩ := frames_getElem? r6 k c1 hk
    exact constraintFrame_WellFormed hf (h.well_formed c (List.mem_iff_getElem?.2 ⟨k, hc⟩))
  · intro k c1 hk
    have := r5 k c1 hk
    rw [updatesOf_nil, literalSum_nil, Int.add_zero] at this
    exact this

/-- The inner loop of `Untrail` for one literal gives back to every slack the
coefficients of the entries of the literal. -/
theorem untrailLiteral_spec (literal : Literal) :
    ∀ (entries : List (Literal × ConstraintIndexWithCoeff)) (slacks : List Int)
      (to_untrail : List Nat),
    (∀ e ∈ entries, e.2.index < slacks.length) →
    (untrailLiteral literal entries slacks to_untrail).2.1.length = slacks.length ∧
    (∀ k, updatesOf (untrailLiteral literal entries slacks to_untrail).1 k =
      updatesOf entries k) ∧
    (∀ e ∈ (untrailLiteral literal entries slacks to_untrail).1, e.2.index < slacks.length) ∧
    ∀ (c : UpperBoundedLinearConstraint) (k : Nat) (X : Int),
      c.GetCurrentRhsFromSlack (slacks.getD k 0) = wrap64 X →
      c.GetCurrentRhsFromSlack
          ((untrailLiteral literal entries slacks to_untrail).2.1.getD k 0) =
        wrap64 (X + literalSum literal (updatesOf entries k))
  | [], slacks, to_untrail, _ => by
    unfold untrailLiteral
    refine ⟨rfl, fun _ => rfl, by simp, ?_⟩
    intro c k X hX
    rw [updatesOf_nil, literalSum_nil, Int.add_zero]
    exact hX
  | (l, update) :: rest, slacks, to_untrail, hrange => by
    have hidx : update.index < slacks.length := hrange _ (List.mem_cons_self _ _)
    have hrange2 : ∀ e ∈ rest, e.2.index < slacks.length :=
      fun e he => hrange e (List.mem_cons_of_mem _ he)
    have key : ∀ (slacks1 : List Int) (to_untrail1 : List Nat)
        (update1 : ConstraintIndexWithCoeff),
        update1.index = update.index → update1.coefficient = update.coefficient →
        slacks1.length = slacks.length →
        (∀ (c : UpperBoundedLinearConstraint) (k : Nat) (X : Int),
          c.GetCurrentRhsFromSlack (slacks.getD k 0) = wrap64 X →
          c.GetCurrentRhsFromSlack (slacks1.getD k 0) =
            wrap64 (X + (if update.index = k then
              (if l = literal then update.coefficient else 0) else 0))) →
        ((l, update1) :: (untrailLiteral literal rest slacks1 to_untrail1).1,
          (untrailLiteral literal rest slacks1 to_untrail1).2.1,
          (untrailLiteral literal rest slacks1 to_untrail1).2.2).2.1.length = slacks.length ∧
        (∀ k, updatesOf ((l, update1) :: (untrailLiteral literal rest slacks1 to_untrail1).1,
          (untrailLiteral literal rest slacks1 to_untrail1).2.1,
          (untrailLiteral literal rest slacks1 to_untrail1).2.2).1 k =
          updatesOf ((l, update) :: rest) k) ∧
        (∀ e ∈ ((l, update1) :: (untrailLiteral literal rest slacks1 to_untrail1).1,
          (untrailLiteral literal rest slacks1 to_untrail1).2.1,
          (untrailLiteral literal rest slacks1 to_untrail1).2.2).1, e.2.index < slacks.length) ∧
        ∀ (c : UpperBoundedLinearConstraint) (k : Nat) (X : Int),
          c.GetCurrentRhsFromSlack (slacks.getD k 0) = wrap64 X →
          c.GetCurrentRhsFromSlack
              (((l, update1) :: (untrailLiteral literal rest slacks1 to_untrail1).1,
                (untrailLiteral literal rest slacks1 to_untrail1).2.1,
                (untrailLiteral literal rest slacks1 to_untrail1).2.2).2.1.getD k 0) =
            wrap64 (X + literalSum literal (updatesOf ((l, update) :: rest) k)) := by
      intro slacks1 to_untrail1 update1 hi1 hc1 hlen1 hstep
      obtain ⟨r1, r2, r3, r4⟩ := untrailLiteral_spec literal rest slacks1 to_untrail1
        (by rw [hlen1]; exact hrange2)
      refine ⟨by dsimp only; rw [r1, hlen1], ?_, ?_, ?_⟩
      · intro k
        dsimp only
        rw [updatesOf_cons, updatesOf_cons, r2 k]
        dsimp only
        rw [hi1, hc1]
      · intro e he
        rcases List.mem_cons.1 he with h1 | h1
        · subst h1
          dsimp only
          omega
        · have := r3 e h1
          omega
      · intro c k X hX
        dsimp only
        rw [r4 c k _ (hstep c k X hX), updatesOf_cons]
        congr 1
        by_cases hki : update.index = k
        · rw [if_pos hki, if_pos hki, literalSum_cons]
          dsimp only
          omega
        · rw [if_neg hki, if_neg hki]
          omega
    unfold untrailLiteral
    by_cases hl : l ≠ literal
    · rw [if_pos hl]
      refine key slacks to_untrail update rfl rfl rfl ?_
      intro c k X hX
      rw [if_neg hl]
      simp only [ite_self, Int.add_zero]
      exact hX
    · rw [if_neg hl]
      have hl2 : l = literal := by
        by_contra hne
        exact hl hne
      dsimp only
      have hstep : ∀ (c : UpperBoundedLinearConstraint) (k : Nat) (X : Int),
          c.GetCurrentRhsFromSlack (slacks.getD k 0) = wrap64 X →
          c.GetCurrentRhsFromSlack
              ((slacks.set update.index
                (add64 (slacks.getD update.index 0) update.coefficient)).getD k 0) =
            wrap64 (X + (if update.index = k then
              (if l = literal then update.coefficient else 0) else 0)) := by
        intro c k X hX
        by_cases hki : update.index = k
        · subst hki
          rw [if_pos rfl, if_pos hl2, getD_set_self _ _ _ hidx]
          exact GetCurrentRhsFromSlack_add64 c _ _ _ hX
        · rw [if_neg hki, getD_set_ne _ _ _ _ hki, Int.add_zero]
          exact hX
      split
      · exact key _ _ { update with need_untrail_inspection := false } rfl rfl
          (by simp) hstep
      · exact key _ _ update rfl rfl (by simp) hstep

/-- The `while` loop of `Untrail` keeps the invariant of the store. -/
theorem untrailLoop_spec (trail : Trail) : ∀ (count : Nat) (pb : PbConstraints)
    (to_untrail : List Nat), SlackInvariant trail pb → count ≤ pb.propagation_trail_index_ →
    SlackInvariant trail (untrailLoop trail count pb to_untrail).1 ∧
    (untrailLoop trail count pb to_untrail).1.constraints_ = pb.constraints_ ∧
    (untrailLoop trail count pb to_untrail).1.propagation_trail_index_ =
      pb.propagation_trail_index_ - count
  | 0, pb, to_untrail, h, _ => by
    unfold untrailLoop
    exact ⟨h, rfl, rfl⟩
  | count + 1, pb, to_untrail, h, hc => by
    unfold untrailLoop
    dsimp only
    have hr : ∀ e ∈ pb.to_update_, e.2.index < pb.slacks_.length := by
      intro e he
      rw [h.slacks_length]
      exact h.updates_range e he
    obtain ⟨r1, r2, r3, r4⟩ := untrailLiteral_spec
      (trail.get (pb.propagation_trail_index_ - 1)) pb.to_update_ pb.slacks_ to_untrail hr
    generalize untrailLiteral (trail.get (pb.propagation_trail_index_ - 1)) pb.to_update_
      pb.slacks_ to_untrail = r at r1 r2 r3 r4
    obtain ⟨to_update, slacks, to_untrail1⟩ := r
    dsimp only at r1 r2 r3 r4 ⊢
    have hinv : SlackInvariant trail
        { pb with propagation_trail_index_ := pb.propagation_trail_index_ - 1,
                  to_update_ := to_update, slacks_ := slacks } := by
      refine ⟨h.nodup, ?_, ?_, ?_, ?_, h.well_formed, ?_⟩
      · have := h.index_le
        dsimp only
        omega
      · dsimp only
        rw [r1, h.slacks_length]
      · intro e he
        have := r3 e he
        rw [h.slacks_length] at this
        exact this
      · intro k c hk
        dsimp only at hk ⊢
        rw [r2 k, h.updates k c hk]
      · intro k c hk
        dsimp only at hk ⊢
        rw [r4 c k _ (h.slack k c hk), h.updates k c hk]
        have hlt : pb.propagation_trail_index_ - 1 < trail.Index := by
          have := h.index_le
          omega
        have hs := currentRhs_succ c trail h.nodup (pb.propagation_trail_index_ - 1) hlt
        have he : pb.propagation_trail_index_ - 1 + 1 = pb.propagation_trail_index_ := by omega
        rw [he] at hs
        congr 1
        omega
    obtain ⟨q1, q2, q3⟩ := untrailLoop_spec trail count _ to_untrail1 hinv
      (by dsimp only; omega)
    refine ⟨q1, q2, ?_⟩
    rw [q3]
    dsimp only
    omega

/-- The inspection of the constraints by `Untrail` keeps the invariant of the
store. -/
theorem untrailInspect_spec (trail : Trail) : ∀ (to_untrail : List Nat) (pb : PbConstraints),
    SlackInvariant trail pb →
    SlackInvariant trail (to_untrail.foldl
      (fun (p : PbConstraints) cst_index =>
        match (p.constraints_.getD cst_index
            (UpperBoundedLinearConstraint.Create [] none)).Untrail (p.slacks_.getD cst_index 0) with
        | (c, slack) =>
          { p with constraints_ := p.constraints_.set cst_index c,
                   slacks_ := p.slacks_.set cst_index slack })
      pb) ∧
    (to_untrail.foldl
      (fun (p : PbConstraints) cst_index =>
        match (p.constraints_.getD cst_index
            (UpperBoundedLinearConstraint.Create [] none)).Untrail (p.slacks_.getD cst_index 0) with
        | (c, slack) =>
          { p with constraints_ := p.constraints_.set cst_index c,
                   slacks_ := p.slacks_.set cst_index slack })
      pb).propagation_trail_index_ = pb.propagation_trail_index_
  | [], pb, h => ⟨h, rfl⟩
  | cst_index :: rest, pb, h => by
    rw [List.foldl_cons]
    have hinv : SlackInvariant trail
        (match (pb.constraints_.getD cst_index
            (UpperBoundedLinearConstraint.Create [] none)).Untrail
            (pb.slacks_.getD cst_index 0) with
        | (c, slack) =>
          { pb with constraints_ := pb.constraints_.set cst_index c,
                    slacks_ := pb.slacks_.set cst_index slack }) ∧
        (match (pb.constraints_.getD cst_index
            (UpperBoundedLinearConstraint.Create [] none)).Untrail
            (pb.slacks_.getD cst_index 0) with
        | (c, slack) =>
          { pb with constraints_ := pb.constraints_.set cst_index c,
                    slacks_ := pb.slacks_.set cst_index slack }).propagation_trail_index_ =
          pb.propagation_trail_index_ := by
      by_cases hlt : cst_index < pb.constraints_.length
      · obtain ⟨c0, hc0⟩ : ∃ c0, pb.constraints_[cst_index]? = some c0 :=
          ⟨_, List.getElem?_eq_getElem hlt⟩
        rw [getD_of_getElem? _ _ _ c0 hc0]
        have hget := h.slack cst_index c0 hc0
        obtain ⟨p1, p2, p3, p4, p5, -⟩ := constraint_Untrail_spec c0
          (pb.slacks_.getD cst_index 0) (by rw [hget]; exact IsInt64_wrap64 _)
        generalize c0.Untrail (pb.slacks_.getD cst_index 0) = r at p1 p2 p3 p4 p5
        obtain ⟨c1, slack1⟩ := r
        dsimp only at p1 p2 p3 p4 p5 ⊢
        have hframe : constraintFrame c1 = constraintFrame c0 := by
          unfold constraintFrame
          rw [p1, p2, p3, p4]
        have hfr := frames_set pb.constraints_ cst_index c0 c1 hc0 hframe
        refine ⟨⟨h.nodup, h.index_le, by simpa using h.slacks_length, ?_, ?_, ?_, ?_⟩, rfl⟩
        · intro e he
          have := h.updates_range e he
          simpa using this
        · intro k c2 hk
          obtain ⟨c, hc, hf⟩ := frames_getElem? hfr k c2 hk
          rw [h.updates k c hc, constraintFrame_terms hf]
        · intro c2 hc2
          obtain ⟨k, hk⟩ := List.mem_iff_getElem?.1 hc2
          obtain ⟨c, hc, hf⟩ := frames_getElem? hfr k c2 hk
          exact constraintFrame_WellFormed hf (h.well_formed c (List.mem_iff_getElem?.2 ⟨k, hc⟩))
        · intro k c2 hk
          dsimp only at hk ⊢
          by_cases hki : cst_index = k
          · subst hki
            rw [List.getElem?_set, if_pos rfl, if_pos hlt] at hk
            have hc2 : c2 = c1 := by simpa using hk.symm
            subst hc2
            rw [getD_set_self _ _ _ (by rw [h.slacks_length]; exact hlt), p5, hget,
              constraintFrame_currentRhs hframe]
          · rw [List.getElem?_set, if_neg hki] at hk
            rw [getD_set_ne _ _ _ _ hki]
            exact h.slack k c2 hk
      · generalize (pb.constraints_.getD cst_index
            (UpperBoundedLinearConstraint.Create [] none)).Untrail
            (pb.slacks_.getD cst_index 0) = r
        obtain ⟨c1, slack1⟩ := r
        dsimp only
        rw [List.set_eq_of_length_le (by omega),
          List.set_eq_of_length_le (by rw [h.slacks_length]; omega)]
        exact ⟨h, rfl⟩
    obtain ⟨q1, q2⟩ := untrailInspect_spec trail rest _ hinv.1
    exact ⟨q1, by rw [q2, hinv.2]⟩

/-- The invariant of the store is kept by `Untrail`. -/
theorem SlackInvariant_Untrail (trail : Trail) (pb : PbConstraints)
    (h : SlackInvariant trail pb) (trail_index : Nat) :
    SlackInvariant trail (pb.Untrail trail trail_index) := by
  unfold PbConstraints.Untrail
  obtain ⟨q1, -, -⟩ := untrailLoop_spec trail (pb.propagation_trail_index_ - trail_index) pb []
    h (by omega)
  generalize untrailLoop trail (pb.propagation_trail_index_ - trail_index) pb [] = r at q1
  obtain ⟨pb1, to_untrail⟩ := r
  exact (untrailInspect_spec trail to_untrail pb1 q1).1

/-- The invariant of the store is kept when a literal of an unassigned variable
is enqueued. -/
theorem SlackInvariant_Enqueue (trail : Trail) (pb : PbConstraints)
    (h : SlackInvariant trail pb) (literal : Literal) (info : AssignmentInfo)
    (hun : trail.IsVariableAssigned literal.Variable = false) :
    SlackInvariant (trail.Enqueue literal info) pb := by
  have hn1 : ((trail.Enqueue literal info).entries.map (fun e => e.literal.Variable)).Nodup := by
    simp only [Trail.Enqueue, List.map_append, List.map_cons, List.map_nil]
    rw [List.nodup_append]
    refine ⟨h.nodup, List.nodup_singleton _, ?_⟩
    intro a ha hb
    have : a = literal.Variable := by simpa using hb
    rw [this] at ha
    exact not_mem_of_unassigned trail _ hun ha
  refine ⟨hn1, ?_, h.slacks_length, h.updates_range, h.updates, h.well_formed, ?_⟩
  · rw [Trail.Index_Enqueue]
    have := h.index_le
    omega
  · intro k c hk
    rw [h.slack k c hk]
    congr 1
    exact (currentRhs_of_append c trail _ [⟨literal, trail.current_decision_level, info⟩]
      (by simp [Trail.Enqueue]) hn1 _ h.index_le).symm

/-- The invariant of the store is kept when the last literal of the trail is
removed, if the cursor of the store is below the length of the trail. -/
theorem SlackInvariant_Dequeue (trail : Trail) (pb : PbConstraints)
    (h : SlackInvariant trail pb) (hlt : pb.propagation_trail_index_ < trail.Index) :
    SlackInvariant trail.Dequeue pb := by
  have hne : trail.entries ≠ [] := by
    intro he
    unfold Trail.Index at hlt
    rw [he] at hlt
    simp at hlt
  have hsplit : trail.entries = trail.Dequeue.entries ++ [trail.entries.getLast hne] := by
    unfold Trail.Dequeue
    exact (List.dropLast_append_getLast hne).symm
  have hn1 : (trail.Dequeue.entries.map (fun e => e.literal.Variable)).Nodup := by
    have := h.nodup
    rw [hsplit, List.map_append] at this
    exact (List.nodup_append.1 this).1
  have hidx : pb.propagation_trail_index_ ≤ trail.Dequeue.Index := by
    unfold Trail.Index at hlt ⊢
    rw [hsplit, List.length_append] at hlt
    simp only [List.length_singleton] at hlt
    omega
  refine ⟨hn1, hidx, h.slacks_length, h.updates_range, h.updates, h.well_formed, ?_⟩
  intro k c hk
  rw [h.slack k c hk]
  congr 1
  exact currentRhs_of_append c trail.Dequeue trail _ hsplit h.nodup _ hidx

theorem natGetD_append_left (l l2 : List Nat) (i : Nat) (h : i < l.length) :
    (l ++ l2).getD i 0 = l.getD i 0 := by
  rw [List.getD_eq_getElem?_getD, List.getD_eq_getElem?_getD, List.getElem?_append_left h]

theorem natGetD_append_length (l : List Nat) (x : Nat) :
    (l ++ [x]).getD l.length 0 = x := by
  rw [List.getD_eq_getElem?_getD, List.getElem?_append_right (le_refl _)]
  simp

theorem intGetD_append_left (l l2 : List Int) (i : Nat) (h : i < l.length) :
    (l ++ l2).getD i 0 = l.getD i 0 := by
  rw [List.getD_eq_getElem?_getD, List.getD_eq_getElem?_getD, List.getElem?_append_left h]

theorem intGetD_append_length (l : List Int) (x : Int) :
    (l ++ [x]).getD l.length 0 = x := by
  rw [List.getD_eq_getElem?_getD, List.getElem?_append_right (le_refl _)]
  simp

theorem intGetD_getLast? (l : List Int) (x : Int) (h : l.getLast? = some x) :
    l.getD (l.length - 1) 0 = x ∧ 0 < l.length := by
  rcases List.eq_nil_or_concat l with hnil | ⟨l2, y, hl⟩
  · rw [hnil] at h
    exact Option.noConfusion h
  · rw [List.concat_eq_append] at hl
    subst hl
    rw [List.getLast?_concat] at h
    have hy : y = x := by simpa using h
    subst hy
    simp only [List.length_append, List.length_singleton, Nat.add_sub_cancel]
    exact ⟨intGetD_append_length l2 y, by omega⟩

/-- A turn of the loop of the constructor that opens a group keeps the invariant
of the loop. -/
theorem CreateInvariant_new_group (c : UpperBoundedLinearConstraint)
    (p : List LiteralWithCoeff) (t : LiteralWithCoeff) (h : CreateInvariant c p)
    (hpos : 0 < t.coefficient) (hsorted : ∀ x ∈ p, x.coefficient ≤ t.coefficient)
    (hnew : c.coeffs_.getLast? ≠ some t.coefficient) :
    CreateInvariant
      { c with coeffs_ := c.coeffs_ ++ [t.coefficient],
               starts_ := c.starts_ ++ [c.literals_.length],
               literals_ := c.literals_ ++ [t.literal] } (p ++ [t]) := by
  obtain ⟨hlit, hlen, hlast, ⟨w1, w2, w3, w4, w5, w6⟩, hgroups⟩ := h
  dsimp only at w1 w2 w3 w4 w5 w6 hgroups
  have hn : c.literals_.length = p.length := by rw [hlit, List.length_map]
  have hslen : (c.starts_ ++ [c.literals_.length]).length = c.coeffs_.length + 1 := by
    rw [List.length_append, hlen]
    rfl
  refine ⟨?_, ?_, ?_, ⟨?_, ?_, ?_, ?_, ?_, ?_⟩, ?_⟩
  · dsimp only
    rw [hlit, List.map_append]
    rfl
  · dsimp only
    simp only [List.length_append, List.length_singleton, hlen]
  · dsimp only
    rw [List.getLast?_concat, List.getLast?_concat]
    rfl
  · dsimp only
    simp only [List.length_append, List.length_singleton, hlen]
  · dsimp only
    rw [natGetD_append_left _ _ 0 (by rw [hslen]; omega)]
    exact w2
  · dsimp only
    have : (c.coeffs_ ++ [t.coefficient]).length =
        (c.starts_ ++ [c.literals_.length]).length := by
      simp only [List.length_append, List.length_singleton, hlen]
    rw [this, natGetD_append_length]
  · intro j hj
    dsimp only at hj ⊢
    rw [List.length_append] at hj
    simp only [List.length_singleton] at hj
    by_cases hjm : j < c.coeffs_.length
    · rw [natGetD_append_left _ _ j (by rw [hslen]; omega),
        natGetD_append_left _ _ (j + 1) (by rw [hslen]; omega)]
      exact w4 j hjm
    · have hjeq : j = c.coeffs_.length := by omega
      subst hjeq
      rw [natGetD_append_left _ _ _ (by rw [hslen]; omega), w3]
      have : c.coeffs_.length + 1 = (c.starts_ ++ [c.literals_.length]).length := hslen.symm
      rw [this, natGetD_append_length]
      simp only [List.length_append, List.length_singleton]
      omega
  · intro j hj
    dsimp only at hj ⊢
    rw [List.length_append] at hj
    simp only [List.length_singleton, Nat.add_sub_cancel] at hj
    by_cases hjm : j + 1 < c.coeffs_.length
    · rw [intGetD_append_left _ _ j (by omega), intGetD_append_left _ _ (j + 1) hjm]
      exact w5 j (by omega)
    · have hjeq : j + 1 = c.coeffs_.length := by omega
      rw [intGetD_append_left _ _ j (by omega), hjeq, intGetD_append_length]
      -- the last coefficient is below the new one
      rcases hl : c.coeffs_.getLast? with _ | x
      · rw [List.getLast?_eq_none_iff] at hl
        rw [hl] at hj
        simp at hj
      · obtain ⟨hx, -⟩ := intGetD_getLast? c.coeffs_ x hl
        have hj2 : j = c.coeffs_.length - 1 := by omega
        rw [hj2, hx]
        rw [hl] at hlast hnew
        rcases hp : p.getLast? with _ | y
        · rw [hp] at hlast
          exact Option.noConfusion hlast
        · rw [hp] at hlast
          have hxy : x = y.coefficient := by simpa using hlast
          have := hsorted y (List.mem_of_getLast?_eq_some hp)
          have hne : x ≠ t.coefficient := fun he => hnew (by rw [he])
          omega
  · intro j hj
    dsimp only at hj ⊢
    rw [List.length_append] at hj
    simp only [List.length_singleton] at hj
    by_cases hjm : j < c.coeffs_.length
    · rw [intGetD_append_left _ _ j hjm]
      exact w6 j hjm
    · have hjeq : j = c.coeffs_.length := by omega
      rw [hjeq, intGetD_append_length]
      exact hpos
  · intro i term hi
    dsimp only
    by_cases hip : i < p.length
    · rw [List.getElem?_append_left hip] at hi
      obtain ⟨j, ⟨g1, g2, g3⟩, g4⟩ := hgroups i term hi
      dsimp only at g1 g2 g3
      refine ⟨j, ⟨?_, ?_, ?_⟩, ?_⟩
      · dsimp only
        rw [List.length_append]
        omega
      · dsimp only
        rw [natGetD_append_left _ _ j (by rw [hslen]; omega)]
        exact g2
      · dsimp only
        rw [natGetD_append_left _ _ (j + 1) (by rw [hslen]; omega)]
        exact g3
      · rw [intGetD_append_left _ _ j g1]
        exact g4
    · have hi2 : i = p.length := by
        have := (List.getElem?_eq_some.1 hi).1
        rw [List.length_append] at this
        simp only [List.length_singleton] at this
        omega
      subst hi2
      rw [List.getElem?_append_right (le_refl _)] at hi
      have hterm : term = t := by simpa using hi.symm
      subst hterm
      refine ⟨c.coeffs_.length, ⟨?_, ?_, ?_⟩, ?_⟩
      · dsimp only
        rw [List.length_append]
        exact Nat.lt_succ_self _
      · dsimp only
        rw [natGetD_append_left _ _ _ (by rw [hslen]; omega), w3, hn]
      · dsimp only
        have : c.coeffs_.length + 1 = (c.starts_ ++ [c.literals_.length]).length := hslen.symm
        rw [this, natGetD_append_length, List.length_append, hn]
        exact Nat.lt_succ_self _
      · exact intGetD_append_length _ _

/-- A turn of the loop of the constructor that adds a literal to the last group
keeps the invariant of the loop. -/
theorem CreateInvariant_same_group (c : UpperBoundedLinearConstraint)
    (p : List LiteralWithCoeff) (t : LiteralWithCoeff) (h : CreateInvariant c p)
    (hsame : c.coeffs_.getLast? = some t.coefficient) :
    CreateInvariant { c with literals_ := c.literals_ ++ [t.literal] } (p ++ [t]) := by
  obtain ⟨hlit, hlen, hlast, ⟨w1, w2, w3, w4, w5, w6⟩, hgroups⟩ := h
  dsimp only at w1 w2 w3 w4 w5 w6 hgroups
  have hn : c.literals_.length = p.length := by rw [hlit, List.length_map]
  obtain ⟨hx, hm⟩ := intGetD_getLast? c.coeffs_ _ hsame
  have hs0 : c.starts_.length = c.coeffs_.length := hlen
  have hleft : ∀ (j x : Nat), j < c.coeffs_.length →
      (c.starts_ ++ [x]).getD j 0 = c.starts_.getD j 0 := by
    intro j x hj
    exact natGetD_append_left _ _ j (by omega)
  have hright : ∀ x : Nat, (c.starts_ ++ [x]).getD c.coeffs_.length 0 = x := by
    intro x
    rw [← hs0]
    exact natGetD_append_length _ _
  refine ⟨?_, hlen, ?_, ⟨?_, ?_, ?_, ?_, w5, w6⟩, ?_⟩
  · dsimp only
    rw [hlit, List.map_append]
    rfl
  · dsimp only
    rw [hsame, List.getLast?_concat]
    rfl
  · dsimp only
    simp only [List.length_append, List.length_singleton, hlen]
  · dsimp only
    rw [hleft 0 _ hm]
    rw [hleft 0 _ hm] at w2
    exact w2
  · dsimp only
    rw [hright]
  · intro j hj
    dsimp only at hj ⊢
    have h4 := w4 j hj
    rw [hleft j _ hj] at h4 ⊢
    by_cases hjm : j + 1 < c.coeffs_.length
    · rw [hleft (j + 1) _ hjm] at h4 ⊢
      exact h4
    · have hjeq : j + 1 = c.coeffs_.length := by omega
      rw [hjeq, hright] at h4 ⊢
      simp only [List.length_append, List.length_singleton]
      omega
  · intro i term hi
    dsimp only
    by_cases hip : i < p.length
    · rw [List.getElem?_append_left hip] at hi
      obtain ⟨j, ⟨g1, g2, g3⟩, g4⟩ := hgroups i term hi
      dsimp only at g1 g2 g3
      refine ⟨j, ⟨g1, ?_, ?_⟩, g4⟩
      · dsimp only
        rw [hleft j _ g1] at g2 ⊢
        exact g2
      · dsimp only
        by_cases hjm : j + 1 < c.coeffs_.length
        · rw [hleft (j + 1) _ hjm] at g3 ⊢
          exact g3
        · have hjeq : j + 1 = c.coeffs_.length := by omega
          rw [hjeq, hright] at g3 ⊢
          simp only [List.length_append, List.length_singleton]
          omega
    · have hi2 : i = p.length := by
        have := (List.getElem?_eq_some.1 hi).1
        rw [List.length_append] at this
        simp only [List.length_singleton] at this
        omega
      subst hi2
      rw [List.getElem?_append_right (le_refl _)] at hi
      have hterm : term = t := by simpa using hi.symm
      subst hterm
      refine ⟨c.coeffs_.length - 1, ⟨by dsimp only; omega, ?_, ?_⟩, hx⟩
      · dsimp only
        have h4 := w4 (c.coeffs_.length - 1) (by omega)
        have he : c.coeffs_.length - 1 + 1 = c.coeffs_.length := by omega
        rw [he, hright, hleft _ _ (by omega)] at h4
        rw [hleft _ _ (by omega)]
        omega
      · dsimp only
        have he : c.coeffs_.length - 1 + 1 = c.coeffs_.length := by omega
        rw [he, hright]
        simp only [List.length_append, List.length_singleton]
        omega

/-- The loop of the constructor keeps its invariant over a list of terms with
positive coefficients in non-decreasing order. -/
theorem CreateInvariant_foldl : ∀ (rest p : List LiteralWithCoeff)
    (c : UpperBoundedLinearConstraint), CreateInvariant c p →
    (∀ term ∈ rest, 0 < term.coefficient) →
    (p ++ rest).Pairwise (fun a b => a.coefficient ≤ b.coefficient) →
    CreateInvariant
      (rest.foldl
        (fun (c : UpperBoundedLinearConstraint) term =>
          if term.coefficient = 0 then c
          else
            let c1 :=
              if c.coeffs_.isEmpty || decide (some term.coefficient ≠ c.coeffs_.getLast?) then
                { c with coeffs_ := c.coeffs_ ++ [term.coefficient],
                         starts_ := c.starts_ ++ [c.literals_.length] }
              else c
            { c1 with literals_ := c1.literals_ ++ [term.literal] }) c) (p ++ rest)
  | [], p, c, h, _, _ => by
    rw [List.append_nil]
    exact h
  | t :: rest, p, c, h, hpos, hs => by
    rw [List.foldl_cons]
    have htpos := hpos t (List.mem_cons_self _ _)
    have hsorted : ∀ x ∈ p, x.coefficient ≤ t.coefficient := by
      intro x hx
      exact (List.pairwise_append.1 hs).2.2 x hx t (List.mem_cons_self _ _)
    have hstep : CreateInvariant
        (if t.coefficient = 0 then c
          else
            let c1 :=
              if c.coeffs_.isEmpty || decide (some t.coefficient ≠ c.coeffs_.getLast?) then
                { c with coeffs_ := c.coeffs_ ++ [t.coefficient],
                         starts_ := c.starts_ ++ [c.literals_.length] }
              else c
            { c1 with literals_ := c1.literals_ ++ [t.literal] }) (p ++ [t]) := by
      rw [if_neg (by omega)]
      dsimp only
      by_cases hcond : (c.coeffs_.isEmpty ||
          decide (some t.coefficient ≠ c.coeffs_.getLast?)) = true
      · rw [if_pos hcond]
        apply CreateInvariant_new_group c p t h htpos hsorted
        intro heq
        simp only [Bool.or_eq_true, List.isEmpty_iff, decide_eq_true_eq] at hcond
        rcases hcond with h1 | h1
        · rw [h1] at heq
          exact Option.noConfusion heq
        · exact h1 heq.symm
      · rw [if_neg hcond]
        apply CreateInvariant_same_group c p t h
        simp only [Bool.or_eq_true, List.isEmpty_iff, decide_eq_true_eq, not_or,
          not_not] at hcond
        exact hcond.2.symm
    have := CreateInvariant_foldl rest (p ++ [t]) _ hstep
      (fun term hterm => hpos term (List.mem_cons_of_mem _ hterm))
      (by rw [List.append_assoc]; exact hs)
    rw [List.append_assoc] at this
    exact this

/-- The constructor of a constraint, on a list of terms with positive
coefficients in non-decreasing order: the constraint is well formed and its
terms are those of the list. -/
theorem Create_spec (cst : List LiteralWithCoeff) (node : ResolutionNodePointer)
    (hpos : ∀ term ∈ cst, 0 < term.coefficient)
    (hs : cst.Pairwise (fun a b => a.coefficient ≤ b.coefficient)) :
    (UpperBoundedLinearConstraint.Create cst node).WellFormed ∧
    (UpperBoundedLinearConstraint.Create cst node).terms = cst := by
  have hinit : CreateInvariant
      { literals_ := [], coeffs_ := [], starts_ := [], rhs_ := 0, index_ := 0,
        already_propagated_end_ := 0, node_ := node } [] := by
    refine ⟨rfl, rfl, rfl, ⟨rfl, rfl, rfl, ?_, ?_, ?_⟩, ?_⟩
    · intro j hj
      simp at hj
    · intro j hj
      simp at hj
    · intro j hj
      simp at hj
    · intro i term hi
      simp at hi
  have h := CreateInvariant_foldl cst [] _ hinit hpos (by simpa using hs)
  rw [List.nil_append] at h
  obtain ⟨F, hF⟩ : ∃ F : UpperBoundedLinearConstraint, F = cst.foldl
      (fun (c : UpperBoundedLinearConstraint) term =>
        if term.coefficient = 0 then c
        else
          let c1 :=
            if c.coeffs_.isEmpty || decide (some term.coefficient ≠ c.coeffs_.getLast?) then
              { c with coeffs_ := c.coeffs_ ++ [term.coefficient],
                       starts_ := c.starts_ ++ [c.literals_.length] }
            else c
          { c1 with literals_ := c1.literals_ ++ [term.literal] })
      { literals_ := [], coeffs_ := [], starts_ := [], rhs_ := 0, index_ := 0,
        already_propagated_end_ := 0, node_ := node } := ⟨_, rfl⟩
  rw [← hF] at h
  have hcreate : UpperBoundedLinearConstraint.Create cst node =
      { F with starts_ := F.starts_ ++ [F.literals_.length] } := by
    rw [hF]
    rfl
  rw [hcreate]
  obtain ⟨hlit, -, -, hwf, hgroups⟩ := h
  refine ⟨hwf, ?_⟩
  apply List.ext_getElem?
  intro i
  have hlen : (UpperBoundedLinearConstraint.terms
      { F with starts_ := F.starts_ ++ [F.literals_.length] }).length = cst.length := by
    unfold UpperBoundedLinearConstraint.terms
    rw [termsLoop_length]
    dsimp only
    rw [hlit, List.length_map]
  by_cases hi : i < cst.length
  · obtain ⟨term, hterm⟩ : ∃ term, cst[i]? = some term := ⟨_, List.getElem?_eq_getElem hi⟩
    obtain ⟨t2, ht2⟩ : ∃ t2, (UpperBoundedLinearConstraint.terms
        { F with starts_ := F.starts_ ++ [F.literals_.length] })[i]? = some t2 :=
      ⟨_, List.getElem?_eq_getElem (by rw [hlen]; exact hi)⟩
    rw [hterm, ht2]
    obtain ⟨j, hj, hcoef⟩ := hgroups i term hterm
    obtain ⟨j2, hj2, ht2eq⟩ := hwf.terms_getElem? i t2 ht2
    have hjj := hwf.group_unique i j j2 hj hj2
    subst hjj
    rw [ht2eq]
    dsimp only
    rw [hcoef]
    have hl : F.literals_.getD i ⟨0⟩ = term.literal := by
      rw [hlit, List.getD_eq_getElem?_getD, List.getElem?_map, hterm]
      rfl
    rw [hl]
  · rw [List.getElem?_eq_none (by rw [hlen]; omega), List.getElem?_eq_none (by omega)]

theorem getLast?_eq_getElem? (cs : List UpperBoundedLinearConstraint)
    (c : UpperBoundedLinearConstraint) (h : cs.getLast? = some c) :
    cs[cs.length - 1]? = some c ∧ 0 < cs.length := by
  rw [List.getLast?_eq_some_iff] at h
  obtain ⟨ys, rfl⟩ := h
  simp

/-- What the call of `InitializeRhs` on the last constraint of the store leaves:
the other constraints and slacks, the entries of `to_update_` and the cursor
are kept; the last constraint keeps its terms, gets the right hand side given,
and its slack stands for the right hand side minus the coefficients of the
literals true below the cursor; the trail grows at its end. -/
theorem lastInitializeRhs_spec (pb : PbConstraints) (rhs : Int) (trail : Trail)
    (c : UpperBoundedLinearConstraint) (hlast : pb.constraints_.getLast? = some c)
    (hn : (trail.entries.map (fun e => e.literal.Variable)).Nodup) (hrhs : IsInt64 rhs)
    (hlen : pb.slacks_.length = pb.constraints_.length) :
    (pb.lastInitializeRhs rhs trail).2.1.to_update_ = pb.to_update_ ∧
    (pb.lastInitializeRhs rhs trail).2.1.propagation_trail_index_ =
      pb.propagation_trail_index_ ∧
    (pb.lastInitializeRhs rhs trail).2.1.constraints_.length = pb.constraints_.length ∧
    (pb.lastInitializeRhs rhs trail).2.1.slacks_.length = pb.constraints_.length ∧
    (∀ k, k ≠ pb.constraints_.length - 1 →
      (pb.lastInitializeRhs rhs trail).2.1.constraints_[k]? = pb.constraints_[k]? ∧
      (pb.lastInitializeRhs rhs trail).2.1.slacks_.getD k 0 = pb.slacks_.getD k 0) ∧
    (∃ c1, (pb.lastInitializeRhs rhs trail).2.1.constraints_[pb.constraints_.length - 1]? =
        some c1 ∧
      c1.literals_ = c.literals_ ∧ c1.coeffs_ = c.coeffs_ ∧ c1.starts_ = c.starts_ ∧
      c1.rhs_ = rhs ∧
      c1.GetCurrentRhsFromSlack
          ((pb.lastInitializeRhs rhs trail).2.1.slacks_.getD (pb.constraints_.length - 1) 0) =
        wrap64 (rhs - trueSum trail pb.propagation_trail_index_ c.terms)) ∧
    (((pb.lastInitializeRhs rhs trail).2.2).entries.map (fun e => e.literal.Variable)).Nodup ∧
    ∃ new : List TrailEntry,
      (pb.lastInitializeRhs rhs trail).2.2.entries = trail.entries ++ new := by
  obtain ⟨hget, hpos⟩ := getLast?_eq_getElem? pb.constraints_ c hlast
  unfold PbConstraints.lastInitializeRhs
  rw [hlast]
  dsimp only
  obtain ⟨p1, p2, p3, p4, p5, -, p7, p8⟩ := InitializeRhs_spec c (pb.constraints_.length - 1)
    rhs pb.propagation_trail_index_ trail hn hrhs
  generalize c.InitializeRhs (pb.constraints_.length - 1) rhs pb.propagation_trail_index_
    trail = r at p1 p2 p3 p4 p5 p7 p8
  obtain ⟨ok, c1, slack, trail1, conflict⟩ := r
  dsimp only at p1 p2 p3 p4 p5 p7 p8 ⊢
  refine ⟨rfl, rfl, by simp, by simp [hlen], ?_, ?_, p7, p8⟩
  · intro k hk
    constructor
    · rw [List.getElem?_set, if_neg (by omega)]
    · rw [hlen]
      exact getD_set_ne _ _ _ _ (by omega)
  · refine ⟨c1, ?_, p1, p2, p3, p4, ?_⟩
    · rw [List.getElem?_set, if_pos rfl, if_pos (by omega)]
    · rw [hlen, getD_set_self _ _ _ (by omega)]
      exact p5

theorem updatesOf_append (a b : List (Literal × ConstraintIndexWithCoeff)) (k : Nat) :
    updatesOf (a ++ b) k = updatesOf a k ++ updatesOf b k := by
  unfold updatesOf
  rw [List.filter_append, List.map_append]

theorem updatesOf_of_ne (a : List (Literal × ConstraintIndexWithCoeff)) (k : Nat)
    (h : ∀ e ∈ a, e.2.index ≠ k) : updatesOf a k = [] := by
  unfold updatesOf
  rw [List.map_eq_nil_iff, List.filter_eq_nil_iff]
  intro e he
  simpa using h e he

theorem updatesOf_new (cst : List LiteralWithCoeff) (k : Nat) :
    updatesOf (cst.map (fun term => (term.literal, (⟨false, k, term.coefficient⟩ :
      ConstraintIndexWithCoeff)))) k = cst := by
  unfold updatesOf
  rw [List.filter_eq_self.2 (by
    intro e he
    obtain ⟨t, -, rfl⟩ := List.mem_map.1 he
    simp)]
  rw [List.map_map]
  conv_rhs => rw [← List.map_id cst]
  rfl

/-- The invariant of the store holds after the call of `InitializeRhs` on the last
constraint, with entries `extra` added to `to_update_`, when it held before
for the other constraints and the entries of `to_update_` with `extra` are the
terms of the constraints. -/
theorem SlackInvariant_lastInitializeRhs (trail : Trail) (pb : PbConstraints) (rhs : Int)
    (c : UpperBoundedLinearConstraint) (extra : List (Literal × ConstraintIndexWithCoeff))
    (hlast : pb.constraints_.getLast? = some c)
    (hn : (trail.entries.map (fun e => e.literal.Variable)).Nodup)
    (hidx : pb.propagation_trail_index_ ≤ trail.Index)
    (hlen : pb.slacks_.length = pb.constraints_.length)
    (hrange : ∀ e ∈ pb.to_update_ ++ extra, e.2.index < pb.constraints_.length)
    (hupd : ∀ k c1, pb.constraints_[k]? = some c1 →
      updatesOf (pb.to_update_ ++ extra) k = c1.terms)
    (hwf : ∀ c1 ∈ pb.constraints_, c1.WellFormed)
    (hslack : ∀ k c1, k ≠ pb.constraints_.length - 1 → pb.constraints_[k]? = some c1 →
      c1.GetCurrentRhsFromSlack (pb.slacks_.getD k 0) =
        wrap64 (c1.currentRhs trail pb.propagation_trail_index_))
    (hrhs : IsInt64 rhs) :
    SlackInvariant (pb.lastInitializeRhs rhs trail).2.2
      { (pb.lastInitializeRhs rhs trail).2.1 with
        to_update_ := (pb.lastInitializeRhs rhs trail).2.1.to_update_ ++ extra } := by
  obtain ⟨hget, hpos⟩ := getLast?_eq_getElem? pb.constraints_ c hlast
  obtain ⟨p1, p2, p3, p4, p5, ⟨c1, q1, q2, q3, q4, q5, q6⟩, p7, new, p8⟩ :=
    lastInitializeRhs_spec pb rhs trail c hlast hn hrhs hlen
  generalize pb.lastInitializeRhs rhs trail = r at p1 p2 p3 p4 p5 q1 q6 p7 p8
  obtain ⟨ok, pb1, trail1⟩ := r
  dsimp only at p1 p2 p3 p4 p5 q1 q6 p7 p8 ⊢
  have hcases : ∀ k c2, pb1.constraints_[k]? = some c2 →
      (k ≠ pb.constraints_.length - 1 ∧ pb.constraints_[k]? = some c2) ∨
      (k = pb.constraints_.length - 1 ∧ c2 = c1) := by
    intro k c2 hk
    by_cases hkl : k = pb.constraints_.length - 1
    · right
      refine ⟨hkl, ?_⟩
      rw [hkl, q1] at hk
      exact (Option.some.inj hk).symm
    · left
      refine ⟨hkl, ?_⟩
      rw [← (p5 k hkl).1]
      exact hk
  refine ⟨p7, ?_, ?_, ?_, ?_, ?_, ?_⟩
  · dsimp only
    rw [p2]
    have : trail.Index ≤ trail1.Index := by
      unfold Trail.Index
      rw [p8]
      simp
    omega
  · dsimp only
    rw [p3, p4]
  · dsimp only
    rw [p1, p3]
    exact hrange
  · intro k c2 hk
    dsimp only at hk ⊢
    rw [p1]
    rcases hcases k c2 hk with ⟨-, h2⟩ | ⟨h1, h2⟩
    · exact hupd k c2 h2
    · rw [h2, terms_congr c c1 q2 q3 q4, h1]
      exact hupd _ c hget
  · intro c2 hc2
    dsimp only at hc2
    obtain ⟨k, hk⟩ := List.mem_iff_getElem?.1 hc2
    rcases hcases k c2 hk with ⟨-, h2⟩ | ⟨-, h2⟩
    · exact hwf c2 (List.mem_iff_getElem?.2 ⟨_, h2⟩)
    · rw [h2]
      exact WellFormed_congr c c1 q2 q3 q4 (hwf c (List.mem_iff_getElem?.2 ⟨_, hget⟩))
  · intro k c2 hk
    dsimp only at hk ⊢
    rw [p2]
    rcases hcases k c2 hk with ⟨h1, h2⟩ | ⟨h1, h2⟩
    · rw [(p5 k h1).2, hslack k c2 h1 h2,
        currentRhs_of_append c2 trail trail1 new p8 p7 _ hidx]
    · rw [h2, h1, q6]
      unfold UpperBoundedLinearConstraint.currentRhs
      rw [q5, terms_congr c c1 q2 q3 q4, trueSum_of_append trail trail1 new p8 p7 _ hidx]

/-- The invariant of the store is kept when a new constraint in canonical form is
stored and its initialization succeeds. -/
theorem SlackInvariant_addNewConstraint (trail : Trail) (pb : PbConstraints)
    (h : SlackInvariant trail pb) (cst : List LiteralWithCoeff) (rhs : Int)
    (node : ResolutionNodePointer) (pb1 : PbConstraints) (trail1 : Trail)
    (hc : CanonicalTerms cst) (hrhs : IsInt64 rhs)
    (hadd : pb.addNewConstraint cst rhs node trail = (true, pb1, trail1)) :
    SlackInvariant trail1 pb1 := by
  obtain ⟨-, hpos, hsorted⟩ := hc
  obtain ⟨hwfc, htermsc⟩ := Create_spec cst node hpos hsorted
  have key := SlackInvariant_lastInitializeRhs trail
    { pb with
      constraints_ := pb.constraints_ ++ [UpperBoundedLinearConstraint.Create cst node],
      slacks_ := pb.slacks_ ++ [0] } rhs (UpperBoundedLinearConstraint.Create cst node)
    (cst.map (fun term => (term.literal, (⟨false, pb.constraints_.length, term.coefficient⟩ :
      ConstraintIndexWithCoeff))))
    (by simp) h.nodup h.index_le (by simp [h.slacks_length])
    (by
      intro e he
      dsimp only at he ⊢
      rw [List.length_append, List.length_singleton]
      rcases List.mem_append.1 he with he | he
      · have := h.updates_range e he
        omega
      · obtain ⟨t, -, rfl⟩ := List.mem_map.1 he
        dsimp only
        omega)
    (by
      intro k c1 hk
      dsimp only at hk ⊢
      rw [updatesOf_append]
      by_cases hkl : k < pb.constraints_.length
      · rw [List.getElem?_append_left hkl] at hk
        rw [h.updates k c1 hk, updatesOf_of_ne _ k, List.append_nil]
        intro e he
        obtain ⟨t, -, rfl⟩ := List.mem_map.1 he
        dsimp only
        omega
      · have hk2 := hk
        rw [List.getElem?_append_right (by omega)] at hk2
        have hkeq : k = pb.constraints_.length := by
          by_contra hne
          have : 0 < k - pb.constraints_.length := by omega
          rw [List.getElem?_eq_none (by simp; omega)] at hk2
          cases hk2
        subst hkeq
        simp only [Nat.sub_self, List.getElem?_cons_zero, Option.some.injEq] at hk2
        rw [← hk2, htermsc, updatesOf_new, updatesOf_of_ne _ _, List.nil_append]
        intro e he
        have := h.updates_range e he
        omega)
    (by
      intro c1 hc1
      dsimp only at hc1
      rcases List.mem_append.1 hc1 with hc1 | hc1
      · exact h.well_formed c1 hc1
      · rw [List.mem_singleton.1 hc1]
        exact hwfc)
    (by
      intro k c1 hk1 hk
      dsimp only at hk1 hk ⊢
      rw [List.length_append, List.length_singleton] at hk1
      have hkl : k < pb.constraints_.length := by
        have := (List.getElem?_eq_some_iff.1 hk).1
        rw [List.length_append, List.length_singleton] at this
        omega
      rw [List.getElem?_append_left hkl] at hk
      rw [intGetD_append_left _ _ _ (by rw [h.slacks_length]; exact hkl)]
      exact h.slack k c1 hk)
    hrhs
  unfold PbConstraints.addNewConstraint at hadd
  dsimp only at hadd
  generalize PbConstraints.lastInitializeRhs _ rhs trail = r at key hadd
  obtain ⟨ok, pb2, trail2⟩ := r
  cases ok
  · simp at hadd
  · simp only [Prod.mk.injEq, true_and] at hadd
    obtain ⟨rfl, rfl⟩ := hadd
    exact key

/-- The invariant of the store is kept when `AddConstraint` is called on a
constraint in canonical form with a 64-bit right hand side and returns
true. -/
theorem SlackInvariant_AddConstraint (trail : Trail) (pb : PbConstraints)
    (h : SlackInvariant trail pb) (cst : List LiteralWithCoeff) (rhs : Int)
    (node : ResolutionNodePointer) (pb1 : PbConstraints) (trail1 : Trail)
    (hc : CanonicalTerms cst) (hrhs : IsInt64 rhs)
    (hadd : pb.AddConstraint cst rhs node trail = (true, pb1, trail1)) :
    SlackInvariant trail1 pb1 := by
  unfold PbConstraints.AddConstraint at hadd
  cases hlast : pb.constraints_.getLast? with
  | none =>
    rw [hlast] at hadd
    exact SlackInvariant_addNewConstraint trail pb h cst rhs node pb1 trail1 hc hrhs hadd
  | some last =>
    rw [hlast] at hadd
    dsimp only at hadd
    split at hadd
    · split at hadd
      · obtain ⟨hget, hpos⟩ := getLast?_eq_getElem? pb.constraints_ last hlast
        have hlast1 : (pb.constraints_.set (pb.constraints_.length - 1)
            { last with node_ := node }).getLast? = some { last with node_ := node } := by
          rw [List.getLast?_eq_getElem?, List.length_set, List.getElem?_set, if_pos rfl,
            if_pos (by omega)]
        have hcases : ∀ k c1, (pb.constraints_.set (pb.constraints_.length - 1)
            { last with node_ := node })[k]? = some c1 →
            (k ≠ pb.constraints_.length - 1 ∧ pb.constraints_[k]? = some c1) ∨
            (k = pb.constraints_.length - 1 ∧ c1 = { last with node_ := node }) := by
          intro k c1 hk
          rw [List.getElem?_set] at hk
          split at hk
          · right
            rename_i hkl
            refine ⟨hkl.symm, ?_⟩
            split at hk
            · exact (Option.some.inj hk).symm
            · cases hk
          · left
            rename_i hkl
            exact ⟨fun hh => hkl hh.symm, hk⟩
        have key := SlackInvariant_lastInitializeRhs trail
          { pb with constraints_ :=
            (pb.constraints_.set (pb.constraints_.length - 1) { last with node_ := node }) }
          rhs { last with node_ := node } [] hlast1 h.nodup h.index_le
          (by simp [h.slacks_length])
          (by
            intro e he
            dsimp only at he ⊢
            rw [List.append_nil] at he
            rw [List.length_set]
            exact h.updates_range e he)
          (by
            intro k c1 hk
            dsimp only at hk ⊢
            rw [List.append_nil]
            rcases hcases k c1 hk with ⟨-, h2⟩ | ⟨h1, h2⟩
            · exact h.updates k c1 h2
            · rw [h2, terms_congr last { last with node_ := node } rfl rfl rfl, h1]
              exact h.updates _ last hget)
          (by
            intro c1 hc1
            dsimp only at hc1
            obtain ⟨k, hk⟩ := List.mem_iff_getElem?.1 hc1
            rcases hcases k c1 hk with ⟨-, h2⟩ | ⟨-, h2⟩
            · exact h.well_formed c1 (List.mem_iff_getElem?.2 ⟨_, h2⟩)
            · rw [h2]
              exact WellFormed_congr last { last with node_ := node } rfl rfl rfl
                (h.well_formed last (List.mem_iff_getElem?.2 ⟨_, hget⟩)))
          (by
            intro k c1 hk1 hk
            dsimp only at hk1 hk ⊢
            rw [List.length_set] at hk1
            rcases hcases k c1 hk with ⟨-, h2⟩ | ⟨h1, -⟩
            · exact h.slack k c1 h2
            · exact absurd h1 hk1)
          hrhs
        generalize PbConstraints.lastInitializeRhs _ rhs trail = r at key hadd
        subst hadd
        dsimp only at key
        rw [List.append_nil] at key
        exact key
      · simp only [Prod.mk.injEq, true_and] at hadd
        obtain ⟨rfl, rfl⟩ := hadd
        exact h
    · exact SlackInvariant_addNewConstraint trail pb h cst rhs node pb1 trail1 hc hrhs hadd

/-- The invariant of the store holds on every store reached from the empty
one. -/
theorem SlackInvariant_of_PbReachable (a : Trail × PbConstraints) (h : PbReachable a) :
    SlackInvariant a.1 a.2 := by
  induction h with
  | init trail he =>
    refine ⟨?_, ?_, rfl, ?_, ?_, ?_, ?_⟩
    · rw [he]
      exact List.nodup_nil
    · exact Nat.zero_le _
    · intro e he
      cases he
    · intro k c hk
      simp at hk
    · intro c hc
      cases hc
    · intro k c hk
      simp at hk
  | step a b _ hstep ih =>
    cases hstep with
    | addConstraint trail pb cst rhs node pb1 trail1 hc hrhs hadd =>
      exact SlackInvariant_AddConstraint trail pb ih cst rhs node pb1 trail1 hc hrhs hadd
    | propagateNext trail pb hneed => exact SlackInvariant_PropagateNext trail pb ih hneed
    | untrail trail pb trail_index => exact SlackInvariant_Untrail trail pb ih trail_index
    | enqueue trail pb literal info hun => exact SlackInvariant_Enqueue trail pb ih literal info hun
    | dequeue trail pb hlt => exact SlackInvariant_Dequeue trail pb ih hlt

/-- C26 (amended): on every store of linear constraints reached from the empty
store on an empty trail by calls of `AddConstraint` that return true (on
constraints in canonical form with a 64-bit right hand side), calls of
`PropagateNext` when propagation is needed, calls of `Untrail`, and literals
enqueued or removed by the owner of the trail, the current right hand side
obtained from the slack of every stored constraint is the 64-bit value of
`rhs_` minus the sum of the coefficients of its literals that are true at a
trail index below `propagation_trail_index_`; the two are equal whenever that
difference fits in 64 bits. -/
theorem PbConstraints_slack_agrees (trail : Trail) (pb : PbConstraints)
    (h : PbReachable (trail, pb)) (k : Nat) (c : UpperBoundedLinearConstraint)
    (hk : pb.constraints_[k]? = some c) :
    c.GetCurrentRhsFromSlack (pb.slacks_.getD k 0) =
      wrap64 (c.currentRhs trail pb.propagation_trail_index_) ∧
    (IsInt64 (c.currentRhs trail pb.propagation_trail_index_) →
      c.GetCurrentRhsFromSlack (pb.slacks_.getD k 0) =
        c.currentRhs trail pb.propagation_trail_index_) := by
  have hs := (SlackInvariant_of_PbReachable (trail, pb) h).slack k c hk
  refine ⟨hs, fun hr => ?_⟩
  rw [hs, wrap64_of_IsInt64 hr]

/-- C26, an instance: the constraint `x1 + 3 x0 <= 3` is added to the empty store,
`x0` is decided and `PropagateNext` is called; the store is reached, and the
current right hand side obtained from the slack is `3 - 3 = 0`. -/
theorem PbConstraints_slack_agrees_witness :
    PbReachable ((pbExample.PropagateNext pbExampleTrail).2.2,
      (pbExample.PropagateNext pbExampleTrail).2.1) ∧
    (pbExample.PropagateNext pbExampleTrail).2.1.constraints_[0]? =
      some ⟨[⟨2⟩, ⟨0⟩], [1, 3], [0, 1, 2], 3, -1, 0, none⟩ ∧
    (pbExample.PropagateNext pbExampleTrail).2.1.propagation_trail_index_ = 1 ∧
    (pbExample.PropagateNext pbExampleTrail).2.1.slacks_ = [0] ∧
    UpperBoundedLinearConstraint.GetCurrentRhsFromSlack
      ⟨[⟨2⟩, ⟨0⟩], [1, 3], [0, 1, 2], 3, -1, 0, none⟩ 0 = 0 ∧
    UpperBoundedLinearConstraint.currentRhs ⟨[⟨2⟩, ⟨0⟩], [1, 3], [0, 1, 2], 3, -1, 0, none⟩
      (pbExample.PropagateNext pbExampleTrail).2.2 1 = 0 :=
  have hreach : PbReachable ((pbExample.PropagateNext pbExampleTrail).2.2,
      (pbExample.PropagateNext pbExampleTrail).2.1) :=
    PbReachable.step _ _
      (PbReachable.step (Trail.empty.SetDecisionLevel 1, pbExample) _
        (PbReachable.step (Trail.empty.SetDecisionLevel 1, ⟨[], [], [], 0, [], 0, 0⟩) _
          (PbReachable.init (Trail.empty.SetDecisionLevel 1) rfl)
          (PbStep.addConstraint (Trail.empty.SetDecisionLevel 1) ⟨[], [], [], 0, [], 0, 0⟩
            [⟨⟨2⟩, 1⟩, ⟨⟨0⟩, 3⟩] 3 none pbExample (Trail.empty.SetDecisionLevel 1)
            ⟨by decide, by decide, by decide⟩ (by decide) rfl))
        (PbStep.enqueue (Trail.empty.SetDecisionLevel 1) pbExample ⟨0⟩
          AssignmentInfo.SEARCH_DECISION rfl))
      (PbStep.propagateNext pbExampleTrail pbExample rfl)
  have hget : (pbExample.PropagateNext pbExampleTrail).2.1.constraints_[0]? =
      some ⟨[⟨2⟩, ⟨0⟩], [1, 3], [0, 1, 2], 3, -1, 0, none⟩ := by decide
  have h := PbConstraints_slack_agrees _ _ hreach 0
    ⟨[⟨2⟩, ⟨0⟩], [1, 3], [0, 1, 2], 3, -1, 0, none⟩ hget
  ⟨hreach, hget, rfl, rfl, rfl, (h.2 (by decide)).symm.trans rfl⟩

/-- C26, the claim as stated fails after a call of `AddConstraint` that returns
false: on the trail `x0, x1` with the cursor of the store at 0, adding
`x0 + x1 <= 0` to the empty store returns false and stores the constraint
with no entry in `to_update_`; the call of `PropagateNext` that follows moves
the cursor to 1 and leaves the slack alone, so that the current right hand
side from the slack is 0 while `rhs_` minus the coefficient of `x0`, true at
index 0, is -1. -/
theorem PbConstraints_slack_agrees_counterexample :
    ((⟨[], [], [], 0, [], 0, 0⟩ : PbConstraints).AddConstraint [⟨⟨0⟩, 1⟩, ⟨⟨2⟩, 1⟩] 0 none
      ((Trail.empty.Enqueue ⟨0⟩ (AssignmentInfo.UNIT_REASON none)).Enqueue ⟨2⟩
        (AssignmentInfo.UNIT_REASON none))) =
      (false, ⟨[⟨[⟨0⟩, ⟨2⟩], [1], [0, 2], 0, -1, 0, none⟩], [0], [], 0, [⟨3⟩], 0, 0⟩,
        (Trail.empty.Enqueue ⟨0⟩ (AssignmentInfo.UNIT_REASON none)).Enqueue ⟨2⟩
          (AssignmentInfo.UNIT_REASON none)) ∧
    (⟨[⟨[⟨0⟩, ⟨2⟩], [1], [0, 2], 0, -1, 0, none⟩], [0], [], 0, [⟨3⟩], 0, 0⟩ :
      PbConstraints).PropagateNext
      ((Trail.empty.Enqueue ⟨0⟩ (AssignmentInfo.UNIT_REASON none)).Enqueue ⟨2⟩
        (AssignmentInfo.UNIT_REASON none)) =
      (true, ⟨[⟨[⟨0⟩, ⟨2⟩], [1], [0, 2], 0, -1, 0, none⟩], [0], [], 1, [⟨3⟩], 0, 0⟩,
        (Trail.empty.Enqueue ⟨0⟩ (AssignmentInfo.UNIT_REASON none)).Enqueue ⟨2⟩
          (AssignmentInfo.UNIT_REASON none)) ∧
    UpperBoundedLinearConstraint.GetCurrentRhsFromSlack
      ⟨[⟨0⟩, ⟨2⟩], [1], [0, 2], 0, -1, 0, none⟩ 0 = 0 ∧
    UpperBoundedLinearConstraint.currentRhs ⟨[⟨0⟩, ⟨2⟩], [1], [0, 2], 0, -1, 0, none⟩
      ((Trail.empty.Enqueue ⟨0⟩ (AssignmentInfo.UNIT_REASON none)).Enqueue ⟨2⟩
        (AssignmentInfo.UNIT_REASON none)) 1 = -1 := by
  refine ⟨rfl, rfl, rfl, rfl⟩

/-- The cursor that `Propagate` leaves is the one its first loop computes. -/
theorem Propagate_index (c : UpperBoundedLinearConstraint) (self trail_index : Nat)
    (slack : Int) (trail : Trail) :
    (c.Propagate self trail_index slack trail).2.1.index_ =
      (lowerIndexLoop c.coeffs_ (c.GetCurrentRhsFromSlack slack) (c.index_ + 1).toNat : Int) - 1 := by
  rw [(Propagate_components c self trail_index slack trail).2.2.1]
  rfl

/-- The cursor that `Propagate` leaves is at most the one it finds, and at least
-1. -/
theorem Propagate_index_le (c : UpperBoundedLinearConstraint) (self trail_index : Nat)
    (slack : Int) (trail : Trail) (h : -1 ≤ c.index_) :
    -1 ≤ (c.Propagate self trail_index slack trail).2.1.index_ ∧
    (c.Propagate self trail_index slack trail).2.1.index_ ≤ c.index_ := by
  rw [Propagate_index]
  have := (lowerIndexLoop_spec c.coeffs_ (c.GetCurrentRhsFromSlack slack)
    (c.index_ + 1).toNat).1
  omega

theorem IsInt64_Update (c : UpperBoundedLinearConstraint) (current_rhs : Int)
    (h : IsInt64 current_rhs) : IsInt64 (c.Update current_rhs).2 := by
  unfold UpperBoundedLinearConstraint.Update
  dsimp only
  split
  · exact h
  · exact IsInt64_wrap64 _

/-- The slack that `Propagate` leaves is a 64-bit value. -/
theorem Propagate_slack_range (c : UpperBoundedLinearConstraint) (self trail_index : Nat)
    (slack : Int) (trail : Trail) (h : IsInt64 slack) :
    IsInt64 (c.Propagate self trail_index slack trail).2.2.1 := by
  rw [(Propagate_components c self trail_index slack trail).2.2.2]
  exact IsInt64_Update _ _ (IsInt64_GetCurrentRhsFromSlack c slack h)

theorem IsInt64_of_mem_set (l : List Int) (k : Nat) (x : Int) (hl : ∀ s ∈ l, IsInt64 s)
    (hx : IsInt64 x) : ∀ s ∈ l.set k x, IsInt64 s := by
  intro s hs
  rcases List.mem_or_eq_of_mem_set hs with h | h
  · exact hl s h
  · rw [h]
    exact hx

theorem IsInt64_getD (l : List Int) (k : Nat) (hl : ∀ s ∈ l, IsInt64 s) :
    IsInt64 (l.getD k 0) := by
  rw [List.getD_eq_getElem?_getD]
  rcases h : l[k]? with _ | x
  · exact ⟨by decide, by decide⟩
  · exact hl x (List.mem_iff_getElem?.2 ⟨k, h⟩)

/-- The loop that raises the cursor stops below the first group, from the start,
whose coefficient is above `current_rhs`. -/
theorem raiseIndexLoop_spec (coeffs : List Int) (current_rhs : Int) :
    ∀ (fuel n : Nat), n ≤ coeffs.length → coeffs.length - n ≤ fuel →
    n ≤ raiseIndexLoop coeffs current_rhs fuel n ∧
    raiseIndexLoop coeffs current_rhs fuel n ≤ coeffs.length ∧
    (∀ j, n ≤ j → j < raiseIndexLoop coeffs current_rhs fuel n →
      coeffs.getD j 0 ≤ current_rhs) ∧
    (raiseIndexLoop coeffs current_rhs fuel n < coeffs.length →
      current_rhs < coeffs.getD (raiseIndexLoop coeffs current_rhs fuel n) 0)
  | 0, n, hn, hf => by
    unfold raiseIndexLoop
    refine ⟨le_refl _, hn, fun j h1 h2 => by omega, fun h => by omega⟩
  | fuel + 1, n, hn, hf => by
    unfold raiseIndexLoop
    split
    · rename_i hc
      obtain ⟨h1, h2, h3, h4⟩ := raiseIndexLoop_spec coeffs current_rhs fuel (n + 1)
        (by omega) (by omega)
      refine ⟨by omega, h2, ?_, h4⟩
      intro j hj1 hj2
      rcases Nat.eq_or_lt_of_le hj1 with h | h
      · rw [← h]
        exact hc.2
      · exact h3 j h hj2
    · rename_i hc
      refine ⟨le_refl _, hn, fun j h1 h2 => by omega, fun h => ?_⟩
      by_contra hle
      exact hc ⟨h, by omega⟩

/-- The method `Untrail` of a constraint puts the cursor back where it was settled
for the current right hand side, when it starts at or below that place. -/
theorem constraint_Untrail_index (c c0 : UpperBoundedLinearConstraint) (slack : Int)
    (hcoeffs : c.coeffs_ = c0.coeffs_) (hwf : c0.WellFormed) (h2 : c.index_ ≤ c0.index_)
    (hs : c0.CursorSettled (c.GetCurrentRhsFromSlack slack)) :
    (c.Untrail slack).1.index_ = c0.index_ := by
  obtain ⟨s1, s2, s3, s4⟩ := hs
  have hr := raiseIndexLoop_spec c.coeffs_ (c.GetCurrentRhsFromSlack slack) c.coeffs_.length
    (c.index_ + 1).toNat (by rw [hcoeffs]; omega) (by omega)
  have hidx : (c.Untrail slack).1.index_ =
      (raiseIndexLoop c.coeffs_ (c.GetCurrentRhsFromSlack slack) c.coeffs_.length
        (c.index_ + 1).toNat : Int) - 1 := rfl
  rw [hidx]
  generalize raiseIndexLoop c.coeffs_ (c.GetCurrentRhsFromSlack slack) c.coeffs_.length
    (c.index_ + 1).toNat = r at hr
  obtain ⟨r1, r2, r3, r4⟩ := hr
  rw [hcoeffs] at r2 r3 r4
  have hcases : r < (c0.index_ + 1).toNat ∨ r = (c0.index_ + 1).toNat ∨
      (c0.index_ + 1).toNat < r := by omega
  rcases hcases with h | h | h
  · exfalso
    have hmono := hwf.coeffs_mono r c0.index_.toNat (by omega) (by omega)
    have := r4 (by omega)
    have := s3 (by omega)
    omega
  · omega
  · exfalso
    have := r3 (c0.index_ + 1).toNat (by omega) h
    have := s4 (by omega)
    omega

/-- The slack that `Untrail` of a constraint leaves is a 64-bit value. -/
theorem constraint_Untrail_slack_range (c : UpperBoundedLinearConstraint) (slack : Int)
    (h : IsInt64 slack) : IsInt64 (c.Untrail slack).2 :=
  IsInt64_Update _ _ (IsInt64_GetCurrentRhsFromSlack c slack h)

/-- A literal true below a bound is not on the trail at an index from the bound
on. -/
theorem Trail.not_Active_of_trueBelow (trail trail1 : Trail) (new : List TrailEntry)
    (h : trail1.entries = trail.entries ++ new)
    (hn : (trail1.entries.map (fun e => e.literal.Variable)).Nodup) (bound high : Nat)
    (hb : bound ≤ trail.Index) (hh : high ≤ trail1.Index) (literal : Literal)
    (ht : trail.trueBelow bound literal = true) : ¬ trail1.Active bound high literal := by
  rintro ⟨j, hj1, hj2, hj3⟩
  rw [← Trail.trueBelow_of_append trail trail1 new h hn bound hb literal,
    Trail.trueBelow_eq_any trail1 hn] at ht
  simp only [List.any_eq_true, decide_eq_true_eq] at ht
  obtain ⟨e, he, hel⟩ := ht
  obtain ⟨i, hi⟩ := List.mem_iff_getElem?.1 he
  have hib : i < bound := by
    by_contra hnb
    rw [List.getElem?_take_eq_none (by omega)] at hi
    exact Option.noConfusion hi
  rw [List.getElem?_take_of_lt hib] at hi
  unfold Trail.Index at hh
  unfold Trail.get at hj3
  rw [List.get?_eq_getElem?] at hj3
  have hjlt : j < trail1.entries.length := by omega
  rcases hej : trail1.entries[j]? with _ | ej
  · rw [List.getElem?_eq_none_iff] at hej
    omega
  · rw [hej] at hj3
    dsimp only at hj3
    have hne := (List.nodup_iff_getElem?_ne_getElem?.1 hn) i j (by omega)
      (by simpa using hjlt)
    apply hne
    rw [List.getElem?_map, List.getElem?_map, hi, hej]
    simp only [Option.map_some']
    rw [hel, hj3]

/-- The cursor that `Propagate` leaves is at least -1. -/
theorem Propagate_index_ge (c : UpperBoundedLinearConstraint) (self trail_index : Nat)
    (slack : Int) (trail : Trail) :
    -1 ≤ (c.Propagate self trail_index slack trail).2.1.index_ := by
  rw [Propagate_index]
  omega

/-- The loop of `PropagateNext` changes the entries of `to_update_` by setting
flags of entries of the literal only, keeps the slacks in 64 bits, and lowers
the cursors of constraints with a flagged entry of the literal only. -/
theorem propagateNextLoop_cursors (true_literal : Literal) (order : Nat) :
    ∀ (pending : List (Literal × ConstraintIndexWithCoeff)) (st : PropagateNextState),
    (∀ s ∈ st.slacks_, IsInt64 s) → (∀ c ∈ st.constraints_, -1 ≤ c.index_) →
    EntriesAgree (fun a b => b.2.need_untrail_inspection ≠ a.2.need_untrail_inspection →
      a.1 = true_literal ∧ b.2.need_untrail_inspection = true) pending
      (propagateNextLoop true_literal order pending st).1 ∧
    (∀ s ∈ (propagateNextLoop true_literal order pending st).2.slacks_, IsInt64 s) ∧
    (∀ c ∈ (propagateNextLoop true_literal order pending st).2.constraints_, -1 ≤ c.index_) ∧
    (propagateNextLoop true_literal order pending st).2.constraints_.length =
      st.constraints_.length ∧
    ∀ (k : Nat) (c c1 : UpperBoundedLinearConstraint), st.constraints_[k]? = some c →
      (propagateNextLoop true_literal order pending st).2.constraints_[k]? = some c1 →
      c1.index_ ≤ c.index_ ∧
      (c1.index_ ≠ c.index_ → ∃ e ∈ (propagateNextLoop true_literal order pending st).1,
        e.2.index = k ∧ e.2.need_untrail_inspection = true ∧ e.1 = true_literal)
  | [], st, hs, hc => by
    unfold propagateNextLoop
    refine ⟨List.Forall₂.nil, hs, hc, rfl, ?_⟩
    intro k c c1 h1 h2
    dsimp only at h2
    rw [h1] at h2
    cases h2
    exact ⟨le_refl _, fun h => absurd rfl h⟩
  | (l, update) :: rest, st, hs, hc => by
    have key : ∀ (st1 : PropagateNextState) (update1 : ConstraintIndexWithCoeff),
        update1.index = update.index → update1.coefficient = update.coefficient →
        (update1.need_untrail_inspection ≠ update.need_untrail_inspection →
          l = true_literal ∧ update1.need_untrail_inspection = true) →
        (∀ s ∈ st1.slacks_, IsInt64 s) → (∀ c ∈ st1.constraints_, -1 ≤ c.index_) →
        st1.constraints_.length = st.constraints_.length →
        (∀ (k : Nat) (c c1 : UpperBoundedLinearConstraint), st.constraints_[k]? = some c →
          st1.constraints_[k]? = some c1 → c1.index_ ≤ c.index_ ∧
          (c1.index_ ≠ c.index_ → update1.index = k ∧
            update1.need_untrail_inspection = true ∧ l = true_literal)) →
        EntriesAgree (fun a b => b.2.need_untrail_inspection ≠ a.2.need_untrail_inspection →
      a.1 = true_literal ∧ b.2.need_untrail_inspection = true) ((l, update) :: rest)
          ((l, update1) :: (propagateNextLoop true_literal order rest st1).1,
            (propagateNextLoop true_literal order rest st1).2).1 ∧
        (∀ s ∈ ((l, update1) :: (propagateNextLoop true_literal order rest st1).1,
            (propagateNextLoop true_literal order rest st1).2).2.slacks_, IsInt64 s) ∧
        (∀ c ∈ ((l, update1) :: (propagateNextLoop true_literal order rest st1).1,
            (propagateNextLoop true_literal order rest st1).2).2.constraints_,
          -1 ≤ c.index_) ∧
        ((l, update1) :: (propagateNextLoop true_literal order rest st1).1,
            (propagateNextLoop true_literal order rest st1).2).2.constraints_.length =
          st.constraints_.length ∧
        ∀ (k : Nat) (c c1 : UpperBoundedLinearConstraint), st.constraints_[k]? = some c →
          ((l, update1) :: (propagateNextLoop true_literal order rest st1).1,
            (propagateNextLoop true_literal order rest st1).2).2.constraints_[k]? = some c1 →
          c1.index_ ≤ c.index_ ∧
          (c1.index_ ≠ c.index_ →
            ∃ e ∈ ((l, update1) :: (propagateNextLoop true_literal order rest st1).1,
              (propagateNextLoop true_literal order rest st1).2).1,
            e.2.index = k ∧ e.2.need_untrail_inspection = true ∧ e.1 = true_literal) := by
      intro st1 update1 hi1 hc1 hf1 hs1 hcs1 hlen1 hrel
      obtain ⟨r1, r2, r3, r4, r5⟩ := propagateNextLoop_cursors true_literal order rest st1 hs1 hcs1
      refine ⟨List.Forall₂.cons ⟨rfl, hi1, hc1, hf1⟩ r1, r2, r3, r4.trans hlen1, ?_⟩
      intro k c c2 hk hk2
      dsimp only at hk2 ⊢
      have hklt : k < st1.constraints_.length := by
        rw [hlen1]
        exact (List.getElem?_eq_some_iff.1 hk).1
      obtain ⟨q1, q2⟩ := hrel k c _ hk (List.getElem?_eq_getElem hklt)
      obtain ⟨q3, q4⟩ := r5 k _ c2 (List.getElem?_eq_getElem hklt) hk2
      refine ⟨le_trans q3 q1, ?_⟩
      intro hne
      by_cases h21 : c2.index_ = (st1.constraints_[k]).index_
      · rw [h21] at hne
        obtain ⟨a1, a2, a3⟩ := q2 hne
        exact ⟨(l, update1), List.mem_cons_self _ _, a1, a2, a3⟩
      · obtain ⟨e, he, a1, a2, a3⟩ := q4 h21
        exact ⟨e, List.mem_cons_of_mem _ he, a1, a2, a3⟩
    have hsame : ∀ (k : Nat) (c c1 : UpperBoundedLinearConstraint),
        st.constraints_[k]? = some c → st.constraints_[k]? = some c1 → c1.index_ ≤ c.index_ ∧
        (c1.index_ ≠ c.index_ → update.index = k ∧
          update.need_untrail_inspection = true ∧ l = true_literal) := by
      intro k c c1 h1 h2
      rw [h1] at h2
      cases h2
      exact ⟨le_refl _, fun h => absurd rfl h⟩
    unfold propagateNextLoop
    by_cases hl : l ≠ true_literal
    · rw [if_pos hl]
      exact key st update rfl rfl (fun h => absurd rfl h) hs hc rfl hsame
    · rw [if_neg hl]
      have hl2 : l = true_literal := by
        by_contra hne
        exact hl hne
      dsimp only
      have hs1 : ∀ s ∈ st.slacks_.set update.index
          (sub64 (st.slacks_.getD update.index 0) update.coefficient), IsInt64 s :=
        IsInt64_of_mem_set _ _ _ hs (IsInt64_wrap64 _)
      by_cases hcond : sub64 (st.slacks_.getD update.index 0) update.coefficient < 0 ∧
          st.conflict = false
      · rw [if_pos hcond]
        have p1 := fun c : UpperBoundedLinearConstraint => Propagate_index_le c update.index
          order (sub64 (st.slacks_.getD update.index 0) update.coefficient) st.trail
        have p0 := fun c : UpperBoundedLinearConstraint => Propagate_index_ge c update.index
          order (sub64 (st.slacks_.getD update.index 0) update.coefficient) st.trail
        have p2 := fun c : UpperBoundedLinearConstraint => Propagate_slack_range c update.index
          order (sub64 (st.slacks_.getD update.index 0) update.coefficient) st.trail
          (IsInt64_wrap64 _)
        refine key _ { update with need_untrail_inspection := true } rfl rfl (fun _ => ⟨hl2, rfl⟩)
          ?_ ?_ ?_ ?_
        · exact IsInt64_of_mem_set _ _ _ hs1 (p2 _)
        · intro c hcm
          rcases List.mem_or_eq_of_mem_set hcm with h | h
          · exact hc c h
          · rw [h]
            exact p0 _
        · simp
        · intro k c c1 hk hk1
          dsimp only at hk1 ⊢
          by_cases hki : update.index = k
          · have hklt := (List.getElem?_eq_some_iff.1 hk).1
            rw [List.getElem?_set, if_pos hki, if_pos (by omega)] at hk1
            have hk2 := (Option.some.inj hk1).symm
            have hk3 := hk
            rw [← hki] at hk3
            rw [getD_of_getElem? _ _ _ c hk3] at hk2
            rw [hk2]
            refine ⟨(p1 c (hc c (List.mem_iff_getElem?.2 ⟨k, hk⟩))).2, ?_⟩
            intro _
            exact ⟨hki, rfl, hl2⟩
          · rw [List.getElem?_set, if_neg hki] at hk1
            rw [hk] at hk1
            cases hk1
            exact ⟨le_refl _, fun h => absurd rfl h⟩
      · rw [if_neg hcond]
        exact key _ update rfl rfl (fun h => absurd rfl h) hs1 hc rfl hsame

theorem EntriesAgree_refl (p : Literal × ConstraintIndexWithCoeff →
    Literal × ConstraintIndexWithCoeff → Prop) (hp : ∀ a, p a a) :
    ∀ entries : List (Literal × ConstraintIndexWithCoeff), EntriesAgree p entries entries
  | [] => List.Forall₂.nil
  | _ :: rest => List.Forall₂.cons ⟨rfl, rfl, rfl, hp _⟩ (EntriesAgree_refl p hp rest)

/-- Two changes of flags in a row are a change of flags. -/
theorem EntriesAgree_trans (p q r : Literal × ConstraintIndexWithCoeff →
    Literal × ConstraintIndexWithCoeff → Prop)
    (hr : ∀ a b c : Literal × ConstraintIndexWithCoeff, b.1 = a.1 → c.1 = b.1 →
      b.2.index = a.2.index → c.2.index = b.2.index → p a b → q b c → r a c) :
    ∀ (l0 l1 l2 : List (Literal × ConstraintIndexWithCoeff)),
    EntriesAgree p l0 l1 → EntriesAgree q l1 l2 → EntriesAgree r l0 l2
  | _, _, _, List.Forall₂.nil, List.Forall₂.nil => List.Forall₂.nil
  | _, _, _, List.Forall₂.cons h1 t1, List.Forall₂.cons h2 t2 =>
    List.Forall₂.cons
      ⟨h2.1.trans h1.1, h2.2.1.trans h1.2.1, h2.2.2.1.trans h1.2.2.1,
        hr _ _ _ h1.1 h2.1 h1.2.1 h2.2.1 h1.2.2.2 h2.2.2.2⟩
      (EntriesAgree_trans p q r hr _ _ _ t1 t2)

/-- What holds of the entries of the first list can be added to the relation. -/
theorem EntriesAgree_and_left (p : Literal × ConstraintIndexWithCoeff →
    Literal × ConstraintIndexWithCoeff → Prop) (P : Literal × ConstraintIndexWithCoeff → Prop) :
    ∀ (l0 l1 : List (Literal × ConstraintIndexWithCoeff)), EntriesAgree p l0 l1 →
    (∀ a ∈ l0, P a) → EntriesAgree (fun a b => p a b ∧ P a) l0 l1
  | _, _, List.Forall₂.nil, _ => List.Forall₂.nil
  | _, _, List.Forall₂.cons h1 t1, hP =>
    List.Forall₂.cons ⟨h1.1, h1.2.1, h1.2.2.1, h1.2.2.2, hP _ (List.mem_cons_self _ _)⟩
      (EntriesAgree_and_left p P _ _ t1 (fun a ha => hP a (List.mem_cons_of_mem _ ha)))

/-- An entry of the first of two lists that agree has its counterpart in the
second. -/
theorem EntriesAgree_mem (p : Literal × ConstraintIndexWithCoeff →
    Literal × ConstraintIndexWithCoeff → Prop) :
    ∀ (l0 l1 : List (Literal × ConstraintIndexWithCoeff)), EntriesAgree p l0 l1 →
    ∀ a ∈ l0, ∃ b ∈ l1, b.1 = a.1 ∧ b.2.index = a.2.index ∧
      b.2.coefficient = a.2.coefficient ∧ p a b
  | _, _, List.Forall₂.nil, a, ha => by cases ha
  | _, _, List.Forall₂.cons h1 t1, a, ha => by
    rcases List.mem_cons.1 ha with h | h
    · subst h
      exact ⟨_, List.mem_cons_self _ _, h1⟩
    · obtain ⟨b, hb, hab⟩ := EntriesAgree_mem p _ _ t1 a h
      exact ⟨b, List.mem_cons_of_mem _ hb, hab⟩

/-- Two lists of entries that agree and have the same flags are equal. -/
theorem EntriesAgree_eq : ∀ (l0 l1 : List (Literal × ConstraintIndexWithCoeff)),
    EntriesAgree (fun a b => b.2.need_untrail_inspection = a.2.need_untrail_inspection)
      l0 l1 → l1 = l0
  | _, _, List.Forall₂.nil => rfl
  | (l, a) :: _, (l1, b) :: _, List.Forall₂.cons h1 t1 => by
    rw [EntriesAgree_eq _ _ t1]
    obtain ⟨e1, e2, e3, e5⟩ := h1
    dsimp only at e1 e2 e3 e5
    cases a
    cases b
    dsimp only at e2 e3 e5
    rw [e1, e2, e3, e5]

theorem Trail.get_of_append (trail trail1 : Trail) (new : List TrailEntry)
    (h : trail1.entries = trail.entries ++ new) (j : Nat) (hj : j < trail.Index) :
    trail1.get j = trail.get j := by
  unfold Trail.get
  rw [List.get?_eq_getElem?, List.get?_eq_getElem?, h, List.getElem?_append_left hj]

theorem Trail.Active_of_append (trail trail1 : Trail) (new : List TrailEntry)
    (h : trail1.entries = trail.entries ++ new) (low high high1 : Nat)
    (hh : high ≤ trail.Index) (hh1 : high ≤ high1) (literal : Literal)
    (ha : trail.Active low high literal) : trail1.Active low high1 literal := by
  obtain ⟨j, h1, h2, h3⟩ := ha
  exact ⟨j, h1, by omega, by rw [Trail.get_of_append trail trail1 new h j (by omega)]; exact h3⟩

/-- What `PropagateNext` keeps: the frames of the constraints; the trail grows at
its end and the cursor of the store moves by one. -/
theorem PropagateNext_frames (trail : Trail) (pb : PbConstraints)
    (h : SlackInvariant trail pb) (hneed : pb.PropagationNeeded trail = true) :
    (pb.PropagateNext trail).2.1.constraints_.map constraintFrame =
      pb.constraints_.map constraintFrame ∧
    (∃ new : List TrailEntry, (pb.PropagateNext trail).2.2.entries = trail.entries ++ new) ∧
    (pb.PropagateNext trail).2.1.propagation_trail_index_ =
      pb.propagation_trail_index_ + 1 := by
  have hlt : pb.propagation_trail_index_ < trail.Index := by
    simpa [PbConstraints.PropagationNeeded] using hneed
  have hinit : PendingInvariant (trail.get pb.propagation_trail_index_)
      (pb.propagation_trail_index_ + 1) pb.to_update_
      { constraints_ := pb.constraints_, slacks_ := pb.slacks_, trail := trail,
        conflict_scratchpad_ := pb.conflict_scratchpad_,
        num_constraint_lookups_ := pb.num_constraint_lookups_, conflict := false } := by
    refine ⟨h.nodup, hlt, h.slacks_length, h.updates_range, ?_⟩
    intro k c hk
    dsimp only at hk ⊢
    rw [h.slack k c hk, h.updates k c hk,
      currentRhs_succ c trail h.nodup _ hlt]
    congr 1
    omega
  obtain ⟨-, r6, r7, -, -⟩ := propagateNextLoop_spec
    (trail.get pb.propagation_trail_index_) pb.propagation_trail_index_ pb.to_update_ _ hinit
  exact ⟨r6, r7, rfl⟩

/-- What relates a store to the one it comes from is kept by a call of
`PropagateNext`. -/
theorem CursorsSince_PropagateNext (pb0 : PbConstraints) (trail : Trail) (pb : PbConstraints)
    (hinv : SlackInvariant trail pb) (h : CursorsSince pb0 trail pb [])
    (hneed : pb.PropagationNeeded trail = true) :
    CursorsSince pb0 (pb.PropagateNext trail).2.2 (pb.PropagateNext trail).2.1 [] := by
  have hlt : pb.propagation_trail_index_ < trail.Index := by
    simpa [PbConstraints.PropagationNeeded] using hneed
  obtain ⟨f1, ⟨new, f2⟩, f3⟩ := PropagateNext_frames trail pb hinv hneed
  have hge : ∀ c ∈ pb.constraints_, -1 ≤ c.index_ := by
    intro c hc
    obtain ⟨k, hk⟩ := List.mem_iff_getElem?.1 hc
    have hklt : k < pb0.constraints_.length := by
      rw [← frames_length h.frames]
      exact (List.getElem?_eq_some_iff.1 hk).1
    exact (h.cursors k _ c (List.getElem?_eq_getElem hklt) hk).1
  obtain ⟨r1, r2, r3, r4, r5⟩ := propagateNextLoop_cursors
    (trail.get pb.propagation_trail_index_) pb.propagation_trail_index_ pb.to_update_
    { constraints_ := pb.constraints_, slacks_ := pb.slacks_, trail := trail,
      conflict_scratchpad_ := pb.conflict_scratchpad_,
      num_constraint_lookups_ := pb.num_constraint_lookups_, conflict := false }
    h.slack_range hge
  have g1 : (pb.PropagateNext trail).2.1.to_update_ = (propagateNextLoop
      (trail.get pb.propagation_trail_index_) pb.propagation_trail_index_ pb.to_update_
      { constraints_ := pb.constraints_, slacks_ := pb.slacks_, trail := trail,
        conflict_scratchpad_ := pb.conflict_scratchpad_,
        num_constraint_lookups_ := pb.num_constraint_lookups_, conflict := false }).1 := rfl
  have g2 : (pb.PropagateNext trail).2.1.constraints_ = (propagateNextLoop
      (trail.get pb.propagation_trail_index_) pb.propagation_trail_index_ pb.to_update_
      { constraints_ := pb.constraints_, slacks_ := pb.slacks_, trail := trail,
        conflict_scratchpad_ := pb.conflict_scratchpad_,
        num_constraint_lookups_ := pb.num_constraint_lookups_, conflict := false }).2.constraints_ :=
    rfl
  have g3 : (pb.PropagateNext trail).2.1.slacks_ = (propagateNextLoop
      (trail.get pb.propagation_trail_index_) pb.propagation_trail_index_ pb.to_update_
      { constraints_ := pb.constraints_, slacks_ := pb.slacks_, trail := trail,
        conflict_scratchpad_ := pb.conflict_scratchpad_,
        num_constraint_lookups_ := pb.num_constraint_lookups_, conflict := false }).2.slacks_ :=
    rfl
  rw [← g1] at r1 r5
  rw [← g2] at r3 r4 r5
  rw [← g3] at r2
  dsimp only at r4 r5
  generalize (pb.PropagateNext trail).2.1 = pb1 at f1 f3 r1 r2 r3 r4 r5 ⊢
  generalize (pb.PropagateNext trail).2.2 = trail1 at f2 ⊢
  have hactive : ∀ literal, trail.Active pb0.propagation_trail_index_
      pb.propagation_trail_index_ literal →
      trail1.Active pb0.propagation_trail_index_ pb1.propagation_trail_index_ literal := by
    intro literal ha
    exact Trail.Active_of_append trail trail1 new f2 _ _ _ (by omega) (by omega) literal ha
  have hnew : trail1.Active pb0.propagation_trail_index_ pb1.propagation_trail_index_
      (trail.get pb.propagation_trail_index_) :=
    ⟨pb.propagation_trail_index_, h.index_ge, by omega,
      Trail.get_of_append trail trail1 new f2 _ hlt⟩
  refine ⟨?_, ?_, f1.trans h.frames, ?_, r2⟩
  · have := h.index_ge
    omega
  · refine EntriesAgree_trans _ _ _ ?_ _ _ _ h.entries r1
    intro a b c hab hbc _ _ hp hq hne
    by_cases hba : b.2.need_untrail_inspection = a.2.need_untrail_inspection
    · have hcb : c.2.need_untrail_inspection ≠ b.2.need_untrail_inspection := by
        rw [hba]
        exact hne
      rw [← hab, (hq hcb).1]
      exact hnew
    · exact hactive _ (hp hba)
  · intro k c0 c1 hk0 hk1
    have hklt : k < pb.constraints_.length := by
      rw [frames_length h.frames]
      exact (List.getElem?_eq_some_iff.1 hk0).1
    obtain ⟨q1, q2, q3⟩ := h.cursors k c0 _ hk0 (List.getElem?_eq_getElem hklt)
    obtain ⟨q4, q5⟩ := r5 k _ c1 (List.getElem?_eq_getElem hklt) hk1
    refine ⟨r3 c1 (List.mem_iff_getElem?.2 ⟨k, hk1⟩), le_trans q4 q2, ?_⟩
    intro hne
    right
    by_cases h10 : c1.index_ = (pb.constraints_[k]).index_
    · rw [h10] at hne
      rcases q3 hne with hmem | ⟨e, he, e1, e2, e3⟩
      · cases hmem
      · obtain ⟨b, hb, b1, b2, -, b4⟩ := EntriesAgree_mem _ _ _ r1 e he
        refine ⟨b, hb, b2.trans e1, ?_, ?_⟩
        · by_contra hbf
          have : b.2.need_untrail_inspection ≠ e.2.need_untrail_inspection := by
            rw [e2]
            exact hbf
          exact hbf (b4 this).2
        · rw [b1]
          exact hactive _ e3
    · obtain ⟨e, he, e1, e2, e3⟩ := q5 h10
      refine ⟨e, he, e1, e2, ?_⟩
      rw [e3]
      exact hnew

/-- The inner loop of `Untrail` for one literal clears the flags of the entries of
the literal and leaves the other entries alone, keeps the slacks in 64 bits,
and collects in `to_untrail` the constraints of the flagged entries of the
literal. -/
theorem untrailLiteral_cursors (literal : Literal) :
    ∀ (entries : List (Literal × ConstraintIndexWithCoeff)) (slacks : List Int)
      (to_untrail : List Nat), (∀ s ∈ slacks, IsInt64 s) →
    EntriesAgree (fun a b => if a.1 = literal then b.2.need_untrail_inspection = false
      else b.2.need_untrail_inspection = a.2.need_untrail_inspection) entries
      (untrailLiteral literal entries slacks to_untrail).1 ∧
    (∀ s ∈ (untrailLiteral literal entries slacks to_untrail).2.1, IsInt64 s) ∧
    (∀ k ∈ to_untrail, k ∈ (untrailLiteral literal entries slacks to_untrail).2.2) ∧
    (∀ e ∈ entries, e.1 = literal → e.2.need_untrail_inspection = true →
      e.2.index ∈ (untrailLiteral literal entries slacks to_untrail).2.2)
  | [], slacks, to_untrail, hs => by
    unfold untrailLiteral
    exact ⟨List.Forall₂.nil, hs, fun k hk => hk, fun e he => by cases he⟩
  | (l, update) :: rest, slacks, to_untrail, hs => by
    unfold untrailLiteral
    by_cases hl : l ≠ literal
    · rw [if_pos hl]
      obtain ⟨r1, r2, r3, r4⟩ := untrailLiteral_cursors literal rest slacks to_untrail hs
      refine ⟨List.Forall₂.cons ⟨rfl, rfl, rfl, ?_⟩ r1, r2, r3, ?_⟩
      · dsimp only
        rw [if_neg hl]
      · intro e he h1 h2
        rcases List.mem_cons.1 he with h | h
        · subst h
          exact absurd h1 hl
        · exact r4 e h h1 h2
    · rw [if_neg hl]
      have hl2 : l = literal := by
        by_contra hne
        exact hl hne
      dsimp only
      have hs1 : ∀ s ∈ slacks.set update.index
          (add64 (slacks.getD update.index 0) update.coefficient), IsInt64 s :=
        IsInt64_of_mem_set _ _ _ hs (IsInt64_wrap64 _)
      by_cases hf : update.need_untrail_inspection = true
      · rw [if_pos hf]
        obtain ⟨r1, r2, r3, r4⟩ := untrailLiteral_cursors literal rest
          (slacks.set update.index (add64 (slacks.getD update.index 0) update.coefficient))
          (if update.index ∈ to_untrail then to_untrail else to_untrail ++ [update.index]) hs1
        have hin : update.index ∈
            (if update.index ∈ to_untrail then to_untrail else to_untrail ++ [update.index]) := by
          split
          · assumption
          · simp
        have hsub : ∀ k ∈ to_untrail, k ∈
            (if update.index ∈ to_untrail then to_untrail else to_untrail ++ [update.index]) := by
          intro k hk
          split
          · exact hk
          · exact List.mem_append_left _ hk
        refine ⟨List.Forall₂.cons ⟨rfl, rfl, rfl, ?_⟩ r1, r2, fun k hk => r3 k (hsub k hk), ?_⟩
        · dsimp only
          rw [if_pos hl2]
        · intro e he h1 h2
          rcases List.mem_cons.1 he with h | h
          · subst h
            exact r3 _ hin
          · exact r4 e h h1 h2
      · rw [if_neg hf]
        obtain ⟨r1, r2, r3, r4⟩ := untrailLiteral_cursors literal rest
          (slacks.set update.index (add64 (slacks.getD update.index 0) update.coefficient))
          to_untrail hs1
        refine ⟨List.Forall₂.cons ⟨rfl, rfl, rfl, ?_⟩ r1, r2, r3, ?_⟩
        · dsimp only
          rw [if_pos hl2]
          simpa using hf
        · intro e he h1 h2
          rcases List.mem_cons.1 he with h | h
          · subst h
            exact absurd h2 hf
          · exact r4 e h h1 h2

theorem Trail.Active_pred (trail : Trail) (low high : Nat) (literal : Literal)
    (h : trail.Active low high literal) (hne : literal ≠ trail.get (high - 1)) :
    trail.Active low (high - 1) literal := by
  obtain ⟨j, h1, h2, h3⟩ := h
  refine ⟨j, h1, ?_, h3⟩
  by_contra hj
  have : j = high - 1 := by omega
  rw [this] at h3
  exact hne h3.symm

/-- What relates a store to the one it comes from is kept by the `while` loop of
`Untrail`, when the flagged entries of the store it comes from are not of
literals on the trail from its cursor on. -/
theorem untrailLoop_cursors (pb0 : PbConstraints) (trail : Trail)
    (hclean : ∀ e ∈ pb0.to_update_, e.2.need_untrail_inspection = true →
      ¬ trail.Active pb0.propagation_trail_index_ trail.Index e.1) :
    ∀ (count : Nat) (pb : PbConstraints) (to_untrail : List Nat),
    CursorsSince pb0 trail pb to_untrail → pb.propagation_trail_index_ ≤ trail.Index →
    count ≤ pb.propagation_trail_index_ - pb0.propagation_trail_index_ →
    CursorsSince pb0 trail (untrailLoop trail count pb to_untrail).1
      (untrailLoop trail count pb to_untrail).2
  | 0, pb, to_untrail, h, _, _ => by
    unfold untrailLoop
    exact h
  | count + 1, pb, to_untrail, h, hle, hc => by
    unfold untrailLoop
    dsimp only
    obtain ⟨r1, r2, r3, r4⟩ := untrailLiteral_cursors
      (trail.get (pb.propagation_trail_index_ - 1)) pb.to_update_ pb.slacks_ to_untrail
      h.slack_range
    generalize untrailLiteral (trail.get (pb.propagation_trail_index_ - 1)) pb.to_update_
      pb.slacks_ to_untrail = r at r1 r2 r3 r4
    obtain ⟨to_update, slacks, to_untrail1⟩ := r
    dsimp only at r1 r2 r3 r4 ⊢
    have hge := h.index_ge
    have hact : trail.Active pb0.propagation_trail_index_ trail.Index
        (trail.get (pb.propagation_trail_index_ - 1)) :=
      ⟨pb.propagation_trail_index_ - 1, by omega, by omega, rfl⟩
    apply untrailLoop_cursors pb0 trail hclean count
    · refine ⟨?_, ?_, h.frames, ?_, r2⟩
      · dsimp only
        omega
      · dsimp only
        refine EntriesAgree_trans _ _ _ ?_ _ _ _
          (EntriesAgree_and_left _ _ _ _ h.entries hclean) r1
        intro a b c hab hbc _ _ hp hq hne
        by_cases hbt : b.1 = trail.get (pb.propagation_trail_index_ - 1)
        · exfalso
          rw [if_pos hbt] at hq
          have haf : a.2.need_untrail_inspection = true := by
            rw [hq] at hne
            cases hf : a.2.need_untrail_inspection
            · exact absurd hf.symm hne
            · rfl
          apply hp.2 haf
          rw [← hab, hbt]
          exact hact
        · rw [if_neg hbt] at hq
          rw [hq] at hne
          exact Trail.Active_pred trail _ _ _ (hp.1 hne) (by rw [← hab]; exact hbt)
      · intro k c0 c hk0 hk
        dsimp only at hk ⊢
        obtain ⟨q1, q2, q3⟩ := h.cursors k c0 c hk0 hk
        refine ⟨q1, q2, ?_⟩
        intro hne
        rcases q3 hne with hmem | ⟨e, he, e1, e2, e3⟩
        · exact Or.inl (r3 k hmem)
        · by_cases het : e.1 = trail.get (pb.propagation_trail_index_ - 1)
          · left
            rw [← e1]
            exact r4 e he het e2
          · right
            obtain ⟨b, hb, b1, b2, -, b4⟩ := EntriesAgree_mem _ _ _ r1 e he
            rw [if_neg het] at b4
            refine ⟨b, hb, b2.trans e1, b4.trans e2, ?_⟩
            rw [b1]
            exact Trail.Active_pred trail _ _ _ e3 het
    · dsimp only
      omega
    · dsimp only
      omega

/-- One inspection of a constraint by `Untrail`, on a store whose cursors are at
most the settled cursors of the store `pb0`: the cursor of the constraint is
put back on the one of `pb0`, and the other constraints are kept. -/
theorem untrailInspect_step (pb0 : PbConstraints) (trail : Trail)
    (hcr : ∀ (k : Nat) (c0 : UpperBoundedLinearConstraint), pb0.constraints_[k]? = some c0 →
      c0.CursorSettled (wrap64 (c0.currentRhs trail pb0.propagation_trail_index_)) ∧
      c0.WellFormed)
    (p : PbConstraints) (cst_index : Nat) (hp : SlackInvariant trail p)
    (hpti : p.propagation_trail_index_ = pb0.propagation_trail_index_)
    (hframes : p.constraints_.map constraintFrame = pb0.constraints_.map constraintFrame)
    (hidx : ∀ (k : Nat) (c0 c : UpperBoundedLinearConstraint), pb0.constraints_[k]? = some c0 →
      p.constraints_[k]? = some c → c.index_ ≤ c0.index_)
    (hrange : ∀ s ∈ p.slacks_, IsInt64 s) (p1 : PbConstraints)
    (hp1 : p1 = { p with
      constraints_ := p.constraints_.set cst_index ((p.constraints_.getD cst_index
        (UpperBoundedLinearConstraint.Create [] none)).Untrail (p.slacks_.getD cst_index 0)).1,
      slacks_ := p.slacks_.set cst_index ((p.constraints_.getD cst_index
        (UpperBoundedLinearConstraint.Create [] none)).Untrail
          (p.slacks_.getD cst_index 0)).2 }) :
    p1.propagation_trail_index_ = pb0.propagation_trail_index_ ∧
    p1.constraints_.map constraintFrame = pb0.constraints_.map constraintFrame ∧
    (∀ (k : Nat) (c0 c : UpperBoundedLinearConstraint), pb0.constraints_[k]? = some c0 →
      p1.constraints_[k]? = some c →
      c.index_ ≤ c0.index_ ∧ (k = cst_index → c.index_ = c0.index_) ∧
      (k ≠ cst_index → p.constraints_[k]? = some c)) ∧
    (∀ s ∈ p1.slacks_, IsInt64 s) ∧ p1.to_update_ = p.to_update_ := by
  subst hp1
  refine ⟨hpti, ?_, ?_, ?_, rfl⟩
  · dsimp only
    rw [← hframes]
    by_cases hk : cst_index < p.constraints_.length
    · have hc : p.constraints_[cst_index]? = some (p.constraints_[cst_index]) :=
        List.getElem?_eq_getElem hk
      rw [getD_of_getElem? _ _ _ _ hc]
      apply frames_set _ _ _ _ hc
      have hcr1 : IsInt64 ((p.constraints_[cst_index]).GetCurrentRhsFromSlack
          (p.slacks_.getD cst_index 0)) := by
        rw [hp.slack _ _ hc]
        exact IsInt64_wrap64 _
      obtain ⟨a1, a2, a3, a4, -, -⟩ := constraint_Untrail_spec (p.constraints_[cst_index])
        (p.slacks_.getD cst_index 0) hcr1
      unfold constraintFrame
      rw [a1, a2, a3, a4]
    · rw [List.set_eq_of_length_le (by omega)]
  · intro k c0 c hk0 hk
    dsimp only at hk
    by_cases hki : cst_index = k
    · have hklt : k < p.constraints_.length := by
        rw [frames_length hframes]
        exact (List.getElem?_eq_some_iff.1 hk0).1
      have hc : p.constraints_[cst_index]? = some (p.constraints_[k]) := by
        rw [hki]
        exact List.getElem?_eq_getElem hklt
      rw [List.getElem?_set, if_pos hki, if_pos (by omega), getD_of_getElem? _ _ _ _ hc] at hk
      have hk2 := (Option.some.inj hk).symm
      have hck : p.constraints_[k]? = some (p.constraints_[k]) := List.getElem?_eq_getElem hklt
      obtain ⟨c0', hc0', hf⟩ := frames_getElem? hframes k _ hck
      rw [hk0] at hc0'
      cases hc0'
      have hget : (p.constraints_[k]).GetCurrentRhsFromSlack (p.slacks_.getD cst_index 0) =
          wrap64 (c0.currentRhs trail pb0.propagation_trail_index_) := by
        rw [hki, hp.slack k _ hck, hpti, constraintFrame_currentRhs hf]
      have := constraint_Untrail_index (p.constraints_[k]) c0 (p.slacks_.getD cst_index 0)
        (constraintFrame_eq hf).2.1 (hcr k c0 hk0).2 (hidx k c0 _ hk0 hck)
        (by rw [hget]; exact (hcr k c0 hk0).1)
      rw [hk2, this]
      exact ⟨le_refl _, fun _ => rfl, fun h => absurd hki.symm h⟩
    · rw [List.getElem?_set, if_neg hki] at hk
      exact ⟨hidx k c0 c hk0 hk, fun h => absurd h.symm hki, fun _ => hk⟩
  · exact IsInt64_of_mem_set _ _ _ hrange
      (constraint_Untrail_slack_range _ _ (IsInt64_getD _ _ hrange))

/-- The inspection of the constraints by `Untrail`, on a store whose cursors are
at most the settled cursors of the store `pb0`: the cursors of the inspected
constraints are put back on the ones of `pb0`, and the other constraints are
kept. -/
theorem untrailInspect_cursors (pb0 : PbConstraints) (trail : Trail)
    (hcr : ∀ (k : Nat) (c0 : UpperBoundedLinearConstraint), pb0.constraints_[k]? = some c0 →
      c0.CursorSettled (wrap64 (c0.currentRhs trail pb0.propagation_trail_index_)) ∧
      c0.WellFormed) :
    ∀ (to_untrail : List Nat) (p : PbConstraints), SlackInvariant trail p →
    p.propagation_trail_index_ = pb0.propagation_trail_index_ →
    p.constraints_.map constraintFrame = pb0.constraints_.map constraintFrame →
    (∀ (k : Nat) (c0 c : UpperBoundedLinearConstraint), pb0.constraints_[k]? = some c0 →
      p.constraints_[k]? = some c → c.index_ ≤ c0.index_) →
    (∀ s ∈ p.slacks_, IsInt64 s) →
    (to_untrail.foldl
      (fun (p : PbConstraints) cst_index =>
        match (p.constraints_.getD cst_index
            (UpperBoundedLinearConstraint.Create [] none)).Untrail (p.slacks_.getD cst_index 0) with
        | (c, slack) =>
          { p with constraints_ := p.constraints_.set cst_index c,
                   slacks_ := p.slacks_.set cst_index slack })
      p).to_update_ = p.to_update_ ∧
    (to_untrail.foldl
      (fun (p : PbConstraints) cst_index =>
        match (p.constraints_.getD cst_index
            (UpperBoundedLinearConstraint.Create [] none)).Untrail (p.slacks_.getD cst_index 0) with
        | (c, slack) =>
          { p with constraints_ := p.constraints_.set cst_index c,
                   slacks_ := p.slacks_.set cst_index slack })
      p).constraints_.map constraintFrame =
      pb0.constraints_.map constraintFrame ∧
    (∀ s ∈ (to_untrail.foldl
      (fun (p : PbConstraints) cst_index =>
        match (p.constraints_.getD cst_index
            (UpperBoundedLinearConstraint.Create [] none)).Untrail (p.slacks_.getD cst_index 0) with
        | (c, slack) =>
          { p with constraints_ := p.constraints_.set cst_index c,
                   slacks_ := p.slacks_.set cst_index slack })
      p).slacks_, IsInt64 s) ∧
    ∀ (k : Nat) (c0 c : UpperBoundedLinearConstraint), pb0.constraints_[k]? = some c0 →
      (to_untrail.foldl
        (fun (p : PbConstraints) cst_index =>
          match (p.constraints_.getD cst_index
              (UpperBoundedLinearConstraint.Create [] none)).Untrail
              (p.slacks_.getD cst_index 0) with
          | (c, slack) =>
            { p with constraints_ := p.constraints_.set cst_index c,
                     slacks_ := p.slacks_.set cst_index slack })
        p).constraints_[k]? = some c →
      (k ∈ to_untrail → c.index_ = c0.index_) ∧
      (k ∉ to_untrail → p.constraints_[k]? = some c)
  | [], p, _, _, hframes, _, hrange => by
    refine ⟨rfl, hframes, hrange, ?_⟩
    intro k c0 c _ hk
    exact ⟨fun h => absurd h (List.not_mem_nil k), fun _ => hk⟩
  | cst_index :: rest, p, hp, hpti, hframes, hidx, hrange => by
    rw [List.foldl_cons]
    have hp1 := (untrailInspect_spec trail [cst_index] p hp).1
    rw [List.foldl_cons, List.foldl_nil] at hp1
    obtain ⟨s1, s2, s3, s4, s5⟩ := untrailInspect_step pb0 trail hcr p cst_index hp hpti
      hframes hidx hrange _ rfl
    obtain ⟨r1, r0, r2, r3⟩ := untrailInspect_cursors pb0 trail hcr rest _ hp1 s1 s2
      (fun k c0 c h0 h => (s3 k c0 c h0 h).1) s4
    refine ⟨r1.trans s5, r0, r2, ?_⟩
    intro k c0 c hk0 hk
    obtain ⟨q1, q2⟩ := r3 k c0 c hk0 hk
    constructor
    · intro hmem
      by_cases hr : k ∈ rest
      · exact q1 hr
      · have hkc : k = cst_index := by
          rcases List.mem_cons.1 hmem with h | h
          · exact h
          · exact absurd h hr
        exact (s3 k c0 c hk0 (q2 hr)).2.1 hkc
    · intro hnot
      have hr : k ∉ rest := fun h => hnot (List.mem_cons_of_mem _ h)
      have hne : k ≠ cst_index := fun h => hnot (by rw [h]; exact List.mem_cons_self _ _)
      exact (s3 k c0 c hk0 (q2 hr)).2.2 hne

/-- After any number of calls of `PropagateNext` the invariant of the store holds,
the store is related to the one the calls started from, and the trail has
grown at its end. -/
theorem CursorsSince_of_calls (a b : Trail × PbConstraints) (hcalls : PropagateNextCalls a b)
    (hinv : SlackInvariant a.1 a.2) (hsettled : Settled a.1 a.2) :
    SlackInvariant b.1 b.2 ∧ CursorsSince a.2 b.1 b.2 [] ∧
    ∃ new : List TrailEntry, b.1.entries = a.1.entries ++ new := by
  induction hcalls with
  | refl =>
    refine ⟨hinv, ⟨le_refl _, EntriesAgree_refl _ (fun _ h => absurd rfl h) _, rfl, ?_,
      hsettled.slack_range⟩, [], by simp⟩
    intro k c0 c hk0 hk
    rw [hk0] at hk
    cases hk
    exact ⟨(hsettled.cursors k c0 hk0).1, le_refl _, fun h => absurd rfl h⟩
  | step trail pb _ hneed ih =>
    obtain ⟨i1, i2, new, i3⟩ := ih
    obtain ⟨-, ⟨new1, f2⟩, -⟩ := PropagateNext_frames trail pb i1 hneed
    refine ⟨SlackInvariant_PropagateNext trail pb i1 hneed,
      CursorsSince_PropagateNext a.2 trail pb i1 i2 hneed, new ++ new1, ?_⟩
    dsimp only at i3 ⊢
    rw [f2, i3, List.append_assoc]

/-- Two slacks of 64 bits that stand for the same current right hand side of two
constraints with the same coefficients and cursor are equal. -/
theorem slack_eq_of_GetCurrentRhsFromSlack (c c0 : UpperBoundedLinearConstraint)
    (slack slack0 : Int) (hcoeffs : c.coeffs_ = c0.coeffs_) (hindex : c.index_ = c0.index_)
    (h1 : IsInt64 slack) (h0 : IsInt64 slack0)
    (h : c.GetCurrentRhsFromSlack slack = c0.GetCurrentRhsFromSlack slack0) :
    slack = slack0 := by
  unfold UpperBoundedLinearConstraint.GetCurrentRhsFromSlack
    UpperBoundedLinearConstraint.coeffAtIndex at h
  rw [hcoeffs, hindex] at h
  split at h
  · exact h
  · unfold add64 wrap64 at h
    unfold IsInt64 kint64min kint64max at h1 h0
    omega

/-- From a settled store on which the invariant holds, any number of calls of
`PropagateNext` followed by `Untrail` to the cursor the calls started from
give back the cursor of the store, the slacks, the cursors of the constraints
and the entries of `to_update_` with their flags. -/
theorem Untrail_restores (trail : Trail) (pb : PbConstraints) (trail1 : Trail)
    (pb1 : PbConstraints) (hinv : SlackInvariant trail pb) (hsettled : Settled trail pb)
    (hcalls : PropagateNextCalls (trail, pb) (trail1, pb1)) :
    (pb1.Untrail trail1 pb.propagation_trail_index_).propagation_trail_index_ =
      pb.propagation_trail_index_ ∧
    (pb1.Untrail trail1 pb.propagation_trail_index_).slacks_ = pb.slacks_ ∧
    (pb1.Untrail trail1 pb.propagation_trail_index_).constraints_.map (fun c => c.index_) =
      pb.constraints_.map (fun c => c.index_) ∧
    (pb1.Untrail trail1 pb.propagation_trail_index_).to_update_ = pb.to_update_ := by
  obtain ⟨hinv1, hsince, new, hext⟩ := CursorsSince_of_calls _ _ hcalls hinv hsettled
  dsimp only at hinv1 hsince hext
  have hclean : ∀ e ∈ pb.to_update_, e.2.need_untrail_inspection = true →
      ¬ trail1.Active pb.propagation_trail_index_ trail1.Index e.1 := by
    intro e he hf
    exact Trail.not_Active_of_trueBelow trail trail1 new hext hinv1.nodup _ _ hinv.index_le
      (le_refl _) e.1 (hsettled.flags e he hf)
  have hcr : ∀ (k : Nat) (c0 : UpperBoundedLinearConstraint), pb.constraints_[k]? = some c0 →
      c0.CursorSettled (wrap64 (c0.currentRhs trail1 pb.propagation_trail_index_)) ∧
      c0.WellFormed := by
    intro k c0 hk0
    refine ⟨?_, hinv.well_formed c0 (List.mem_iff_getElem?.2 ⟨k, hk0⟩)⟩
    rw [currentRhs_of_append c0 trail trail1 new hext hinv1.nodup _ hinv.index_le,
      ← hinv.slack k c0 hk0]
    exact hsettled.cursors k c0 hk0
  have hge := hsince.index_ge
  obtain ⟨l1, -, l3⟩ := untrailLoop_spec trail1
    (pb1.propagation_trail_index_ - pb.propagation_trail_index_) pb1 [] hinv1 (by omega)
  have l4 := untrailLoop_cursors pb trail1 hclean
    (pb1.propagation_trail_index_ - pb.propagation_trail_index_) pb1 [] hsince
    hinv1.index_le (le_refl _)
  unfold PbConstraints.Untrail
  generalize untrailLoop trail1 (pb1.propagation_trail_index_ - pb.propagation_trail_index_)
    pb1 [] = r at l1 l3 l4
  obtain ⟨p, to_untrail⟩ := r
  dsimp only at l1 l3 l4 ⊢
  have hpti : p.propagation_trail_index_ = pb.propagation_trail_index_ := by omega
  have hnone : ∀ literal, ¬ trail1.Active pb.propagation_trail_index_
      p.propagation_trail_index_ literal := by
    rintro literal ⟨j, h1, h2, -⟩
    omega
  have hentries : p.to_update_ = pb.to_update_ := by
    apply EntriesAgree_eq
    refine List.Forall₂.imp ?_ l4.entries
    intro a b hab
    refine ⟨hab.1, hab.2.1, hab.2.2.1, ?_⟩
    by_contra hne
    exact hnone _ (hab.2.2.2 hne)
  obtain ⟨m1, m2⟩ := untrailInspect_spec trail1 to_untrail p l1
  obtain ⟨n1, n2, n3, n4⟩ := untrailInspect_cursors pb trail1 hcr to_untrail p l1 hpti
    l4.frames (fun k c0 c h0 h => (l4.cursors k c0 c h0 h).2.1) l4.slack_range
  generalize to_untrail.foldl
    (fun (p : PbConstraints) cst_index =>
      match (p.constraints_.getD cst_index
          (UpperBoundedLinearConstraint.Create [] none)).Untrail (p.slacks_.getD cst_index 0) with
      | (c, slack) =>
        { p with constraints_ := p.constraints_.set cst_index c,
                 slacks_ := p.slacks_.set cst_index slack })
    p = final at m1 m2 n1 n2 n3 n4
  have hindex : ∀ (k : Nat) (c0 c : UpperBoundedLinearConstraint),
      pb.constraints_[k]? = some c0 → final.constraints_[k]? = some c →
      c.index_ = c0.index_ := by
    intro k c0 c hk0 hk
    obtain ⟨q1, q2⟩ := n4 k c0 c hk0 hk
    by_cases hmem : k ∈ to_untrail
    · exact q1 hmem
    · by_contra hne
      rcases (l4.cursors k c0 c hk0 (q2 hmem)).2.2 hne with h | ⟨e, -, -, -, e3⟩
      · exact hmem h
      · exact hnone _ e3
  have hlen : final.constraints_.length = pb.constraints_.length := frames_length n2
  refine ⟨m2.trans hpti, ?_, ?_, n1.trans hentries⟩
  · apply List.ext_getElem?
    intro k
    by_cases hk : k < pb.constraints_.length
    · have hk1 : k < final.slacks_.length := by rw [m1.slacks_length, hlen]; exact hk
      have hk0 : k < pb.slacks_.length := by rw [hinv.slacks_length]; exact hk
      rw [List.getElem?_eq_getElem hk1, List.getElem?_eq_getElem hk0]
      congr 1
      have hc0 : pb.constraints_[k]? = some (pb.constraints_[k]) := List.getElem?_eq_getElem hk
      obtain ⟨c1, hc1⟩ : ∃ c1, final.constraints_[k]? = some c1 :=
        ⟨_, List.getElem?_eq_getElem (by omega)⟩
      obtain ⟨c0, hc0', hf⟩ := frames_getElem? n2 k _ hc1
      rw [hc0] at hc0'
      cases hc0'
      have e1 := m1.slack k _ hc1
      have e0 := hinv.slack k _ hc0
      rw [m2, hpti, constraintFrame_currentRhs hf,
        currentRhs_of_append _ trail trail1 new hext hinv1.nodup _ hinv.index_le, ← e0] at e1
      have hs1 : final.slacks_.getD k 0 = final.slacks_[k] := by
        rw [List.getD_eq_getElem?_getD, List.getElem?_eq_getElem hk1]
        rfl
      have hs0 : pb.slacks_.getD k 0 = pb.slacks_[k] := by
        rw [List.getD_eq_getElem?_getD, List.getElem?_eq_getElem hk0]
        rfl
      rw [hs1, hs0] at e1
      exact slack_eq_of_GetCurrentRhsFromSlack _ _ _ _ (constraintFrame_eq hf).2.1
        (hindex k _ _ hc0 hc1) (n3 _ (List.getElem_mem _)) (hsettled.slack_range _
          (List.getElem_mem _)) e1
    · rw [List.getElem?_eq_none (by rw [m1.slacks_length, hlen]; omega),
        List.getElem?_eq_none (by rw [hinv.slacks_length]; omega)]
  · apply List.ext_getElem?
    intro k
    rw [List.getElem?_map, List.getElem?_map]
    by_cases hk : k < pb.constraints_.length
    · have hc0 : pb.constraints_[k]? = some (pb.constraints_[k]) := List.getElem?_eq_getElem hk
      obtain ⟨c1, hc1⟩ : ∃ c1, final.constraints_[k]? = some c1 :=
        ⟨_, List.getElem?_eq_getElem (by omega)⟩
      rw [hc0, hc1]
      simp only [Option.map_some']
      rw [hindex k _ _ hc0 hc1]
    · rw [List.getElem?_eq_none (by omega), List.getElem?_eq_none (by omega)]

/-- C27 (amended): from a store reached from the empty one that is settled (the
cursor `index_` of every constraint is on the last coefficient that is at most
its current right hand side, the entries flagged for inspection are of
literals true below the cursor of the store, the slacks are 64-bit values),
with `propagation_trail_index_ = i`, any number of calls of `PropagateNext`,
with or without conflict, followed by `Untrail(i)` give back
`propagation_trail_index_ = i`, the slack and the cursor `index_` of every
constraint, and every entry of `to_update_` with its flag
`need_untrail_inspection`. -/
theorem Untrail_reverses_PropagateNext (trail : Trail) (pb : PbConstraints) (trail1 : Trail)
    (pb1 : PbConstraints) (hreach : PbReachable (trail, pb)) (hsettled : Settled trail pb)
    (hcalls : PropagateNextCalls (trail, pb) (trail1, pb1)) :
    (pb1.Untrail trail1 pb.propagation_trail_index_).propagation_trail_index_ =
      pb.propagation_trail_index_ ∧
    (pb1.Untrail trail1 pb.propagation_trail_index_).slacks_ = pb.slacks_ ∧
    (pb1.Untrail trail1 pb.propagation_trail_index_).constraints_.map (fun c => c.index_) =
      pb.constraints_.map (fun c => c.index_) ∧
    (pb1.Untrail trail1 pb.propagation_trail_index_).to_update_ = pb.to_update_ :=
  Untrail_restores trail pb trail1 pb1 (SlackInvariant_of_PbReachable (trail, pb) hreach)
    hsettled hcalls

/-- C27, an instance: on the store of `x1 + 3 x0 <= 3` with the decision `x0` on
the trail, `PropagateNext` lowers the cursor of the constraint from 1 to -1,
flags the entry of `x0` and propagates the negation of `x1`; `Untrail(0)`
gives back the cursor 1, the slack 0 and the flags. -/
theorem Untrail_reverses_PropagateNext_witness :
    (pbExample.PropagateNext pbExampleTrail).2.1.constraints_.map (fun c => c.index_) = [-1] ∧
    (pbExample.PropagateNext pbExampleTrail).2.1.to_update_ =
      [(⟨2⟩, ⟨false, 0, 1⟩), (⟨0⟩, ⟨true, 0, 3⟩)] ∧
    ((pbExample.PropagateNext pbExampleTrail).2.1.Untrail
      (pbExample.PropagateNext pbExampleTrail).2.2 0).propagation_trail_index_ = 0 ∧
    ((pbExample.PropagateNext pbExampleTrail).2.1.Untrail
      (pbExample.PropagateNext pbExampleTrail).2.2 0).slacks_ = [0] ∧
    ((pbExample.PropagateNext pbExampleTrail).2.1.Untrail
      (pbExample.PropagateNext pbExampleTrail).2.2 0).constraints_.map (fun c => c.index_) =
      [1] ∧
    ((pbExample.PropagateNext pbExampleTrail).2.1.Untrail
      (pbExample.PropagateNext pbExampleTrail).2.2 0).to_update_ =
      [(⟨2⟩, ⟨false, 0, 1⟩), (⟨0⟩, ⟨false, 0, 3⟩)] :=
  have hreach : PbReachable (pbExampleTrail, pbExample) :=
    PbReachable.step (Trail.empty.SetDecisionLevel 1, pbExample) _
      (PbReachable.step (Trail.empty.SetDecisionLevel 1, ⟨[], [], [], 0, [], 0, 0⟩) _
        (PbReachable.init (Trail.empty.SetDecisionLevel 1) rfl)
        (PbStep.addConstraint (Trail.empty.SetDecisionLevel 1) ⟨[], [], [], 0, [], 0, 0⟩
          [⟨⟨2⟩, 1⟩, ⟨⟨0⟩, 3⟩] 3 none pbExample (Trail.empty.SetDecisionLevel 1)
          ⟨by decide, by decide, by decide⟩ (by decide) rfl))
      (PbStep.enqueue (Trail.empty.SetDecisionLevel 1) pbExample ⟨0⟩
        AssignmentInfo.SEARCH_DECISION rfl)
  have hsettled : Settled pbExampleTrail pbExample :=
    ⟨fun k c hk => by
        match k, hk with
        | 0, hk =>
          have hc : c = pbExampleConstraint := by
            simpa [pbExample] using hk.symm
          subst hc
          exact ⟨by decide, by decide, fun _ => by decide, fun h => absurd h (by decide)⟩
        | k + 1, hk => simp [pbExample] at hk,
      fun e he hf => by
        simp only [pbExample, List.mem_cons, List.mem_singleton, List.not_mem_nil,
          or_false] at he
        rcases he with rfl | rfl <;> simp at hf,
      fun s hs => by
        have : s = 0 := by simpa [pbExample] using hs
        rw [this]
        decide⟩
  have h := Untrail_reverses_PropagateNext pbExampleTrail pbExample
    (pbExample.PropagateNext pbExampleTrail).2.2 (pbExample.PropagateNext pbExampleTrail).2.1
    hreach hsettled
    (PropagateNextCalls.step _ pbExampleTrail pbExample (PropagateNextCalls.refl _) rfl)
  ⟨rfl, rfl, h.1, h.2.1, h.2.2.1, h.2.2.2⟩

/-- C27, the claim as stated fails from a store on which a conflict is pending.
The constraints `x0 + x2 <= 1` and `x1 + 3 x0 <= 3` are added to the empty
store and `x0, x1, x2` are enqueued.  The first call of `PropagateNext`
returns false on the first constraint and leaves the second with the slack -3
and the cursor 1, not inspected; the cursor of the store is 1.  From there a
second call of `PropagateNext` followed by `Untrail(1)` leaves the second
constraint with the slack 0 and the cursor -1. -/
theorem Untrail_reverses_PropagateNext_counterexample :
    PbReachable ((pbConflictExample.PropagateNext pbConflictTrail).2.2,
      (pbConflictExample.PropagateNext pbConflictTrail).2.1) ∧
    (pbConflictExample.PropagateNext pbConflictTrail).1 = false ∧
    (pbConflictExample.PropagateNext pbConflictTrail).2.2.entries = pbConflictTrail.entries ∧
    (pbConflictExample.PropagateNext pbConflictTrail).2.1.propagation_trail_index_ = 1 ∧
    (pbConflictExample.PropagateNext pbConflictTrail).2.1.slacks_ = [0, -3] ∧
    (pbConflictExample.PropagateNext pbConflictTrail).2.1.constraints_.map
      (fun c => c.index_) = [-1, 1] ∧
    (pbConflictExample.PropagateNext pbConflictTrail).2.1.PropagationNeeded
      (pbConflictExample.PropagateNext pbConflictTrail).2.2 = true ∧
    (((pbConflictExample.PropagateNext pbConflictTrail).2.1.PropagateNext
      (pbConflictExample.PropagateNext pbConflictTrail).2.2).2.1.Untrail
      ((pbConflictExample.PropagateNext pbConflictTrail).2.1.PropagateNext
        (pbConflictExample.PropagateNext pbConflictTrail).2.2).2.2 1).slacks_ = [0, 0] ∧
    (((pbConflictExample.PropagateNext pbConflictTrail).2.1.PropagateNext
      (pbConflictExample.PropagateNext pbConflictTrail).2.2).2.1.Untrail
      ((pbConflictExample.PropagateNext pbConflictTrail).2.1.PropagateNext
        (pbConflictExample.PropagateNext pbConflictTrail).2.2).2.2 1).constraints_.map
      (fun c => c.index_) = [-1, -1] := by
  refine ⟨?_, rfl, rfl, rfl, rfl, rfl, rfl, rfl, rfl⟩
  refine PbReachable.step (pbConflictTrail, pbConflictExample) _ ?_
    (PbStep.propagateNext pbConflictTrail pbConflictExample rfl)
  refine PbReachable.step ((Trail.empty.Enqueue ⟨0⟩ (AssignmentInfo.UNIT_REASON none)).Enqueue
    ⟨2⟩ (AssignmentInfo.UNIT_REASON none), pbConflictExample) _ ?_
    (PbStep.enqueue _ pbConflictExample ⟨4⟩ (AssignmentInfo.UNIT_REASON none) rfl)
  refine PbReachable.step (Trail.empty.Enqueue ⟨0⟩ (AssignmentInfo.UNIT_REASON none),
    pbConflictExample) _ ?_
    (PbStep.enqueue _ pbConflictExample ⟨2⟩ (AssignmentInfo.UNIT_REASON none) rfl)
  refine PbReachable.step (Trail.empty, pbConflictExample) _ ?_
    (PbStep.enqueue _ pbConflictExample ⟨0⟩ (AssignmentInfo.UNIT_REASON none) rfl)
  refine PbReachable.step (Trail.empty,
    ⟨[⟨[⟨0⟩, ⟨4⟩], [1], [0, 2], 1, 0, 2, none⟩], [0],
      [(⟨0⟩, ⟨false, 0, 1⟩), (⟨4⟩, ⟨false, 0, 1⟩)], 0, [], 0, 0⟩) _ ?_
    (PbStep.addConstraint Trail.empty _ [⟨⟨2⟩, 1⟩, ⟨⟨0⟩, 3⟩] 3 none pbConflictExample
      Trail.empty ⟨by decide, by decide, by decide⟩ (by decide) rfl)
  exact PbReachable.step (Trail.empty, ⟨[], [], [], 0, [], 0, 0⟩) _
    (PbReachable.init Trail.empty rfl)
    (PbStep.addConstraint Trail.empty _ [⟨⟨0⟩, 1⟩, ⟨⟨4⟩, 1⟩] 1 none _
      Trail.empty ⟨by decide, by decide, by decide⟩ (by decide) rfl)

theorem Literal.Negated_injective (a b : Literal) (h : a.Negated = b.Negated) : a = b := by
  have := congrArg Literal.Negated h
  rwa [Literal.Negated_Negated, Literal.Negated_Negated] at this

theorem reasonFrom_step (p : LiteralWithCoeff → Bool) (terms : List LiteralWithCoeff) (i : Nat)
    (t : LiteralWithCoeff) (h : terms[i]? = some t) :
    reasonFrom p terms i =
      if p t = true then reasonFrom p terms (i + 1) ++ [t.literal.Negated]
      else reasonFrom p terms (i + 1) := by
  have hi : i < terms.length := (List.getElem?_eq_some_iff.1 h).1
  have ht : terms[i] = t := (List.getElem?_eq_some_iff.1 h).2
  unfold reasonFrom
  rw [List.drop_eq_getElem_cons hi, ht, List.filter_cons]
  split
  · rw [List.reverse_cons, List.map_append]
    rfl
  · rfl

theorem reasonFrom_of_length_le (p : LiteralWithCoeff → Bool) (terms : List LiteralWithCoeff)
    (i : Nat) (h : terms.length ≤ i) : reasonFrom p terms i = [] := by
  unfold reasonFrom
  rw [List.drop_eq_nil_of_le h]
  rfl

theorem coefficientsBefore_step (p : LiteralWithCoeff → Bool) (terms : List LiteralWithCoeff)
    (i : Nat) (t : LiteralWithCoeff) (h : terms[i]? = some t) :
    coefficientsBefore p terms (i + 1) =
      coefficientsBefore p terms i + (if p t = true then t.coefficient else 0) := by
  unfold coefficientsBefore
  rw [List.take_succ, h, List.filter_append, List.map_append, List.sum_append]
  congr 1
  simp only [Option.toList, List.filter_cons, List.filter_nil]
  split <;> simp

theorem coefficientsBefore_zero (p : LiteralWithCoeff → Bool) (terms : List LiteralWithCoeff) :
    coefficientsBefore p terms 0 = 0 := by
  unfold coefficientsBefore
  simp

theorem mem_reasonFrom (p : LiteralWithCoeff → Bool) (terms : List LiteralWithCoeff) (i : Nat)
    (r : Literal) (h : r ∈ reasonFrom p terms i) :
    ∃ (q : Nat) (t : LiteralWithCoeff), i ≤ q ∧ terms[q]? = some t ∧ p t = true ∧
      r = t.literal.Negated := by
  unfold reasonFrom at h
  simp only [List.mem_map, List.mem_reverse, List.mem_filter] at h
  obtain ⟨t, ⟨ht, hp⟩, rfl⟩ := h
  obtain ⟨q, hq⟩ := List.mem_iff_getElem?.1 ht
  rw [List.getElem?_drop] at hq
  exact ⟨i + q, t, by omega, hq, hp, rfl⟩

/-- The coefficients of the terms that satisfy `p`, split at a position. -/
theorem coefficientsOf_split (p : LiteralWithCoeff → Bool) (terms : List LiteralWithCoeff)
    (m : Nat) :
    coefficientsOf p terms = coefficientsBefore p terms m + coefficientsOf p (terms.drop m) := by
  unfold coefficientsOf coefficientsBefore
  conv_lhs => rw [← List.take_append_drop m terms]
  rw [List.filter_append, List.map_append, List.sum_append]

theorem UpperBoundedLinearConstraint.WellFormed.lt_of_InGroup {c : UpperBoundedLinearConstraint}
    (h : c.WellFormed) (i j : Nat) (hg : c.InGroup i j) : i < c.literals_.length := by
  obtain ⟨h1, -, h3⟩ := hg
  have := h.starts_mono (j + 1) c.coeffs_.length (by omega) (le_refl _)
  rw [h.starts_last] at this
  omega

/-- The term at a position of a well formed constraint, given the group of the
position. -/
theorem UpperBoundedLinearConstraint.WellFormed.term_at {c : UpperBoundedLinearConstraint}
    (h : c.WellFormed) (i j : Nat) (hg : c.InGroup i j) :
    c.terms[i]? = some ⟨c.literals_.getD i ⟨0⟩, c.coeffs_.getD j 0⟩ := by
  have hi := h.lt_of_InGroup i j hg
  have hlen : c.terms.length = c.literals_.length := termsLoop_length c _ 0 0
  obtain ⟨term, hterm⟩ : ∃ term, c.terms[i]? = some term :=
    ⟨_, List.getElem?_eq_getElem (by rw [hlen]; exact hi)⟩
  obtain ⟨j2, hg2, hterm2⟩ := h.terms_getElem? i term hterm
  rw [hterm, hterm2, h.group_unique i j j2 hg hg2]

/-- Two terms of a constraint without a literal twice that have the same literal
are at the same position. -/
theorem terms_position_unique (c : UpperBoundedLinearConstraint) (hnd : c.literals_.Nodup)
    (q1 q2 : Nat) (t1 t2 : LiteralWithCoeff) (h1 : c.terms[q1]? = some t1)
    (h2 : c.terms[q2]? = some t2) (hl : t1.literal = t2.literal) : q1 = q2 := by
  have hlits := c.terms_literals
  have e1 : c.literals_[q1]? = some t1.literal := by
    rw [← hlits, List.getElem?_map, h1]
    rfl
  have e2 : c.literals_[q2]? = some t2.literal := by
    rw [← hlits, List.getElem?_map, h2]
    rfl
  by_contra hne
  have hq2 : q2 < c.literals_.length := (List.getElem?_eq_some_iff.1 e2).1
  have hq1 : q1 < c.literals_.length := (List.getElem?_eq_some_iff.1 e1).1
  rcases Nat.lt_or_gt_of_ne hne with h | h
  · exact (List.nodup_iff_getElem?_ne_getElem?.1 hnd) q1 q2 h hq2 (by rw [e1, e2, hl])
  · exact (List.nodup_iff_getElem?_ne_getElem?.1 hnd) q2 q1 h hq1 (by rw [e1, e2, hl])

/-- The group of the next position. -/
theorem UpperBoundedLinearConstraint.WellFormed.InGroup_succ {c : UpperBoundedLinearConstraint}
    (h : c.WellFormed) (i j : Nat) (hg : c.InGroup i j) (hi : i + 1 < c.literals_.length) :
    c.InGroup (i + 1) (if i + 1 = c.starts_.getD (j + 1) 0 then j + 1 else j) := by
  obtain ⟨h1, h2, h3⟩ := hg
  split
  · rename_i heq
    have hj1 : j + 1 < c.coeffs_.length := by
      by_contra hge
      have hje : j + 1 = c.coeffs_.length := by omega
      rw [hje, h.starts_last] at heq
      omega
    exact ⟨hj1, by omega, by have := h.starts_increasing (j + 1) hj1; omega⟩
  · exact ⟨h1, by omega, by omega⟩

/-- The second loop of `FillReason` leaves the reason built from some position
on, and the limit stays at least 1. -/
theorem fillReasonTrim_spec (c : UpperBoundedLinearConstraint) (hwf : c.WellFormed)
    (hnd : c.literals_.Nodup) (p : LiteralWithCoeff → Bool) (L : Int) :
    ∀ (fuel i ci : Nat) (limit : Int) (reason : List Literal),
    i + fuel = c.literals_.length →
    (i < c.literals_.length →
      c.InGroup i (if i = c.starts_.getD (ci + 1) 0 then ci + 1 else ci)) →
    reason = reasonFrom p c.terms i →
    limit = L - coefficientsBefore p c.terms i →
    1 ≤ limit → limit ≤ kint64max → c.coeffs_.getD ci 0 < limit →
    ∃ m, i ≤ m ∧ m ≤ c.literals_.length ∧
      fillReasonTrim c fuel i ci limit reason = reasonFrom p c.terms m ∧
      1 ≤ L - coefficientsBefore p c.terms m
  | 0, i, ci, limit, reason, hfuel, _, hreason, hlimit, h1, _, _ => by
    unfold fillReasonTrim
    exact ⟨i, le_refl _, by omega, hreason, by omega⟩
  | fuel + 1, i, ci, limit, reason, hfuel, hgroup, hreason, hlimit, h1, hmax, hlt => by
    have hi : i < c.literals_.length := by omega
    have hg := hgroup hi
    have hterm := hwf.term_at i _ hg
    have hpos := hwf.coeffs_positive _ hg.1
    unfold fillReasonTrim
    dsimp only
    generalize hci1 : (if i = c.starts_.getD (ci + 1) 0 then ci + 1 else ci) = ci1
      at hg hterm hpos ⊢
    have hlt1 : ¬ (i = c.starts_.getD (ci + 1) 0 ∧ c.coeffs_.getD ci1 0 ≥ limit) →
        c.coeffs_.getD ci1 0 < limit := by
      intro hno
      by_cases hs : i = c.starts_.getD (ci + 1) 0
      · by_contra hge
        exact hno ⟨hs, by omega⟩
      · rw [if_neg hs] at hci1
        rw [← hci1]
        exact hlt
    have hnext : i + 1 < c.literals_.length →
        c.InGroup (i + 1) (if i + 1 = c.starts_.getD (ci1 + 1) 0 then ci1 + 1 else ci1) :=
      fun h => hwf.InGroup_succ i ci1 hg h
    have hstep := reasonFrom_step p c.terms i _ hterm
    have hsum := coefficientsBefore_step p c.terms i _ hterm
    dsimp only at hstep hsum
    by_cases hbreak : i = c.starts_.getD (ci + 1) 0 ∧ c.coeffs_.getD ci1 0 ≥ limit
    · rw [if_pos hbreak]
      exact ⟨i, le_refl _, by omega, hreason, by omega⟩
    · rw [if_neg hbreak]
      have hclt := hlt1 hbreak
      by_cases hp : p ⟨c.literals_.getD i ⟨0⟩, c.coeffs_.getD ci1 0⟩ = true
      · rw [if_pos hp] at hstep hsum
        have hlast : reason.getLast? = some (c.literals_.getD i ⟨0⟩).Negated := by
          rw [hreason, hstep]
          simp
        have hdrop : reason.dropLast = reasonFrom p c.terms (i + 1) := by
          rw [hreason, hstep]
          simp
        rw [if_neg (by rw [hlast]; exact fun h => h rfl)]
        have hsub : sub64 limit (c.coeffs_.getD ci1 0) = limit - c.coeffs_.getD ci1 0 := by
          unfold sub64
          apply wrap64_of_IsInt64
          unfold IsInt64 kint64min kint64max at *
          omega
        rw [hsub]
        by_cases hstop : c.coeffs_.getD ci1 0 ≥ limit - c.coeffs_.getD ci1 0
        · rw [if_pos hstop]
          refine ⟨i + 1, by omega, by omega, hdrop, ?_⟩
          rw [hsum]
          omega
        · rw [if_neg hstop]
          obtain ⟨m, m1, m2, m3, m4⟩ := fillReasonTrim_spec c hwf hnd p L fuel (i + 1) ci1
            (limit - c.coeffs_.getD ci1 0) reason.dropLast (by omega) hnext hdrop
            (by rw [hsum]; omega) (by omega) (by omega) (by omega)
          exact ⟨m, by omega, m2, m3, m4⟩
      · rw [if_neg hp] at hstep hsum
        have hne : some (c.literals_.getD i ⟨0⟩).Negated ≠ reason.getLast? := by
          intro heq
          have hmem : (c.literals_.getD i ⟨0⟩).Negated ∈ reasonFrom p c.terms (i + 1) := by
            rw [← hstep, ← hreason]
            exact List.mem_of_getLast?_eq_some heq.symm
          obtain ⟨q, t, hq, hqt, -, hneg⟩ := mem_reasonFrom p c.terms (i + 1) _ hmem
          have := terms_position_unique c hnd i q _ t hterm hqt
            (Literal.Negated_injective _ _ hneg)
          omega
        rw [if_pos hne]
        obtain ⟨m, m1, m2, m3, m4⟩ := fillReasonTrim_spec c hwf hnd p L fuel (i + 1) ci1
          limit reason (by omega) hnext (by rw [hreason, hstep])
          (by rw [hsum]; omega) h1 hmax hclt
        exact ⟨m, by omega, m2, m3, m4⟩

/-- The group of the previous position. -/
theorem UpperBoundedLinearConstraint.WellFormed.InGroup_pred {c : UpperBoundedLinearConstraint}
    (h : c.WellFormed) (i j : Nat) (hg : c.InGroup i j) (hi : 0 < i) :
    ∃ k : Nat, c.InGroup (i - 1) k ∧
      (if i = c.starts_.getD j 0 then (j : Int) - 1 else (j : Int)) = k := by
  obtain ⟨h1, h2, h3⟩ := hg
  by_cases heq : i = c.starts_.getD j 0
  · have hj : 0 < j := by
      by_contra hz
      have : j = 0 := by omega
      rw [this, h.starts_zero] at heq
      omega
    refine ⟨j - 1, ⟨by omega, ?_, ?_⟩, ?_⟩
    · have := h.starts_increasing (j - 1) (by omega)
      rw [Nat.sub_add_cancel hj] at this
      omega
    · rw [Nat.sub_add_cancel hj]
      omega
    · rw [if_pos heq]
      omega
  · exact ⟨j, ⟨h1, by omega, by omega⟩, by rw [if_neg heq]⟩

theorem coefficientsOf_drop_step (p : LiteralWithCoeff → Bool) (terms : List LiteralWithCoeff)
    (i : Nat) (t : LiteralWithCoeff) (h : terms[i]? = some t) :
    coefficientsOf p (terms.drop i) =
      (if p t = true then t.coefficient else 0) + coefficientsOf p (terms.drop (i + 1)) := by
  have hi : i < terms.length := (List.getElem?_eq_some_iff.1 h).1
  have ht : terms[i] = t := (List.getElem?_eq_some_iff.1 h).2
  unfold coefficientsOf
  rw [List.drop_eq_getElem_cons hi, ht, List.filter_cons]
  split <;> simp

/-- Two terms of a constraint without a variable twice that have the same
variable are at the same position. -/
theorem terms_variable_unique (c : UpperBoundedLinearConstraint)
    (hnd : (c.literals_.map (fun l => l.Variable)).Nodup)
    (q1 q2 : Nat) (t1 t2 : LiteralWithCoeff) (h1 : c.terms[q1]? = some t1)
    (h2 : c.terms[q2]? = some t2) (hv : t1.literal.Variable = t2.literal.Variable) :
    q1 = q2 := by
  have hlits := c.terms_literals
  have e1 : (c.literals_.map (fun l => l.Variable))[q1]? = some t1.literal.Variable := by
    rw [← hlits, List.map_map, List.getElem?_map, h1]
    rfl
  have e2 : (c.literals_.map (fun l => l.Variable))[q2]? = some t2.literal.Variable := by
    rw [← hlits, List.map_map, List.getElem?_map, h2]
    rfl
  by_contra hne
  have hq2 := (List.getElem?_eq_some_iff.1 e2).1
  have hq1 := (List.getElem?_eq_some_iff.1 e1).1
  rcases Nat.lt_or_gt_of_ne hne with h | h
  · exact (List.nodup_iff_getElem?_ne_getElem?.1 hnd) q1 q2 h hq2 (by rw [e1, e2, hv])
  · exact (List.nodup_iff_getElem?_ne_getElem?.1 hnd) q2 q1 h hq1 (by rw [e1, e2, hv])

/-- The first loop of `FillReason` keeps its invariant down to the first
position. -/
theorem fillReasonCollect_spec (c : UpperBoundedLinearConstraint) (hwf : c.WellFormed)
    (hnd : (c.literals_.map (fun l => l.Variable)).Nodup) (trail : Trail)
    (source_trail_index propagated_variable : Nat) (include_level_zero : Bool) :
    ∀ (n : Nat) (st : FillReasonState),
    CollectInvariant c trail source_trail_index propagated_variable include_level_zero n st →
    CollectInvariant c trail source_trail_index propagated_variable include_level_zero 0
      (fillReasonCollect c trail source_trail_index propagated_variable include_level_zero n st)
  | 0, st, h => by
    unfold fillReasonCollect
    exact h
  | i + 1, st, h => by
    unfold fillReasonCollect
    dsimp only
    apply fillReasonCollect_spec c hwf hnd trail source_trail_index propagated_variable
      include_level_zero i
    obtain ⟨j, hg, hj⟩ := h.coeff_index (Nat.succ_pos i)
    rw [Nat.add_sub_cancel] at hg
    have hterm := hwf.term_at i j hg
    rw [hj, Int.toNat_ofNat]
    generalize hlit : c.literals_.getD i ⟨0⟩ = literal at hterm ⊢
    generalize hcoeff : c.coeffs_.getD j 0 = coeff at hterm ⊢
    have hrstep := reasonFrom_step
      (inReason trail source_trail_index propagated_variable include_level_zero) c.terms i _ hterm
    have hsstep := coefficientsOf_drop_step
      (trueAtSource trail source_trail_index propagated_variable) c.terms i _ hterm
    have hci : ∀ st1 : FillReasonState, st1.coeff_index = (j : Int) →
        (0 < i → ∃ k : Nat, c.InGroup (i - 1) k ∧
          (if i = c.starts_.getD st1.coeff_index.toNat 0 then
            { st1 with coeff_index := st1.coeff_index - 1 } else st1).coeff_index = k) := by
      intro st1 h1 hi
      obtain ⟨k, hk1, hk2⟩ := hwf.InGroup_pred i j hg hi
      refine ⟨k, hk1, ?_⟩
      rw [h1, Int.toNat_ofNat]
      rw [← hk2]
      split <;> simp [h1]
    have hother : ∀ (q : Nat) (t : LiteralWithCoeff), i ≤ q → c.terms[q]? = some t →
        t.literal.Variable = propagated_variable → literal.Variable ≠ propagated_variable →
        i + 1 ≤ q := by
      intro q t hq hqt hv hne
      by_contra hlt
      have hqi : q = i := by omega
      rw [hqi, hterm] at hqt
      cases hqt
      exact hne hv
    have hfin : ∀ (st1 st3 : FillReasonState),
        st3 = (if i = c.starts_.getD st1.coeff_index.toNat 0 then
            { st1 with coeff_index := st1.coeff_index - 1 } else st1) →
        st1.coeff_index = (j : Int) →
        st1.reason = reasonFrom
          (inReason trail source_trail_index propagated_variable include_level_zero)
          c.terms i →
        st1.current_rhs = wrap64 (c.rhs_ - coefficientsOf
          (trueAtSource trail source_trail_index propagated_variable) (c.terms.drop i)) →
        (∀ (q : Nat) (t : LiteralWithCoeff), i ≤ q → c.terms[q]? = some t →
          t.literal.Variable = propagated_variable →
          st1.propagated_variable_coefficient = t.coefficient) →
        (st1.reason ≠ [] → i ≤ st1.last_i ∧
          (∃ (j : Nat) (t : LiteralWithCoeff), c.InGroup st1.last_i j ∧
            st1.last_coeff_index = j ∧ c.terms[st1.last_i]? = some t ∧
            inReason trail source_trail_index propagated_variable include_level_zero t =
              true) ∧
          ∀ (q : Nat) (t : LiteralWithCoeff), i ≤ q → q < st1.last_i →
            c.terms[q]? = some t →
            inReason trail source_trail_index propagated_variable include_level_zero t =
              false) →
        CollectInvariant c trail source_trail_index propagated_variable include_level_zero i
          st3 := by
      intro st1 st3 h3 h1 hr hc hp hl
      have hsame : st3.reason = st1.reason ∧ st3.current_rhs = st1.current_rhs ∧
          st3.propagated_variable_coefficient = st1.propagated_variable_coefficient ∧
          st3.last_i = st1.last_i ∧ st3.last_coeff_index = st1.last_coeff_index := by
        rw [h3]
        split <;> exact ⟨rfl, rfl, rfl, rfl, rfl⟩
      obtain ⟨s1, s2, s3, s4, s5⟩ := hsame
      refine ⟨by rw [s1, hr], by rw [s2, hc], ?_, ?_, ?_⟩
      · rw [h3]
        exact hci st1 h1
      · rw [s3]
        exact hp
      · rw [s1, s4, s5]
        exact hl
    by_cases hv : literal.Variable = propagated_variable
    · rw [if_pos hv]
      have hK : trueAtSource trail source_trail_index propagated_variable ⟨literal, coeff⟩ =
          false := by
        simp [trueAtSource, hv]
      have hP : inReason trail source_trail_index propagated_variable include_level_zero
          ⟨literal, coeff⟩ = false := by
        simp [inReason, hK]
      rw [hP] at hrstep
      rw [hK] at hsstep
      refine hfin _ _ rfl rfl ?_ ?_ ?_ ?_
      · rw [h.reason, hrstep]
        rfl
      · rw [h.current_rhs, hsstep]
        simp
      · intro q t hq hqt hvar
        dsimp only
        by_cases hqi : q = i
        · rw [hqi, hterm] at hqt
          cases hqt
          rfl
        · exfalso
          have := terms_variable_unique c hnd i q _ t hterm hqt (by rw [hvar]; exact hv)
          omega
      · intro hne
        dsimp only at hne ⊢
        obtain ⟨l1, l2, l3⟩ := h.last hne
        refine ⟨by omega, l2, ?_⟩
        intro q t hq hql hqt
        by_cases hqi : q = i
        · rw [hqi, hterm] at hqt
          cases hqt
          exact hP
        · exact l3 q t (by omega) hql hqt
    · rw [if_neg hv]
      by_cases ht : (trail.IsLiteralTrue literal &&
          decide (trail.trailIndexOf literal.Variable ≤ source_trail_index)) = true
      · rw [if_pos ht]
        have hK : trueAtSource trail source_trail_index propagated_variable ⟨literal, coeff⟩ =
            true := by
          unfold trueAtSource
          dsimp only
          rw [ht]
          simp [hv]
        rw [hK] at hsstep
        rw [if_pos rfl] at hsstep
        by_cases hz : (include_level_zero || decide (trail.levelOf literal.Variable ≠ 0)) = true
        · rw [if_pos hz]
          have hP : inReason trail source_trail_index propagated_variable include_level_zero
              ⟨literal, coeff⟩ = true := by
            unfold inReason
            rw [hK]
            dsimp only
            rw [hz]
            rfl
          rw [hP, if_pos rfl] at hrstep
          refine hfin _ _ rfl rfl ?_ ?_ ?_ ?_
          · dsimp only
            rw [h.reason, hrstep]
          · dsimp only
            rw [h.current_rhs, hsstep]
            unfold sub64
            rw [wrap64_sub_wrap64]
            congr 1
            dsimp only
            omega
          · intro q t hq hqt hvar
            exact h.coefficient q t (hother q t hq hqt hvar hv) hqt hvar
          · intro _
            dsimp only
            refine ⟨le_refl _, ⟨j, _, hg, rfl, hterm, hP⟩, ?_⟩
            intro q t hq hql
            omega
        · rw [if_neg hz]
          have hP : inReason trail source_trail_index propagated_variable include_level_zero
              ⟨literal, coeff⟩ = false := by
            unfold inReason
            dsimp only
            rw [Bool.not_eq_true] at hz
            rw [hz]
            simp
          rw [hP] at hrstep
          refine hfin _ _ rfl hj ?_ ?_ ?_ ?_
          · dsimp only
            rw [h.reason, hrstep]
            rfl
          · dsimp only
            rw [h.current_rhs, hsstep]
            unfold sub64
            rw [wrap64_sub_wrap64]
            congr 1
            dsimp only
            omega
          · intro q t hq hqt hvar
            exact h.coefficient q t (hother q t hq hqt hvar hv) hqt hvar
          · intro hne
            dsimp only at hne ⊢
            obtain ⟨l1, l2, l3⟩ := h.last hne
            refine ⟨by omega, l2, ?_⟩
            intro q t hq hql hqt
            by_cases hqi : q = i
            · rw [hqi, hterm] at hqt
              cases hqt
              exact hP
            · exact l3 q t (by omega) hql hqt
      · rw [if_neg ht]
        have hK : trueAtSource trail source_trail_index propagated_variable ⟨literal, coeff⟩ =
            false := by
          unfold trueAtSource
          dsimp only
          rw [Bool.not_eq_true] at ht
          rw [ht]
          simp
        have hP : inReason trail source_trail_index propagated_variable include_level_zero
            ⟨literal, coeff⟩ = false := by
          simp [inReason, hK]
        rw [hP] at hrstep
        rw [hK] at hsstep
        refine hfin _ _ rfl hj ?_ ?_ ?_ ?_
        · rw [h.reason, hrstep]
          rfl
        · rw [h.current_rhs, hsstep]
          simp
        · intro q t hq hqt hvar
          exact h.coefficient q t (hother q t hq hqt hvar hv) hqt hvar
        · intro hne
          obtain ⟨l1, l2, l3⟩ := h.last hne
          refine ⟨by omega, l2, ?_⟩
          intro q t hq hql hqt
          by_cases hqi : q = i
          · rw [hqi, hterm] at hqt
            cases hqt
            exact hP
          · exact l3 q t (by omega) hql hqt

/-- The reason built from a position on is the one built from a later position
on when no term in between satisfies `p`. -/
theorem reasonFrom_eq_of_none (p : LiteralWithCoeff → Bool) (terms : List LiteralWithCoeff)
    (n : Nat) : ∀ (d : Nat), n + d ≤ terms.length →
    (∀ (q : Nat) (t : LiteralWithCoeff), n ≤ q → q < n + d → terms[q]? = some t →
      p t = false) →
    reasonFrom p terms n = reasonFrom p terms (n + d) ∧
    coefficientsBefore p terms (n + d) = coefficientsBefore p terms n
  | 0, _, _ => ⟨rfl, rfl⟩
  | d + 1, hlen, hnone => by
    obtain ⟨h1, h2⟩ := reasonFrom_eq_of_none p terms n d (by omega)
      (fun q t hq hqd hqt => hnone q t hq (by omega) hqt)
    have hlt : n + d < terms.length := by omega
    have hterm : terms[n + d]? = some (terms[n + d]) := List.getElem?_eq_getElem hlt
    have hp := hnone (n + d) _ (by omega) (by omega) hterm
    have hr := reasonFrom_step p terms (n + d) _ hterm
    have hs := coefficientsBefore_step p terms (n + d) _ hterm
    rw [hp] at hr hs
    constructor
    · rw [h1, hr]
      rfl
    · rw [← Nat.add_assoc, hs, h2]
      simp

/-- On the terms of a constraint without a variable twice, the test of the first
loop of `FillReason` is the test that the literal is true at a trail index at
most the source one, when the literal of the propagated variable is not. -/
theorem coefficientsOf_trueAtSource (c : UpperBoundedLinearConstraint)
    (hnd : (c.literals_.map (fun l => l.Variable)).Nodup) (trail : Trail)
    (source_trail_index : Nat) (term : LiteralWithCoeff) (hterm : term ∈ c.terms)
    (hnot : trail.trueBelow (source_trail_index + 1) term.literal = false) :
    coefficientsOf (trueAtSource trail source_trail_index term.literal.Variable) c.terms =
      trueSum trail (source_trail_index + 1) c.terms := by
  unfold coefficientsOf trueSum
  congr 2
  apply List.filter_congr
  intro t ht
  obtain ⟨q1, hq1⟩ := List.mem_iff_getElem?.1 hterm
  obtain ⟨q2, hq2⟩ := List.mem_iff_getElem?.1 ht
  unfold trueAtSource Trail.trueBelow
  by_cases hv : t.literal.Variable = term.literal.Variable
  · have hq := terms_variable_unique c hnd q2 q1 t term hq2 hq1 hv
    rw [hq, hq1] at hq2
    cases hq2
    unfold Trail.trueBelow at hnot
    rw [hnot]
    simp
  · simp [hv, Nat.lt_succ_iff]

/-- The method `FillReason` of a constraint whose right hand side is not 1 returns
the reason built from some position on, such that the coefficients of the
terms left out before that position are less than the coefficient of the
propagated term minus the current right hand side. -/
theorem FillReason_core (c : UpperBoundedLinearConstraint) (hwf : c.WellFormed)
    (hnd : (c.literals_.map (fun l => l.Variable)).Nodup) (trail : Trail)
    (source_trail_index : Nat) (term : LiteralWithCoeff) (hterm : term ∈ c.terms)
    (hnot : trail.trueBelow (source_trail_index + 1) term.literal = false)
    (hforced : c.currentRhs trail (source_trail_index + 1) < term.coefficient)
    (hr0 : IsInt64 c.rhs_) (hr1 : IsInt64 (c.currentRhs trail (source_trail_index + 1)))
    (hr2 : IsInt64 (term.coefficient - c.currentRhs trail (source_trail_index + 1)))
    (hrhs : c.rhs_ ≠ 1) :
    ∃ m, c.FillReason trail source_trail_index term.literal.Variable =
        reasonFrom (inReason trail source_trail_index term.literal.Variable
          trail.need_fixed_literals_in_reason) c.terms m ∧
      1 ≤ term.coefficient - c.currentRhs trail (source_trail_index + 1) -
        coefficientsBefore (inReason trail source_trail_index term.literal.Variable
          trail.need_fixed_literals_in_reason) c.terms m := by
  have hlen : c.terms.length = c.literals_.length := termsLoop_length c _ 0 0
  have hlnd : c.literals_.Nodup := List.Nodup.of_map _ hnd
  have hinit : CollectInvariant c trail source_trail_index term.literal.Variable
      trail.need_fixed_literals_in_reason c.literals_.length
      { reason := [], current_rhs := c.rhs_, propagated_variable_coefficient := 0,
        coeff_index := (c.coeffs_.length : Int) - 1, last_i := 0, last_coeff_index := 0 } := by
    refine ⟨?_, ?_, ?_, ?_, fun h => absurd rfl h⟩
    · rw [reasonFrom_of_length_le _ _ _ (by omega)]
    · dsimp only
      rw [List.drop_eq_nil_of_le (by omega)]
      unfold coefficientsOf
      simp only [List.filter_nil, List.map_nil, List.sum_nil, Int.sub_zero]
      exact (wrap64_of_IsInt64 hr0).symm
    · intro hpos
      have hcl : 0 < c.coeffs_.length := by
        by_contra hz
        have h0 : c.coeffs_.length = 0 := by omega
        have := hwf.starts_last
        rw [h0, hwf.starts_zero] at this
        omega
      refine ⟨c.coeffs_.length - 1, ⟨by omega, ?_, ?_⟩, ?_⟩
      · have := hwf.starts_increasing (c.coeffs_.length - 1) (by omega)
        rw [Nat.sub_add_cancel hcl, hwf.starts_last] at this
        omega
      · rw [Nat.sub_add_cancel hcl, hwf.starts_last]
        omega
      · dsimp only
        omega
    · intro q t hq hqt
      have := (List.getElem?_eq_some_iff.1 hqt).1
      omega
  have hfinal := fillReasonCollect_spec c hwf hnd trail source_trail_index
    term.literal.Variable trail.need_fixed_literals_in_reason _ _ hinit
  unfold UpperBoundedLinearConstraint.FillReason
  rw [if_neg hrhs]
  dsimp only
  generalize fillReasonCollect c trail source_trail_index term.literal.Variable
    trail.need_fixed_literals_in_reason c.literals_.length
    { reason := [], current_rhs := c.rhs_, propagated_variable_coefficient := 0,
      coeff_index := (c.coeffs_.length : Int) - 1, last_i := 0, last_coeff_index := 0 } = st
    at hfinal ⊢
  obtain ⟨f1, f2, -, f4, f5⟩ := hfinal
  obtain ⟨q, hq⟩ := List.mem_iff_getElem?.1 hterm
  have hpvc := f4 q term (Nat.zero_le _) hq rfl
  have hcr : st.current_rhs = c.currentRhs trail (source_trail_index + 1) := by
    rw [f2, List.drop_zero, coefficientsOf_trueAtSource c hnd trail source_trail_index term
      hterm hnot]
    exact wrap64_of_IsInt64 hr1
  have hlimit : sub64 st.propagated_variable_coefficient st.current_rhs =
      term.coefficient - c.currentRhs trail (source_trail_index + 1) := by
    rw [hpvc, hcr]
    exact wrap64_of_IsInt64 hr2
  have hzero : ∃ m, st.reason =
        reasonFrom (inReason trail source_trail_index term.literal.Variable
          trail.need_fixed_literals_in_reason) c.terms m ∧
      1 ≤ term.coefficient - c.currentRhs trail (source_trail_index + 1) -
        coefficientsBefore (inReason trail source_trail_index term.literal.Variable
          trail.need_fixed_literals_in_reason) c.terms m := by
    refine ⟨0, f1, ?_⟩
    rw [coefficientsBefore_zero]
    omega
  split
  · exact hzero
  · rename_i hlong
    rw [hlimit]
    split
    · exact hzero
    · rename_i hsmall
      have hne : st.reason ≠ [] := by
        intro he
        rw [he] at hlong
        simp at hlong
      obtain ⟨-, ⟨j, t, hg, hj, -, -⟩, hbefore⟩ := f5 hne
      have hlast := hwf.lt_of_InGroup _ _ hg
      obtain ⟨e1, e2⟩ := reasonFrom_eq_of_none
        (inReason trail source_trail_index term.literal.Variable
          trail.need_fixed_literals_in_reason) c.terms 0 st.last_i (by omega)
        (fun q t hq hql hqt => hbefore q t hq (by omega) hqt)
      rw [Nat.zero_add] at e1 e2
      rw [coefficientsBefore_zero] at e2
      rw [hj, Int.toNat_ofNat] at hsmall ⊢
      obtain ⟨m, -, -, m3, m4⟩ := fillReasonTrim_spec c hwf hlnd
        (inReason trail source_trail_index term.literal.Variable
          trail.need_fixed_literals_in_reason)
        (term.coefficient - c.currentRhs trail (source_trail_index + 1))
        (c.literals_.length - st.last_i) st.last_i j
        (term.coefficient - c.currentRhs trail (source_trail_index + 1)) st.reason
        (by omega)
        (fun _ => by
          rw [if_neg (by have := hg.2.2; omega)]
          exact hg)
        (by rw [f1, e1]) (by rw [e2]; omega) (by omega) hr2.2 (by omega)
      exact ⟨m, m3, m4⟩

theorem terms_coefficient_pos (c : UpperBoundedLinearConstraint) (hwf : c.WellFormed)
    (t : LiteralWithCoeff) (ht : t ∈ c.terms) : 0 < t.coefficient := by
  obtain ⟨q, hq⟩ := List.mem_iff_getElem?.1 ht
  obtain ⟨j, hg, rfl⟩ := hwf.terms_getElem? q t hq
  exact hwf.coeffs_positive j hg.1

/-- The sum of the coefficients of the terms of a sublist that satisfy a test is
at most the sum for the list and a weaker test, when the coefficients are not
negative. -/
theorem coefficientsOf_mono (p q : LiteralWithCoeff → Bool) (l1 l : List LiteralWithCoeff)
    (hsub : l1.Sublist l) (himp : ∀ t ∈ l1, p t = true → q t = true)
    (hpos : ∀ t ∈ l, 0 ≤ t.coefficient) : coefficientsOf p l1 ≤ coefficientsOf q l := by
  unfold coefficientsOf
  have h1 : l1.filter p = (l1.filter q).filter p := by
    rw [List.filter_filter]
    apply List.filter_congr
    intro t ht
    by_cases hp : p t = true
    · rw [hp, himp t ht hp]
      rfl
    · rw [Bool.not_eq_true] at hp
      rw [hp]
      rfl
  have h2 : (l1.filter p).Sublist (l.filter q) := by
    rw [h1]
    exact (List.filter_sublist _).trans (hsub.filter q)
  apply List.Sublist.sum_le_sum (h2.map _)
  intro a ha
  obtain ⟨t, ht, rfl⟩ := List.mem_map.1 ha
  exact hpos t (List.mem_filter.1 ht).1

theorem coefficientsOf_nonneg (p : LiteralWithCoeff → Bool) (l : List LiteralWithCoeff)
    (hpos : ∀ t ∈ l, 0 ≤ t.coefficient) : 0 ≤ coefficientsOf p l := by
  unfold coefficientsOf
  apply List.sum_nonneg
  intro a ha
  obtain ⟨t, ht, rfl⟩ := List.mem_map.1 ha
  exact hpos t (List.mem_filter.1 ht).1

/-- The sum of the coefficients of the terms that satisfy a test, split by a
second test. -/
theorem coefficientsOf_split_test (p q : LiteralWithCoeff → Bool) :
    ∀ l : List LiteralWithCoeff, coefficientsOf p l =
      coefficientsOf (fun t => p t && q t) l + coefficientsOf (fun t => p t && !q t) l
  | [] => rfl
  | t :: rest => by
    have ih := coefficientsOf_split_test p q rest
    unfold coefficientsOf at ih ⊢
    simp only [List.filter_cons]
    by_cases hp : p t = true <;> by_cases hq : q t = true <;>
      simp [hp, hq] <;> omega

theorem Trail.trueBelow_get (trail : Trail)
    (hn : (trail.entries.map (fun e => e.literal.Variable)).Nodup) (s : Nat)
    (hs : s < trail.Index) : trail.trueBelow (s + 1) (trail.get s) = true := by
  rw [Trail.trueBelow_eq_any trail hn]
  unfold Trail.Index at hs
  simp only [List.any_eq_true, decide_eq_true_eq]
  refine ⟨trail.entries[s], ?_, ?_⟩
  · rw [List.mem_iff_getElem?]
    exact ⟨s, by rw [List.getElem?_take_of_lt (by omega), List.getElem?_eq_getElem hs]⟩
  · unfold Trail.get
    rw [List.get?_eq_getElem?, List.getElem?_eq_getElem hs]

theorem Trail.IsLiteralFalse_Negated_of_trueBelow (trail : Trail) (bound : Nat)
    (literal : Literal) (h : trail.trueBelow bound literal = true) :
    trail.IsLiteralFalse literal.Negated = true := by
  unfold Trail.trueBelow at h
  unfold Trail.IsLiteralFalse
  rw [Literal.Negated_Negated]
  rw [Bool.and_eq_true] at h
  exact h.1

/-- The reason that `FillReason` returns for a term that `Propagate`, called for
the source trail index `s`, fixes to false, in a well formed constraint without
a variable twice: it holds only negations of literals of the constraint that
are true at a trail index at most `s`, every literal of it is false, and the
coefficients of the literals whose negation is in the reason, plus those of
the literals true at level 0 that are left out of it, plus the coefficient of
the term, exceed `rhs_`. -/
theorem FillReason_valid (c : UpperBoundedLinearConstraint) (hwf : c.WellFormed)
    (hnd : (c.literals_.map (fun l => l.Variable)).Nodup) (trail : Trail)
    (hn : (trail.entries.map (fun e => e.literal.Variable)).Nodup)
    (source_trail_index : Nat) (term : LiteralWithCoeff) (hterm : term ∈ c.terms)
    (hnot : trail.trueBelow (source_trail_index + 1) term.literal = false)
    (hforced : c.currentRhs trail (source_trail_index + 1) < term.coefficient)
    (hr0 : IsInt64 c.rhs_) (hr1 : IsInt64 (c.currentRhs trail (source_trail_index + 1)))
    (hr2 : IsInt64 (term.coefficient - c.currentRhs trail (source_trail_index + 1)))
    (hsource : c.rhs_ = 1 → source_trail_index < trail.Index ∧
      ∃ t ∈ c.terms, t.literal = trail.get source_trail_index) :
    (∀ r ∈ c.FillReason trail source_trail_index term.literal.Variable,
      ∃ t ∈ c.terms, r = t.literal.Negated ∧
        trail.trueBelow (source_trail_index + 1) t.literal = true) ∧
    (∀ r ∈ c.FillReason trail source_trail_index term.literal.Variable,
      trail.IsLiteralFalse r = true) ∧
    c.rhs_ <
      coefficientsOf (fun t => decide (t.literal.Negated ∈
        c.FillReason trail source_trail_index term.literal.Variable)) c.terms +
      coefficientsOf (fun t => trail.trueBelow (source_trail_index + 1) t.literal &&
        decide (trail.levelOf t.literal.Variable = 0) &&
        !decide (t.literal.Negated ∈
          c.FillReason trail source_trail_index term.literal.Variable)) c.terms +
      term.coefficient := by
  have hpos : ∀ t ∈ c.terms, 0 ≤ t.coefficient :=
    fun t ht => le_of_lt (terms_coefficient_pos c hwf t ht)
  have hpart1 : (∀ r ∈ c.FillReason trail source_trail_index term.literal.Variable,
      ∃ t ∈ c.terms, r = t.literal.Negated ∧
        trail.trueBelow (source_trail_index + 1) t.literal = true) →
      ∀ r ∈ c.FillReason trail source_trail_index term.literal.Variable,
        trail.IsLiteralFalse r = true := by
    intro h r hr
    obtain ⟨t, -, rfl, ht⟩ := h r hr
    exact Trail.IsLiteralFalse_Negated_of_trueBelow trail _ _ ht
  by_cases hrhs : c.rhs_ = 1
  · obtain ⟨hs, t, ht, htl⟩ := hsource hrhs
    have hreason : c.FillReason trail source_trail_index term.literal.Variable =
        [(trail.get source_trail_index).Negated] := by
      unfold UpperBoundedLinearConstraint.FillReason
      rw [if_pos hrhs]
    rw [hreason]
    have h1 : ∀ r ∈ [(trail.get source_trail_index).Negated],
        ∃ t ∈ c.terms, r = t.literal.Negated ∧
          trail.trueBelow (source_trail_index + 1) t.literal = true := by
      intro r hr
      rw [List.mem_singleton] at hr
      refine ⟨t, ht, by rw [hr, htl], ?_⟩
      rw [htl]
      exact Trail.trueBelow_get trail hn _ hs
    refine ⟨h1, ?_, ?_⟩
    · rw [← hreason]
      apply hpart1
      rw [hreason]
      exact h1
    · have hA : t.coefficient ≤ coefficientsOf (fun t => decide (t.literal.Negated ∈
          [(trail.get source_trail_index).Negated])) c.terms := by
        have := coefficientsOf_mono (fun _ => true) (fun t => decide (t.literal.Negated ∈
          [(trail.get source_trail_index).Negated])) [t] c.terms
          (List.singleton_sublist.2 ht)
          (by
            intro t1 ht1 _
            rw [List.mem_singleton] at ht1
            rw [ht1]
            simp [htl]) hpos
        simpa [coefficientsOf] using this
      have hB := coefficientsOf_nonneg (fun t =>
        trail.trueBelow (source_trail_index + 1) t.literal &&
        decide (trail.levelOf t.literal.Variable = 0) &&
        !decide (t.literal.Negated ∈ [(trail.get source_trail_index).Negated])) c.terms hpos
      have h3 := terms_coefficient_pos c hwf t ht
      have h4 := terms_coefficient_pos c hwf term hterm
      omega
  · obtain ⟨m, hreason, hlim⟩ := FillReason_core c hwf hnd trail source_trail_index term hterm
      hnot hforced hr0 hr1 hr2 hrhs
    rw [hreason]
    have hlnd : c.literals_.Nodup := List.Nodup.of_map _ hnd
    have hK : ∀ t : LiteralWithCoeff,
        inReason trail source_trail_index term.literal.Variable
          trail.need_fixed_literals_in_reason t = true →
        trail.trueBelow (source_trail_index + 1) t.literal = true := by
      intro t ht
      unfold inReason trueAtSource at ht
      unfold Trail.trueBelow
      simp only [Bool.and_eq_true, decide_eq_true_eq] at ht ⊢
      exact ⟨ht.1.2.1, by omega⟩
    have h1 : ∀ r ∈ reasonFrom (inReason trail source_trail_index term.literal.Variable
          trail.need_fixed_literals_in_reason) c.terms m,
        ∃ t ∈ c.terms, r = t.literal.Negated ∧
          trail.trueBelow (source_trail_index + 1) t.literal = true := by
      intro r hr
      obtain ⟨q, t, -, hqt, hp, rfl⟩ := mem_reasonFrom _ _ _ _ hr
      exact ⟨t, List.mem_iff_getElem?.2 ⟨q, hqt⟩, rfl, hK t hp⟩
    refine ⟨h1, ?_, ?_⟩
    · rw [← hreason]
      apply hpart1
      rw [hreason]
      exact h1
    · have hA := coefficientsOf_mono
        (inReason trail source_trail_index term.literal.Variable
          trail.need_fixed_literals_in_reason)
        (fun t => decide (t.literal.Negated ∈
          reasonFrom (inReason trail source_trail_index term.literal.Variable
            trail.need_fixed_literals_in_reason) c.terms m)) (c.terms.drop m) c.terms
        (List.drop_sublist _ _)
        (by
          intro t ht hp
          simp only [decide_eq_true_eq]
          unfold reasonFrom
          simp only [List.mem_map, List.mem_reverse, List.mem_filter]
          exact ⟨t, ⟨ht, hp⟩, rfl⟩) hpos
      have hB := coefficientsOf_mono
        (fun t => trueAtSource trail source_trail_index term.literal.Variable t &&
          !inReason trail source_trail_index term.literal.Variable
            trail.need_fixed_literals_in_reason t)
        (fun t => trail.trueBelow (source_trail_index + 1) t.literal &&
          decide (trail.levelOf t.literal.Variable = 0) &&
          !decide (t.literal.Negated ∈
            reasonFrom (inReason trail source_trail_index term.literal.Variable
              trail.need_fixed_literals_in_reason) c.terms m)) c.terms c.terms
        (List.Sublist.refl _)
        (by
          intro t ht hp
          simp only [Bool.and_eq_true, Bool.not_eq_true', decide_eq_true_eq,
            decide_eq_false_iff_not] at hp ⊢
          obtain ⟨hk, hnp⟩ := hp
          refine ⟨⟨?_, ?_⟩, ?_⟩
          · unfold trueAtSource at hk
            unfold Trail.trueBelow
            simp only [Bool.and_eq_true, decide_eq_true_eq] at hk ⊢
            exact ⟨hk.2.1, by omega⟩
          · unfold inReason at hnp
            rw [hk] at hnp
            simp only [Bool.true_and, Bool.or_eq_false_iff, decide_eq_false_iff_not,
              not_not] at hnp
            exact hnp.2
          · intro hmem
            obtain ⟨q2, t2, -, hqt2, hp2, hneg⟩ := mem_reasonFrom _ _ _ _ hmem
            obtain ⟨q1, hq1⟩ := List.mem_iff_getElem?.1 ht
            have hq := terms_position_unique c hlnd q1 q2 t t2 hq1 hqt2
              (Literal.Negated_injective _ _ hneg)
            rw [hq, hqt2] at hq1
            cases hq1
            rw [hp2] at hnp
            exact Bool.noConfusion hnp) hpos
      have hsplit1 := coefficientsOf_split_test
        (trueAtSource trail source_trail_index term.literal.Variable)
        (inReason trail source_trail_index term.literal.Variable
          trail.need_fixed_literals_in_reason) c.terms
      have hKP : coefficientsOf (fun t =>
          trueAtSource trail source_trail_index term.literal.Variable t &&
          inReason trail source_trail_index term.literal.Variable
            trail.need_fixed_literals_in_reason t) c.terms =
          coefficientsOf (inReason trail source_trail_index term.literal.Variable
            trail.need_fixed_literals_in_reason) c.terms := by
        unfold coefficientsOf
        congr 2
        apply List.filter_congr
        intro t _
        unfold inReason
        cases trueAtSource trail source_trail_index term.literal.Variable t <;> rfl
      have hsplit2 := coefficientsOf_split
        (inReason trail source_trail_index term.literal.Variable
          trail.need_fixed_literals_in_reason) c.terms m
      have hsum := coefficientsOf_trueAtSource c hnd trail source_trail_index term hterm hnot
      unfold UpperBoundedLinearConstraint.currentRhs at hlim
      rw [← hsum, hsplit1, hKP, hsplit2] at hlim
      omega

/-- C30 (amended).  For a well formed constraint without a variable twice and a
term of it that `Propagate` called for the source trail index `s` fixes to
false (its coefficient is greater than the current right hand side, `rhs_`
minus the coefficients of the literals true at a trail index at most `s`, and
its literal is not among those), with the current right hand side and that
difference in 64 bits and, when `rhs_` is 1, the literal at the trail index
`s` a literal of the constraint (the call comes from `PropagateNext`): the
reason `FillReason` returns, empty or not, holds only negations of literals
of the constraint that are true at a trail index at most `s`, so that every
literal of the reason is false; and the coefficients of the literals whose
negation is in the reason, plus the coefficients of the literals true at
level 0 at a trail index at most `s` that are left out of the reason, plus
the coefficient of the propagated literal, exceed `rhs_`. -/
theorem FillReason_reason (c : UpperBoundedLinearConstraint) (hwf : c.WellFormed)
    (hnd : (c.literals_.map (fun l => l.Variable)).Nodup) (trail : Trail)
    (hn : (trail.entries.map (fun e => e.literal.Variable)).Nodup)
    (source_trail_index : Nat) (term : LiteralWithCoeff) (hterm : term ∈ c.terms)
    (hnot : trail.trueBelow (source_trail_index + 1) term.literal = false)
    (hforced : c.currentRhs trail (source_trail_index + 1) < term.coefficient)
    (hr0 : IsInt64 c.rhs_) (hr1 : IsInt64 (c.currentRhs trail (source_trail_index + 1)))
    (hr2 : IsInt64 (term.coefficient - c.currentRhs trail (source_trail_index + 1)))
    (hsource : c.rhs_ = 1 → source_trail_index < trail.Index ∧
      ∃ t ∈ c.terms, t.literal = trail.get source_trail_index) :
    (∀ r ∈ c.FillReason trail source_trail_index term.literal.Variable,
      ∃ t ∈ c.terms, r = t.literal.Negated ∧
        trail.trueBelow (source_trail_index + 1) t.literal = true) ∧
    (∀ r ∈ c.FillReason trail source_trail_index term.literal.Variable,
      trail.IsLiteralFalse r = true) ∧
    c.rhs_ <
      coefficientsOf (fun t => decide (t.literal.Negated ∈
        c.FillReason trail source_trail_index term.literal.Variable)) c.terms +
      coefficientsOf (fun t => trail.trueBelow (source_trail_index + 1) t.literal &&
        decide (trail.levelOf t.literal.Variable = 0) &&
        !decide (t.literal.Negated ∈
          c.FillReason trail source_trail_index term.literal.Variable)) c.terms +
      term.coefficient :=
  FillReason_valid c hwf hnd trail hn source_trail_index term hterm hnot hforced hr0 hr1 hr2
    hsource

/-- C30, an instance: for `x0 + 3 x1 + 3 x2 <= 4` with the decisions `x0` and `x1`
on the trail, the negation of `x2` is propagated for the trail index 1; the
second loop of `FillReason` drops the negation of `x0` and the reason is the
negation of `x1`, with `3 + 3 > 4`. -/
theorem FillReason_reason_witness :
    reasonExampleConstraint.FillReason reasonExampleTrail 1 2 = [⟨3⟩] ∧
    (∀ r ∈ reasonExampleConstraint.FillReason reasonExampleTrail 1 2,
      ∃ t ∈ reasonExampleConstraint.terms, r = t.literal.Negated ∧
        reasonExampleTrail.trueBelow (1 + 1) t.literal = true) ∧
    (∀ r ∈ reasonExampleConstraint.FillReason reasonExampleTrail 1 2,
      reasonExampleTrail.IsLiteralFalse r = true) ∧
    4 < coefficientsOf (fun t => decide (t.literal.Negated ∈
        reasonExampleConstraint.FillReason reasonExampleTrail 1 2))
        reasonExampleConstraint.terms +
      coefficientsOf (fun t => reasonExampleTrail.trueBelow (1 + 1) t.literal &&
        decide (reasonExampleTrail.levelOf t.literal.Variable = 0) &&
        !decide (t.literal.Negated ∈
          reasonExampleConstraint.FillReason reasonExampleTrail 1 2))
        reasonExampleConstraint.terms + 3 :=
  ⟨by decide,
    FillReason_reason reasonExampleConstraint
      ⟨by decide, by decide, by decide, by decide, by decide, by decide⟩ (by decide)
      reasonExampleTrail (by decide) 1 ⟨⟨4⟩, 3⟩ (by decide) (by decide) (by decide)
      (by decide) (by decide) (by decide) (fun h => absurd h (by decide))⟩

/-- C30, the claim as stated fails in two ways.  First the reason can be empty:
`x0 + 2 x1 <= 2` is added to the empty store, `x0` is enqueued at level 0 and
`PropagateNext` propagates the negation of `x1` for the trail index 0; the only
true literal is at level 0, and `FillReason` returns the empty reason.  Second,
when `rhs_` is 1 and the propagation comes from `InitializeRhs`, the reason is
not made of negations of literals of the constraint: with `x0` on the trail
and the cursor of the store at 1, adding `x0 + x1 <= 1` propagates the
negation of `x1` for the trail index 1, where it is enqueued itself, and
`FillReason` returns `x1`, the negation of the propagated literal. -/
theorem FillReason_reason_counterexample :
    emptyReasonExample.1 = true ∧
    emptyReasonExample.2.2.entries =
      [⟨⟨0⟩, 0, AssignmentInfo.UNIT_REASON none⟩, ⟨⟨3⟩, 0, AssignmentInfo.PB_PROPAGATION 0 0⟩] ∧
    emptyReasonExample.2.1.constraints_ = [⟨[⟨0⟩, ⟨2⟩], [1, 2], [0, 1, 2], 2, 0, 1, none⟩] ∧
    UpperBoundedLinearConstraint.FillReason ⟨[⟨0⟩, ⟨2⟩], [1, 2], [0, 1, 2], 2, 0, 1, none⟩
      emptyReasonExample.2.2 0 1 = [] ∧
    sourceReasonExample.1 = true ∧
    sourceReasonExample.2.2.entries =
      [⟨⟨0⟩, 0, AssignmentInfo.UNIT_REASON none⟩, ⟨⟨3⟩, 0, AssignmentInfo.PB_PROPAGATION 1 0⟩] ∧
    sourceReasonExample.2.1.constraints_ = [⟨[⟨0⟩, ⟨2⟩], [1], [0, 2], 1, -1, 0, none⟩] ∧
    UpperBoundedLinearConstraint.terms ⟨[⟨0⟩, ⟨2⟩], [1], [0, 2], 1, -1, 0, none⟩ =
      [⟨⟨0⟩, 1⟩, ⟨⟨2⟩, 1⟩] ∧
    UpperBoundedLinearConstraint.FillReason ⟨[⟨0⟩, ⟨2⟩], [1], [0, 2], 1, -1, 0, none⟩
      sourceReasonExample.2.2 1 1 = [⟨2⟩] ∧
    (⟨0⟩ : Literal).Negated ≠ ⟨2⟩ ∧ (⟨2⟩ : Literal).Negated ≠ ⟨2⟩ :=
  ⟨by decide, by decide, by decide, by decide, by decide, by decide, by decide, by decide,
    by decide, by decide, by decide⟩

theorem literalValue_cases (a : Assignment) (l : Literal) :
    literalValue a l = 0 ∨ literalValue a l = 1 := by
  unfold literalValue
  split
  · exact Or.inr rfl
  · exact Or.inl rfl

/-- What `isCanonicalFrom previous` checks: the coefficients are sorted
ascending and none is below `previous`. -/
theorem isCanonicalFrom_iff : ∀ (l : List LiteralWithCoeff) (previous : Int),
    isCanonicalFrom previous l = true ↔
      (l.Pairwise (fun x y => x.coefficient ≤ y.coefficient) ∧
        ∀ t ∈ l, previous ≤ t.coefficient)
  | [], _ => by simp [isCanonicalFrom]
  | t :: rest, previous => by
    unfold isCanonicalFrom
    by_cases h : t.coefficient < previous
    · simp only [h, if_true, Bool.false_eq_true, false_iff]
      intro hc
      have := hc.2 t (List.mem_cons_self _ _)
      omega
    · simp only [h, if_false]
      rw [isCanonicalFrom_iff rest t.coefficient, List.pairwise_cons]
      constructor
      · rintro ⟨h1, h2⟩
        refine ⟨⟨h2, h1⟩, ?_⟩
        intro u hu
        rcases List.mem_cons.1 hu with hu | hu
        · subst hu
          omega
        · have := h2 u hu
          omega
      · rintro ⟨⟨h1, h2⟩, _⟩
        exact ⟨h2, h1⟩

/-- With non-negative coefficients, the value of an expression is at least the
value of each of its terms. -/
theorem expressionValue_ge_term (a : Assignment) : ∀ (l : List LiteralWithCoeff),
    (∀ t ∈ l, 0 ≤ t.coefficient) → ∀ t ∈ l,
      t.coefficient * literalValue a t.literal ≤ expressionValue a l
  | [], _, t, ht => absurd ht (List.not_mem_nil t)
  | u :: rest, hpos, t, ht => by
    have hu : 0 ≤ u.coefficient * literalValue a u.literal := by
      have := hpos u (List.mem_cons_self _ _)
      rcases literalValue_cases a u.literal with h | h <;> rw [h] <;> omega
    have hrest : 0 ≤ expressionValue a rest := by
      unfold expressionValue
      apply List.sum_nonneg
      intro x hx
      obtain ⟨v, hv, rfl⟩ := List.mem_map.1 hx
      have := hpos v (List.mem_cons_of_mem _ hv)
      rcases literalValue_cases a v.literal with h | h <;> rw [h] <;> omega
    have hcons : expressionValue a (u :: rest) =
        u.coefficient * literalValue a u.literal + expressionValue a rest := by
      simp [expressionValue]
    rw [hcons]
    rcases List.mem_cons.1 ht with h | h
    · subst h
      omega
    · have := expressionValue_ge_term a rest
        (fun v hv => hpos v (List.mem_cons_of_mem _ hv)) t h
      omega

/-- Two term lists with the same term values have the same value. -/
theorem expressionValue_map_congr (a : Assignment) (f : LiteralWithCoeff → LiteralWithCoeff) :
    ∀ (l : List LiteralWithCoeff),
      (∀ t ∈ l, (f t).coefficient * literalValue a (f t).literal =
        t.coefficient * literalValue a t.literal) →
      expressionValue a (l.map f) = expressionValue a l
  | [], _ => rfl
  | u :: rest, h => by
    have h1 := h u (List.mem_cons_self _ _)
    have h2 := expressionValue_map_congr a f rest
      (fun v hv => h v (List.mem_cons_of_mem _ hv))
    unfold expressionValue at h2 ⊢
    simp only [List.map_cons, List.sum_cons]
    rw [h1, h2]

/-- Claim C34. For every `rhs ≥ 0` and every term list accepted by
`BooleanLinearExpressionIsCanonical`, the list that
`SimplifyCanonicalBooleanLinearConstraint` leaves is accepted by
`BooleanLinearExpressionIsCanonical` too, and under every Boolean assignment the
simplified constraint `sum ≤ rhs` holds exactly when the original one does.
(`rhs + 1` is only stored when a 64-bit coefficient exceeds `rhs`, so it does not
wrap.) -/
theorem Simplify_keeps_canonical_and_solutions (cst : List LiteralWithCoeff) (rhs : Int)
    (hrhs : 0 ≤ rhs) (hcan : BooleanLinearExpressionIsCanonical cst = true) :
    BooleanLinearExpressionIsCanonical (SimplifyCanonicalBooleanLinearConstraint cst rhs) = true ∧
      ∀ a : Assignment,
        (expressionValue a (SimplifyCanonicalBooleanLinearConstraint cst rhs) ≤ rhs ↔
          expressionValue a cst ≤ rhs) := by
  unfold BooleanLinearExpressionIsCanonical at hcan ⊢
  rw [isCanonicalFrom_iff] at hcan ⊢
  obtain ⟨hsorted, hone⟩ := hcan
  have hcoef : ∀ t : LiteralWithCoeff,
      (if t.coefficient > rhs then { t with coefficient := rhs + 1 } else t).coefficient =
        if t.coefficient > rhs then rhs + 1 else t.coefficient := by
    intro t
    split <;> rfl
  have hlit : ∀ t : LiteralWithCoeff,
      (if t.coefficient > rhs then { t with coefficient := rhs + 1 } else t).literal =
        t.literal := by
    intro t
    split <;> rfl
  refine ⟨⟨?_, ?_⟩, ?_⟩
  · unfold SimplifyCanonicalBooleanLinearConstraint
    rw [List.pairwise_map]
    refine hsorted.imp ?_
    intro x y hxy
    rw [hcoef, hcoef]
    split <;> split <;> omega
  · intro t ht
    unfold SimplifyCanonicalBooleanLinearConstraint at ht
    obtain ⟨u, hu, rfl⟩ := List.mem_map.1 ht
    rw [hcoef]
    have := hone u hu
    split <;> omega
  · intro a
    have hpos : ∀ t ∈ cst, 0 ≤ t.coefficient := fun t ht => by
      have := hone t ht
      omega
    have hpos2 : ∀ t ∈ SimplifyCanonicalBooleanLinearConstraint cst rhs, 0 ≤ t.coefficient := by
      intro t ht
      unfold SimplifyCanonicalBooleanLinearConstraint at ht
      obtain ⟨u, hu, rfl⟩ := List.mem_map.1 ht
      rw [hcoef]
      have := hone u hu
      split <;> omega
    by_cases hbig : ∃ t ∈ cst, t.coefficient > rhs ∧ literalValue a t.literal = 1
    · obtain ⟨t, ht, hgt, hval⟩ := hbig
      have h1 := expressionValue_ge_term a cst hpos t ht
      rw [hval] at h1
      have hmem : (if t.coefficient > rhs then { t with coefficient := rhs + 1 } else t) ∈
          SimplifyCanonicalBooleanLinearConstraint cst rhs :=
        List.mem_map.2 ⟨t, ht, rfl⟩
      have h2 := expressionValue_ge_term a _ hpos2 _ hmem
      rw [hcoef, hlit, hval, if_pos hgt] at h2
      constructor <;> intro h <;> omega
    · have heq : expressionValue a (SimplifyCanonicalBooleanLinearConstraint cst rhs) =
          expressionValue a cst := by
        unfold SimplifyCanonicalBooleanLinearConstraint
        apply expressionValue_map_congr
        intro t ht
        rw [hcoef, hlit]
        by_cases hgt : t.coefficient > rhs
        · have hval : literalValue a t.literal = 0 := by
            rcases literalValue_cases a t.literal with h | h
            · exact h
            · exact absurd ⟨t, ht, hgt, h⟩ hbig
          rw [hval]
          simp
        · rw [if_neg hgt]
      rw [heq]

theorem Simplify_keeps_canonical_and_solutions_witness :
    (0 : Int) ≤ 2 ∧ BooleanLinearExpressionIsCanonical [⟨⟨0⟩, 1⟩, ⟨⟨2⟩, 2⟩, ⟨⟨4⟩, 5⟩] = true ∧
      SimplifyCanonicalBooleanLinearConstraint [⟨⟨0⟩, 1⟩, ⟨⟨2⟩, 2⟩, ⟨⟨4⟩, 5⟩] 2 =
        [⟨⟨0⟩, 1⟩, ⟨⟨2⟩, 2⟩, ⟨⟨4⟩, 3⟩] ∧
      (BooleanLinearExpressionIsCanonical
          (SimplifyCanonicalBooleanLinearConstraint [⟨⟨0⟩, 1⟩, ⟨⟨2⟩, 2⟩, ⟨⟨4⟩, 5⟩] 2) = true ∧
        ∀ a : Assignment,
          (expressionValue a
              (SimplifyCanonicalBooleanLinearConstraint [⟨⟨0⟩, 1⟩, ⟨⟨2⟩, 2⟩, ⟨⟨4⟩, 5⟩] 2) ≤ 2 ↔
            expressionValue a [⟨⟨0⟩, 1⟩, ⟨⟨2⟩, 2⟩, ⟨⟨4⟩, 5⟩] ≤ 2)) :=
  ⟨by decide, by decide, by decide,
    Simplify_keeps_canonical_and_solutions [⟨⟨0⟩, 1⟩, ⟨⟨2⟩, 2⟩, ⟨⟨4⟩, 5⟩] 2
      (by decide) (by decide)⟩

/-- An expression is worth at most the sum of its coefficients minus the
coefficient of a term whose literal is false. -/
theorem expressionValue_le_of_false (a : Assignment) : ∀ (l : List LiteralWithCoeff),
    (∀ t ∈ l, 0 ≤ t.coefficient) → ∀ t ∈ l, literalValue a t.literal = 0 →
      expressionValue a l ≤ coefficientSum l - t.coefficient
  | [], _, t, ht, _ => absurd ht (List.not_mem_nil t)
  | u :: rest, hpos, t, ht, hval => by
    have hcons : expressionValue a (u :: rest) =
        u.coefficient * literalValue a u.literal + expressionValue a rest := by
      simp [expressionValue]
    have hsum : coefficientSum (u :: rest) = u.coefficient + coefficientSum rest := by
      simp [coefficientSum]
    have hu := hpos u (List.mem_cons_self _ _)
    have hle : ∀ (l : List LiteralWithCoeff), (∀ t ∈ l, 0 ≤ t.coefficient) →
        expressionValue a l ≤ coefficientSum l := by
      intro l
      induction l with
      | nil => intro _; simp [expressionValue, coefficientSum]
      | cons v l ih =>
        intro h
        have h1 := ih (fun w hw => h w (List.mem_cons_of_mem _ hw))
        have h2 := h v (List.mem_cons_self _ _)
        have e1 : expressionValue a (v :: l) =
            v.coefficient * literalValue a v.literal + expressionValue a l := by
          simp [expressionValue]
        have e2 : coefficientSum (v :: l) = v.coefficient + coefficientSum l := by
          simp [coefficientSum]
        rw [e1, e2]
        rcases literalValue_cases a v.literal with h | h <;> rw [h] <;> omega
    rw [hcons, hsum]
    rcases List.mem_cons.1 ht with h | h
    · subst h
      rw [hval]
      have := hle rest (fun v hv => hpos v (List.mem_cons_of_mem _ hv))
      omega
    · have := expressionValue_le_of_false a rest
        (fun v hv => hpos v (List.mem_cons_of_mem _ hv)) t h hval
      rcases literalValue_cases a u.literal with h | h <;> rw [h] <;> omega

/-- An expression whose literals are all true is worth the sum of its
coefficients. -/
theorem expressionValue_of_all_true (a : Assignment) : ∀ (l : List LiteralWithCoeff),
    (∀ t ∈ l, literalValue a t.literal = 1) → expressionValue a l = coefficientSum l
  | [], _ => rfl
  | u :: rest, h => by
    have h1 := h u (List.mem_cons_self _ _)
    have h2 := expressionValue_of_all_true a rest (fun v hv => h v (List.mem_cons_of_mem _ hv))
    unfold expressionValue coefficientSum at h2 ⊢
    simp only [List.map_cons, List.sum_cons]
    rw [h1, h2]
    omega

/-- Claim C32. For a canonical term list (positive coefficients sorted
ascending, one term per variable at most) with `max_value` the sum of its
coefficients, a 64-bit value, and `0 ≤ rhs < max_value`, the test
`max_value - cst[0].coefficient <= rhs` of `AddLinearConstraintInternal` holds
exactly when the constraint `sum ≤ rhs` has the satisfying assignments of the
clause made of the negated literals. -/
theorem clause_test_iff_clause (cst : List LiteralWithCoeff) (rhs : Int)
    (hpos : ∀ t ∈ cst, 0 < t.coefficient)
    (hsorted : cst.Pairwise (fun x y => x.coefficient ≤ y.coefficient))
    (hvars : (cst.map (fun t => t.literal.Variable)).Nodup)
    (hmax : IsInt64 (coefficientSum cst))
    (hrhs : 0 ≤ rhs) (hlt : rhs < coefficientSum cst) :
    sub64 (coefficientSum cst) (cst.getD 0 ⟨⟨0⟩, 0⟩).coefficient ≤ rhs ↔
      ∀ a : Assignment,
        (expressionValue a cst ≤ rhs ↔
          clauseHolds a (cst.map (fun t => t.literal.Negated)) = true) := by
  have hclause : ∀ a : Assignment,
      clauseHolds a (cst.map (fun t => t.literal.Negated)) = true ↔
        ∃ t ∈ cst, literalValue a t.literal = 0 := by
    intro a
    rw [clauseHolds_iff]
    constructor
    · rintro ⟨l, hl, hh⟩
      obtain ⟨t, ht, rfl⟩ := List.mem_map.1 hl
      refine ⟨t, ht, ?_⟩
      rw [literalHolds_Negated] at hh
      unfold literalHolds at hh
      unfold literalValue
      rw [if_neg]
      intro h
      simp [h] at hh
    · rintro ⟨t, ht, hval⟩
      refine ⟨t.literal.Negated, List.mem_map.2 ⟨t, ht, rfl⟩, ?_⟩
      rw [literalHolds_Negated]
      unfold literalHolds
      unfold literalValue at hval
      by_cases h : a t.literal.Variable = t.literal.IsPositive
      · rw [if_pos h] at hval
        omega
      · simpa using h
  cases cst with
  | nil => simp [coefficientSum] at hlt; omega
  | cons t0 rest =>
    have hsum : coefficientSum (t0 :: rest) = t0.coefficient + coefficientSum rest := by
      simp [coefficientSum]
    have h0 := hpos t0 (List.mem_cons_self _ _)
    have hrestpos : 0 ≤ coefficientSum rest := coefficientSum_nonneg rest
      (fun t ht => hpos t (List.mem_cons_of_mem _ ht))
    have hsub : sub64 (coefficientSum (t0 :: rest))
        ((t0 :: rest).getD 0 ⟨⟨0⟩, 0⟩).coefficient = coefficientSum rest := by
      have : ((t0 :: rest).getD 0 ⟨⟨0⟩, 0⟩) = t0 := rfl
      rw [this, hsum]
      unfold sub64
      rw [show t0.coefficient + coefficientSum rest - t0.coefficient = coefficientSum rest by omega]
      apply wrap64_of_IsInt64
      rw [hsum] at hmax
      unfold IsInt64 kint64min kint64max at hmax ⊢
      omega
    rw [hsub]
    have hnn : ∀ t ∈ t0 :: rest, 0 ≤ t.coefficient := fun t ht => le_of_lt (hpos t ht)
    constructor
    · intro htest a
      rw [hclause]
      constructor
      · intro hle
        by_contra hno
        have hall : ∀ t ∈ t0 :: rest, literalValue a t.literal = 1 := by
          intro t ht
          rcases literalValue_cases a t.literal with h | h
          · exact absurd ⟨t, ht, h⟩ hno
          · exact h
        rw [expressionValue_of_all_true a _ hall] at hle
        omega
      · rintro ⟨t, ht, hval⟩
        have h1 := expressionValue_le_of_false a _ hnn t ht hval
        have h2 : t0.coefficient ≤ t.coefficient := by
          rcases List.mem_cons.1 ht with h | h
          · rw [h]
          · exact (List.pairwise_cons.1 hsorted).1 t h
        rw [hsum] at h1
        omega
    · intro hall
      let a : Assignment := fun v =>
        if v = t0.literal.Variable then !t0.literal.IsPositive
        else decide (∃ t ∈ rest, t.literal.Variable = v ∧ t.literal.IsPositive = true)
      have hv0 : literalValue a t0.literal = 0 := by
        unfold literalValue
        rw [if_neg]
        show ¬ ((if t0.literal.Variable = t0.literal.Variable then !t0.literal.IsPositive
          else decide (∃ t ∈ rest, t.literal.Variable = t0.literal.Variable ∧
            t.literal.IsPositive = true)) = t0.literal.IsPositive)
        rw [if_pos rfl]
        cases t0.literal.IsPositive <;> simp
      rw [List.map_cons, List.nodup_cons] at hvars
      have hrest : ∀ t ∈ rest, literalValue a t.literal = 1 := by
        intro t ht
        have hne : t.literal.Variable ≠ t0.literal.Variable := by
          intro h
          exact hvars.1 (List.mem_map.2 ⟨t, ht, h⟩)
        unfold literalValue
        rw [if_pos]
        show (if t.literal.Variable = t0.literal.Variable then !t0.literal.IsPositive
          else decide (∃ u ∈ rest, u.literal.Variable = t.literal.Variable ∧
            u.literal.IsPositive = true)) = t.literal.IsPositive
        rw [if_neg hne]
        cases hp : t.literal.IsPositive
        · rw [decide_eq_false_iff_not]
          rintro ⟨u, hu, huv, hup⟩
          have : u = t := by
            have hinj := List.inj_on_of_nodup_map hvars.2
            exact hinj hu ht huv
          rw [this, hp] at hup
          exact Bool.false_ne_true hup
        · rw [decide_eq_true_iff]
          exact ⟨t, ht, rfl, hp⟩
      have hval : expressionValue a (t0 :: rest) = coefficientSum rest := by
        have hcons : expressionValue a (t0 :: rest) =
            t0.coefficient * literalValue a t0.literal + expressionValue a rest := by
          simp [expressionValue]
        rw [hcons, hv0, expressionValue_of_all_true a rest hrest]
        omega
      have := (hall a).2 ((hclause a).2 ⟨t0, List.mem_cons_self _ _, hv0⟩)
      rw [hval] at this
      exact this

theorem clause_test_iff_clause_witness :
    (sub64 (coefficientSum [⟨⟨0⟩, 1⟩, ⟨⟨2⟩, 2⟩, ⟨⟨5⟩, 2⟩])
        (([⟨⟨0⟩, 1⟩, ⟨⟨2⟩, 2⟩, ⟨⟨5⟩, 2⟩] : List LiteralWithCoeff).getD 0 ⟨⟨0⟩, 0⟩).coefficient ≤ 4) ∧
      (sub64 (coefficientSum [⟨⟨0⟩, 1⟩, ⟨⟨2⟩, 2⟩, ⟨⟨5⟩, 2⟩])
          (([⟨⟨0⟩, 1⟩, ⟨⟨2⟩, 2⟩, ⟨⟨5⟩, 2⟩] : List LiteralWithCoeff).getD 0 ⟨⟨0⟩, 0⟩).coefficient ≤ 4 ↔
        ∀ a : Assignment,
          (expressionValue a [⟨⟨0⟩, 1⟩, ⟨⟨2⟩, 2⟩, ⟨⟨5⟩, 2⟩] ≤ 4 ↔
            clauseHolds a
              (([⟨⟨0⟩, 1⟩, ⟨⟨2⟩, 2⟩, ⟨⟨5⟩, 2⟩] : List LiteralWithCoeff).map
                (fun t => t.literal.Negated)) = true)) :=
  ⟨by decide,
    clause_test_iff_clause [⟨⟨0⟩, 1⟩, ⟨⟨2⟩, 2⟩, ⟨⟨5⟩, 2⟩] 4
      (by decide) (by decide) (by decide) (by decide) (by decide) (by decide)⟩

/-- The loop of `HasIdenticalTerms` compares the list with the terms that
`termsLoop` reads. -/
theorem hasIdenticalTermsLoop_iff (c : UpperBoundedLinearConstraint) :
    ∀ (cst : List LiteralWithCoeff) (lits : List Literal) (li ci : Nat),
      c.literals_.drop li = lits → cst.length = lits.length →
      (hasIdenticalTermsLoop c cst li ci = true ↔ cst = termsLoop c lits li ci)
  | [], lits, li, ci, _, hlen => by
    have : lits = [] := List.length_eq_zero.1 hlen.symm
    subst this
    simp [hasIdenticalTermsLoop, termsLoop]
  | term :: rest, [], li, ci, _, hlen => by simp at hlen
  | term :: rest, l :: lits, li, ci, hdrop, hlen => by
    have hli : li < c.literals_.length := by
      by_contra h
      rw [List.drop_eq_nil_of_le (by omega)] at hdrop
      exact List.noConfusion hdrop
    have hget : c.literals_.getD li ⟨0⟩ = l := by
      rw [List.drop_eq_getElem_cons hli] at hdrop
      rw [List.getD_eq_getElem _ _ hli]
      exact (List.cons.inj hdrop).1
    have hdrop2 : c.literals_.drop (li + 1) = lits := by
      rw [List.drop_eq_getElem_cons hli] at hdrop
      exact (List.cons.inj hdrop).2
    have ih := hasIdenticalTermsLoop_iff c rest lits (li + 1)
      (if li + 1 = c.starts_.getD (ci + 1) 0 then ci + 1 else ci) hdrop2
      (by simpa using hlen)
    unfold hasIdenticalTermsLoop termsLoop
    rw [hget]
    by_cases h1 : l = term.literal
    · by_cases h2 : c.coeffs_.getD ci 0 = term.coefficient
      · simp only [ne_eq, h1, not_true_eq_false, if_false, h2]
        rw [ih]
        constructor
        · intro h
          rw [← h]
        · intro h
          exact (List.cons.inj h).2
      · simp only [ne_eq, h1, not_true_eq_false, if_false, h2, not_false_eq_true, if_true,
          Bool.false_eq_true, false_iff]
        intro h
        have := (List.cons.inj h).1
        rw [this] at h2
        exact h2 rfl
    · simp only [ne_eq, h1, not_false_eq_true, if_true, Bool.false_eq_true, false_iff]
      intro h
      have := (List.cons.inj h).1
      rw [this] at h1
      exact h1 rfl

/-- The test `HasIdenticalTerms(cst)` holds exactly when `cst` is, term for term,
the list of the terms of the constraint. -/
theorem HasIdenticalTerms_iff (c : UpperBoundedLinearConstraint)
    (cst : List LiteralWithCoeff) :
    c.HasIdenticalTerms cst = true ↔ cst = c.terms := by
  have hlen : ∀ (lits : List Literal) (li ci : Nat),
      (termsLoop c lits li ci).length = lits.length := by
    intro lits
    induction lits with
    | nil => intro li ci; rfl
    | cons l lits ih =>
      intro li ci
      simp [termsLoop, ih]
  unfold UpperBoundedLinearConstraint.HasIdenticalTerms UpperBoundedLinearConstraint.terms
  by_cases h : cst.length = c.literals_.length
  · simp only [ne_eq, h, not_true_eq_false, if_false]
    exact hasIdenticalTermsLoop_iff c cst c.literals_ 0 0 rfl h
  · simp only [ne_eq, h, not_false_eq_true, if_true, Bool.false_eq_true, false_iff]
    intro heq
    rw [heq, hlen] at h
    exact h rfl

/-- The vectors and the right hand side of the constraint are not changed by
`Propagate`. -/
theorem constraint_Propagate_vectors (c : UpperBoundedLinearConstraint) (self trail_index : Nat)
    (slack : Int) (trail : Trail) :
    (c.Propagate self trail_index slack trail).2.1.literals_ = c.literals_ ∧
    (c.Propagate self trail_index slack trail).2.1.coeffs_ = c.coeffs_ ∧
    (c.Propagate self trail_index slack trail).2.1.starts_ = c.starts_ ∧
    (c.Propagate self trail_index slack trail).2.1.rhs_ = c.rhs_ := by
  unfold UpperBoundedLinearConstraint.Propagate UpperBoundedLinearConstraint.Update
  dsimp only
  split <;> exact ⟨rfl, rfl, rfl, rfl⟩

/-- The vectors of the constraint are not changed by `InitializeRhs`, which
stores the right hand side given. -/
theorem InitializeRhs_vectors (c : UpperBoundedLinearConstraint) (self : Nat) (rhs : Int)
    (trail_index : Nat) (trail : Trail) :
    (c.InitializeRhs self rhs trail_index trail).2.1.literals_ = c.literals_ ∧
    (c.InitializeRhs self rhs trail_index trail).2.1.coeffs_ = c.coeffs_ ∧
    (c.InitializeRhs self rhs trail_index trail).2.1.starts_ = c.starts_ ∧
    (c.InitializeRhs self rhs trail_index trail).2.1.rhs_ = rhs := by
  unfold UpperBoundedLinearConstraint.InitializeRhs
  dsimp only
  split
  · obtain ⟨h1, h2, h3, h4⟩ := constraint_Propagate_vectors
      (UpperBoundedLinearConstraint.Update
        { c with rhs_ := rhs, index_ := (c.coeffs_.length : Int) - 1,
                 already_propagated_end_ := c.literals_.length }
        (currentRhsLoop c trail trail_index c.literals_ 0 0 rhs)).1 self trail_index
      (UpperBoundedLinearConstraint.Update
        { c with rhs_ := rhs, index_ := (c.coeffs_.length : Int) - 1,
                 already_propagated_end_ := c.literals_.length }
        (currentRhsLoop c trail trail_index c.literals_ 0 0 rhs)).2 trail
    exact ⟨h1, h2, h3, h4⟩
  · exact ⟨rfl, rfl, rfl, rfl⟩

/-- Claim C36. When `PbConstraints::AddConstraint` receives a term list for which
`HasIdenticalTerms` of the last constraint holds, no constraint is created:
with `rhs >= Rhs()` of that constraint the call returns true and leaves the
store and the trail as they were, and with `rhs < Rhs()` the number of
constraints is kept, `Rhs()` of the last constraint becomes `rhs`, its terms are
still those of the list and the other constraints are kept. -/
theorem AddConstraint_identical_terms (pb : PbConstraints) (cst : List LiteralWithCoeff)
    (rhs : Int) (node : ResolutionNodePointer) (trail : Trail)
    (last : UpperBoundedLinearConstraint)
    (hlast : pb.constraints_.getLast? = some last)
    (hid : last.HasIdenticalTerms cst = true) :
    (last.Rhs ≤ rhs → pb.AddConstraint cst rhs node trail = (true, pb, trail)) ∧
    (rhs < last.Rhs →
      (pb.AddConstraint cst rhs node trail).2.1.NumberOfConstraints = pb.NumberOfConstraints ∧
      (pb.AddConstraint cst rhs node trail).2.1.constraints_.getLast?.map
        (fun c => c.Rhs) = some rhs ∧
      (pb.AddConstraint cst rhs node trail).2.1.constraints_.getLast?.map
        (fun c => c.terms) = some cst ∧
      (pb.AddConstraint cst rhs node trail).2.1.constraints_.dropLast =
        pb.constraints_.dropLast) := by
  obtain ⟨hget, hpos⟩ := getLast?_eq_getElem? pb.constraints_ last hlast
  unfold PbConstraints.AddConstraint
  rw [hlast]
  dsimp only
  rw [hid]
  simp only [if_true]
  constructor
  · intro h
    rw [if_neg (by omega)]
  · intro h
    rw [if_pos h]
    have hlast1 : (pb.constraints_.set (pb.constraints_.length - 1)
        { last with node_ := node }).getLast? = some { last with node_ := node } := by
      rw [List.getLast?_eq_getElem?, List.length_set, List.getElem?_set_self (by omega)]
    unfold PbConstraints.lastInitializeRhs
    dsimp only
    rw [hlast1]
    dsimp only
    rw [List.length_set]
    have hterms := (InitializeRhs_vectors { last with node_ := node }
      (pb.constraints_.length - 1) rhs pb.propagation_trail_index_ trail)
    generalize UpperBoundedLinearConstraint.InitializeRhs { last with node_ := node }
      (pb.constraints_.length - 1) rhs pb.propagation_trail_index_ trail = r at hterms
    obtain ⟨ok, c1, slack, trail1, conflict⟩ := r
    dsimp only at hterms ⊢
    have hrhs := hterms.2.2.2
    unfold PbConstraints.NumberOfConstraints
    dsimp only
    refine ⟨by simp, ?_, ?_, ?_⟩
    · rw [List.getLast?_eq_getElem?]
      simp only [List.length_set, List.set_set]
      rw [List.getElem?_set_self (by omega)]
      simp [UpperBoundedLinearConstraint.Rhs, hrhs]
    · rw [List.getLast?_eq_getElem?]
      simp only [List.length_set, List.set_set]
      rw [List.getElem?_set_self (by omega)]
      simp only [Option.map_some']
      rw [(HasIdenticalTerms_iff last cst).1 hid]
      congr 1
      unfold UpperBoundedLinearConstraint.terms
      exact terms_congr last c1 hterms.1 hterms.2.1 hterms.2.2.1
    · simp only [List.set_set]
      rw [List.dropLast_eq_take, List.dropLast_eq_take, List.length_set]
      apply List.ext_getElem?
      intro i
      rw [List.getElem?_take, List.getElem?_take]
      split
      · rw [List.getElem?_set_ne (by omega)]
      · rfl

theorem AddConstraint_identical_terms_witness :
    pbExample.constraints_.getLast? = some pbExampleConstraint ∧
    pbExampleConstraint.HasIdenticalTerms [⟨⟨2⟩, 1⟩, ⟨⟨0⟩, 3⟩] = true ∧
    (2 : Int) < pbExampleConstraint.Rhs ∧
    ((pbExampleConstraint.Rhs ≤ 2 →
        pbExample.AddConstraint [⟨⟨2⟩, 1⟩, ⟨⟨0⟩, 3⟩] 2 none Trail.empty =
          (true, pbExample, Trail.empty)) ∧
      ((2 : Int) < pbExampleConstraint.Rhs →
        (pbExample.AddConstraint [⟨⟨2⟩, 1⟩, ⟨⟨0⟩, 3⟩] 2 none
            Trail.empty).2.1.NumberOfConstraints = pbExample.NumberOfConstraints ∧
        (pbExample.AddConstraint [⟨⟨2⟩, 1⟩, ⟨⟨0⟩, 3⟩] 2 none
            Trail.empty).2.1.constraints_.getLast?.map (fun c => c.Rhs) = some 2 ∧
        (pbExample.AddConstraint [⟨⟨2⟩, 1⟩, ⟨⟨0⟩, 3⟩] 2 none
            Trail.empty).2.1.constraints_.getLast?.map (fun c => c.terms) =
          some [⟨⟨2⟩, 1⟩, ⟨⟨0⟩, 3⟩] ∧
        (pbExample.AddConstraint [⟨⟨2⟩, 1⟩, ⟨⟨0⟩, 3⟩] 2 none
            Trail.empty).2.1.constraints_.dropLast = pbExample.constraints_.dropLast)) :=
  ⟨rfl, by decide, by decide,
    AddConstraint_identical_terms pbExample [⟨⟨2⟩, 1⟩, ⟨⟨0⟩, 3⟩] 2 none Trail.empty
      pbExampleConstraint rfl (by decide)⟩

/-- The loop of `ComputeLbd` on levels below the size of the bitset: it ends, and
the positions recorded are, without repetition, those recorded before and the
positive levels of the literals. -/
theorem computeLbdLoop_spec (s : SatSolver) (size : Nat) :
    ∀ (rest : List Literal) (b : SparseBitset),
      (∀ l ∈ rest, s.DecisionLevel l.Variable < size) →
      b.to_clear_.Nodup → (∀ x, b.get x = true ↔ x ∈ b.to_clear_) →
      ∃ b1, computeLbdLoop s size rest b = some b1 ∧ b1.to_clear_.Nodup ∧
        (∀ x, b1.get x = true ↔ x ∈ b1.to_clear_) ∧
        ∀ x, x ∈ b1.to_clear_ ↔
          (x ∈ b.to_clear_ ∨
            (0 < x ∧ x ∈ rest.map (fun l => s.DecisionLevel l.Variable)))
  | [], b, _, hn, hg => ⟨b, rfl, hn, hg, fun x => by simp⟩
  | literal :: rest, b, hlt, hn, hg => by
    have hrest : ∀ l ∈ rest, s.DecisionLevel l.Variable < size :=
      fun l hl => hlt l (List.mem_cons_of_mem _ hl)
    have hl := hlt literal (List.mem_cons_self _ _)
    unfold computeLbdLoop
    dsimp only
    by_cases hpos : s.DecisionLevel literal.Variable > 0
    · rw [if_pos hpos, if_neg (by omega)]
      by_cases hm : b.get (s.DecisionLevel literal.Variable) = true
      · rw [if_neg (by simp [hm])]
        obtain ⟨b1, h1, h2, h3, h4⟩ := computeLbdLoop_spec s size rest b hrest hn hg
        refine ⟨b1, h1, h2, h3, ?_⟩
        intro x
        rw [h4 x, List.map_cons, List.mem_cons]
        constructor
        · rintro (h | ⟨h, h5⟩)
          · exact Or.inl h
          · exact Or.inr ⟨h, Or.inr h5⟩
        · rintro (h | ⟨h, h5 | h5⟩)
          · exact Or.inl h
          · left
            rw [h5]
            exact (hg _).1 hm
          · exact Or.inr ⟨h, h5⟩
      · rw [if_pos (by simp [hm])]
        have hset : b.Set (s.DecisionLevel literal.Variable) =
            ⟨b.bitset_ ++ [s.DecisionLevel literal.Variable],
              b.to_clear_ ++ [s.DecisionLevel literal.Variable]⟩ := by
          unfold SparseBitset.Set
          rw [if_neg hm]
        have hnot : s.DecisionLevel literal.Variable ∉ b.to_clear_ :=
          fun h => hm ((hg _).2 h)
        obtain ⟨b1, h1, h2, h3, h4⟩ := computeLbdLoop_spec s size rest
          (b.Set (s.DecisionLevel literal.Variable)) hrest
          (by
            rw [hset]
            exact List.Nodup.append hn (List.nodup_singleton _)
              (by
                intro x hx hx2
                rw [List.mem_singleton] at hx2
                rw [hx2] at hx
                exact hnot hx))
          (by
            intro x
            rw [hset]
            have := hg x
            unfold SparseBitset.get at this ⊢
            simp only [List.contains_eq_any_beq, List.any_append, Bool.or_eq_true,
              List.mem_append] at this ⊢
            rw [this]
            simp)
        refine ⟨b1, h1, h2, h3, ?_⟩
        intro x
        rw [h4 x, hset, List.map_cons, List.mem_cons]
        simp only [List.mem_append, List.mem_singleton]
        constructor
        · rintro ((h | h) | ⟨h, h5⟩)
          · exact Or.inl h
          · right
            rw [h]
            exact ⟨hpos, Or.inl rfl⟩
          · exact Or.inr ⟨h, Or.inr h5⟩
        · rintro (h | ⟨h, h5 | h5⟩)
          · exact Or.inl (Or.inl h)
          · exact Or.inl (Or.inr h5)
          · exact Or.inr ⟨h, h5⟩
    · rw [if_neg hpos]
      obtain ⟨b1, h1, h2, h3, h4⟩ := computeLbdLoop_spec s size rest b hrest hn hg
      refine ⟨b1, h1, h2, h3, ?_⟩
      intro x
      rw [h4 x, List.map_cons, List.mem_cons]
      constructor
      · rintro (h | ⟨h, h5⟩)
        · exact Or.inl h
        · exact Or.inr ⟨h, Or.inr h5⟩
      · rintro (h | ⟨h, h5 | h5⟩)
        · exact Or.inl h
        · omega
        · exact Or.inr ⟨h, h5⟩

/-- Claim C35. For every non-empty list of assigned literals whose first literal
has the highest decision level of the list, `ComputeLbd` returns the number of
distinct decision levels greater than 0 among the levels of its literals. -/
theorem ComputeLbd_spec (s : SatSolver) (first : Literal) (rest : List Literal)
    (_hassigned : ∀ l ∈ first :: rest, s.trail_.IsVariableAssigned l.Variable = true)
    (hfirst : ∀ l ∈ first :: rest,
      s.DecisionLevel l.Variable ≤ s.DecisionLevel first.Variable) :
    s.ComputeLbd (first :: rest) =
      some (((first :: rest).map (fun l => s.DecisionLevel l.Variable)).filter
        (fun level => decide (0 < level))).toFinset.card := by
  obtain ⟨b1, h1, h2, -, h4⟩ := computeLbdLoop_spec s (s.DecisionLevel first.Variable + 1)
    (first :: rest) SparseBitset.ClearAndResize
    (fun l hl => Nat.lt_succ_of_le (hfirst l hl)) List.nodup_nil
    (fun x => by simp [SparseBitset.get, SparseBitset.ClearAndResize])
  unfold SatSolver.ComputeLbd
  dsimp only
  rw [h1]
  dsimp only
  unfold SparseBitset.NumberOfSetCallsWithDifferentArguments
  rw [← List.toFinset_card_of_nodup h2]
  congr 2
  ext x
  rw [List.mem_toFinset, List.mem_toFinset, h4 x, List.mem_filter]
  simp only [SparseBitset.ClearAndResize, List.not_mem_nil, false_or, decide_eq_true_eq]
  exact And.comm

theorem ComputeLbd_spec_witness :
    (∀ l ∈ ([⟨4⟩, ⟨1⟩, ⟨3⟩] : List Literal),
      ({ SatSolver.Create ⟨false, false, 0⟩ with trail_ := reasonExampleTrail }
        : SatSolver).trail_.IsVariableAssigned l.Variable = true) ∧
    (∀ l ∈ ([⟨4⟩, ⟨1⟩, ⟨3⟩] : List Literal),
      ({ SatSolver.Create ⟨false, false, 0⟩ with trail_ := reasonExampleTrail }
          : SatSolver).DecisionLevel l.Variable ≤
        ({ SatSolver.Create ⟨false, false, 0⟩ with trail_ := reasonExampleTrail }
          : SatSolver).DecisionLevel (⟨4⟩ : Literal).Variable) ∧
    ({ SatSolver.Create ⟨false, false, 0⟩ with trail_ := reasonExampleTrail }
        : SatSolver).ComputeLbd [⟨4⟩, ⟨1⟩, ⟨3⟩] = some 2 :=
  ⟨by decide, by decide,
    (ComputeLbd_spec { SatSolver.Create ⟨false, false, 0⟩ with trail_ := reasonExampleTrail }
      ⟨4⟩ [⟨1⟩, ⟨3⟩] (by decide) (by decide)).trans (by decide)⟩

/-- The scan of `Propagate`: the trail grows at its end by negations of literals
of the positions scanned, and an entry enqueued with the same reason as a
variable `v` comes after the entry of `v`: either `v` was the first propagated
variable before the scan, or the scan enqueued the negation of the literal of
`v`, of a position before. -/
theorem propagateScan_same_reason (c : UpperBoundedLinearConstraint) (self trail_index : Nat) :
    ∀ (count i : Nat) (st : PropagateScan),
    ∃ new : List TrailEntry,
      (propagateScan c self trail_index count i st).trail.entries = st.trail.entries ++ new ∧
      ∀ e ∈ new, ∃ p, i ≤ p ∧ p < i + count ∧
        e.literal = (c.literals_.getD p ⟨0⟩).Negated ∧
        ∀ v, e.info = AssignmentInfo.SAME_REASON_AS v →
          (st.first_propagated_variable = some v ∨
            ∃ q, i ≤ q ∧ q < p ∧ (c.literals_.getD q ⟨0⟩).Variable = v ∧
              ∃ e0 ∈ new, e0.literal = (c.literals_.getD q ⟨0⟩).Negated ∧
                  e0.info = AssignmentInfo.PB_PROPAGATION trail_index self)
  | 0, i, st => ⟨[], by simp [propagateScan], fun e he => absurd he (List.not_mem_nil e)⟩
  | count + 1, i, st => by
    unfold propagateScan
    dsimp only
    have same : ∃ new : List TrailEntry,
        (propagateScan c self trail_index count (i + 1) st).trail.entries =
          st.trail.entries ++ new ∧
        ∀ e ∈ new, ∃ p, i ≤ p ∧ p < i + (count + 1) ∧
          e.literal = (c.literals_.getD p ⟨0⟩).Negated ∧
          ∀ v, e.info = AssignmentInfo.SAME_REASON_AS v →
            (st.first_propagated_variable = some v ∨
              ∃ q, i ≤ q ∧ q < p ∧ (c.literals_.getD q ⟨0⟩).Variable = v ∧
                ∃ e0 ∈ new, e0.literal = (c.literals_.getD q ⟨0⟩).Negated ∧
                  e0.info = AssignmentInfo.PB_PROPAGATION trail_index self) := by
      obtain ⟨new, h1, h2⟩ := propagateScan_same_reason c self trail_index count (i + 1) st
      refine ⟨new, h1, ?_⟩
      intro e he
      obtain ⟨p, p1, p2, p3, p4⟩ := h2 e he
      refine ⟨p, by omega, by omega, p3, ?_⟩
      intro v hv
      rcases p4 v hv with h | ⟨q, q1, q2, q3, q4⟩
      · exact Or.inl h
      · exact Or.inr ⟨q, by omega, q2, q3, q4⟩
    split
    · exact same
    · split
      · split
        · exact ⟨[], by simp, fun e he => absurd he (List.not_mem_nil e)⟩
        · exact same
      · split
        · rename_i hfirst
          obtain ⟨new, h1, h2⟩ := propagateScan_same_reason c self trail_index count (i + 1)
            { st with trail := (st.trail.Enqueue (c.literals_.getD i ⟨0⟩).Negated
                        (AssignmentInfo.PB_PROPAGATION trail_index self)),
                      first_propagated_variable := some (c.literals_.getD i ⟨0⟩).Variable }
          refine ⟨⟨(c.literals_.getD i ⟨0⟩).Negated, st.trail.current_decision_level,
            AssignmentInfo.PB_PROPAGATION trail_index self⟩ :: new, ?_, ?_⟩
          · rw [h1]
            simp [Trail.Enqueue]
          · intro e he
            rcases List.mem_cons.1 he with he | he
            · refine ⟨i, le_refl _, by omega, by rw [he], ?_⟩
              intro v hv
              rw [he] at hv
              exact AssignmentInfo.noConfusion hv
            · obtain ⟨p, p1, p2, p3, p4⟩ := h2 e he
              refine ⟨p, by omega, by omega, p3, ?_⟩
              intro v hv
              right
              rcases p4 v hv with h | ⟨q, q1, q2, q3, e0, q4, q5⟩
              · dsimp only at h
                refine ⟨i, le_refl _, by omega, Option.some.inj h, _, List.mem_cons_self _ _, rfl, rfl⟩
              · exact ⟨q, by omega, q2, q3, e0, List.mem_cons_of_mem _ q4, q5⟩
        · rename_i first hfirst
          obtain ⟨new, h1, h2⟩ := propagateScan_same_reason c self trail_index count (i + 1)
            { st with trail := (st.trail.Enqueue (c.literals_.getD i ⟨0⟩).Negated
                        (AssignmentInfo.SAME_REASON_AS first)) }
          refine ⟨⟨(c.literals_.getD i ⟨0⟩).Negated, st.trail.current_decision_level,
            AssignmentInfo.SAME_REASON_AS first⟩ :: new, ?_, ?_⟩
          · rw [h1]
            simp [Trail.Enqueue]
          · intro e he
            rcases List.mem_cons.1 he with he | he
            · refine ⟨i, le_refl _, by omega, by rw [he], ?_⟩
              intro v hv
              rw [he] at hv
              left
              rw [hfirst]
              exact congrArg some (AssignmentInfo.SAME_REASON_AS.inj hv)
            · obtain ⟨p, p1, p2, p3, p4⟩ := h2 e he
              refine ⟨p, by omega, by omega, p3, ?_⟩
              intro v hv
              rcases p4 v hv with h | ⟨q, q1, q2, q3, e0, q4, q5⟩
              · exact Or.inl h
              · exact Or.inr ⟨q, by omega, q2, q3, e0, List.mem_cons_of_mem _ q4, q5⟩

/-- Claim C31 (amended).  `Propagate` is called for the trail index `s` on a well
formed constraint without a variable twice, with the cursor in range,
`already_propagated_end_` at the start of the group above the cursor and a
slack that stands for the current right hand side.  Every entry that the call
enqueues with the same reason as a variable `v` is the negation of the literal
of a term `later`, scanned after the term `first` of `v` that the call
enqueued with a reason of its own, and the coefficient of `first` is at most
that of `later`; every literal of the reason that `FillReason` computes for
`v` is false, and the coefficients of the literals whose negation is in that
reason, plus the coefficients of the literals true at level 0 at a trail index
at most `s` that are left out of it, plus the coefficient of `later`, exceed
`rhs_`. -/
theorem FillReason_same_reason (c : UpperBoundedLinearConstraint) (self s : Nat)
    (slack : Int) (trail : Trail) (hwf : c.WellFormed)
    (hnd : (c.literals_.map (fun l => l.Variable)).Nodup)
    (hn : (trail.entries.map (fun e => e.literal.Variable)).Nodup)
    (hlt : s < trail.Index)
    (hindex : -1 ≤ c.index_ ∧ c.index_ < c.coeffs_.length)
    (hend : c.already_propagated_end_ = c.starts_.getD (c.index_ + 1).toNat 0)
    (hcr : c.GetCurrentRhsFromSlack slack = c.currentRhs trail (s + 1))
    (hr0 : IsInt64 c.rhs_) (hr1 : IsInt64 (c.currentRhs trail (s + 1)))
    (hr2 : ∀ t ∈ c.terms, IsInt64 (t.coefficient - c.currentRhs trail (s + 1)))
    (hsource : c.rhs_ = 1 → ∃ t ∈ c.terms, t.literal = trail.get s) :
    ∃ new : List TrailEntry,
      (c.Propagate self s slack trail).2.2.2.1.entries = trail.entries ++ new ∧
      ∀ e ∈ new, ∀ v, e.info = AssignmentInfo.SAME_REASON_AS v →
        ∃ first ∈ c.terms, ∃ later ∈ c.terms,
          first.literal.Variable = v ∧
          (∃ e0 ∈ new, e0.literal = first.literal.Negated ∧
            e0.info = AssignmentInfo.PB_PROPAGATION s self) ∧
          e.literal = later.literal.Negated ∧
          first.coefficient ≤ later.coefficient ∧
          (∀ r ∈ (c.Propagate self s slack trail).2.1.FillReason
              (c.Propagate self s slack trail).2.2.2.1 s v,
            (c.Propagate self s slack trail).2.2.2.1.IsLiteralFalse r = true) ∧
          c.rhs_ <
            coefficientsOf (fun t => decide (t.literal.Negated ∈
              (c.Propagate self s slack trail).2.1.FillReason
                (c.Propagate self s slack trail).2.2.2.1 s v)) c.terms +
            coefficientsOf (fun t =>
              (c.Propagate self s slack trail).2.2.2.1.trueBelow (s + 1) t.literal &&
              decide ((c.Propagate self s slack trail).2.2.2.1.levelOf t.literal.Variable = 0) &&
              !decide (t.literal.Negated ∈
                (c.Propagate self s slack trail).2.1.FillReason
                  (c.Propagate self s slack trail).2.2.2.1 s v)) c.terms +
            later.coefficient := by
  -- the cursor before and after the loop that lowers it
  obtain ⟨n0, hn0⟩ : ∃ n0 : Nat, c.index_ + 1 = (n0 : Int) :=
    ⟨(c.index_ + 1).toNat, by rw [Int.toNat_of_nonneg (by omega)]⟩
  have hn0le : n0 ≤ c.coeffs_.length := by omega
  obtain ⟨hle, hgt, -⟩ := lowerIndexLoop_spec c.coeffs_ (c.currentRhs trail (s + 1)) n0
  generalize hn1 : lowerIndexLoop c.coeffs_ (c.currentRhs trail (s + 1)) n0 = n1 at hle hgt
  have hstart : c.starts_.getD n1 0 ≤ c.starts_.getD n0 0 := hwf.starts_mono n1 n0 hle hn0le
  have hape : c.already_propagated_end_ = c.starts_.getD n0 0 := by
    rw [hend, hn0, Int.toNat_ofNat]
  -- the call
  obtain ⟨v1, v2, v3, v4⟩ := constraint_Propagate_vectors c self s slack trail
  obtain ⟨htrail, -, -, -⟩ := Propagate_components c self s slack trail
  generalize (c.Propagate self s slack trail).2.1 = c1 at v1 v2 v3 v4 ⊢
  rw [htrail]
  simp only [hcr, hn0, Int.toNat_ofNat, hn1, Int.sub_add_cancel]
  obtain ⟨new, hnew, hlits⟩ := propagateScan_same_reason { c with index_ := (n1 : Int) - 1 }
    self s (c.already_propagated_end_ - c.starts_.getD n1 0) (c.starts_.getD n1 0)
    { trail := trail, first_propagated_variable := none, conflict := none }
  obtain ⟨hnd1, -⟩ := propagateScan_trail { c with index_ := (n1 : Int) - 1 }
    self s (c.already_propagated_end_ - c.starts_.getD n1 0) (c.starts_.getD n1 0)
    { trail := trail, first_propagated_variable := none, conflict := none } hn
  generalize (propagateScan { c with index_ := (n1 : Int) - 1 } self s
    (c.already_propagated_end_ - c.starts_.getD n1 0) (c.starts_.getD n1 0)
    { trail := trail, first_propagated_variable := none, conflict := none }).trail = trail1
    at hnew hlits hnd1 ⊢
  dsimp only at hnew hlits
  have hrange : c.starts_.getD n1 0 + (c.already_propagated_end_ - c.starts_.getD n1 0) =
      c.starts_.getD n0 0 := by omega
  rw [hrange] at hlits
  have hterms1 : c1.terms = c.terms := terms_congr c c1 v1 v2 v3
  have hwf1 : c1.WellFormed := WellFormed_congr c c1 v1 v2 v3 hwf
  have hcur1 : c1.currentRhs trail1 (s + 1) = c.currentRhs trail (s + 1) := by
    have := currentRhs_of_append c trail trail1 new hnew hnd1 (s + 1) hlt
    unfold UpperBoundedLinearConstraint.currentRhs at this ⊢
    rw [hterms1, v4]
    exact this
  have hlast : c.starts_.getD n0 0 ≤ c.literals_.length := by
    have := hwf.starts_mono n0 c.coeffs_.length hn0le (le_refl _)
    rw [hwf.starts_last] at this
    exact this
  -- a position scanned is in a group whose coefficient exceeds the current rhs
  have hgroup : ∀ p, c.starts_.getD n1 0 ≤ p → p < c.starts_.getD n0 0 →
      ∃ j, c.InGroup p j ∧ c.currentRhs trail (s + 1) < c.coeffs_.getD j 0 := by
    intro p hp1 hp2
    obtain ⟨j, hj1, hj2, hj3⟩ := hwf.exists_group p (by omega)
    have hjn : n1 ≤ j := by
      by_contra hlt2
      have := hwf.starts_mono (j + 1) n1 (by omega) (by omega)
      omega
    have hjn0 : j < n0 := by
      by_contra hge
      have := hwf.starts_mono n0 j (by omega) (by omega)
      omega
    exact ⟨j, ⟨hj1, hj2, hj3⟩, hgt j hjn hjn0⟩
  refine ⟨new, hnew, ?_⟩
  intro e he v hv
  obtain ⟨p, p1, p2, p3, p4⟩ := hlits e he
  rcases p4 v hv with h | ⟨q, q1, q2, q3, e0, q4, q5, q6⟩
  · exact Option.noConfusion h
  · obtain ⟨jq, gq, cq⟩ := hgroup q q1 (by omega)
    obtain ⟨jp, gp, -⟩ := hgroup p p1 p2
    have hjj : jq ≤ jp := by
      by_contra hlt2
      have := hwf.starts_mono (jp + 1) jq (by omega) (by have := gq.1; omega)
      have := gq.2.1
      have := gp.2.2
      omega
    have hfirst := hwf.term_at q jq gq
    have hlater := hwf.term_at p jp gp
    have hfm : (⟨c.literals_.getD q ⟨0⟩, c.coeffs_.getD jq 0⟩ : LiteralWithCoeff) ∈ c.terms :=
      List.mem_iff_getElem?.2 ⟨q, hfirst⟩
    have hnot : trail1.trueBelow (s + 1) (c.literals_.getD q ⟨0⟩) = false := by
      rw [Bool.eq_false_iff]
      intro htrue
      unfold Trail.trueBelow at htrue
      rw [Bool.and_eq_true] at htrue
      obtain ⟨e1, he1, hl1⟩ := List.any_eq_true.1 htrue.1
      have hl1 : e1.literal = c.literals_.getD q ⟨0⟩ := by simpa using hl1
      have he0 : e0 ∈ trail1.entries := by
        rw [hnew]
        exact List.mem_append_right _ q4
      have := List.inj_on_of_nodup_map hnd1 he1 he0
        (by rw [hl1, q5, Literal.Variable_Negated])
      rw [this, q5] at hl1
      exact Literal.Negated_ne _ hl1
    obtain ⟨-, r2, r3⟩ := FillReason_valid c1 hwf1 (by rw [v1]; exact hnd) trail1 hnd1 s
      ⟨c.literals_.getD q ⟨0⟩, c.coeffs_.getD jq 0⟩ (by rw [hterms1]; exact hfm) hnot
      (by rw [hcur1]; exact cq) (by rw [v4]; exact hr0) (by rw [hcur1]; exact hr1)
      (by rw [hcur1]; exact hr2 _ hfm)
      (by
        intro h1
        rw [v4] at h1
        obtain ⟨t, ht, htl⟩ := hsource h1
        refine ⟨?_, t, by rw [hterms1]; exact ht, ?_⟩
        · unfold Trail.Index at hlt ⊢
          rw [hnew, List.length_append]
          omega
        · rw [Trail.get_of_append trail trail1 new hnew s hlt]
          exact htl)
    dsimp only at r2 r3
    rw [q3, hterms1, v4] at r3
    rw [q3] at r2
    refine ⟨_, hfm, _, List.mem_iff_getElem?.2 ⟨p, hlater⟩, q3, ⟨e0, q4, q5, q6⟩, p3, ?_, r2, ?_⟩
    · exact hwf.coeffs_mono jq jp hjj gp.1
    · have := hwf.coeffs_mono jq jp hjj gp.1
      dsimp only
      omega

/-- C31, an instance: for `x0 + 2 x1 + 2 x2 <= 2` and the decision `x0` at level
1, `Propagate` enqueues the negation of `x1` with a reason of its own and the
negation of `x2` with the same reason; the reason of `x1` is the negation of
`x0`, and `1 + 2 > 2`. -/
theorem FillReason_same_reason_witness :
    (sharedReasonConstraint.Propagate 0 0 (-1) pbExampleTrail).2.2.2.1.entries.map
        (fun e => (e.literal, e.info)) =
      [(⟨0⟩, AssignmentInfo.SEARCH_DECISION), (⟨3⟩, AssignmentInfo.PB_PROPAGATION 0 0),
        (⟨5⟩, AssignmentInfo.SAME_REASON_AS 1)] ∧
    (sharedReasonConstraint.Propagate 0 0 (-1) pbExampleTrail).2.1.FillReason
        (sharedReasonConstraint.Propagate 0 0 (-1) pbExampleTrail).2.2.2.1 0 1 = [⟨1⟩] ∧
    (∃ new : List TrailEntry,
      (sharedReasonConstraint.Propagate 0 0 (-1) pbExampleTrail).2.2.2.1.entries = pbExampleTrail.entries ++ new ∧
      ∀ e ∈ new, ∀ v, e.info = AssignmentInfo.SAME_REASON_AS v →
        ∃ first ∈ sharedReasonConstraint.terms, ∃ later ∈ sharedReasonConstraint.terms,
          first.literal.Variable = v ∧
          (∃ e0 ∈ new, e0.literal = first.literal.Negated ∧
            e0.info = AssignmentInfo.PB_PROPAGATION 0 0) ∧
          e.literal = later.literal.Negated ∧
          first.coefficient ≤ later.coefficient ∧
          (∀ r ∈ (sharedReasonConstraint.Propagate 0 0 (-1) pbExampleTrail).2.1.FillReason
              (sharedReasonConstraint.Propagate 0 0 (-1) pbExampleTrail).2.2.2.1 0 v,
            (sharedReasonConstraint.Propagate 0 0 (-1) pbExampleTrail).2.2.2.1.IsLiteralFalse r = true) ∧
          sharedReasonConstraint.rhs_ <
            coefficientsOf (fun t => decide (t.literal.Negated ∈
              (sharedReasonConstraint.Propagate 0 0 (-1) pbExampleTrail).2.1.FillReason
                (sharedReasonConstraint.Propagate 0 0 (-1) pbExampleTrail).2.2.2.1 0 v)) sharedReasonConstraint.terms +
            coefficientsOf (fun t =>
              (sharedReasonConstraint.Propagate 0 0 (-1) pbExampleTrail).2.2.2.1.trueBelow (0 + 1) t.literal &&
              decide ((sharedReasonConstraint.Propagate 0 0 (-1) pbExampleTrail).2.2.2.1.levelOf t.literal.Variable = 0) &&
              !decide (t.literal.Negated ∈
                (sharedReasonConstraint.Propagate 0 0 (-1) pbExampleTrail).2.1.FillReason
                  (sharedReasonConstraint.Propagate 0 0 (-1) pbExampleTrail).2.2.2.1 0 v)) sharedReasonConstraint.terms +
            later.coefficient) :=
  ⟨by decide, by decide,
    FillReason_same_reason sharedReasonConstraint 0 0 (-1) pbExampleTrail
      ⟨by decide, by decide, by decide, by decide, by decide, by decide⟩ (by decide)
      (by decide) (by decide) (by decide) (by decide) (by decide) (by decide) (by decide)
      (by decide) (fun h => absurd h (by decide))⟩

/-- C31, the claim as stated fails.  The constraint `x0 + 2 x1 + 2 x2 <= 2` is
added to the empty store, `x0` is enqueued at level 0 and `PropagateNext`
propagates the negation of `x1` for the trail index 0 and the negation of `x2`
with the same reason.  The only true literal is at level 0 and `FillReason`
returns the empty reason for `x1`: no literal of the reason is true, and the
coefficient 2 of `x2` alone does not exceed `rhs_ = 2`.  When `rhs_` is 1 and
the propagation comes from `InitializeRhs`, the reason is not made of
negations of literals of the constraint either: with `x0` on the trail and the
cursor of the store at 1, adding `x0 + x1 + x2 <= 1` propagates the negations
of `x1` and `x2` for the trail index 1, and `FillReason` returns `x1`. -/
theorem FillReason_same_reason_counterexample :
    sharedReasonExample.1 = true ∧
    sharedReasonExample.2.2.entries =
      [⟨⟨0⟩, 0, AssignmentInfo.UNIT_REASON none⟩, ⟨⟨3⟩, 0, AssignmentInfo.PB_PROPAGATION 0 0⟩,
        ⟨⟨5⟩, 0, AssignmentInfo.SAME_REASON_AS 1⟩] ∧
    sharedReasonExample.2.1.constraints_ =
      [⟨[⟨0⟩, ⟨2⟩, ⟨4⟩], [1, 2], [0, 1, 3], 2, 0, 1, none⟩] ∧
    UpperBoundedLinearConstraint.terms ⟨[⟨0⟩, ⟨2⟩, ⟨4⟩], [1, 2], [0, 1, 3], 2, 0, 1, none⟩ =
      [⟨⟨0⟩, 1⟩, ⟨⟨2⟩, 2⟩, ⟨⟨4⟩, 2⟩] ∧
    UpperBoundedLinearConstraint.FillReason
      ⟨[⟨0⟩, ⟨2⟩, ⟨4⟩], [1, 2], [0, 1, 3], 2, 0, 1, none⟩ sharedReasonExample.2.2 0 1 = [] ∧
    ¬ ((2 : Int) < coefficientsOf (fun t => decide (t.literal.Negated ∈
        UpperBoundedLinearConstraint.FillReason
          ⟨[⟨0⟩, ⟨2⟩, ⟨4⟩], [1, 2], [0, 1, 3], 2, 0, 1, none⟩ sharedReasonExample.2.2 0 1))
        [⟨⟨0⟩, 1⟩, ⟨⟨2⟩, 2⟩, ⟨⟨4⟩, 2⟩] + 2) ∧
    sharedSourceExample.1 = true ∧
    sharedSourceExample.2.2.entries =
      [⟨⟨0⟩, 0, AssignmentInfo.UNIT_REASON none⟩, ⟨⟨3⟩, 0, AssignmentInfo.PB_PROPAGATION 1 0⟩,
        ⟨⟨5⟩, 0, AssignmentInfo.SAME_REASON_AS 1⟩] ∧
    sharedSourceExample.2.1.constraints_ =
      [⟨[⟨0⟩, ⟨2⟩, ⟨4⟩], [1], [0, 3], 1, -1, 0, none⟩] ∧
    UpperBoundedLinearConstraint.terms ⟨[⟨0⟩, ⟨2⟩, ⟨4⟩], [1], [0, 3], 1, -1, 0, none⟩ =
      [⟨⟨0⟩, 1⟩, ⟨⟨2⟩, 1⟩, ⟨⟨4⟩, 1⟩] ∧
    UpperBoundedLinearConstraint.FillReason
      ⟨[⟨0⟩, ⟨2⟩, ⟨4⟩], [1], [0, 3], 1, -1, 0, none⟩ sharedSourceExample.2.2 1 1 = [⟨2⟩] ∧
    ¬ ((1 : Int) < coefficientsOf (fun t => decide (t.literal.Negated ∈
        UpperBoundedLinearConstraint.FillReason
          ⟨[⟨0⟩, ⟨2⟩, ⟨4⟩], [1], [0, 3], 1, -1, 0, none⟩ sharedSourceExample.2.2 1 1))
        [⟨⟨0⟩, 1⟩, ⟨⟨2⟩, 1⟩, ⟨⟨4⟩, 1⟩] + 1) :=
  ⟨by decide, by decide, by decide, by decide, by decide, by decide, by decide, by decide,
    by decide, by decide, by decide, by decide⟩

/-- The expansion of a clause keeps the output lists without repetition and
apart. -/
theorem expandClause_disjoint (trail : Trail) (level bound : Nat) (hlevel : level ≠ 0) :
    ∀ (clause : List Literal) (st : FirstUIPState),
    DisjointInvariant trail level st bound →
    DisjointInvariant trail level (expandClause trail level clause st) bound
  | [], st, h => by
    unfold expandClause
    exact h
  | literal :: rest, st, h => by
    unfold expandClause
    dsimp only
    by_cases hm : st.is_marked_.get literal.Variable = true
    · rw [if_pos hm]
      exact expandClause_disjoint trail level bound hlevel rest st h
    · rw [if_neg hm]
      have hmono : ∀ var, st.is_marked_.get var = true →
          (st.is_marked_.Set literal.Variable).get var = true := by
        intro var hv
        rw [SparseBitset.get_Set, hv]
        rfl
      have hnew : (st.is_marked_.Set literal.Variable).get literal.Variable = true := by
        rw [SparseBitset.get_Set]
        simp
      have hnc : literal.Variable ∉ st.conflict.map (fun l => l.Variable) := by
        intro hmem
        obtain ⟨l, hl, hv⟩ := List.mem_map.1 hmem
        have := (h.conflict_level l hl).1
        rw [hv] at this
        exact hm this
      have hnr : literal.Variable ∉
          st.reason_used_to_infer_the_conflict.map (fun l => l.Variable) := by
        intro hmem
        obtain ⟨l, hl, hv⟩ := List.mem_map.1 hmem
        have := (h.reason_level l hl).1
        rw [hv] at this
        exact hm this
      have hc1 : ∀ l ∈ st.conflict,
          (st.is_marked_.Set literal.Variable).get l.Variable = true ∧
          trail.levelOf l.Variable ≠ 0 ∧ trail.levelOf l.Variable ≠ level :=
        fun l hl => ⟨hmono _ (h.conflict_level l hl).1, (h.conflict_level l hl).2⟩
      have hr1 : ∀ l ∈ st.reason_used_to_infer_the_conflict,
          (st.is_marked_.Set literal.Variable).get l.Variable = true ∧
          (trail.levelOf l.Variable = 0 ∨
            (trail.levelOf l.Variable = level ∧ bound ≤ trail.trailIndexOf l.Variable)) :=
        fun l hl => ⟨hmono _ (h.reason_level l hl).1, (h.reason_level l hl).2⟩
      by_cases hl1 : trail.levelOf literal.Variable = level
      · rw [if_pos hl1]
        apply expandClause_disjoint trail level bound hlevel rest
        exact ⟨h.conflict_nodup, h.reason_nodup, hc1, hr1⟩
      · rw [if_neg hl1]
        by_cases hl2 : trail.levelOf literal.Variable > 0
        · rw [if_pos hl2]
          apply expandClause_disjoint trail level bound hlevel rest
          refine ⟨?_, h.reason_nodup, ?_, hr1⟩
          · dsimp only
            rw [List.map_append, List.map_singleton]
            exact List.Nodup.append h.conflict_nodup (List.nodup_singleton _)
              (by
                intro x hx hx2
                rw [List.mem_singleton] at hx2
                rw [hx2] at hx
                exact hnc hx)
          · intro l hl
            dsimp only at hl ⊢
            rcases List.mem_append.1 hl with hl | hl
            · exact hc1 l hl
            · rw [List.mem_singleton] at hl
              rw [hl]
              exact ⟨hnew, by omega, hl1⟩
        · rw [if_neg hl2]
          apply expandClause_disjoint trail level bound hlevel rest
          refine ⟨h.conflict_nodup, ?_, hc1, ?_⟩
          · dsimp only
            rw [List.map_append, List.map_singleton]
            exact List.Nodup.append h.reason_nodup (List.nodup_singleton _)
              (by
                intro x hx hx2
                rw [List.mem_singleton] at hx2
                rw [hx2] at hx
                exact hnr hx)
          · intro l hl
            dsimp only at hl ⊢
            rcases List.mem_append.1 hl with hl | hl
            · exact hr1 l hl
            · rw [List.mem_singleton] at hl
              rw [hl]
              exact ⟨hnew, Or.inl (by omega)⟩

/-- The statement `std::swap(conflict->back(), conflict->front())` permutes the
list. -/
theorem swapBackFront_perm : ∀ (l : List Literal), (swapBackFront l).Perm l
  | [] => List.Perm.refl _
  | [a] => List.Perm.refl _
  | a :: b :: rest => by
    unfold swapBackFront
    have h1 : ((b :: rest).dropLast ++ [(b :: rest).getLast (by simp)]) = b :: rest :=
      List.dropLast_append_getLast (by simp)
    have h2 : ((b :: rest).getLast (by simp) :: ((b :: rest).dropLast ++ [a])).Perm
        (a :: ((b :: rest).dropLast ++ [(b :: rest).getLast (by simp)])) :=
      ((List.Perm.cons _ (List.perm_append_singleton a _)).trans
        (List.Perm.swap a _ _)).trans
        (List.Perm.cons a (List.perm_append_singleton _ _).symm)
    rw [h1] at h2
    exact h2

/-- The output lists of the main loop of `ComputeFirstUIPConflict` hold no
variable twice and have no variable in common. -/
theorem firstUIPLoop_disjoint (trail : Trail) (reason : Nat → List Literal) (level : Nat)
    (hlevel : level ≠ 0)
    (hs : trail.entries.Pairwise (fun a b => a.level ≤ b.level))
    (hn : (trail.entries.map (fun e => e.literal.Variable)).Nodup)
    (hreason : ∀ e ∈ trail.entries, ∀ literal ∈ reason e.literal.Variable,
      trail.IsLiteralFalse literal = true ∧
      trail.trailIndexOf literal.Variable < trail.trailIndexOf e.literal.Variable) :
    ∀ (fuel : Nat) (clause : List Literal) (st : FirstUIPState) (bound : Nat),
    FirstUIPInvariant trail level st bound →
    DisjointInvariant trail level st bound →
    st.trail_index = (bound : Int) - 1 → 0 < bound →
    (∀ literal ∈ clause, trail.IsLiteralFalse literal = true ∧
      trail.trailIndexOf literal.Variable < bound) →
    (1 ≤ st.num_literal_at_highest_level_that_needs_to_be_processed ∨
      ∃ literal ∈ clause, trail.levelOf literal.Variable = level) →
    bound ≤ fuel →
    ∃ r, firstUIPLoop trail reason level fuel clause st = Except.ok r ∧
      (r.conflict.map (fun l => l.Variable)).Nodup ∧
      (r.reason_used_to_infer_the_conflict.map (fun l => l.Variable)).Nodup ∧
      ∀ l ∈ r.conflict, ∀ l2 ∈ r.reason_used_to_infer_the_conflict,
        l.Variable ≠ l2.Variable
  | 0, _, _, bound, _, _, _, hb, _, _, hf => by omega
  | fuel + 1, clause, st, bound, hinv, hdis, hti, hb, hclause, hsome, hf => by
    have hpos := expandClause_markedAtLevel_pos trail hn level bound clause st hinv hclause hsome
    obtain ⟨inv1, -, -, -, -, -, hti1⟩ :=
      expandClause_invariant trail hn level bound clause st hinv hclause
    have dis1 := expandClause_disjoint trail level bound hlevel clause st hdis
    obtain ⟨j, ej, hjb, hej, hejl, hjm, -, hcnt, hloop⟩ :=
      firstUIPLoop_step trail reason level hs fuel clause st _ bound rfl inv1
        (hti1.trans hti) hpos
    rw [hloop]
    generalize expandClause trail level clause st = st1 at inv1 dis1 hjm hcnt hpos
    have hnum := inv1.count
    have hjl : trail.levelOf ej.literal.Variable = level := by
      rw [trail.levelOf_of_getElem? hn j ej hej]
      exact hejl
    have hji : trail.trailIndexOf ej.literal.Variable = j :=
      trail.trailIndexOf_of_getElem? hn j ej hej
    by_cases hone : st1.num_literal_at_highest_level_that_needs_to_be_processed = 1
    · rw [if_pos hone]
      refine ⟨_, rfl, ?_, dis1.reason_nodup, ?_⟩
      · dsimp only
        have hperm := (swapBackFront_perm (st1.conflict ++ [ej.literal.Negated])).map
          (fun l => l.Variable)
        rw [hperm.nodup_iff, List.map_append, List.map_singleton]
        refine List.Nodup.append dis1.conflict_nodup (List.nodup_singleton _) ?_
        intro x hx hx2
        rw [List.mem_singleton] at hx2
        obtain ⟨l, hl, hv⟩ := List.mem_map.1 hx
        have := (dis1.conflict_level l hl).2.2
        rw [hv, hx2, Literal.Variable_Negated, hjl] at this
        exact this rfl
      · intro l hl l2 hl2 hv
        dsimp only at hl hl2
        have hl1 := (swapBackFront_perm (st1.conflict ++ [ej.literal.Negated])).mem_iff.1 hl
        obtain ⟨-, hr⟩ := dis1.reason_level l2 hl2
        rcases List.mem_append.1 hl1 with hl1 | hl1
        · obtain ⟨-, c1, c2⟩ := dis1.conflict_level l hl1
          rw [hv] at c1 c2
          rcases hr with hr | ⟨hr, -⟩
          · exact c1 hr
          · exact c2 hr
        · rw [List.mem_singleton] at hl1
          rw [hl1, Literal.Variable_Negated] at hv
          rw [← hv, hjl, hji] at hr
          rcases hr with hr | ⟨-, hr⟩
          · exact hlevel hr
          · omega
    · rw [if_neg hone]
      have hjpos : 0 < markedAtLevel trail st1.is_marked_ level j := by omega
      have hj0 : 0 < j := by
        rcases Nat.eq_zero_or_pos j with h0 | h0
        · rw [h0] at hjpos
          simp [markedAtLevel] at hjpos
        · exact h0
      apply firstUIPLoop_disjoint trail reason level hlevel hs hn hreason fuel _ _ j
      · refine ⟨by unfold Trail.Index; have := inv1.bound_le; unfold Trail.Index at this; omega,
          ?_, inv1.marked_assigned, ?_, inv1.conflict_false, inv1.lower_marked⟩
        · intro i e hi he
          exact inv1.below i e (by omega) he
        · simp only
          omega
      · refine ⟨dis1.conflict_nodup, ?_, dis1.conflict_level, ?_⟩
        · dsimp only
          rw [List.map_append, List.map_singleton]
          refine List.Nodup.append dis1.reason_nodup (List.nodup_singleton _) ?_
          intro x hx hx2
          rw [List.mem_singleton] at hx2
          obtain ⟨l, hl, hv⟩ := List.mem_map.1 hx
          obtain ⟨-, hr⟩ := dis1.reason_level l hl
          rw [hv, hx2, hjl, hji] at hr
          rcases hr with hr | ⟨-, hr⟩
          · exact hlevel hr
          · omega
        · intro l hl
          dsimp only at hl ⊢
          rcases List.mem_append.1 hl with hl | hl
          · obtain ⟨h1, h2⟩ := dis1.reason_level l hl
            refine ⟨h1, ?_⟩
            rcases h2 with h2 | ⟨h2, h3⟩
            · exact Or.inl h2
            · exact Or.inr ⟨h2, by omega⟩
          · rw [List.mem_singleton] at hl
            rw [hl]
            exact ⟨hjm, Or.inr ⟨hjl, by omega⟩⟩
      · rfl
      · exact hj0
      · intro literal hl
        split at hl
        · simp at hl
        · have hmemj : ej ∈ trail.entries := List.mem_iff_getElem?.2 ⟨j, hej⟩
          obtain ⟨h1, h2⟩ := hreason ej hmemj literal hl
          rw [trail.trailIndexOf_of_getElem? hn j ej hej] at h2
          exact ⟨h1, h2⟩
      · left
        simp only
        omega
      · omega

/-- Claim C33. In a state at a conflict, `ComputeFirstUIPConflict` returns, given
fuel for the length of the trail, and of the two lists it returns, the learned
conflict and `reason_used_to_infer_the_conflict`, neither holds a variable
twice and no variable is in both. -/
theorem ComputeFirstUIPConflict_disjoint (s : SatSolver) (fuel : Nat)
    (same : VariablesWithSameReasonIdentifier) (failing_clause : List Literal)
    (hc : ConflictState s.trail_ (s.Reason s.trail_.Index) failing_clause)
    (hfuel : s.trail_.Index ≤ fuel) :
    ∃ r, s.ComputeFirstUIPConflict fuel same failing_clause = Except.ok r ∧
      (r.conflict.map (fun l => l.Variable)).Nodup ∧
      (r.reason_used_to_infer_the_conflict.map (fun l => l.Variable)).Nodup ∧
      ∀ l ∈ r.conflict, ∀ l2 ∈ r.reason_used_to_infer_the_conflict,
        l.Variable ≠ l2.Variable := by
  obtain ⟨hs, hn, hfalse, hreason⟩ := hc
  unfold SatSolver.ComputeFirstUIPConflict computeFirstUIPConflict
  dsimp only
  rcases highestTrailIndex_spec s.trail_ failing_clause with
    ⟨-, hidx⟩ | ⟨i0, hidx, ⟨l0, hl0, hl0i⟩, hmax⟩
  · rw [if_pos hidx]
    exact ⟨_, rfl, List.nodup_nil, List.nodup_nil, fun l hl => absurd hl (List.not_mem_nil l)⟩
  · rw [hidx, if_neg (by omega)]
    have hto : ((i0 : Int)).toNat = i0 := by omega
    rw [hto]
    obtain ⟨j0, e0, hj0, -, he0v⟩ := s.trail_.assigned_of_IsLiteralFalse l0 (hfalse l0 hl0)
    have hj0i : j0 = i0 := by
      have := s.trail_.trailIndexOf_of_getElem? hn j0 e0 hj0
      rw [he0v, hl0i] at this
      exact this.symm
    subst hj0i
    have hlev0 : s.trail_.levelOf l0.Variable = e0.level := by
      rw [← he0v]
      exact s.trail_.levelOf_of_getElem? hn j0 e0 hj0
    have hH : s.trail_.levelOf (s.trail_.get j0).Variable = e0.level := by
      rw [s.trail_.get_of_getElem? j0 e0 hj0]
      exact s.trail_.levelOf_of_getElem? hn j0 e0 hj0
    rw [hH]
    have hlen : j0 < s.trail_.entries.length := by
      rcases Nat.lt_or_ge j0 s.trail_.entries.length with h | h
      · exact h
      · rw [List.getElem?_eq_none h] at hj0
        simp at hj0
    by_cases hz : e0.level = 0
    · rw [if_pos hz]
      exact ⟨_, rfl, List.nodup_nil, List.nodup_nil,
        fun l hl => absurd hl (List.not_mem_nil l)⟩
    · rw [if_neg hz]
      exact firstUIPLoop_disjoint s.trail_ (s.Reason s.trail_.Index) e0.level hz hs hn hreason
        fuel failing_clause ⟨SparseBitset.ClearAndResize, [], [], same, (j0 : Int), 0⟩ (j0 + 1)
        ⟨by unfold Trail.Index; omega,
          fun i e hi he => s.trail_.level_le_of_le hs i j0 e e0 he hj0 (by omega),
          fun var hv => by simp [SparseBitset.get_ClearAndResize] at hv,
          by simp [markedAtLevel_ClearAndResize],
          fun literal hl => by simp at hl,
          fun var hv => by simp [SparseBitset.get_ClearAndResize] at hv⟩
        ⟨List.nodup_nil, List.nodup_nil, fun l hl => absurd hl (List.not_mem_nil l),
          fun l hl => absurd hl (List.not_mem_nil l)⟩
        (by simp)
        (by omega)
        (fun literal hl => ⟨hfalse literal hl, by have := hmax literal hl; omega⟩)
        (Or.inr ⟨l0, hl0, hlev0⟩)
        (by unfold Trail.Index at hfuel; omega)

/-- On the conflict `not x2 or not x3 or not x0` at level 2, the analysis returns
the conflict `not x1 or not x0` and has used `x3` and `x2`. -/
theorem ComputeFirstUIPConflict_disjoint_witness :
    ∃ r, conflictExample.ComputeFirstUIPConflict 4 VariablesWithSameReasonIdentifier.Clear
        [⟨5⟩, ⟨7⟩, ⟨1⟩] = Except.ok r ∧
      (r.conflict.map (fun l => l.Variable)).Nodup ∧
      (r.reason_used_to_infer_the_conflict.map (fun l => l.Variable)).Nodup ∧
      ∀ l ∈ r.conflict, ∀ l2 ∈ r.reason_used_to_infer_the_conflict,
        l.Variable ≠ l2.Variable :=
  ComputeFirstUIPConflict_disjoint conflictExample 4
    VariablesWithSameReasonIdentifier.Clear [⟨5⟩, ⟨7⟩, ⟨1⟩]
    ⟨by decide, by decide, by decide, by decide⟩ (by decide)

/-- The loop with its scans returns what the loop returns. -/
theorem firstUIPLoopTraced_fst (trail : Trail) (reason : Nat → List Literal) (level : Nat) :
    ∀ (fuel : Nat) (clause : List Literal) (st : FirstUIPState),
    (firstUIPLoopTraced trail reason level fuel clause st).map (fun p => p.1) =
      firstUIPLoop trail reason level fuel clause st
  | 0, _, _ => rfl
  | fuel + 1, clause, st => by
    unfold firstUIPLoopTraced firstUIPLoop
    dsimp only
    generalize expandClause trail level clause st = st1
    by_cases h0 : st1.trail_index < 0
    · rw [if_pos h0, if_pos h0]
      rfl
    · rw [if_neg h0, if_neg h0]
      cases nextMarkedIndex trail st1.is_marked_ st1.trail_index.toNat with
      | none => rfl
      | some trail_index =>
        dsimp only
        by_cases h1 : st1.num_literal_at_highest_level_that_needs_to_be_processed = 1
        · rw [if_pos h1, if_pos h1]
          rfl
        · rw [if_neg h1, if_neg h1, ← firstUIPLoopTraced_fst trail reason level fuel]
          cases firstUIPLoopTraced trail reason level fuel
            (if (st1.same_reason_identifier_.FirstVariableWithSameReason trail
                (trail.get trail_index).Variable).1 ≠ (trail.get trail_index).Variable then []
              else reason (trail.get trail_index).Variable)
            { st1 with
              reason_used_to_infer_the_conflict :=
                st1.reason_used_to_infer_the_conflict ++ [trail.get trail_index],
              same_reason_identifier_ :=
                (st1.same_reason_identifier_.FirstVariableWithSameReason trail
                  (trail.get trail_index).Variable).2,
              num_literal_at_highest_level_that_needs_to_be_processed :=
                st1.num_literal_at_highest_level_that_needs_to_be_processed - 1,
              trail_index := (trail_index : Int) - 1 } with
          | error e => rfl
          | ok p => rfl

theorem computeFirstUIPConflictTraced_fst (trail : Trail) (reason : Nat → List Literal)
    (fuel : Nat) (same : VariablesWithSameReasonIdentifier) (failing_clause : List Literal) :
    (computeFirstUIPConflictTraced trail reason fuel same failing_clause).map (fun p => p.1) =
      computeFirstUIPConflict trail reason fuel same failing_clause := by
  unfold computeFirstUIPConflictTraced computeFirstUIPConflict
  dsimp only
  split
  · rfl
  · split
    · rfl
    · exact firstUIPLoopTraced_fst trail reason _ fuel failing_clause _

/-- The main loop of `ComputeFirstUIPConflict` returns, and each of its scans
starts at an index that is not negative, stops at a marked entry at or below it
and only visits entries of the highest level. -/
theorem firstUIPLoopTraced_spec (trail : Trail) (reason : Nat → List Literal) (level : Nat)
    (hs : trail.entries.Pairwise (fun a b => a.level ≤ b.level))
    (hn : (trail.entries.map (fun e => e.literal.Variable)).Nodup)
    (hreason : ∀ e ∈ trail.entries, ∀ literal ∈ reason e.literal.Variable,
      trail.IsLiteralFalse literal = true ∧
      trail.trailIndexOf literal.Variable < trail.trailIndexOf e.literal.Variable) :
    ∀ (fuel : Nat) (clause : List Literal) (st : FirstUIPState) (bound : Nat),
    FirstUIPInvariant trail level st bound →
    st.trail_index = (bound : Int) - 1 → 0 < bound →
    (∀ literal ∈ clause, trail.IsLiteralFalse literal = true ∧
      trail.trailIndexOf literal.Variable < bound) →
    (1 ≤ st.num_literal_at_highest_level_that_needs_to_be_processed ∨
      ∃ literal ∈ clause, trail.levelOf literal.Variable = level) →
    bound ≤ fuel →
    ∃ r scans, firstUIPLoopTraced trail reason level fuel clause st = Except.ok (r, scans) ∧
      scans ≠ [] ∧
      ∀ p ∈ scans, 0 ≤ p.2 ∧ p.2 < trail.Index ∧
        ∃ j : Nat, (j : Int) ≤ p.2 ∧ nextMarkedIndex trail p.1 p.2.toNat = some j ∧
          p.1.get (trail.get j).Variable = true ∧
          ∀ k : Nat, j ≤ k → (k : Int) ≤ p.2 → trail.levelOf (trail.get k).Variable = level
  | 0, _, _, bound, _, _, hb, _, _, hf => by omega
  | fuel + 1, clause, st, bound, hinv, hti, hb, hclause, hsome, hf => by
    have hpos := expandClause_markedAtLevel_pos trail hn level bound clause st hinv hclause hsome
    obtain ⟨inv1, -, -, -, -, -, hti1⟩ :=
      expandClause_invariant trail hn level bound clause st hinv hclause
    obtain ⟨j, ej, hjb, hej, hejl, hjm, hun, hcnt, -⟩ :=
      firstUIPLoop_step trail reason level hs fuel clause st _ bound rfl inv1
        (hti1.trans hti) hpos
    rw [firstUIPLoopTraced]
    dsimp only
    generalize expandClause trail level clause st = st1 at inv1 hjm hcnt hpos hti1 hun
    have hti2 : st1.trail_index = (bound : Int) - 1 := hti1.trans hti
    have htonat : st1.trail_index.toNat = bound - 1 := by omega
    have hgetj := trail.get_of_getElem? j ej hej
    have hble := inv1.bound_le
    unfold Trail.Index at hble
    -- the scan stops at `j`
    have hscan : nextMarkedIndex trail st1.is_marked_ (bound - 1) = some j := by
      rcases nextMarkedIndex_spec trail st1.is_marked_ (bound - 1) with
        ⟨-, hnone⟩ | ⟨j2, hj2, hjs, hjm2, hju⟩
      · have := hnone j (by omega)
        rw [hgetj, hjm] at this
        exact Bool.noConfusion this
      · have h1 : j2 ≤ j := by
          by_contra hc
          have hlen2 : j2 < trail.entries.length := by omega
          have := hun j2 trail.entries[j2] (by omega) (by omega)
            (List.getElem?_eq_getElem hlen2)
          rw [← trail.get_of_getElem? j2 _ (List.getElem?_eq_getElem hlen2), hjm2] at this
          exact Bool.noConfusion this
        have h2 : j ≤ j2 := by
          by_contra hc
          have := hju j (by omega) (by omega)
          rw [hgetj, hjm] at this
          exact Bool.noConfusion this
        have : j2 = j := by omega
        rw [← this]
        exact hjs
    -- what is true of the scan of this turn
    have hthis : 0 ≤ st1.trail_index ∧ st1.trail_index < trail.Index ∧
        ∃ j : Nat, (j : Int) ≤ st1.trail_index ∧
          nextMarkedIndex trail st1.is_marked_ st1.trail_index.toNat = some j ∧
          st1.is_marked_.get (trail.get j).Variable = true ∧
          ∀ k : Nat, j ≤ k → (k : Int) ≤ st1.trail_index →
            trail.levelOf (trail.get k).Variable = level := by
      refine ⟨by omega, by unfold Trail.Index; omega, j, by omega, by rw [htonat]; exact hscan,
        by rw [hgetj]; exact hjm, ?_⟩
      intro k hk1 hk2
      have hklen : k < trail.entries.length := by omega
      have hek : trail.entries[k]? = some trail.entries[k] := List.getElem?_eq_getElem hklen
      rw [trail.get_of_getElem? k _ hek, trail.levelOf_of_getElem? hn k _ hek]
      have h1 := trail.level_le_of_le hs j k ej _ hej hek hk1
      have h2 := inv1.below k _ (by omega) hek
      omega
    rw [if_neg (by omega), htonat, hscan]
    dsimp only
    have hnum := inv1.count
    by_cases hone : st1.num_literal_at_highest_level_that_needs_to_be_processed = 1
    · rw [if_pos hone]
      refine ⟨_, _, rfl, by simp, ?_⟩
      intro p hp
      rw [List.mem_singleton] at hp
      rw [hp]
      exact hthis
    · rw [if_neg hone]
      have hjpos : 0 < markedAtLevel trail st1.is_marked_ level j := by omega
      have hj0 : 0 < j := by
        rcases Nat.eq_zero_or_pos j with h0 | h0
        · rw [h0] at hjpos
          simp [markedAtLevel] at hjpos
        · exact h0
      obtain ⟨r, scans, hr, -, hscans⟩ :=
        firstUIPLoopTraced_spec trail reason level hs hn hreason fuel
          (if (st1.same_reason_identifier_.FirstVariableWithSameReason trail
              (trail.get j).Variable).1 ≠ (trail.get j).Variable then []
            else reason (trail.get j).Variable)
          { st1 with
            reason_used_to_infer_the_conflict :=
              st1.reason_used_to_infer_the_conflict ++ [trail.get j],
            same_reason_identifier_ :=
              (st1.same_reason_identifier_.FirstVariableWithSameReason trail
                (trail.get j).Variable).2,
            num_literal_at_highest_level_that_needs_to_be_processed :=
              st1.num_literal_at_highest_level_that_needs_to_be_processed - 1,
            trail_index := (j : Int) - 1 } j
          (by
            refine ⟨by unfold Trail.Index; omega,
              ?_, inv1.marked_assigned, ?_, inv1.conflict_false, inv1.lower_marked⟩
            · intro i e hi he
              exact inv1.below i e (by omega) he
            · simp only
              omega)
          rfl hj0
          (by
            intro literal hl
            split at hl
            · simp at hl
            · have hmemj : ej ∈ trail.entries := List.mem_iff_getElem?.2 ⟨j, hej⟩
              rw [hgetj] at hl
              obtain ⟨h1, h2⟩ := hreason ej hmemj literal hl
              rw [trail.trailIndexOf_of_getElem? hn j ej hej] at h2
              exact ⟨h1, h2⟩)
          (by
            left
            simp only
            omega)
          (by omega)
      rw [hr]
      refine ⟨r, _, rfl, by simp, ?_⟩
      intro p hp
      rcases List.mem_cons.1 hp with hp | hp
      · rw [hp]
        exact hthis
      · exact hscans p hp

/-- Claim C39. In a state at a conflict (the levels do not decrease along the
trail, no variable is on it twice, every literal of the failing clause is
false, every reason is made of false literals of smaller trail index),
`ComputeFirstUIPConflict` returns, given fuel for the length of the trail, and
every scan for the next marked literal starts at a trail index that is not
negative, with a marked variable at an index `j` at or below it, stops there,
and only visits literals of the highest level, the one at index `j`
included; when the failing clause has a literal of a level above 0 there is
such a scan. -/
theorem ComputeFirstUIPConflict_scan_safe (s : SatSolver) (fuel : Nat)
    (same : VariablesWithSameReasonIdentifier) (failing_clause : List Literal)
    (hc : ConflictState s.trail_ (s.Reason s.trail_.Index) failing_clause)
    (hfuel : s.trail_.Index ≤ fuel) :
    ∃ r scans,
      computeFirstUIPConflictTraced s.trail_ (s.Reason s.trail_.Index) fuel same
        failing_clause = Except.ok (r, scans) ∧
      s.ComputeFirstUIPConflict fuel same failing_clause = Except.ok r ∧
      ((∃ literal ∈ failing_clause, 0 < s.DecisionLevel literal.Variable) → scans ≠ []) ∧
      ∀ p ∈ scans, 0 ≤ p.2 ∧ p.2 < s.trail_.Index ∧
        ∃ j : Nat, (j : Int) ≤ p.2 ∧ nextMarkedIndex s.trail_ p.1 p.2.toNat = some j ∧
          p.1.get (s.trail_.get j).Variable = true ∧
          ∀ k : Nat, j ≤ k → (k : Int) ≤ p.2 →
            s.DecisionLevel (s.trail_.get k).Variable =
              s.DecisionLevel
                (s.trail_.get (highestTrailIndex s.trail_ failing_clause).toNat).Variable := by
  have hfst := computeFirstUIPConflictTraced_fst s.trail_ (s.Reason s.trail_.Index) fuel same
    failing_clause
  suffices h : ∃ r scans,
      computeFirstUIPConflictTraced s.trail_ (s.Reason s.trail_.Index) fuel same
        failing_clause = Except.ok (r, scans) ∧
      ((∃ literal ∈ failing_clause, 0 < s.DecisionLevel literal.Variable) → scans ≠ []) ∧
      ∀ p ∈ scans, 0 ≤ p.2 ∧ p.2 < s.trail_.Index ∧
        ∃ j : Nat, (j : Int) ≤ p.2 ∧ nextMarkedIndex s.trail_ p.1 p.2.toNat = some j ∧
          p.1.get (s.trail_.get j).Variable = true ∧
          ∀ k : Nat, j ≤ k → (k : Int) ≤ p.2 →
            s.DecisionLevel (s.trail_.get k).Variable =
              s.DecisionLevel
                (s.trail_.get (highestTrailIndex s.trail_ failing_clause).toNat).Variable by
    obtain ⟨r, scans, h1, h2, h3⟩ := h
    refine ⟨r, scans, h1, ?_, h2, h3⟩
    rw [h1] at hfst
    unfold SatSolver.ComputeFirstUIPConflict
    exact hfst.symm
  obtain ⟨hs, hn, hfalse, hreason⟩ := hc
  unfold computeFirstUIPConflictTraced SatSolver.DecisionLevel
  dsimp only
  rcases highestTrailIndex_spec s.trail_ failing_clause with
    ⟨hnil, hidx⟩ | ⟨i0, hidx, ⟨l0, hl0, hl0i⟩, hmax⟩
  · rw [if_pos hidx]
    refine ⟨_, _, rfl, ?_, fun p hp => absurd hp (List.not_mem_nil p)⟩
    rintro ⟨literal, hl, -⟩
    rw [hnil] at hl
    exact absurd hl (List.not_mem_nil literal)
  · rw [hidx, if_neg (by omega)]
    have hto : ((i0 : Int)).toNat = i0 := by omega
    rw [hto]
    obtain ⟨j0, e0, hj0, -, he0v⟩ := s.trail_.assigned_of_IsLiteralFalse l0 (hfalse l0 hl0)
    have hj0i : j0 = i0 := by
      have := s.trail_.trailIndexOf_of_getElem? hn j0 e0 hj0
      rw [he0v, hl0i] at this
      exact this.symm
    subst hj0i
    have hlev0 : s.trail_.levelOf l0.Variable = e0.level := by
      rw [← he0v]
      exact s.trail_.levelOf_of_getElem? hn j0 e0 hj0
    have hH : s.trail_.levelOf (s.trail_.get j0).Variable = e0.level := by
      rw [s.trail_.get_of_getElem? j0 e0 hj0]
      exact s.trail_.levelOf_of_getElem? hn j0 e0 hj0
    rw [hH]
    have hlen : j0 < s.trail_.entries.length := by
      rcases Nat.lt_or_ge j0 s.trail_.entries.length with h | h
      · exact h
      · rw [List.getElem?_eq_none h] at hj0
        simp at hj0
    have hle : ∀ literal ∈ failing_clause, s.trail_.levelOf literal.Variable ≤ e0.level := by
      intro literal hl
      obtain ⟨j, e, hj, -, hev⟩ := s.trail_.assigned_of_IsLiteralFalse literal (hfalse literal hl)
      have h1 := s.trail_.trailIndexOf_of_getElem? hn j e hj
      have h2 := s.trail_.levelOf_of_getElem? hn j e hj
      rw [hev] at h1 h2
      rw [h2]
      have := hmax literal hl
      exact s.trail_.level_le_of_le hs j j0 e e0 hj hj0 (by omega)
    by_cases hz : e0.level = 0
    · rw [if_pos hz]
      refine ⟨_, _, rfl, ?_, fun p hp => absurd hp (List.not_mem_nil p)⟩
      rintro ⟨literal, hl, hpos⟩
      have := hle literal hl
      omega
    · rw [if_neg hz]
      obtain ⟨r, scans, hr, hne, hscans⟩ := firstUIPLoopTraced_spec s.trail_
        (s.Reason s.trail_.Index) e0.level hs hn hreason fuel
        failing_clause ⟨SparseBitset.ClearAndResize, [], [], same, (j0 : Int), 0⟩ (j0 + 1)
        ⟨by unfold Trail.Index; omega,
          fun i e hi he => s.trail_.level_le_of_le hs i j0 e e0 he hj0 (by omega),
          fun var hv => by simp [SparseBitset.get_ClearAndResize] at hv,
          by simp [markedAtLevel_ClearAndResize],
          fun literal hl => by simp at hl,
          fun var hv => by simp [SparseBitset.get_ClearAndResize] at hv⟩
        (by simp)
        (by omega)
        (fun literal hl => ⟨hfalse literal hl, by have := hmax literal hl; omega⟩)
        (Or.inr ⟨l0, hl0, hlev0⟩)
        (by unfold Trail.Index at hfuel; omega)
      exact ⟨r, scans, hr, fun _ => hne, hscans⟩

/-- On the conflict `not x2 or not x3 or not x0` at level 2, the analysis scans
the trail three times, from the indices 3, 2 and 1, over entries of level 2. -/
theorem ComputeFirstUIPConflict_scan_safe_witness :
    (computeFirstUIPConflictTraced conflictExample.trail_
        (conflictExample.Reason conflictExample.trail_.Index) 4
        VariablesWithSameReasonIdentifier.Clear [⟨5⟩, ⟨7⟩, ⟨1⟩]).map
        (fun p => p.2.map (fun q => q.2)) = Except.ok [3, 2, 1] ∧
    ∃ r scans,
      computeFirstUIPConflictTraced conflictExample.trail_
        (conflictExample.Reason conflictExample.trail_.Index) 4
        VariablesWithSameReasonIdentifier.Clear [⟨5⟩, ⟨7⟩, ⟨1⟩] = Except.ok (r, scans) ∧
      conflictExample.ComputeFirstUIPConflict 4 VariablesWithSameReasonIdentifier.Clear
        [⟨5⟩, ⟨7⟩, ⟨1⟩] = Except.ok r ∧
      ((∃ literal ∈ ([⟨5⟩, ⟨7⟩, ⟨1⟩] : List Literal),
        0 < conflictExample.DecisionLevel literal.Variable) → scans ≠ []) ∧
      ∀ p ∈ scans, 0 ≤ p.2 ∧ p.2 < conflictExample.trail_.Index ∧
        ∃ j : Nat, (j : Int) ≤ p.2 ∧
          nextMarkedIndex conflictExample.trail_ p.1 p.2.toNat = some j ∧
          p.1.get (conflictExample.trail_.get j).Variable = true ∧
          ∀ k : Nat, j ≤ k → (k : Int) ≤ p.2 →
            conflictExample.DecisionLevel (conflictExample.trail_.get k).Variable =
              conflictExample.DecisionLevel
                (conflictExample.trail_.get
                  (highestTrailIndex conflictExample.trail_ [⟨5⟩, ⟨7⟩, ⟨1⟩]).toNat).Variable :=
  ⟨rfl, ComputeFirstUIPConflict_scan_safe conflictExample 4
    VariablesWithSameReasonIdentifier.Clear [⟨5⟩, ⟨7⟩, ⟨1⟩]
    ⟨by decide, by decide, by decide, by decide⟩ (by decide)⟩

/-- Claim C40, where the code fails it.  The intersection with `AllInt64()`
empties the domain: after `Interval(1, 5).IntersectWith(AllInt64())` the domain
is the empty list, which does not contain 3, a value of both domains; the
same happens to `AllInt64()` itself and to a list of values.  The intersection
of an interval with a list of values keeps the interval flag:
`Interval(1, 5).IntersectWith(IntegerList({1, 3, 5}))` is the interval
`[1, 5]`, which contains 2, not a value of the list, and
`AllInt64().IntersectWith(IntegerList({1}))` is still `AllInt64()`. -/
theorem IntersectWith_fails :
    (FzDomain.Interval 1 5).IntersectWith FzDomain.AllInt64 = ⟨false, []⟩ ∧
    (FzDomain.Interval 1 5).Contains 3 = true ∧ FzDomain.AllInt64.Contains 3 = true ∧
    ((FzDomain.Interval 1 5).IntersectWith FzDomain.AllInt64).Contains 3 = false ∧
    FzDomain.AllInt64.IntersectWith FzDomain.AllInt64 = ⟨false, []⟩ ∧
    (FzDomain.AllInt64.IntersectWith FzDomain.AllInt64).Contains 3 = false ∧
    (FzDomain.IntegerList [1, 3]).IntersectWith FzDomain.AllInt64 = ⟨false, []⟩ ∧
    (FzDomain.IntegerList [1, 3]).Contains 3 = true ∧
    ((FzDomain.IntegerList [1, 3]).IntersectWith FzDomain.AllInt64).Contains 3 = false ∧
    (FzDomain.Interval 1 5).IntersectWith (FzDomain.IntegerList [1, 3, 5]) = ⟨true, [1, 5]⟩ ∧
    (FzDomain.IntegerList [1, 3, 5]).Contains 2 = false ∧
    ((FzDomain.Interval 1 5).IntersectWith (FzDomain.IntegerList [1, 3, 5])).Contains 2 =
      true ∧
    FzDomain.AllInt64.IntersectWith (FzDomain.IntegerList [1]) = FzDomain.AllInt64 ∧
    (FzDomain.AllInt64.IntersectWith (FzDomain.IntegerList [1])).Contains 2 = true :=
  ⟨by decide, by decide, by decide, by decide, by decide, by decide, by decide, by decide,
    by decide, by decide, by decide, by decide, by decide, by decide⟩

/-- Where `IntersectWith` is an intersection: when `other` is an interval with
bounds and the domain is an interval, all of `int64` or a list, and when both
are lists of values, the domain afterwards contains `v` exactly when the
domain before and `other` both contain it. -/
theorem IntersectWith_of_bounds_or_lists (d other : FzDomain) (v : Int)
    (hd : d.is_interval = true → d.values = [] ∨ ∃ lo hi, d.values = [lo, hi])
    (hother : (∃ a b, other = FzDomain.Interval a b) ∨
      (d.is_interval = false ∧ other.is_interval = false)) :
    (d.IntersectWith other).Contains v = (d.Contains v && other.Contains v) := by
  rcases hother with ⟨a, b, rfl⟩ | ⟨h1, h2⟩
  · unfold FzDomain.IntersectWith FzDomain.Interval FzDomain.ReduceDomain
    simp only [if_true, List.isEmpty_cons, Bool.not_false, List.getD_cons_zero,
      List.getD_cons_succ]
    by_cases hi : d.is_interval = true
    · rcases hd hi with hv | ⟨lo, hi2, hv⟩
      · simp [FzDomain.Contains, hi, hv]
      · simp only [FzDomain.Contains, hi, hv, if_true, List.isEmpty_cons, Bool.false_eq_true,
          if_false, List.set_cons_zero, List.getD_cons_zero, List.set_cons_succ,
          List.getD_cons_succ]
        rw [Bool.eq_iff_iff]
        simp only [Bool.and_eq_true, decide_eq_true_eq, ge_iff_le, max_le_iff, le_min_iff]
        tauto
    · have hi2 : d.is_interval = false := by simpa using hi
      simp only [FzDomain.Contains, hi2, Bool.false_eq_true, if_false, if_true,
        List.isEmpty_cons, List.getD_cons_zero, List.getD_cons_succ]
      rw [Bool.eq_iff_iff]
      simp only [List.contains_eq_any_beq, List.any_filter, List.any_eq_true, Bool.and_eq_true,
        decide_eq_true_eq, beq_iff_eq, ge_iff_le]
      constructor
      · rintro ⟨x, hx, ⟨h3, h4⟩, h5⟩
        rw [← h5] at h3 h4
        exact ⟨⟨x, hx, h5⟩, h3, h4⟩
      · rintro ⟨⟨x, hx, h5⟩, h3, h4⟩
        rw [h5] at h3 h4
        exact ⟨x, hx, ⟨h3, h4⟩, h5⟩
  · unfold FzDomain.IntersectWith FzDomain.intersectValues FzDomain.Contains
    simp only [h1, h2, Bool.false_eq_true, if_false]
    rw [Bool.eq_iff_iff]
    simp only [List.contains_eq_any_beq, List.any_filter, List.any_eq_true, Bool.and_eq_true,
      beq_iff_eq]
    constructor
    · rintro ⟨x, hx, ⟨y, hy, h3⟩, h5⟩
      exact ⟨⟨x, hx, h5⟩, ⟨y, hy, h5.trans h3⟩⟩
    · rintro ⟨⟨x, hx, h5⟩, ⟨y, hy, h3⟩⟩
      exact ⟨x, hx, ⟨y, hy, h5.symm.trans h3⟩, h5⟩

/-- A node from which a root is reached and that is not a root itself is not met
again on the way up. -/
theorem iterate_ne_of_reaches_fixed (f : Nat → Nat) (c k j : Nat)
    (hfix : f (f^[k] c) = f^[k] c) (hne : f c ≠ c) : f^[j + 1] c ≠ c := by
  intro hcyc
  have hper : f^[(j + 1) * k] c = c :=
    Function.IsPeriodicPt.mul_const (show Function.IsPeriodicPt f (j + 1) c from hcyc) k
  have hsplit : f^[(j + 1) * k] c = f^[j * k] (f^[k] c) := by
    rw [← Function.iterate_add_apply]
    congr 1
    ring
  have hr : f^[j * k] (f^[k] c) = f^[k] c := Function.iterate_fixed hfix _
  rw [hsplit, hr] at hper
  rw [hper] at hfix
  exact hne hfix

/-- The loop of `GetRoot` returns the root that the node reaches. -/
theorem getRootLoop_spec (parent_ : List Nat) :
    ∀ (k fuel child : Nat),
    (∀ j, j ≤ k → (fun c => parent_.getD c 0)^[j] child < parent_.length) →
    parent_.getD ((fun c => parent_.getD c 0)^[k] child) 0 =
      (fun c => parent_.getD c 0)^[k] child →
    k < fuel →
    getRootLoop parent_ fuel child = Except.ok ((fun c => parent_.getD c 0)^[k] child)
  | _, 0, _, _, _, hf => by omega
  | 0, fuel + 1, child, hr, hfix, _ => by
    have h0 := hr 0 (le_refl _)
    simp only [Function.iterate_zero, id_eq] at h0 hfix ⊢
    unfold getRootLoop
    rw [List.getElem?_eq_getElem h0]
    dsimp only
    rw [List.getD_eq_getElem _ _ h0] at hfix
    rw [if_pos hfix]
  | k + 1, fuel + 1, child, hr, hfix, hf => by
    have h0 := hr 0 (Nat.zero_le _)
    simp only [Function.iterate_zero, id_eq] at h0
    unfold getRootLoop
    rw [List.getElem?_eq_getElem h0]
    dsimp only
    rw [← List.getD_eq_getElem _ 0 h0]
    by_cases hc : parent_.getD child 0 = child
    · rw [if_pos hc]
      have : (fun c => parent_.getD c 0)^[k + 1] child = child :=
        @Function.iterate_fixed Nat (fun c => parent_.getD c 0) child hc (k + 1)
      rw [this]
    · rw [if_neg hc]
      rw [Function.iterate_succ_apply] at hfix ⊢
      exact getRootLoop_spec parent_ k fuel (parent_.getD child 0)
        (fun j hj => by
          have := hr (j + 1) (by omega)
          rw [Function.iterate_succ_apply] at this
          exact this)
        hfix (by omega)

/-- The loop of `SetParentAlongPathToRoot`, on an array `cur` that agrees with
`parent0` on the path from `child` to the root it reaches in `parent0`: it
returns, the length of the array is kept, the nodes of the path get the new
parent and the other entries are those of `cur`. -/
theorem setParentLoop_spec (parent0 : List Nat) (p : Nat) :
    ∀ (k fuel : Nat) (cur : List Nat) (child : Nat),
    cur.length = parent0.length →
    (∀ j, j ≤ k → (fun c => parent0.getD c 0)^[j] child < parent0.length) →
    (∀ j, j ≤ k → cur.getD ((fun c => parent0.getD c 0)^[j] child) 0 =
      parent0.getD ((fun c => parent0.getD c 0)^[j] child) 0) →
    parent0.getD ((fun c => parent0.getD c 0)^[k] child) 0 =
      (fun c => parent0.getD c 0)^[k] child →
    k < fuel →
    ∃ r, setParentLoop p fuel cur child = Except.ok r ∧ r.length = cur.length ∧
      (∀ i, (∃ j, j ≤ k ∧ (fun c => parent0.getD c 0)^[j] child = i) →
        i < r.length ∧ r.getD i 0 = p) ∧
      (∀ i, (¬ ∃ j, j ≤ k ∧ (fun c => parent0.getD c 0)^[j] child = i) →
        r.getD i 0 = cur.getD i 0)
  | _, 0, _, _, _, _, _, _, hf => by omega
  | 0, fuel + 1, cur, child, hlen, hr, hag, hfix, _ => by
    have h0 := hr 0 (le_refl _)
    have ha := hag 0 (le_refl _)
    simp only [Function.iterate_zero, id_eq] at h0 hfix ha
    have hc : child < cur.length := by omega
    unfold setParentLoop
    rw [List.getElem?_eq_getElem hc]
    dsimp only
    rw [← List.getD_eq_getElem _ 0 hc, ha, if_pos hfix]
    refine ⟨_, rfl, List.length_set _ _ _, ?_, ?_⟩
    · rintro i ⟨j, hj, hji⟩
      have : j = 0 := by omega
      subst this
      simp only [Function.iterate_zero, id_eq] at hji
      subst hji
      rw [List.length_set, List.getD_eq_getElem _ _ (by rw [List.length_set]; exact hc),
        List.getElem_set_self]
      exact ⟨hc, rfl⟩
    · intro i hi
      have hne : child ≠ i := fun h => hi ⟨0, le_refl _, by simpa using h⟩
      rw [List.getD_eq_getElem?_getD, List.getD_eq_getElem?_getD, List.getElem?_set_ne hne]
  | k + 1, fuel + 1, cur, child, hlen, hr, hag, hfix, hf => by
    have h0 := hr 0 (Nat.zero_le _)
    have ha := hag 0 (Nat.zero_le _)
    simp only [Function.iterate_zero, id_eq] at h0 ha
    have hc : child < cur.length := by omega
    unfold setParentLoop
    rw [List.getElem?_eq_getElem hc]
    dsimp only
    rw [← List.getD_eq_getElem _ 0 hc, ha]
    by_cases hroot : parent0.getD child 0 = child
    · rw [if_pos hroot]
      have hall : ∀ j, (fun c => parent0.getD c 0)^[j] child = child :=
        fun j => @Function.iterate_fixed Nat (fun c => parent0.getD c 0) child hroot j
      refine ⟨_, rfl, List.length_set _ _ _, ?_, ?_⟩
      · rintro i ⟨j, -, hji⟩
        rw [hall j] at hji
        subst hji
        rw [List.length_set, List.getD_eq_getElem _ _ (by rw [List.length_set]; exact hc),
          List.getElem_set_self]
        exact ⟨hc, rfl⟩
      · intro i hi
        have hne : child ≠ i := fun h => hi ⟨0, Nat.zero_le _, by simpa using h⟩
        rw [List.getD_eq_getElem?_getD, List.getD_eq_getElem?_getD, List.getElem?_set_ne hne]
    · rw [if_neg hroot]
      have hoff : ∀ j, (fun c => parent0.getD c 0)^[j] (parent0.getD child 0) ≠ child := by
        intro j
        have := iterate_ne_of_reaches_fixed (fun c => parent0.getD c 0) child (k + 1) j
          hfix hroot
        rw [Function.iterate_succ_apply] at this
        exact this
      obtain ⟨r, h1, h2, h3, h4⟩ := setParentLoop_spec parent0 p k fuel (cur.set child p)
        (parent0.getD child 0) (by rw [List.length_set]; exact hlen)
        (fun j hj => by
          have := hr (j + 1) (by omega)
          rw [Function.iterate_succ_apply] at this
          exact this)
        (fun j hj => by
          have := hag (j + 1) (by omega)
          rw [Function.iterate_succ_apply] at this
          rw [List.getD_eq_getElem?_getD, List.getElem?_set_ne (hoff j).symm,
            ← List.getD_eq_getElem?_getD]
          exact this)
        (by
          rw [Function.iterate_succ_apply] at hfix
          exact hfix)
        (by omega)
      rw [List.length_set] at h2
      refine ⟨r, h1, h2, ?_, ?_⟩
      · rintro i ⟨j, hj, hji⟩
        cases j with
        | zero =>
          simp only [Function.iterate_zero, id_eq] at hji
          subst hji
          have hnot : ¬ ∃ j, j ≤ k ∧
              (fun c => parent0.getD c 0)^[j] (parent0.getD child 0) = child := by
            rintro ⟨j2, -, hj2⟩
            exact hoff j2 hj2
          have := h4 child hnot
          rw [this, h2, List.getD_eq_getElem _ _ (by rw [List.length_set]; exact hc),
            List.getElem_set_self]
          exact ⟨hc, rfl⟩
        | succ j =>
          rw [Function.iterate_succ_apply] at hji
          exact h3 i ⟨j, by omega, hji⟩
      · intro i hi
        have hne : child ≠ i := fun h => hi ⟨0, Nat.zero_le _, by simpa using h⟩
        have hnot : ¬ ∃ j, j ≤ k ∧
            (fun c => parent0.getD c 0)^[j] (parent0.getD child 0) = i := by
          rintro ⟨j2, hj2, hj3⟩
          exact hi ⟨j2 + 1, by omega, by rw [Function.iterate_succ_apply]; exact hj3⟩
        rw [h4 i hnot, List.getD_eq_getElem?_getD, List.getD_eq_getElem?_getD,
          List.getElem?_set_ne hne]

/-- The nodes met on the way up from a node of a forest are nodes. -/
theorem MergingPartition.IsForest.iterate_lt (m : MergingPartition) (h : m.IsForest)
    (node : Nat) (hnode : node < m.NumNodes) : ∀ j, m.parentOf^[j] node < m.NumNodes
  | 0 => hnode
  | j + 1 => by
    rw [Function.iterate_succ_apply']
    exact (h _ (MergingPartition.IsForest.iterate_lt m h node hnode j)).1

/-- Claim C37. In a `MergingPartition` whose `parent_` array is a forest, for the
nodes `node` and `p`, there is a number of turns `k` after which the loops of
`GetRoot(node)` and `SetParentAlongPathToRoot(node, p)` have returned: the root
is the node reached from `node` by `k` parent steps, it is its own parent,
and afterwards the parent of every node on the path from `node` to that root,
the root included, is `p`, the parent of every other node is the one of
before, and the other data members are kept. -/
theorem SetParentAlongPathToRoot_spec (m : MergingPartition) (node p : Nat)
    (hforest : m.IsForest) (hnode : node < m.NumNodes) (hp : p < m.NumNodes) :
    ∃ k, m.parentOf (m.parentOf^[k] node) = m.parentOf^[k] node ∧
      ∀ fuel, k < fuel →
        m.GetRoot fuel node = Except.ok (m.parentOf^[k] node) ∧
        ∃ m1, m.SetParentAlongPathToRoot fuel node p = Except.ok m1 ∧
          m1.NumNodes = m.NumNodes ∧ m1.part_size_ = m.part_size_ ∧
          m1.tmp_part_bit_ = m.tmp_part_bit_ ∧
          (∀ i, (∃ j, j ≤ k ∧ m.parentOf^[j] node = i) → m1.parentOf i = p) ∧
          (∀ i, (¬ ∃ j, j ≤ k ∧ m.parentOf^[j] node = i) → m1.parentOf i = m.parentOf i) := by
  obtain ⟨-, k, hk⟩ := hforest node hnode
  refine ⟨k, hk, ?_⟩
  intro fuel hfuel
  have hlt := MergingPartition.IsForest.iterate_lt m hforest node hnode
  have hfun : m.parentOf = fun c => m.parent_.getD c 0 := rfl
  unfold MergingPartition.NumNodes at hnode hp hlt
  constructor
  · unfold MergingPartition.GetRoot MergingPartition.NumNodes
    rw [if_neg (by omega), hfun]
    exact getRootLoop_spec m.parent_ k fuel node (fun j _ => by rw [← hfun]; exact hlt j)
      (by rw [← hfun]; exact hk) hfuel
  · obtain ⟨r, h1, h2, h3, h4⟩ := setParentLoop_spec m.parent_ p k fuel m.parent_ node rfl
      (fun j _ => by rw [← hfun]; exact hlt j) (fun j _ => rfl)
      (by rw [← hfun]; exact hk) hfuel
    unfold MergingPartition.SetParentAlongPathToRoot MergingPartition.NumNodes
    rw [if_neg (by omega), h1]
    refine ⟨_, rfl, h2, rfl, rfl, ?_, ?_⟩
    · intro i hi
      exact (h3 i hi).2
    · intro i hi
      exact h4 i hi

/-- In the partition with the parents `0, 0, 1, 3`, the root of the node 2 is the
node 0, and `SetParentAlongPathToRoot(2, 3)` leaves the parents `3, 3, 3, 3`. -/
theorem SetParentAlongPathToRoot_spec_witness :
    partitionExample.GetRoot 4 2 = Except.ok 0 ∧
    partitionExample.SetParentAlongPathToRoot 4 2 3 =
      Except.ok ⟨[3, 3, 3, 3], [3, 1, 1, 1], []⟩ ∧
    ∃ k, partitionExample.parentOf (partitionExample.parentOf^[k] 2) =
        partitionExample.parentOf^[k] 2 ∧
      ∀ fuel, k < fuel →
        partitionExample.GetRoot fuel 2 = Except.ok (partitionExample.parentOf^[k] 2) ∧
        ∃ m1, partitionExample.SetParentAlongPathToRoot fuel 2 3 = Except.ok m1 ∧
          m1.NumNodes = partitionExample.NumNodes ∧
          m1.part_size_ = partitionExample.part_size_ ∧
          m1.tmp_part_bit_ = partitionExample.tmp_part_bit_ ∧
          (∀ i, (∃ j, j ≤ k ∧ partitionExample.parentOf^[j] 2 = i) → m1.parentOf i = 3) ∧
          (∀ i, (¬ ∃ j, j ≤ k ∧ partitionExample.parentOf^[j] 2 = i) →
            m1.parentOf i = partitionExample.parentOf i) :=
  ⟨rfl, rfl,
    SetParentAlongPathToRoot_spec partitionExample 2 3
      (by
        intro node hnode
        have h4 : node < 4 := hnode
        interval_cases node
        · exact ⟨by decide, 0, by decide⟩
        · exact ⟨by decide, 1, by decide⟩
        · exact ⟨by decide, 2, by decide⟩
        · exact ⟨by decide, 0, by decide⟩)
      (by decide) (by decide)⟩

theorem absSum_append (l1 l2 : List LiteralWithCoeff) :
    absSum (l1 ++ l2) = absSum l1 + absSum l2 := by
  simp [absSum]

theorem absSum_nonneg (l : List LiteralWithCoeff) : 0 ≤ absSum l := by
  unfold absSum
  apply List.sum_nonneg
  intro x hx
  obtain ⟨t, -, rfl⟩ := List.mem_map.1 hx
  exact abs_nonneg _

theorem absSum_perm {l1 l2 : List LiteralWithCoeff} (h : l1.Perm l2) :
    absSum l1 = absSum l2 := by
  unfold absSum
  exact (h.map _).sum_eq

theorem abs_le_absSum (l : List LiteralWithCoeff) (t : LiteralWithCoeff) (ht : t ∈ l) :
    |t.coefficient| ≤ absSum l := by
  induction l with
  | nil => exact absurd ht (List.not_mem_nil t)
  | cons u rest ih =>
    have hcons : absSum (u :: rest) = |u.coefficient| + absSum rest := by simp [absSum]
    rw [hcons]
    rcases List.mem_cons.1 ht with h | h
    · rw [h]
      have := absSum_nonneg rest
      omega
    · have := ih h
      have := abs_nonneg u.coefficient
      omega

theorem SafeAddInto_of_IsInt64 {a b : Int} (h : IsInt64 (a + b)) :
    SafeAddInto a b = some (a + b) := by
  unfold SafeAddInto
  rw [if_pos h]

theorem neg64_one : neg64 1 = -1 := by decide

theorem absSum_terms (st : MergeState) :
    absSum st.terms = absSum st.kept +
      (match st.representative with
        | none => 0
        | some rep => |rep.coefficient|) := by
  unfold MergeState.terms
  cases hrep : st.representative with
  | none => simp
  | some rep =>
    dsimp only
    by_cases h0 : rep.coefficient = 0
    · rw [if_pos h0, h0]
      simp
    · rw [if_neg h0, absSum_append]
      simp [absSum]

/-- One turn of the first loop of the canonicalization on a term of coefficient
1: it succeeds while the absolute values stay in 64 bits, and the bound shift
and the coefficients grow by 1 at most. -/
theorem mergeStep_unit (st : MergeState) (current : LiteralWithCoeff) (n : Int)
    (hone : current.coefficient = 1)
    (hshift : |st.bound_shift| ≤ n) (hsum : absSum st.terms ≤ n) (hn : n + 1 ≤ kint64max) :
    ∃ st1, mergeStep st current = some st1 ∧ |st1.bound_shift| ≤ n + 1 ∧
      absSum st1.terms ≤ n + 1 := by
  rw [absSum_terms] at hsum
  have hk := absSum_nonneg st.kept
  unfold mergeStep
  rw [if_neg (by rw [hone]; decide)]
  cases hrep : st.representative with
  | none =>
    refine ⟨_, rfl, by dsimp only; omega, ?_⟩
    simp only [hrep] at hsum
    rw [absSum_terms]
    dsimp only
    rw [hone]
    simp only [abs_one]
    omega
  | some rep =>
    simp only [hrep] at hsum
    dsimp only
    have hr : |rep.coefficient| ≤ n := by omega
    by_cases hvar : current.literal.Variable = rep.literal.Variable
    · rw [if_pos hvar]
      by_cases hlit : current.literal = rep.literal
      · rw [if_pos hlit, hone, SafeAddInto_of_IsInt64 (by
          unfold IsInt64 kint64min kint64max at *
          rw [abs_le] at hr
          omega)]
        refine ⟨_, rfl, by dsimp only; omega, ?_⟩
        rw [absSum_terms]
        dsimp only
        have : |1 + rep.coefficient| ≤ |rep.coefficient| + 1 := by
          rw [abs_le] at hr ⊢
          have := abs_nonneg rep.coefficient
          constructor <;> [skip; skip] <;> cases abs_cases rep.coefficient <;> omega
        omega
      · rw [if_neg hlit, hone, neg64_one, SafeAddInto_of_IsInt64 (by
          unfold IsInt64 kint64min kint64max at *
          rw [abs_le] at hr
          omega), SafeAddInto_of_IsInt64 (by
          unfold IsInt64 kint64min kint64max at *
          rw [abs_le] at hshift
          omega)]
        refine ⟨_, rfl, ?_, ?_⟩
        · dsimp only
          cases abs_cases st.bound_shift <;> cases abs_cases (-1 + st.bound_shift) <;> omega
        · rw [absSum_terms]
          dsimp only
          cases abs_cases rep.coefficient <;> cases abs_cases (-1 + rep.coefficient) <;> omega
    · rw [if_neg hvar]
      refine ⟨_, rfl, by dsimp only; omega, ?_⟩
      rw [absSum_terms]
      dsimp only
      rw [hone]
      simp only [abs_one]
      have hra := abs_nonneg rep.coefficient
      by_cases h0 : rep.coefficient = 0
      · rw [if_pos h0]
        omega
      · rw [if_neg h0, absSum_append]
        have : absSum [rep] = |rep.coefficient| := by simp [absSum]
        omega

/-- The first loop of the canonicalization on terms of coefficient 1. -/
theorem mergeLoop_unit : ∀ (l : List LiteralWithCoeff) (st : MergeState) (n : Int),
    (∀ c ∈ l, c.coefficient = 1) →
    |st.bound_shift| ≤ n → absSum st.terms ≤ n → n + l.length ≤ kint64max →
    ∃ st1, mergeLoop l st = some st1 ∧ |st1.bound_shift| ≤ n + l.length ∧
      absSum st1.terms ≤ n + l.length
  | [], st, n, _, h1, h2, _ => ⟨st, rfl, by simpa using h1, by simpa using h2⟩
  | current :: rest, st, n, hone, h1, h2, hn => by
    rw [List.length_cons] at hn ⊢
    push_cast at hn ⊢
    obtain ⟨st1, e1, b1, b2⟩ := mergeStep_unit st current n
      (hone current (List.mem_cons_self _ _)) h1 h2 (by omega)
    obtain ⟨st2, e2, c1, c2⟩ := mergeLoop_unit rest st1 (n + 1)
      (fun c hc => hone c (List.mem_cons_of_mem _ hc)) b1 b2 (by omega)
    refine ⟨st2, ?_, by omega, by omega⟩
    unfold mergeLoop
    rw [e1]
    exact e2

/-- The second loop of the canonicalization, while the absolute values stay in
64 bits: it succeeds. -/
theorem positiveLoop_bounded : ∀ (l : List LiteralWithCoeff) (s m : Int),
    |s| + absSum l ≤ kint64max → 0 ≤ m → m + absSum l ≤ kint64max →
    ∃ out s1 m1, positiveLoop l s m = some (out, s1, m1) ∧ |s1| ≤ |s| + absSum l ∧
      m1 = m + absSum l
  | [], s, m, _, _, _ => ⟨[], s, m, rfl, by simp [absSum], by simp [absSum]⟩
  | current :: rest, s, m, hs, hm0, hm => by
    have hcons : absSum (current :: rest) = |current.coefficient| + absSum rest := by
      simp [absSum]
    rw [hcons] at hs hm ⊢
    have hr := absSum_nonneg rest
    have hc := abs_nonneg current.coefficient
    have hsn := abs_nonneg s
    unfold positiveLoop
    by_cases hneg : current.coefficient < 0
    · rw [if_pos hneg]
      have habs : |current.coefficient| = -current.coefficient := abs_of_neg hneg
      have hn64 : neg64 current.coefficient = -current.coefficient := by
        unfold neg64
        apply wrap64_of_IsInt64
        unfold IsInt64 kint64min kint64max at *
        omega
      rw [hn64, SafeAddInto_of_IsInt64 (by
        unfold IsInt64 kint64min kint64max at *
        cases abs_cases s <;> omega)]
      dsimp only
      rw [SafeAddInto_of_IsInt64 (by
        unfold IsInt64 kint64min kint64max at *
        omega)]
      dsimp only
      obtain ⟨out, s1, m1, e, b1, b2⟩ := positiveLoop_bounded rest
        (-current.coefficient + s) (-current.coefficient + m)
        (by cases abs_cases s <;> cases abs_cases (-current.coefficient + s) <;> omega)
        (by omega) (by omega)
      rw [e]
      refine ⟨_, _, _, rfl, ?_, by omega⟩
      cases abs_cases s <;> cases abs_cases (-current.coefficient + s) <;> omega
    · rw [if_neg hneg]
      have habs : |current.coefficient| = current.coefficient := abs_of_nonneg (by omega)
      rw [SafeAddInto_of_IsInt64 (by
        unfold IsInt64 kint64min kint64max at *
        omega)]
      dsimp only
      obtain ⟨out, s1, m1, e, b1, b2⟩ := positiveLoop_bounded rest s
        (current.coefficient + m) (by omega) (by omega) (by omega)
      rw [e]
      exact ⟨_, _, _, rfl, by omega, by omega⟩

/-- The canonical form of a list of terms of coefficient 1, of a length that
fits an `int`: the function succeeds; the output has positive coefficients in
non-decreasing order, no variable twice and `max_value` is the sum of its
coefficients; the input is worth, under every assignment, the output minus the
bound shift. -/
theorem canonicalForm_of_unit_literals (lits : List Literal)
    (hlen : 2 * (lits.length : Int) ≤ kint64max) :
    ∃ out b m,
      ComputeBooleanLinearExpressionCanonicalForm (lits.map (fun l => ⟨l, 1⟩)) =
        some (out, b, m) ∧
      |b| ≤ 2 * (lits.length : Int) ∧ m = coefficientSum out ∧ m ≤ (lits.length : Int) ∧
      (∀ t ∈ out, 0 < t.coefficient) ∧
      (out.map (fun t => t.literal.Variable)).Nodup ∧
      out.Sorted (NotAfter CoeffComparator) ∧
      ∀ a : Assignment,
        expressionValue a (lits.map (fun l => ⟨l, 1⟩)) = expressionValue a out - b := by
  have hN := Int.natCast_nonneg lits.length
  have hperm := stdSort_perm LiteralComparator (lits.map (fun l => (⟨l, 1⟩ : LiteralWithCoeff)))
  have hone : ∀ c ∈ stdSort LiteralComparator (lits.map (fun l => (⟨l, 1⟩ : LiteralWithCoeff))),
      c.coefficient = 1 := by
    intro c hc
    obtain ⟨l, -, rfl⟩ := List.mem_map.1 (hperm.mem_iff.1 hc)
    rfl
  have hlength : (stdSort LiteralComparator
      (lits.map (fun l => (⟨l, 1⟩ : LiteralWithCoeff)))).length = lits.length := by
    rw [hperm.length_eq, List.length_map]
  obtain ⟨st1, e1, b1, b2⟩ := mergeLoop_unit _ ⟨[], none, 0⟩ 0 hone (by simp)
    (by simp [MergeState.terms, absSum]) (by rw [hlength]; omega)
  rw [hlength] at b1 b2
  obtain ⟨out1, s1, m1, e2, c1, c2⟩ := positiveLoop_bounded st1.terms st1.bound_shift 0
    (by omega) (le_refl _) (by omega)
  have hinv : MergeInv st1 :=
    mergeLoop_inv _ _ _ MergeInv.init (stdSort_LiteralComparator_sorted _)
      (by simp) (fun c hc => by rw [hone c hc]; decide) e1
  obtain ⟨t1, t2, t3⟩ := hinv.terms_facts
  have hmin : ∀ t ∈ st1.terms, t.coefficient ≠ kint64min := by
    intro t ht
    have := abs_le_absSum _ t ht
    unfold kint64min
    unfold kint64max at hlen
    cases abs_cases t.coefficient <;> omega
  obtain ⟨f1, f2, f3⟩ := positiveLoop_facts _ _ _ _ _ _ e2
  have hpos := f3 (fun t ht => ⟨t2 t ht, t3 t ht, hmin t ht⟩)
  have hperm2 := stdSort_perm CoeffComparator out1
  have hcf : ComputeBooleanLinearExpressionCanonicalForm (lits.map (fun l => ⟨l, 1⟩)) =
      some (stdSort CoeffComparator out1, s1, m1) := by
    unfold ComputeBooleanLinearExpressionCanonicalForm canonicalFormOfSorted
    rw [e1]
    dsimp only
    rw [e2]
  refine ⟨_, _, _, hcf, by omega, ?_, by omega, ?_, ?_, stdSort_CoeffComparator_sorted out1, ?_⟩
  · rw [coefficientSum_perm hperm2, f2]
    omega
  · intro t ht
    exact hpos t (hperm2.mem_iff.1 ht)
  · rw [(hperm2.map _).nodup_iff, f1]
    exact (t1.imp (fun h => Nat.ne_of_lt h))
  · intro a
    refine canonicalForm_value_of_exact _ _ _ _ ?_ hcf ?_ a
    · intro t ht
      obtain ⟨l, -, rfl⟩ := List.mem_map.1 ht
      exact ⟨(by decide : IsInt64 1), (by decide : (1 : Int) ≠ kint64min)⟩
    · intro st hst
      rw [e1] at hst
      cases hst
      exact hmin

theorem Literal.IsPositive_Negated (l : Literal) : l.Negated.IsPositive = !l.IsPositive := by
  obtain ⟨i⟩ := l
  unfold Literal.Negated Literal.IsPositive
  by_cases h : i % 2 = 0
  · have h2 : (i + 1) % 2 = 1 := by omega
    simp [h, h2]
  · have h2 : (i - 1) % 2 = 0 := by omega
    simp [h, h2]

/-- Two literals of the same variable and the same polarity are equal. -/
theorem Literal.eq_of_Variable_of_IsPositive (a b : Literal) (hv : a.Variable = b.Variable)
    (hp : a.IsPositive = b.IsPositive) : a = b := by
  rcases Literal.eq_or_eq_Negated_of_Variable_eq a b hv with h | h
  · exact h
  · rw [h, Literal.IsPositive_Negated] at hp
    cases hb : b.IsPositive <;> rw [hb] at hp <;> exact Bool.noConfusion hp

theorem literalValue_eq_one_iff (a : Assignment) (l : Literal) :
    literalValue a l = 1 ↔ a l.Variable = l.IsPositive := by
  unfold literalValue
  split
  · rename_i h
    exact ⟨fun _ => h, fun _ => rfl⟩
  · rename_i h
    exact ⟨fun h1 => absurd h1 (by decide), fun h1 => absurd h1 h⟩

theorem literalValue_eq_zero_iff (a : Assignment) (l : Literal) :
    literalValue a l = 0 ↔ a l.Variable ≠ l.IsPositive := by
  unfold literalValue
  split
  · rename_i h
    exact ⟨fun h1 => absurd h1 (by decide), fun h1 => absurd h h1⟩
  · rename_i h
    exact ⟨fun _ => h, fun _ => rfl⟩

/-- Every literal of a list without a literal and its negation is false under
`falsifying`. -/
theorem falsifying_spec (lits : List Literal) (hfree : ∀ x ∈ lits, x.Negated ∉ lits)
    (x : Literal) (hx : x ∈ lits) : literalValue (falsifying lits) x = 0 := by
  rw [literalValue_eq_zero_iff]
  unfold falsifying
  cases hp : x.IsPositive
  · simp only [ne_eq, decide_eq_false_iff_not, not_not]
    exact ⟨x, hx, rfl, hp⟩
  · simp only [ne_eq, decide_eq_true_eq]
    rintro ⟨y, hy, hv, hyp⟩
    rcases Literal.eq_or_eq_Negated_of_Variable_eq y x hv with h | h
    · rw [h, hp] at hyp
      exact Bool.noConfusion hyp
    · rw [h] at hy
      exact hfree x hx hy

/-- The value of a literal when the assignment is changed on one variable. -/
theorem literalValue_update (a : Assignment) (v : Nat) (p : Bool) (x : Literal) :
    literalValue (Function.update a v p) x =
      if x.Variable = v then (if p = x.IsPositive then 1 else 0) else literalValue a x := by
  unfold literalValue
  by_cases h : x.Variable = v
  · rw [if_pos h, h, Function.update_same]
  · rw [if_neg h, Function.update_noteq h]

theorem expressionValue_cons (a : Assignment) (t : LiteralWithCoeff)
    (rest : List LiteralWithCoeff) :
    expressionValue a (t :: rest) =
      t.coefficient * literalValue a t.literal + expressionValue a rest := by
  simp [expressionValue]

/-- An expression whose literals are all false is worth 0. -/
theorem expressionValue_of_all_false (a : Assignment) : ∀ (l : List LiteralWithCoeff),
    (∀ t ∈ l, literalValue a t.literal = 0) → expressionValue a l = 0
  | [], _ => rfl
  | t :: rest, h => by
    rw [expressionValue_cons, h t (List.mem_cons_self _ _),
      expressionValue_of_all_false a rest (fun u hu => h u (List.mem_cons_of_mem _ hu))]
    simp

theorem expressionValue_nonneg (a : Assignment) (l : List LiteralWithCoeff)
    (hpos : ∀ t ∈ l, 0 ≤ t.coefficient) : 0 ≤ expressionValue a l := by
  unfold expressionValue
  apply List.sum_nonneg
  intro x hx
  obtain ⟨t, ht, rfl⟩ := List.mem_map.1 hx
  have := hpos t ht
  rcases literalValue_cases a t.literal with h | h <;> rw [h] <;> omega

/-- With positive coefficients, an expression that is worth 0 has all its
literals false. -/
theorem all_false_of_expressionValue_zero (a : Assignment) (l : List LiteralWithCoeff)
    (hpos : ∀ t ∈ l, 0 < t.coefficient) (h0 : expressionValue a l = 0)
    (t : LiteralWithCoeff) (ht : t ∈ l) : literalValue a t.literal = 0 := by
  rcases literalValue_cases a t.literal with h | h
  · exact h
  · have h1 := expressionValue_ge_term a l (fun u hu => le_of_lt (hpos u hu)) t ht
    rw [h, h0] at h1
    have := hpos t ht
    omega

/-- The relation between a list of literals, read as terms of coefficient 1, and
an expression with positive coefficients and no variable twice that is worth
the same minus `b` under every assignment: `b` is not positive; it is negative
when the list holds a literal and its negation; otherwise it is 0 and the
literals of the expression are those of the list. -/
theorem unit_literals_of_value (lits : List Literal) (out : List LiteralWithCoeff) (b : Int)
    (hpos : ∀ t ∈ out, 0 < t.coefficient)
    (hnd : (out.map (fun t => t.literal.Variable)).Nodup)
    (hval : ∀ a : Assignment,
      expressionValue a (lits.map (fun l => ⟨l, 1⟩)) = expressionValue a out - b) :
    b ≤ 0 ∧ ((∃ x ∈ lits, x.Negated ∈ lits) → b ≤ -1) ∧
    ((∀ x ∈ lits, x.Negated ∉ lits) →
      b = 0 ∧ ∀ l, l ∈ out.map (fun t => t.literal) ↔ l ∈ lits) := by
  have hunit_nonneg : ∀ a : Assignment,
      0 ≤ expressionValue a (lits.map (fun l => (⟨l, 1⟩ : LiteralWithCoeff))) := by
    intro a
    apply expressionValue_nonneg
    intro t ht
    obtain ⟨l, -, rfl⟩ := List.mem_map.1 ht
    exact Int.zero_le_ofNat 1
  have hunit_true : ∀ (a : Assignment) (x : Literal), x ∈ lits → literalValue a x = 1 →
      1 ≤ expressionValue a (lits.map (fun l => (⟨l, 1⟩ : LiteralWithCoeff))) := by
    intro a x hx hv
    have := expressionValue_ge_term a (lits.map (fun l => (⟨l, 1⟩ : LiteralWithCoeff)))
      (by
        intro t ht
        obtain ⟨l, -, rfl⟩ := List.mem_map.1 ht
        exact Int.zero_le_ofNat 1)
      ⟨x, 1⟩ (List.mem_map.2 ⟨x, hx, rfl⟩)
    dsimp only at this
    rw [hv] at this
    omega
  have hunit_false : ∀ (a : Assignment), (∀ x ∈ lits, literalValue a x = 0) →
      expressionValue a (lits.map (fun l => (⟨l, 1⟩ : LiteralWithCoeff))) = 0 := by
    intro a h
    apply expressionValue_of_all_false
    intro t ht
    obtain ⟨l, hl, rfl⟩ := List.mem_map.1 ht
    exact h l hl
  -- the literals of the output hold no literal with its negation
  have hout_free : ∀ x ∈ out.map (fun t => t.literal),
      x.Negated ∉ out.map (fun t => t.literal) := by
    intro x hx hnx
    obtain ⟨t1, ht1, rfl⟩ := List.mem_map.1 hx
    obtain ⟨t2, ht2, h2⟩ := List.mem_map.1 hnx
    have := List.inj_on_of_nodup_map hnd ht2 ht1 (by
      show t2.literal.Variable = t1.literal.Variable
      rw [h2, Literal.Variable_Negated])
    rw [this] at h2
    exact Literal.Negated_ne _ h2.symm
  have hout0 : expressionValue (falsifying (out.map (fun t => t.literal))) out = 0 := by
    apply expressionValue_of_all_false
    intro t ht
    exact falsifying_spec _ hout_free t.literal (List.mem_map.2 ⟨t, ht, rfl⟩)
  have hb : b ≤ 0 := by
    have h1 := hval (falsifying (out.map (fun t => t.literal)))
    have h2 := hunit_nonneg (falsifying (out.map (fun t => t.literal)))
    rw [hout0] at h1
    omega
  refine ⟨hb, ?_, ?_⟩
  · rintro ⟨x, hx, hnx⟩
    have h1 := hval (falsifying (out.map (fun t => t.literal)))
    rw [hout0] at h1
    have h2 : 1 ≤ expressionValue (falsifying (out.map (fun t => t.literal)))
        (lits.map (fun l => (⟨l, 1⟩ : LiteralWithCoeff))) := by
      rcases literalValue_cases (falsifying (out.map (fun t => t.literal))) x with h | h
      · apply hunit_true _ x.Negated hnx
        rw [literalValue_Negated, h]
        rfl
      · exact hunit_true _ x hx h
    omega
  · intro hfree
    have h1 := hval (falsifying lits)
    rw [hunit_false _ (falsifying_spec lits hfree)] at h1
    have h2 := expressionValue_nonneg (falsifying lits) out (fun t ht => le_of_lt (hpos t ht))
    have hb0 : b = 0 := by omega
    have hsub : ∀ t ∈ out, t.literal ∈ lits := by
      intro t ht
      by_contra hnot
      have hfalse : ∀ x ∈ lits, literalValue
          (Function.update (falsifying lits) t.literal.Variable t.literal.IsPositive) x = 0 := by
        intro x hx
        rw [literalValue_update]
        by_cases hv : x.Variable = t.literal.Variable
        · rw [if_pos hv]
          rcases Literal.eq_or_eq_Negated_of_Variable_eq x t.literal hv with h | h
          · rw [h] at hx
            exact absurd hx hnot
          · rw [h, Literal.IsPositive_Negated]
            cases t.literal.IsPositive <;> rfl
        · rw [if_neg hv]
          exact falsifying_spec lits hfree x hx
      have h3 := hval (Function.update (falsifying lits) t.literal.Variable t.literal.IsPositive)
      rw [hunit_false _ hfalse, hb0] at h3
      have h4 := all_false_of_expressionValue_zero
        (Function.update (falsifying lits) t.literal.Variable t.literal.IsPositive) out hpos
        (by omega) t ht
      rw [literalValue_update, if_pos rfl, if_pos rfl] at h4
      exact absurd h4 (by decide)
    refine ⟨hb0, ?_⟩
    intro l
    constructor
    · intro hl
      obtain ⟨t, ht, rfl⟩ := List.mem_map.1 hl
      exact hsub t ht
    · intro hl
      have h3 := hval (Function.update (falsifying lits) l.Variable l.IsPositive)
      have h4 := hunit_true (Function.update (falsifying lits) l.Variable l.IsPositive) l hl
        (by rw [literalValue_update, if_pos rfl, if_pos rfl])
      rw [hb0] at h3
      have hex : ∃ t ∈ out, literalValue
          (Function.update (falsifying lits) l.Variable l.IsPositive) t.literal = 1 := by
        by_contra hno
        have h5 := expressionValue_of_all_false
          (Function.update (falsifying lits) l.Variable l.IsPositive) out (by
            intro t ht
            rcases literalValue_cases
              (Function.update (falsifying lits) l.Variable l.IsPositive) t.literal with h | h
            · exact h
            · exact absurd ⟨t, ht, h⟩ hno)
        omega
      obtain ⟨t, ht, htrue⟩ := hex
      rw [literalValue_update] at htrue
      by_cases hv : t.literal.Variable = l.Variable
      · rw [if_pos hv] at htrue
        have hp : l.IsPositive = t.literal.IsPositive := by
          by_contra hne
          rw [if_neg hne] at htrue
          exact absurd htrue (by decide)
        exact List.mem_map.2 ⟨t, ht, Literal.eq_of_Variable_of_IsPositive _ _ hv hp.symm⟩
      · rw [if_neg hv, falsifying_spec lits hfree t.literal (hsub t ht)] at htrue
        exact absurd htrue (by decide)

/-- When nothing is left to propagate, `Propagate` returns true and changes
nothing. -/
theorem Propagate_of_PropagationDone (fuel : Nat) (s : SatSolver) (h : s.PropagationDone) :
    s.Propagate (fuel + 1) = Except.ok (true, s) := by
  obtain ⟨h1, h2, h3, h4⟩ := h
  have hbin : (if s.binary_implication_graph_.NumberOfImplications ≠ 0 then
      propagateBinaryLoop (fuel + 1) s else Except.ok (true, s)) = Except.ok (true, s) := by
    by_cases hz : s.binary_implication_graph_.NumberOfImplications = 0
    · rw [if_neg (by simp [hz])]
    · rw [if_pos hz]
      unfold propagateBinaryLoop
      rcases h1 with h1 | h1
      · exact absurd h1 hz
      · rw [if_neg (by omega)]
  unfold SatSolver.Propagate
  rw [hbin]
  dsimp only
  have hcl : propagateClausesLoop s.trail_.Index (fuel + 1) s = Except.ok (true, s) := by
    unfold propagateClausesLoop
    rw [if_neg (by omega)]
  rw [hcl]
  dsimp only
  rw [if_neg (by omega)]
  have hsym : propagateSymmetryLoop s.trail_.Index (fuel + 1) s = Except.ok (true, s) := by
    unfold propagateSymmetryLoop
    rw [if_neg (by simp [h3])]
  rw [hsym]
  dsimp only
  rw [if_neg (by omega)]
  have hpb : propagatePbLoop s.trail_.Index (fuel + 1) s = Except.ok (true, s) := by
    unfold propagatePbLoop
    rw [if_neg (by simp [h4])]
  rw [hpb]
  dsimp only
  rw [if_neg (by omega)]

/-- The first block of `AddLinearConstraint` on terms of coefficient 1: the terms
of the unassigned literals are kept and the shift goes down by the number of
literals that are true (and not false). -/
theorem removeAssignedLiterals_of_units (trail : Trail) :
    ∀ (lits : List Literal) (shift : Int),
    kint64min ≤ shift - (lits.length : Int) → shift ≤ kint64max →
    removeAssignedLiterals trail (lits.map (fun l => ⟨l, 1⟩)) shift =
      some ((lits.filter (fun l => !trail.IsLiteralFalse l && !trail.IsLiteralTrue l)).map
          (fun l => ⟨l, 1⟩),
        shift - ((lits.filter (fun l => !trail.IsLiteralFalse l && trail.IsLiteralTrue l)).length
          : Int))
  | [], shift, _, _ => by simp [removeAssignedLiterals]
  | l :: rest, shift, h1, h2 => by
    rw [List.length_cons] at h1
    push_cast at h1
    rw [List.map_cons]
    unfold removeAssignedLiterals
    dsimp only
    by_cases hf : trail.IsLiteralFalse l = true
    · rw [if_pos hf, removeAssignedLiterals_of_units trail rest shift (by omega) h2]
      simp [List.filter_cons, hf]
    · have hf2 : trail.IsLiteralFalse l = false := by simpa using hf
      rw [if_neg hf]
      by_cases ht : trail.IsLiteralTrue l = true
      · rw [if_pos ht, neg64_one, SafeAddInto_of_IsInt64 (by
          unfold IsInt64
          have := Int.natCast_nonneg rest.length
          constructor <;> omega)]
        dsimp only
        rw [removeAssignedLiterals_of_units trail rest (-1 + shift) (by omega) (by omega)]
        simp only [List.filter_cons, hf2, ht, Bool.not_false, Bool.not_true, Bool.and_false,
          Bool.false_eq_true, if_false, Bool.and_self, if_true, List.length_cons,
          Option.some.injEq, Prod.mk.injEq, true_and]
        push_cast
        omega
      · have ht2 : trail.IsLiteralTrue l = false := by simpa using ht
        rw [if_neg ht, removeAssignedLiterals_of_units trail rest shift (by omega) h2]
        simp [List.filter_cons, hf2, ht2]

theorem Trail.IsLiteralFalse_Negated (trail : Trail) (l : Literal) :
    trail.IsLiteralFalse l.Negated = trail.IsLiteralTrue l := by
  unfold Trail.IsLiteralFalse Trail.IsLiteralTrue
  rw [Literal.Negated_Negated]

theorem Trail.IsLiteralTrue_Negated (trail : Trail) (l : Literal) :
    trail.IsLiteralTrue l.Negated = trail.IsLiteralFalse l := rfl

/-- The call `AddProblemClause(literals)` without `unsat_proof`, at level 0, up to
the call of `AddLinearConstraintInternal`: the canonical form of the terms of
the unassigned literals is computed, with the facts of
`canonicalForm_of_unit_literals`, and the bound shift is lowered by the number
of true literals. -/
theorem AddProblemClause_chain (fuel : Nat) (s : SatSolver) (literals : List Literal)
    (hproof : s.parameters_.unsat_proof = false) (hlevel : s.CurrentDecisionLevel = 0)
    (hlen : literals.length ≤ 2147483647) :
    ∃ out b m,
      |b| ≤ 2 * (literals.length : Int) ∧ m = coefficientSum out ∧
      m ≤ (literals.length : Int) ∧
      (∀ t ∈ out, 0 < t.coefficient) ∧
      (out.map (fun t => t.literal.Variable)).Nodup ∧
      out.Sorted (NotAfter CoeffComparator) ∧
      (∀ a : Assignment,
        expressionValue a ((literals.filter (fun l => !s.trail_.IsLiteralFalse l &&
          !s.trail_.IsLiteralTrue l)).map (fun l => ⟨l, 1⟩)) = expressionValue a out - b) ∧
      s.AddProblemClause fuel literals =
        match s.AddLinearConstraintInternal
            (out.map (fun t => { t with literal := t.literal.Negated }))
            (ComputeNegatedCanonicalRhs 1
              (-((literals.filter (fun l => !s.trail_.IsLiteralFalse l &&
                s.trail_.IsLiteralTrue l)).length : Int) + b) m) m with
        | Except.error e => Except.error e
        | Except.ok (false, s2) => Except.ok s2.ModelUnsat
        | Except.ok (true, s2) => s2.finishAddLinearConstraint fuel := by
  have hN := Int.natCast_nonneg literals.length
  have hkl : ((literals.filter (fun l => !s.trail_.IsLiteralFalse l &&
      !s.trail_.IsLiteralTrue l)).length : Int) ≤ literals.length := by
    exact_mod_cast List.length_filter_le _ _
  have htl : ((literals.filter (fun l => !s.trail_.IsLiteralFalse l &&
      s.trail_.IsLiteralTrue l)).length : Int) ≤ literals.length := by
    exact_mod_cast List.length_filter_le _ _
  have hlen2 : (literals.length : Int) ≤ 2147483647 := by exact_mod_cast hlen
  obtain ⟨out, b, m, hcf, hb, hm, hmle, hpos, hnd, hsorted, hval⟩ :=
    canonicalForm_of_unit_literals (literals.filter (fun l => !s.trail_.IsLiteralFalse l &&
      !s.trail_.IsLiteralTrue l)) (by unfold kint64max; omega)
  refine ⟨out, b, m, by omega, hm, by omega, hpos, hnd, hsorted, hval, ?_⟩
  unfold SatSolver.AddProblemClause SatSolver.AddLinearConstraint
  rw [if_neg (by simp [hlevel])]
  simp only [hproof, Bool.not_false, if_true]
  rw [removeAssignedLiterals_of_units s.trail_ literals 0
    (by unfold kint64min; omega) (by unfold kint64max; omega)]
  dsimp only
  rw [hcf]
  dsimp only
  rw [Int.zero_sub, SafeAddInto_of_IsInt64 (by
    unfold IsInt64 kint64min kint64max
    have := Int.natCast_nonneg (literals.filter (fun l => !s.trail_.IsLiteralFalse l &&
      s.trail_.IsLiteralTrue l)).length
    rw [abs_le] at hb
    constructor <;> omega)]
  simp only [Bool.false_eq_true, if_false]
  unfold SatSolver.finishAddLinearConstraint
  rfl

/-- Claim C38 (amended).  Without `unsat_proof`, at level 0, on a trail that
holds no variable twice and for a list whose length fits an `int`:
when some literal of the list is true or the list holds a literal and its
negation, `AddProblemClause(literals)` calls neither `AddProblemClauseInternal`
nor `PbConstraints::AddConstraint`: it goes straight to the last statements of
`AddLinearConstraint` (`++num_constraints_` and `Propagate()`), and when nothing
is left to propagate it returns true with only `num_constraints_` changed.
Otherwise, when every literal is false (the empty list included) it returns
false with `is_model_unsat_` set, and when some literal is not false it passes
to `AddProblemClauseInternal` a list without repetition whose literals are
those of `literals` that are not false. -/
theorem AddProblemClause_as_clause (fuel : Nat) (s : SatSolver) (literals : List Literal)
    (hproof : s.parameters_.unsat_proof = false) (hlevel : s.CurrentDecisionLevel = 0)
    (hn : (s.trail_.entries.map (fun e => e.literal.Variable)).Nodup)
    (hlen : literals.length ≤ 2147483647) :
    (((∃ l ∈ literals, s.trail_.IsLiteralTrue l = true) ∨
        (∃ l ∈ literals, l.Negated ∈ literals)) →
      s.AddProblemClause fuel literals = s.finishAddLinearConstraint fuel ∧
      (s.PropagationDone →
        s.AddProblemClause (fuel + 1) literals =
          Except.ok (true, { s with num_constraints_ := s.num_constraints_ + 1 }))) ∧
    (¬ ((∃ l ∈ literals, s.trail_.IsLiteralTrue l = true) ∨
        (∃ l ∈ literals, l.Negated ∈ literals)) →
      ((∀ l ∈ literals, s.trail_.IsLiteralFalse l = true) →
        s.AddProblemClause fuel literals =
          Except.ok (false, { s with is_model_unsat_ := true })) ∧
      ((∃ l ∈ literals, s.trail_.IsLiteralFalse l = false) →
        ∃ lits : List Literal, lits.Nodup ∧
          (∀ l, l ∈ lits ↔ l ∈ literals ∧ s.trail_.IsLiteralFalse l = false) ∧
          s.AddProblemClause fuel literals =
            match s.AddProblemClauseInternal lits none with
            | Except.error e => Except.error e
            | Except.ok (false, s2) => Except.ok s2.ModelUnsat
            | Except.ok (true, s2) => s2.finishAddLinearConstraint fuel)) := by
  have hchain : ∀ fuel, ∃ out b m,
      |b| ≤ 2 * (literals.length : Int) ∧ m = coefficientSum out ∧
      m ≤ (literals.length : Int) ∧
      (∀ t ∈ out, 0 < t.coefficient) ∧
      (out.map (fun t => t.literal.Variable)).Nodup ∧
      out.Sorted (NotAfter CoeffComparator) ∧
      (∀ a : Assignment,
        expressionValue a ((literals.filter (fun l => !s.trail_.IsLiteralFalse l &&
          !s.trail_.IsLiteralTrue l)).map (fun l => ⟨l, 1⟩)) = expressionValue a out - b) ∧
      s.AddProblemClause fuel literals =
        match s.AddLinearConstraintInternal
            (out.map (fun t => { t with literal := t.literal.Negated }))
            (ComputeNegatedCanonicalRhs 1
              (-((literals.filter (fun l => !s.trail_.IsLiteralFalse l &&
                s.trail_.IsLiteralTrue l)).length : Int) + b) m) m with
        | Except.error e => Except.error e
        | Except.ok (false, s2) => Except.ok s2.ModelUnsat
        | Except.ok (true, s2) => s2.finishAddLinearConstraint fuel :=
    fun fuel => AddProblemClause_chain fuel s literals hproof hlevel hlen
  have hN := Int.natCast_nonneg literals.length
  have hlen2 : (literals.length : Int) ≤ 2147483647 := by exact_mod_cast hlen
  have htl : ((literals.filter (fun l => !s.trail_.IsLiteralFalse l &&
      s.trail_.IsLiteralTrue l)).length : Int) ≤ literals.length := by
    exact_mod_cast List.length_filter_le _ _
  have ht0 := Int.natCast_nonneg (literals.filter (fun l => !s.trail_.IsLiteralFalse l &&
      s.trail_.IsLiteralTrue l)).length
  have hmem_kept : ∀ l, l ∈ literals.filter (fun l => !s.trail_.IsLiteralFalse l &&
      !s.trail_.IsLiteralTrue l) ↔
      l ∈ literals ∧ s.trail_.IsLiteralFalse l = false ∧ s.trail_.IsLiteralTrue l = false := by
    intro l
    rw [List.mem_filter]
    simp
  constructor
  · -- a true literal, or a literal with its negation
    intro hA
    have hcase : ∀ fuel, s.AddProblemClause fuel literals =
        s.finishAddLinearConstraint fuel := by
      intro fuel
      obtain ⟨out, b, m, hb, hm, hmle, hpos, hnd, -, hval, heq⟩ := hchain fuel
      obtain ⟨hb0, hbpair, -⟩ := unit_literals_of_value _ out b hpos hnd hval
      have hshift : -((literals.filter (fun l => !s.trail_.IsLiteralFalse l &&
          s.trail_.IsLiteralTrue l)).length : Int) + b ≤ -1 := by
        by_cases htrue : ∃ l ∈ literals, s.trail_.IsLiteralTrue l = true
        · obtain ⟨l, hl, ht⟩ := htrue
          have hf : s.trail_.IsLiteralFalse l = false := by
            by_contra hc
            have h1 := s.trail_.not_true_of_false hn l (by simpa using hc)
            rw [ht] at h1
            exact Bool.noConfusion h1
          have hmem : l ∈ literals.filter (fun l => !s.trail_.IsLiteralFalse l &&
              s.trail_.IsLiteralTrue l) := by
            rw [List.mem_filter]
            exact ⟨hl, by simp [hf, ht]⟩
          have hposlen := List.length_pos_of_mem hmem
          omega
        · rcases hA with hA | ⟨l, hl, hnl⟩
          · exact absurd hA htrue
          · have ht1 : s.trail_.IsLiteralTrue l = false := by
              by_contra hc
              exact htrue ⟨l, hl, by simpa using hc⟩
            have ht2 : s.trail_.IsLiteralTrue l.Negated = false := by
              by_contra hc
              exact htrue ⟨l.Negated, hnl, by simpa using hc⟩
            have hp := hbpair ⟨l, (hmem_kept l).2 ⟨hl, ht2, ht1⟩,
              (hmem_kept l.Negated).2 ⟨hnl, by rw [Trail.IsLiteralFalse_Negated]; exact ht1,
                ht2⟩⟩
            omega
      have hm0 : 0 ≤ m := by
        rw [hm]
        exact coefficientSum_nonneg out hpos
      have hrhs : ComputeNegatedCanonicalRhs 1
          (-((literals.filter (fun l => !s.trail_.IsLiteralFalse l &&
            s.trail_.IsLiteralTrue l)).length : Int) + b) m = m := by
        unfold ComputeNegatedCanonicalRhs
        rw [SafeAddInto_of_IsInt64 (by
          unfold IsInt64 kint64min kint64max
          rw [abs_le] at hb
          constructor <;> omega)]
        dsimp only
        rw [if_pos (by omega)]
      rw [heq, hrhs]
      unfold SatSolver.AddLinearConstraintInternal
      rw [if_neg (by omega), if_pos (le_refl _)]
    refine ⟨hcase fuel, ?_⟩
    intro hdone
    rw [hcase (fuel + 1)]
    unfold SatSolver.finishAddLinearConstraint
    have hdone2 : ({ s with num_constraints_ := s.num_constraints_ + 1 }
        : SatSolver).PropagationDone := hdone
    rw [Propagate_of_PropagationDone fuel _ hdone2]
  · -- no true literal, no literal with its negation
    intro hB
    have hnotrue : ∀ l ∈ literals, s.trail_.IsLiteralTrue l = false := by
      intro l hl
      by_contra hc
      exact hB (Or.inl ⟨l, hl, by simpa using hc⟩)
    have hnopair : ∀ l ∈ literals, l.Negated ∉ literals :=
      fun l hl hnl => hB (Or.inr ⟨l, hl, hnl⟩)
    obtain ⟨out, b, m, hb, hm, hmle, hpos, hnd, hsorted, hval, heq⟩ := hchain fuel
    obtain ⟨-, -, hfree⟩ := unit_literals_of_value _ out b hpos hnd hval
    obtain ⟨hb0, hlits⟩ := hfree (by
      intro x hx hnx
      exact hnopair x ((hmem_kept x).1 hx).1 ((hmem_kept x.Negated).1 hnx).1)
    have htzero : (literals.filter (fun l => !s.trail_.IsLiteralFalse l &&
        s.trail_.IsLiteralTrue l)) = [] := by
      rw [List.filter_eq_nil_iff]
      intro l hl
      rw [hnotrue l hl]
      simp
    have hm0 : 0 ≤ m := by
      rw [hm]
      exact coefficientSum_nonneg out hpos
    have hrhs : ComputeNegatedCanonicalRhs 1
        (-((literals.filter (fun l => !s.trail_.IsLiteralFalse l &&
          s.trail_.IsLiteralTrue l)).length : Int) + b) m = m - 1 := by
      rw [htzero, hb0]
      simp only [List.length_nil, Nat.cast_zero, neg_zero, zero_add]
      unfold ComputeNegatedCanonicalRhs
      rw [SafeAddInto_of_IsInt64 (by decide)]
      dsimp only
      rw [if_neg (by decide)]
      unfold sub64
      apply wrap64_of_IsInt64
      unfold IsInt64 kint64min kint64max
      constructor <;> omega
    rw [hrhs] at heq
    have hmemlits : ∀ l, l ∈ out.map (fun t => t.literal) ↔
        l ∈ literals ∧ s.trail_.IsLiteralFalse l = false := by
      intro l
      rw [hlits l, hmem_kept l]
      constructor
      · rintro ⟨h1, h2, -⟩
        exact ⟨h1, h2⟩
      · rintro ⟨h1, h2⟩
        exact ⟨h1, h2, hnotrue l h1⟩
    constructor
    · intro hall
      have hout : out = [] := by
        cases out with
        | nil => rfl
        | cons t rest =>
          have := (hmemlits t.literal).1 (List.mem_map.2 ⟨t, List.mem_cons_self _ _, rfl⟩)
          rw [hall t.literal this.1] at this
          exact absurd this.2 (by decide)
      rw [heq]
      have hmz : m = 0 := by
        rw [hm, hout]
        rfl
      unfold SatSolver.AddLinearConstraintInternal
      rw [if_pos (by omega)]
      rfl
    · rintro ⟨l0, hl0, hl0f⟩
      refine ⟨out.map (fun t => t.literal), ?_, hmemlits, ?_⟩
      · apply List.Nodup.of_map (fun l : Literal => l.Variable)
        rw [List.map_map]
        exact hnd
      · rw [heq]
        obtain ⟨t0, rest, hout⟩ : ∃ t0 rest, out = t0 :: rest := by
          cases out with
          | nil =>
            have := (hmemlits l0).2 ⟨hl0, hl0f⟩
            exact absurd this (List.not_mem_nil l0)
          | cons t0 rest => exact ⟨t0, rest, rfl⟩
        have ht0pos := hpos t0 (by rw [hout]; exact List.mem_cons_self _ _)
        have hsum : m = t0.coefficient + coefficientSum rest := by
          rw [hm, hout]
          simp [coefficientSum]
        have hrest : 0 ≤ coefficientSum rest := coefficientSum_nonneg rest
          (fun t ht => hpos t (by rw [hout]; exact List.mem_cons_of_mem _ ht))
        have hnode : s.CreateRootResolutionNode = (none, s) := by
          unfold SatSolver.CreateRootResolutionNode
          rw [hproof]
          rfl
        have htest : sub64 m
            ((out.map (fun t => ({ t with literal := t.literal.Negated } : LiteralWithCoeff))).getD 0
              ⟨⟨0⟩, 0⟩).coefficient ≤ m - 1 := by
          rw [hout]
          show sub64 m t0.coefficient ≤ m - 1
          unfold sub64
          rw [wrap64_of_IsInt64 (by
            unfold IsInt64 kint64min kint64max
            constructor <;> omega)]
          omega
        have hneg : (out.map (fun t => ({ t with literal := t.literal.Negated }
            : LiteralWithCoeff))).map (fun term => term.literal.Negated) =
            out.map (fun t => t.literal) := by
          rw [List.map_map]
          apply List.map_congr_left
          intro t _
          exact Literal.Negated_Negated t.literal
        unfold SatSolver.AddLinearConstraintInternal
        rw [if_neg (by omega), if_neg (by omega), hnode]
        dsimp only
        rw [if_pos htest, hneg]

/-- Witness of C38 on the solver with four variables where `x0` is true: the
clause `x0 ∨ x1` is dropped, the clause `¬x0 ∨ x1 ∨ x1` is passed on as `x1`. -/
theorem AddProblemClause_as_clause_witness :
    unitClauseSolver.parameters_.unsat_proof = false ∧
    unitClauseSolver.CurrentDecisionLevel = 0 ∧
    (unitClauseSolver.trail_.entries.map (fun e => e.literal.Variable)).Nodup ∧
    unitClauseSolver.PropagationDone ∧
    unitClauseSolver.trail_.IsLiteralTrue ⟨0⟩ = true ∧
    unitClauseSolver.AddProblemClause 21 [⟨0⟩, ⟨2⟩] =
      Except.ok (true, { unitClauseSolver with
        num_constraints_ := unitClauseSolver.num_constraints_ + 1 }) ∧
    ∃ lits : List Literal, lits.Nodup ∧
      (∀ l, l ∈ lits ↔
        l ∈ [(⟨1⟩ : Literal), ⟨2⟩, ⟨2⟩] ∧ unitClauseSolver.trail_.IsLiteralFalse l = false) ∧
      unitClauseSolver.AddProblemClause 20 [⟨1⟩, ⟨2⟩, ⟨2⟩] =
        match unitClauseSolver.AddProblemClauseInternal lits none with
        | Except.error e => Except.error e
        | Except.ok (false, s2) => Except.ok s2.ModelUnsat
        | Except.ok (true, s2) => s2.finishAddLinearConstraint 20 :=
  ⟨rfl, rfl, by decide, ⟨Or.inl rfl, by decide, rfl, rfl⟩, rfl,
    ((AddProblemClause_as_clause 20 unitClauseSolver [⟨0⟩, ⟨2⟩] rfl rfl (by decide)
      (by decide)).1 (Or.inl ⟨⟨0⟩, by decide, rfl⟩)).2 ⟨Or.inl rfl, by decide, rfl, rfl⟩,
    ((AddProblemClause_as_clause 20 unitClauseSolver [⟨1⟩, ⟨2⟩, ⟨2⟩] rfl rfl (by decide)
      (by decide)).2 (by decide)).2 ⟨⟨2⟩, by decide, rfl⟩⟩

/-- Counterexample to C38 as stated: on the solver reached by adding
`x1 + x2 + x3 >= 2`, `x0 + x1 + x2 <= 1` and the unit clause `x0` (the last call
returns false, with the pseudo-Boolean propagation of `¬x2` still pending),
`x0` is true, and `AddProblemClause` of the clause `x0`, and of the clause
`x3 ∨ ¬x3`, return false instead of true. -/
theorem AddProblemClause_as_clause_counterexample :
    failedUnitExample = Except.ok (false, failedUnitSolver) ∧
    failedUnitSolver.parameters_.unsat_proof = false ∧
    failedUnitSolver.CurrentDecisionLevel = 0 ∧
    (failedUnitSolver.trail_.entries.map (fun e => e.literal.Variable)).Nodup ∧
    failedUnitSolver.trail_.IsLiteralTrue ⟨0⟩ = true ∧
    (failedUnitSolver.AddProblemClause 20 [⟨0⟩]).toOption.map (fun r => r.1) = some false ∧
    (failedUnitSolver.AddProblemClause 20 [⟨6⟩, ⟨7⟩]).toOption.map (fun r => r.1) =
      some false ∧
    ¬ failedUnitSolver.PropagationDone :=
  ⟨rfl, rfl, rfl, by decide, rfl, rfl, rfl, fun h => absurd h.2.2.2 (by decide)⟩

theorem Trail.Within.Index_le {t : Trail} {n : Nat} (h : t.Within n) : t.Index ≤ n := by
  have := length_le_of_bounded (t.entries.map (fun e => e.literal.Variable)) n h.1
    (fun x hx => by
      obtain ⟨e, he, rfl⟩ := List.mem_map.1 hx
      exact h.2 e he)
  simpa [Trail.Index] using this

theorem Trail.Within.Enqueue {t : Trail} {n : Nat} (h : t.Within n) (l : Literal)
    (info : AssignmentInfo) (hf : t.IsLiteralFalse l = false) (ht : t.IsLiteralTrue l = false)
    (hl : l.Variable < n) : (t.Enqueue l info).Within n := by
  have hun := t.unassigned_of_neither l hf ht
  constructor
  · simp only [Trail.Enqueue, List.map_append, List.map_cons, List.map_nil]
    rw [List.nodup_append]
    refine ⟨h.1, List.nodup_singleton _, ?_⟩
    intro a ha hb
    have : a = l.Variable := by simpa using hb
    rw [this] at ha
    exact hun ha
  · intro e he
    simp only [Trail.Enqueue, List.mem_append, List.mem_singleton] at he
    rcases he with he | he
    · exact h.2 e he
    · rw [he]
      exact hl

theorem Trail.Within.pos_of_lt {t : Trail} {n : Nat} (h : t.Within n) (i : Nat)
    (hi : i < t.Index) : 0 < n ∧ (t.get i).Variable < n := by
  unfold Trail.Index at hi
  have hmem : t.entries[i] ∈ t.entries := List.getElem_mem _
  have hlt := h.2 _ hmem
  have hget : t.get i = (t.entries[i]).literal := by
    unfold Trail.get
    rw [List.get?_eq_getElem?, List.getElem?_eq_getElem hi]
  rw [hget]
  exact ⟨by omega, hlt⟩

theorem getD_Variable_lt (lits : List Literal) (n : Nat) (hn : 0 < n)
    (h : ∀ l ∈ lits, l.Variable < n) (i : Nat) : (lits.getD i ⟨0⟩).Variable < n := by
  rw [List.getD_eq_getElem?_getD]
  cases hi : lits[i]? with
  | none => exact hn
  | some l => exact h l (List.mem_iff_getElem?.2 ⟨i, hi⟩)

/-- The walk of `PropagateOnTrue` keeps the trail well formed and does not
shorten it. -/
theorem propagateImplied_within (n : Nat) (true_literal : Literal) :
    ∀ (implied : List Literal) (trail : Trail),
    trail.Within n → (∀ l ∈ implied, l.Variable < n) →
    (propagateImplied true_literal implied trail).2.Within n ∧
    trail.Index ≤ (propagateImplied true_literal implied trail).2.Index
  | [], trail, h, _ => ⟨h, le_refl _⟩
  | l :: rest, trail, h, hl => by
    unfold propagateImplied
    have hrest : ∀ l ∈ rest, l.Variable < n := fun x hx => hl x (List.mem_cons_of_mem _ hx)
    by_cases ht : trail.IsLiteralTrue l = true
    · rw [if_pos ht]
      exact propagateImplied_within n true_literal rest trail h hrest
    · rw [if_neg ht]
      by_cases hf : trail.IsLiteralFalse l = true
      · rw [if_pos hf]
        exact ⟨h, le_refl _⟩
      · rw [if_neg hf]
        have h1 := h.Enqueue l (AssignmentInfo.BINARY_PROPAGATION true_literal.Negated)
          (by simpa using hf) (by simpa using ht) (hl l (List.mem_cons_self _ _))
        obtain ⟨h2, h3⟩ := propagateImplied_within n true_literal rest _ h1 hrest
        refine ⟨h2, le_trans ?_ h3⟩
        rw [Trail.Index_Enqueue]
        omega

theorem PropagateOnTrue_within (g : BinaryImplicationGraph) (n : Nat) (true_literal : Literal)
    (trail : Trail) (h : trail.Within n)
    (hg : ∀ arc ∈ g.implications_, arc.2.Variable < n) :
    (g.PropagateOnTrue true_literal trail).2.Within n ∧
    trail.Index ≤ (g.PropagateOnTrue true_literal trail).2.Index := by
  unfold BinaryImplicationGraph.PropagateOnTrue
  apply propagateImplied_within n true_literal _ trail h
  intro l hl
  unfold BinaryImplicationGraph.impliedBy at hl
  obtain ⟨arc, harc, rfl⟩ := List.mem_map.1 hl
  exact hg arc (List.mem_filter.1 harc).1

/-- The clauses hold only variables below `n`. -/
theorem heap_set_in_range (heap : ClauseHeap) (n : Nat)
    (hh : ∀ c ∈ heap, ∀ l ∈ c.literals_, l.Variable < n) (i : Nat) (c1 : SatClause)
    (hc1 : ∀ l ∈ c1.literals_, l.Variable < n) :
    ∀ c ∈ heap.set i c1, ∀ l ∈ c.literals_, l.Variable < n := by
  intro c hc
  rcases List.mem_or_eq_of_mem_set hc with h | h
  · exact hh c h
  · rw [h]
    exact hc1

/-- The inspection of one watcher keeps the trail and the clauses well formed
and does not shorten the trail. -/
theorem inspectWatcher_within (n : Nat) (false_literal : Literal) (watcher : Watcher)
    (w : LiteralWatchers) (heap : ClauseHeap) (trail : Trail)
    (h : trail.Within n) (hfl : false_literal.Variable < n)
    (hh : ∀ c ∈ heap, ∀ l ∈ c.literals_, l.Variable < n) :
    (inspectWatcher false_literal watcher w heap trail).2.2.2.Within n ∧
    trail.Index ≤ (inspectWatcher false_literal watcher w heap trail).2.2.2.Index ∧
    ∀ c ∈ (inspectWatcher false_literal watcher w heap trail).2.2.1,
      ∀ l ∈ c.literals_, l.Variable < n := by
  have hn : 0 < n := by omega
  unfold inspectWatcher
  split
  · exact ⟨h, le_refl _, hh⟩
  · cases hget : heap.get? watcher.clause with
    | none => exact ⟨h, le_refl _, hh⟩
    | some c =>
      have hc : ∀ l ∈ c.literals_, l.Variable < n :=
        hh c (List.mem_iff_getElem?.2 ⟨watcher.clause, by
          rw [List.get?_eq_getElem?] at hget
          exact hget⟩)
      have hother : (if c.FirstLiteral = false_literal then c.SecondLiteral
          else c.FirstLiteral).Variable < n := by
        split
        · exact getD_Variable_lt c.literals_ n hn hc 1
        · exact getD_Variable_lt c.literals_ n hn hc 0
      have htail : ∀ l ∈ c.literals_.drop 2, l.Variable < n :=
        fun l hl => hc l (List.mem_of_mem_drop hl)
      dsimp only
      generalize (if c.FirstLiteral = false_literal then c.SecondLiteral
          else c.FirstLiteral) = other at hother ⊢
      cases hfind : (c.literals_.drop 2).find? (fun l => !trail.IsLiteralFalse l) with
      | some replacement =>
        dsimp only
        refine ⟨h, le_refl _, heap_set_in_range heap n hh _ _ ?_⟩
        intro l hl
        dsimp only at hl
        rcases List.mem_cons.1 hl with hl | hl
        · rw [hl]
          exact hother
        · rcases List.mem_cons.1 hl with hl | hl
          · rw [hl]
            exact htail _ (List.mem_of_find?_eq_some hfind)
          · rcases List.mem_append.1 hl with hl | hl
            · exact htail l (List.mem_of_mem_erase hl)
            · rw [List.mem_singleton.1 hl]
              exact hfl
      | none =>
        dsimp only
        have hheap1 : ∀ c1 ∈ heap.set watcher.clause
            { c with literals_ := other :: false_literal :: c.literals_.drop 2 },
            ∀ l ∈ c1.literals_, l.Variable < n := by
          apply heap_set_in_range heap n hh
          intro l hl
          dsimp only at hl
          rcases List.mem_cons.1 hl with hl | hl
          · rw [hl]
            exact hother
          · rcases List.mem_cons.1 hl with hl | hl
            · rw [hl]
              exact hfl
            · exact htail l hl
        by_cases hof : trail.IsLiteralFalse other = true
        · rw [if_pos hof]
          exact ⟨h, le_refl _, hheap1⟩
        · rw [if_neg hof]
          by_cases hot : trail.IsLiteralTrue other = true
          · rw [if_pos hot]
            exact ⟨h, le_refl _, hheap1⟩
          · rw [if_neg hot]
            refine ⟨h.Enqueue _ _ (by simpa using hof) (by simpa using hot) hother, ?_, hheap1⟩
            rw [Trail.Index_Enqueue]
            omega

theorem inspectWatchers_within (n : Nat) (false_literal : Literal)
    (hfl : false_literal.Variable < n) :
    ∀ (watchers : List Watcher) (w : LiteralWatchers) (heap : ClauseHeap) (trail : Trail),
    trail.Within n → (∀ c ∈ heap, ∀ l ∈ c.literals_, l.Variable < n) →
    (inspectWatchers false_literal watchers w heap trail).2.2.2.Within n ∧
    trail.Index ≤ (inspectWatchers false_literal watchers w heap trail).2.2.2.Index ∧
    ∀ c ∈ (inspectWatchers false_literal watchers w heap trail).2.2.1,
      ∀ l ∈ c.literals_, l.Variable < n
  | [], w, heap, trail, h, hh => ⟨h, le_refl _, hh⟩
  | watcher :: rest, w, heap, trail, h, hh => by
    obtain ⟨h1, h2, h3⟩ := inspectWatcher_within n false_literal watcher w heap trail h hfl hh
    unfold inspectWatchers
    generalize inspectWatcher false_literal watcher w heap trail = r at h1 h2 h3
    obtain ⟨ok, w1, heap1, trail1⟩ := r
    cases ok with
    | false => exact ⟨h1, h2, h3⟩
    | true =>
      obtain ⟨h4, h5, h6⟩ := inspectWatchers_within n false_literal hfl rest w1 heap1 trail1 h1 h3
      exact ⟨h4, le_trans h2 h5, h6⟩

theorem PropagateOnFalse_within (n : Nat) (w : LiteralWatchers) (heap : ClauseHeap)
    (false_literal : Literal) (trail : Trail) (hfl : false_literal.Variable < n)
    (h : trail.Within n) (hh : ∀ c ∈ heap, ∀ l ∈ c.literals_, l.Variable < n) :
    (w.PropagateOnFalse heap false_literal trail).2.2.2.Within n ∧
    trail.Index ≤ (w.PropagateOnFalse heap false_literal trail).2.2.2.Index ∧
    ∀ c ∈ (w.PropagateOnFalse heap false_literal trail).2.2.1,
      ∀ l ∈ c.literals_, l.Variable < n := by
  unfold LiteralWatchers.PropagateOnFalse
  exact inspectWatchers_within n false_literal hfl _ _ heap trail h hh

theorem firstNonSymmetric_spec (trail : Trail) (upto : Nat)
    (permutation : List (Literal × Literal)) (i : Nat) (image : Literal)
    (h : firstNonSymmetric trail upto permutation = some (i, image)) :
    i < trail.Index ∧ image = permutationImage permutation (trail.get i) ∧
    trail.IsLiteralTrue image = false := by
  unfold firstNonSymmetric at h
  rw [Option.map_eq_some'] at h
  obtain ⟨j, hfind, hj⟩ := h
  simp only [Prod.mk.injEq] at hj
  obtain ⟨rfl, rfl⟩ := hj
  have := List.find?_some hfind
  simp only [Bool.and_eq_true, decide_eq_true_eq, Bool.not_eq_true'] at this
  exact ⟨this.1, rfl, this.2⟩

theorem findNonSymmetric_spec (trail : Trail) (upto : Nat) :
    ∀ (permutations : List (List (Literal × Literal))) (index p i : Nat) (image : Literal),
    findNonSymmetric trail upto index permutations = some (p, i, image) →
    ∃ permutation ∈ permutations, i < trail.Index ∧
      image = permutationImage permutation (trail.get i) ∧ trail.IsLiteralTrue image = false
  | [], _, _, _, _, h => by simp [findNonSymmetric] at h
  | permutation :: rest, index, p, i, image, h => by
    unfold findNonSymmetric at h
    cases hf : firstNonSymmetric trail upto permutation with
    | none =>
      rw [hf] at h
      obtain ⟨q, hq, hrest⟩ := findNonSymmetric_spec trail upto rest (index + 1) p i image h
      exact ⟨q, List.mem_cons_of_mem _ hq, hrest⟩
    | some r =>
      obtain ⟨i2, image2⟩ := r
      rw [hf] at h
      simp only [Option.some.injEq, Prod.mk.injEq] at h
      obtain ⟨-, rfl, rfl⟩ := h
      exact ⟨permutation, List.mem_cons_self _ _, firstNonSymmetric_spec trail upto permutation _ _ hf⟩

/-- A call of `PropagateNext` of the symmetry propagator keeps the trail well
formed and the permutations; when it returns true, either the cursor moved by
one and the trail is the same, or one literal was enqueued. -/
theorem symmetry_PropagateNext_within (n : Nat) (sp : SymmetryPropagator) (trail : Trail)
    (h : trail.Within n)
    (hp : ∀ p ∈ sp.permutations_, ∀ pair ∈ p, pair.2.Variable < n) :
    (sp.PropagateNext trail).2.2.Within n ∧
    trail.Index ≤ (sp.PropagateNext trail).2.2.Index ∧
    (sp.PropagateNext trail).2.1.permutations_ = sp.permutations_ ∧
    ((sp.PropagateNext trail).1 = true →
      ((sp.PropagateNext trail).2.1.propagation_trail_index_ = sp.propagation_trail_index_ + 1 ∧
        (sp.PropagateNext trail).2.2.Index = trail.Index) ∨
      ((sp.PropagateNext trail).2.1.propagation_trail_index_ = sp.propagation_trail_index_ ∧
        (sp.PropagateNext trail).2.2.Index = trail.Index + 1)) := by
  unfold SymmetryPropagator.PropagateNext
  cases hfind : findNonSymmetric trail sp.propagation_trail_index_ 0 sp.permutations_ with
  | none => exact ⟨h, le_refl _, rfl, fun _ => Or.inl ⟨rfl, rfl⟩⟩
  | some r =>
    obtain ⟨p, i, image⟩ := r
    dsimp only
    obtain ⟨permutation, hperm, hi, himage, hnt⟩ :=
      findNonSymmetric_spec trail sp.propagation_trail_index_ sp.permutations_ 0 p i image hfind
    by_cases hf : trail.IsLiteralFalse image = true
    · rw [if_pos hf]
      exact ⟨h, le_refl _, rfl, fun hc => Bool.noConfusion hc⟩
    · rw [if_neg hf]
      have hrange : image.Variable < n := by
        rw [himage]
        unfold permutationImage
        cases hpair : permutation.find? (fun pair => decide (pair.1 = trail.get i)) with
        | some pair => exact hp permutation hperm pair (List.mem_of_find?_eq_some hpair)
        | none =>
          exfalso
          rw [himage] at hnt
          unfold permutationImage at hnt
          rw [hpair] at hnt
          dsimp only at hnt
          have hlt : i < trail.entries.length := hi
          have htrue := trail.IsLiteralTrue_of_getElem? i trail.entries[i]
            (List.getElem?_eq_getElem hlt)
          rw [← trail.get_of_getElem? i trail.entries[i] (List.getElem?_eq_getElem hlt)]
            at htrue
          rw [hnt] at htrue
          exact Bool.noConfusion htrue
      refine ⟨h.Enqueue _ _ (by simpa using hf) hnt hrange, ?_, rfl,
        fun _ => Or.inr ⟨rfl, Trail.Index_Enqueue _ _ _⟩⟩
      rw [Trail.Index_Enqueue]
      omega

/-- The scan of `Propagate` keeps the trail well formed and does not shorten
it. -/
theorem propagateScan_within (n : Nat) (hn : 0 < n) (c : UpperBoundedLinearConstraint)
    (self trail_index : Nat) (hc : ∀ l ∈ c.literals_, l.Variable < n) :
    ∀ (count i : Nat) (st : PropagateScan), st.trail.Within n →
    (propagateScan c self trail_index count i st).trail.Within n ∧
    st.trail.Index ≤ (propagateScan c self trail_index count i st).trail.Index
  | 0, _, st, h => ⟨h, le_refl _⟩
  | count + 1, i, st, h => by
    unfold propagateScan
    dsimp only
    have hl := getD_Variable_lt c.literals_ n hn hc i
    by_cases hf : st.trail.IsLiteralFalse (c.literals_.getD i ⟨0⟩) = true
    · rw [if_pos hf]
      exact propagateScan_within n hn c self trail_index hc count (i + 1) st h
    · rw [if_neg hf]
      by_cases ht : st.trail.IsLiteralTrue (c.literals_.getD i ⟨0⟩) = true
      · rw [if_pos ht]
        split
        · exact ⟨h, le_refl _⟩
        · exact propagateScan_within n hn c self trail_index hc count (i + 1) st h
      · rw [if_neg ht]
        have enq : ∀ (info : AssignmentInfo) (first : Option Nat),
            (propagateScan c self trail_index count (i + 1)
              { st with trail := st.trail.Enqueue (c.literals_.getD i ⟨0⟩).Negated info,
                        first_propagated_variable := first }).trail.Within n ∧
            st.trail.Index ≤ (propagateScan c self trail_index count (i + 1)
              { st with trail := st.trail.Enqueue (c.literals_.getD i ⟨0⟩).Negated info,
                        first_propagated_variable := first }).trail.Index := by
          intro info first
          have h1 : (st.trail.Enqueue (c.literals_.getD i ⟨0⟩).Negated info).Within n :=
            h.Enqueue _ info
              (by
                rw [Trail.IsLiteralFalse_Negated]
                simpa using ht)
              (by
                have := Trail.IsLiteralTrue_Negated st.trail (c.literals_.getD i ⟨0⟩)
                rw [this]
                simpa using hf)
              (by rw [Literal.Variable_Negated]; exact hl)
          obtain ⟨h2, h3⟩ := propagateScan_within n hn c self trail_index hc count (i + 1)
            { st with trail := st.trail.Enqueue (c.literals_.getD i ⟨0⟩).Negated info,
                      first_propagated_variable := first } h1
          refine ⟨h2, le_trans ?_ h3⟩
          show st.trail.Index ≤ (st.trail.Enqueue _ info).Index
          rw [Trail.Index_Enqueue]
          omega
        cases st.first_propagated_variable with
        | none => exact enq _ _
        | some first => exact enq _ _

theorem constraint_Propagate_within (n : Nat) (hn : 0 < n) (c : UpperBoundedLinearConstraint)
    (self trail_index : Nat) (slack : Int) (trail : Trail)
    (hc : ∀ l ∈ c.literals_, l.Variable < n) (h : trail.Within n) :
    (c.Propagate self trail_index slack trail).2.2.2.1.Within n ∧
    trail.Index ≤ (c.Propagate self trail_index slack trail).2.2.2.1.Index := by
  rw [(Propagate_components c self trail_index slack trail).1]
  exact propagateScan_within n hn
    { c with index_ := (lowerIndexLoop c.coeffs_ (c.GetCurrentRhsFromSlack slack)
      (c.index_ + 1).toNat : Int) - 1 } self trail_index hc _ _
    { trail := trail, first_propagated_variable := none, conflict := none } h

theorem Create_nil_literals (node : ResolutionNodePointer) :
    (UpperBoundedLinearConstraint.Create [] node).literals_ = [] := rfl

/-- The loop of `PropagateNext` keeps the trail well formed, does not shorten
it, and keeps the literals of the constraints in range. -/
theorem propagateNextLoop_within (n : Nat) (hn : 0 < n) (true_literal : Literal) (order : Nat) :
    ∀ (upd : List (Literal × ConstraintIndexWithCoeff)) (st : PropagateNextState),
    st.trail.Within n →
    (∀ c ∈ st.constraints_, ∀ l ∈ c.literals_, l.Variable < n) →
    (propagateNextLoop true_literal order upd st).2.trail.Within n ∧
    st.trail.Index ≤ (propagateNextLoop true_literal order upd st).2.trail.Index ∧
    ∀ c ∈ (propagateNextLoop true_literal order upd st).2.constraints_,
      ∀ l ∈ c.literals_, l.Variable < n
  | [], st, h, hc => ⟨h, le_refl _, hc⟩
  | (l, update) :: rest, st, h, hc => by
    unfold propagateNextLoop
    by_cases hl : l ≠ true_literal
    · rw [if_pos hl]
      exact propagateNextLoop_within n hn true_literal order rest st h hc
    · rw [if_neg hl]
      dsimp only
      split
      · -- the constraint is inspected
        have hcin : ∀ x ∈ (st.constraints_.getD update.index
            (UpperBoundedLinearConstraint.Create [] none)).literals_, x.Variable < n := by
          rw [List.getD_eq_getElem?_getD]
          cases hget : st.constraints_[update.index]? with
          | none =>
            intro x hx
            simp [Create_nil_literals] at hx
          | some c => exact hc c (List.mem_iff_getElem?.2 ⟨_, hget⟩)
        obtain ⟨h1, h2⟩ := constraint_Propagate_within n hn _ update.index order
          (sub64 (st.slacks_.getD update.index 0) update.coefficient) st.trail hcin h
        have hvec := (constraint_Propagate_vectors
          (st.constraints_.getD update.index (UpperBoundedLinearConstraint.Create [] none))
          update.index order
          (sub64 (st.slacks_.getD update.index 0) update.coefficient) st.trail).1
        generalize (st.constraints_.getD update.index
          (UpperBoundedLinearConstraint.Create [] none)).Propagate update.index order
          (sub64 (st.slacks_.getD update.index 0) update.coefficient) st.trail = r
          at h1 h2 hvec
        obtain ⟨ok, c1, slack1, trail1, conflict⟩ := r
        dsimp only at h1 h2 hvec ⊢
        have htrail : (if ok = true then trail1
            else (trail1.SetFailingClause (conflict.getD st.conflict_scratchpad_)
              ).SetFailingResolutionNode c1.node_).Within n ∧
            st.trail.Index ≤ (if ok = true then trail1
            else (trail1.SetFailingClause (conflict.getD st.conflict_scratchpad_)
              ).SetFailingResolutionNode c1.node_).Index := by
          split
          · exact ⟨h1, h2⟩
          · exact ⟨h1, h2⟩
        have hcons : ∀ c ∈ st.constraints_.set update.index c1,
            ∀ x ∈ c.literals_, x.Variable < n := by
          intro c hcm
          rcases List.mem_or_eq_of_mem_set hcm with hm | hm
          · exact hc c hm
          · rw [hm, hvec]
            exact hcin
        obtain ⟨h3, h4, h5⟩ := propagateNextLoop_within n hn true_literal order rest
          { constraints_ := st.constraints_.set update.index c1,
            slacks_ := (st.slacks_.set update.index
              (sub64 (st.slacks_.getD update.index 0) update.coefficient)).set update.index slack1,
            trail := (if ok = true then trail1
              else (trail1.SetFailingClause (conflict.getD st.conflict_scratchpad_)
                ).SetFailingResolutionNode c1.node_),
            conflict_scratchpad_ := conflict.getD st.conflict_scratchpad_,
            num_constraint_lookups_ := st.num_constraint_lookups_ + 1,
            conflict := !ok } htrail.1 hcons
        exact ⟨h3, le_trans htrail.2 h4, h5⟩
      · exact propagateNextLoop_within n hn true_literal order rest
          { st with slacks_ := (st.slacks_.set update.index
            (sub64 (st.slacks_.getD update.index 0) update.coefficient)) } h hc

/-- A call of `PropagateNext` of the linear constraints keeps the trail well
formed, does not shorten it, keeps the literals of the constraints in range and
moves the cursor by one. -/
theorem pb_PropagateNext_within (n : Nat) (hn : 0 < n) (pb : PbConstraints) (trail : Trail)
    (h : trail.Within n)
    (hc : ∀ c ∈ pb.constraints_, ∀ l ∈ c.literals_, l.Variable < n) :
    (pb.PropagateNext trail).2.2.Within n ∧
    trail.Index ≤ (pb.PropagateNext trail).2.2.Index ∧
    (∀ c ∈ (pb.PropagateNext trail).2.1.constraints_, ∀ l ∈ c.literals_, l.Variable < n) ∧
    (pb.PropagateNext trail).2.1.propagation_trail_index_ = pb.propagation_trail_index_ + 1 := by
  obtain ⟨h1, h2, h3⟩ := propagateNextLoop_within n hn (trail.get pb.propagation_trail_index_)
    pb.propagation_trail_index_ pb.to_update_
    { constraints_ := pb.constraints_, slacks_ := pb.slacks_, trail := trail,
      conflict_scratchpad_ := pb.conflict_scratchpad_,
      num_constraint_lookups_ := pb.num_constraint_lookups_, conflict := false } h hc
  unfold PbConstraints.PropagateNext
  dsimp only
  exact ⟨h1, h2, h3, rfl⟩

/-- The loop of `Propagate` over the binary clauses ends; when it returns true
the invariant holds, the trail is not shorter and the cursor is at its end. -/
theorem propagateBinaryLoop_total : ∀ (k fuel : Nat) (s : SatSolver),
    s.PropagationInvariant →
    s.num_variables_ - s.binary_propagation_trail_index_ ≤ k → k < fuel →
    ∃ (b : Bool) (s1 : SatSolver), propagateBinaryLoop fuel s = Except.ok (b, s1) ∧
      (b = true → s1.PropagationInvariant ∧ s1.num_variables_ = s.num_variables_ ∧
        s.trail_.Index ≤ s1.trail_.Index ∧
        s1.binary_propagation_trail_index_ = s1.trail_.Index ∧
        s1.binary_implication_graph_ = s.binary_implication_graph_)
  | _, 0, _, _, _, hf => absurd hf (Nat.not_lt_zero _)
  | k, fuel + 1, s, h, hk, hf => by
    unfold propagateBinaryLoop
    by_cases hc : s.binary_propagation_trail_index_ < s.trail_.Index
    · rw [if_pos hc]
      dsimp only
      have hle := h.trail.Index_le
      obtain ⟨h1, h2⟩ := PropagateOnTrue_within s.binary_implication_graph_ s.num_variables_
        (s.trail_.get s.binary_propagation_trail_index_) s.trail_ h.trail h.binary
      generalize s.binary_implication_graph_.PropagateOnTrue
        (s.trail_.get s.binary_propagation_trail_index_) s.trail_ = r at h1 h2
      obtain ⟨ok, trail1⟩ := r
      dsimp only at h1 h2 ⊢
      cases ok with
      | false => exact ⟨false, _, rfl, fun hb => Bool.noConfusion hb⟩
      | true =>
        rw [if_pos rfl]
        cases k with
        | zero => omega
        | succ k =>
          obtain ⟨b, s1, hloop, hres⟩ := propagateBinaryLoop_total k fuel
            { s with binary_propagation_trail_index_ := s.binary_propagation_trail_index_ + 1,
                     trail_ := trail1 }
            ⟨h1, h.binary, h.clauses, h.symmetry, h.linear, le_trans h.clause_cursor h2,
              by show s.binary_propagation_trail_index_ + 1 ≤ trail1.Index; omega⟩
            (by show s.num_variables_ - (s.binary_propagation_trail_index_ + 1) ≤ k; omega)
            (by omega)
          refine ⟨b, s1, hloop, fun hb => ?_⟩
          obtain ⟨r1, r2, r3, r4, r5⟩ := hres hb
          exact ⟨r1, r2, le_trans h2 r3, r4, r5⟩
    · rw [if_neg hc]
      refine ⟨true, s, rfl, fun _ => ⟨h, rfl, le_refl _, ?_, rfl⟩⟩
      have := h.binary_cursor
      omega

/-- The loop of `Propagate` over the clauses ends; when it returns true the
invariant holds, the trail is not shorter, and the cursor is at the end of the
trail if the trail has still the length `old_index`. -/
theorem propagateClausesLoop_total (old_index : Nat) : ∀ (k fuel : Nat) (s : SatSolver),
    s.PropagationInvariant →
    old_index - s.propagation_trail_index_ ≤ k → k < fuel →
    ∃ (b : Bool) (s1 : SatSolver), propagateClausesLoop old_index fuel s = Except.ok (b, s1) ∧
      (b = true → s1.PropagationInvariant ∧ s1.num_variables_ = s.num_variables_ ∧
        s.trail_.Index ≤ s1.trail_.Index ∧
        (s1.trail_.Index = old_index → s1.propagation_trail_index_ = s1.trail_.Index) ∧
        s1.binary_propagation_trail_index_ = s.binary_propagation_trail_index_ ∧
        s1.binary_implication_graph_ = s.binary_implication_graph_)
  | _, 0, _, _, _, hf => absurd hf (Nat.not_lt_zero _)
  | k, fuel + 1, s, h, hk, hf => by
    unfold propagateClausesLoop
    by_cases hc : s.trail_.Index = old_index ∧ s.propagation_trail_index_ < old_index
    · rw [if_pos hc]
      dsimp only
      obtain ⟨-, hlit⟩ := h.trail.pos_of_lt s.propagation_trail_index_ (by omega)
      obtain ⟨h1, h2, h3⟩ := PropagateOnFalse_within s.num_variables_ s.watched_clauses_
        s.clause_heap_ (s.trail_.get s.propagation_trail_index_).Negated s.trail_
        (by rw [Literal.Variable_Negated]; exact hlit) h.trail h.clauses
      generalize s.watched_clauses_.PropagateOnFalse s.clause_heap_
        (s.trail_.get s.propagation_trail_index_).Negated s.trail_ = r at h1 h2 h3
      obtain ⟨ok, watchers, heap, trail1⟩ := r
      dsimp only at h1 h2 h3 ⊢
      cases ok with
      | false => exact ⟨false, _, rfl, fun hb => Bool.noConfusion hb⟩
      | true =>
        rw [if_pos rfl]
        cases k with
        | zero => omega
        | succ k =>
          obtain ⟨b, s1, hloop, hres⟩ := propagateClausesLoop_total old_index k fuel
            { s with propagation_trail_index_ := s.propagation_trail_index_ + 1,
                     watched_clauses_ := watchers, clause_heap_ := heap, trail_ := trail1 }
            ⟨h1, h.binary, h3, h.symmetry, h.linear,
              by show s.propagation_trail_index_ + 1 ≤ trail1.Index; omega,
              le_trans h.binary_cursor h2⟩
            (by show old_index - (s.propagation_trail_index_ + 1) ≤ k; omega)
            (by omega)
          refine ⟨b, s1, hloop, fun hb => ?_⟩
          obtain ⟨r1, r2, r3, r4, r5, r6⟩ := hres hb
          exact ⟨r1, r2, le_trans h2 r3, r4, r5, r6⟩
    · rw [if_neg hc]
      refine ⟨true, s, rfl, fun _ => ⟨h, rfl, le_refl _, fun heq => ?_, rfl, rfl⟩⟩
      have := h.clause_cursor
      have hnot : ¬ s.propagation_trail_index_ < old_index := fun hlt => hc ⟨heq, hlt⟩
      omega

/-- The loop of `Propagate` over the symmetries ends; when it returns true the
invariant holds, the trail is not shorter, and no symmetry propagation is needed
if the trail has still the length `old_index`. -/
theorem propagateSymmetryLoop_total (old_index : Nat) : ∀ (k fuel : Nat) (s : SatSolver),
    s.PropagationInvariant →
    (s.trail_.Index = old_index →
      s.trail_.Index - s.symmetry_propagator_.propagation_trail_index_ ≤ k) → k < fuel →
    ∃ (b : Bool) (s1 : SatSolver),
      propagateSymmetryLoop old_index fuel s = Except.ok (b, s1) ∧
      (b = true → s1.PropagationInvariant ∧ s1.num_variables_ = s.num_variables_ ∧
        s.trail_.Index ≤ s1.trail_.Index ∧
        (s1.trail_.Index = old_index →
          s1.symmetry_propagator_.PropagationNeeded s1.trail_ = false) ∧
        s1.propagation_trail_index_ = s.propagation_trail_index_ ∧
        s1.binary_propagation_trail_index_ = s.binary_propagation_trail_index_ ∧
        s1.binary_implication_graph_ = s.binary_implication_graph_)
  | _, 0, _, _, _, hf => absurd hf (Nat.not_lt_zero _)
  | k, fuel + 1, s, h, hk, hf => by
    unfold propagateSymmetryLoop
    by_cases hc : s.trail_.Index = old_index ∧
        s.symmetry_propagator_.PropagationNeeded s.trail_ = true
    · rw [if_pos hc]
      have hneed : s.symmetry_propagator_.propagation_trail_index_ < s.trail_.Index := by
        simpa [SymmetryPropagator.PropagationNeeded] using hc.2
      obtain ⟨h1, h2, h3, h4⟩ := symmetry_PropagateNext_within s.num_variables_
        s.symmetry_propagator_ s.trail_ h.trail h.symmetry
      generalize s.symmetry_propagator_.PropagateNext s.trail_ = r at h1 h2 h3 h4
      obtain ⟨ok, sp, trail1⟩ := r
      dsimp only at h1 h2 h3 h4 ⊢
      cases ok with
      | false => exact ⟨false, _, rfl, fun hb => Bool.noConfusion hb⟩
      | true =>
        rw [if_pos rfl]
        have hk1 := hk hc.1
        cases k with
        | zero => omega
        | succ k =>
          obtain ⟨b, s1, hloop, hres⟩ := propagateSymmetryLoop_total old_index k fuel
            { s with symmetry_propagator_ := sp, trail_ := trail1 }
            ⟨h1, h.binary, h.clauses, by rw [h3]; exact h.symmetry, h.linear,
              le_trans h.clause_cursor h2, le_trans h.binary_cursor h2⟩
            (by
              intro heq
              show trail1.Index - sp.propagation_trail_index_ ≤ k
              rcases h4 rfl with ⟨e1, e2⟩ | ⟨e1, e2⟩
              · omega
              · have : trail1.Index = old_index := heq
                omega)
            (by omega)
          refine ⟨b, s1, hloop, fun hb => ?_⟩
          obtain ⟨r1, r2, r3, r4, r5, r6, r7⟩ := hres hb
          exact ⟨r1, r2, le_trans h2 r3, r4, r5, r6, r7⟩
    · rw [if_neg hc]
      refine ⟨true, s, rfl, fun _ => ⟨h, rfl, le_refl _, fun heq => ?_, rfl, rfl, rfl⟩⟩
      by_contra hne
      exact hc ⟨heq, by simpa using hne⟩

/-- The loop of `Propagate` over the linear constraints ends; when it returns
true the invariant holds, the trail is not shorter, and no propagation of the
linear constraints is needed if the trail has still the length `old_index`. -/
theorem propagatePbLoop_total (old_index : Nat) : ∀ (k fuel : Nat) (s : SatSolver),
    s.PropagationInvariant →
    (s.trail_.Index = old_index →
      s.trail_.Index - s.pb_constraints_.propagation_trail_index_ ≤ k) → k < fuel →
    ∃ (b : Bool) (s1 : SatSolver),
      propagatePbLoop old_index fuel s = Except.ok (b, s1) ∧
      (b = true → s1.PropagationInvariant ∧ s1.num_variables_ = s.num_variables_ ∧
        s.trail_.Index ≤ s1.trail_.Index ∧
        (s1.trail_.Index = old_index →
          s1.pb_constraints_.PropagationNeeded s1.trail_ = false) ∧
        s1.propagation_trail_index_ = s.propagation_trail_index_ ∧
        s1.binary_propagation_trail_index_ = s.binary_propagation_trail_index_ ∧
        s1.binary_implication_graph_ = s.binary_implication_graph_ ∧
        s1.symmetry_propagator_ = s.symmetry_propagator_)
  | _, 0, _, _, _, hf => absurd hf (Nat.not_lt_zero _)
  | k, fuel + 1, s, h, hk, hf => by
    unfold propagatePbLoop
    by_cases hc : s.trail_.Index = old_index ∧
        s.pb_constraints_.PropagationNeeded s.trail_ = true
    · rw [if_pos hc]
      have hneed : s.pb_constraints_.propagation_trail_index_ < s.trail_.Index := by
        simpa [PbConstraints.PropagationNeeded] using hc.2
      have hn : 0 < s.num_variables_ := by
        have := h.trail.Index_le
        omega
      obtain ⟨h1, h2, h3, h4⟩ := pb_PropagateNext_within s.num_variables_ hn
        s.pb_constraints_ s.trail_ h.trail h.linear
      generalize s.pb_constraints_.PropagateNext s.trail_ = r at h1 h2 h3 h4
      obtain ⟨ok, pb, trail1⟩ := r
      dsimp only at h1 h2 h3 h4 ⊢
      cases ok with
      | false => exact ⟨false, _, rfl, fun hb => Bool.noConfusion hb⟩
      | true =>
        rw [if_pos rfl]
        have hk1 := hk hc.1
        cases k with
        | zero => omega
        | succ k =>
          obtain ⟨b, s1, hloop, hres⟩ := propagatePbLoop_total old_index k fuel
            { s with pb_constraints_ := pb, trail_ := trail1 }
            ⟨h1, h.binary, h.clauses, h.symmetry, h3,
              le_trans h.clause_cursor h2, le_trans h.binary_cursor h2⟩
            (by
              intro heq
              show trail1.Index - pb.propagation_trail_index_ ≤ k
              have : trail1.Index = old_index := heq
              omega)
            (by omega)
          refine ⟨b, s1, hloop, fun hb => ?_⟩
          obtain ⟨r1, r2, r3, r4, r5, r6, r7, r8⟩ := hres hb
          exact ⟨r1, r2, le_trans h2 r3, r4, r5, r6, r7, r8⟩
    · rw [if_neg hc]
      refine ⟨true, s, rfl, fun _ => ⟨h, rfl, le_refl _, fun heq => ?_, rfl, rfl, rfl, rfl⟩⟩
      by_contra hne
      exact hc ⟨heq, by simpa using hne⟩

/-- The method `Propagate` ends as soon as the fuel exceeds the number of
variables plus the number of places left on the trail; when it returns true the
fixpoint of the propagation is reached and the invariant holds. -/
theorem Propagate_total : ∀ (k fuel : Nat) (s : SatSolver),
    s.PropagationInvariant →
    s.num_variables_ - s.trail_.Index ≤ k → s.num_variables_ + k < fuel →
    ∃ (b : Bool) (s1 : SatSolver), s.Propagate fuel = Except.ok (b, s1) ∧
      (b = true → s1.PropagationFixpoint ∧ s1.PropagationInvariant ∧
        s1.num_variables_ = s.num_variables_ ∧ s.trail_.Index ≤ s1.trail_.Index)
  | _, 0, _, _, _, hf => absurd hf (Nat.not_lt_zero _)
  | k, fuel + 1, s, h, hk, hf => by
    have hle := h.trail.Index_le
    -- the binary clauses
    have hbin : ∃ (b : Bool) (s1 : SatSolver),
        (if s.binary_implication_graph_.NumberOfImplications ≠ 0 then
          propagateBinaryLoop (fuel + 1) s else Except.ok (true, s)) = Except.ok (b, s1) ∧
        (b = true → s1.PropagationInvariant ∧ s1.num_variables_ = s.num_variables_ ∧
          s.trail_.Index ≤ s1.trail_.Index ∧
          (s1.binary_implication_graph_.NumberOfImplications ≠ 0 →
            s1.binary_propagation_trail_index_ = s1.trail_.Index) ∧
          s1.binary_implication_graph_ = s.binary_implication_graph_) := by
      by_cases hg : s.binary_implication_graph_.NumberOfImplications ≠ 0
      · rw [if_pos hg]
        obtain ⟨b, s1, hloop, hres⟩ := propagateBinaryLoop_total s.num_variables_ (fuel + 1) s h
          (by omega) (by omega)
        refine ⟨b, s1, hloop, fun hb => ?_⟩
        obtain ⟨r1, r2, r3, r4, r5⟩ := hres hb
        exact ⟨r1, r2, r3, fun _ => r4, r5⟩
      · rw [if_neg hg]
        refine ⟨true, s, rfl, fun _ => ⟨h, rfl, le_refl _, fun hne => absurd hne hg, rfl⟩⟩
    unfold SatSolver.Propagate
    obtain ⟨b1, s1, hb1, hr1⟩ := hbin
    rw [hb1]
    cases b1 with
    | false => exact ⟨false, s1, rfl, fun hb => Bool.noConfusion hb⟩
    | true =>
      dsimp only
      obtain ⟨i1, n1, m1, c1, g1⟩ := hr1 rfl
      have hle1 := i1.trail.Index_le
      -- the clauses
      obtain ⟨b2, s2, hb2, hr2⟩ := propagateClausesLoop_total s1.trail_.Index s1.num_variables_
        (fuel + 1) s1 i1 (by omega) (by omega)
      rw [hb2]
      cases b2 with
      | false => exact ⟨false, s2, rfl, fun hb => Bool.noConfusion hb⟩
      | true =>
        dsimp only
        obtain ⟨i2, n2, m2, c2, bc2, g2⟩ := hr2 rfl
        have hle2 := i2.trail.Index_le
        have again : ∀ s3 : SatSolver, s3.PropagationInvariant →
            s3.num_variables_ = s.num_variables_ → s1.trail_.Index < s3.trail_.Index →
            ∃ (b : Bool) (s4 : SatSolver), SatSolver.Propagate fuel s3 = Except.ok (b, s4) ∧
              (b = true → s4.PropagationFixpoint ∧ s4.PropagationInvariant ∧
                s4.num_variables_ = s.num_variables_ ∧ s.trail_.Index ≤ s4.trail_.Index) := by
          intro s3 i3 n3 hgrow
          have hle3 := i3.trail.Index_le
          cases k with
          | zero => omega
          | succ k =>
            obtain ⟨b, s4, hp, hres⟩ := Propagate_total k fuel s3 i3 (by omega) (by omega)
            refine ⟨b, s4, hp, fun hb => ?_⟩
            obtain ⟨r1, r2, r3, r4⟩ := hres hb
            exact ⟨r1, r2, r3.trans n3, by omega⟩
        by_cases hgrow2 : s2.trail_.Index > s1.trail_.Index
        · rw [if_pos hgrow2]
          exact again s2 i2 (n2.trans n1) hgrow2
        · rw [if_neg hgrow2]
          have e2 : s2.trail_.Index = s1.trail_.Index := by omega
          -- the symmetries
          obtain ⟨b3, s3, hb3, hr3⟩ := propagateSymmetryLoop_total s1.trail_.Index
            s2.num_variables_ (fuel + 1) s2 i2 (fun _ => by omega) (by omega)
          rw [hb3]
          cases b3 with
          | false => exact ⟨false, s3, rfl, fun hb => Bool.noConfusion hb⟩
          | true =>
            dsimp only
            obtain ⟨i3, n3, m3, c3, pc3, bc3, g3⟩ := hr3 rfl
            have hle3 := i3.trail.Index_le
            by_cases hgrow3 : s3.trail_.Index > s1.trail_.Index
            · rw [if_pos hgrow3]
              exact again s3 i3 (n3.trans (n2.trans n1)) hgrow3
            · rw [if_neg hgrow3]
              have e3 : s3.trail_.Index = s1.trail_.Index := by omega
              -- the linear constraints
              obtain ⟨b4, s4, hb4, hr4⟩ := propagatePbLoop_total s1.trail_.Index
                s3.num_variables_ (fuel + 1) s3 i3 (fun _ => by omega) (by omega)
              rw [hb4]
              cases b4 with
              | false => exact ⟨false, s4, rfl, fun hb => Bool.noConfusion hb⟩
              | true =>
                dsimp only
                obtain ⟨i4, n4, m4, c4, pc4, bc4, g4, sy4⟩ := hr4 rfl
                by_cases hgrow4 : s4.trail_.Index > s1.trail_.Index
                · rw [if_pos hgrow4]
                  exact again s4 i4 (n4.trans (n3.trans (n2.trans n1))) hgrow4
                · rw [if_neg hgrow4]
                  have e4 : s4.trail_.Index = s1.trail_.Index := by omega
                  refine ⟨true, s4, rfl, fun _ => ⟨⟨?_, ?_, c4 e4, ?_⟩, i4,
                    n4.trans (n3.trans (n2.trans n1)), by omega⟩⟩
                  · rw [pc4, pc3, c2 e2]
                    omega
                  · have := c3 e3
                    rw [sy4]
                    unfold SymmetryPropagator.PropagationNeeded at this ⊢
                    rw [e4, ← e3]
                    exact this
                  · intro hne
                    rw [g4, g3, g2] at hne
                    rw [bc4, bc3, bc2, c1 hne]
                    omega

theorem propagateBinaryLoopTraced_fst : ∀ (fuel : Nat) (s : SatSolver)
    (calls : List (Propagator × Bool)),
    (propagateBinaryLoopTraced fuel s calls).map (fun r => (r.1, r.2.1)) =
      propagateBinaryLoop fuel s
  | 0, _, _ => rfl
  | fuel + 1, s, calls => by
    unfold propagateBinaryLoopTraced propagateBinaryLoop
    by_cases hc : s.binary_propagation_trail_index_ < s.trail_.Index
    · rw [if_pos hc, if_pos hc]
      dsimp only
      generalize s.binary_implication_graph_.PropagateOnTrue
        (s.trail_.get s.binary_propagation_trail_index_) s.trail_ = r
      obtain ⟨ok, trail⟩ := r
      cases ok with
      | false => rfl
      | true =>
        dsimp only
        rw [if_pos rfl, if_pos rfl]
        exact propagateBinaryLoopTraced_fst fuel _ _
    · rw [if_neg hc, if_neg hc]
      rfl

theorem propagateClausesLoopTraced_fst (old_index : Nat) : ∀ (fuel : Nat) (s : SatSolver)
    (calls : List (Propagator × Bool)),
    (propagateClausesLoopTraced old_index fuel s calls).map (fun r => (r.1, r.2.1)) =
      propagateClausesLoop old_index fuel s
  | 0, _, _ => rfl
  | fuel + 1, s, calls => by
    unfold propagateClausesLoopTraced propagateClausesLoop
    by_cases hc : s.trail_.Index = old_index ∧ s.propagation_trail_index_ < old_index
    · rw [if_pos hc, if_pos hc]
      dsimp only
      generalize s.watched_clauses_.PropagateOnFalse s.clause_heap_
        (s.trail_.get s.propagation_trail_index_).Negated s.trail_ = r
      obtain ⟨ok, watchers, heap, trail⟩ := r
      cases ok with
      | false => rfl
      | true =>
        dsimp only
        rw [if_pos rfl, if_pos rfl]
        exact propagateClausesLoopTraced_fst old_index fuel _ _
    · rw [if_neg hc, if_neg hc]
      rfl

theorem propagateSymmetryLoopTraced_fst (old_index : Nat) : ∀ (fuel : Nat) (s : SatSolver)
    (calls : List (Propagator × Bool)),
    (propagateSymmetryLoopTraced old_index fuel s calls).map (fun r => (r.1, r.2.1)) =
      propagateSymmetryLoop old_index fuel s
  | 0, _, _ => rfl
  | fuel + 1, s, calls => by
    unfold propagateSymmetryLoopTraced propagateSymmetryLoop
    by_cases hc : s.trail_.Index = old_index ∧
        s.symmetry_propagator_.PropagationNeeded s.trail_ = true
    · rw [if_pos hc, if_pos hc]
      generalize s.symmetry_propagator_.PropagateNext s.trail_ = r
      obtain ⟨ok, sp, trail⟩ := r
      cases ok with
      | false => rfl
      | true =>
        dsimp only
        rw [if_pos rfl, if_pos rfl]
        exact propagateSymmetryLoopTraced_fst old_index fuel _ _
    · rw [if_neg hc, if_neg hc]
      rfl

theorem propagatePbLoopTraced_fst (old_index : Nat) : ∀ (fuel : Nat) (s : SatSolver)
    (calls : List (Propagator × Bool)),
    (propagatePbLoopTraced old_index fuel s calls).map (fun r => (r.1, r.2.1)) =
      propagatePbLoop old_index fuel s
  | 0, _, _ => rfl
  | fuel + 1, s, calls => by
    unfold propagatePbLoopTraced propagatePbLoop
    by_cases hc : s.trail_.Index = old_index ∧
        s.pb_constraints_.PropagationNeeded s.trail_ = true
    · rw [if_pos hc, if_pos hc]
      generalize s.pb_constraints_.PropagateNext s.trail_ = r
      obtain ⟨ok, pb, trail⟩ := r
      cases ok with
      | false => rfl
      | true =>
        dsimp only
        rw [if_pos rfl, if_pos rfl]
        exact propagatePbLoopTraced_fst old_index fuel _ _
    · rw [if_neg hc, if_neg hc]
      rfl

theorem traced_cases {x : Except Abort (Bool × SatSolver × List (Propagator × Bool))}
    {y : Except Abort (Bool × SatSolver)} (h : x.map (fun r => (r.1, r.2.1)) = y) :
    (∃ e, x = Except.error e ∧ y = Except.error e) ∨
    (∃ b s calls, x = Except.ok (b, s, calls) ∧ y = Except.ok (b, s)) := by
  cases x with
  | error e => exact Or.inl ⟨e, rfl, h.symm⟩
  | ok r =>
    obtain ⟨b, s, calls⟩ := r
    exact Or.inr ⟨b, s, calls, rfl, h.symm⟩

/-- The run of `PropagateTraced` is the run of `Propagate`: same result, same
state. -/
theorem PropagateTraced_fst : ∀ (fuel : Nat) (s : SatSolver)
    (calls : List (Propagator × Bool)),
    (s.PropagateTraced fuel calls).map (fun r => (r.1, r.2.1)) = s.Propagate fuel
  | 0, _, _ => rfl
  | fuel + 1, s, calls => by
    have hbin : ((if s.binary_implication_graph_.NumberOfImplications ≠ 0 then
        propagateBinaryLoopTraced (fuel + 1) s calls
        else Except.ok (true, s, calls)).map (fun r => (r.1, r.2.1))) =
        (if s.binary_implication_graph_.NumberOfImplications ≠ 0 then
          propagateBinaryLoop (fuel + 1) s else Except.ok (true, s)) := by
      split
      · exact propagateBinaryLoopTraced_fst _ _ _
      · rfl
    unfold SatSolver.PropagateTraced SatSolver.Propagate
    rcases traced_cases hbin with ⟨e, h1, h2⟩ | ⟨b1, s1, calls1, h1, h2⟩
    · rw [h1, h2]
      rfl
    · rw [h1, h2]
      cases b1 with
      | false => rfl
      | true =>
        dsimp only
        rcases traced_cases (propagateClausesLoopTraced_fst s1.trail_.Index (fuel + 1) s1 calls1)
          with ⟨e, h3, h4⟩ | ⟨b2, s2, calls2, h3, h4⟩
        · rw [h3, h4]
          rfl
        · rw [h3, h4]
          cases b2 with
          | false => rfl
          | true =>
            dsimp only
            by_cases hg2 : s2.trail_.Index > s1.trail_.Index
            · rw [if_pos hg2, if_pos hg2]
              exact PropagateTraced_fst fuel s2 calls2
            · rw [if_neg hg2, if_neg hg2]
              rcases traced_cases
                (propagateSymmetryLoopTraced_fst s1.trail_.Index (fuel + 1) s2 calls2)
                with ⟨e, h5, h6⟩ | ⟨b3, s3, calls3, h5, h6⟩
              · rw [h5, h6]
                rfl
              · rw [h5, h6]
                cases b3 with
                | false => rfl
                | true =>
                  dsimp only
                  by_cases hg3 : s3.trail_.Index > s1.trail_.Index
                  · rw [if_pos hg3, if_pos hg3]
                    exact PropagateTraced_fst fuel s3 calls3
                  · rw [if_neg hg3, if_neg hg3]
                    rcases traced_cases
                      (propagatePbLoopTraced_fst s1.trail_.Index (fuel + 1) s3 calls3)
                      with ⟨e, h7, h8⟩ | ⟨b4, s4, calls4, h7, h8⟩
                    · rw [h7, h8]
                      rfl
                    · rw [h7, h8]
                      cases b4 with
                      | false => rfl
                      | true =>
                        dsimp only
                        by_cases hg4 : s4.trail_.Index > s1.trail_.Index
                        · rw [if_pos hg4, if_pos hg4]
                          exact PropagateTraced_fst fuel s4 calls4
                        · rw [if_neg hg4, if_neg hg4]
                          rfl

theorem FailsAtTheEnd.append {b : Bool} {pre new : List (Propagator × Bool)}
    (hpre : ∀ c ∈ pre, c.2 = true) (h : FailsAtTheEnd b new) : FailsAtTheEnd b (pre ++ new) := by
  constructor
  · intro hb c hc
    rcases List.mem_append.1 hc with hc | hc
    · exact hpre c hc
    · exact h.1 hb c hc
  · intro hb
    obtain ⟨init, p, hnew, hinit⟩ := h.2 hb
    refine ⟨pre ++ init, p, by rw [hnew, List.append_assoc], ?_⟩
    intro c hc
    rcases List.mem_append.1 hc with hc | hc
    · exact hpre c hc
    · exact hinit c hc

theorem FailsAtTheEnd.all_true {new : List (Propagator × Bool)}
    (h : FailsAtTheEnd true new) : ∀ c ∈ new, c.2 = true := h.1 rfl

theorem FailsAtTheEnd.nil : FailsAtTheEnd true [] :=
  ⟨fun _ c hc => absurd hc (List.not_mem_nil c), fun h => Bool.noConfusion h⟩

theorem FailsAtTheEnd.failed (p : Propagator) : FailsAtTheEnd false [(p, false)] :=
  ⟨fun h => Bool.noConfusion h, fun _ => ⟨[], p, rfl, fun c hc => absurd hc (List.not_mem_nil c)⟩⟩

theorem propagateBinaryLoopTraced_calls : ∀ (fuel : Nat) (s s1 : SatSolver)
    (calls calls1 : List (Propagator × Bool)) (b : Bool),
    propagateBinaryLoopTraced fuel s calls = Except.ok (b, s1, calls1) →
    ∃ new, calls1 = calls ++ new ∧ FailsAtTheEnd b new
  | 0, _, _, _, _, _, h => by simp [propagateBinaryLoopTraced] at h
  | fuel + 1, s, s1, calls, calls1, b, h => by
    unfold propagateBinaryLoopTraced at h
    by_cases hc : s.binary_propagation_trail_index_ < s.trail_.Index
    · rw [if_pos hc] at h
      dsimp only at h
      generalize s.binary_implication_graph_.PropagateOnTrue
        (s.trail_.get s.binary_propagation_trail_index_) s.trail_ = r at h
      obtain ⟨ok, trail⟩ := r
      cases ok with
      | false =>
        simp only [Bool.false_eq_true, if_false, Except.ok.injEq, Prod.mk.injEq] at h
        obtain ⟨rfl, -, rfl⟩ := h
        exact ⟨[(Propagator.BINARY_CLAUSES, false)], rfl, FailsAtTheEnd.failed _⟩
      | true =>
        dsimp only at h
        rw [if_pos rfl] at h
        obtain ⟨new, hnew, hfail⟩ := propagateBinaryLoopTraced_calls fuel _ s1 _ calls1 b h
        refine ⟨(Propagator.BINARY_CLAUSES, true) :: new, ?_, ?_⟩
        · rw [hnew, List.append_assoc]
          rfl
        · exact @FailsAtTheEnd.append b [(Propagator.BINARY_CLAUSES, true)] new
            (fun c hc => by rw [List.mem_singleton.1 hc]) hfail
    · rw [if_neg hc] at h
      simp only [Except.ok.injEq, Prod.mk.injEq] at h
      obtain ⟨rfl, -, rfl⟩ := h
      exact ⟨[], by simp, FailsAtTheEnd.nil⟩

theorem propagateClausesLoopTraced_calls (old_index : Nat) : ∀ (fuel : Nat) (s s1 : SatSolver)
    (calls calls1 : List (Propagator × Bool)) (b : Bool),
    propagateClausesLoopTraced old_index fuel s calls = Except.ok (b, s1, calls1) →
    ∃ new, calls1 = calls ++ new ∧ FailsAtTheEnd b new
  | 0, _, _, _, _, _, h => by simp [propagateClausesLoopTraced] at h
  | fuel + 1, s, s1, calls, calls1, b, h => by
    unfold propagateClausesLoopTraced at h
    by_cases hc : s.trail_.Index = old_index ∧ s.propagation_trail_index_ < old_index
    · rw [if_pos hc] at h
      dsimp only at h
      generalize s.watched_clauses_.PropagateOnFalse s.clause_heap_
        (s.trail_.get s.propagation_trail_index_).Negated s.trail_ = r at h
      obtain ⟨ok, watchers, heap, trail⟩ := r
      cases ok with
      | false =>
        simp only [Bool.false_eq_true, if_false, Except.ok.injEq, Prod.mk.injEq] at h
        obtain ⟨rfl, -, rfl⟩ := h
        exact ⟨[(Propagator.CLAUSES, false)], rfl, FailsAtTheEnd.failed _⟩
      | true =>
        dsimp only at h
        rw [if_pos rfl] at h
        obtain ⟨new, hnew, hfail⟩ := propagateClausesLoopTraced_calls old_index fuel _ s1 _ calls1 b h
        refine ⟨(Propagator.CLAUSES, true) :: new, ?_, ?_⟩
        · rw [hnew, List.append_assoc]
          rfl
        · exact @FailsAtTheEnd.append b [(Propagator.CLAUSES, true)] new
            (fun c hc => by rw [List.mem_singleton.1 hc]) hfail
    · rw [if_neg hc] at h
      simp only [Except.ok.injEq, Prod.mk.injEq] at h
      obtain ⟨rfl, -, rfl⟩ := h
      exact ⟨[], by simp, FailsAtTheEnd.nil⟩

theorem propagateSymmetryLoopTraced_calls (old_index : Nat) : ∀ (fuel : Nat) (s s1 : SatSolver)
    (calls calls1 : List (Propagator × Bool)) (b : Bool),
    propagateSymmetryLoopTraced old_index fuel s calls = Except.ok (b, s1, calls1) →
    ∃ new, calls1 = calls ++ new ∧ FailsAtTheEnd b new
  | 0, _, _, _, _, _, h => by simp [propagateSymmetryLoopTraced] at h
  | fuel + 1, s, s1, calls, calls1, b, h => by
    unfold propagateSymmetryLoopTraced at h
    by_cases hc : s.trail_.Index = old_index ∧
        s.symmetry_propagator_.PropagationNeeded s.trail_ = true
    · rw [if_pos hc] at h
      dsimp only at h
      generalize s.symmetry_propagator_.PropagateNext s.trail_ = r at h
      obtain ⟨ok, sp, trail⟩ := r
      cases ok with
      | false =>
        simp only [Bool.false_eq_true, if_false, Except.ok.injEq, Prod.mk.injEq] at h
        obtain ⟨rfl, -, rfl⟩ := h
        exact ⟨[(Propagator.SYMMETRY, false)], rfl, FailsAtTheEnd.failed _⟩
      | true =>
        dsimp only at h
        rw [if_pos rfl] at h
        obtain ⟨new, hnew, hfail⟩ := propagateSymmetryLoopTraced_calls old_index fuel _ s1 _ calls1 b h
        refine ⟨(Propagator.SYMMETRY, true) :: new, ?_, ?_⟩
        · rw [hnew, List.append_assoc]
          rfl
        · exact @FailsAtTheEnd.append b [(Propagator.SYMMETRY, true)] new
            (fun c hc => by rw [List.mem_singleton.1 hc]) hfail
    · rw [if_neg hc] at h
      simp only [Except.ok.injEq, Prod.mk.injEq] at h
      obtain ⟨rfl, -, rfl⟩ := h
      exact ⟨[], by simp, FailsAtTheEnd.nil⟩

theorem propagatePbLoopTraced_calls (old_index : Nat) : ∀ (fuel : Nat) (s s1 : SatSolver)
    (calls calls1 : List (Propagator × Bool)) (b : Bool),
    propagatePbLoopTraced old_index fuel s calls = Except.ok (b, s1, calls1) →
    ∃ new, calls1 = calls ++ new ∧ FailsAtTheEnd b new
  | 0, _, _, _, _, _, h => by simp [propagatePbLoopTraced] at h
  | fuel + 1, s, s1, calls, calls1, b, h => by
    unfold propagatePbLoopTraced at h
    by_cases hc : s.trail_.Index = old_index ∧
        s.pb_constraints_.PropagationNeeded s.trail_ = true
    · rw [if_pos hc] at h
      dsimp only at h
      generalize s.pb_constraints_.PropagateNext s.trail_ = r at h
      obtain ⟨ok, pb, trail⟩ := r
      cases ok with
      | false =>
        simp only [Bool.false_eq_true, if_false, Except.ok.injEq, Prod.mk.injEq] at h
        obtain ⟨rfl, -, rfl⟩ := h
        exact ⟨[(Propagator.LINEAR_CONSTRAINTS, false)], rfl, FailsAtTheEnd.failed _⟩
      | true =>
        dsimp only at h
        rw [if_pos rfl] at h
        obtain ⟨new, hnew, hfail⟩ := propagatePbLoopTraced_calls old_index fuel _ s1 _ calls1 b h
        refine ⟨(Propagator.LINEAR_CONSTRAINTS, true) :: new, ?_, ?_⟩
        · rw [hnew, List.append_assoc]
          rfl
        · exact @FailsAtTheEnd.append b [(Propagator.LINEAR_CONSTRAINTS, true)] new
            (fun c hc => by rw [List.mem_singleton.1 hc]) hfail
    · rw [if_neg hc] at h
      simp only [Except.ok.injEq, Prod.mk.injEq] at h
      obtain ⟨rfl, -, rfl⟩ := h
      exact ⟨[], by simp, FailsAtTheEnd.nil⟩

theorem FailsAtTheEnd.chain {b : Bool} {calls calls1 calls2 n1 n2 : List (Propagator × Bool)}
    (h1 : calls1 = calls ++ n1) (f1 : FailsAtTheEnd true n1)
    (h2 : calls2 = calls1 ++ n2) (f2 : FailsAtTheEnd b n2) :
    ∃ new, calls2 = calls ++ new ∧ FailsAtTheEnd b new :=
  ⟨n1 ++ n2, by rw [h2, h1, List.append_assoc], FailsAtTheEnd.append f1.all_true f2⟩

/-- The calls of propagators made by `Propagate`: no call follows a call that
failed, and `Propagate` returns false exactly when its last call failed. -/
theorem PropagateTraced_calls : ∀ (fuel : Nat) (s s1 : SatSolver)
    (calls calls1 : List (Propagator × Bool)) (b : Bool),
    s.PropagateTraced fuel calls = Except.ok (b, s1, calls1) →
    ∃ new, calls1 = calls ++ new ∧ FailsAtTheEnd b new
  | 0, _, _, _, _, _, h => by simp [SatSolver.PropagateTraced] at h
  | fuel + 1, s, s1, calls, calls1, b, h => by
    unfold SatSolver.PropagateTraced at h
    have hbin : ∀ (bb : Bool) (sb : SatSolver) (cb : List (Propagator × Bool)),
        (if s.binary_implication_graph_.NumberOfImplications ≠ 0 then
          propagateBinaryLoopTraced (fuel + 1) s calls
          else Except.ok (true, s, calls)) = Except.ok (bb, sb, cb) →
        ∃ new, cb = calls ++ new ∧ FailsAtTheEnd bb new := by
      intro bb sb cb hb
      split at hb
      · exact propagateBinaryLoopTraced_calls _ _ _ _ _ _ hb
      · simp only [Except.ok.injEq, Prod.mk.injEq] at hb
        obtain ⟨rfl, -, rfl⟩ := hb
        exact ⟨[], by simp, FailsAtTheEnd.nil⟩
    cases hb1 : (if s.binary_implication_graph_.NumberOfImplications ≠ 0 then
        propagateBinaryLoopTraced (fuel + 1) s calls
        else Except.ok (true, s, calls)) with
    | error e =>
      rw [hb1] at h
      simp at h
    | ok r1 =>
      obtain ⟨b1, t1, c1⟩ := r1
      rw [hb1] at h
      obtain ⟨n1, e1, f1⟩ := hbin b1 t1 c1 hb1
      cases b1 with
      | false =>
        simp only [Except.ok.injEq, Prod.mk.injEq] at h
        obtain ⟨rfl, -, rfl⟩ := h
        exact ⟨n1, e1, f1⟩
      | true =>
        dsimp only at h
        cases hb2 : propagateClausesLoopTraced t1.trail_.Index (fuel + 1) t1 c1 with
        | error e =>
          rw [hb2] at h
          simp at h
        | ok r2 =>
          obtain ⟨b2, t2, c2⟩ := r2
          rw [hb2] at h
          obtain ⟨n2, e2, f2⟩ := propagateClausesLoopTraced_calls _ _ _ _ _ _ _ hb2
          obtain ⟨m2, em2, fm2⟩ := FailsAtTheEnd.chain e1 f1 e2 f2
          cases b2 with
          | false =>
            simp only [Except.ok.injEq, Prod.mk.injEq] at h
            obtain ⟨rfl, -, rfl⟩ := h
            exact ⟨m2, em2, fm2⟩
          | true =>
            dsimp only at h
            by_cases hg2 : t2.trail_.Index > t1.trail_.Index
            · rw [if_pos hg2] at h
              obtain ⟨n, en, fn⟩ := PropagateTraced_calls fuel t2 s1 c2 calls1 b h
              exact FailsAtTheEnd.chain em2 fm2 en fn
            · rw [if_neg hg2] at h
              cases hb3 : propagateSymmetryLoopTraced t1.trail_.Index (fuel + 1) t2 c2 with
              | error e =>
                rw [hb3] at h
                simp at h
              | ok r3 =>
                obtain ⟨b3, t3, c3⟩ := r3
                rw [hb3] at h
                obtain ⟨n3, e3, f3⟩ := propagateSymmetryLoopTraced_calls _ _ _ _ _ _ _ hb3
                obtain ⟨m3, em3, fm3⟩ := FailsAtTheEnd.chain em2 fm2 e3 f3
                cases b3 with
                | false =>
                  simp only [Except.ok.injEq, Prod.mk.injEq] at h
                  obtain ⟨rfl, -, rfl⟩ := h
                  exact ⟨m3, em3, fm3⟩
                | true =>
                  dsimp only at h
                  by_cases hg3 : t3.trail_.Index > t1.trail_.Index
                  · rw [if_pos hg3] at h
                    obtain ⟨n, en, fn⟩ := PropagateTraced_calls fuel t3 s1 c3 calls1 b h
                    exact FailsAtTheEnd.chain em3 fm3 en fn
                  · rw [if_neg hg3] at h
                    cases hb4 : propagatePbLoopTraced t1.trail_.Index (fuel + 1) t3 c3 with
                    | error e =>
                      rw [hb4] at h
                      simp at h
                    | ok r4 =>
                      obtain ⟨b4, t4, c4⟩ := r4
                      rw [hb4] at h
                      obtain ⟨n4, e4, f4⟩ := propagatePbLoopTraced_calls _ _ _ _ _ _ _ hb4
                      obtain ⟨m4, em4, fm4⟩ := FailsAtTheEnd.chain em3 fm3 e4 f4
                      cases b4 with
                      | false =>
                        simp only [Except.ok.injEq, Prod.mk.injEq] at h
                        obtain ⟨rfl, -, rfl⟩ := h
                        exact ⟨m4, em4, fm4⟩
                      | true =>
                        dsimp only at h
                        by_cases hg4 : t4.trail_.Index > t1.trail_.Index
                        · rw [if_pos hg4] at h
                          obtain ⟨n, en, fn⟩ := PropagateTraced_calls fuel t4 s1 c4 calls1 b h
                          exact FailsAtTheEnd.chain em4 fm4 en fn
                        · rw [if_neg hg4] at h
                          simp only [Except.ok.injEq, Prod.mk.injEq] at h
                          obtain ⟨rfl, -, rfl⟩ := h
                          exact ⟨m4, em4, fm4⟩

/-- Claim C22.  In a solver state where the trail holds no variable twice, the
literals of the trail and of the constraints are literals of variables of the
solver, and the cursors of the clauses and of the binary clauses are not beyond
the end of the trail, `Propagate` ends as soon as the fuel exceeds twice the
number of variables.  When it returns true, `propagation_trail_index_` is
`trail_.Index()`, neither the symmetry propagator nor the linear constraints
report `PropagationNeeded()`, and `binary_propagation_trail_index_` is
`trail_.Index()` when the binary implication graph is not empty.  Among the
calls of propagators it made, in order, none failed when it returns true, and
when it returns false the call that failed is the last one. -/
theorem Propagate_reaches_fixpoint (s : SatSolver) (h : s.PropagationInvariant) (fuel : Nat)
    (hfuel : 2 * s.num_variables_ < fuel) :
    ∃ (b : Bool) (s1 : SatSolver) (calls : List (Propagator × Bool)),
      s.Propagate fuel = Except.ok (b, s1) ∧
      s.PropagateTraced fuel [] = Except.ok (b, s1, calls) ∧
      (b = true →
        s1.propagation_trail_index_ = s1.trail_.Index ∧
        s1.symmetry_propagator_.PropagationNeeded s1.trail_ = false ∧
        s1.pb_constraints_.PropagationNeeded s1.trail_ = false ∧
        (s1.binary_implication_graph_.NumberOfImplications ≠ 0 →
          s1.binary_propagation_trail_index_ = s1.trail_.Index)) ∧
      (b = true → ∀ c ∈ calls, c.2 = true) ∧
      (b = false → ∃ (init : List (Propagator × Bool)) (p : Propagator),
        calls = init ++ [(p, false)] ∧ ∀ c ∈ init, c.2 = true) := by
  obtain ⟨b, s1, hp, hres⟩ := Propagate_total s.num_variables_ fuel s h (by omega) (by omega)
  rcases traced_cases (PropagateTraced_fst fuel s []) with ⟨e, -, h2⟩ | ⟨b2, s2, calls, h1, h2⟩
  · rw [hp] at h2
    simp at h2
  · rw [hp] at h2
    simp only [Except.ok.injEq, Prod.mk.injEq] at h2
    obtain ⟨rfl, rfl⟩ := h2
    obtain ⟨new, hnew, hfail⟩ := PropagateTraced_calls fuel s s1 [] calls b h1
    rw [List.nil_append] at hnew
    rw [← hnew] at hfail
    exact ⟨b, s1, calls, hp, h1, fun hb => (hres hb).1, hfail.1, hfail.2⟩

/-- Witness of C22: the solver with four variables that holds
`x1 + x2 + x3 >= 2` and `x0 + x1 + x2 <= 1`, with `x3` enqueued. -/
theorem Propagate_reaches_fixpoint_witness :
    pendingUnitExample.PropagationInvariant ∧ 2 * pendingUnitExample.num_variables_ < 9 ∧
    ∃ (b : Bool) (s1 : SatSolver) (calls : List (Propagator × Bool)),
      pendingUnitExample.Propagate 9 = Except.ok (b, s1) ∧
      pendingUnitExample.PropagateTraced 9 [] = Except.ok (b, s1, calls) ∧
      (b = true →
        s1.propagation_trail_index_ = s1.trail_.Index ∧
        s1.symmetry_propagator_.PropagationNeeded s1.trail_ = false ∧
        s1.pb_constraints_.PropagationNeeded s1.trail_ = false ∧
        (s1.binary_implication_graph_.NumberOfImplications ≠ 0 →
          s1.binary_propagation_trail_index_ = s1.trail_.Index)) ∧
      (b = true → ∀ c ∈ calls, c.2 = true) ∧
      (b = false → ∃ (init : List (Propagator × Bool)) (p : Propagator),
        calls = init ++ [(p, false)] ∧ ∀ c ∈ init, c.2 = true) :=
  (fun h => ⟨h, by decide, Propagate_reaches_fixpoint pendingUnitExample h 9 (by decide)⟩)
    ⟨⟨by decide, by decide⟩, by decide, by decide, by decide, by decide, by decide, by decide⟩

/-! ## The invariant of the search through `Solve` -/

/-- A new solver with its variables declared satisfies the invariant of the
search, and nothing is left to propagate in it. -/
theorem SolverInvariant_init (parameters : SatParameters) (num_variables : Nat) (s : SatSolver)
    (h : (SatSolver.Create parameters).SetNumVariables num_variables = Except.ok s) :
    SolverInvariant s ∧ s.PropagationDone := by
  have hs := SearchInvariant_init parameters num_variables s h
  unfold SatSolver.SetNumVariables at h
  rw [if_neg (by simp [SatSolver.Create])] at h
  simp only [Except.ok.injEq] at h
  subst h
  refine ⟨⟨hs.trail, ⟨⟨by simp [SatSolver.Create, Trail.empty], by simp [SatSolver.Create, Trail.empty]⟩,
    by simp [SatSolver.Create], by simp [SatSolver.Create], by simp [SatSolver.Create],
    by simp [SatSolver.Create], by simp [SatSolver.Create, Trail.Index, Trail.empty],
    by simp [SatSolver.Create, Trail.Index, Trail.empty]⟩, hs.slots⟩, ?_⟩
  refine ⟨Or.inr (by simp [SatSolver.Create, Trail.Index, Trail.empty]),
    by simp [SatSolver.Create, Trail.Index, Trail.empty], ?_, ?_⟩
  · simp [SymmetryPropagator.PropagationNeeded, SatSolver.Create, Trail.Index, Trail.empty]
  · simp [PbConstraints.PropagationNeeded, SatSolver.Create, Trail.Index, Trail.empty]

theorem TrailSim.sim_refl (t : Trail) : TrailSim t t := ⟨rfl, rfl⟩

theorem TrailSim.sim_SetFailingResolutionNode {t t1 : Trail} (h : TrailSim t t1)
    (n n1 : ResolutionNodePointer) :
    TrailSim (t.SetFailingResolutionNode n) (t1.SetFailingResolutionNode n1) := h

/-- C28, the claim as stated fails after a clause is learned.  The problem has
the constraints `x0 + x1 + x2 <= 1` and `x0 + x3 + x4 + x5 <= 2` and the clause
`x4 or x5`.  `EnqueueDecisionAndBackjumpOnConflict` decides `x0`: the first
constraint propagates `not x1` and `not x2`.  It decides `x3` next: the second
constraint propagates `not x4` and `not x5`, the clause is in conflict, the
clause `not x3 or not x0` is learned, and the search is back at the level 1
with the trail `x0, not x1, not x2, not x3`.  After `Backtrack(0)` the decision
`x0`, the only decision of that state, is enqueued again: the learned clause
propagates first and the trail is `x0, not x3, not x1, not x2`, the same
literals in another order; the slacks are the same. -/
theorem Backtrack_replay_counterexample :
    (learningProblem.EnqueueDecisionAndBackjumpOnConflict learningEnvironment 30 0 ⟨0⟩).toOption.map
      Prod.snd = some learningFirst ∧
    learningFirst.trail_.entries.map (fun e => e.literal) = [⟨0⟩, ⟨3⟩, ⟨5⟩] ∧
    (learningFirst.EnqueueDecisionAndBackjumpOnConflict learningEnvironment 30 1 ⟨6⟩).toOption.map
      Prod.snd = some learningSecond ∧
    learningSecond.CurrentDecisionLevel = 1 ∧
    (learningSecond.decisions_.take 1).map (fun d => d.literal) = [⟨0⟩] ∧
    learningSecond.trail_.entries.map (fun e => (e.literal, e.level)) =
      [(⟨0⟩, 1), (⟨3⟩, 1), (⟨5⟩, 1), (⟨7⟩, 1)] ∧
    learningSecond.clause_heap_.map (fun c => c.literals_) =
      [[⟨10⟩, ⟨8⟩], [⟨7⟩, ⟨1⟩]] ∧
    (learningSecond.Backtrack 0).trail_.entries = [] ∧
    (learningSecond.Backtrack 0).enqueueDecisions 30 [⟨0⟩] = some learningReplayed ∧
    learningReplayed.trail_.entries.map (fun e => (e.literal, e.level)) =
      [(⟨0⟩, 1), (⟨7⟩, 1), (⟨3⟩, 1), (⟨5⟩, 1)] ∧
    learningReplayed.trail_.entries.map (fun e => e.literal) ≠
      learningSecond.trail_.entries.map (fun e => e.literal) ∧
    learningReplayed.pb_constraints_.slacks_ = learningSecond.pb_constraints_.slacks_ := by
  refine ⟨rfl, by decide, rfl, by decide, by decide, by decide, by decide, by decide, rfl,
    by decide, by decide, by decide⟩

end operations_research.sat
